import Mathlib

/-!
# litewallet-core: hashed set container, Bloom filter, BIP39 mnemonic, fee policy

A shallow embedding of the C sources in Lean.  Pointers to set items are values of a
type `α` with decidable equality (pointer identity); a possibly-NULL pointer is an
`Option α`.  A function whose C execution can hit undefined behaviour (division by
zero, a read outside an allocation, use of an uninitialised table) or can loop for ever
returns `none` in the outer `Option`.  `size_t` is 64 bits wide.
-/

namespace LW

/-! ## LWSet.c -/

/-- The array `tableSizes` of LWSet.c. -/
def tableSizes : List Nat :=
  [1, 3, 7, 13, 23, 37, 59, 97, 149, 227, 347, 523, 787, 1187, 1783, 2677, 4019, 6037, 9059, 13591,
   20389, 30593, 45887, 68863, 103307, 154981, 232487, 348739, 523129, 784697, 1177067, 1765609,
   2648419, 3972643, 5958971, 8938469, 13407707, 20111563, 30167359, 45251077, 67876637, 101814991,
   152722489, 229083739, 343625629, 515438447, 773157683, 1159736527, 1739604799, 2609407319,
   3914111041]

/-- The macro `TABLE_SIZES_LEN`: the number of entries of `tableSizes`. -/
def TABLE_SIZES_LEN : Nat := tableSizes.length

/-- Wrap-around of `size_t` arithmetic. -/
def sizeT (n : Nat) : Nat := n % 2 ^ 64

/-- The struct `LWSetStruct`: the bucket array, the number of buckets and the number of
items.  The `hash` and `eq` members never change after creation and are passed to the
operations as parameters. -/
structure LWSet (α : Type) where
  table : List (Option α)
  size : Nat
  itemCount : Nat
  deriving DecidableEq

/-- The loop `while (i < TABLE_SIZES_LEN && tableSizes[i] < capacity) i++` of `_LWSetInit`,
started at `i`, on the remaining entries of the array. -/
def initLoop (capacity : Nat) : List Nat → Nat → Nat
  | [], i => i
  | t :: rest, i => if t < capacity then initLoop capacity rest (i + 1) else i

/-- The index `i` that `_LWSetInit` computes for a capacity. -/
def initIndex (capacity : Nat) : Nat := initLoop capacity tableSizes 0

/-- The function `_LWSetInit`: when a next larger table size exists the table is allocated
zeroed with that size; otherwise `table` and `size` keep what the struct held before. -/
def _LWSetInit {α : Type} (set : LWSet α) (capacity : Nat) : LWSet α :=
  let i := initIndex capacity
  if i + 1 < TABLE_SIZES_LEN then
    { table := List.replicate (tableSizes.getD (i + 1) 0) none,
      size := tableSizes.getD (i + 1) 0,
      itemCount := 0 }
  else { set with itemCount := 0 }

/-- The function `LWSetNew`: `_LWSetInit` on a struct that `calloc` zeroed (NULL table,
size 0). -/
def LWSetNew {α : Type} (capacity : Nat) : LWSet α :=
  _LWSetInit { table := [], size := 0, itemCount := 0 } capacity

/-- The probe loop shared by `LWSetAdd`, `LWSetRemove`, `LWSetGet` and `LWSetIterate`:
starting at bucket `i`, advance by `i = (i + 1) % size` while the bucket holds an item
that is neither the same pointer as `item` nor `eq` to it.  Returns the index where the
loop stops.  The fuel is the number of buckets that may still be inspected; the table
does not change during the loop, so after `size` unsuccessful steps the C loop would
run for ever (`none`).  A read outside the table is `none` as well. -/
def probe {α : Type} [DecidableEq α] (eq : α → α → Bool) (table : List (Option α))
    (size : Nat) (item : α) : Nat → Nat → Option Nat
  | 0, _ => none
  | fuel + 1, i =>
    match table[i]? with
    | none => none
    | some none => some i
    | some (some t) =>
      if t = item ∨ eq t item = true then some i
      else probe eq table size item fuel ((i + 1) % size)

/-- Content of bucket `i` (`set->table[i]`), NULL when the bucket is empty. -/
def bucket {α : Type} (table : List (Option α)) (i : Nat) : Option α :=
  (table[i]?).join

/-- The loop of `LWSetUnion` over the buckets of the other set, with the add operation
as a parameter. -/
def unionLoop {α : Type} (add : LWSet α → α → Option (Option α × LWSet α)) :
    List (Option α) → LWSet α → Option (LWSet α)
  | [], set => some set
  | none :: rest, set => unionLoop add rest set
  | some t :: rest, set =>
    match add set t with
    | none => none
    | some (_, set1) => unionLoop add rest set1

/-- The function `LWSetUnion` for two distinct sets, with the add operation as a
parameter. -/
def unionWith {α : Type} (add : LWSet α → α → Option (Option α × LWSet α))
    (set other : LWSet α) : Option (LWSet α) :=
  if other.table.length < other.size then none
  else unionLoop add (other.table.take other.size) set

/-- The function `_LWSetGrow`, with the add operation as a parameter.  The new set lives
on the stack: when `_LWSetInit` allocates no table its `table` and `size` are
uninitialised and the result is undefined. -/
def growWith {α : Type} (add : LWSet α → α → Option (Option α × LWSet α))
    (set : LWSet α) (capacity : Nat) : Option (LWSet α) :=
  if initIndex capacity + 1 < TABLE_SIZES_LEN then
    match unionWith add (_LWSetInit { table := [], size := 0, itemCount := 0 } capacity) set with
    | none => none
    | some newSet =>
      some { table := newSet.table, size := newSet.size, itemCount := newSet.itemCount }
  else none

/-- The function `LWSetAdd` with a bound on the nesting depth of `_LWSetGrow` inside
`LWSetAdd` inside `LWSetUnion`.  Returns the replaced item and the new set. -/
def LWSetAddDepth {α : Type} [DecidableEq α] (hash : α → Nat) (eq : α → α → Bool) :
    Nat → LWSet α → α → Option (Option α × LWSet α)
  | 0, _, _ => none
  | depth + 1, set, item =>
    let size := set.size
    if size = 0 then none
    else
      match probe eq set.table size item size (hash item % size) with
      | none => none
      | some i =>
        let t := bucket set.table i
        let set1 : LWSet α :=
          { table := set.table.set i (some item),
            size := size,
            itemCount := if t.isNone then sizeT (set.itemCount + 1) else set.itemCount }
        if set1.itemCount > ((size + 2) / 3) * 2 then
          match growWith (fun s x => LWSetAddDepth hash eq depth s x) set1 size with
          | none => none
          | some set2 => some (t, set2)
        else some (t, set1)

/-- The function `LWSetAdd`.  Every nested `_LWSetGrow` moves to a strictly later entry
of `tableSizes`, so the nesting depth never exceeds the number of entries. -/
def LWSetAdd {α : Type} [DecidableEq α] (hash : α → Nat) (eq : α → α → Bool)
    (set : LWSet α) (item : α) : Option (Option α × LWSet α) :=
  LWSetAddDepth hash eq (TABLE_SIZES_LEN + 1) set item

/-- The function `LWSetUnion`. -/
def LWSetUnion {α : Type} [DecidableEq α] (hash : α → Nat) (eq : α → α → Bool)
    (set other : LWSet α) : Option (LWSet α) :=
  unionWith (LWSetAdd hash eq) set other

/-- The cleanup loop of `LWSetRemove`: every item of the run after the removed bucket is
taken out and added again.  `size` is the bucket count read at entry of `LWSetRemove`;
the fuel bounds the number of iterations. -/
def removeLoop {α : Type} (add : LWSet α → α → Option (Option α × LWSet α)) (size : Nat) :
    Nat → LWSet α → Nat → Option (LWSet α)
  | 0, _, _ => none
  | fuel + 1, set, i =>
    match set.table[i]? with
    | none => none
    | some none => some set
    | some (some t) =>
      let set1 : LWSet α :=
        { table := set.table.set i none,
          size := set.size,
          itemCount := sizeT (set.itemCount + 2 ^ 64 - 1) }
      match add set1 t with
      | none => none
      | some (_, set2) => removeLoop add size fuel set2 ((i + 1) % size)

/-- The function `LWSetRemove`.  Returns the removed item and the new set. -/
def LWSetRemove {α : Type} [DecidableEq α] (hash : α → Nat) (eq : α → α → Bool)
    (set : LWSet α) (item : α) : Option (Option α × LWSet α) :=
  let size := set.size
  if size = 0 then none
  else
    match probe eq set.table size item size (hash item % size) with
    | none => none
    | some i =>
      match bucket set.table i with
      | none => some (none, set)
      | some r =>
        let set1 : LWSet α :=
          { table := set.table.set i none,
            size := set.size,
            itemCount := sizeT (set.itemCount + 2 ^ 64 - 1) }
        match removeLoop (LWSetAdd hash eq) size size set1 ((i + 1) % size) with
        | none => none
        | some set2 => some (some r, set2)

/-- The function `LWSetCount`. -/
def LWSetCount {α : Type} (set : LWSet α) : Nat := set.itemCount

/-- The function `LWSetGet`. -/
def LWSetGet {α : Type} [DecidableEq α] (hash : α → Nat) (eq : α → α → Bool)
    (set : LWSet α) (item : α) : Option (Option α) :=
  let size := set.size
  if size = 0 then none
  else
    match probe eq set.table size item size (hash item % size) with
    | none => none
    | some i => some (bucket set.table i)

/-- The function `LWSetContains`. -/
def LWSetContains {α : Type} [DecidableEq α] (hash : α → Nat) (eq : α → α → Bool)
    (set : LWSet α) (item : α) : Option Bool :=
  (LWSetGet hash eq set item).map (fun t => t != none)

/-- The final loop `while (! r && i < size) r = set->table[i++]` of `LWSetIterate`, at
index `i` with `n` buckets left before `size`.  A read outside the table is `none`. -/
def scanLoop {α : Type} (table : List (Option α)) : Nat → Nat → Option (Option α)
  | 0, _ => some none
  | n + 1, i =>
    match table[i]? with
    | none => none
    | some (some r) => some (some r)
    | some none => scanLoop table n (i + 1)

/-- The function `LWSetIterate`. -/
def LWSetIterate {α : Type} [DecidableEq α] (hash : α → Nat) (eq : α → α → Bool)
    (set : LWSet α) (previous : Option α) : Option (Option α) :=
  let size := set.size
  match previous with
  | none => scanLoop set.table size 0
  | some p =>
    if size = 0 then none
    else
      match probe eq set.table size p size (hash p % size) with
      | none => none
      | some i => scanLoop set.table (size - (i + 1)) (i + 1)

/-- Iteration as a caller performs it: call `LWSetIterate` with the item returned last
(starting with NULL) until it returns NULL, collecting the items returned.  The fuel
bounds the number of calls. -/
def iterateFrom {α : Type} [DecidableEq α] (hash : α → Nat) (eq : α → α → Bool)
    (set : LWSet α) : Nat → Option α → Option (List α)
  | 0, _ => none
  | fuel + 1, previous =>
    match LWSetIterate hash eq set previous with
    | none => none
    | some none => some []
    | some (some r) => (iterateFrom hash eq set fuel (some r)).map (fun l => r :: l)

/-- The items a full iteration of the set returns, in order. -/
def iterateAll {α : Type} [DecidableEq α] (hash : α → Nat) (eq : α → α → Bool)
    (set : LWSet α) : Option (List α) :=
  iterateFrom hash eq set (set.size + 1) none

/-- Sets reached from `LWSetNew` by calls of `LWSetAdd` and `LWSetRemove` that return. -/
inductive Reached {α : Type} [DecidableEq α] (hash : α → Nat) (eq : α → α → Bool) :
    LWSet α → Prop
  | new (capacity : Nat) : Reached hash eq (LWSetNew capacity)
  | add (s s1 : LWSet α) (x : α) (r : Option α) :
      Reached hash eq s → LWSetAdd hash eq s x = some (r, s1) → Reached hash eq s1
  | remove (s s1 : LWSet α) (x : α) (r : Option α) :
      Reached hash eq s → LWSetRemove hash eq s x = some (r, s1) → Reached hash eq s1

/-- The first item in a bucket with index at least `i` and below `size`. -/
def scanFrom {α : Type} (table : List (Option α)) (size i : Nat) : Option α :=
  ((table.take size).drop i).findSome? id

/-- Two items are the same for the set: the same pointer, or `eq` says so. -/
def same {α : Type} [DecidableEq α] (eq : α → α → Bool) (a b : α) : Prop :=
  a = b ∨ eq a b = true

/-- The contract that LWSet.h puts on `hash` and `eq`: `eq` tells whether two items are
equal (a symmetric and transitive relation) and equal items have identical hashes. -/
structure HashEq {α : Type} (hash : α → Nat) (eq : α → α → Bool) : Prop where
  symm : ∀ a b, eq a b = true → eq b a = true
  trans : ∀ a b c, eq a b = true → eq b c = true → eq a c = true
  hash_eq : ∀ a b, eq a b = true → hash a = hash b

/-- The probe for `item` stops at bucket `i`: the bucket is empty or holds an item that is
the same as `item`. -/
def stops {α : Type} [DecidableEq α] (eq : α → α → Bool) (table : List (Option α)) (item : α)
    (i : Nat) : Prop :=
  ∀ t, bucket table i = some t → same eq t item

/-- Number of occupied buckets of a table. -/
def occupied {α : Type} : List (Option α) → Nat
  | [] => 0
  | none :: rest => occupied rest
  | some _ :: rest => occupied rest + 1

/-- The load limit of `LWSetAdd`: the set grows when `itemCount` exceeds it. -/
def loadLimit (size : Nat) : Nat := ((size + 2) / 3) * 2

/-- Probing for any item stored in the table stops at the bucket that holds it. -/
def Found {α : Type} [DecidableEq α] (hash : α → Nat) (eq : α → α → Bool) (n : Nat)
    (table : List (Option α)) : Prop :=
  ∀ j a, table[j]? = some (some a) → probe eq table n a n (hash a % n) = some j

/-- Representation invariant of a set with an allocated table: the table has `size`
buckets, `size` is one of the table sizes after the first, `itemCount` is the number of
occupied buckets and within the load limit, and probing for a stored item stops at the
bucket that holds it. -/
structure WF {α : Type} [DecidableEq α] (hash : α → Nat) (eq : α → α → Bool) (s : LWSet α) :
    Prop where
  len : s.table.length = s.size
  size_mem : s.size ∈ tableSizes.tail
  count : s.itemCount = occupied s.table
  load : s.itemCount ≤ loadLimit s.size
  found : Found hash eq s.size s.table

/-- The set after the two stores of `LWSetAdd` that follow the probe loop:
`if (! t) set->itemCount++; set->table[i] = item`. -/
def inserted {α : Type} (s : LWSet α) (i : Nat) (item : α) : LWSet α :=
  { table := s.table.set i (some item),
    size := s.size,
    itemCount := if (bucket s.table i).isNone then sizeT (s.itemCount + 1) else s.itemCount }

/-- What a call `LWSetAdd(s, x)` that returns `r` and leaves the set `s1` guarantees. -/
structure AddPost {α : Type} [DecidableEq α] (hash : α → Nat) (eq : α → α → Bool)
    (s : LWSet α) (x : α) (r : Option α) (s1 : LWSet α) : Prop where
  wf : WF hash eq s1
  ret : LWSetGet hash eq s x = some r
  count : s1.itemCount = if r.isNone then s.itemCount + 1 else s.itemCount
  mem : ∀ a, some a ∈ s1.table ↔ a = x ∨ (some a ∈ s.table ∧ ¬ same eq a x)
  size_le : s.size ≤ s1.size

/-- Loop invariant of the cleanup loop of `LWSetRemove` at bucket `i`, for a table with
`n` buckets: the `m` buckets from `i` on are occupied and the one after them is empty;
every item outside this run is found by its probe; for an item inside the run the walk
from its home bucket to its bucket does not pass the empty bucket after the run; no two
buckets hold items that are the same. -/
structure CleanInv {α : Type} [DecidableEq α] (hash : α → Nat) (eq : α → α → Bool) (n : Nat)
    (table : List (Option α)) (i m : Nat) : Prop where
  len : table.length = n
  m_lt : m < n
  i_lt : i < n
  run : ∀ k, k < m → bucket table ((i + k) % n) ≠ none
  stop : bucket table ((i + m) % n) = none
  outside : ∀ j a, table[j]? = some (some a) → (∀ k, k < m → j ≠ (i + k) % n) →
    probe eq table n a n (hash a % n) = some j
  inside : ∀ k, k < m → ∀ a, table[(i + k) % n]? = some (some a) →
    ∃ d, d < n ∧ (hash a % n + d) % n = (i + k) % n ∧
      ∀ k', k' ≤ d → (hash a % n + k') % n ≠ (i + m) % n
  nodup : ∀ (j1 j2 : Nat) a b, table[j1]? = some (some a) → table[j2]? = some (some b) →
    same eq a b → j1 = j2

/-- What a call `LWSetRemove(s, x)` that returns `r` and leaves the set `s1` guarantees. -/
structure RemovePost {α : Type} [DecidableEq α] (hash : α → Nat) (eq : α → α → Bool)
    (s : LWSet α) (x : α) (r : Option α) (s1 : LWSet α) : Prop where
  wf : WF hash eq s1
  ret : LWSetGet hash eq s x = some r
  count : s1.itemCount + (if r.isNone then 0 else 1) = s.itemCount
  mem : ∀ a, some a ∈ s1.table ↔ (some a ∈ s.table ∧ ¬ same eq a x)
  size_eq : s1.size = s.size

/-- Pointer identity as the equality function of a set of plain numbers. -/
def idEq (a b : Nat) : Bool := a == b

/-- The identity as the hash function of a set of plain numbers. -/
def idHash (a : Nat) : Nat := a

/-- Successive calls of `LWSetAdd` with the items of a list. -/
def addAll {α : Type} [DecidableEq α] (hash : α → Nat) (eq : α → α → Bool) :
    LWSet α → List α → Option (LWSet α)
  | s, [] => some s
  | s, x :: rest =>
    match LWSetAdd hash eq s x with
    | none => none
    | some (_, s1) => addAll hash eq s1 rest

/-! ## LWBloomFilter.c -/

/-- The macro `BLOOM_MAX_HASH_FUNCS`. -/
def BLOOM_MAX_HASH_FUNCS : Nat := 50

/-- The macro `BLOOM_MAX_FILTER_LENGTH` of LWBloomFilter.h. -/
def BLOOM_MAX_FILTER_LENGTH : Nat := 36000

/-- The struct `LWBloomFilter`: `filter` is the byte buffer that the pointer member points
to; bytes, `uint32_t` and `size_t` members are natural numbers. -/
structure LWBloomFilter where
  filter : List Nat
  length : Nat
  hashFuncs : Nat
  elemCount : Nat
  tweak : Nat
  flags : Nat
  deriving DecidableEq

/-- The struct is in range of its C types: the buffer holds `length` bytes (so that the
bit count `length*8` fits in `size_t`), every buffer entry and `flags` is a byte,
`hashFuncs` and `tweak` are `uint32_t`. -/
structure LWBloomFilter.Valid (f : LWBloomFilter) : Prop where
  buffer : f.filter.length = f.length
  bits : f.length * 8 < 2 ^ 64
  bytes : ∀ b ∈ f.filter, b < 256
  hashFuncs : f.hashFuncs < 2 ^ 32
  tweak : f.tweak < 2 ^ 32
  flags : f.flags < 256

/-- The function `_LWBloomFilterHash`.  The hash `LWMurmur3_32` of LWCrypto.h is a
parameter (data, seed); its result and the seed are `uint32_t`.  Division by a zero bit
count is undefined. -/
def _LWBloomFilterHash (LWMurmur3_32 : List Nat → Nat → Nat) (filter : LWBloomFilter)
    (data : List Nat) (hashNum : Nat) : Option Nat :=
  if sizeT (filter.length * 8) = 0 then none
  else
    some ((LWMurmur3_32 data ((hashNum * 0xfba4c795 + filter.tweak) % 2 ^ 32) % 2 ^ 32
      % sizeT (filter.length * 8)) % 2 ^ 32)

/-- The loop of `LWBloomFilterContainsData` for non-NULL data: `n` iterations remain,
`i` is the loop counter. -/
def containsLoop (LWMurmur3_32 : List Nat → Nat → Nat) (filter : LWBloomFilter)
    (data : List Nat) : Nat → Nat → Option Bool
  | 0, _ => some true
  | n + 1, i =>
    match _LWBloomFilterHash LWMurmur3_32 filter data i with
    | none => none
    | some idx =>
      match filter.filter[idx >>> 3]? with
      | none => none
      | some b =>
        if b &&& (1 <<< (7 &&& idx)) = 0 then some false
        else containsLoop LWMurmur3_32 filter data n (i + 1)

/-- The function `LWBloomFilterContainsData`; `data` is `none` for a NULL pointer. -/
def LWBloomFilterContainsData (LWMurmur3_32 : List Nat → Nat → Nat) (filter : LWBloomFilter)
    (data : Option (List Nat)) : Option Bool :=
  match data with
  | none => some false
  | some d => containsLoop LWMurmur3_32 filter d filter.hashFuncs 0

/-- The loop of `LWBloomFilterInsertData` for non-NULL data: `n` iterations remain, `i`
is the loop counter. -/
def insertLoop (LWMurmur3_32 : List Nat → Nat → Nat) (data : List Nat) :
    Nat → Nat → LWBloomFilter → Option LWBloomFilter
  | 0, _, filter => some filter
  | n + 1, i, filter =>
    match _LWBloomFilterHash LWMurmur3_32 filter data i with
    | none => none
    | some idx =>
      match filter.filter[idx >>> 3]? with
      | none => none
      | some b =>
        insertLoop LWMurmur3_32 data n (i + 1)
          { filter with filter := filter.filter.set (idx >>> 3) ((b ||| (1 <<< (7 &&& idx))) % 256) }

/-- The function `LWBloomFilterInsertData`; `data` is `none` for a NULL pointer. -/
def LWBloomFilterInsertData (LWMurmur3_32 : List Nat → Nat → Nat) (filter : LWBloomFilter)
    (data : Option (List Nat)) : Option LWBloomFilter :=
  match data with
  | none => some filter
  | some d =>
    match insertLoop LWMurmur3_32 d filter.hashFuncs 0 filter with
    | none => none
    | some f => some { f with elemCount := sizeT (f.elemCount + 1) }

/-- A sequence of `LWBloomFilterInsertData` calls. -/
def insertAll (LWMurmur3_32 : List Nat → Nat → Nat) :
    LWBloomFilter → List (Option (List Nat)) → Option LWBloomFilter
  | filter, [] => some filter
  | filter, d :: rest =>
    match LWBloomFilterInsertData LWMurmur3_32 filter d with
    | none => none
    | some f => insertAll LWMurmur3_32 f rest

/-- Every bit that is set in the buffer `a` is set in the buffer `b`. -/
def bitsKept (a b : List Nat) : Prop :=
  a.length = b.length ∧
    ∀ (i : Nat) x y, a[i]? = some x → b[i]? = some y → ∀ k, x.testBit k = true → y.testBit k = true

/-- The function `LWBloomFilterNew`.  Its floating-point parts are parameters:
`fprBelowEpsilon` is the comparison `falsePositiveRate < DBL_EPSILON`, `lengthExpr` is the
`size_t` that the double `(-1.0/(M_LN2*M_LN2))*elemCount*log(falsePositiveRate)/8.0`
converts to, and `hashFuncsExpr length` is the `uint32_t` that the double
`((length*8.0)/elemCount)*M_LN2` converts to.  Allocation succeeds. -/
def LWBloomFilterNew (fprBelowEpsilon : Bool) (lengthExpr : Nat) (hashFuncsExpr : Nat → Nat)
    (tweak flags : Nat) : LWBloomFilter :=
  let length := if fprBelowEpsilon then BLOOM_MAX_FILTER_LENGTH else lengthExpr
  let length := if length > BLOOM_MAX_FILTER_LENGTH then BLOOM_MAX_FILTER_LENGTH else length
  let length := if length < 1 then 1 else length
  let hashFuncs := hashFuncsExpr length
  let hashFuncs := if hashFuncs > BLOOM_MAX_HASH_FUNCS then BLOOM_MAX_HASH_FUNCS else hashFuncs
  { filter := List.replicate length 0,
    length := length,
    hashFuncs := hashFuncs,
    elemCount := 0,
    tweak := tweak,
    flags := flags }

/-- The `clamp(lo, hi, v)` of the specification. -/
def clamp (lo hi v : Nat) : Nat := max lo (min hi v)

/-- What the insert and query loops need of a filter: the buffer holds `length` bytes,
all below 256, and the bit count is not zero. -/
structure BloomOk (f : LWBloomFilter) : Prop where
  buffer : f.filter.length = f.length
  bits : sizeT (f.length * 8) ≠ 0
  bytes : ∀ b ∈ f.filter, b < 256

/-- The bit that hash function number `j` selects for `d` is set in the buffer of `g`. -/
def bitSet (LWMurmur3_32 : List Nat → Nat → Nat) (g : LWBloomFilter) (d : List Nat)
    (j : Nat) : Prop :=
  ∃ idx b, _LWBloomFilterHash LWMurmur3_32 g d j = some idx ∧
    g.filter[idx >>> 3]? = some b ∧ b.testBit (7 &&& idx) = true

/-- Modelled from the spec: `UInt16SetLE` of LWInt.h (not among the sources), the two
bytes of a little-endian 16-bit integer. -/
def UInt16SetLE (x : Nat) : List Nat := [x % 256, x / 256 % 256]

/-- Modelled from the spec: `UInt32SetLE` of LWInt.h (not among the sources), the four
bytes of a little-endian u32. -/
def UInt32SetLE (x : Nat) : List Nat :=
  [x % 256, x / 256 % 256, x / 65536 % 256, x / 16777216 % 256]

/-- Modelled from the spec: `UInt64SetLE` of LWInt.h (not among the sources), the eight
bytes of a little-endian 64-bit integer. -/
def UInt64SetLE (x : Nat) : List Nat :=
  UInt32SetLE (x % 4294967296) ++ UInt32SetLE (x / 4294967296 % 4294967296)

/-- Modelled from the spec: `UInt16GetLE` of LWInt.h (not among the sources), the
little-endian 16-bit integer at the start of a buffer. -/
def UInt16GetLE (buf : List Nat) : Nat := buf.getD 0 0 + buf.getD 1 0 * 256

/-- Modelled from the spec: `UInt32GetLE` of LWInt.h (not among the sources), the
little-endian u32 at the start of a buffer. -/
def UInt32GetLE (buf : List Nat) : Nat :=
  buf.getD 0 0 + buf.getD 1 0 * 256 + buf.getD 2 0 * 65536 + buf.getD 3 0 * 16777216

/-- Modelled from the spec: `UInt64GetLE` of LWInt.h (not among the sources), the
little-endian 64-bit integer at the start of a buffer. -/
def UInt64GetLE (buf : List Nat) : Nat :=
  UInt32GetLE buf + UInt32GetLE (buf.drop 4) * 4294967296

/-- Modelled from the spec: `LWVarIntSize` (declared in LWAddress.h, not among the
sources), the length of the varint coding of `i`: Bitcoin's variable length integer, one
byte below 0xfd, else a marker byte 0xfd, 0xfe or 0xff and 2, 4 or 8 little-endian
bytes. -/
def LWVarIntSize (i : Nat) : Nat :=
  if i < 0xfd then 1 else if i ≤ 0xffff then 3 else if i ≤ 0xffffffff then 5 else 9

/-- Modelled from the spec: `LWVarIntSet` (declared in LWAddress.h, not among the
sources), the bytes of the varint coding of the 64-bit integer `i`. -/
def LWVarIntSet (i : Nat) : List Nat :=
  if i < 0xfd then [i]
  else if i ≤ 0xffff then 0xfd :: UInt16SetLE i
  else if i ≤ 0xffffffff then 0xfe :: UInt32SetLE i
  else 0xff :: UInt64SetLE i

/-- Modelled from the spec: `LWVarInt` (declared in LWAddress.h, not among the sources),
the varint at the start of a buffer together with the number of bytes it occupies (the
out-parameter `intLen`); a value that does not fit in the buffer reads as 0. -/
def LWVarInt (buf : List Nat) : Nat × Nat :=
  let h := if 1 ≤ buf.length then buf.getD 0 0 else 0
  if h = 0xfd then (if 3 ≤ buf.length then UInt16GetLE (buf.drop 1) else 0, 3)
  else if h = 0xfe then (if 5 ≤ buf.length then UInt32GetLE (buf.drop 1) else 0, 5)
  else if h = 0xff then (if 9 ≤ buf.length then UInt64GetLE (buf.drop 1) else 0, 9)
  else (h, 1)

/-- The function `LWBloomFilterParse`; the buffer is `none` for a NULL pointer and its
length is `bufLen`.  Returns `none` for a NULL result.  `malloc` returns a non-NULL
pointer. -/
def LWBloomFilterParse (buf : Option (List Nat)) : Option LWBloomFilter :=
  match buf with
  | none => none
  | some b =>
    let bufLen := b.length
    let off := 0
    let v := LWVarInt (b.drop off)
    let length := v.1
    let off := sizeT (off + v.2)
    let filter : Option (List Nat) :=
      if length ≤ BLOOM_MAX_FILTER_LENGTH ∧ sizeT (off + length) ≤ bufLen then
        some ((b.drop off).take length)
      else none
    let off := sizeT (off + length)
    let hashFuncs := if sizeT (off + 4) ≤ bufLen then UInt32GetLE (b.drop off) else 0
    let off := sizeT (off + 4)
    let tweak := if sizeT (off + 4) ≤ bufLen then UInt32GetLE (b.drop off) else 0
    let off := sizeT (off + 4)
    let flags := if sizeT (off + 1) ≤ bufLen then b.getD off 0 else 0
    match filter with
    | none => none
    | some bytes =>
      some { filter := bytes, length := length, hashFuncs := hashFuncs, elemCount := 0,
             tweak := tweak, flags := flags }

/-- The bytes that `LWBloomFilterSerialize` writes: varint(length), the filter bytes,
`hashFuncs` and `tweak` as little-endian u32, `flags`. -/
def serialized (filter : LWBloomFilter) : List Nat :=
  LWVarIntSet filter.length ++ filter.filter.take filter.length ++
    UInt32SetLE filter.hashFuncs ++ UInt32SetLE filter.tweak ++ [filter.flags]

/-- The function `LWBloomFilterSerialize`; the buffer is `none` for a NULL pointer and its
length is `bufLen`.  Returns the returned count and the buffer after the call.  Undefined
(`none`) when the filter buffer is shorter than `length` or the needed size wraps. -/
def LWBloomFilterSerialize (filter : LWBloomFilter) (buf : Option (List Nat)) :
    Option (Nat × Option (List Nat)) :=
  let len := sizeT (LWVarIntSize filter.length + filter.length + 4 + 4 + 1)
  match buf with
  | none => some (len, none)
  | some b =>
    if len ≤ b.length then
      if filter.filter.length < filter.length ∨
          2 ^ 64 ≤ LWVarIntSize filter.length + filter.length + 4 + 4 + 1 then none
      else some (len, some (serialized filter ++ b.drop len))
    else some (0, some b)

/-! ## LWWallet.c: the fee of a transaction size -/

/-- The function `_txFee`, in `uint64_t` arithmetic.  The macro `TX_FEE_PER_KB` of
LWTransaction.h (not among the sources) is a parameter. -/
def _txFee (TX_FEE_PER_KB : Nat) (feePerKb size : Nat) : Nat :=
  let standardFee := (((size + 999) % 2 ^ 64) / 1000 * TX_FEE_PER_KB) % 2 ^ 64
  let fee := (((((size * feePerKb) % 2 ^ 64) / 1000 + 99) % 2 ^ 64) / 100 * 100) % 2 ^ 64
  if fee > standardFee then fee else standardFee

/-- The function `LWWalletFeeForTxSize`: `_txFee` of the wallet's `feePerKb`, read under
the wallet lock. -/
def LWWalletFeeForTxSize (TX_FEE_PER_KB : Nat) (walletFeePerKb size : Nat) : Nat :=
  _txFee TX_FEE_PER_KB walletFeePerKb size

/-- The fee formula of the specification,
`max(ceil(n/1000)*TX_FEE_PER_KB, ceil(n*feePerKb/100000)*100)`, with the second term the
exact quotient rounded up. -/
def feeFormula (TX_FEE_PER_KB : Nat) (feePerKb n : Nat) : Nat :=
  max ((n + 999) / 1000 * TX_FEE_PER_KB) ((n * feePerKb + 99999) / 100000 * 100)

/-! ## LWBIP39Mnemonic.c

A C string is the list of its characters before the terminating NUL. -/

/-- The macro `BIP39_WORDLIST_COUNT` of LWBIP39Mnemonic.h (not among the sources): the
number of words in a BIP39 word list, 2^11. -/
def BIP39_WORDLIST_COUNT : Nat := 2048

/-- Modelled from the spec: `UInt32GetBE` of LWInt.h (not among the sources), the
big-endian u32 at the start of a buffer. -/
def UInt32GetBE (buf : List Nat) : Nat :=
  buf.getD 0 0 * 16777216 + buf.getD 1 0 * 65536 + buf.getD 2 0 * 256 + buf.getD 3 0

/-- The word index that the loop of `LWBIP39Encode` computes in iteration `i` from the
buffer `buf` (data followed by its SHA-256). -/
def encodeIndex (buf : List Nat) (i : Nat) : Nat :=
  (UInt32GetBE (buf.drop (i * 11 / 8)) >>> (32 - (11 + (i * 11) % 8))) % BIP39_WORDLIST_COUNT

/-- The word indices of all iterations of the loop of `LWBIP39Encode`. -/
def encodeIndices (LWSHA256 : List Nat → List Nat) (data : List Nat) : List Nat :=
  (List.range (data.length * 3 / 4)).map (encodeIndex (data ++ LWSHA256 data))

/-- The words of a list at the given indices; `none` when an index is outside the list. -/
def wordsAt (wordList : List (List Char)) : List Nat → Option (List (List Char))
  | [] => some []
  | k :: rest =>
    match wordList[k]?, wordsAt wordList rest with
    | some w, some ws => some (w :: ws)
    | _, _ => none

/-- The function `LWBIP39Encode`.  `phraseLen` is `none` for a NULL `phrase`, `data` is
`none` for a NULL pointer, `dataLen` is the length of the data.  The hash `LWSHA256` of
LWCrypto.h is a parameter.  Returns the returned count and the characters stored in
`phrase` (those before the NUL padding).  A failed assertion, a read of `UInt32GetBE`
outside `buf` (the last iteration reads furthest) or a read outside the word list is
`none`. -/
def LWBIP39Encode (LWSHA256 : List Nat → List Nat) (phraseLen : Option Nat)
    (wordList : List (List Char)) (data : Option (List Nat)) : Option (Nat × List Char) :=
  match data with
  | none => none
  | some d =>
    if ¬ (d.length > 0 ∧ d.length % 4 = 0) then none
    else if d.length + 32 < (d.length * 3 / 4 - 1) * 11 / 8 + 4 then none
    else
      match wordsAt wordList (encodeIndices LWSHA256 d) with
      | none => none
      | some words =>
        let text := [' '].intercalate words
        let len := text.length
        match phraseLen with
        | none => some (len + 1, [])
        | some n => some (if len + 1 ≤ n then len + 1 else 0, text.take n)

/-- The test of the inner loop of `LWBIP39Decode`: `strncmp(word, w, strlen(w)) == 0` and
the character of `word` after it is a space or the terminating NUL. -/
def matchesWord (word w : List Char) : Bool :=
  w.isPrefixOf word &&
    (match word.drop w.length with
     | [] => true
     | c :: _ => c == ' ')

/-- The inner loop of `LWBIP39Decode`: the first index, counted from `i`, of a word of the
list that matches at the start of `word`. -/
def findWord (word : List Char) : List (List Char) → Nat → Option Nat
  | [], _ => none
  | w :: rest, i => if matchesWord word w then some i else findWord word rest (i + 1)

/-- The two statements `word = strchr(word, ' '); if (word) word++;`. -/
def afterSpace (word : List Char) : Option (List Char) :=
  match word.dropWhile (fun c => c != ' ') with
  | [] => none
  | _ :: rest => some rest

/-- The outer loop of `LWBIP39Decode`; the fuel is `24 - count`.  Returns the indices found
and the final value of `word`. -/
def decodeLoop (wordList : List (List Char)) :
    Nat → Option (List Char) → List Nat → List Nat × Option (List Char)
  | 0, word, idx => (idx, word)
  | _ + 1, none, idx => (idx, none)
  | _ + 1, some [], idx => (idx, some [])
  | fuel + 1, some (c :: cs), idx =>
    match findWord (c :: cs) (wordList.take BIP39_WORDLIST_COUNT) 0 with
    | none => (idx, some (c :: cs))
    | some i => decodeLoop wordList fuel (afterSpace (c :: cs)) (idx ++ [i])

/-- The byte `b` that iteration `i` of the second loop of `LWBIP39Decode` computes. -/
def decodeByte (idx : List Nat) (count i : Nat) : Nat :=
  let x := idx.getD (i * 8 / 11) 0
  let y := if i * 8 / 11 + 1 < count then idx.getD (i * 8 / 11 + 1) 0 else 0
  ((x * BIP39_WORDLIST_COUNT + y) >>> ((i * 8 / 11 + 2) * 11 - (i + 1) * 8)) &&& 0xff

/-- The function `LWBIP39Decode`.  `dataLen` is `none` for a NULL `data`.  Returns the
returned count and the bytes copied to `data` (`none` when nothing is copied).  The inner
loop runs over `BIP39_WORDLIST_COUNT` entries of the word list; a list with fewer entries
is read outside its bounds (`none`). -/
def LWBIP39Decode (LWSHA256 : List Nat → List Nat) (dataLen : Option Nat)
    (wordList : List (List Char)) (phrase : List Char) : Option (Nat × Option (List Nat)) :=
  if wordList.length < BIP39_WORDLIST_COUNT then none
  else
    let res := decodeLoop wordList 24 (some phrase) []
    let idx := res.1
    let word := res.2
    let count := idx.length
    let buf := (List.range ((count * 11 + 7) / 8)).map (decodeByte idx count)
    let b := buf.getLastD 0
    let hash := LWSHA256 (buf.take (count * 4 / 3))
    let ok : Bool :=
      decide (count % 3 = 0 ∧ (word = none ∨ word = some [])) &&
        decide (b >>> (8 - count / 3) = hash.getD 0 0 >>> (8 - count / 3))
    let r := if ok then count * 4 / 3 else 0
    match dataLen with
    | none => some (r, none)
    | some n =>
      if r ≤ n then some (r, if ok then some (buf.take r) else none)
      else some (0, none)

/-- The function `LWBIP39PhraseIsValid`. -/
def LWBIP39PhraseIsValid (LWSHA256 : List Nat → List Nat) (wordList : List (List Char))
    (phrase : List Char) : Option Bool :=
  (LWBIP39Decode LWSHA256 none wordList phrase).map (fun r => decide (r.1 > 0))

/-- Big-endian value of a list of digits in a base. -/
def beNat (base : Nat) : List Nat → Nat
  | [] => 0
  | d :: rest => d * base ^ rest.length + beNat base rest

/-- The words of a phrase: the non-empty pieces between its spaces. -/
def phraseWords (phrase : List Char) : List (List Char) :=
  (phrase.splitOn ' ').filter (fun w => w ≠ [])

/-- The index of a word in a word list: the position of its first occurrence (the length
of the list when it does not occur). -/
def wordIndex (w : List Char) : List (List Char) → Nat
  | [] => 0
  | u :: rest => if u = w then 0 else wordIndex w rest + 1

/-- The word indices of a phrase. -/
def phraseIndices (wordList : List (List Char)) (phrase : List Char) : List Nat :=
  (phraseWords phrase).map (fun w => wordIndex w wordList)

/-- The trailing checksum bits of a phrase: with `3k` words of 11 bits each, the last `k`
bits. -/
def checksumBits (wordList : List (List Char)) (phrase : List Char) : Nat :=
  beNat 2048 (phraseIndices wordList phrase) % 2 ^ ((phraseIndices wordList phrase).length / 3)

/-- The data that a phrase of `3k` words encodes: the first `32k` bits, as `4k` bytes. -/
def phraseData (wordList : List (List Char)) (phrase : List Char) : List Nat :=
  let ks := phraseIndices wordList phrase
  let k := ks.length / 3
  (List.range (4 * k)).map (fun i => beNat 2048 ks / 2 ^ (k + 8 * (4 * k - 1 - i)) % 256)

/-- The leading `k` bits of the SHA-256 of the data of a phrase of `3k` words. -/
def expectedBits (LWSHA256 : List Nat → List Nat) (wordList : List (List Char))
    (phrase : List Char) : Nat :=
  (LWSHA256 (phraseData wordList phrase)).getD 0 0 /
    2 ^ (8 - (phraseIndices wordList phrase).length / 3)

/-! ## Concrete inputs -/

/-- A set with three items whose hashes collide: 1, 8 and 15 in a table of 7 buckets. -/
def sampleSet : LWSet Nat :=
  { table := [none, some 1, some 8, some 15, none, none, none], size := 7, itemCount := 3 }

/-- A small Bloom filter. -/
def sampleFilter : LWBloomFilter :=
  { filter := [1, 2, 3], length := 3, hashFuncs := 7, elemCount := 4, tweak := 9, flags := 1 }

/-- A stand-in for Murmur3 on concrete inputs. -/
def sampleMurmur (data : List Nat) (seed : Nat) : Nat := data.length * 31 + seed

/-- A word list of 2048 distinct words: `a`, `aa`, `aaa`, ... -/
def unaryWords : List (List Char) :=
  (List.range 2048).map (fun i => List.replicate (i + 1) 'a')

/-- A stand-in for SHA-256 on concrete inputs: 32 zero bytes. -/
def zeroSha (_ : List Nat) : List Nat := List.replicate 32 0

/-! ## LWWallet.c: the wallet state engine

The sets of the wallet (`allTx`, `invalidTx`, `pendingTx`, `spentOutputs`, `usedAddrs`,
`allAddrs`) are hashed sets of LWSet.c whose `hash` and `eq` functions look at the
transaction hash, at the outpoint (hash and index) and at the address text.  A set is
represented here by the list of its items without two equal ones, with the behaviour
that the contract of LWSet.c gives to add, remove, get and contains.  `invalidTx`,
`pendingTx` and `spentOutputs` are only ever asked for membership and hold the keys of
their items.

A transaction object is shared by pointer between `allTx` and the ordered list; the
wallet adds a transaction object only when `allTx` holds none with its hash, so an object
is identified by its hash, and a store through a transaction pointer updates the entry of
`allTx` and the entries of the list with that hash.  The callbacks are taken to be set;
every operation returns the list of the callback invocations it makes.  The mutex and
memory management are not modelled. -/

/-- The value `TX_UNCONFIRMED` (`INT32_MAX`) of a block height. -/
def TX_UNCONFIRMED : Nat := 2147483647

/-- The value `UINT32_MAX`. -/
def UINT32_MAX : Nat := 4294967295

/-- The macro `SEQUENCE_GAP_LIMIT_EXTERNAL`. -/
def SEQUENCE_GAP_LIMIT_EXTERNAL : Nat := 10

/-- The macro `SEQUENCE_GAP_LIMIT_INTERNAL`. -/
def SEQUENCE_GAP_LIMIT_INTERNAL : Nat := 5

/-- Wrap-around of `uint64_t` addition. -/
def add64 (a b : Nat) : Nat := (a + b) % 2 ^ 64

/-- Wrap-around of `uint64_t` subtraction. -/
def sub64 (a b : Nat) : Nat := (a + (2 ^ 64 - b % 2 ^ 64)) % 2 ^ 64

/-- Modelled from the spec: the struct `LWUTXO` (LWTransaction.h, not among the sources),
an outpoint: transaction hash and output index. -/
structure LWUTXO where
  hash : Nat
  n : Nat
  deriving DecidableEq

/-- Modelled from the spec: the struct `LWTxInput` (LWTransaction.h, not among the
sources).  The members that the wallet reads: hash and index of the output spent, its
amount and script, the sequence number. -/
structure LWTxInput where
  txHash : Nat
  index : Nat
  amount : Nat
  script : List Nat
  sequence : Nat
  deriving DecidableEq

/-- Modelled from the spec: the struct `LWTxOutput` (LWTransaction.h, not among the
sources): the address text (empty when the script has no address), the amount, the
script. -/
structure LWTxOutput where
  address : String
  amount : Nat
  script : List Nat
  deriving DecidableEq

/-- Modelled from the spec: the struct `LWTransaction` (LWTransaction.h, not among the
sources).  `inCount` and `outCount` are the lengths of the two lists. -/
structure LWTransaction where
  txHash : Nat
  inputs : List LWTxInput
  outputs : List LWTxOutput
  lockTime : Nat
  blockHeight : Nat
  timestamp : Nat
  deriving DecidableEq

/-- The outpoint that an input spends: `LWUTXOEq` and `LWUTXOHash` read an input as the
outpoint made of its first two members. -/
def LWTxInput.outpoint (i : LWTxInput) : LWUTXO := { hash := i.txHash, n := i.index }

/-- What LWWallet.c takes from headers and translation units that are not among the
sources: the policy constants of LWTransaction.h and LWWallet.h, the functions
`LWTransactionSize`, `LWTransactionIsSigned` and `LWTransactionShuffleOutputs` of
LWTransaction.c, the address that `LWBIP32PubKey`, `LWKeySetPubKey` and `LWKeyAddress`
derive from the master public key for a chain (`true` for the internal one) and an index
(`none` when one of them fails or gives the empty address), the address text of a script
(`LWTxOutputSetScript`) and the script of an address (`LWAddressScriptPubKey`), and
whether `array_add` moved a chain that grew from a count. -/
structure Env where
  TX_FEE_PER_KB : Nat
  MIN_FEE_PER_KB : Nat
  DEFAULT_FEE_PER_KB : Nat
  TX_MAX_SIZE : Nat
  TX_MIN_OUTPUT_AMOUNT : Nat
  TX_OUTPUT_SIZE : Nat
  TX_INPUT_SIZE : Nat
  TX_MAX_LOCK_HEIGHT : Nat
  TXIN_SEQUENCE : Nat
  LWTransactionSize : LWTransaction → Nat
  LWTransactionIsSigned : LWTransaction → Bool
  LWTransactionShuffleOutputs : List LWTxOutput → List LWTxOutput
  deriveAddress : Bool → Nat → Option String
  scriptAddress : List Nat → String
  addressScript : String → List Nat
  arrayMoved : Bool → Nat → Bool

/-- A callback invocation: `balanceChanged(balance)`, `txAdded(tx)`,
`txUpdated(txHashes, blockHeight, timestamp)`,
`txDeleted(txHash, notifyUser, recommendRescan)`. -/
inductive Event where
  | balanceChanged (balance : Nat)
  | txAdded (tx : LWTransaction)
  | txUpdated (txHashes : List Nat) (blockHeight timestamp : Nat)
  | txDeleted (txHash : Nat) (notifyUser recommendRescan : Bool)
  deriving DecidableEq

/-- The struct `LWWalletStruct`.  The master public key is part of `Env.deriveAddress`. -/
structure LWWallet where
  balance : Nat
  totalSent : Nat
  totalReceived : Nat
  feePerKb : Nat
  balanceHist : List Nat
  blockHeight : Nat
  utxos : List LWUTXO
  transactions : List LWTransaction
  internalChain : List String
  externalChain : List String
  allTx : List LWTransaction
  invalidTx : List Nat
  pendingTx : List Nat
  spentOutputs : List LWUTXO
  usedAddrs : List String
  allAddrs : List String
  deriving DecidableEq

/-- Adding a key to a set of keys (`LWSetAdd`). -/
def keyAdd {κ : Type} [DecidableEq κ] (set : List κ) (k : κ) : List κ :=
  if k ∈ set then set else set ++ [k]

/-- Looking up a transaction of `allTx` by its hash (`LWSetGet`). -/
def txGet (allTx : List LWTransaction) (txHash : Nat) : Option LWTransaction :=
  allTx.find? (fun t => t.txHash == txHash)

/-- Whether `allTx` holds a transaction with the hash (`LWSetContains`). -/
def txContains (allTx : List LWTransaction) (txHash : Nat) : Bool :=
  (txGet allTx txHash).isSome

/-- Adding a transaction to `allTx` (`LWSetAdd`): it takes the place of the one with the
same hash, if any. -/
def txAdd : List LWTransaction → LWTransaction → List LWTransaction
  | [], tx => [tx]
  | t :: rest, tx => if t.txHash = tx.txHash then tx :: rest else t :: txAdd rest tx

/-- Removing the transaction with a hash from `allTx` (`LWSetRemove`). -/
def txRemove (allTx : List LWTransaction) (txHash : Nat) : List LWTransaction :=
  allTx.filter (fun t => t.txHash != txHash)

/-- A store through a transaction pointer: every entry with the hash of the object
changes. -/
def txStore (txs : List LWTransaction) (txHash : Nat) (f : LWTransaction → LWTransaction) :
    List LWTransaction :=
  txs.map (fun t => if t.txHash = txHash then f t else t)

/-- The function `_txChainIndex`: the chain position of the last chain address that an
output of `tx` pays, `none` for `SIZE_MAX`. -/
def _txChainIndex (tx : LWTransaction) (addrChain : List String) : Option Nat :=
  ((List.range addrChain.length).reverse).find?
    (fun i => tx.outputs.any (fun o => some o.address == addrChain[i]?))

/-- The last loop of `_LWWalletTxIsAscending`, with the recursive call as a parameter. -/
def ascendingLoop (rec : Option LWTransaction → Option Bool) (allTx : List LWTransaction) :
    List LWTxInput → Option Bool
  | [] => some false
  | i :: rest =>
    match rec (txGet allTx i.txHash) with
    | none => none
    | some true => some true
    | some false => ascendingLoop rec allTx rest

/-- The function `_LWWalletTxIsAscending` with a bound on the depth of its recursion. -/
def _LWWalletTxIsAscendingDepth (allTx : List LWTransaction) :
    Nat → Option LWTransaction → Option LWTransaction → Option Bool
  | _, none, _ => some false
  | _, some _, none => some false
  | 0, some _, some _ => none
  | depth + 1, some tx1, some tx2 =>
    if tx1.blockHeight > tx2.blockHeight then some true
    else if tx1.blockHeight < tx2.blockHeight then some false
    else if tx1.inputs.any (fun i => i.txHash == tx2.txHash) then some true
    else if tx2.inputs.any (fun i => i.txHash == tx1.txHash) then some false
    else
      ascendingLoop (fun t => _LWWalletTxIsAscendingDepth allTx depth t (some tx2)) allTx
        tx1.inputs

/-- The function `_LWWalletTxIsAscending`.  The recursion follows input hashes into
`allTx`; a chain of nested calls longer than `allTx` has entries visits a transaction
twice, from where the C recursion does not return (`none`). -/
def _LWWalletTxIsAscending (w : LWWallet) (tx1 tx2 : Option LWTransaction) : Option Bool :=
  _LWWalletTxIsAscendingDepth w.allTx (w.allTx.length + 2) tx1 tx2

/-- The function `_LWWalletTxCompare`. -/
def _LWWalletTxCompare (w : LWWallet) (tx1 tx2 : LWTransaction) : Option Int :=
  match _LWWalletTxIsAscending w (some tx1) (some tx2) with
  | none => none
  | some true => some 1
  | some false =>
    match _LWWalletTxIsAscending w (some tx2) (some tx1) with
    | none => none
    | some true => some (-1)
    | some false =>
      let i := _txChainIndex tx1 w.internalChain
      let j := _txChainIndex tx2 (if i = none then w.externalChain else w.internalChain)
      let i := if i = none ∧ j ≠ none then _txChainIndex tx1 w.externalChain else i
      match i, j with
      | some a, some b => if a ≠ b then (if a > b then some 1 else some (-1)) else some 0
      | _, _ => some 0

/-- The loop of `_LWWalletInsertTx` on the list in reverse order (last entry first). -/
def insertLoopRev (w : LWWallet) (tx : LWTransaction) :
    List LWTransaction → Option (List LWTransaction)
  | [] => some [tx]
  | t :: rest =>
    match _LWWalletTxCompare w t tx with
    | none => none
    | some c =>
      if c > 0 then (insertLoopRev w tx rest).map (fun l => t :: l)
      else some (tx :: t :: rest)

/-- The function `_LWWalletInsertTx`: the new ordered list. -/
def _LWWalletInsertTx (w : LWWallet) (tx : LWTransaction) : Option (List LWTransaction) :=
  (insertLoopRev w tx w.transactions.reverse).map List.reverse

/-- The function `_LWWalletContainsTx`. -/
def _LWWalletContainsTx (w : LWWallet) (tx : LWTransaction) : Bool :=
  tx.outputs.any (fun o => decide (o.address ∈ w.allAddrs)) ||
    tx.inputs.any (fun i =>
      match txGet w.allTx i.txHash with
      | none => false
      | some t =>
        match t.outputs[i.index]? with
        | none => false
        | some o => decide (o.address ∈ w.allAddrs))

/-- The test of the first loop of `_LWWalletUpdateBalance`: some input is in
`spentOutputs` or its transaction hash is in `invalidTx`. -/
def inputsInvalid (w : LWWallet) (tx : LWTransaction) : Bool :=
  tx.inputs.any (fun i => decide (i.outpoint ∈ w.spentOutputs) || decide (i.txHash ∈ w.invalidTx))

/-- The pending test of `_LWWalletUpdateBalance` for an unconfirmed transaction; `now` is
the value of `time(NULL)`. -/
def checkPending (env : Env) (now : Nat) (w : LWWallet) (tx : LWTransaction) : Bool :=
  decide (env.LWTransactionSize tx > env.TX_MAX_SIZE) ||
    tx.outputs.any (fun o => decide (o.amount < env.TX_MIN_OUTPUT_AMOUNT)) ||
    tx.inputs.any (fun i =>
      decide (i.sequence < UINT32_MAX - 1) ||
      decide (i.sequence < UINT32_MAX ∧ tx.lockTime < env.TX_MAX_LOCK_HEIGHT ∧
        tx.lockTime > (w.blockHeight + 1) % 2 ^ 32) ||
      decide (i.sequence < UINT32_MAX ∧ tx.lockTime > now) ||
      decide (i.txHash ∈ w.pendingTx))

/-- The loop of `_LWWalletUpdateBalance` over the outputs of `tx`, from output `j` on:
every non-empty address goes to `usedAddrs`; an output that pays an address of
`allAddrs` is appended to `utxos` and its amount is added to the balance.  A transaction
has fewer than 2^32 outputs, so that the cast of `j` to `uint32_t` keeps its value. -/
def outputsLoop (tx : LWTransaction) : List LWTxOutput → Nat → LWWallet × Nat → LWWallet × Nat
  | [], _, s => s
  | o :: rest, j, (w, balance) =>
    if o.address ≠ "" then
      let w1 := { w with usedAddrs := keyAdd w.usedAddrs o.address }
      if o.address ∈ w1.allAddrs then
        outputsLoop tx rest (j + 1)
          ({ w1 with utxos := w1.utxos ++ [{ hash := tx.txHash, n := j }] },
            add64 balance o.amount)
      else outputsLoop tx rest (j + 1) (w1, balance)
    else outputsLoop tx rest (j + 1) (w, balance)

/-- The backward loop of `_LWWalletUpdateBalance` over `utxos`: every outpoint that is in
`spentOutputs` is removed and the amount of the output it refers to is subtracted.  A
hash that is not in `allTx`, or an index outside the outputs, is a read through an
invalid pointer (`none`). -/
def spentScan (w : LWWallet) : List LWUTXO → Nat → Option (List LWUTXO × Nat)
  | [], balance => some ([], balance)
  | o :: rest, balance =>
    match spentScan w rest balance with
    | none => none
    | some (rest1, balance1) =>
      if o ∈ w.spentOutputs then
        match txGet w.allTx o.hash with
        | none => none
        | some t =>
          match t.outputs[o.n]? with
          | none => none
          | some out => some (rest1, sub64 balance1 out.amount)
      else some (o :: rest1, balance1)

/-- The wallet after the loop of `_LWWalletUpdateBalance` that adds the inputs of `tx`
to `spentOutputs`. -/
def spendInputs (w : LWWallet) (tx : LWTransaction) : LWWallet :=
  { w with spentOutputs := tx.inputs.foldl (fun acc i => keyAdd acc i.outpoint) w.spentOutputs }

/-- One iteration of the main loop of `_LWWalletUpdateBalance`, on the wallet and the
locals `balance` and `prevBalance`. -/
def updateStep (env : Env) (now : Nat) (s : LWWallet × Nat × Nat) (tx : LWTransaction) :
    Option (LWWallet × Nat × Nat) :=
  let w := s.1
  let balance := s.2.1
  let prevBalance := s.2.2
  if tx.blockHeight = TX_UNCONFIRMED ∧ inputsInvalid w tx = true then
    some ({ w with invalidTx := keyAdd w.invalidTx tx.txHash,
                   balanceHist := w.balanceHist ++ [balance] }, balance, prevBalance)
  else
    let w1 := spendInputs w tx
    if tx.blockHeight = TX_UNCONFIRMED ∧ checkPending env now w1 tx = true then
      some ({ w1 with pendingTx := keyAdd w1.pendingTx tx.txHash,
                      balanceHist := w1.balanceHist ++ [balance] }, balance, prevBalance)
    else
      let s2 := outputsLoop tx tx.outputs 0 (w1, balance)
      let w2 := s2.1
      match spentScan w2 w2.utxos s2.2 with
      | none => none
      | some (utxos, balance3) =>
        some ({ w2 with
                  utxos := utxos,
                  totalReceived :=
                    if prevBalance < balance3 then add64 w2.totalReceived (balance3 - prevBalance)
                    else w2.totalReceived,
                  totalSent :=
                    if balance3 < prevBalance then add64 w2.totalSent (prevBalance - balance3)
                    else w2.totalSent,
                  balanceHist := w2.balanceHist ++ [balance3] }, balance3, balance3)

/-- The main loop of `_LWWalletUpdateBalance` over the ordered list. -/
def updateLoop (env : Env) (now : Nat) :
    List LWTransaction → LWWallet × Nat × Nat → Option (LWWallet × Nat × Nat)
  | [], s => some s
  | tx :: rest, s =>
    match updateStep env now s tx with
    | none => none
    | some s1 => updateLoop env now rest s1

/-- The wallet after the clearing statements at the start of `_LWWalletUpdateBalance`. -/
def cleared (w : LWWallet) : LWWallet :=
  { w with utxos := [], balanceHist := [], spentOutputs := [], invalidTx := [],
           pendingTx := [], usedAddrs := [], totalSent := 0, totalReceived := 0 }

/-- The function `_LWWalletUpdateBalance`; `now` is the value of `time(NULL)`.  A failed
assertion is `none`. -/
def _LWWalletUpdateBalance (env : Env) (now : Nat) (w : LWWallet) : Option LWWallet :=
  match updateLoop env now w.transactions (cleared w, 0, 0) with
  | none => none
  | some (w1, balance, _) =>
    if w1.balanceHist.length = w1.transactions.length then some { w1 with balance := balance }
    else none

/-- The first loop of `LWWalletUnusedAddrs`: the number of chain addresses up to the last
one that is in `usedAddrs`. -/
def tailScan (usedAddrs addrChain : List String) : Nat :=
  (addrChain.reverse.dropWhile (fun a => decide (a ∉ usedAddrs))).length

/-- The loop of `LWWalletUnusedAddrs` that generates addresses, on the chain and the
local `i`; the fuel bounds the number of addresses generated. -/
def generateLoop (env : Env) (internal : Bool) (usedAddrs : List String) (gapLimit : Nat) :
    Nat → List String → Nat → Option (List String × Nat)
  | 0, addrChain, i => if i + gapLimit > addrChain.length then none else some (addrChain, i)
  | fuel + 1, addrChain, i =>
    if i + gapLimit > addrChain.length then
      match env.deriveAddress internal (addrChain.length % 2 ^ 32) with
      | none => some (addrChain, i)
      | some address =>
        generateLoop env internal usedAddrs gapLimit fuel (addrChain ++ [address])
          (if address ∈ usedAddrs then addrChain.length + 1 else i)
    else some (addrChain, i)

/-- The function `LWWalletUnusedAddrs`; `addrs` tells whether the array `addrs` is
non-NULL.  Returns the addresses written to `addrs` (their number is the returned count)
and the wallet.  Every address that the loop generates either completes the gap or is in
`usedAddrs`; with pairwise different derived addresses, as BIP32 derivation gives them,
`(|usedAddrs| + 1) * gapLimit` addresses are enough, which is the fuel. -/
def LWWalletUnusedAddrs (env : Env) (w : LWWallet) (addrs : Bool) (gapLimit : Nat)
    (internal : Bool) : Option (List String × LWWallet) :=
  if gapLimit = 0 then none
  else
    let addrChain := if internal then w.internalChain else w.externalChain
    let startCount := addrChain.length
    match generateLoop env internal w.usedAddrs gapLimit ((w.usedAddrs.length + 1) * gapLimit)
        addrChain (tailScan w.usedAddrs addrChain) with
    | none => none
    | some (chain1, i) =>
      let written := if addrs ∧ i + gapLimit ≤ chain1.length then (chain1.drop i).take gapLimit
        else []
      let w1 : LWWallet :=
        if internal then { w with internalChain := chain1 }
        else { w with externalChain := chain1 }
      if startCount < chain1.length ∧ env.arrayMoved internal startCount = true then
        let rebuilt := (w1.internalChain.reverse ++ w1.externalChain.reverse).foldl keyAdd []
        some (written, { w1 with allAddrs := rebuilt })
      else
        let added := (chain1.drop startCount).foldl keyAdd w1.allAddrs
        some (written, { w1 with allAddrs := added })

/-- The loop of `LWWalletNew` over the given transactions. -/
def newLoop (env : Env) : List LWTransaction → LWWallet → Option LWWallet
  | [], w => some w
  | tx :: rest, w =>
    if env.LWTransactionIsSigned tx = false ∨ txContains w.allTx tx.txHash = true then
      newLoop env rest w
    else
      let w1 := { w with allTx := txAdd w.allTx tx }
      match _LWWalletInsertTx w1 tx with
      | none => none
      | some list =>
        let used := tx.outputs.foldl
          (fun acc o => if o.address ≠ "" then keyAdd acc o.address else acc) w1.usedAddrs
        newLoop env rest { w1 with transactions := list, usedAddrs := used }

/-- The wallet struct after the allocations at the start of `LWWalletNew`. -/
def emptyWallet (env : Env) : LWWallet :=
  { balance := 0, totalSent := 0, totalReceived := 0, feePerKb := env.DEFAULT_FEE_PER_KB,
    balanceHist := [], blockHeight := 0, utxos := [], transactions := [],
    internalChain := [], externalChain := [], allTx := [], invalidTx := [], pendingTx := [],
    spentOutputs := [], usedAddrs := [], allAddrs := [] }

/-- The function `LWWalletNew`; the inner `none` is a NULL result. -/
def LWWalletNew (env : Env) (now : Nat) (transactions : List LWTransaction) :
    Option (Option LWWallet) :=
  match newLoop env transactions (emptyWallet env) with
  | none => none
  | some w1 =>
    match LWWalletUnusedAddrs env w1 false SEQUENCE_GAP_LIMIT_EXTERNAL false with
    | none => none
    | some (_, w2) =>
      match LWWalletUnusedAddrs env w2 false SEQUENCE_GAP_LIMIT_INTERNAL true with
      | none => none
      | some (_, w3) =>
        match _LWWalletUpdateBalance env now w3 with
        | none => none
        | some w4 =>
          match transactions with
          | [] => some (some w4)
          | tx :: _ => if _LWWalletContainsTx w4 tx then some (some w4) else some none

/-- The function `LWWalletRegisterTransaction`: the returned flag, the wallet and the
callback invocations.  A failed assertion is `none`. -/
def LWWalletRegisterTransaction (env : Env) (now : Nat) (w : LWWallet) (tx : LWTransaction) :
    Option (Bool × LWWallet × List Event) :=
  if env.LWTransactionIsSigned tx = false then none
  else if txContains w.allTx tx.txHash = true then some (true, w, [])
  else if _LWWalletContainsTx w tx = true then
    let w1 := { w with allTx := txAdd w.allTx tx }
    match _LWWalletInsertTx w1 tx with
    | none => none
    | some list =>
      match _LWWalletUpdateBalance env now { w1 with transactions := list } with
      | none => none
      | some w2 =>
        match LWWalletUnusedAddrs env w2 false SEQUENCE_GAP_LIMIT_EXTERNAL false with
        | none => none
        | some (_, w3) =>
          match LWWalletUnusedAddrs env w3 false SEQUENCE_GAP_LIMIT_INTERNAL true with
          | none => none
          | some (_, w4) =>
            some (true, w4, [Event.balanceChanged w4.balance, Event.txAdded tx])
  else if tx.blockHeight = TX_UNCONFIRMED then
    some (false, { w with allTx := txAdd w.allTx tx }, [])
  else some (false, w, [])

/-- The function `LWWalletTransactionForHash`; a zero hash fails the assertion (`none`). -/
def LWWalletTransactionForHash (w : LWWallet) (txHash : Nat) : Option (Option LWTransaction) :=
  if txHash = 0 then none else some (txGet w.allTx txHash)

/-- The function `LWWalletAmountSentByTx`. -/
def LWWalletAmountSentByTx (w : LWWallet) (tx : LWTransaction) : Nat :=
  tx.inputs.foldl
    (fun amount i =>
      match txGet w.allTx i.txHash with
      | none => amount
      | some t =>
        match t.outputs[i.index]? with
        | none => amount
        | some o => if o.address ∈ w.allAddrs then add64 amount o.amount else amount)
    0

/-- The last loop of `LWWalletTransactionIsValid`, with the recursive call as a
parameter. -/
def validLoop (rec : LWTransaction → Option Bool) (w : LWWallet) : List LWTxInput → Option Bool
  | [] => some true
  | i :: rest =>
    match LWWalletTransactionForHash w i.txHash with
    | none => none
    | some none => validLoop rec w rest
    | some (some t) =>
      match rec t with
      | none => none
      | some false => some false
      | some true => validLoop rec w rest

/-- The function `LWWalletTransactionIsValid` with a bound on the depth of its
recursion. -/
def LWWalletTransactionIsValidDepth (env : Env) (w : LWWallet) :
    Nat → LWTransaction → Option Bool
  | 0, _ => none
  | depth + 1, tx =>
    if env.LWTransactionIsSigned tx = false then none
    else if tx.blockHeight = TX_UNCONFIRMED then
      let r : Bool :=
        if txContains w.allTx tx.txHash = false then
          !(tx.inputs.any (fun i => decide (i.outpoint ∈ w.spentOutputs)))
        else !(decide (tx.txHash ∈ w.invalidTx))
      if r then validLoop (fun t => LWWalletTransactionIsValidDepth env w depth t) w tx.inputs
      else some false
    else some true

/-- The function `LWWalletTransactionIsValid`.  The recursion follows input hashes into
`allTx`; a chain of nested calls longer than `allTx` has entries visits a transaction
twice, from where the C recursion does not return (`none`). -/
def LWWalletTransactionIsValid (env : Env) (w : LWWallet) (tx : LWTransaction) : Option Bool :=
  LWWalletTransactionIsValidDepth env w (w.allTx.length + 2) tx

/-- The loop of `LWWalletRemoveTransaction` that collects the hashes of the dependent
transactions, on the ordered list in reverse order (last entry first). -/
def dependents (tx : LWTransaction) (txHash : Nat) : List LWTransaction → List Nat
  | [] => []
  | t :: rest =>
    if t.blockHeight < tx.blockHeight then []
    else if tx.txHash = t.txHash then dependents tx txHash rest
    else if t.inputs.any (fun i => i.txHash == txHash) then t.txHash :: dependents tx txHash rest
    else dependents tx txHash rest

/-- The ordered list without its last entry that has the hash (`array_rm` at the first
match of a scan from the end). -/
def removeListed (transactions : List LWTransaction) (txHash : Nat) : List LWTransaction :=
  (transactions.reverse.eraseP (fun t => t.txHash == txHash)).reverse

/-- The loop of `LWWalletRemoveTransaction` that decides `recommendRescan`: true when
every input refers to a confirmed transaction of `allTx`. -/
def rescanLoop (w : LWWallet) : List LWTxInput → Option Bool
  | [] => some true
  | i :: rest =>
    match LWWalletTransactionForHash w i.txHash with
    | none => none
    | some (some t) => if t.blockHeight ≠ TX_UNCONFIRMED then rescanLoop w rest else some false
    | some none => some false

/-- The branch of `LWWalletRemoveTransaction` for a transaction without dependent
transactions: it leaves `allTx` and the ordered list, the balance is recomputed, the
callbacks are invoked. -/
def removeLeaf (env : Env) (now : Nat) (w : LWWallet) (tx : LWTransaction) (txHash : Nat) :
    Option (LWWallet × List Event) :=
  let w1 := { w with allTx := txRemove w.allTx tx.txHash,
                     transactions := removeListed w.transactions tx.txHash }
  match _LWWalletUpdateBalance env now w1 with
  | none => none
  | some w2 =>
    let notify : Option (Bool × Bool) :=
      if LWWalletAmountSentByTx w2 tx > 0 then
        match LWWalletTransactionIsValid env w2 tx with
        | none => none
        | some false => some (false, false)
        | some true =>
          match rescanLoop w2 tx.inputs with
          | none => none
          | some r => some (true, r)
      else some (false, false)
    match notify with
    | none => none
    | some (notifyUser, recommendRescan) =>
      some (w2, [Event.balanceChanged w2.balance,
        Event.txDeleted txHash notifyUser recommendRescan])

/-- The loop of nested calls of `LWWalletRemoveTransaction` for the collected hashes,
with the recursive call as a parameter. -/
def removeAll (rec : LWWallet → Nat → Option (LWWallet × List Event)) :
    List Nat → LWWallet × List Event → Option (LWWallet × List Event)
  | [], s => some s
  | h :: rest, (w, events) =>
    match rec w h with
    | none => none
    | some (w1, events1) => removeAll rec rest (w1, events ++ events1)

/-- The function `LWWalletRemoveTransaction` with a bound on the depth of its
recursion. -/
def LWWalletRemoveTransactionDepth (env : Env) (now : Nat) :
    Nat → LWWallet → Nat → Option (LWWallet × List Event)
  | 0, _, _ => none
  | depth + 1, w, txHash =>
    if txHash = 0 then none
    else
      match txGet w.allTx txHash with
      | none => some (w, [])
      | some tx =>
        let hashes := dependents tx txHash w.transactions.reverse
        if hashes.length > 0 then
          match removeAll (fun w1 h => LWWalletRemoveTransactionDepth env now depth w1 h)
              hashes.reverse (w, []) with
          | none => none
          | some (w1, events) =>
            match LWWalletRemoveTransactionDepth env now depth w1 txHash with
            | none => none
            | some (w2, events2) => some (w2, events ++ events2)
        else removeLeaf env now w tx txHash

/-- The function `LWWalletRemoveTransaction`: the wallet and the callback invocations.
Every nested call is for a listed transaction that spends the transaction of the calling
one, or repeats the call after the dependent transactions are gone; a chain of nested
calls longer than the list has entries revisits a transaction, from where the C recursion
does not return (`none`). -/
def LWWalletRemoveTransaction (env : Env) (now : Nat) (w : LWWallet) (txHash : Nat) :
    Option (LWWallet × List Event) :=
  LWWalletRemoveTransactionDepth env now (w.transactions.length + 2) w txHash

/-- The two stores `tx->timestamp = timestamp; tx->blockHeight = blockHeight`. -/
def storeHeight (blockHeight timestamp : Nat) (t : LWTransaction) : LWTransaction :=
  { t with timestamp := timestamp, blockHeight := blockHeight }

/-- The store `tx->blockHeight = TX_UNCONFIRMED`. -/
def storeUnconfirmed (t : LWTransaction) : LWTransaction :=
  { t with blockHeight := TX_UNCONFIRMED }

/-- One iteration of the loop of `LWWalletUpdateTransactions`, on the wallet, the array
`hashes` and the flag `needsUpdate`.  A transaction that is freed while the ordered list
still points to it leaves a dangling pointer that every later use of the list reads
(`none`). -/
def updateTxStep (blockHeight timestamp : Nat) (s : LWWallet × List Nat × Bool) (txHash : Nat) :
    Option (LWWallet × List Nat × Bool) :=
  let w := s.1
  match txGet w.allTx txHash with
  | none => some s
  | some tx =>
    if tx.blockHeight = blockHeight ∧ tx.timestamp = timestamp then some s
    else
      let store := storeHeight blockHeight timestamp
      let tx1 := store tx
      let w1 := { w with allTx := txStore w.allTx tx.txHash store,
                         transactions := txStore w.transactions tx.txHash store }
      if _LWWalletContainsTx w1 tx1 = true then
        let needsUpdate : Bool :=
          s.2.2 || decide (tx1.txHash ∈ w1.pendingTx) || decide (tx1.txHash ∈ w1.invalidTx)
        if w1.transactions.any (fun t => t.txHash == tx1.txHash) = true then
          let w2 := { w1 with transactions := removeListed w1.transactions tx1.txHash }
          match _LWWalletInsertTx w2 tx1 with
          | none => none
          | some list => some ({ w2 with transactions := list }, s.2.1 ++ [txHash], needsUpdate)
        else some (w1, s.2.1 ++ [txHash], needsUpdate)
      else if blockHeight ≠ TX_UNCONFIRMED then
        if w1.transactions.any (fun t => t.txHash == tx1.txHash) = true then none
        else some ({ w1 with allTx := txRemove w1.allTx tx1.txHash }, s.2.1, s.2.2)
      else some (w1, s.2.1, s.2.2)

/-- The loop of `LWWalletUpdateTransactions` over the given hashes. -/
def updateTxLoop (blockHeight timestamp : Nat) :
    List Nat → LWWallet × List Nat × Bool → Option (LWWallet × List Nat × Bool)
  | [], s => some s
  | h :: rest, s =>
    match updateTxStep blockHeight timestamp s h with
    | none => none
    | some s1 => updateTxLoop blockHeight timestamp rest s1

/-- The function `LWWalletUpdateTransactions`: the wallet and the callback invocations. -/
def LWWalletUpdateTransactions (env : Env) (now : Nat) (w : LWWallet) (txHashes : List Nat)
    (blockHeight timestamp : Nat) : Option (LWWallet × List Event) :=
  let w0 := if blockHeight > w.blockHeight then { w with blockHeight := blockHeight } else w
  match updateTxLoop blockHeight timestamp txHashes (w0, [], false) with
  | none => none
  | some (w1, hashes, needsUpdate) =>
    let updated := if hashes.length > 0 then [Event.txUpdated hashes blockHeight timestamp] else []
    if needsUpdate then
      match _LWWalletUpdateBalance env now w1 with
      | none => none
      | some w2 => some (w2, Event.balanceChanged w2.balance :: updated)
    else some (w1, updated)

/-- One iteration of the loop of `LWWalletSetTxUnconfirmedAfter`: the store to the block
height of the listed transaction `t`. -/
def unconfirm (w : LWWallet) (t : LWTransaction) : LWWallet :=
  { w with allTx := txStore w.allTx t.txHash storeUnconfirmed,
           transactions := txStore w.transactions t.txHash storeUnconfirmed }

/-- The function `LWWalletSetTxUnconfirmedAfter`: the wallet and the callback
invocations. -/
def LWWalletSetTxUnconfirmedAfter (env : Env) (now : Nat) (w : LWWallet) (blockHeight : Nat) :
    Option (LWWallet × List Event) :=
  let w0 := { w with blockHeight := blockHeight }
  let count := (w0.transactions.reverse.takeWhile (fun t => decide (t.blockHeight > blockHeight))).length
  let i := w0.transactions.length - count
  let tail := w0.transactions.drop i
  let hashes := tail.map (fun t => t.txHash)
  let w1 := tail.foldl unconfirm w0
  if count > 0 then
    match _LWWalletUpdateBalance env now w1 with
    | none => none
    | some w2 => some (w2, [Event.balanceChanged w2.balance, Event.txUpdated hashes TX_UNCONFIRMED 0])
  else some (w1, [])

/-! ### LWWallet.c: the transaction builder -/

/-- The value `UINT64_MAX`. -/
def UINT64_MAX : Nat := 18446744073709551615

/-- Modelled from the spec: `LWTransactionNew` of LWTransaction.c (not among the
sources), an unconfirmed transaction without inputs and outputs. -/
def LWTransactionNew : LWTransaction :=
  { txHash := 0, inputs := [], outputs := [], lockTime := 0, blockHeight := TX_UNCONFIRMED,
    timestamp := 0 }

/-- Modelled from the spec: `LWTransactionAddOutput` of LWTransaction.c (not among the
sources), which appends an output with the amount and the script; the address is the one
of the script. -/
def LWTransactionAddOutput (env : Env) (tx : LWTransaction) (amount : Nat) (script : List Nat) :
    LWTransaction :=
  let o : LWTxOutput := { address := env.scriptAddress script, amount := amount, script := script }
  { tx with outputs := tx.outputs ++ [o] }

/-- Modelled from the spec: `LWTransactionAddInput` of LWTransaction.c (not among the
sources), which appends an unsigned input. -/
def LWTransactionAddInput (tx : LWTransaction) (txHash index amount : Nat) (script : List Nat)
    (sequence : Nat) : LWTransaction :=
  let i : LWTxInput :=
    { txHash := txHash, index := index, amount := amount, script := script, sequence := sequence }
  { tx with inputs := tx.inputs ++ [i] }

/-- The function `LWWalletMinOutputAmount`. -/
def LWWalletMinOutputAmount (env : Env) (w : LWWallet) : Nat :=
  let amount :=
    ((env.TX_MIN_OUTPUT_AMOUNT * w.feePerKb) % 2 ^ 64 + env.MIN_FEE_PER_KB - 1) % 2 ^ 64 /
      env.MIN_FEE_PER_KB
  if amount > env.TX_MIN_OUTPUT_AMOUNT then amount else env.TX_MIN_OUTPUT_AMOUNT

/-- The loop of `LWWalletMaxOutputAmount`, on the outpoints in the order of the loop (last
one first) and the locals `inCount` and `amount`. -/
def maxOutputLoop (w : LWWallet) : List LWUTXO → Nat × Nat → Nat × Nat
  | [], s => s
  | o :: rest, (inCount, amount) =>
    match txGet w.allTx o.hash with
    | none => maxOutputLoop w rest (inCount, amount)
    | some tx =>
      match tx.outputs[o.n]? with
      | none => maxOutputLoop w rest (inCount, amount)
      | some out => maxOutputLoop w rest (inCount + 1, add64 amount out.amount)

/-- The function `LWWalletMaxOutputAmount`. -/
def LWWalletMaxOutputAmount (env : Env) (w : LWWallet) : Nat :=
  let s := maxOutputLoop w w.utxos.reverse (0, 0)
  let inCount := s.1
  let amount := s.2
  let txSize := sizeT (8 + LWVarIntSize inCount + env.TX_INPUT_SIZE * inCount + LWVarIntSize 2 +
    env.TX_OUTPUT_SIZE * 2)
  let fee := _txFee env.TX_FEE_PER_KB w.feePerKb (sizeT (txSize + 0))
  if amount > fee then amount - fee else 0

/-- The first loop of `LWWalletFeeForTx`, over the inputs. -/
def feeInputs (w : LWWallet) : List LWTxInput → Nat → Nat
  | [], amount => amount
  | i :: rest, amount =>
    if amount = UINT64_MAX then amount
    else
      match txGet w.allTx i.txHash with
      | none => feeInputs w rest UINT64_MAX
      | some t =>
        match t.outputs[i.index]? with
        | none => feeInputs w rest UINT64_MAX
        | some out => feeInputs w rest (add64 amount out.amount)

/-- The second loop of `LWWalletFeeForTx`, over the outputs. -/
def feeOutputs : List LWTxOutput → Nat → Nat
  | [], amount => amount
  | o :: rest, amount =>
    if amount = UINT64_MAX then amount else feeOutputs rest (sub64 amount o.amount)

/-- The function `LWWalletFeeForTx`. -/
def LWWalletFeeForTx (w : LWWallet) (tx : LWTransaction) : Nat :=
  feeOutputs tx.outputs (feeInputs w tx.inputs 0)

/-- The locals of `LWWalletCreateTxForOutputs` after its loop over `utxos`. -/
structure Selection where
  transaction : Option LWTransaction
  feeAmount : Nat
  amount : Nat
  balance : Nat
  wallet : LWWallet

/-- The loop of `LWWalletCreateTxForOutputs` over `utxos`, with the recursive call as a
parameter.  `count` is `array_count(wallet->utxos)`. -/
def selectLoop (env : Env)
    (rec : LWWallet → List LWTxOutput → Option (Option LWTransaction × LWWallet))
    (w : LWWallet) (outputs : List LWTxOutput) (minAmount count : Nat) :
    List LWUTXO → LWTransaction → Nat → Nat → Nat → Option Selection
  | [], transaction, feeAmount, amount, balance =>
    some { transaction := some transaction, feeAmount := feeAmount, amount := amount,
           balance := balance, wallet := w }
  | o :: rest, transaction, feeAmount, amount, balance =>
    match txGet w.allTx o.hash with
    | none => selectLoop env rec w outputs minAmount count rest transaction feeAmount amount balance
    | some tx =>
      match tx.outputs[o.n]? with
      | none =>
        selectLoop env rec w outputs minAmount count rest transaction feeAmount amount balance
      | some out =>
        let t1 := LWTransactionAddInput transaction tx.txHash o.n out.amount out.script
          env.TXIN_SEQUENCE
        if sizeT (env.LWTransactionSize t1 + env.TX_OUTPUT_SIZE) > env.TX_MAX_SIZE then
          if w.balance < add64 amount (_txFee env.TX_FEE_PER_KB w.feePerKb
              (sizeT (10 + count * env.TX_INPUT_SIZE +
                (outputs.length + 1) * env.TX_OUTPUT_SIZE + 0))) then
            some { transaction := none, feeAmount := feeAmount, amount := amount,
                   balance := balance, wallet := w }
          else
            let last := outputs.getLast?.getD { address := "", amount := 0, script := [] }
            let reduced := sub64 last.amount (sub64 (add64 amount feeAmount) balance)
            let nested :=
              if last.amount > sub64 (add64 (add64 amount feeAmount) minAmount) balance then
                rec w (outputs.dropLast ++ [{ last with amount := reduced }])
              else rec w outputs.dropLast
            match nested with
            | none => none
            | some (t2, w2) =>
              some { transaction := t2, feeAmount := 0, amount := 0, balance := 0, wallet := w2 }
        else
          let balance1 := add64 balance out.amount
          let fee1 := _txFee env.TX_FEE_PER_KB w.feePerKb
            (sizeT (env.LWTransactionSize t1 + env.TX_OUTPUT_SIZE + 0))
          let fee2 :=
            if w.balance > add64 amount fee1 then
              add64 fee1 (sub64 w.balance (add64 amount fee1) % 100)
            else fee1
          if balance1 = add64 amount fee2 ∨ balance1 ≥ add64 (add64 amount fee2) minAmount then
            some { transaction := some t1, feeAmount := fee2, amount := amount,
                   balance := balance1, wallet := w }
          else selectLoop env rec w outputs minAmount count rest t1 fee2 amount balance1

/-- The function `LWWalletCreateTxForOutputs` with a bound on the depth of its recursion
(the restart with a reduced or dropped last output): the transaction (`none` for NULL)
and the wallet, whose internal chain the change address can extend.  A failed assertion
is `none`. -/
def LWWalletCreateTxForOutputs (env : Env) :
    Nat → LWWallet → List LWTxOutput → Option (Option LWTransaction × LWWallet)
  | 0, _, _ => none
  | depth + 1, w, outputs =>
    if outputs.length = 0 ∨ outputs.any (fun o => o.script.length == 0) = true then none
    else
      let transaction := outputs.foldl
        (fun t o => LWTransactionAddOutput env t o.amount o.script) LWTransactionNew
      let amount := outputs.foldl (fun a o => add64 a o.amount) 0
      let minAmount := LWWalletMinOutputAmount env w
      let feeAmount := _txFee env.TX_FEE_PER_KB w.feePerKb
        (sizeT (env.LWTransactionSize transaction + env.TX_OUTPUT_SIZE))
      match selectLoop env (fun w1 o1 => LWWalletCreateTxForOutputs env depth w1 o1) w outputs
          minAmount w.utxos.length w.utxos transaction feeAmount amount 0 with
      | none => none
      | some s =>
        match s.transaction with
        | none => some (none, s.wallet)
        | some t =>
          if s.balance < add64 s.amount s.feeAmount then some (none, s.wallet)
          else if sub64 s.balance (add64 s.amount s.feeAmount) > minAmount then
            match LWWalletUnusedAddrs env s.wallet true 1 true with
            | none => none
            | some (written, w2) =>
              let script := env.addressScript (written.headD "")
              let t1 := LWTransactionAddOutput env t
                (sub64 s.balance (add64 s.amount s.feeAmount)) script
              some (some { t1 with outputs := env.LWTransactionShuffleOutputs t1.outputs }, w2)
          else some (some t, s.wallet)

/-- The array `dummyScript` of `LWWalletFeeForTxAmount`: `OP_DUP`, `OP_HASH160`, 20,
twenty zero bytes, `OP_EQUALVERIFY`, `OP_CHECKSIG`. -/
def dummyScript : List Nat := [0x76, 0xa9, 20] ++ List.replicate 20 0 ++ [0x88, 0xac]

/-- The function `LWWalletFeeForTxAmount`, with the depth bound of
`LWWalletCreateTxForOutputs`: the fee and the wallet.  A failed assertion is `none`. -/
def LWWalletFeeForTxAmount (env : Env) (depth : Nat) (w : LWWallet) (amount : Nat) :
    Option (Nat × LWWallet) :=
  if amount = 0 then none
  else
    let maxAmount := LWWalletMaxOutputAmount env w
    let o : LWTxOutput :=
      { address := env.scriptAddress dummyScript,
        amount := if amount < maxAmount then amount else maxAmount,
        script := dummyScript }
    match LWWalletCreateTxForOutputs env depth w [o] with
    | none => none
    | some (none, w1) => some (0, w1)
    | some (some tx, w1) => some (LWWalletFeeForTx w1 tx, w1)

/-- The function `LWWalletSetFeePerKb`. -/
def LWWalletSetFeePerKb (w : LWWallet) (feePerKb : Nat) : LWWallet :=
  { w with feePerKb := feePerKb }

/-! ### LWWallet.c: states, invariants and specification-level notions -/

/-- Wallet states reached through the public operations that change the state. -/
inductive WalletReached (env : Env) : LWWallet → Prop
  | new (now : Nat) (transactions : List LWTransaction) (w : LWWallet) :
      LWWalletNew env now transactions = some (some w) → WalletReached env w
  | register (now : Nat) (w w1 : LWWallet) (tx : LWTransaction) (r : Bool) (events : List Event) :
      WalletReached env w → LWWalletRegisterTransaction env now w tx = some (r, w1, events) →
      WalletReached env w1
  | remove (now : Nat) (w w1 : LWWallet) (txHash : Nat) (events : List Event) :
      WalletReached env w → LWWalletRemoveTransaction env now w txHash = some (w1, events) →
      WalletReached env w1
  | update (now : Nat) (w w1 : LWWallet) (txHashes : List Nat) (blockHeight timestamp : Nat)
      (events : List Event) :
      WalletReached env w →
      LWWalletUpdateTransactions env now w txHashes blockHeight timestamp = some (w1, events) →
      WalletReached env w1
  | unconfirm (now : Nat) (w w1 : LWWallet) (blockHeight : Nat) (events : List Event) :
      WalletReached env w →
      LWWalletSetTxUnconfirmedAfter env now w blockHeight = some (w1, events) →
      WalletReached env w1
  | unusedAddrs (w w1 : LWWallet) (addrs : Bool) (gapLimit : Nat) (internal : Bool)
      (written : List String) :
      WalletReached env w →
      LWWalletUnusedAddrs env w addrs gapLimit internal = some (written, w1) →
      WalletReached env w1
  | setFeePerKb (w : LWWallet) (feePerKb : Nat) :
      WalletReached env w → WalletReached env (LWWalletSetFeePerKb w feePerKb)
  | createTx (depth : Nat) (w w1 : LWWallet) (outputs : List LWTxOutput)
      (tx : Option LWTransaction) :
      WalletReached env w → LWWalletCreateTxForOutputs env depth w outputs = some (tx, w1) →
      WalletReached env w1

/-- The output that an outpoint refers to: output `n` of the transaction of `allTx` with
the hash. -/
def outputAt (allTx : List LWTransaction) (o : LWUTXO) : Option LWTxOutput :=
  (txGet allTx o.hash).bind (fun t => t.outputs[o.n]?)

/-- The amount of the output that an outpoint refers to (0 when there is none). -/
def utxoAmount (allTx : List LWTransaction) (o : LWUTXO) : Nat :=
  ((outputAt allTx o).map (fun out => out.amount)).getD 0

/-- The sum of the amounts of the outputs that a list of outpoints refers to. -/
def utxoSum (allTx : List LWTransaction) (utxos : List LWUTXO) : Nat :=
  (utxos.map (utxoAmount allTx)).sum

/-- The transaction `b` has an input that refers to the transaction hash `h`. -/
def spends (b : LWTransaction) (h : Nat) : Prop := ∃ i ∈ b.inputs, i.txHash = h

/-- The ordered list is a topological order: a transaction that spends an output of a
listed transaction comes after it. -/
def Topological (l : List LWTransaction) : Prop :=
  ∀ (i j : Nat) (a b : LWTransaction), l[i]? = some a → l[j]? = some b →
    spends b a.txHash → i < j

/-- The members that `_LWWalletUpdateBalance` leaves alone are the same in two wallets. -/
structure Frame (w w1 : LWWallet) : Prop where
  transactions : w1.transactions = w.transactions
  allTx : w1.allTx = w.allTx
  allAddrs : w1.allAddrs = w.allAddrs
  internalChain : w1.internalChain = w.internalChain
  externalChain : w1.externalChain = w.externalChain
  feePerKb : w1.feePerKb = w.feePerKb
  blockHeight : w1.blockHeight = w.blockHeight

/-- What holds of `utxos`, `spentOutputs` and the running balance during the main loop of
`_LWWalletUpdateBalance` over the list `l`: the balance is the sum of the amounts of the
outpoints of `utxos` modulo 2^64; every outpoint of `utxos` refers to an output of a
transaction of `allTx` that pays an address of `allAddrs`; an outpoint of `utxos` is in
`spentOutputs` only when a transaction of `l` that is in `pendingTx` spends it. -/
structure Good (l : List LWTransaction) (w : LWWallet) (balance : Nat) : Prop where
  bal : balance = utxoSum w.allTx w.utxos % 2 ^ 64
  valid : ∀ o ∈ w.utxos, ∃ out, outputAt w.allTx o = some out ∧ out.address ∈ w.allAddrs
  spent : ∀ o ∈ w.utxos, o ∈ w.spentOutputs →
    ∃ t ∈ l, t.txHash ∈ w.pendingTx ∧ o ∈ t.inputs.map LWTxInput.outpoint

/-- Every listed transaction is the transaction of `allTx` with its hash. -/
def ListedInAllTx (w : LWWallet) : Prop :=
  ∀ t ∈ w.transactions, txGet w.allTx t.txHash = some t

/-- The state invariant of the wallet: the listed transactions are in `allTx` and have
pairwise different hashes, `allAddrs` holds only chain addresses, `balanceHist` is as long
as the list, and `utxos`, `spentOutputs` and `balance` are as in `Good`. -/
structure WalletInv (w : LWWallet) : Prop where
  listed : ListedInAllTx w
  nodup : (w.transactions.map (fun t => t.txHash)).Nodup
  addrs : ∀ a ∈ w.allAddrs, a ∈ w.internalChain ∨ a ∈ w.externalChain
  hist : w.balanceHist.length = w.transactions.length
  good : Good w.transactions w w.balance

/-- The first two parts of `Good`. -/
structure Sound (w : LWWallet) (balance : Nat) : Prop where
  bal : balance = utxoSum w.allTx w.utxos % 2 ^ 64
  valid : ∀ o ∈ w.utxos, ∃ out, outputAt w.allTx o = some out ∧ out.address ∈ w.allAddrs

/-- The part of the state invariant that the recomputation of the derived state relies
on. -/
structure BaseInv (w : LWWallet) : Prop where
  listed : ListedInAllTx w
  nodup : (w.transactions.map (fun t => t.txHash)).Nodup
  addrs : ∀ a ∈ w.allAddrs, a ∈ w.internalChain ∨ a ∈ w.externalChain

/-- The wallet `w1` is `w` with longer address chains and more addresses in `allAddrs`,
all of them chain addresses. -/
structure AddrGrow (w w1 : LWWallet) : Prop where
  eq : w1 = { w with internalChain := w1.internalChain, externalChain := w1.externalChain,
                     allAddrs := w1.allAddrs }
  internal : w.internalChain <+: w1.internalChain
  external : w.externalChain <+: w1.externalChain
  allAddrs : ∀ a ∈ w.allAddrs, a ∈ w1.allAddrs
  chains : ∀ a ∈ w1.allAddrs, a ∈ w1.internalChain ∨ a ∈ w1.externalChain

/-- Two wallets have the same address chains, `allAddrs`, `utxos`, `spentOutputs`,
`pendingTx`, `balance` and `balanceHist`. -/
structure SameDerived (w w1 : LWWallet) : Prop where
  allAddrs : w1.allAddrs = w.allAddrs
  internalChain : w1.internalChain = w.internalChain
  externalChain : w1.externalChain = w.externalChain
  utxos : w1.utxos = w.utxos
  spentOutputs : w1.spentOutputs = w.spentOutputs
  pendingTx : w1.pendingTx = w.pendingTx
  balance : w1.balance = w.balance
  balanceHist : w1.balanceHist = w.balanceHist

/-- The transaction `tx` at position `i` of the list `l` is to be classified invalid, given
the hashes `invalidTx` of the invalid transactions: it is unconfirmed and one of its inputs
is an outpoint that a transaction earlier in the list spends that is not itself invalid,
or refers to a transaction earlier in the list that is invalid. -/
def InvalidAt (l : List LWTransaction) (invalidTx : List Nat) (i : Nat) (tx : LWTransaction) :
    Prop :=
  tx.blockHeight = TX_UNCONFIRMED ∧ ∃ inp ∈ tx.inputs,
    (∃ (j : Nat) (t : LWTransaction), j < i ∧ l[j]? = some t ∧ t.txHash ∉ invalidTx ∧
      inp.outpoint ∈ t.inputs.map LWTxInput.outpoint) ∨
    (∃ (j : Nat) (t : LWTransaction), j < i ∧ l[j]? = some t ∧ t.txHash ∈ invalidTx ∧
      inp.txHash = t.txHash)

/-- What holds of `invalidTx` and `spentOutputs` after the main loop of
`_LWWalletUpdateBalance` went over the transactions `l`: `invalidTx` holds hashes of `l`
only, `spentOutputs` holds the outpoints spent by the transactions of `l` that are not in
`invalidTx`, and a transaction of `l` is in `invalidTx` exactly when `InvalidAt` says so. -/
structure Classified (l : List LWTransaction) (w : LWWallet) : Prop where
  sub : ∀ h ∈ w.invalidTx, ∃ t ∈ l, t.txHash = h
  spent : ∀ o, o ∈ w.spentOutputs ↔
    ∃ t ∈ l, t.txHash ∉ w.invalidTx ∧ o ∈ t.inputs.map LWTxInput.outpoint
  iff : ∀ (i : Nat) (tx : LWTransaction), l[i]? = some tx →
    (tx.txHash ∈ w.invalidTx ↔ InvalidAt l w.invalidTx i tx)

/-- The wallet with other values of `allTx`, `transactions` and `balance`. -/
def rebase (allTx transactions : List LWTransaction) (balance : Nat) (w : LWWallet) : LWWallet :=
  { w with allTx := allTx, transactions := transactions, balance := balance }

/-- The wallet `w` with the address chains and `allAddrs` of the wallet `w2`. -/
def withAddrs (w w2 : LWWallet) : LWWallet :=
  { w with internalChain := w2.internalChain, externalChain := w2.externalChain,
           allAddrs := w2.allAddrs }

/-! ### Concrete wallet inputs -/

/-- A stand-in for `LWTransactionSize`: the size of a transaction with unsigned inputs of
`TX_INPUT_SIZE` bytes and outputs of `TX_OUTPUT_SIZE` bytes. -/
def sampleSize (tx : LWTransaction) : Nat :=
  8 + LWVarIntSize tx.inputs.length + 148 * tx.inputs.length +
    LWVarIntSize tx.outputs.length + 34 * tx.outputs.length

/-- An environment with the customary policy constants (fee 1000 per kb, dust limit 546,
input size 148, output size 34) and with external addresses `e`, `ee`, ... and internal
addresses `i`, `ii`, ... -/
def sampleEnv : Env :=
  { TX_FEE_PER_KB := 1000, MIN_FEE_PER_KB := 1000, DEFAULT_FEE_PER_KB := 10000,
    TX_MAX_SIZE := 100000, TX_MIN_OUTPUT_AMOUNT := 546, TX_OUTPUT_SIZE := 34,
    TX_INPUT_SIZE := 148, TX_MAX_LOCK_HEIGHT := 500000000, TXIN_SEQUENCE := UINT32_MAX,
    LWTransactionSize := sampleSize,
    LWTransactionIsSigned := fun _ => true,
    LWTransactionShuffleOutputs := fun l => l,
    deriveAddress := fun internal i =>
      some (String.mk (List.replicate (i + 1) (if internal then 'i' else 'e'))),
    scriptAddress := fun _ => "",
    addressScript := fun a => a.toList.map Char.toNat,
    arrayMoved := fun _ _ => false }

/-- An unconfirmed transaction with one input and one output. -/
def sampleTx (txHash inHash inIndex sequence : Nat) (address : String) (amount : Nat) :
    LWTransaction :=
  { txHash := txHash,
    inputs := [{ txHash := inHash, index := inIndex, amount := 0, script := [], sequence := sequence }],
    outputs := [{ address := address, amount := amount, script := [1] }],
    lockTime := 0, blockHeight := TX_UNCONFIRMED, timestamp := 0 }

/-- Successive registrations in a wallet, when every call returns. -/
def registerAll (env : Env) (now : Nat) : LWWallet → List LWTransaction → Option LWWallet
  | w, [] => some w
  | w, tx :: rest =>
    match LWWalletRegisterTransaction env now w tx with
    | none => none
    | some (_, w1, _) => registerAll env now w1 rest

/-- The wallet that `LWWalletNew` creates without transactions. -/
def freshWallet : Option LWWallet := (LWWalletNew sampleEnv 0 []).join

/-- The wallet after registering the transactions `l` in the wallet that `LWWalletNew`
creates without transactions, when every call returns. -/
def walletOf (l : List LWTransaction) : Option LWWallet :=
  freshWallet.bind (fun w => registerAll sampleEnv 0 w l)

/-- The transaction with another block height. -/
def confirmedAt (t : LWTransaction) (h : Nat) : LWTransaction := { t with blockHeight := h }

/-- The wallet of `walletOf`, and the wallet without transactions and addresses when a
call did not return. -/
def walletOfD (l : List LWTransaction) : LWWallet := (walletOf l).getD (emptyWallet sampleEnv)

/-- A wallet with two confirmed coins: 11546 at the address `e` and 100054 at `ee`. -/
def twoCoinWallet : LWWallet :=
  walletOfD [confirmedAt (sampleTx 1 8 0 UINT32_MAX "e" 11546) 100,
    confirmedAt (sampleTx 2 9 0 UINT32_MAX "ee" 100054) 101]

/-- A wallet with a confirmed coin of 10000 at the address `e` and an unconfirmed
transaction that spends it with the sequence number 0xfffffffd. -/
def replaceableSpendWallet : LWWallet :=
  walletOfD [confirmedAt (sampleTx 1 8 0 UINT32_MAX "e" 10000) 100,
    sampleTx 2 1 0 4294967293 "ee" 9000]

/-- A transaction with two outputs of 2^63 each, to the addresses `e` and `ee`. -/
def hugeTx : LWTransaction :=
  { sampleTx 1 8 0 UINT32_MAX "e" (2 ^ 63) with
    outputs := [{ address := "e", amount := 2 ^ 63, script := [1] },
                { address := "ee", amount := 2 ^ 63, script := [1] }] }

/-- A confirmed transaction with an output of 10000 to the first external address `e` and
an output of 20000 to the eleventh external address. -/
def aheadTx : LWTransaction :=
  { sampleTx 1 8 0 UINT32_MAX "e" 10000 with
    outputs := [{ address := "e", amount := 10000, script := [1] },
                { address := "eeeeeeeeeee", amount := 20000, script := [1] }],
    blockHeight := 100 }

/-- The result of `LWWalletRegisterTransaction` in the sample environment at time 0, and
the unchanged wallet when the call does not return. -/
def registerD (w : LWWallet) (tx : LWTransaction) : Bool × LWWallet × List Event :=
  (LWWalletRegisterTransaction sampleEnv 0 w tx).getD (false, w, [])

/-- The result of `LWWalletRemoveTransaction` in the sample environment at time 0, and
the unchanged wallet when the call does not return. -/
def removeD (w : LWWallet) (txHash : Nat) : LWWallet × List Event :=
  (LWWalletRemoveTransaction sampleEnv 0 w txHash).getD (w, [])

/-- An unconfirmed transaction with hash 2 that spends output 0 of the transaction with
hash 1 and pays 5000 to `e`. -/
def childTx : LWTransaction := sampleTx 2 1 0 UINT32_MAX "e" 5000

/-- An unconfirmed transaction with hash 1 that pays 7000 to `ee`. -/
def parentTx : LWTransaction := sampleTx 1 8 0 UINT32_MAX "ee" 7000

/-- An unconfirmed transaction with hash 3 that pays 6000 to `e`. -/
def otherTx : LWTransaction := sampleTx 3 9 0 UINT32_MAX "e" 6000

/-- A wallet with a confirmed coin of 10000 at the address `e` and an unconfirmed
transaction that pays 4000 to the sixth external address. -/
def coinAndPaymentWallet : LWWallet :=
  walletOfD [confirmedAt (sampleTx 1 8 0 UINT32_MAX "e" 10000) 100,
    sampleTx 3 9 0 UINT32_MAX "eeeeee" 4000]

/-- An unconfirmed transaction that spends output 0 of transaction 1 with the sequence
number 0xfffffffd and pays 9000 to the third external address. -/
def replaceableTx : LWTransaction := sampleTx 2 1 0 4294967293 "eee" 9000

/-- A wallet with a confirmed coin of 10000 at the address `e`. -/
def oneCoinWallet : LWWallet :=
  walletOfD [confirmedAt (sampleTx 1 8 0 UINT32_MAX "e" 10000) 100]

/-! ### LWWallet.c: further functions and specification-level notions -/

/-- The function `LWWalletReceiveAddress`: the address (the empty text `LW_ADDRESS_NONE`
when `LWWalletUnusedAddrs` wrote none) and the wallet. -/
def LWWalletReceiveAddress (env : Env) (w : LWWallet) : Option (String × LWWallet) :=
  match LWWalletUnusedAddrs env w true 1 false with
  | none => none
  | some (written, w1) => some (written.headD "", w1)

/-- The position `i` of a chain is the one after its last address that is in `usedAddrs`
(0 when no chain address is used). -/
def GapAt (usedAddrs addrChain : List String) (i : Nat) : Prop :=
  i ≤ addrChain.length ∧ (∀ a ∈ addrChain.drop i, a ∉ usedAddrs) ∧
    (i = 0 ∨ ∃ a, addrChain[i - 1]? = some a ∧ a ∈ usedAddrs)

/-- The chain of the wallet that `LWWalletUnusedAddrs` works on. -/
def chainOf (w : LWWallet) (internal : Bool) : List String :=
  if internal then w.internalChain else w.externalChain

/-- The part of the state invariant that concerns the addresses: every chain address is in
`allAddrs`, and every address of `usedAddrs` is the address of an output of a listed
transaction. -/
structure AddrInv (w : LWWallet) : Prop where
  cover : ∀ a, a ∈ w.internalChain ∨ a ∈ w.externalChain → a ∈ w.allAddrs
  used : ∀ a ∈ w.usedAddrs, ∃ t ∈ w.transactions, ∃ o ∈ t.outputs, o.address = a

/-- The listed transaction with the hash `g` spends, directly or through other listed
transactions, an output of the transaction with the hash `h`. -/
inductive Descends (l : List LWTransaction) : Nat → Nat → Prop
  | child (t : LWTransaction) (h : Nat) : t ∈ l → spends t h → Descends l t.txHash h
  | step (t : LWTransaction) (g h : Nat) : t ∈ l → spends t g → Descends l g h →
      Descends l t.txHash h

/-- The last loop of `LWWalletTransactionIsPending`, with the recursive call as a
parameter. -/
def pendingLoop (rec : LWTransaction → Option Bool) (w : LWWallet) :
    List LWTxInput → Option Bool
  | [] => some false
  | i :: rest =>
    match LWWalletTransactionForHash w i.txHash with
    | none => none
    | some none => pendingLoop rec w rest
    | some (some t) =>
      match rec t with
      | none => none
      | some true => some true
      | some false => pendingLoop rec w rest

/-- The test of `LWWalletTransactionIsPending` on the sequence number of an input and the
lock time of the transaction; `now` is the value of `time(NULL)`. -/
def postdated (env : Env) (now : Nat) (w : LWWallet) (tx : LWTransaction) (i : LWTxInput) :
    Bool :=
  decide (i.sequence < UINT32_MAX - 1) ||
    decide (i.sequence < UINT32_MAX ∧ tx.lockTime < env.TX_MAX_LOCK_HEIGHT ∧
      tx.lockTime > (w.blockHeight + 1) % 2 ^ 32) ||
    decide (i.sequence < UINT32_MAX ∧ tx.lockTime > now)

/-- The function `LWWalletTransactionIsPending` with a bound on the depth of its
recursion; `now` is the value of `time(NULL)`.  A failed assertion is `none`. -/
def LWWalletTransactionIsPendingDepth (env : Env) (now : Nat) (w : LWWallet) :
    Nat → LWTransaction → Option Bool
  | 0, _ => none
  | depth + 1, tx =>
    if env.LWTransactionIsSigned tx = false then none
    else if tx.blockHeight = TX_UNCONFIRMED then
      if env.LWTransactionSize tx > env.TX_MAX_SIZE then some true
      else if tx.inputs.any (postdated env now w tx) = true then some true
      else if tx.outputs.any (fun o => decide (o.amount < env.TX_MIN_OUTPUT_AMOUNT)) = true then
        some true
      else
        pendingLoop (fun t => LWWalletTransactionIsPendingDepth env now w depth t) w tx.inputs
    else some false

/-- The function `LWWalletTransactionIsPending`.  The recursion follows input hashes into
`allTx`; a chain of nested calls longer than `allTx` has entries visits a transaction
twice, from where the C recursion does not return (`none`). -/
def LWWalletTransactionIsPending (env : Env) (now : Nat) (w : LWWallet) (tx : LWTransaction) :
    Option Bool :=
  LWWalletTransactionIsPendingDepth env now w (w.allTx.length + 2) tx

/-- The outputs of the transaction that `LWWalletCreateTxForOutputs` builds from the
requested outputs with `LWTransactionAddOutput`. -/
def requestedOutputs (env : Env) (outputs : List LWTxOutput) : List LWTxOutput :=
  outputs.map
    (fun o => { address := env.scriptAddress o.script, amount := o.amount, script := o.script })

/-- The local `amount` of `LWWalletCreateTxForOutputs` after its first loop: the sum of
the requested amounts in 64-bit arithmetic. -/
def requestedAmount (outputs : List LWTxOutput) : Nat :=
  outputs.foldl (fun a o => add64 a o.amount) 0

/-- The local `balance` of `LWWalletCreateTxForOutputs` for the inputs added so far: the
sum of their amounts in 64-bit arithmetic. -/
def inputBalance (inputs : List LWTxInput) : Nat :=
  inputs.foldl (fun b i => add64 b i.amount) 0

/-- The two statements of the loop of `LWWalletCreateTxForOutputs` that compute
`feeAmount` after an input was added to the transaction `t`: the fee for the size with a
change output, raised to round the remaining wallet balance to a multiple of 100. -/
def feeAfterInput (env : Env) (w : LWWallet) (amount : Nat) (t : LWTransaction) : Nat :=
  let fee1 := _txFee env.TX_FEE_PER_KB w.feePerKb
    (sizeT (env.LWTransactionSize t + env.TX_OUTPUT_SIZE + 0))
  if w.balance > add64 amount fee1 then
    add64 fee1 (sub64 w.balance (add64 amount fee1) % 100)
  else fee1

/-- The local `transaction` of `LWWalletCreateTxForOutputs` after its two loops, when the
second loop added the inputs `inputs` to the requested outputs. -/
def builtTx (env : Env) (outputs : List LWTxOutput) (inputs : List LWTxInput) : LWTransaction :=
  { LWTransactionNew with inputs := inputs, outputs := requestedOutputs env outputs }

/-- The local `feeAmount` of `LWWalletCreateTxForOutputs` after its two loops, when the
second loop added the inputs `inputs`: the fee computed before the loop when no input was
added, and the one computed after the last input otherwise. -/
def builderFee (env : Env) (w : LWWallet) (outputs : List LWTxOutput) (inputs : List LWTxInput) :
    Nat :=
  if inputs = [] then
    _txFee env.TX_FEE_PER_KB w.feePerKb
      (sizeT (env.LWTransactionSize (builtTx env outputs []) + env.TX_OUTPUT_SIZE))
  else feeAfterInput env w (requestedAmount outputs) (builtTx env outputs inputs)

/-- The change output that `LWWalletCreateTxForOutputs` appends for the address `addr`. -/
def changeOutput (env : Env) (addr : String) (amount : Nat) : LWTxOutput :=
  { address := env.scriptAddress (env.addressScript addr), amount := amount,
    script := env.addressScript addr }

/-! ### Further concrete wallet inputs -/

/-- The result of `LWWalletUnusedAddrs` with a non-NULL `addrs` in the sample environment,
and nothing written when the call does not return. -/
def unusedD (w : LWWallet) (gapLimit : Nat) (internal : Bool) : List String × LWWallet :=
  (LWWalletUnusedAddrs sampleEnv w true gapLimit internal).getD ([], w)

/-- The result of `LWWalletUpdateTransactions` in the sample environment at time 0, and
the unchanged wallet when the call does not return. -/
def updateD (w : LWWallet) (txHashes : List Nat) (blockHeight timestamp : Nat) :
    LWWallet × List Event :=
  (LWWalletUpdateTransactions sampleEnv 0 w txHashes blockHeight timestamp).getD (w, [])

/-- The result of `LWWalletSetTxUnconfirmedAfter` in the sample environment at time 0, and
the unchanged wallet when the call does not return. -/
def unconfirmD (w : LWWallet) (blockHeight : Nat) : LWWallet × List Event :=
  (LWWalletSetTxUnconfirmedAfter sampleEnv 0 w blockHeight).getD (w, [])

/-- A wallet with two confirmed coins at the block heights 2500000000 and 3000000000,
above `TX_UNCONFIRMED`. -/
def highWallet : LWWallet :=
  walletOfD [confirmedAt (sampleTx 1 8 0 UINT32_MAX "e" 10000) 2500000000,
    confirmedAt (sampleTx 2 9 0 UINT32_MAX "ee" 10000) 3000000000]

/-- An unconfirmed transaction with the hash 5 that pays no wallet address and has the
sequence number 0xfffffffd. -/
def foreignReplaceableTx : LWTransaction := sampleTx 5 9 0 4294967293 "zzz" 1000

/-- An unconfirmed transaction with the hash 6 that spends output 0 of transaction 5 and
pays 5000 to the first external address. -/
def foreignChildTx : LWTransaction := sampleTx 6 5 0 UINT32_MAX "e" 5000

/-- The result of `_LWWalletUpdateBalance` in the sample environment at time 0, and the
unchanged wallet when it does not return. -/
def recomputeD (w : LWWallet) : LWWallet := (_LWWalletUpdateBalance sampleEnv 0 w).getD w

/-- A requested output of the given amount with a script of one byte. -/
def pay (amount : Nat) : LWTxOutput := { address := "", amount := amount, script := [1] }

/-- The result of `LWWalletCreateTxForOutputs` without a restart in the sample environment,
and no transaction when the call does not return. -/
def buildD (w : LWWallet) (outputs : List LWTxOutput) : Option LWTransaction × LWWallet :=
  (LWWalletCreateTxForOutputs sampleEnv 1 w outputs).getD (none, w)

/-- The transaction of `buildD`, and the empty one when there is none. -/
def builtD (w : LWWallet) (outputs : List LWTxOutput) : LWTransaction :=
  (buildD w outputs).1.getD LWTransactionNew

/-! ### LWWallet.c: notions for the round trip of a reorganisation -/

/-- The array `hashes` of `LWWalletSetTxUnconfirmedAfter`: the hashes of the transactions at
the end of the ordered list whose block height is above `blockHeight`. -/
def unconfirmedHashes (w : LWWallet) (blockHeight : Nat) : List Nat :=
  (w.transactions.drop (w.transactions.length -
    (w.transactions.reverse.takeWhile (fun t => decide (t.blockHeight > blockHeight))).length)).map
    (fun t => t.txHash)

/-- The outpoints that the loop of `_LWWalletUpdateBalance` over the outputs of a transaction
with the hash `h` appends to `utxos`, from output `j` on: those of the outputs with a
non-empty address of `allAddrs`. -/
def paidOutpoints (allAddrs : List String) (h : Nat) : List LWTxOutput → Nat → List LWUTXO
  | [], _ => []
  | o :: rest, j =>
    if o.address ≠ "" ∧ o.address ∈ allAddrs then
      { hash := h, n := j } :: paidOutpoints allAddrs h rest (j + 1)
    else paidOutpoints allAddrs h rest (j + 1)

/-- The hash, the inputs and the outputs of a transaction. -/
def txCore (t : LWTransaction) : Nat × List LWTxInput × List LWTxOutput :=
  (t.txHash, t.inputs, t.outputs)

/-- The unspent outputs of a list of transactions of which none is left out as invalid or
pending: the outpoints of the outputs that pay an address of `allAddrs`, in the order of
the list, without those that an input of a transaction of the list refers to. -/
def settledUtxos (allAddrs : List String) (l : List LWTransaction) : List LWUTXO :=
  (l.flatMap (fun t => paidOutpoints allAddrs t.txHash t.outputs 0)).filter
    (fun o => decide (o ∉ l.flatMap (fun t => t.inputs.map LWTxInput.outpoint)))

/-! ### Concrete inputs for the round trip of a reorganisation -/

/-- An unconfirmed transaction with the hash 2 that spends output 0 of transaction 1, pays
9000 to the second external address and has the lock time 600000000, a time stamp. -/
def timeLockedTx : LWTransaction :=
  { sampleTx 2 1 0 4294967294 "ee" 9000 with lockTime := 600000000 }

/-- A wallet with a confirmed coin of 10000 and the transaction `timeLockedTx`, registered
at the time 0. -/
def timeLockedWallet : LWWallet :=
  walletOfD [confirmedAt (sampleTx 1 8 0 UINT32_MAX "e" 10000) 100, timeLockedTx]

/-! ### LWSet.c: the remaining operations -/

/-- The function `LWSetClear`: `memset` zeroes the `size` buckets of the table.  A table
with fewer than `size` buckets is written outside (`none`). -/
def LWSetClear {α : Type} (set : LWSet α) : Option (LWSet α) :=
  if set.table.length < set.size then none
  else
    some { table := List.replicate set.size none ++ set.table.drop set.size,
           size := set.size,
           itemCount := 0 }

/-- The loop of `LWSetMinus` over the buckets of the other set, with the remove operation
as a parameter. -/
def minusLoop {α : Type} (remove : LWSet α → α → Option (Option α × LWSet α)) :
    List (Option α) → LWSet α → Option (LWSet α)
  | [], set => some set
  | none :: rest, set => minusLoop remove rest set
  | some t :: rest, set =>
    match remove set t with
    | none => none
    | some (_, set1) => minusLoop remove rest set1

/-- The function `LWSetMinus` for two distinct sets. -/
def LWSetMinus {α : Type} [DecidableEq α] (hash : α → Nat) (eq : α → α → Bool)
    (set other : LWSet α) : Option (LWSet α) :=
  if other.table.length < other.size then none
  else minusLoop (LWSetRemove hash eq) (other.table.take other.size) set

/-- The loop of `LWSetIntersect` for two distinct sets, at index `i`; `size` is the bucket
count read at entry.  An iteration either advances `i` or removes the item of bucket `i`,
which leaves one occupied bucket less, so that the fuel bounds the iterations of every run
that ends. -/
def intersectLoop {α : Type} [DecidableEq α] (hash : α → Nat) (eq : α → α → Bool)
    (other : LWSet α) (size : Nat) : Nat → LWSet α → Nat → Option (LWSet α)
  | 0, _, _ => none
  | fuel + 1, set, i =>
    if i < size then
      match set.table[i]? with
      | none => none
      | some none => intersectLoop hash eq other size fuel set (i + 1)
      | some (some t) =>
        match LWSetContains hash eq other t with
        | none => none
        | some true => intersectLoop hash eq other size fuel set (i + 1)
        | some false =>
          match LWSetRemove hash eq set t with
          | none => none
          | some (_, set1) => intersectLoop hash eq other size fuel set1 i
    else some set

/-- The function `LWSetIntersect` for two distinct sets. -/
def LWSetIntersect {α : Type} [DecidableEq α] (hash : α → Nat) (eq : α → α → Bool)
    (set other : LWSet α) : Option (LWSet α) :=
  intersectLoop hash eq other set.size (set.size + set.table.length + 1) set 0

/-- Sets reached from the set `s0` by calls of `LWSetAdd`, `LWSetRemove`, `LWSetUnion`,
`LWSetMinus`, `LWSetIntersect` and `LWSetClear` that return; the other set of a binary
operation is any set distinct from the first. -/
inductive ReachedFrom {α : Type} [DecidableEq α] (hash : α → Nat) (eq : α → α → Bool)
    (s0 : LWSet α) : LWSet α → Prop
  | start : ReachedFrom hash eq s0 s0
  | add (s s1 : LWSet α) (x : α) (r : Option α) :
      ReachedFrom hash eq s0 s → LWSetAdd hash eq s x = some (r, s1) →
      ReachedFrom hash eq s0 s1
  | remove (s s1 : LWSet α) (x : α) (r : Option α) :
      ReachedFrom hash eq s0 s → LWSetRemove hash eq s x = some (r, s1) →
      ReachedFrom hash eq s0 s1
  | union (s other s1 : LWSet α) :
      ReachedFrom hash eq s0 s → LWSetUnion hash eq s other = some s1 →
      ReachedFrom hash eq s0 s1
  | minus (s other s1 : LWSet α) :
      ReachedFrom hash eq s0 s → LWSetMinus hash eq s other = some s1 →
      ReachedFrom hash eq s0 s1
  | intersect (s other s1 : LWSet α) :
      ReachedFrom hash eq s0 s → LWSetIntersect hash eq s other = some s1 →
      ReachedFrom hash eq s0 s1
  | clear (s s1 : LWSet α) :
      ReachedFrom hash eq s0 s → LWSetClear s = some s1 → ReachedFrom hash eq s0 s1

/-- The set created with capacity 3 after `LWSetMinus` with a second such set and
`LWSetClear`. -/
def clearedSet : LWSet Nat :=
  ((LWSetMinus idHash idEq (LWSetNew 3) (LWSetNew 3)).bind LWSetClear).getD (LWSetNew 3)

/-! ### LWWallet.c: the order of the list -/

/-- The list is sorted by non-decreasing block height and no block height is above
`TX_UNCONFIRMED`. -/
def SortedByHeight (l : List LWTransaction) : Prop :=
  l.Pairwise (fun a b => a.blockHeight ≤ b.blockHeight) ∧
    ∀ t ∈ l, t.blockHeight ≤ TX_UNCONFIRMED

/-- Wallet states reached from a wallet created without transactions by calls of
`LWWalletRegisterTransaction`, `LWWalletUpdateTransactions`, `LWWalletRemoveTransaction` and
`LWWalletSetTxUnconfirmedAfter` that return, where every registered transaction has a block
height of at most `TX_UNCONFIRMED`, and `LWWalletUpdateTransactions` is called with a block
height below `TX_UNCONFIRMED`, or with `TX_UNCONFIRMED` for hashes whose listed transactions
are unconfirmed already. -/
inductive HeightReached (env : Env) : LWWallet → Prop
  | new (now : Nat) (w : LWWallet) :
      LWWalletNew env now [] = some (some w) → HeightReached env w
  | register (now : Nat) (w w1 : LWWallet) (tx : LWTransaction) (r : Bool) (events : List Event) :
      HeightReached env w → tx.blockHeight ≤ TX_UNCONFIRMED →
      LWWalletRegisterTransaction env now w tx = some (r, w1, events) → HeightReached env w1
  | update (now : Nat) (w w1 : LWWallet) (txHashes : List Nat) (blockHeight timestamp : Nat)
      (events : List Event) :
      HeightReached env w →
      blockHeight < TX_UNCONFIRMED ∨ (blockHeight = TX_UNCONFIRMED ∧
        ∀ t ∈ w.transactions, t.txHash ∈ txHashes → t.blockHeight = TX_UNCONFIRMED) →
      LWWalletUpdateTransactions env now w txHashes blockHeight timestamp = some (w1, events) →
      HeightReached env w1
  | remove (now : Nat) (w w1 : LWWallet) (txHash : Nat) (events : List Event) :
      HeightReached env w → LWWalletRemoveTransaction env now w txHash = some (w1, events) →
      HeightReached env w1
  | unconfirm (now : Nat) (w w1 : LWWallet) (blockHeight : Nat) (events : List Event) :
      HeightReached env w →
      LWWalletSetTxUnconfirmedAfter env now w blockHeight = some (w1, events) →
      HeightReached env w1

/-- An unconfirmed transaction with hash 2 that spends output 0 of the transaction with
hash 1 and pays 5000 to an address that is not of the wallet. -/
def foreignSpendTx : LWTransaction := sampleTx 2 1 0 UINT32_MAX "zzz" 5000

/-- The wallet after registering `parentTx`, `foreignSpendTx` and `otherTx`, updating
transaction 2 to the block height 100 and transaction 3 to the block height 200, and
removing transaction 1. -/
def strandedWallet : LWWallet :=
  (removeD (updateD (updateD (walletOfD [parentTx, foreignSpendTx, otherTx]) [2] 100 7).1
    [3] 200 7).1 1).1

/-- The wallet after registering `parentTx` and `childTx`, updating transaction 1 to the
block height 100 and `LWWalletSetTxUnconfirmedAfter(50)`. -/
def reorganisedWallet : LWWallet :=
  (unconfirmD (updateD (walletOfD [parentTx, childTx]) [1] 100 7).1 50).1

/-! ### LWWallet.c: the restart of the transaction builder -/

/-- Modelled from the spec: `LWTransactionSize` of LWTransaction.c (not among the sources)
for a transaction with unsigned inputs: 8 bytes, the two counts as varints, `TX_INPUT_SIZE`
bytes for an input, and for an output 8 bytes, the script length as a varint and the
script. -/
def scriptSize (tx : LWTransaction) : Nat :=
  8 + LWVarIntSize tx.inputs.length + 148 * tx.inputs.length +
    LWVarIntSize tx.outputs.length +
    (tx.outputs.map (fun o => 8 + LWVarIntSize o.script.length + o.script.length)).sum

/-- The sample environment with `scriptSize` for `LWTransactionSize`. -/
def scriptEnv : Env := { sampleEnv with LWTransactionSize := scriptSize }

/-- The wallet in `scriptEnv` after the registration of a coin of 100000000, confirmed at
the block height 100, at the address `e`. -/
def largeCoinWallet : LWWallet :=
  ((LWWalletNew scriptEnv 0 []).join.bind (fun w =>
    registerAll scriptEnv 0 w [confirmedAt (sampleTx 1 8 0 UINT32_MAX "e" 100000000) 100])).getD
    (emptyWallet scriptEnv)

/-- An output of 50000 with a script of 100000 bytes. -/
def largeScriptOutput : LWTxOutput :=
  { address := "", amount := 50000, script := List.replicate 100000 1 }

/-! ## LWPaymentProtocol.c

A byte is a number below 256 and a byte array a list of them.  A pointer to bytes that are
read is `none` for NULL and otherwise the list of the bytes that can be read from the
pointer on, the length that the C code passes along is a separate number.  A buffer that is
written is `none` for NULL and otherwise the list of its `bufLen` bytes.  `size_t` and
`uint64_t` are 64 bits wide and the machine is little-endian.  `malloc` returns a non-NULL
pointer.  A function returns `none` when its C execution reads or writes outside an array,
shifts by 64 bits or more, fails an assertion or does not end. -/

/-- The wire type `PROTOBUF_VARINT`. -/
def PROTOBUF_VARINT : Nat := 0

/-- The wire type `PROTOBUF_64BIT`. -/
def PROTOBUF_64BIT : Nat := 1

/-- The wire type `PROTOBUF_LENDELIM`. -/
def PROTOBUF_LENDELIM : Nat := 2

/-- The wire type `PROTOBUF_32BIT`. -/
def PROTOBUF_32BIT : Nat := 5

/-- The loop of `_ProtoBufVarInt` for a non-NULL `buf`: `n` is `bufLen - *off`, the number
of iterations that the test `*off < bufLen` still admits, `i` the loop counter.  The last
byte read has the bit 0x80 set whenever the loop is entered again; when the bytes run out
the function returns 0. -/
def varIntLoop (b : List Nat) : Nat → Nat → Nat → Nat → Option (Nat × Nat)
  | 0, _, _, off => some (0, off)
  | n + 1, i, varInt, off =>
    match b[off]? with
    | none => none
    | some x =>
      if 64 ≤ 7 * i then none
      else
        let v := (varInt + ((x &&& 0x7f) <<< (7 * i)) % 2 ^ 64) % 2 ^ 64
        if x &&& 0x80 ≠ 0 then varIntLoop b n (i + 1) v (off + 1) else some (v, off + 1)

/-- The function `_ProtoBufVarInt`: the value and the new `*off`. -/
def _ProtoBufVarInt (buf : Option (List Nat)) (bufLen off : Nat) : Option (Nat × Nat) :=
  match buf with
  | none => some (0, off)
  | some b => varIntLoop b (bufLen - off) 0 0 off

/-- The statement `if (buf && *off + 1 <= bufLen) buf[*off] = b` of
`_ProtoBufSetVarInt`. -/
def storeByte (buf : Option (List Nat)) (off b : Nat) : Option (Option (List Nat)) :=
  match buf with
  | none => some none
  | some l =>
    if sizeT (off + 1) ≤ l.length then
      if off < l.length then some (some (l.set off b)) else none
    else some (some l)

/-- The loop of `_ProtoBufSetVarInt`.  A 64-bit value has at most ten groups of seven bits,
so that the loop body runs at most ten times; the fuel counts these runs. -/
def setVarIntLoop : Nat → Option (List Nat) → Nat → Nat → Option (Option (List Nat) × Nat)
  | 0, _, _, _ => none
  | fuel + 1, buf, i, off =>
    let b := i &&& 0x7f
    let i1 := i >>> 7
    let b1 := if i1 > 0 then b ||| 0x80 else b
    match storeByte buf off b1 with
    | none => none
    | some buf1 =>
      if i1 > 0 then setVarIntLoop fuel buf1 i1 (sizeT (off + 1))
      else some (buf1, sizeT (off + 1))

/-- The function `_ProtoBufSetVarInt`: the buffer and `*off` after the call. -/
def _ProtoBufSetVarInt (buf : Option (List Nat)) (i off : Nat) :
    Option (Option (List Nat) × Nat) :=
  setVarIntLoop 10 buf (i % 2 ^ 64) off

/-- The function `_ProtoBufLenDelim`: the returned pointer, `*len` and `*off` after the
call. -/
def _ProtoBufLenDelim (buf : Option (List Nat)) (len off : Nat) :
    Option (Option (List Nat) × Nat × Nat) :=
  match _ProtoBufVarInt buf len off with
  | none => none
  | some (dataLen, off1) =>
    let data : Option (List Nat) :=
      match buf with
      | none => none
      | some b => if sizeT (off1 + dataLen) ≤ len then some (b.drop off1) else none
    some (data, dataLen, sizeT (off1 + dataLen))

/-- The function `_ProtoBufSetLenDelim`: the buffer and `*off` after the call. -/
def _ProtoBufSetLenDelim (buf : Option (List Nat)) (data : Option (List Nat)) (dataLen off : Nat) :
    Option (Option (List Nat) × Nat) :=
  if data.isSome ∨ dataLen = 0 then
    match _ProtoBufSetVarInt buf dataLen off with
    | none => none
    | some (none, off1) => some (none, sizeT (off1 + dataLen))
    | some (some l, off1) =>
      if sizeT (off1 + dataLen) ≤ l.length then
        if (data.getD []).length < dataLen ∨ l.length < off1 + dataLen then none
        else
          some (some (l.take off1 ++ (data.getD []).take dataLen ++ l.drop (off1 + dataLen)),
            sizeT (off1 + dataLen))
      else some (some l, sizeT (off1 + dataLen))
  else some (buf, off)

/-- The first `size` bytes of the object representation of the `uint64_t` value `i`. -/
def rawBytes : Nat → Nat → List Nat
  | 0, _ => []
  | size + 1, i => i % 256 :: rawBytes size (i / 256)

/-- The `uint64_t` value whose object representation starts with the given bytes and is
zero otherwise. -/
def rawValue : List Nat → Nat
  | [] => 0
  | b :: rest => b + 256 * rawValue rest

/-- The function `_ProtoBufFixed`: the value and the new `*off`. -/
def _ProtoBufFixed (buf : Option (List Nat)) (bufLen off size : Nat) : Option (Nat × Nat) :=
  match buf with
  | none => some (0, sizeT (off + size))
  | some b =>
    if sizeT (off + size) ≤ bufLen ∧ size ≤ 8 then
      if b.length < off + size then none
      else some (rawValue ((b.drop off).take size), sizeT (off + size))
    else some (0, sizeT (off + size))

/-- The function `_ProtoBufSetFixed`: the buffer and `*off` after the call. -/
def _ProtoBufSetFixed (buf : Option (List Nat)) (i off size : Nat) :
    Option (Option (List Nat) × Nat) :=
  match buf with
  | none => some (none, sizeT (off + size))
  | some l =>
    if sizeT (off + size) ≤ l.length ∧ size ≤ 8 then
      if l.length < off + size then none
      else some (some (l.take off ++ rawBytes size i ++ l.drop (off + size)), sizeT (off + size))
    else some (some l, sizeT (off + size))

/-- The function `_ProtoBufField`: the key, the values of `*i` and `*data` (0 and NULL
before the call at every call site), `*len` and `*off` after the call. -/
def _ProtoBufField (buf : Option (List Nat)) (len off : Nat) :
    Option (Nat × Nat × Option (List Nat) × Nat × Nat) :=
  match _ProtoBufVarInt buf len off with
  | none => none
  | some (key, off1) =>
    if key &&& 0x07 = PROTOBUF_VARINT then
      (_ProtoBufVarInt buf len off1).map (fun r => (key, r.1, none, len, r.2))
    else if key &&& 0x07 = PROTOBUF_64BIT then
      (_ProtoBufFixed buf len off1 8).map (fun r => (key, r.1, none, len, r.2))
    else if key &&& 0x07 = PROTOBUF_LENDELIM then
      (_ProtoBufLenDelim buf len off1).map (fun r => (key, 0, r.1, r.2.1, r.2.2))
    else if key &&& 0x07 = PROTOBUF_32BIT then
      (_ProtoBufFixed buf len off1 4).map (fun r => (key, r.1, none, len, r.2))
    else some (key, 0, none, len, off1)

/-- The length that `strlen` finds for a character array whose bytes before the
terminating NUL are `s`. -/
def strlen (s : List Nat) : Nat := (s.takeWhile (fun c => c != 0)).length

/-- The function `_ProtoBufString`.  The character array `*str` is the list of its bytes
without the NUL that the function appends. -/
def _ProtoBufString (str : Option (List Nat)) (data : Option (List Nat)) (dataLen : Nat) :
    Option (Option (List Nat)) :=
  if data.isSome ∨ dataLen = 0 then
    if (data.getD []).length < dataLen then none else some (some ((data.getD []).take dataLen))
  else some str

/-- The function `_ProtoBufSetString`. -/
def _ProtoBufSetString (buf : Option (List Nat)) (str : Option (List Nat)) (key off : Nat) :
    Option (Option (List Nat) × Nat) :=
  let strLen := match str with
    | none => 0
    | some s => strlen s
  match _ProtoBufSetVarInt buf (((key <<< 3) % 2 ^ 64) ||| PROTOBUF_LENDELIM) off with
  | none => none
  | some (buf1, off1) => _ProtoBufSetLenDelim buf1 str strLen off1

/-- The function `_ProtoBufBytes`: the array `*bytes` after the call; the returned count is
its length (0 for NULL). -/
def _ProtoBufBytes (bytes : Option (List Nat)) (data : Option (List Nat)) (dataLen : Nat) :
    Option (Option (List Nat)) :=
  if data.isSome ∨ dataLen = 0 then
    if (data.getD []).length < dataLen then none else some (some ((data.getD []).take dataLen))
  else some bytes

/-- The function `_ProtoBufSetBytes`. -/
def _ProtoBufSetBytes (buf : Option (List Nat)) (bytes : Option (List Nat)) (bytesLen key off : Nat) :
    Option (Option (List Nat) × Nat) :=
  match _ProtoBufSetVarInt buf (((key <<< 3) % 2 ^ 64) ||| PROTOBUF_LENDELIM) off with
  | none => none
  | some (buf1, off1) => _ProtoBufSetLenDelim buf1 bytes bytesLen off1

/-- The function `_ProtoBufSetInt`. -/
def _ProtoBufSetInt (buf : Option (List Nat)) (i key off : Nat) :
    Option (Option (List Nat) × Nat) :=
  match _ProtoBufSetVarInt buf (((key <<< 3) % 2 ^ 64) ||| PROTOBUF_VARINT) off with
  | none => none
  | some (buf1, off1) => _ProtoBufSetVarInt buf1 i off1

/-- The loop of `_ProtoBufUnknown` over the fields of the array `*unknown`: the array after
the loop and the local `o`.  The array changes only in the iteration that leaves the loop,
and the position after a field depends on the position before it alone, so that a run with
more iterations than the array has bytes does not end; the fuel counts the iterations.
`array_rm_range` beyond the end of the array is undefined. -/
def unknownLoop (key : Nat) (unknown : List Nat) : Nat → Nat → Nat → Option (List Nat × Nat)
  | 0, _, _ => none
  | fuel + 1, off, o =>
    if off < unknown.length then
      match _ProtoBufField (some unknown) unknown.length off with
      | none => none
      | some (k, _, _, _, off1) =>
        if k = key then
          if off1 < off ∨ unknown.length < off1 then none
          else some (unknown.take off ++ unknown.drop off1, off)
        else if k ≥ key then some (unknown, off)
        else unknownLoop key unknown fuel off1 off
    else some (unknown, o)

/-- The function `_ProtoBufUnknown`: the array `*unknown` after the call.  The local array
`buf` starts with indeterminate bytes, which are the entries 256 here; the call is
undefined when such a byte would go into `*unknown`. -/
def _ProtoBufUnknown (unknown : Option (List Nat)) (key i : Nat) (data : Option (List Nat))
    (dataLen : Nat) : Option (Option (List Nat)) :=
  let bufLen := sizeT (10 + (if key &&& 0x07 = PROTOBUF_LENDELIM then dataLen else 0))
  let buf : Option (List Nat) := some (List.replicate bufLen 256)
  match _ProtoBufSetVarInt buf key 0 with
  | none => none
  | some (buf1, off1) =>
    let written : Option (Option (List Nat) × Nat) :=
      if key &&& 0x07 = PROTOBUF_VARINT then _ProtoBufSetVarInt buf1 i off1
      else if key &&& 0x07 = PROTOBUF_64BIT then _ProtoBufSetFixed buf1 i off1 8
      else if key &&& 0x07 = PROTOBUF_LENDELIM then _ProtoBufSetLenDelim buf1 data dataLen off1
      else if key &&& 0x07 = PROTOBUF_32BIT then _ProtoBufSetFixed buf1 i off1 4
      else some (buf1, off1)
    match written with
    | none => none
    | some (buf2, off2) =>
      let bufLen1 := if off2 < bufLen then off2 else bufLen
      let bytes := (buf2.getD []).take bufLen1
      if 256 ∈ bytes then none
      else
        let array := unknown.getD []
        match unknownLoop key array (array.length + 1) 0 0 with
        | none => none
        | some (array1, o) => some (some (array1.take o ++ bytes ++ array1.drop o))

/-- The loop `while (buf && off < bufLen)` that the parsers share; one iteration reads a
field with `_ProtoBufField` and runs the `switch` of the parser, `step`, on the key, `i`,
`data` and `dataLen`.  In `_LWPaymentProtocolOutputParse` the loop test is `off < bufLen`
alone (`checkBuf` false).  The position after a field depends on the position before it
alone, so that a run with more iterations than `bufLen` does not end; the fuel counts the
iterations. -/
def parseLoop {σ : Type} (step : σ → Nat → Nat → Option (List Nat) → Nat → Option σ)
    (checkBuf : Bool) (buf : Option (List Nat)) (bufLen : Nat) : Nat → Nat → σ → Option σ
  | 0, _, _ => none
  | fuel + 1, off, s =>
    if (checkBuf = false ∨ buf.isSome) ∧ off < bufLen then
      match _ProtoBufField buf bufLen off with
      | none => none
      | some (key, i, data, dataLen, off1) =>
        match step s key i data dataLen with
        | none => none
        | some s1 => parseLoop step checkBuf buf bufLen fuel off1 s1
    else some s

/-- The enumerator `output_amount`. -/
def output_amount : Nat := 1

/-- The enumerator `output_script`. -/
def output_script : Nat := 2

/-- The enumerator `details_network`. -/
def details_network : Nat := 1

/-- The enumerator `details_outputs`. -/
def details_outputs : Nat := 2

/-- The enumerator `details_time`. -/
def details_time : Nat := 3

/-- The enumerator `details_expires`. -/
def details_expires : Nat := 4

/-- The enumerator `details_memo`. -/
def details_memo : Nat := 5

/-- The enumerator `details_payment_url`. -/
def details_payment_url : Nat := 6

/-- The enumerator `details_merch_data`. -/
def details_merch_data : Nat := 7

/-- The enumerator `request_version`. -/
def request_version : Nat := 1

/-- The enumerator `request_pki_type`. -/
def request_pki_type : Nat := 2

/-- The enumerator `request_pki_data`. -/
def request_pki_data : Nat := 3

/-- The enumerator `request_details`. -/
def request_details : Nat := 4

/-- The enumerator `request_signature`. -/
def request_signature : Nat := 5

/-- An output of a payment protocol message: the members `amount` and `script` of an
`LWTxOutput` with a non-NULL script (`scriptLen` is the length of the list), and the
`ProtoBufContext` that the code keeps at the end of the script data: the entries
`output_amount` and `output_script` of `defaults` and the array `unknown`. -/
structure ProtoBufOutput where
  amount : Nat
  script : List Nat
  defaultAmount : Bool
  defaultScript : Bool
  unknown : Option (List Nat)
  deriving DecidableEq

/-- The locals `out` and `ctx` of `_LWPaymentProtocolOutputParse`. -/
structure OutputState where
  amount : Nat
  script : Option (List Nat)
  defaultAmount : Bool
  unknown : Option (List Nat)
  deriving DecidableEq

/-- Modelled from the spec: `LWTxOutputSetScript` of LWTransaction.c (not among the
sources): the script becomes a copy of the `scriptLen` bytes, NULL for a NULL `script`. -/
def LWTxOutputSetScript (script : Option (List Nat)) (scriptLen : Nat) :
    Option (Option (List Nat)) :=
  match script with
  | none => some none
  | some d => if d.length < scriptLen then none else some (some (d.take scriptLen))

/-- The `switch` of `_LWPaymentProtocolOutputParse`. -/
def outputStep (s : OutputState) (key i : Nat) (data : Option (List Nat)) (dataLen : Nat) :
    Option OutputState :=
  if key >>> 3 = output_amount then some { s with amount := i, defaultAmount := false }
  else if key >>> 3 = output_script then
    (LWTxOutputSetScript data dataLen).map (fun sc => { s with script := sc })
  else (_ProtoBufUnknown s.unknown key i data dataLen).map (fun u => { s with unknown := u })

/-- The function `_LWPaymentProtocolOutputParse`; the inner `none` is the result
`LW_TX_OUTPUT_NONE`. -/
def _LWPaymentProtocolOutputParse (buf : Option (List Nat)) (bufLen : Nat) :
    Option (Option ProtoBufOutput) :=
  match parseLoop outputStep false buf bufLen (bufLen + 1) 0
      { amount := 0, script := none, defaultAmount := true, unknown := none } with
  | none => none
  | some s =>
    match s.script with
    | none => some none
    | some sc =>
      some (some { amount := s.amount, script := sc, defaultAmount := s.defaultAmount,
                   defaultScript := false, unknown := s.unknown })

/-- The tail that the serializers share: the copy of the array `unknown` and the returned
count `(! buf || off <= bufLen) ? off : 0`. -/
def serializeUnknown (unknown : Option (List Nat)) (buf : Option (List Nat)) (off : Nat) :
    Option (Nat × Option (List Nat)) :=
  let u := unknown.getD []
  let off1 := sizeT (off + u.length)
  match buf with
  | none => some (off1, none)
  | some l =>
    if off1 ≤ l.length then
      if l.length < off + u.length then none
      else some (off1, some (l.take off ++ u ++ l.drop (off + u.length)))
    else some (0, some l)

/-- The function `_LWPaymentProtocolOutputSerialize`: the returned count and the buffer
after the call. -/
def _LWPaymentProtocolOutputSerialize (out : ProtoBufOutput) (buf : Option (List Nat)) :
    Option (Nat × Option (List Nat)) :=
  let r1 := if out.defaultAmount then some (buf, 0)
    else _ProtoBufSetInt buf out.amount output_amount 0
  match r1 with
  | none => none
  | some (buf1, off1) =>
    let r2 := if out.defaultScript then some (buf1, off1)
      else _ProtoBufSetBytes buf1 (some out.script) out.script.length output_script off1
    match r2 with
    | none => none
    | some (buf2, off2) => serializeUnknown out.unknown buf2 off2

/-- The struct `LWPaymentProtocolDetails` and its `ProtoBufContext`: the entries
`details_network`, `details_time` and `details_expires` of `defaults` and the array
`unknown`.  A character array is the list of its bytes before the terminating NUL;
`outCount` and `merchDataLen` are the lengths of the lists. -/
structure LWPaymentProtocolDetails where
  network : Option (List Nat)
  outputs : List ProtoBufOutput
  time : Nat
  expires : Nat
  memo : Option (List Nat)
  paymentURL : Option (List Nat)
  merchantData : Option (List Nat)
  defaultNetwork : Bool
  defaultTime : Bool
  defaultExpires : Bool
  unknown : Option (List Nat)
  deriving DecidableEq

/-- The text `main`. -/
def mainText : List Nat := [109, 97, 105, 110]

/-- The `switch` of `LWPaymentProtocolDetailsParse` and the `array_add` after it. -/
def detailsStep (d : LWPaymentProtocolDetails) (key i : Nat) (data : Option (List Nat))
    (dLen : Nat) : Option LWPaymentProtocolDetails :=
  if key >>> 3 = details_network then
    (_ProtoBufString d.network data dLen).map (fun s => { d with network := s })
  else if key >>> 3 = details_outputs then
    match _LWPaymentProtocolOutputParse data dLen with
    | none => none
    | some none => some d
    | some (some out) => some { d with outputs := d.outputs ++ [out] }
  else if key >>> 3 = details_time then some { d with time := i, defaultTime := false }
  else if key >>> 3 = details_expires then some { d with expires := i, defaultExpires := false }
  else if key >>> 3 = details_memo then
    (_ProtoBufString d.memo data dLen).map (fun s => { d with memo := s })
  else if key >>> 3 = details_payment_url then
    (_ProtoBufString d.paymentURL data dLen).map (fun s => { d with paymentURL := s })
  else if key >>> 3 = details_merch_data then
    (_ProtoBufBytes d.merchantData data dLen).map (fun s => { d with merchantData := s })
  else (_ProtoBufUnknown d.unknown key i data dLen).map (fun u => { d with unknown := u })

/-- The function `LWPaymentProtocolDetailsParse`. -/
def LWPaymentProtocolDetailsParse (buf : Option (List Nat)) (bufLen : Nat) :
    Option LWPaymentProtocolDetails :=
  if buf.isNone ∧ bufLen ≠ 0 then none
  else
    match parseLoop detailsStep true buf bufLen (bufLen + 1) 0
        { network := none, outputs := [], time := 0, expires := 0, memo := none,
          paymentURL := none, merchantData := none, defaultNetwork := false,
          defaultTime := true, defaultExpires := true, unknown := none } with
    | none => none
    | some d =>
      match d.network with
      | none => some { d with network := some mainText, defaultNetwork := true }
      | some _ => some d

/-- The loop of `LWPaymentProtocolDetailsSerialize` over the outputs.  `outBuf` is the
buffer of `outLen` bytes that `realloc` extends. -/
def detailsOutputs : List ProtoBufOutput → List Nat → Option (List Nat) → Nat →
    Option (Option (List Nat) × Nat)
  | [], _, buf, off => some (buf, off)
  | out :: rest, outBuf, buf, off =>
    match _LWPaymentProtocolOutputSerialize out none with
    | none => none
    | some (l, _) =>
      let outBuf1 := if l > outBuf.length then outBuf ++ List.replicate (l - outBuf.length) 0
        else outBuf
      match _LWPaymentProtocolOutputSerialize out (some outBuf1) with
      | none => none
      | some (l1, outBuf2) =>
        match _ProtoBufSetBytes buf outBuf2 l1 details_outputs off with
        | none => none
        | some (buf1, off1) => detailsOutputs rest (outBuf2.getD []) buf1 off1

/-- The function `LWPaymentProtocolDetailsSerialize`: the returned count and the buffer
after the call. -/
def LWPaymentProtocolDetailsSerialize (details : LWPaymentProtocolDetails)
    (buf : Option (List Nat)) : Option (Nat × Option (List Nat)) :=
  let r1 := if details.defaultNetwork then some (buf, 0)
    else _ProtoBufSetString buf details.network details_network 0
  match r1 with
  | none => none
  | some (buf1, off1) =>
    match detailsOutputs details.outputs (List.replicate 0x100 0) buf1 off1 with
    | none => none
    | some (buf2, off2) =>
      let r3 := if details.defaultTime then some (buf2, off2)
        else _ProtoBufSetInt buf2 details.time details_time off2
      match r3 with
      | none => none
      | some (buf3, off3) =>
        let r4 := if details.defaultExpires then some (buf3, off3)
          else _ProtoBufSetInt buf3 details.expires details_expires off3
        match r4 with
        | none => none
        | some (buf4, off4) =>
          let r5 := if details.memo.isSome then
              _ProtoBufSetString buf4 details.memo details_memo off4
            else some (buf4, off4)
          match r5 with
          | none => none
          | some (buf5, off5) =>
            let r6 := if details.paymentURL.isSome then
                _ProtoBufSetString buf5 details.paymentURL details_payment_url off5
              else some (buf5, off5)
            match r6 with
            | none => none
            | some (buf6, off6) =>
              let r7 := if details.merchantData.isSome then
                  _ProtoBufSetBytes buf6 details.merchantData (details.merchantData.getD []).length
                    details_merch_data off6
                else some (buf6, off6)
              match r7 with
              | none => none
              | some (buf7, off7) => serializeUnknown details.unknown buf7 off7

/-- The struct `LWPaymentProtocolRequest` and its `ProtoBufContext`: the entries
`request_version` and `request_pki_type` of `defaults` and the array `unknown`.
`pkiDataLen` is the length of the list `pkiData`; `sigLen` is a member of its own. -/
structure LWPaymentProtocolRequest where
  version : Nat
  pkiType : Option (List Nat)
  pkiData : Option (List Nat)
  details : Option LWPaymentProtocolDetails
  signature : Option (List Nat)
  sigLen : Nat
  defaultVersion : Bool
  defaultPkiType : Bool
  unknown : Option (List Nat)
  deriving DecidableEq

/-- The text `none`. -/
def noneText : List Nat := [110, 111, 110, 101]

/-- The `switch` of `LWPaymentProtocolRequestParse`. -/
def requestStep (req : LWPaymentProtocolRequest) (key i : Nat) (data : Option (List Nat))
    (dataLen : Nat) : Option LWPaymentProtocolRequest :=
  if key >>> 3 = request_version then
    some { req with version := i % 2 ^ 32, defaultVersion := false }
  else if key >>> 3 = request_pki_type then
    (_ProtoBufString req.pkiType data dataLen).map (fun s => { req with pkiType := s })
  else if key >>> 3 = request_pki_data then
    (_ProtoBufBytes req.pkiData data dataLen).map (fun s => { req with pkiData := s })
  else if key >>> 3 = request_details then
    (LWPaymentProtocolDetailsParse data dataLen).map (fun d => { req with details := some d })
  else if key >>> 3 = request_signature then
    (_ProtoBufBytes req.signature data dataLen).map
      (fun s => { req with signature := s, sigLen := (s.getD []).length })
  else (_ProtoBufUnknown req.unknown key i data dataLen).map (fun u => { req with unknown := u })

/-- The function `LWPaymentProtocolRequestParse`; the inner `none` is a NULL result. -/
def LWPaymentProtocolRequestParse (buf : Option (List Nat)) (bufLen : Nat) :
    Option (Option LWPaymentProtocolRequest) :=
  if buf.isNone ∧ bufLen ≠ 0 then none
  else
    match parseLoop requestStep true buf bufLen (bufLen + 1) 0
        { version := 1, pkiType := none, pkiData := none, details := none, signature := none,
          sigLen := 0, defaultVersion := true, defaultPkiType := false, unknown := none } with
    | none => none
    | some req =>
      let req1 := match req.pkiType with
        | none => { req with pkiType := some noneText, defaultPkiType := true }
        | some _ => req
      match req1.details with
      | none => some none
      | some _ => some (some req1)

/-- The function `LWPaymentProtocolRequestSerialize`: the returned count and the buffer
after the call. -/
def LWPaymentProtocolRequestSerialize (req : LWPaymentProtocolRequest)
    (buf : Option (List Nat)) : Option (Nat × Option (List Nat)) :=
  match req.details with
  | none => none
  | some details =>
    let r1 := if req.defaultVersion then some (buf, 0)
      else _ProtoBufSetInt buf req.version request_version 0
    match r1 with
    | none => none
    | some (buf1, off1) =>
      let r2 := if req.defaultPkiType then some (buf1, off1)
        else _ProtoBufSetString buf1 req.pkiType request_pki_type off1
      match r2 with
      | none => none
      | some (buf2, off2) =>
        let r3 := if req.pkiData.isSome then
            _ProtoBufSetBytes buf2 req.pkiData (req.pkiData.getD []).length request_pki_data off2
          else some (buf2, off2)
        match r3 with
        | none => none
        | some (buf3, off3) =>
          match LWPaymentProtocolDetailsSerialize details none with
          | none => none
          | some (detailsLen, _) =>
            match LWPaymentProtocolDetailsSerialize details
                (some (List.replicate detailsLen 0)) with
            | none => none
            | some (detailsLen1, detailsBuf) =>
              match _ProtoBufSetBytes buf3 detailsBuf detailsLen1 request_details off3 with
              | none => none
              | some (buf4, off4) =>
                let r5 := if req.signature.isSome then
                    _ProtoBufSetBytes buf4 req.signature req.sigLen request_signature off4
                  else some (buf4, off4)
                match r5 with
                | none => none
                | some (buf5, off5) => serializeUnknown req.unknown buf5 off5

/-! ### LWPaymentProtocol.c: the wire format -/

/-- The groups of seven bits of a value, least significant group first, every byte but the
last with the bit 0x80; at most `n` groups. -/
def varIntGroups : Nat → Nat → List Nat
  | 0, _ => []
  | n + 1, i => if i / 128 = 0 then [i % 128] else (i % 128 + 128) :: varIntGroups n (i / 128)

/-- The varint coding of a 64-bit value. -/
def varIntBytes (i : Nat) : List Nat := varIntGroups 10 (i % 2 ^ 64)

/-- The coding of a field: the key as a varint and then, by the wire type `key % 8`, the
value as a varint, its first eight or four raw bytes, or the length of the data as a varint
and the data; nothing for another wire type. -/
def fieldBytes (key i : Nat) (data : List Nat) : List Nat :=
  varIntBytes key ++
    (if key % 8 = 0 then varIntBytes i
     else if key % 8 = 1 then rawBytes 8 i
     else if key % 8 = 2 then varIntBytes data.length ++ data
     else if key % 8 = 5 then rawBytes 4 i
     else [])

/-- The bytes of a character array up to its first NUL. -/
def cstr (s : List Nat) : List Nat := s.takeWhile (fun c => c != 0)

/-- The part of a list that is there only under a condition. -/
def part {α : Type} (c : Bool) (bs : List α) : List α := if c then bs else []

/-- The serialization of an output: the amount unless it is a default, the script, the
unknown fields. -/
def outputBytes (o : ProtoBufOutput) : List Nat :=
  part (!o.defaultAmount) (fieldBytes 8 o.amount []) ++
    part (!o.defaultScript) (fieldBytes 18 0 o.script) ++ o.unknown.getD []

/-- The serialization of a details struct. -/
def detailsBytes (d : LWPaymentProtocolDetails) : List Nat :=
  part (!d.defaultNetwork) (fieldBytes 10 0 (cstr (d.network.getD []))) ++
    (d.outputs.map (fun o => fieldBytes 18 0 (outputBytes o))).flatten ++
    part (!d.defaultTime) (fieldBytes 24 d.time []) ++
    part (!d.defaultExpires) (fieldBytes 32 d.expires []) ++
    part d.memo.isSome (fieldBytes 42 0 (cstr (d.memo.getD []))) ++
    part d.paymentURL.isSome (fieldBytes 50 0 (cstr (d.paymentURL.getD []))) ++
    part d.merchantData.isSome (fieldBytes 58 0 (d.merchantData.getD [])) ++
    d.unknown.getD []

/-- The serialization of a request with a details struct. -/
def requestBytes (r : LWPaymentProtocolRequest) : List Nat :=
  part (!r.defaultVersion) (fieldBytes 8 r.version []) ++
    part (!r.defaultPkiType) (fieldBytes 18 0 (cstr (r.pkiType.getD []))) ++
    part r.pkiData.isSome (fieldBytes 26 0 (r.pkiData.getD [])) ++
    ((r.details.map (fun d => fieldBytes 34 0 (detailsBytes d))).getD []) ++
    part r.signature.isSome (fieldBytes 42 0 ((r.signature.getD []).take r.sigLen)) ++
    r.unknown.getD []

/-- The result `r` of a writer called with the buffer `buf` and `*off = off` is that of
putting the bytes `bs` there: `*off` has advanced by their count, a NULL buffer is left
alone, a buffer keeps its length, and it holds the bytes when they fit. -/
def Wrote (buf : Option (List Nat)) (off : Nat) (bs : List Nat)
    (r : Option (Option (List Nat) × Nat)) : Prop :=
  ∃ buf1, r = some (buf1, off + bs.length) ∧ (buf = none → buf1 = none) ∧
    ∀ l, buf = some l → ∃ l1, buf1 = some l1 ∧ l1.length = l.length ∧
      (off + bs.length ≤ l.length → l1 = l.take off ++ bs ++ l.drop (off + bs.length))

/-- The writer `f` puts the bytes `bs` at `*off`, wherever no offset wraps. -/
def Writes (f : Option (List Nat) → Nat → Option (Option (List Nat) × Nat)) (bs : List Nat) :
    Prop :=
  ∀ (buf : Option (List Nat)) (off : Nat), off + bs.length < 2 ^ 64 → Wrote buf off bs (f buf off)

/-- The size-query convention of a serializer `f` (a buffer to the returned count and the
buffer after the call) with the serialization `bs`: with a NULL buffer the count of `bs` is
returned; with a buffer that has room, the count is returned and the buffer starts with
`bs`, the rest unchanged; with a shorter buffer 0 is returned. -/
def SizeQuery (f : Option (List Nat) → Option (Nat × Option (List Nat))) (bs : List Nat) :
    Prop :=
  f none = some (bs.length, none) ∧
    ∀ l : List Nat,
      (bs.length ≤ l.length → f (some l) = some (bs.length, some (bs ++ l.drop bs.length))) ∧
      (l.length < bs.length → ∃ l1, f (some l) = some (0, some l1) ∧ l1.length = l.length)

/-- One writer after another. -/
def seqW (f g : Option (List Nat) → Nat → Option (Option (List Nat) × Nat)) :
    Option (List Nat) → Nat → Option (Option (List Nat) × Nat) :=
  fun buf off =>
    match f buf off with
    | none => none
    | some (buf1, off1) => g buf1 off1

/-- A writer that runs only under a condition. -/
def whenW (c : Bool) (f : Option (List Nat) → Nat → Option (Option (List Nat) × Nat)) :
    Option (List Nat) → Nat → Option (Option (List Nat) × Nat) :=
  fun buf off => if c then f buf off else some (buf, off)

/-- The text `x509+sha256`. -/
def sha256Text : List Nat := [120, 53, 48, 57, 43, 115, 104, 97, 50, 53, 54]

/-- The text `x509+sha1`. -/
def sha1Text : List Nat := [120, 53, 48, 57, 43, 115, 104, 97, 49]

/-- A details struct with one output (amount 50000, script `[118, 169]`), a time and a
memo. -/
def sampleDetails : LWPaymentProtocolDetails :=
  { network := some mainText, outputs := [⟨50000, [118, 169], false, false, none⟩],
    time := 1700000000, expires := 0, memo := some [104, 105], paymentURL := none,
    merchantData := some [1, 2, 3], defaultNetwork := true, defaultTime := false,
    defaultExpires := true, unknown := none }

/-- A request with `pkiType` `x509+sha256`, a signature of three bytes and the unknown
field of key (999, VARINT) and value 42. -/
def sampleRequest : LWPaymentProtocolRequest :=
  { version := 1, pkiType := some sha256Text, pkiData := some [7, 7], details := some sampleDetails,
    signature := some [9, 8, 7], sigLen := 3, defaultVersion := true, defaultPkiType := false,
    unknown := some [184, 62, 42] }

/-- The keys of the fields of an unknown-field array from the position `off` on, read with
`_ProtoBufField` as the loop of `_ProtoBufUnknown` reads them; the fuel bounds the number of
fields. -/
def unknownKeys (unknown : List Nat) : Nat → Nat → Option (List Nat)
  | 0, _ => none
  | fuel + 1, off =>
    if off < unknown.length then
      match _ProtoBufField (some unknown) unknown.length off with
      | none => none
      | some (k, _, _, _, off1) => (unknownKeys unknown fuel off1).map (fun ks => k :: ks)
    else some []

/-- The function `LWPaymentProtocolRequestNew`; the struct comes zeroed from `calloc`.  A
NULL `details` fails the assertion. -/
def LWPaymentProtocolRequestNew (version : Nat) (pkiType pkiData : Option (List Nat))
    (pkiDataLen : Nat) (details : Option LWPaymentProtocolDetails)
    (signature : Option (List Nat)) (sigLen : Nat) : Option LWPaymentProtocolRequest :=
  match details with
  | none => none
  | some d =>
    let str := match pkiType with
      | none => _ProtoBufString none (some noneText) (strlen noneText)
      | some s => _ProtoBufString none (some s) (strlen s)
    let data := match pkiData with
      | none => some none
      | some _ => _ProtoBufBytes none pkiData pkiDataLen
    let sig := match signature with
      | none => some none
      | some _ => _ProtoBufBytes none signature sigLen
    match str, data, sig with
    | some str1, some data1, some sig1 =>
      some { version := if version % 2 ^ 32 = 0 then 1 else version % 2 ^ 32,
             pkiType := str1, pkiData := data1, details := some d, signature := sig1,
             sigLen := (sig1.getD []).length,
             defaultVersion := decide (version % 2 ^ 32 = 0),
             defaultPkiType := pkiType.isNone, unknown := none }
    | _, _, _ => none

/-- The test `strncmp(s, lit, strlen(lit) + 1) == 0` for a character array whose bytes
before the terminating NUL are `s` and a string literal `lit`: the two strings are compared
up to and including their first NUL, but at most `strlen(lit) + 1` characters of them. -/
def strncmpEq (s lit : List Nat) : Bool :=
  (cstr s ++ [0]).take (strlen lit + 1) == (cstr lit ++ [0]).take (strlen lit + 1)

/-- The function `LWPaymentProtocolRequestDigest`: the returned count, the buffer `md` and
the request after the call.  The hashes `LWSHA256` and `LWSHA1` of LWCrypto.h are
parameters that give the 32 and the 20 bytes written to `md`. -/
def LWPaymentProtocolRequestDigest (LWSHA256 LWSHA1 : List Nat → List Nat)
    (req : LWPaymentProtocolRequest) (md : Option (List Nat)) :
    Option (Nat × Option (List Nat) × LWPaymentProtocolRequest) :=
  let req1 := { req with sigLen := 0 }
  match LWPaymentProtocolRequestSerialize req1 none with
  | none => none
  | some (bufLen, _) =>
    match LWPaymentProtocolRequestSerialize req1 (some (List.replicate bufLen 0)) with
    | none => none
    | some (bufLen1, buf) =>
      let data := (buf.getD []).take bufLen1
      let r : Nat × Option (List Nat) :=
        if req1.pkiType.isSome ∧ strncmpEq (req1.pkiType.getD []) sha256Text then
          (256 / 8, md.map (fun m => if 256 / 8 ≤ m.length then LWSHA256 data ++ m.drop 32 else m))
        else if req1.pkiType.isSome ∧ strncmpEq (req1.pkiType.getD []) sha1Text then
          (160 / 8, md.map (fun m => if 160 / 8 ≤ m.length then LWSHA1 data ++ m.drop 20 else m))
        else (0, md)
      let req2 := match req1.signature with
        | none => req1
        | some s => { req1 with sigLen := s.length }
      some (if md.isNone ∨ r.1 ≤ (md.getD []).length then r.1 else 0, r.2, req2)

/-- The digest length that the specification gives for a request: by `pkiType`. -/
def digestLength (req : LWPaymentProtocolRequest) : Nat :=
  if cstr (req.pkiType.getD []) = sha256Text then 32
  else if cstr (req.pkiType.getD []) = sha1Text then 20
  else 0

/-- The digest that the specification gives for a request: the hash, by `pkiType`, of the
serialization with the signature length set to zero. -/
def requestDigest (LWSHA256 LWSHA1 : List Nat → List Nat) (req : LWPaymentProtocolRequest) :
    List Nat :=
  if cstr (req.pkiType.getD []) = sha256Text then LWSHA256 (requestBytes { req with sigLen := 0 })
  else if cstr (req.pkiType.getD []) = sha1Text then LWSHA1 (requestBytes { req with sigLen := 0 })
  else []

/-- A hash stand-in for concrete runs: the length of the data, repeated `n` times. -/
def lengthHash (n : Nat) (data : List Nat) : List Nat := List.replicate n (data.length % 256)

/-- A digest buffer of 40 bytes. -/
def sampleMd : Option (List Nat) := some (List.replicate 40 0)

/-- The value that `_ProtoBufField` reads back from the coding of a field with key `key` and
value `i`. -/
def fieldValue (key i : Nat) : Nat :=
  if key % 8 = 0 ∨ key % 8 = 1 then i % 2 ^ 64 else if key % 8 = 5 then i % 2 ^ 32 else 0

/-- The loop of a parser started at `off` in state `s` gives what it gives when started at
`off1` in state `s1`: the fields between the two positions take the state `s` to `s1`. -/
def Reads {σ : Type} (step : σ → Nat → Nat → Option (List Nat) → Nat → Option σ)
    (checkBuf : Bool) (b : List Nat) (bufLen off off1 : Nat) (s s1 : σ) : Prop :=
  off ≤ off1 ∧ ∀ fuel r, parseLoop step checkBuf (some b) bufLen fuel off1 s1 = some r →
    parseLoop step checkBuf (some b) bufLen (fuel + (off1 - off)) off s = some r

/-- The coding of a list of fields, each given by its key, value and data. -/
def itemBytes {ι : Type} (enc : ι → Nat × Nat × List Nat) (es : List ι) : List Nat :=
  (es.map (fun e => fieldBytes (enc e).1 (enc e).2.1 (enc e).2.2)).flatten

/-- The coding of a field fits the local buffer of `_ProtoBufUnknown`, which has ten bytes
and, for a length-delimited field, as many more as the data (a number that does not
wrap). -/
def FitsUnknown (key i : Nat) (data : List Nat) : Prop :=
  (fieldBytes key i data).length ≤ 10 + (if key % 8 = 2 then data.length else 0) ∧
    (key % 8 = 2 → data.length + 10 < 2 ^ 64)

instance (key i : Nat) (data : List Nat) : Decidable (FitsUnknown key i data) := by
  unfold FitsUnknown
  infer_instance

/-! ## LWKey.c and the encrypted messages of LWPaymentProtocol.c -/

/-- The struct `LWKey` (LWKey.h is not among the sources): the members that LWKey.c uses,
the 32 bytes of `secret`, the 65 bytes of `pubKey` and the flag `compressed`. -/
structure LWKey where
  secret : List Nat
  pubKey : List Nat
  compressed : Bool
  deriving DecidableEq

/-- What the code takes from libsecp256k1 and from LWCrypto.h (declarations only among the
sources), as parameters.  `Point` is `secp256k1_pubkey`; `ec_pubkey_serialize` gives 33
bytes when the flag asks for the compressed form and 65 otherwise; `ecdsa_sign` is
`secp256k1_ecdsa_sign` followed by `secp256k1_ecdsa_signature_serialize_der` and gives the
signature bytes written, none on failure; `LWHMACDRBG` takes the output length, the state
`K`, `V` of the previous call (`none` where the buffers come uninitialised together with a
seed), the seed and the nonce, and gives the output and the new state; the AEAD functions
take the length of the output buffer, the key, the nonce, the data and the associated data
and give the bytes written, whose number is the returned count. -/
structure Crypto where
  Point : Type
  ec_seckey_verify : List Nat → Bool
  ec_pubkey_create : List Nat → Option Point
  ec_pubkey_parse : List Nat → Option Point
  ec_pubkey_serialize : Point → Bool → List Nat
  ec_pubkey_tweak_mul : Point → List Nat → Option Point
  ecdsa_sign : List Nat → List Nat → List Nat
  LWSHA256 : List Nat → List Nat
  LWSHA512 : List Nat → List Nat
  LWHMACDRBG : Nat → Option (List Nat × List Nat) → Option (List Nat) → Option (List Nat) →
    List Nat × List Nat × List Nat
  LWChacha20Poly1305AEADEncrypt : Nat → List Nat → List Nat → List Nat → List Nat → List Nat
  LWChacha20Poly1305AEADDecrypt : Nat → List Nat → List Nat → List Nat → List Nat → List Nat

/-- The function `LWSecp256k1PointMul`: the 33 bytes of `*p` after the call, unchanged when
a step fails. -/
def LWSecp256k1PointMul (c : Crypto) (p i : List Nat) : List Nat :=
  match c.ec_pubkey_parse p with
  | none => p
  | some pubkey =>
    match c.ec_pubkey_tweak_mul pubkey i with
    | none => p
    | some q => c.ec_pubkey_serialize q true

/-- The function `LWKeySetSecret`: the returned flag and the key after the call. -/
def LWKeySetSecret (c : Crypto) (secret : List Nat) (compressed : Bool) : Bool × LWKey :=
  (c.ec_seckey_verify secret, ⟨secret, List.replicate 65 0, compressed⟩)

/-- The function `LWKeySetPubKey`: the returned flag and the key after the call.  The
assertions ask for a non-NULL `pubKey` and a `pkLen` of 33 or 65. -/
def LWKeySetPubKey (c : Crypto) (pubKey : Option (List Nat)) (pkLen : Nat) :
    Option (Bool × LWKey) :=
  match pubKey with
  | none => none
  | some p =>
    if (pkLen = 33 ∨ pkLen = 65) ∧ pkLen ≤ p.length then
      some ((c.ec_pubkey_parse (p.take pkLen)).isSome,
        ⟨List.replicate 32 0, p.take pkLen ++ List.replicate (65 - pkLen) 0, decide (pkLen ≤ 33)⟩)
    else none

/-- The test `LWKeyPrivKey(key, NULL, 0) != 0`.  Modelled from the spec:
`LWBase58CheckEncode` (not among the sources) returns the nonzero length that the coding
needs when its buffer is NULL. -/
def LWKeyHasPrivKey (c : Crypto) (key : LWKey) : Bool := c.ec_seckey_verify key.secret

/-- The function `LWKeyPubKey` called with a buffer of 65 bytes: the bytes written, whose
number is the returned count.  A key computed from the secret is also stored in
`key->pubKey`; a later call gives the same bytes, and the key is not threaded here. -/
def LWKeyPubKey (c : Crypto) (key : LWKey) : List Nat :=
  let size := if key.compressed then 33 else 65
  if key.pubKey.take size = List.replicate size 0 then
    match c.ec_pubkey_create key.secret with
    | some pk => c.ec_pubkey_serialize pk key.compressed
    | none => []
  else key.pubKey.take size

/-- The function `LWKeySign` called with a buffer of 73 bytes: the bytes written. -/
def LWKeySign (c : Crypto) (key : LWKey) (md : List Nat) : List Nat :=
  c.ecdsa_sign md key.secret

/-- The function `_LWECDH`.  The local `p` is filled by `LWKeyPubKey`; the call is
undefined when fewer than 33 of its bytes are written. -/
def _LWECDH (c : Crypto) (privKey pubKey : LWKey) : Option (List Nat) :=
  let p := LWKeyPubKey c pubKey
  if p.length < 33 then none
  else
    let p1 := if p.length = 65 then (if p.getD 64 0 % 2 ≠ 0 then 0x03 else 0x02) :: p.drop 1
      else p
    some (((LWSecp256k1PointMul c (p1.take 33) privKey.secret).drop 1).take 32)

/-- The struct `LWPaymentProtocolEncryptedMessage` and its `ProtoBufContext`: the entry
`encrypted_msg_status_code` of `defaults` and the array `unknown`.  `msgLen`, `sigLen` and
`identLen` are the lengths of the lists; the message type is an enumeration value. -/
structure LWPaymentProtocolEncryptedMessage where
  msgType : Nat
  message : Option (List Nat)
  receiverPubKey : LWKey
  senderPubKey : LWKey
  nonce : Nat
  signature : Option (List Nat)
  identifier : Option (List Nat)
  statusCode : Nat
  statusMsg : Option (List Nat)
  defaultStatusCode : Bool
  unknown : Option (List Nat)
  deriving DecidableEq

/-- The enumerator `encrypted_msg_msg_type`. -/
def encrypted_msg_msg_type : Nat := 1

/-- The enumerator `encrypted_msg_message`. -/
def encrypted_msg_message : Nat := 2

/-- The enumerator `encrypted_msg_receiver_pk`. -/
def encrypted_msg_receiver_pk : Nat := 3

/-- The enumerator `encrypted_msg_sender_pk`. -/
def encrypted_msg_sender_pk : Nat := 4

/-- The enumerator `encrypted_msg_nonce`. -/
def encrypted_msg_nonce : Nat := 5

/-- The enumerator `encrypted_msg_signature`. -/
def encrypted_msg_signature : Nat := 6

/-- The enumerator `encrypted_msg_identifier`. -/
def encrypted_msg_identifier : Nat := 7

/-- The enumerator `encrypted_msg_status_code`. -/
def encrypted_msg_status_code : Nat := 8

/-- The enumerator `encrypted_msg_status_msg`. -/
def encrypted_msg_status_msg : Nat := 9

/-- The eight bytes of a 64-bit value, most significant first. -/
def bigEndian8 (n : Nat) : List Nat :=
  [n >>> 56 % 256, n >>> 48 % 256, n >>> 40 % 256, n >>> 32 % 256, n >>> 24 % 256,
    n >>> 16 % 256, n >>> 8 % 256, n % 256]

/-- The function `_LWPaymentProtocolEncryptedMessageCEK`: the 32 bytes of `cek32` and the
12 bytes of `iv12`. -/
def _LWPaymentProtocolEncryptedMessageCEK (c : Crypto) (msg : LWPaymentProtocolEncryptedMessage)
    (privKey : LWKey) : Option (List Nat × List Nat) :=
  let nonce := bigEndian8 msg.nonce
  let pk := LWKeyPubKey c privKey
  let rpk := LWKeyPubKey c msg.receiverPubKey
  let pubKey := if pk.length ≠ rpk.length ∨ pk ≠ rpk then msg.receiverPubKey
    else msg.senderPubKey
  match _LWECDH c privKey pubKey with
  | none => none
  | some secret =>
    let seed := c.LWSHA512 secret
    let r1 := c.LWHMACDRBG 32 none (some seed) (some nonce)
    let r2 := c.LWHMACDRBG 12 (some r1.2) none none
    some (r1.1, r2.1)

/-- The function `LWPaymentProtocolEncryptedMessageSerialize`: the returned count and the
buffer after the call. -/
def LWPaymentProtocolEncryptedMessageSerialize (c : Crypto)
    (msg : LWPaymentProtocolEncryptedMessage) (buf : Option (List Nat)) :
    Option (Nat × Option (List Nat)) :=
  match msg.message with
  | none => none
  | some message =>
    match _ProtoBufSetInt buf msg.msgType encrypted_msg_msg_type 0 with
    | none => none
    | some (buf1, off1) =>
      match _ProtoBufSetBytes buf1 (some message) message.length encrypted_msg_message off1 with
      | none => none
      | some (buf2, off2) =>
        match _ProtoBufSetBytes buf2 (some (LWKeyPubKey c msg.receiverPubKey))
            (LWKeyPubKey c msg.receiverPubKey).length encrypted_msg_receiver_pk off2 with
        | none => none
        | some (buf3, off3) =>
          match _ProtoBufSetBytes buf3 (some (LWKeyPubKey c msg.senderPubKey))
              (LWKeyPubKey c msg.senderPubKey).length encrypted_msg_sender_pk off3 with
          | none => none
          | some (buf4, off4) =>
            match _ProtoBufSetInt buf4 msg.nonce encrypted_msg_nonce off4 with
            | none => none
            | some (buf5, off5) =>
              let r6 := if msg.signature.isSome then
                  _ProtoBufSetBytes buf5 msg.signature (msg.signature.getD []).length
                    encrypted_msg_signature off5
                else some (buf5, off5)
              match r6 with
              | none => none
              | some (buf6, off6) =>
                let r7 := if msg.identifier.isSome then
                    _ProtoBufSetBytes buf6 msg.identifier (msg.identifier.getD []).length
                      encrypted_msg_identifier off6
                  else some (buf6, off6)
                match r7 with
                | none => none
                | some (buf7, off7) =>
                  let r8 := if msg.defaultStatusCode then some (buf7, off7)
                    else _ProtoBufSetInt buf7 msg.statusCode encrypted_msg_status_code off7
                  match r8 with
                  | none => none
                  | some (buf8, off8) =>
                    let r9 := if msg.statusMsg.isSome then
                        _ProtoBufSetString buf8 msg.statusMsg encrypted_msg_status_msg off8
                      else some (buf8, off8)
                    match r9 with
                    | none => none
                    | some (buf9, off9) => serializeUnknown msg.unknown buf9 off9

/-- The decimal digits of a number as characters, as `snprintf` prints them for `PRIu64`;
a 64-bit value has at most twenty of them. -/
def decimalLoop : Nat → Nat → List Nat → List Nat
  | 0, _, acc => acc
  | fuel + 1, n, acc =>
    if n < 10 then (48 + n) :: acc else decimalLoop fuel (n / 10) ((48 + n % 10) :: acc)

/-- The string that `snprintf` prints for the format `PRIu64` followed by `%s`. -/
def statusText (statusCode : Nat) (statusMsg : Option (List Nat)) : List Nat :=
  decimalLoop 20 (statusCode % 2 ^ 64) [] ++ cstr (statusMsg.getD [])

/-- The function `LWPaymentProtocolEncryptedMessageNew`; the inner `none` is a NULL
result.  The struct comes zeroed from `calloc`, so that no entry of `defaults` is set. -/
def LWPaymentProtocolEncryptedMessageNew (c : Crypto) (msgType : Nat)
    (message : Option (List Nat)) (msgLen : Nat) (receiverKey senderKey : LWKey) (nonce : Nat)
    (identifier : Option (List Nat)) (identLen statusCode : Nat) (statusMsg : Option (List Nat)) :
    Option (Option LWPaymentProtocolEncryptedMessage) :=
  if (message.isNone ∧ msgLen ≠ 0) ∨ (message.getD []).length < msgLen ∨
      ¬ (LWKeyHasPrivKey c receiverKey ∨ LWKeyHasPrivKey c senderKey) then none
  else
    match LWKeySetPubKey c (some (LWKeyPubKey c receiverKey)) (LWKeyPubKey c receiverKey).length,
      LWKeySetPubKey c (some (LWKeyPubKey c senderKey)) (LWKeyPubKey c senderKey).length,
      (match identifier with
        | none => some none
        | some _ => _ProtoBufBytes none identifier identLen),
      (match statusMsg with
        | none => some none
        | some s => _ProtoBufString none statusMsg (strlen s)) with
    | some (_, receiverPubKey), some (_, senderPubKey), some ident, some str =>
      let msg : LWPaymentProtocolEncryptedMessage :=
        { msgType := msgType, message := none, receiverPubKey := receiverPubKey,
          senderPubKey := senderPubKey, nonce := nonce % 2 ^ 64, signature := none,
          identifier := ident, statusCode := statusCode % 2 ^ 64, statusMsg := str,
          defaultStatusCode := false, unknown := none }
      let privKey := if LWKeyHasPrivKey c receiverKey then receiverKey else senderKey
      match _LWPaymentProtocolEncryptedMessageCEK c msg privKey with
      | none => none
      | some (cek, iv) =>
        let ad := statusText statusCode statusMsg
        let buf := c.LWChacha20Poly1305AEADEncrypt (sizeT (msgLen + 16)) cek iv
          ((message.getD []).take msgLen) ad
        let msg1 := { msg with message := some buf, signature := some [] }
        match LWPaymentProtocolEncryptedMessageSerialize c msg1 none with
        | none => none
        | some (bufLen, _) =>
          match LWPaymentProtocolEncryptedMessageSerialize c msg1
              (some (List.replicate bufLen 0)) with
          | none => none
          | some (bufLen1, buf1) =>
            let md := c.LWSHA256 ((buf1.getD []).take bufLen1)
            some (some { msg1 with signature := some (LWKeySign c privKey md) })
    | _, _, _, _ => none

/-- The locals `msg`, `gotMsgType`, `gotNonce`, `gotReceiverPK` and `gotSenderPK` of
`LWPaymentProtocolEncryptedMessageParse`. -/
structure EncryptedState where
  msg : LWPaymentProtocolEncryptedMessage
  gotMsgType : Bool
  gotNonce : Bool
  gotReceiverPK : Bool
  gotSenderPK : Bool

/-- The `switch` of `LWPaymentProtocolEncryptedMessageParse`.  An enumeration value is 32
bits wide. -/
def encryptedStep (c : Crypto) (s : EncryptedState) (key i : Nat) (data : Option (List Nat))
    (dataLen : Nat) : Option EncryptedState :=
  if key >>> 3 = encrypted_msg_msg_type then
    some { s with msg := { s.msg with msgType := i % 2 ^ 32 }, gotMsgType := true }
  else if key >>> 3 = encrypted_msg_message then
    (_ProtoBufBytes s.msg.message data dataLen).map
      (fun m => { s with msg := { s.msg with message := m } })
  else if key >>> 3 = encrypted_msg_receiver_pk then
    (LWKeySetPubKey c data dataLen).map
      (fun r => { s with msg := { s.msg with receiverPubKey := r.2 }, gotReceiverPK := r.1 })
  else if key >>> 3 = encrypted_msg_sender_pk then
    (LWKeySetPubKey c data dataLen).map
      (fun r => { s with msg := { s.msg with senderPubKey := r.2 }, gotSenderPK := r.1 })
  else if key >>> 3 = encrypted_msg_nonce then
    some { s with msg := { s.msg with nonce := i }, gotNonce := true }
  else if key >>> 3 = encrypted_msg_signature then
    (_ProtoBufBytes s.msg.signature data dataLen).map
      (fun m => { s with msg := { s.msg with signature := m } })
  else if key >>> 3 = encrypted_msg_identifier then
    (_ProtoBufBytes s.msg.identifier data dataLen).map
      (fun m => { s with msg := { s.msg with identifier := m } })
  else if key >>> 3 = encrypted_msg_status_code then
    some { s with msg := { s.msg with statusCode := i, defaultStatusCode := false } }
  else if key >>> 3 = encrypted_msg_status_msg then
    (_ProtoBufString s.msg.statusMsg data dataLen).map
      (fun m => { s with msg := { s.msg with statusMsg := m } })
  else
    (_ProtoBufUnknown s.msg.unknown key i data dataLen).map
      (fun u => { s with msg := { s.msg with unknown := u } })

/-- The function `LWPaymentProtocolEncryptedMessageParse`; the inner `none` is a NULL
result.  The keys of the zeroed struct are zero. -/
def LWPaymentProtocolEncryptedMessageParse (c : Crypto) (buf : Option (List Nat))
    (bufLen : Nat) : Option (Option LWPaymentProtocolEncryptedMessage) :=
  if buf.isNone ∧ bufLen ≠ 0 then none
  else
    match parseLoop (encryptedStep c) true buf bufLen (bufLen + 1) 0
        { msg := { msgType := 0, message := none,
                   receiverPubKey := ⟨List.replicate 32 0, List.replicate 65 0, false⟩,
                   senderPubKey := ⟨List.replicate 32 0, List.replicate 65 0, false⟩,
                   nonce := 0, signature := none, identifier := none, statusCode := 0,
                   statusMsg := none, defaultStatusCode := true, unknown := none },
          gotMsgType := false, gotNonce := false, gotReceiverPK := false,
          gotSenderPK := false } with
    | none => none
    | some s =>
      if ¬ s.gotMsgType ∨ s.msg.message.isNone ∨ ¬ s.gotReceiverPK ∨ ¬ s.gotSenderPK ∨
          ¬ s.gotNonce then some none
      else some (some s.msg)

/-- The function `LWPaymentProtocolEncryptedMessageDecrypt`: the returned count and the
buffer `out` after the call. -/
def LWPaymentProtocolEncryptedMessageDecrypt (c : Crypto)
    (msg : LWPaymentProtocolEncryptedMessage) (out : Option (List Nat)) (privKey : LWKey) :
    Option (Nat × Option (List Nat)) :=
  match msg.message with
  | none => none
  | some message =>
    match out with
    | none => some (if message.length < 16 then 0 else message.length - 16, none)
    | some o =>
      match _LWPaymentProtocolEncryptedMessageCEK c msg privKey with
      | none => none
      | some (cek, iv) =>
        let ad := if msg.defaultStatusCode = false then statusText msg.statusCode msg.statusMsg
          else if msg.statusMsg.isSome then cstr (msg.statusMsg.getD [])
          else []
        let bytes := c.LWChacha20Poly1305AEADDecrypt o.length cek iv message ad
        some (bytes.length, some (bytes ++ o.drop bytes.length))

/-- The serialization of an encrypted message. -/
def encryptedBytes (c : Crypto) (m : LWPaymentProtocolEncryptedMessage) : List Nat :=
  fieldBytes 8 m.msgType [] ++ fieldBytes 18 0 (m.message.getD []) ++
    fieldBytes 26 0 (LWKeyPubKey c m.receiverPubKey) ++
    fieldBytes 34 0 (LWKeyPubKey c m.senderPubKey) ++
    fieldBytes 40 m.nonce [] ++
    part m.signature.isSome (fieldBytes 50 0 (m.signature.getD [])) ++
    part m.identifier.isSome (fieldBytes 58 0 (m.identifier.getD [])) ++
    part (!m.defaultStatusCode) (fieldBytes 64 m.statusCode []) ++
    part m.statusMsg.isSome (fieldBytes 74 0 (cstr (m.statusMsg.getD []))) ++
    m.unknown.getD []

/-- The key that `LWKeySetPubKey` makes from the bytes of a public key. -/
def keyOfBytes (p : List Nat) : LWKey :=
  ⟨List.replicate 32 0, p ++ List.replicate (65 - p.length) 0, decide (p.length ≤ 33)⟩

/-- The key that `LWKeySetPubKey` makes from the bytes that `LWKeyPubKey` gives for a key. -/
def publicKey (c : Crypto) (key : LWKey) : LWKey := keyOfBytes (LWKeyPubKey c key)

/-- What one field of a serialized encrypted message, given by its key, value and data,
does to the locals of `LWPaymentProtocolEncryptedMessageParse`. -/
def encryptedField (c : Crypto) (s : EncryptedState) (e : Nat × Nat × List Nat) :
    EncryptedState :=
  if e.1 = 8 then { s with msg := { s.msg with msgType := e.2.1 % 2 ^ 64 % 2 ^ 32 },
                           gotMsgType := true }
  else if e.1 = 18 then { s with msg := { s.msg with message := some e.2.2 } }
  else if e.1 = 26 then
    { s with msg := { s.msg with receiverPubKey := keyOfBytes e.2.2 },
             gotReceiverPK := (c.ec_pubkey_parse e.2.2).isSome }
  else if e.1 = 34 then
    { s with msg := { s.msg with senderPubKey := keyOfBytes e.2.2 },
             gotSenderPK := (c.ec_pubkey_parse e.2.2).isSome }
  else if e.1 = 40 then { s with msg := { s.msg with nonce := e.2.1 % 2 ^ 64 }, gotNonce := true }
  else if e.1 = 50 then { s with msg := { s.msg with signature := some e.2.2 } }
  else if e.1 = 58 then { s with msg := { s.msg with identifier := some e.2.2 } }
  else if e.1 = 64 then
    { s with msg := { s.msg with statusCode := e.2.1 % 2 ^ 64, defaultStatusCode := false } }
  else { s with msg := { s.msg with statusMsg := some e.2.2 } }

/-- The fields of a serialized encrypted message without unknown fields: key, value and
data of each. -/
def encryptedItems (c : Crypto) (m : LWPaymentProtocolEncryptedMessage) :
    List (Nat × Nat × List Nat) :=
  [(8, m.msgType, []), (18, 0, m.message.getD []), (26, 0, LWKeyPubKey c m.receiverPubKey),
    (34, 0, LWKeyPubKey c m.senderPubKey), (40, m.nonce, [])] ++
    (part m.signature.isSome [(50, 0, m.signature.getD [])] ++
    (part m.identifier.isSome [(58, 0, m.identifier.getD [])] ++
    (part (!m.defaultStatusCode) [(64, m.statusCode, [])] ++
    part m.statusMsg.isSome [(74, 0, cstr (m.statusMsg.getD []))])))

/-- The message that `LWPaymentProtocolEncryptedMessageNew` builds, at the stage where the
members `message` and `signature` are as given. -/
def newMessage (c : Crypto) (msgType : Nat) (receiverKey senderKey : LWKey) (nonce : Nat)
    (identifier : Option (List Nat)) (identLen statusCode : Nat) (statusMsg : Option (List Nat))
    (message signature : Option (List Nat)) : LWPaymentProtocolEncryptedMessage :=
  { msgType := msgType, message := message, receiverPubKey := publicKey c receiverKey,
    senderPubKey := publicKey c senderKey, nonce := nonce % 2 ^ 64, signature := signature,
    identifier := identifier.map (fun d => d.take identLen),
    statusCode := statusCode % 2 ^ 64, statusMsg := statusMsg.map cstr,
    defaultStatusCode := false, unknown := none }

/-- A hash stand-in for concrete runs: `n` bytes, the last of them the sum of the data. -/
def sumHash (n : Nat) (data : List Nat) : List Nat :=
  List.replicate (n - 1) 0 ++ [data.sum % 256]

/-- A small stand-in for the parameters, for concrete runs.  A secret is valid when its last
byte `k` is not zero; its public key is the number `k % 251`, coded with that number in the
last byte of each coordinate; multiplying a point by a secret multiplies the numbers modulo
251.  The cipher appends a tag of 16 bytes made from the key, the nonce and the associated
data to the plain message, and decrypting checks the tag. -/
def toyCrypto : Crypto :=
  { Point := Nat
    ec_seckey_verify := fun s => decide (s.length = 32 ∧ s.getD 31 0 ≠ 0)
    ec_pubkey_create := fun s =>
      if s.length = 32 ∧ s.getD 31 0 ≠ 0 then some (s.getD 31 0 % 251) else none
    ec_pubkey_parse := fun p =>
      if p.length = 33 ∧ (p.getD 0 0 = 2 ∨ p.getD 0 0 = 3) then some (p.getD 32 0)
      else if p.length = 65 ∧ p.getD 0 0 = 4 then some (p.getD 32 0)
      else none
    ec_pubkey_serialize := fun q compressed =>
      if compressed then (2 + q % 2) :: List.replicate 31 0 ++ [q]
      else 4 :: List.replicate 31 0 ++ [q] ++ List.replicate 31 0 ++ [q]
    ec_pubkey_tweak_mul := fun q s => some (q * s.getD 31 0 % 251)
    ecdsa_sign := fun md s => [48, 2, md.getD 0 0, s.getD 31 0]
    LWSHA256 := sumHash 32
    LWSHA512 := sumHash 64
    LWHMACDRBG := fun outLen state seed nonce =>
      let x := ((state.getD ([], [])).1.sum + (seed.getD []).sum + (nonce.getD []).sum) % 256
      (List.replicate (outLen - 1) 0 ++ [x], [x], [x])
    LWChacha20Poly1305AEADEncrypt := fun outLen key nonce data ad =>
      if data.length + 16 ≤ outLen then
        data ++ List.replicate 16 ((key.sum + nonce.sum + ad.sum) % 256)
      else []
    LWChacha20Poly1305AEADDecrypt := fun outLen key nonce data ad =>
      if 16 ≤ data.length ∧ data.length - 16 ≤ outLen ∧
          data.drop (data.length - 16) = List.replicate 16 ((key.sum + nonce.sum + ad.sum) % 256)
      then data.take (data.length - 16) else [] }

/-- The private key of the toy receiver: the secret ends in 3, compressed form. -/
def toyReceiver : LWKey := ⟨List.replicate 31 0 ++ [3], List.replicate 65 0, true⟩

/-- The private key of the toy sender: the secret ends in 5, compressed form. -/
def toySender : LWKey := ⟨List.replicate 31 0 ++ [5], List.replicate 65 0, true⟩

/-- The public key of the toy receiver as `LWKeySetPubKey` makes it from the 33 bytes of
the compressed form. -/
def toyReceiverPub : LWKey :=
  ⟨List.replicate 32 0, 3 :: List.replicate 31 0 ++ [3] ++ List.replicate 32 0, true⟩

/-- The public key of the toy receiver as `LWKeySetPubKey` makes it from the 65 bytes of
the uncompressed form. -/
def toyReceiverPubLong : LWKey :=
  ⟨List.replicate 32 0, 4 :: List.replicate 31 0 ++ [3] ++ List.replicate 31 0 ++ [3], false⟩

/-- The public key of the toy sender as `LWKeySetPubKey` makes it from the 33 bytes of the
compressed form. -/
def toySenderPub : LWKey :=
  ⟨List.replicate 32 0, 3 :: List.replicate 31 0 ++ [5] ++ List.replicate 32 0, true⟩

/-- The encrypted message that the toy sender makes for the toy receiver from the message
`[1, 2, 3]`, given the receiver key `receiverKey`. -/
def toyMessage (receiverKey : LWKey) : Option (Option LWPaymentProtocolEncryptedMessage) :=
  LWPaymentProtocolEncryptedMessageNew toyCrypto 2 (some [1, 2, 3]) 3 receiverKey toySender 7
    none 0 1 (some [111, 107])

/-- The field numbers that `_LWPaymentProtocolOutputParse` knows. -/
def outputKeys : List Nat := [1, 2]

/-- The field numbers that `LWPaymentProtocolDetailsParse` knows. -/
def detailsKeys : List Nat := [1, 2, 3, 4, 5, 6, 7]

/-- The field numbers that `LWPaymentProtocolRequestParse` knows. -/
def requestKeys : List Nat := [1, 2, 3, 4, 5]

/-- The field numbers that `LWPaymentProtocolEncryptedMessageParse` knows. -/
def encryptedKeys : List Nat := [1, 2, 3, 4, 5, 6, 7, 8, 9]

/-- An unknown-field array that is NULL or holds the coding of exactly one field, with a
field number outside `keys`, that fits the local buffer of `_ProtoBufUnknown`. -/
def SingleUnknown (keys : List Nat) (u : Option (List Nat)) : Prop :=
  u = none ∨ ∃ key i data, u = some (fieldBytes key i data) ∧ key < 2 ^ 64 ∧
    (key >>> 3) ∉ keys ∧ FitsUnknown key i data ∧ ∀ x ∈ data, x < 256

/-- The output that `_LWPaymentProtocolOutputParse` gives back from the serialization of
an output. -/
def normOutput (o : ProtoBufOutput) : ProtoBufOutput :=
  { amount := if o.defaultAmount then 0 else o.amount % 2 ^ 64, script := o.script,
    defaultAmount := o.defaultAmount, defaultScript := false, unknown := o.unknown }

/-- The details that `LWPaymentProtocolDetailsParse` gives back from the serialization of
a details struct. -/
def normDetails (d : LWPaymentProtocolDetails) : LWPaymentProtocolDetails :=
  { network := some (if d.defaultNetwork then mainText else cstr (d.network.getD [])),
    outputs := d.outputs.map normOutput,
    time := if d.defaultTime then 0 else d.time % 2 ^ 64,
    expires := if d.defaultExpires then 0 else d.expires % 2 ^ 64,
    memo := d.memo.map cstr, paymentURL := d.paymentURL.map cstr,
    merchantData := d.merchantData, defaultNetwork := d.defaultNetwork,
    defaultTime := d.defaultTime, defaultExpires := d.defaultExpires, unknown := d.unknown }

/-- The request that `LWPaymentProtocolRequestParse` gives back from the serialization of
a request. -/
def normRequest (r : LWPaymentProtocolRequest) : LWPaymentProtocolRequest :=
  { version := if r.defaultVersion then 1 else r.version % 2 ^ 64 % 2 ^ 32,
    pkiType := some (if r.defaultPkiType then noneText else cstr (r.pkiType.getD [])),
    pkiData := r.pkiData, details := r.details.map normDetails,
    signature := r.signature.map (fun s => s.take r.sigLen),
    sigLen := ((r.signature.map (fun s => s.take r.sigLen)).getD []).length,
    defaultVersion := r.defaultVersion, defaultPkiType := r.defaultPkiType,
    unknown := r.unknown }

/-- The known fields of a serialized output: key, value and data of each. -/
def outputItems (o : ProtoBufOutput) : List (Nat × Nat × List Nat) :=
  part (!o.defaultAmount) [(8, o.amount, [])] ++ part (!o.defaultScript) [(18, 0, o.script)]

/-- What one known field of a serialized output does to the locals of
`_LWPaymentProtocolOutputParse`. -/
def outputField (s : OutputState) (e : Nat × Nat × List Nat) : OutputState :=
  if e.1 = 8 then { s with amount := e.2.1 % 2 ^ 64, defaultAmount := false }
  else { s with script := some e.2.2 }

/-- The known fields of a serialized details struct: key, value and data of each, and for
an output field the output. -/
def detailsItems (d : LWPaymentProtocolDetails) :
    List ((Nat × Nat × List Nat) × Option ProtoBufOutput) :=
  part (!d.defaultNetwork) [((10, 0, cstr (d.network.getD [])), none)] ++
    (d.outputs.map (fun o => ((18, 0, outputBytes o), some o)) ++
    (part (!d.defaultTime) [((24, d.time, []), none)] ++
    (part (!d.defaultExpires) [((32, d.expires, []), none)] ++
    (part d.memo.isSome [((42, 0, cstr (d.memo.getD [])), none)] ++
    (part d.paymentURL.isSome [((50, 0, cstr (d.paymentURL.getD [])), none)] ++
    part d.merchantData.isSome [((58, 0, d.merchantData.getD []), none)])))))

/-- What one known field of a serialized details struct does to the struct that
`LWPaymentProtocolDetailsParse` builds. -/
def detailsField (s : LWPaymentProtocolDetails)
    (e : (Nat × Nat × List Nat) × Option ProtoBufOutput) : LWPaymentProtocolDetails :=
  if e.1.1 = 10 then { s with network := some e.1.2.2 }
  else if e.1.1 = 18 then
    match e.2 with
    | none => s
    | some o => { s with outputs := s.outputs ++ [normOutput o] }
  else if e.1.1 = 24 then { s with time := e.1.2.1 % 2 ^ 64, defaultTime := false }
  else if e.1.1 = 32 then { s with expires := e.1.2.1 % 2 ^ 64, defaultExpires := false }
  else if e.1.1 = 42 then { s with memo := some e.1.2.2 }
  else if e.1.1 = 50 then { s with paymentURL := some e.1.2.2 }
  else { s with merchantData := some e.1.2.2 }

/-- The known fields of a serialized request: key, value and data of each, and for the
details field the details. -/
def requestItems (r : LWPaymentProtocolRequest) :
    List ((Nat × Nat × List Nat) × Option LWPaymentProtocolDetails) :=
  part (!r.defaultVersion) [((8, r.version, []), none)] ++
    (part (!r.defaultPkiType) [((18, 0, cstr (r.pkiType.getD [])), none)] ++
    (part r.pkiData.isSome [((26, 0, r.pkiData.getD []), none)] ++
    ((r.details.map (fun d => [((34, 0, detailsBytes d), some d)])).getD [] ++
    part r.signature.isSome [((42, 0, (r.signature.getD []).take r.sigLen), none)])))

/-- What one known field of a serialized request does to the struct that
`LWPaymentProtocolRequestParse` builds. -/
def requestField (s : LWPaymentProtocolRequest)
    (e : (Nat × Nat × List Nat) × Option LWPaymentProtocolDetails) : LWPaymentProtocolRequest :=
  if e.1.1 = 8 then { s with version := e.1.2.1 % 2 ^ 64 % 2 ^ 32, defaultVersion := false }
  else if e.1.1 = 18 then { s with pkiType := some e.1.2.2 }
  else if e.1.1 = 26 then { s with pkiData := some e.1.2.2 }
  else if e.1.1 = 34 then { s with details := e.2.map normDetails }
  else { s with signature := some e.1.2.2, sigLen := e.1.2.2.length }

/-- A request as the parser gives it, with the unknown field of key (999, VARINT) in the
request, in its details and in the output. -/
def stableRequest : LWPaymentProtocolRequest :=
  { version := 1, pkiType := some sha256Text, pkiData := some [7, 7],
    details := some
      { network := some mainText,
        outputs := [⟨50000, [118, 169], false, false, some [184, 62, 44]⟩],
        time := 1700000000, expires := 0, memo := some [104, 105], paymentURL := none,
        merchantData := some [1, 2, 3], defaultNetwork := true, defaultTime := false,
        defaultExpires := true, unknown := some [184, 62, 43] },
    signature := some [9, 8, 7], sigLen := 3, defaultVersion := true, defaultPkiType := false,
    unknown := some [184, 62, 42] }

/-- The fields that the loop of a parser reads from the position `off` on: the key, `i`,
`data` and `dataLen` that `_ProtoBufField` gives for each, in the order of the input.  The
fuel counts the iterations as in `parseLoop`. -/
def readFields (checkBuf : Bool) (buf : Option (List Nat)) (bufLen : Nat) :
    Nat → Nat → Option (List (Nat × Nat × Option (List Nat) × Nat))
  | 0, _ => none
  | fuel + 1, off =>
    if (checkBuf = false ∨ buf.isSome) ∧ off < bufLen then
      match _ProtoBufField buf bufLen off with
      | none => none
      | some (key, i, data, dataLen, off1) =>
        (readFields checkBuf buf bufLen fuel off1).map (fun fs => (key, i, data, dataLen) :: fs)
    else some []

/-- The steps of a parser on a list of fields. -/
def stepFields {σ : Type} (step : σ → Nat → Nat → Option (List Nat) → Nat → Option σ) :
    σ → List (Nat × Nat × Option (List Nat) × Nat) → Option σ
  | s, [] => some s
  | s, f :: fs =>
    match step s f.1 f.2.1 f.2.2.1 f.2.2.2 with
    | none => none
    | some s1 => stepFields step s1 fs

/-- The coding of a field read from the input, with its key and its value: the bytes that
`_ProtoBufUnknown` stores for it when they fit. -/
def storedField (f : Nat × Nat × Option (List Nat) × Nat) : List Nat :=
  fieldBytes f.1 f.2.1 ((f.2.2.1.getD []).take f.2.2.2)

/-- The field read from the input is one that `_ProtoBufUnknown` stores in full: the data
of a length-delimited field lie within the input, the coding fits the local buffer, and the
data are bytes. -/
def KeptInFull (f : Nat × Nat × Option (List Nat) × Nat) : Prop :=
  (f.1 % 8 = 2 → ∃ d, f.2.2.1 = some d ∧ f.2.2.2 ≤ d.length) ∧
    FitsUnknown f.1 f.2.1 ((f.2.2.1.getD []).take f.2.2.2) ∧
    ∀ x ∈ (f.2.2.1.getD []).take f.2.2.2, x < 256

/-- The fields of the input with a field number outside `keys`. -/
def unknownFields (keys : List Nat) (fs : List (Nat × Nat × Option (List Nat) × Nat)) :
    List (Nat × Nat × Option (List Nat) × Nat) :=
  fs.filter (fun f => decide ((f.1 >>> 3) ∉ keys))

/-- Every field of the input with a field number outside `keys` is stored in full, and their
codings have fewer than 2^64 bytes together. -/
def AllKept (keys : List Nat) (fs : List (Nat × Nat × Option (List Nat) × Nat)) : Prop :=
  (∀ f ∈ unknownFields keys fs, KeptInFull f) ∧
    ((unknownFields keys fs).map (fun f => (storedField f).length)).sum < 2 ^ 64

/-- Every field of the input with a field number outside `keys` whose key is not the key of
a later field of the input appears in `out`, with its key and its value. -/
def Preserved (keys : List Nat) (fs : List (Nat × Nat × Option (List Nat) × Nat))
    (out : List Nat) : Prop :=
  ∀ l1 f l2, fs = l1 ++ f :: l2 → (f.1 >>> 3) ∉ keys → (∀ g ∈ l2, g.1 ≠ f.1) →
    storedField f <:+: out

/-- The bytes of the codings `cs`, given with their keys, one after the other. -/
def chunkBytes (cs : List (Nat × List Nat)) : List Nat := (cs.map Prod.snd).flatten

/-- Every entry of `cs` is the coding of a field with the key that comes with it. -/
def ChunksOk (cs : List (Nat × List Nat)) : Prop :=
  ∀ c ∈ cs, c.1 < 2 ^ 64 ∧ ∃ i data, c.2 = fieldBytes c.1 i data

/-- An input with an empty details field and the unknown fields 10 and 20. -/
def twoUnknownInput : List Nat := [0x22, 0, 0x50, 1, 0xa0, 1, 2]

/-- The fields of `twoUnknownInput`. -/
def twoUnknownFields : List (Nat × Nat × Option (List Nat) × Nat) :=
  [(34, 0, some [0x50, 1, 0xa0, 1, 2], 0), (80, 1, none, 7), (160, 2, none, 7)]

/-! ### LWPaymentProtocol.c: payments, ACKs, invoice requests and messages -/

/-- The enumerator `payment_merch_data`. -/
def payment_merch_data : Nat := 1

/-- The enumerator `payment_transactions`. -/
def payment_transactions : Nat := 2

/-- The enumerator `payment_refund_to`. -/
def payment_refund_to : Nat := 3

/-- The enumerator `payment_memo`. -/
def payment_memo : Nat := 4

/-- The enumerator `ack_payment`. -/
def ack_payment : Nat := 1

/-- The enumerator `ack_memo`. -/
def ack_memo : Nat := 2

/-- The enumerator `invoice_req_sender_pk`. -/
def invoice_req_sender_pk : Nat := 1

/-- The enumerator `invoice_req_amount`. -/
def invoice_req_amount : Nat := 2

/-- The enumerator `invoice_req_pki_type`. -/
def invoice_req_pki_type : Nat := 3

/-- The enumerator `invoice_req_pki_data`. -/
def invoice_req_pki_data : Nat := 4

/-- The enumerator `invoice_req_memo`. -/
def invoice_req_memo : Nat := 5

/-- The enumerator `invoice_req_notify_url`. -/
def invoice_req_notify_url : Nat := 6

/-- The enumerator `invoice_req_signature`. -/
def invoice_req_signature : Nat := 7

/-- The enumerator `message_msg_type`. -/
def message_msg_type : Nat := 1

/-- The enumerator `message_message`. -/
def message_message : Nat := 2

/-- The enumerator `message_status_code`. -/
def message_status_code : Nat := 3

/-- The enumerator `message_status_msg`. -/
def message_status_msg : Nat := 4

/-- The enumerator `message_identifier`. -/
def message_identifier : Nat := 5

/-- The functions of LWTransaction.c (not among the sources) that the payment parser and
the payment serializer call, as parameters.  `LWTransactionParse` gives the transaction
parsed from `buf` and `bufLen` (the inner `none` is a NULL result, the outer one a call
without a result); `LWTransactionSerialize` gives the returned count and the buffer after
the call. -/
structure TxCodec where
  LWTransactionParse : Option (List Nat) → Nat → Option (Option LWTransaction)
  LWTransactionSerialize : LWTransaction → Option (List Nat) → Option (Nat × Option (List Nat))

/-- The struct `LWPaymentProtocolPayment` and the array `unknown` of its `ProtoBufContext`.
`merchDataLen`, `txCount` and `refundToCount` are the lengths of the lists. -/
structure LWPaymentProtocolPayment where
  merchantData : Option (List Nat)
  transactions : List LWTransaction
  refundTo : List ProtoBufOutput
  memo : Option (List Nat)
  unknown : Option (List Nat)

/-- The `switch` of `LWPaymentProtocolPaymentParse` and the two `array_add` after it. -/
def paymentStep (t : TxCodec) (p : LWPaymentProtocolPayment) (key i : Nat)
    (data : Option (List Nat)) (dLen : Nat) : Option LWPaymentProtocolPayment :=
  if key >>> 3 = payment_transactions then
    match t.LWTransactionParse data dLen with
    | none => none
    | some none => some p
    | some (some tx) => some { p with transactions := p.transactions ++ [tx] }
  else if key >>> 3 = payment_refund_to then
    match _LWPaymentProtocolOutputParse data dLen with
    | none => none
    | some none => some p
    | some (some out) => some { p with refundTo := p.refundTo ++ [out] }
  else if key >>> 3 = payment_memo then
    (_ProtoBufString p.memo data dLen).map (fun s => { p with memo := s })
  else if key >>> 3 = payment_merch_data then
    (_ProtoBufBytes p.merchantData data dLen).map (fun s => { p with merchantData := s })
  else (_ProtoBufUnknown p.unknown key i data dLen).map (fun u => { p with unknown := u })

/-- The function `LWPaymentProtocolPaymentParse`. -/
def LWPaymentProtocolPaymentParse (t : TxCodec) (buf : Option (List Nat)) (bufLen : Nat) :
    Option LWPaymentProtocolPayment :=
  if buf.isNone ∧ bufLen ≠ 0 then none
  else
    parseLoop (paymentStep t) true buf bufLen (bufLen + 1) 0
      { merchantData := none, transactions := [], refundTo := [], memo := none,
        unknown := none }

/-- The loop of `LWPaymentProtocolPaymentSerialize` over the transactions: the buffer
`sBuf` of `sLen` bytes, that `realloc` extends, the buffer `buf` and `off` after the
loop. -/
def paymentTransactions (t : TxCodec) : List LWTransaction → List Nat → Option (List Nat) →
    Nat → Option (List Nat × Option (List Nat) × Nat)
  | [], sBuf, buf, off => some (sBuf, buf, off)
  | tx :: rest, sBuf, buf, off =>
    match t.LWTransactionSerialize tx none with
    | none => none
    | some (l, _) =>
      let sBuf1 := if l > sBuf.length then sBuf ++ List.replicate (l - sBuf.length) 0
        else sBuf
      match t.LWTransactionSerialize tx (some sBuf1) with
      | none => none
      | some (l1, sBuf2) =>
        match _ProtoBufSetBytes buf sBuf2 l1 payment_transactions off with
        | none => none
        | some (buf1, off1) => paymentTransactions t rest (sBuf2.getD []) buf1 off1

/-- The loop of `LWPaymentProtocolPaymentSerialize` over the refund outputs.  The second
call of `_LWPaymentProtocolOutputSerialize` is given the first `l` bytes of `sBuf`. -/
def paymentRefundTo : List ProtoBufOutput → List Nat → Option (List Nat) → Nat →
    Option (Option (List Nat) × Nat)
  | [], _, buf, off => some (buf, off)
  | out :: rest, sBuf, buf, off =>
    match _LWPaymentProtocolOutputSerialize out none with
    | none => none
    | some (l, _) =>
      let sBuf1 := if l > sBuf.length then sBuf ++ List.replicate (l - sBuf.length) 0
        else sBuf
      match _LWPaymentProtocolOutputSerialize out (some (sBuf1.take l)) with
      | none => none
      | some (l1, w) =>
        match _ProtoBufSetBytes buf (some (w.getD [] ++ sBuf1.drop l)) l1 payment_refund_to
            off with
        | none => none
        | some (buf1, off1) => paymentRefundTo rest (w.getD [] ++ sBuf1.drop l) buf1 off1

/-- The two loops of `LWPaymentProtocolPaymentSerialize`, which share the buffer `sBuf`
of 0x100 bytes at first. -/
def paymentLoops (t : TxCodec) (payment : LWPaymentProtocolPayment) (buf : Option (List Nat))
    (off : Nat) : Option (Option (List Nat) × Nat) :=
  match paymentTransactions t payment.transactions (List.replicate 0x100 0) buf off with
  | none => none
  | some (sBuf, buf2, off2) => paymentRefundTo payment.refundTo sBuf buf2 off2

/-- The function `LWPaymentProtocolPaymentSerialize`: the returned count and the buffer
after the call. -/
def LWPaymentProtocolPaymentSerialize (t : TxCodec) (payment : LWPaymentProtocolPayment)
    (buf : Option (List Nat)) : Option (Nat × Option (List Nat)) :=
  let r1 := if payment.merchantData.isSome then
      _ProtoBufSetBytes buf payment.merchantData (payment.merchantData.getD []).length
        payment_merch_data 0
    else some (buf, 0)
  match r1 with
  | none => none
  | some (buf1, off1) =>
    match paymentLoops t payment buf1 off1 with
    | none => none
    | some (buf3, off3) =>
      let r4 := if payment.memo.isSome then
          _ProtoBufSetString buf3 payment.memo payment_memo off3
        else some (buf3, off3)
      match r4 with
      | none => none
      | some (buf4, off4) => serializeUnknown payment.unknown buf4 off4

/-- The struct `LWPaymentProtocolACK` and the array `unknown` of its `ProtoBufContext`. -/
structure LWPaymentProtocolACK where
  payment : Option LWPaymentProtocolPayment
  memo : Option (List Nat)
  unknown : Option (List Nat)

/-- The `switch` of `LWPaymentProtocolACKParse`. -/
def ackStep (t : TxCodec) (a : LWPaymentProtocolACK) (key i : Nat)
    (data : Option (List Nat)) (dataLen : Nat) : Option LWPaymentProtocolACK :=
  if key >>> 3 = ack_payment then
    (LWPaymentProtocolPaymentParse t data dataLen).map (fun p => { a with payment := some p })
  else if key >>> 3 = ack_memo then
    (_ProtoBufString a.memo data dataLen).map (fun s => { a with memo := s })
  else (_ProtoBufUnknown a.unknown key i data dataLen).map (fun u => { a with unknown := u })

/-- The function `LWPaymentProtocolACKParse`; the inner `none` is a NULL result. -/
def LWPaymentProtocolACKParse (t : TxCodec) (buf : Option (List Nat)) (bufLen : Nat) :
    Option (Option LWPaymentProtocolACK) :=
  if buf.isNone ∧ bufLen ≠ 0 then none
  else
    match parseLoop (ackStep t) true buf bufLen (bufLen + 1) 0
        { payment := none, memo := none, unknown := none } with
    | none => none
    | some a => if a.payment.isNone then some none else some (some a)

/-- The function `LWPaymentProtocolACKSerialize`: the returned count and the buffer after
the call. -/
def LWPaymentProtocolACKSerialize (t : TxCodec) (ack : LWPaymentProtocolACK)
    (buf : Option (List Nat)) : Option (Nat × Option (List Nat)) :=
  match ack.payment with
  | none => none
  | some payment =>
    match LWPaymentProtocolPaymentSerialize t payment none with
    | none => none
    | some (paymentLen, _) =>
      match LWPaymentProtocolPaymentSerialize t payment
          (some (List.replicate paymentLen 0)) with
      | none => none
      | some (paymentLen1, paymentBuf) =>
        match _ProtoBufSetBytes buf paymentBuf paymentLen1 ack_payment 0 with
        | none => none
        | some (buf1, off1) =>
          let r2 := if ack.memo.isSome then _ProtoBufSetString buf1 ack.memo ack_memo off1
            else some (buf1, off1)
          match r2 with
          | none => none
          | some (buf2, off2) => serializeUnknown ack.unknown buf2 off2

/-- The struct `LWPaymentProtocolInvoiceRequest` and its `ProtoBufContext`: the entries
`invoice_req_amount` and `invoice_req_pki_type` of `defaults` and the array `unknown`.
`pkiDataLen` and `sigLen` are the lengths of the lists. -/
structure LWPaymentProtocolInvoiceRequest where
  senderPubKey : LWKey
  amount : Nat
  pkiType : Option (List Nat)
  pkiData : Option (List Nat)
  memo : Option (List Nat)
  notifyUrl : Option (List Nat)
  signature : Option (List Nat)
  defaultAmount : Bool
  defaultPkiType : Bool
  unknown : Option (List Nat)

/-- The locals `req` and `gotSenderPK` of `LWPaymentProtocolInvoiceRequestParse`. -/
structure InvoiceRequestState where
  req : LWPaymentProtocolInvoiceRequest
  gotSenderPK : Bool

/-- The `switch` of `LWPaymentProtocolInvoiceRequestParse`. -/
def invoiceRequestStep (c : Crypto) (s : InvoiceRequestState) (key i : Nat)
    (data : Option (List Nat)) (dataLen : Nat) : Option InvoiceRequestState :=
  if key >>> 3 = invoice_req_sender_pk then
    (LWKeySetPubKey c data dataLen).map
      (fun r => { s with req := { s.req with senderPubKey := r.2 }, gotSenderPK := r.1 })
  else if key >>> 3 = invoice_req_amount then
    some { s with req := { s.req with amount := i, defaultAmount := false } }
  else if key >>> 3 = invoice_req_pki_type then
    (_ProtoBufString s.req.pkiType data dataLen).map
      (fun m => { s with req := { s.req with pkiType := m } })
  else if key >>> 3 = invoice_req_pki_data then
    (_ProtoBufBytes s.req.pkiData data dataLen).map
      (fun m => { s with req := { s.req with pkiData := m } })
  else if key >>> 3 = invoice_req_memo then
    (_ProtoBufString s.req.memo data dataLen).map
      (fun m => { s with req := { s.req with memo := m } })
  else if key >>> 3 = invoice_req_notify_url then
    (_ProtoBufString s.req.notifyUrl data dataLen).map
      (fun m => { s with req := { s.req with notifyUrl := m } })
  else if key >>> 3 = invoice_req_signature then
    (_ProtoBufBytes s.req.signature data dataLen).map
      (fun m => { s with req := { s.req with signature := m } })
  else
    (_ProtoBufUnknown s.req.unknown key i data dataLen).map
      (fun u => { s with req := { s.req with unknown := u } })

/-- The function `LWPaymentProtocolInvoiceRequestParse`; the inner `none` is a NULL
result.  The key of the zeroed struct is zero. -/
def LWPaymentProtocolInvoiceRequestParse (c : Crypto) (buf : Option (List Nat))
    (bufLen : Nat) : Option (Option LWPaymentProtocolInvoiceRequest) :=
  if buf.isNone ∧ bufLen ≠ 0 then none
  else
    match parseLoop (invoiceRequestStep c) true buf bufLen (bufLen + 1) 0
        { req := { senderPubKey := ⟨List.replicate 32 0, List.replicate 65 0, false⟩,
                   amount := 0, pkiType := none, pkiData := none, memo := none,
                   notifyUrl := none, signature := none, defaultAmount := true,
                   defaultPkiType := false, unknown := none },
          gotSenderPK := false } with
    | none => none
    | some s =>
      let req := match s.req.pkiType with
        | none => { s.req with pkiType := some noneText, defaultPkiType := true }
        | some _ => s.req
      if ¬ s.gotSenderPK then some none else some (some req)

/-- The function `LWPaymentProtocolInvoiceRequestSerialize`: the returned count and the
buffer after the call. -/
def LWPaymentProtocolInvoiceRequestSerialize (c : Crypto)
    (req : LWPaymentProtocolInvoiceRequest) (buf : Option (List Nat)) :
    Option (Nat × Option (List Nat)) :=
  match _ProtoBufSetBytes buf (some (LWKeyPubKey c req.senderPubKey))
      (LWKeyPubKey c req.senderPubKey).length invoice_req_sender_pk 0 with
  | none => none
  | some (buf1, off1) =>
    let r2 := if req.defaultAmount then some (buf1, off1)
      else _ProtoBufSetInt buf1 req.amount invoice_req_amount off1
    match r2 with
    | none => none
    | some (buf2, off2) =>
      let r3 := if req.defaultPkiType then some (buf2, off2)
        else _ProtoBufSetString buf2 req.pkiType invoice_req_pki_type off2
      match r3 with
      | none => none
      | some (buf3, off3) =>
        let r4 := if req.pkiData.isSome then
            _ProtoBufSetBytes buf3 req.pkiData (req.pkiData.getD []).length
              invoice_req_pki_data off3
          else some (buf3, off3)
        match r4 with
        | none => none
        | some (buf4, off4) =>
          let r5 := if req.memo.isSome then
              _ProtoBufSetString buf4 req.memo invoice_req_memo off4
            else some (buf4, off4)
          match r5 with
          | none => none
          | some (buf5, off5) =>
            let r6 := if req.notifyUrl.isSome then
                _ProtoBufSetString buf5 req.notifyUrl invoice_req_notify_url off5
              else some (buf5, off5)
            match r6 with
            | none => none
            | some (buf6, off6) =>
              let r7 := if req.signature.isSome then
                  _ProtoBufSetBytes buf6 req.signature (req.signature.getD []).length
                    invoice_req_signature off6
                else some (buf6, off6)
              match r7 with
              | none => none
              | some (buf7, off7) => serializeUnknown req.unknown buf7 off7

/-- The struct `LWPaymentProtocolMessage` and its `ProtoBufContext`: the entry
`message_status_code` of `defaults` and the array `unknown`.  `msgLen` and `identLen` are
the lengths of the lists; the message type is an enumeration value. -/
structure LWPaymentProtocolMessage where
  msgType : Nat
  message : Option (List Nat)
  statusCode : Nat
  statusMsg : Option (List Nat)
  identifier : Option (List Nat)
  defaultStatusCode : Bool
  unknown : Option (List Nat)

/-- The locals `msg` and `gotMsgType` of `LWPaymentProtocolMessageParse`. -/
structure MessageState where
  msg : LWPaymentProtocolMessage
  gotMsgType : Bool

/-- The `switch` of `LWPaymentProtocolMessageParse`.  An enumeration value is 32 bits
wide. -/
def messageStep (s : MessageState) (key i : Nat) (data : Option (List Nat)) (dataLen : Nat) :
    Option MessageState :=
  if key >>> 3 = message_msg_type then
    some { s with msg := { s.msg with msgType := i % 2 ^ 32 }, gotMsgType := true }
  else if key >>> 3 = message_message then
    (_ProtoBufBytes s.msg.message data dataLen).map
      (fun m => { s with msg := { s.msg with message := m } })
  else if key >>> 3 = message_status_code then
    some { s with msg := { s.msg with statusCode := i, defaultStatusCode := false } }
  else if key >>> 3 = message_status_msg then
    (_ProtoBufString s.msg.statusMsg data dataLen).map
      (fun m => { s with msg := { s.msg with statusMsg := m } })
  else if key >>> 3 = message_identifier then
    (_ProtoBufBytes s.msg.identifier data dataLen).map
      (fun m => { s with msg := { s.msg with identifier := m } })
  else
    (_ProtoBufUnknown s.msg.unknown key i data dataLen).map
      (fun u => { s with msg := { s.msg with unknown := u } })

/-- The function `LWPaymentProtocolMessageParse`; the inner `none` is a NULL result. -/
def LWPaymentProtocolMessageParse (buf : Option (List Nat)) (bufLen : Nat) :
    Option (Option LWPaymentProtocolMessage) :=
  if buf.isNone ∧ bufLen ≠ 0 then none
  else
    match parseLoop messageStep true buf bufLen (bufLen + 1) 0
        { msg := { msgType := 0, message := none, statusCode := 0, statusMsg := none,
                   identifier := none, defaultStatusCode := true, unknown := none },
          gotMsgType := false } with
    | none => none
    | some s =>
      if ¬ s.gotMsgType ∨ s.msg.message.isNone then some none else some (some s.msg)

/-- The function `LWPaymentProtocolMessageSerialize`: the returned count and the buffer
after the call. -/
def LWPaymentProtocolMessageSerialize (msg : LWPaymentProtocolMessage)
    (buf : Option (List Nat)) : Option (Nat × Option (List Nat)) :=
  match msg.message with
  | none => none
  | some message =>
    match _ProtoBufSetInt buf msg.msgType message_msg_type 0 with
    | none => none
    | some (buf1, off1) =>
      match _ProtoBufSetBytes buf1 (some message) message.length message_message off1 with
      | none => none
      | some (buf2, off2) =>
        let r3 := if msg.defaultStatusCode then some (buf2, off2)
          else _ProtoBufSetInt buf2 msg.statusCode message_status_code off2
        match r3 with
        | none => none
        | some (buf3, off3) =>
          let r4 := if msg.statusMsg.isSome then
              _ProtoBufSetString buf3 msg.statusMsg message_status_msg off3
            else some (buf3, off3)
          match r4 with
          | none => none
          | some (buf4, off4) =>
            let r5 := if msg.identifier.isSome then
                _ProtoBufSetBytes buf4 msg.identifier (msg.identifier.getD []).length
                  message_identifier off4
              else some (buf4, off4)
            match r5 with
            | none => none
            | some (buf5, off5) => serializeUnknown msg.unknown buf5 off5

/-- The serialization of a payment, with the serialization `txBytes` of a transaction. -/
def paymentBytes (txBytes : LWTransaction → List Nat) (p : LWPaymentProtocolPayment) :
    List Nat :=
  part p.merchantData.isSome (fieldBytes 10 0 (p.merchantData.getD [])) ++
    (p.transactions.map (fun tx => fieldBytes 18 0 (txBytes tx))).flatten ++
    (p.refundTo.map (fun o => fieldBytes 26 0 (outputBytes o))).flatten ++
    part p.memo.isSome (fieldBytes 34 0 (cstr (p.memo.getD []))) ++
    p.unknown.getD []

/-- The serialization of an ACK with a payment. -/
def ackBytes (txBytes : LWTransaction → List Nat) (a : LWPaymentProtocolACK) : List Nat :=
  ((a.payment.map (fun p => fieldBytes 10 0 (paymentBytes txBytes p))).getD []) ++
    part a.memo.isSome (fieldBytes 18 0 (cstr (a.memo.getD []))) ++
    a.unknown.getD []

/-- The serialization of an invoice request. -/
def invoiceRequestBytes (c : Crypto) (r : LWPaymentProtocolInvoiceRequest) : List Nat :=
  fieldBytes 10 0 (LWKeyPubKey c r.senderPubKey) ++
    part (!r.defaultAmount) (fieldBytes 16 r.amount []) ++
    part (!r.defaultPkiType) (fieldBytes 26 0 (cstr (r.pkiType.getD []))) ++
    part r.pkiData.isSome (fieldBytes 34 0 (r.pkiData.getD [])) ++
    part r.memo.isSome (fieldBytes 42 0 (cstr (r.memo.getD []))) ++
    part r.notifyUrl.isSome (fieldBytes 50 0 (cstr (r.notifyUrl.getD []))) ++
    part r.signature.isSome (fieldBytes 58 0 (r.signature.getD [])) ++
    r.unknown.getD []

/-- The serialization of a message with a message array. -/
def messageBytes (m : LWPaymentProtocolMessage) : List Nat :=
  fieldBytes 8 m.msgType [] ++ fieldBytes 18 0 (m.message.getD []) ++
    part (!m.defaultStatusCode) (fieldBytes 24 m.statusCode []) ++
    part m.statusMsg.isSome (fieldBytes 34 0 (cstr (m.statusMsg.getD []))) ++
    part m.identifier.isSome (fieldBytes 42 0 (m.identifier.getD [])) ++
    m.unknown.getD []

/-- The field numbers of a payment. -/
def paymentKeys : List Nat := [1, 2, 3, 4]

/-- The field numbers of an ACK. -/
def ackKeys : List Nat := [1, 2]

/-- The field numbers of an invoice request. -/
def invoiceRequestKeys : List Nat := [1, 2, 3, 4, 5, 6, 7]

/-- The field numbers of a message. -/
def messageKeys : List Nat := [1, 2, 3, 4, 5]

/-- A serializer that follows the size-query convention with the bytes `bs`. -/
def serializeBytes (bs : List Nat) (buf : Option (List Nat)) :
    Option (Nat × Option (List Nat)) :=
  match buf with
  | none => some (bs.length, none)
  | some l =>
    if bs.length ≤ l.length then some (bs.length, some (bs ++ l.drop bs.length))
    else some (0, some l)

/-- A stand-in for the transaction functions: no transaction is parsed, and a transaction
is coded by the low byte of its hash. -/
def toyTxCodec : TxCodec :=
  { LWTransactionParse := fun _ _ => some none
    LWTransactionSerialize := fun tx => serializeBytes [tx.txHash % 256] }

/-! ## Theorems: LWSet.c -/

section SetLemmas

variable {α : Type} [DecidableEq α]

theorem mod_add_inj {n h k d : Nat} (hk : k < d) (hd : d < n) : (h + k) % n ≠ (h + d) % n := by
  intro he
  have h1 : (h + d) % n = (h + k + (d - k)) % n := by congr 1; omega
  rw [h1, Nat.add_mod (h + k) (d - k) n] at he
  have h2 : (d - k) % n = d - k := Nat.mod_eq_of_lt (by omega)
  rw [h2] at he
  have hlt : (h + k) % n < n := Nat.mod_lt _ (by omega)
  by_cases hc : (h + k) % n + (d - k) < n
  · rw [Nat.mod_eq_of_lt hc] at he; omega
  · have : ((h + k) % n + (d - k)) % n = (h + k) % n + (d - k) - n := by
      rw [Nat.mod_eq_sub_mod (by omega)]
      exact Nat.mod_eq_of_lt (by omega)
    omega

theorem mod_add_surj {n h j : Nat} (hh : h < n) (hj : j < n) : ∃ d, d < n ∧ (h + d) % n = j := by
  by_cases hle : h ≤ j
  · exact ⟨j - h, by omega, by rw [show h + (j - h) = j by omega]; exact Nat.mod_eq_of_lt hj⟩
  · refine ⟨j + n - h, by omega, ?_⟩
    rw [show h + (j + n - h) = j + n by omega, Nat.add_mod_right]
    exact Nat.mod_eq_of_lt hj

theorem mod_add_add (n h k l : Nat) : ((h + k) % n + l) % n = (h + (k + l)) % n := by
  rw [Nat.mod_add_mod, Nat.add_assoc]

theorem mod_succ_add (n i k : Nat) : ((i + 1) % n + k) % n = (i + (k + 1)) % n := by
  rw [mod_add_add, Nat.add_comm 1 k]

omit [DecidableEq α] in
theorem bucket_of_getElem? {table : List (Option α)} {i : Nat} {v : Option α}
    (h : table[i]? = some v) : bucket table i = v := by
  simp [bucket, h]

theorem stops_iff_of_get {eq : α → α → Bool} {table : List (Option α)} {item : α} {i : Nat}
    {t : α} (h : table[i]? = some (some t)) : stops eq table item i ↔ same eq t item := by
  unfold stops
  rw [bucket_of_getElem? h]
  constructor
  · intro hs; exact hs t rfl
  · intro hs u hu; cases hu; exact hs

theorem stops_of_get_none {eq : α → α → Bool} {table : List (Option α)} {item : α} {i : Nat}
    (h : table[i]? = some none) : stops eq table item i := by
  unfold stops
  rw [bucket_of_getElem? h]
  intro t ht; cases ht

theorem probe_spec (eq : α → α → Bool) (table : List (Option α)) (n : Nat) (item : α)
    (hlen : table.length = n) (j : Nat) :
    ∀ fuel i, i < n →
      (probe eq table n item fuel i = some j ↔
        ∃ d, d < fuel ∧ (i + d) % n = j ∧ stops eq table item j ∧
          ∀ k, k < d → ¬ stops eq table item ((i + k) % n)) := by
  intro fuel
  induction fuel with
  | zero =>
    intro i _
    simp [probe]
  | succ fuel ih =>
    intro i hi
    have hi' : i < table.length := by omega
    have hget : table[i]? = some table[i] := List.getElem?_eq_getElem hi'
    have himod : i % n = i := Nat.mod_eq_of_lt hi
    rw [probe]
    cases hv : table[i] with
    | none =>
      rw [hv] at hget
      simp only [hget]
      constructor
      · intro h
        cases h
        exact ⟨0, by omega, by simpa using himod, stops_of_get_none hget, by intro k hk; omega⟩
      · rintro ⟨d, _, hj, _, hall⟩
        cases d with
        | zero => simp [himod] at hj; simp [hj]
        | succ d =>
          exfalso
          apply hall 0 (by omega)
          simpa [himod] using (stops_of_get_none hget : stops eq table item i)
    | some t =>
      rw [hv] at hget
      simp only [hget]
      by_cases hs : t = item ∨ eq t item = true
      · rw [if_pos hs]
        have hst : stops eq table item i := (stops_iff_of_get hget).2 hs
        constructor
        · intro h
          cases h
          exact ⟨0, by omega, by simpa using himod, hst, by intro k hk; omega⟩
        · rintro ⟨d, _, hj, _, hall⟩
          cases d with
          | zero => simp [himod] at hj; simp [hj]
          | succ d =>
            exfalso
            apply hall 0 (by omega)
            simpa [himod] using hst
      · rw [if_neg hs]
        have hns : ¬ stops eq table item i := fun h => hs ((stops_iff_of_get hget).1 h)
        have hlt : (i + 1) % n < n := Nat.mod_lt _ (by omega)
        rw [ih ((i + 1) % n) hlt]
        constructor
        · rintro ⟨d, hd, hj, hsj, hall⟩
          refine ⟨d + 1, by omega, ?_, hsj, ?_⟩
          · rw [← hj, mod_succ_add]
          · intro k hk
            cases k with
            | zero => simpa [himod] using hns
            | succ k =>
              have := hall k (by omega)
              rwa [mod_succ_add] at this
        · rintro ⟨d, hd, hj, hsj, hall⟩
          cases d with
          | zero =>
            exfalso
            simp [himod] at hj
            rw [hj] at hns
            exact hns hsj
          | succ d =>
            refine ⟨d, by omega, ?_, hsj, ?_⟩
            · rw [← hj, mod_succ_add]
            · intro k hk
              have := hall (k + 1) (by omega)
              rwa [mod_succ_add]

theorem same_refl (eq : α → α → Bool) (a : α) : same eq a a := Or.inl rfl

theorem same_symm {hash : α → Nat} {eq : α → α → Bool} (hq : HashEq hash eq) {a b : α}
    (h : same eq a b) : same eq b a := by
  rcases h with h | h
  · exact Or.inl h.symm
  · exact Or.inr (hq.symm a b h)

theorem same_trans {hash : α → Nat} {eq : α → α → Bool} (hq : HashEq hash eq) {a b c : α}
    (h1 : same eq a b) (h2 : same eq b c) : same eq a c := by
  rcases h1 with h1 | h1
  · subst h1; exact h2
  · rcases h2 with h2 | h2
    · subst h2; exact Or.inr h1
    · exact Or.inr (hq.trans a b c h1 h2)

theorem same_hash {hash : α → Nat} {eq : α → α → Bool} (hq : HashEq hash eq) {a b : α}
    (h : same eq a b) : hash a = hash b := by
  rcases h with h | h
  · rw [h]
  · exact hq.hash_eq a b h

theorem probe_congr (eq : α → α → Bool) (table : List (Option α)) (n : Nat) (x y : α)
    (h : ∀ t, same eq t x ↔ same eq t y) :
    ∀ fuel i, probe eq table n x fuel i = probe eq table n y fuel i := by
  intro fuel
  induction fuel with
  | zero => intro i; simp [probe]
  | succ fuel ih =>
    intro i
    rw [probe, probe]
    cases hv : table[i]? with
    | none => rfl
    | some v =>
      cases v with
      | none => rfl
      | some t =>
        have := h t
        unfold same at this
        simp only [this, ih]

theorem probe_same {hash : α → Nat} {eq : α → α → Bool} (hq : HashEq hash eq)
    (table : List (Option α)) (n : Nat) {x y : α} (h : same eq x y) :
    probe eq table n x n (hash x % n) = probe eq table n y n (hash y % n) := by
  rw [same_hash hq h]
  exact probe_congr eq table n x y
    (fun t => ⟨fun h1 => same_trans hq h1 h, fun h1 => same_trans hq h1 (same_symm hq h)⟩) _ _

omit [DecidableEq α] in
theorem occupied_le (table : List (Option α)) : occupied table ≤ table.length := by
  induction table with
  | nil => simp [occupied]
  | cons v rest ih => cases v <;> simp [occupied] <;> omega

omit [DecidableEq α] in
theorem exists_empty_of_occupied_lt (table : List (Option α))
    (h : occupied table < table.length) : ∃ e : Nat, table[e]? = some none := by
  induction table with
  | nil => simp at h
  | cons v rest ih =>
    cases v with
    | none => exact ⟨0, by simp⟩
    | some a =>
      simp [occupied] at h
      obtain ⟨e, he⟩ := ih h
      exact ⟨e + 1, by simpa using he⟩

theorem occupied_set (table : List (Option α)) (i : Nat) (v : Option α) (hi : i < table.length) :
    occupied (table.set i v) + (if bucket table i = none then 0 else 1) =
      occupied table + (if v = none then 0 else 1) := by
  induction table generalizing i with
  | nil => simp at hi
  | cons w rest ih =>
    cases i with
    | zero =>
      cases w <;> cases v <;> simp [occupied, bucket]
    | succ i =>
      have hi' : i < rest.length := by simpa using hi
      have := ih i hi'
      have hb : bucket (w :: rest) (i + 1) = bucket rest i := by simp [bucket]
      rw [hb]
      cases w <;> simp [occupied] <;> omega

omit [DecidableEq α] in
theorem occupied_replicate (n : Nat) : occupied (List.replicate n (none : Option α)) = 0 := by
  induction n with
  | zero => rfl
  | succ n ih => simpa [List.replicate, occupied] using ih

theorem probe_terminates (eq : α → α → Bool) (table : List (Option α)) (n : Nat) (item : α)
    (hlen : table.length = n) (e : Nat) (he : table[e]? = some none) (h : Nat) (hh : h < n) :
    ∃ j, probe eq table n item n h = some j := by
  classical
  have hen : e < n := by
    rw [← hlen]
    exact (List.getElem?_eq_some.1 he).1
  obtain ⟨d, hd, hde⟩ := mod_add_surj hh hen
  have hex : ∃ d, d < n ∧ stops eq table item ((h + d) % n) :=
    ⟨d, hd, by rw [hde]; exact stops_of_get_none he⟩
  refine ⟨(h + Nat.find hex) % n, ?_⟩
  rw [probe_spec eq table n item hlen _ n h hh]
  refine ⟨Nat.find hex, (Nat.find_spec hex).1, rfl, (Nat.find_spec hex).2, ?_⟩
  intro k hk hs
  exact Nat.find_min hex hk ⟨by have := (Nat.find_spec hex).1; omega, hs⟩

theorem probe_lt {eq : α → α → Bool} {table : List (Option α)} {n : Nat} {item : α}
    {fuel i j : Nat} (h : probe eq table n item fuel i = some j) : j < table.length := by
  induction fuel generalizing i with
  | zero => simp [probe] at h
  | succ fuel ih =>
    rw [probe] at h
    cases hv : table[i]? with
    | none => simp [hv] at h
    | some v =>
      have hi : i < table.length := (List.getElem?_eq_some.1 hv).1
      cases v with
      | none => simp [hv] at h; omega
      | some t =>
        simp only [hv] at h
        split at h
        · cases h; exact hi
        · exact ih h

theorem probe_stops {eq : α → α → Bool} {table : List (Option α)} {n : Nat} {item : α}
    {fuel i j : Nat} (h : probe eq table n item fuel i = some j) : stops eq table item j := by
  induction fuel generalizing i with
  | zero => simp [probe] at h
  | succ fuel ih =>
    rw [probe] at h
    cases hv : table[i]? with
    | none => simp [hv] at h
    | some v =>
      cases v with
      | none => simp [hv] at h; subst h; exact stops_of_get_none hv
      | some t =>
        simp only [hv] at h
        split at h
        · next hs => cases h; exact (stops_iff_of_get hv).2 hs
        · exact ih h

theorem tableSizes_bounds :
    ∀ s ∈ tableSizes.tail, 3 ≤ s ∧ s ≤ 3914111041 ∧ loadLimit s < s := by
  decide

theorem tableSizes_next :
    ∀ s ∈ tableSizes.tail, s < 3914111041 →
      initIndex s + 1 < TABLE_SIZES_LEN ∧
      tableSizes.getD (initIndex s + 1) 0 ∈ tableSizes.tail ∧
      loadLimit s + 1 ≤ loadLimit (tableSizes.getD (initIndex s + 1) 0) ∧
      s ≤ tableSizes.getD (initIndex s + 1) 0 := by
  decide

theorem tableSizes_getD_mem :
    ∀ i, i < 50 → tableSizes.getD (i + 1) 0 ∈ tableSizes.tail := by
  decide

theorem not_stops_iff {eq : α → α → Bool} {table : List (Option α)} {item : α} {i : Nat} :
    ¬ stops eq table item i ↔ ∃ t, bucket table i = some t ∧ ¬ same eq t item := by
  unfold stops
  constructor
  · intro h
    by_contra hc
    apply h
    intro t ht
    by_contra hs
    exact hc ⟨t, ht, hs⟩
  · rintro ⟨t, ht, hs⟩ h
    exact hs (h t ht)

omit [DecidableEq α] in
theorem bucket_set_ne (table : List (Option α)) {i c : Nat} (v : Option α) (h : c ≠ i) :
    bucket (table.set i v) c = bucket table c := by
  unfold bucket
  rw [List.getElem?_set_ne (Ne.symm h)]

omit [DecidableEq α] in
theorem bucket_set_self (table : List (Option α)) {i : Nat} (v : Option α)
    (h : i < table.length) : bucket (table.set i v) i = v := by
  unfold bucket
  rw [List.getElem?_set_self h]
  rfl

omit [DecidableEq α] in
theorem getElem?_of_bucket {table : List (Option α)} {i : Nat} {t : α}
    (h : bucket table i = some t) : table[i]? = some (some t) := by
  unfold bucket at h
  cases hv : table[i]? with
  | none => simp [hv] at h
  | some v => simpa [hv] using h

theorem stops_set_ne (eq : α → α → Bool) (table : List (Option α)) (item : α) {i c : Nat}
    (v : Option α) (h : c ≠ i) :
    stops eq (table.set i v) item c ↔ stops eq table item c := by
  unfold stops
  rw [bucket_set_ne table v h]

theorem found_path {hash : α → Nat} {eq : α → α → Bool} {table : List (Option α)} {n : Nat}
    {a : α} {j : Nat} (hlen : table.length = n) (hn : 0 < n)
    (h : probe eq table n a n (hash a % n) = some j) :
    ∃ d, d < n ∧ (hash a % n + d) % n = j ∧ stops eq table a j ∧
      ∀ k, k < d → ¬ stops eq table a ((hash a % n + k) % n) :=
  (probe_spec eq table n a hlen j n (hash a % n) (Nat.mod_lt _ hn)).1 h

theorem probe_of_path {hash : α → Nat} {eq : α → α → Bool} {table : List (Option α)} {n : Nat}
    {a : α} {j : Nat} (hlen : table.length = n) (hn : 0 < n) (d : Nat) (hd : d < n)
    (hj : (hash a % n + d) % n = j) (hs : stops eq table a j)
    (hall : ∀ k, k < d → ¬ stops eq table a ((hash a % n + k) % n)) :
    probe eq table n a n (hash a % n) = some j :=
  (probe_spec eq table n a hlen j n (hash a % n) (Nat.mod_lt _ hn)).2 ⟨d, hd, hj, hs, hall⟩

theorem found_unique {hash : α → Nat} {eq : α → α → Bool} (hq : HashEq hash eq)
    {table : List (Option α)} {n : Nat} (hF : Found hash eq n table) {j1 j2 : Nat} {a b : α}
    (h1 : table[j1]? = some (some a)) (h2 : table[j2]? = some (some b)) (hs : same eq a b) :
    j1 = j2 := by
  have e1 := hF j1 a h1
  have e2 := hF j2 b h2
  rw [probe_same hq table n hs, e2] at e1
  exact (Option.some.inj e1).symm

theorem probe_of_stored {hash : α → Nat} {eq : α → α → Bool} (hq : HashEq hash eq)
    {table : List (Option α)} {n : Nat} (hF : Found hash eq n table) {j : Nat} {a x : α}
    (h1 : table[j]? = some (some a)) (hs : same eq a x) :
    probe eq table n x n (hash x % n) = some j := by
  rw [← probe_same hq table n hs]
  exact hF j a h1

theorem found_insert {hash : α → Nat} {eq : α → α → Bool} (hq : HashEq hash eq)
    {table : List (Option α)} {n : Nat} (hlen : table.length = n) (hn : 0 < n)
    (hF : Found hash eq n table) {x : α} {i : Nat}
    (hp : probe eq table n x n (hash x % n) = some i) :
    Found hash eq n (table.set i (some x)) := by
  have hlen' : (table.set i (some x)).length = n := by rw [List.length_set]; exact hlen
  have hi : i < table.length := probe_lt hp
  have hsx : stops eq table x i := probe_stops hp
  intro j b hjb
  by_cases hij : i = j
  · subst hij
    rw [List.getElem?_set_self hi] at hjb
    have hb : x = b := by simpa using hjb
    subst hb
    obtain ⟨d, hd, hj, _, hall⟩ := found_path hlen hn hp
    refine probe_of_path hlen' hn d hd hj ?_ ?_
    · exact (stops_iff_of_get (List.getElem?_set_self hi)).2 (same_refl eq x)
    · intro k hk
      have hne : (hash x % n + k) % n ≠ i := by
        rw [← hj]; exact mod_add_inj hk hd
      rw [stops_set_ne eq table x (some x) hne]
      exact hall k hk
  · rw [List.getElem?_set_ne hij] at hjb
    obtain ⟨d, hd, hj, _, hall⟩ := found_path hlen hn (hF j b hjb)
    refine probe_of_path hlen' hn d hd hj ?_ ?_
    · have : (table.set i (some x))[j]? = some (some b) := by
        rw [List.getElem?_set_ne hij]; exact hjb
      exact (stops_iff_of_get this).2 (same_refl eq b)
    · intro k hk
      have hns := hall k hk
      by_cases hc : (hash b % n + k) % n = i
      · rw [hc] at hns ⊢
        obtain ⟨t, ht, hnt⟩ := not_stops_iff.1 hns
        have htx : same eq t x := hsx t ht
        rw [stops_iff_of_get (List.getElem?_set_self hi)]
        intro hxb
        exact hnt (same_trans hq htx hxb)
      · rw [stops_set_ne eq table b (some x) hc]
        exact hns

/-- What `LWSetGet` returns on a well-formed set: the stored item that is the same as the
argument, or NULL when there is none. -/
theorem get_char {hash : α → Nat} {eq : α → α → Bool} (hq : HashEq hash eq) {s : LWSet α}
    (hw : WF hash eq s) (x : α) :
    ∃ r, LWSetGet hash eq s x = some r ∧ ∀ a, r = some a ↔ (some a ∈ s.table ∧ same eq a x) := by
  have hn : 0 < s.size := by
    have := tableSizes_bounds s.size hw.size_mem
    omega
  have hocc : occupied s.table < s.table.length := by
    have h1 := hw.load
    have h2 := hw.count
    have h3 := tableSizes_bounds s.size hw.size_mem
    rw [hw.len]; omega
  obtain ⟨e, he⟩ := exists_empty_of_occupied_lt s.table hocc
  obtain ⟨i, hi⟩ := probe_terminates eq s.table s.size x hw.len e he (hash x % s.size)
    (Nat.mod_lt _ hn)
  refine ⟨bucket s.table i, ?_, ?_⟩
  · unfold LWSetGet
    simp only [Nat.ne_of_gt hn, if_false, hi]
  · intro a
    constructor
    · intro hb
      have hg := getElem?_of_bucket hb
      exact ⟨List.mem_iff_getElem?.2 ⟨i, hg⟩, probe_stops hi a hb⟩
    · rintro ⟨hm, hs⟩
      obtain ⟨j, hj⟩ := List.mem_iff_getElem?.1 hm
      have := probe_of_stored hq hw.found hj hs
      rw [hi] at this
      cases this
      exact bucket_of_getElem? hj

theorem WF.pos {hash : α → Nat} {eq : α → α → Bool} {s : LWSet α} (hw : WF hash eq s) :
    0 < s.size := by
  have := tableSizes_bounds s.size hw.size_mem
  omega

theorem WF.exists_empty {hash : α → Nat} {eq : α → α → Bool} {s : LWSet α}
    (hw : WF hash eq s) : ∃ e : Nat, s.table[e]? = some none := by
  apply exists_empty_of_occupied_lt
  have h1 := hw.load
  have h2 := hw.count
  have h3 := tableSizes_bounds s.size hw.size_mem
  rw [hw.len]; omega

theorem WF.probe_total {hash : α → Nat} {eq : α → α → Bool} {s : LWSet α}
    (hw : WF hash eq s) (x : α) :
    ∃ i, probe eq s.table s.size x s.size (hash x % s.size) = some i := by
  obtain ⟨e, he⟩ := hw.exists_empty
  exact probe_terminates eq s.table s.size x hw.len e he _ (Nat.mod_lt _ hw.pos)

theorem get_of_probe (hash : α → Nat) {eq : α → α → Bool} {s : LWSet α} {x : α} {i : Nat}
    (hn : 0 < s.size) (hp : probe eq s.table s.size x s.size (hash x % s.size) = some i) :
    LWSetGet hash eq s x = some (bucket s.table i) := by
  unfold LWSetGet
  simp only [Nat.ne_of_gt hn, if_false, hp]

theorem addDepth_unfold (hash : α → Nat) {eq : α → α → Bool} {s : LWSet α} {x : α} {i : Nat}
    (d : Nat) (hn : 0 < s.size)
    (hp : probe eq s.table s.size x s.size (hash x % s.size) = some i) :
    LWSetAddDepth hash eq (d + 1) s x =
      if (inserted s i x).itemCount > loadLimit s.size then
        match growWith (fun s x => LWSetAddDepth hash eq d s x) (inserted s i x) s.size with
        | none => none
        | some s2 => some (bucket s.table i, s2)
      else some (bucket s.table i, inserted s i x) := by
  rw [LWSetAddDepth]
  simp only [Nat.ne_of_gt hn, if_false, hp]
  rfl

theorem addDepth_nogrow (hash : α → Nat) {eq : α → α → Bool} {s : LWSet α} {x : α} {i : Nat}
    (d : Nat) (hn : 0 < s.size)
    (hp : probe eq s.table s.size x s.size (hash x % s.size) = some i)
    (hl : (inserted s i x).itemCount ≤ loadLimit s.size) :
    LWSetAddDepth hash eq (d + 1) s x = some (bucket s.table i, inserted s i x) := by
  rw [addDepth_unfold hash d hn hp, if_neg (by omega)]

/-- Facts about the set right after the store of `LWSetAdd`, before the load check. -/
theorem inserted_spec {hash : α → Nat} {eq : α → α → Bool} (hq : HashEq hash eq)
    {s : LWSet α} (hw : WF hash eq s) {x : α} {i : Nat}
    (hp : probe eq s.table s.size x s.size (hash x % s.size) = some i) :
    (inserted s i x).table.length = s.size ∧
    (inserted s i x).itemCount = occupied (inserted s i x).table ∧
    Found hash eq s.size (inserted s i x).table ∧
    (inserted s i x).itemCount = (if (bucket s.table i).isNone then s.itemCount + 1
      else s.itemCount) ∧
    (∀ a, some a ∈ (inserted s i x).table ↔ a = x ∨ (some a ∈ s.table ∧ ¬ same eq a x)) := by
  have hi : i < s.table.length := probe_lt hp
  have hsx : stops eq s.table x i := probe_stops hp
  have hb := tableSizes_bounds s.size hw.size_mem
  have hcnt : (inserted s i x).itemCount = (if (bucket s.table i).isNone then s.itemCount + 1
      else s.itemCount) := by
    unfold inserted
    simp only
    split
    · have := hw.load
      show (s.itemCount + 1) % 2 ^ 64 = s.itemCount + 1
      apply Nat.mod_eq_of_lt
      have : s.itemCount + 1 < 3914111041 + 1 := by omega
      exact Nat.lt_trans this (by norm_num)
    · rfl
  refine ⟨?_, ?_, ?_, hcnt, ?_⟩
  · simp [inserted, hw.len]
  · rw [hcnt]
    have := occupied_set s.table i (some x) hi
    have hc := hw.count
    simp only [inserted]
    cases hbk : bucket s.table i with
    | none => rw [hbk] at this; simp at this ⊢; omega
    | some t => rw [hbk] at this; simp at this ⊢; omega
  · exact found_insert hq hw.len hw.pos hw.found hp
  · intro a
    simp only [inserted]
    constructor
    · intro hm
      obtain ⟨j, hj⟩ := List.mem_iff_getElem?.1 hm
      by_cases hij : i = j
      · subst hij
        rw [List.getElem?_set_self hi] at hj
        left; simpa using hj.symm
      · rw [List.getElem?_set_ne hij] at hj
        right
        refine ⟨List.mem_iff_getElem?.2 ⟨j, hj⟩, ?_⟩
        intro hs
        have := probe_of_stored hq hw.found hj hs
        rw [hp] at this
        exact hij (Option.some.inj this)
    · rintro (rfl | ⟨hm, hns⟩)
      · exact List.mem_iff_getElem?.2 ⟨i, List.getElem?_set_self hi⟩
      · obtain ⟨j, hj⟩ := List.mem_iff_getElem?.1 hm
        have hij : i ≠ j := by
          rintro rfl
          exact hns (hsx a (bucket_of_getElem? hj))
        exact List.mem_iff_getElem?.2 ⟨j, by rw [List.getElem?_set_ne hij]; exact hj⟩

theorem inserted_wf {hash : α → Nat} {eq : α → α → Bool} (hq : HashEq hash eq)
    {s : LWSet α} (hw : WF hash eq s) {x : α} {i : Nat}
    (hp : probe eq s.table s.size x s.size (hash x % s.size) = some i)
    (hl : (inserted s i x).itemCount ≤ loadLimit s.size) : WF hash eq (inserted s i x) := by
  obtain ⟨h1, h2, h3, _, _⟩ := inserted_spec hq hw hp
  exact ⟨h1, hw.size_mem, h2, hl, h3⟩

theorem unionLoop_spec {hash : α → Nat} {eq : α → α → Bool} (hq : HashEq hash eq) (d : Nat) :
    ∀ (l : List (Option α)) (s : LWSet α), WF hash eq s →
      l.Pairwise (fun u v => ∀ a b, u = some a → v = some b → ¬ same eq a b) →
      (∀ a, some a ∈ l → ∀ b, some b ∈ s.table → ¬ same eq b a) →
      s.itemCount + occupied l ≤ loadLimit s.size →
      ∃ s1, unionLoop (fun s x => LWSetAddDepth hash eq (d + 1) s x) l s = some s1 ∧
        WF hash eq s1 ∧ s1.size = s.size ∧ s1.itemCount = s.itemCount + occupied l ∧
        ∀ a, some a ∈ s1.table ↔ (some a ∈ s.table ∨ some a ∈ l) := by
  intro l
  induction l with
  | nil =>
    intro s hw _ _ _
    exact ⟨s, rfl, hw, rfl, rfl, by simp⟩
  | cons v rest ih =>
    intro s hw hpw hdis hload
    have hpw' := (List.pairwise_cons.1 hpw).2
    cases v with
    | none =>
      have hdis' : ∀ a, some a ∈ rest → ∀ b, some b ∈ s.table → ¬ same eq b a :=
        fun a ha => hdis a (List.mem_cons_of_mem _ ha)
      obtain ⟨s1, h1, h2, h3, h4, h5⟩ := ih s hw hpw' hdis' (by simpa [occupied] using hload)
      refine ⟨s1, by simpa [unionLoop] using h1, h2, h3, by simpa [occupied] using h4, ?_⟩
      intro a
      rw [h5 a]
      simp
    | some t =>
      obtain ⟨i, hp⟩ := hw.probe_total t
      have hbn : bucket s.table i = none := by
        cases hb : bucket s.table i with
        | none => rfl
        | some b =>
          exfalso
          have hbt : same eq b t := probe_stops hp b hb
          exact hdis t (List.mem_cons_self _ _) b
            (List.mem_iff_getElem?.2 ⟨i, getElem?_of_bucket hb⟩) hbt
      obtain ⟨e1, e2, e3, e4, e5⟩ := inserted_spec hq hw hp
      rw [hbn] at e4
      simp only [Option.isNone_none, if_true] at e4
      have hl1 : (inserted s i t).itemCount ≤ loadLimit s.size := by
        rw [e4]; simp [occupied] at hload; omega
      have hw1 : WF hash eq (inserted s i t) := inserted_wf hq hw hp hl1
      have hadd := addDepth_nogrow hash d hw.pos hp hl1
      have hdis1 : ∀ a, some a ∈ rest → ∀ b, some b ∈ (inserted s i t).table →
          ¬ same eq b a := by
        intro a ha b hb
        rcases (e5 b).1 hb with rfl | ⟨hb', _⟩
        · exact (List.pairwise_cons.1 hpw).1 (some a) ha b a rfl rfl
        · exact hdis a (List.mem_cons_of_mem _ ha) b hb'
      have hload1 : (inserted s i t).itemCount + occupied rest ≤
          loadLimit (inserted s i t).size := by
        rw [e4]; simp [occupied] at hload
        show s.itemCount + 1 + occupied rest ≤ loadLimit s.size
        omega
      obtain ⟨s1, h1, h2, h3, h4, h5⟩ := ih (inserted s i t) hw1 hpw' hdis1 hload1
      refine ⟨s1, ?_, h2, h3, ?_, ?_⟩
      · simp only [unionLoop, hadd]
        exact h1
      · rw [h4, e4]; simp [occupied]; omega
      · intro a
        rw [h5 a, e5 a]
        constructor
        · rintro ((rfl | ⟨h, _⟩) | h)
          · right; exact List.mem_cons_self _ _
          · left; exact h
          · right; exact List.mem_cons_of_mem _ h
        · rintro (h | h)
          · by_cases hs : same eq a t
            · exact absurd hs (hdis t (List.mem_cons_self _ _) a h)
            · left; right; exact ⟨h, hs⟩
          · rcases List.mem_cons.1 h with h | h
            · left; left; exact (Option.some.inj h)
            · right; exact h

theorem found_pairwise {hash : α → Nat} {eq : α → α → Bool} (hq : HashEq hash eq)
    {table : List (Option α)} {n : Nat} (hF : Found hash eq n table) :
    table.Pairwise (fun u v => ∀ a b, u = some a → v = some b → ¬ same eq a b) := by
  rw [List.pairwise_iff_getElem]
  intro i j hi hj hij a b ha hb hs
  have h1 : table[i]? = some (some a) := by rw [List.getElem?_eq_getElem hi, ha]
  have h2 : table[j]? = some (some b) := by rw [List.getElem?_eq_getElem hj, hb]
  have := found_unique hq hF h1 h2 hs
  omega

theorem grow_spec {hash : α → Nat} {eq : α → α → Bool} (hq : HashEq hash eq) (d : Nat)
    {s1 : LWSet α} (hlen : s1.table.length = s1.size) (hmem : s1.size ∈ tableSizes.tail)
    (hlt : s1.size < 3914111041) (hF : Found hash eq s1.size s1.table)
    (hcnt : s1.itemCount = occupied s1.table) (hload : s1.itemCount ≤ loadLimit s1.size + 1) :
    ∃ s2, growWith (fun s x => LWSetAddDepth hash eq (d + 1) s x) s1 s1.size = some s2 ∧
      WF hash eq s2 ∧ s2.itemCount = s1.itemCount ∧
      (∀ a, some a ∈ s2.table ↔ some a ∈ s1.table) ∧ s1.size ≤ s2.size := by
  obtain ⟨h1, h2, h3, h4⟩ := tableSizes_next s1.size hmem hlt
  have hinit : (_LWSetInit ({ table := [], size := 0, itemCount := 0 } : LWSet α) s1.size) =
      { table := List.replicate (tableSizes.getD (initIndex s1.size + 1) 0) none,
        size := tableSizes.getD (initIndex s1.size + 1) 0, itemCount := 0 } := by
    unfold _LWSetInit
    simp only [h1, if_true]
  have hw0 : WF hash eq (_LWSetInit ({ table := [], size := 0, itemCount := 0 } : LWSet α)
      s1.size) := by
    rw [hinit]
    refine ⟨by simp, h2, by simp [occupied_replicate], by simp, ?_⟩
    intro j a hj
    simp only [List.getElem?_replicate] at hj
    split at hj <;> simp at hj
  have hpre := unionLoop_spec hq d s1.table _ hw0 (found_pairwise hq hF)
    (by
      intro a _ b hb
      rw [hinit] at hb
      simp [List.mem_replicate] at hb)
    (by
      rw [hinit]
      show 0 + occupied s1.table ≤ loadLimit (tableSizes.getD (initIndex s1.size + 1) 0)
      omega)
  obtain ⟨s2, e1, e2, e3, e4, e5⟩ := hpre
  refine ⟨{ table := s2.table, size := s2.size, itemCount := s2.itemCount }, ?_, e2, ?_, ?_, ?_⟩
  · unfold growWith unionWith
    rw [if_pos h1, if_neg (by omega), List.take_of_length_le (by omega), e1]
  · show s2.itemCount = s1.itemCount
    rw [e4, hinit, hcnt]; simp
  · intro a
    show some a ∈ s2.table ↔ _
    rw [e5 a, hinit]
    simp [List.mem_replicate]
  · show s1.size ≤ s2.size
    rw [e3, hinit]; exact h4

theorem initIndex_last : ¬ (initIndex 3914111041 + 1 < TABLE_SIZES_LEN) := by decide

/-- A call of `LWSetAdd` on a well-formed set either returns with the contract of
`AddPost`, or the set has the largest table size, is at its load limit and had to grow. -/
theorem addDepth_cases {hash : α → Nat} {eq : α → α → Bool} (hq : HashEq hash eq) (d : Nat)
    {s : LWSet α} (hw : WF hash eq s) (x : α) :
    (∃ r s1, LWSetAddDepth hash eq (d + 2) s x = some (r, s1) ∧ AddPost hash eq s x r s1) ∨
    (LWSetAddDepth hash eq (d + 2) s x = none ∧ ¬ s.size < 3914111041 ∧
      loadLimit s.size ≤ s.itemCount) := by
  obtain ⟨i, hp⟩ := hw.probe_total x
  obtain ⟨e1, e2, e3, e4, e5⟩ := inserted_spec hq hw hp
  have hget := get_of_probe hash hw.pos hp
  have hun := addDepth_unfold hash (d + 1) hw.pos hp
  by_cases hl : (inserted s i x).itemCount ≤ loadLimit s.size
  · left
    refine ⟨bucket s.table i, inserted s i x, addDepth_nogrow hash _ hw.pos hp hl, ?_⟩
    exact ⟨inserted_wf hq hw hp hl, hget, e4, e5, Nat.le_refl _⟩
  · rw [if_pos (by omega)] at hun
    by_cases hlt : s.size < 3914111041
    · left
      have hload1 : (inserted s i x).itemCount ≤ loadLimit (inserted s i x).size + 1 := by
        rw [e4]
        have := hw.load
        show _ ≤ loadLimit s.size + 1
        split <;> omega
      have e1' : (inserted s i x).table.length = (inserted s i x).size := e1
      have hmem' : (inserted s i x).size ∈ tableSizes.tail := hw.size_mem
      have hlt' : (inserted s i x).size < 3914111041 := hlt
      have e3' : Found hash eq (inserted s i x).size (inserted s i x).table := e3
      obtain ⟨s2, g1, g2, g3, g4, g5⟩ := grow_spec hq d e1' hmem' hlt' e3' e2 hload1
      have g1' : growWith (fun s x => LWSetAddDepth hash eq (d + 1) s x) (inserted s i x)
          s.size = some s2 := g1
      rw [g1'] at hun
      refine ⟨bucket s.table i, s2, hun, g2, hget, ?_, ?_, g5⟩
      · rw [g3, e4]
      · intro a; rw [g4 a, e5 a]
    · right
      refine ⟨?_, hlt, ?_⟩
      swap
      · rw [e4] at hl
        split at hl <;> omega
      have h41 : s.size = 3914111041 := by
        have := tableSizes_bounds s.size hw.size_mem
        omega
      rw [hun]
      unfold growWith
      rw [h41, if_neg initIndex_last]

theorem stops_congr (eq : α → α → Bool) {t1 t2 : List (Option α)} (item : α) {c : Nat}
    (h : bucket t1 c = bucket t2 c) : stops eq t1 item c ↔ stops eq t2 item c := by
  unfold stops
  rw [h]

theorem bucket_ne_none_of_not_stops {eq : α → α → Bool} {table : List (Option α)} {item : α}
    {c : Nat} (h : ¬ stops eq table item c) : bucket table c ≠ none := by
  obtain ⟨t, ht, _⟩ := not_stops_iff.1 h
  rw [ht]; simp

omit [DecidableEq α] in
theorem path_through_run {table : List (Option α)} {n h da k i0 M j : Nat}
    (hk : k < da) (hc : (h + k) % n = i0) (hj : (h + da) % n = j)
    (hpath : ∀ k', k' < da → bucket table ((h + k') % n) ≠ none)
    (hjne : bucket table j ≠ none) (hstop : bucket table ((i0 + M) % n) = none)
    (hout : ∀ u, u < M → j ≠ (i0 + u) % n) : False := by
  by_cases hu : da - k < M
  · apply hout (da - k) hu
    rw [← hc, mod_add_add, ← hj]
    congr 2; omega
  · have he : (i0 + M) % n = (h + (k + M)) % n := by rw [← hc, mod_add_add]
    rw [he] at hstop
    by_cases hlt : k + M < da
    · exact hpath (k + M) hlt hstop
    · have : k + M = da := by omega
      rw [this, hj] at hstop
      exact hjne hstop

theorem clean_step {hash : α → Nat} {eq : α → α → Bool} (hq : HashEq hash eq) {n : Nat}
    {T : List (Option α)} {i m : Nat} (hc : CleanInv hash eq n T i (m + 1)) :
    ∃ t q, T[i]? = some (some t) ∧
      probe eq (T.set i none) n t n (hash t % n) = some q ∧
      bucket (T.set i none) q = none ∧
      CleanInv hash eq n ((T.set i none).set q (some t)) ((i + 1) % n) m ∧
      (∀ a, some a ∈ ((T.set i none).set q (some t)) ↔ some a ∈ T) ∧
      occupied ((T.set i none).set q (some t)) = occupied T := by
  have hn : 0 < n := by have := hc.i_lt; omega
  have hiT : i < T.length := by rw [hc.len]; exact hc.i_lt
  have himod : (i + 0) % n = i := by simpa using Nat.mod_eq_of_lt hc.i_lt
  -- the item at bucket i
  have hbi : bucket T i ≠ none := by
    have := hc.run 0 (by omega)
    rwa [himod] at this
  obtain ⟨t, hbt⟩ := Option.ne_none_iff_exists'.1 hbi
  have hti : T[i]? = some (some t) := getElem?_of_bucket hbt
  -- the table with bucket i emptied
  have hlen1 : (T.set i none).length = n := by rw [List.length_set]; exact hc.len
  have h1i : (T.set i none)[i]? = some none := List.getElem?_set_self hiT
  have h1ne : ∀ c, c ≠ i → bucket (T.set i none) c = bucket T c :=
    fun c hci => bucket_set_ne T none hci
  have hget1 : ∀ (j : Nat) b, (T.set i none)[j]? = some (some b) → j ≠ i ∧ T[j]? = some (some b) := by
    intro j b hj
    have hji : j ≠ i := by
      rintro rfl
      rw [h1i] at hj
      simp at hj
    rw [List.getElem?_set_ne (Ne.symm hji)] at hj
    exact ⟨hji, hj⟩
  have hnosame : ∀ (j : Nat) b, (T.set i none)[j]? = some (some b) → ¬ same eq b t := by
    intro j b hj hs
    obtain ⟨hji, hjT⟩ := hget1 j b hj
    exact hji (hc.nodup j i b t hjT hti hs)
  -- the probe for t in that table
  obtain ⟨q, hq1⟩ := probe_terminates eq (T.set i none) n t hlen1 i h1i (hash t % n)
    (Nat.mod_lt _ hn)
  have hqlt : q < (T.set i none).length := probe_lt hq1
  have hbq : bucket (T.set i none) q = none := by
    cases hb : bucket (T.set i none) q with
    | none => rfl
    | some b =>
      exfalso
      exact hnosame q b (getElem?_of_bucket hb) (probe_stops hq1 b hb)
  obtain ⟨dq, hdq, hdq1, _, hdq3⟩ := found_path hlen1 hn hq1
  -- the probe stops before the empty bucket after the run
  obtain ⟨d, hd, hd1, hd2⟩ := hc.inside 0 (by omega) t (by rw [himod]; exact hti)
  rw [himod] at hd1
  have hdqd : dq ≤ d := by
    by_contra hlt
    apply hdq3 d (by omega)
    rw [hd1]
    exact stops_of_get_none h1i
  have hqe : q ≠ (i + (m + 1)) % n := by
    rw [← hdq1]; exact hd2 dq hdqd
  have hei : (i + (m + 1)) % n ≠ i := by
    have := mod_add_inj (h := i) (k := 0) (d := m + 1) (n := n) (by omega) hc.m_lt
    rw [himod] at this
    exact fun h => this h.symm
  have hslot : ∀ k, ((i + 1) % n + k) % n = (i + (k + 1)) % n := fun k => mod_succ_add n i k
  have hrun_ne_i : ∀ k, k < m → (i + (k + 1)) % n ≠ i := by
    intro k hk
    have := mod_add_inj (h := i) (k := 0) (d := k + 1) (n := n) (by omega)
      (by have := hc.m_lt; omega)
    rw [himod] at this
    exact fun h => this h.symm
  have hrun_ne_q : ∀ k, k < m → (i + (k + 1)) % n ≠ q := by
    intro k hk h
    have h1 := hc.run (k + 1) (by omega)
    rw [← h1ne _ (hrun_ne_i k hk), h, hbq] at h1
    exact h1 rfl
  have hget2 : ∀ (j : Nat) b, j ≠ q → (((T.set i none).set q (some t))[j]? = some (some b) ↔
      (j ≠ i ∧ T[j]? = some (some b))) := by
    intro j b hjq
    rw [List.getElem?_set_ne (Ne.symm hjq)]
    constructor
    · exact hget1 j b
    · rintro ⟨hji, hj⟩
      rw [List.getElem?_set_ne (Ne.symm hji)]
      exact hj
  have hget2q : ((T.set i none).set q (some t))[q]? = some (some t) :=
    List.getElem?_set_self hqlt
  have hb2 : ∀ c, c ≠ i → c ≠ q → bucket ((T.set i none).set q (some t)) c = bucket T c := by
    intro c hci hcq
    rw [bucket_set_ne _ _ hcq, h1ne c hci]
  have hlen2 : ((T.set i none).set q (some t)).length = n := by
    rw [List.length_set]; exact hlen1
  refine ⟨t, q, hti, hq1, hbq, ?_, ?_, ?_⟩
  · refine ⟨hlen2, by have := hc.m_lt; omega, Nat.mod_lt _ hn, ?_, ?_, ?_, ?_, ?_⟩
    · -- run
      intro k hk
      rw [hslot, hb2 _ (hrun_ne_i k hk) (hrun_ne_q k hk)]
      exact hc.run (k + 1) (by omega)
    · -- stop
      rw [hslot, hb2 _ hei (Ne.symm hqe)]
      exact hc.stop
    · -- outside
      intro j a hj hout
      by_cases hjq : j = q
      · subst hjq
        rw [hget2q] at hj
        have hat : t = a := by simpa using hj
        subst hat
        refine probe_of_path hlen2 hn dq hdq hdq1
          ((stops_iff_of_get hget2q).2 (same_refl eq t)) ?_
        intro k hk
        have hne : (hash t % n + k) % n ≠ j := by
          rw [← hdq1]; exact mod_add_inj hk hdq
        rw [stops_set_ne eq _ t (some t) hne]
        exact hdq3 k hk
      · obtain ⟨hji, hjT⟩ := (hget2 j a hjq).1 hj
        have hout' : ∀ k, k < m + 1 → j ≠ (i + k) % n := by
          intro k hk
          cases k with
          | zero => rw [himod]; exact hji
          | succ k => rw [← hslot]; exact hout k (by omega)
        obtain ⟨da, hda, hda1, _, hda3⟩ := found_path hc.len hn (hc.outside j a hjT hout')
        refine probe_of_path hlen2 hn da hda hda1
          ((stops_iff_of_get hj).2 (same_refl eq a)) ?_
        intro k hk
        have hpath : ∀ k', k' < da → bucket T ((hash a % n + k') % n) ≠ none :=
          fun k' hk' => bucket_ne_none_of_not_stops (hda3 k' hk')
        have hjne : bucket T j ≠ none := by rw [bucket_of_getElem? hjT]; simp
        have hci : (hash a % n + k) % n ≠ i := by
          intro hci
          exact path_through_run hk hci hda1 hpath hjne hc.stop hout'
        have hcq : (hash a % n + k) % n ≠ q := by
          intro hcq
          have := hpath k hk
          rw [← h1ne _ hci, hcq, hbq] at this
          exact this rfl
        rw [stops_congr eq a (hb2 _ hci hcq)]
        exact hda3 k hk
    · -- inside
      intro k hk a ha
      rw [hslot] at ha
      obtain ⟨_, haT⟩ := (hget2 _ a (hrun_ne_q k hk)).1 ha
      obtain ⟨d', hd', hd1', hd2'⟩ := hc.inside (k + 1) (by omega) a haT
      refine ⟨d', hd', ?_, ?_⟩
      · rw [hslot]; exact hd1'
      · intro k' hk'
        rw [hslot]; exact hd2' k' hk'
    · -- nodup
      intro j1 j2 a b h1 h2 hs
      by_cases hj1 : j1 = q
      · by_cases hj2 : j2 = q
        · rw [hj1, hj2]
        · exfalso
          subst hj1
          rw [hget2q] at h1
          have hat : t = a := by simpa using h1
          subst hat
          rw [List.getElem?_set_ne (Ne.symm hj2)] at h2
          exact hnosame j2 b h2 (same_symm hq hs)
      · by_cases hj2 : j2 = q
        · exfalso
          subst hj2
          rw [hget2q] at h2
          have hbt' : t = b := by simpa using h2
          subst hbt'
          rw [List.getElem?_set_ne (Ne.symm hj1)] at h1
          exact hnosame j1 a h1 hs
        · exact hc.nodup j1 j2 a b ((hget2 j1 a hj1).1 h1).2 ((hget2 j2 b hj2).1 h2).2 hs
  · -- membership
    intro a
    constructor
    · intro hm
      obtain ⟨j, hj⟩ := List.mem_iff_getElem?.1 hm
      by_cases hjq : j = q
      · subst hjq
        rw [hget2q] at hj
        have hat : t = a := by simpa using hj
        subst hat
        exact List.mem_iff_getElem?.2 ⟨i, hti⟩
      · exact List.mem_iff_getElem?.2 ⟨j, ((hget2 j a hjq).1 hj).2⟩
    · intro hm
      obtain ⟨j, hj⟩ := List.mem_iff_getElem?.1 hm
      by_cases hji : j = i
      · subst hji
        rw [hti] at hj
        have hat : t = a := by simpa using hj
        subst hat
        exact List.mem_iff_getElem?.2 ⟨q, hget2q⟩
      · have hjq : j ≠ q := by
          rintro rfl
          have : bucket (T.set i none) j = some a := by
            rw [h1ne j hji]; exact bucket_of_getElem? hj
          rw [hbq] at this
          cases this
        exact List.mem_iff_getElem?.2 ⟨j, (hget2 j a hjq).2 ⟨hji, hj⟩⟩
  · -- occupied
    have o1 := occupied_set T i none hiT
    have o2 := occupied_set (T.set i none) q (some t) hqlt
    rw [hbt] at o1
    rw [hbq] at o2
    simp at o1 o2
    omega

theorem removeLoop_spec {hash : α → Nat} {eq : α → α → Bool} (hq : HashEq hash eq) :
    ∀ (m fuel : Nat) (s : LWSet α) (i : Nat), m < fuel →
      CleanInv hash eq s.size s.table i m → s.size ∈ tableSizes.tail →
      s.itemCount = occupied s.table → s.itemCount ≤ loadLimit s.size →
      ∃ s1, removeLoop (LWSetAdd hash eq) s.size fuel s i = some s1 ∧ WF hash eq s1 ∧
        s1.size = s.size ∧ s1.itemCount = s.itemCount ∧
        ∀ a, some a ∈ s1.table ↔ some a ∈ s.table := by
  intro m
  induction m with
  | zero =>
    intro fuel s i hf hc hmem hcnt hload
    obtain ⟨f, rfl⟩ : ∃ f, fuel = f + 1 := ⟨fuel - 1, by omega⟩
    have himod : (i + 0) % s.size = i := by simp [Nat.mod_eq_of_lt hc.i_lt]
    have hstop := hc.stop
    rw [himod] at hstop
    have hiT : i < s.table.length := by rw [hc.len]; exact hc.i_lt
    have hget : s.table[i]? = some none := by
      rw [List.getElem?_eq_getElem hiT]
      have : bucket s.table i = s.table[i] := by
        unfold bucket; rw [List.getElem?_eq_getElem hiT]; rfl
      rw [← this, hstop]
    refine ⟨s, ?_, ?_, rfl, rfl, fun a => Iff.rfl⟩
    · rw [removeLoop]; simp only [hget]
    · exact ⟨hc.len, hmem, hcnt, hload,
        fun j a hj => hc.outside j a hj (fun k hk => absurd hk (Nat.not_lt_zero k))⟩
  | succ m ih =>
    intro fuel s i hf hc hmem hcnt hload
    obtain ⟨f, rfl⟩ : ∃ f, fuel = f + 1 := ⟨fuel - 1, by omega⟩
    obtain ⟨t, q, hti, hq1, hbq, hc2, hmem2, hocc2⟩ := clean_step hq hc
    have hn : 0 < s.size := by have := hc.i_lt; omega
    have hb := tableSizes_bounds s.size hmem
    have hiT : i < s.table.length := by rw [hc.len]; exact hc.i_lt
    have hge : 1 ≤ occupied s.table := by
      have o1 := occupied_set s.table i none hiT
      rw [bucket_of_getElem? hti] at o1
      simp at o1
      omega
    let set1 : LWSet α :=
      { table := s.table.set i none, size := s.size,
        itemCount := sizeT (s.itemCount + 2 ^ 64 - 1) }
    have hcnt2 : (inserted set1 q t).itemCount = s.itemCount := by
      show (if (bucket (s.table.set i none) q).isNone then
        sizeT (sizeT (s.itemCount + 2 ^ 64 - 1) + 1) else sizeT (s.itemCount + 2 ^ 64 - 1)) = _
      rw [hbq]
      simp only [Option.isNone_none, if_true]
      unfold sizeT
      omega
    have hadd : LWSetAdd hash eq set1 t = some (bucket set1.table q, inserted set1 q t) := by
      show LWSetAddDepth hash eq (51 + 1) set1 t = _
      have hq1' : probe eq set1.table set1.size t set1.size (hash t % set1.size) = some q := hq1
      have hn' : 0 < set1.size := hn
      apply addDepth_nogrow hash 51 hn' hq1'
      rw [hcnt2]; exact hload
    obtain ⟨s1, h1, h2, h3, h4, h5⟩ := ih f (inserted set1 q t) ((i + 1) % s.size) (by omega)
      hc2 hmem (by rw [hcnt2, hcnt]; exact hocc2.symm) (by rw [hcnt2]; exact hload)
    refine ⟨s1, ?_, h2, h3, by rw [h4, hcnt2], ?_⟩
    · rw [removeLoop]
      simp only [hti]
      show (match LWSetAdd hash eq set1 t with
        | none => none
        | some (_, set2) => removeLoop (LWSetAdd hash eq) s.size f set2 ((i + 1) % s.size)) = _
      rw [hadd]
      exact h1
    · intro a
      rw [h5 a]
      exact hmem2 a

theorem clean_init {hash : α → Nat} {eq : α → α → Bool} (hq : HashEq hash eq) {s : LWSet α}
    (hw : WF hash eq s) {p : Nat} {r : α} (hr : s.table[p]? = some (some r)) :
    ∃ m, CleanInv hash eq s.size (s.table.set p none) ((p + 1) % s.size) m := by
  classical
  have hn := hw.pos
  have hb := tableSizes_bounds s.size hw.size_mem
  have hpT : p < s.table.length := (List.getElem?_eq_some.1 hr).1
  have hpn : p < s.size := by rw [← hw.len]; exact hpT
  have hpmod : (p + 0) % s.size = p := by simpa using Nat.mod_eq_of_lt hpn
  have hilt : (p + 1) % s.size < s.size := Nat.mod_lt _ hn
  have himod : ((p + 1) % s.size + 0) % s.size = (p + 1) % s.size := by
    simp
  have hlen1 : (s.table.set p none).length = s.size := by rw [List.length_set]; exact hw.len
  have h1p : (s.table.set p none)[p]? = some none := List.getElem?_set_self hpT
  have h1ne : ∀ c, c ≠ p → bucket (s.table.set p none) c = bucket s.table c :=
    fun c hc => bucket_set_ne s.table none hc
  have hget1 : ∀ (j : Nat) b, (s.table.set p none)[j]? = some (some b) →
      j ≠ p ∧ s.table[j]? = some (some b) := by
    intro j b hj
    have hjp : j ≠ p := by
      rintro rfl
      rw [h1p] at hj
      simp at hj
    rw [List.getElem?_set_ne (Ne.symm hjp)] at hj
    exact ⟨hjp, hj⟩
  -- an empty bucket other than p
  obtain ⟨f, hf⟩ := hw.exists_empty
  have hfn : f < s.size := by rw [← hw.len]; exact (List.getElem?_eq_some.1 hf).1
  have hfp : f ≠ p := by
    rintro rfl
    rw [hr] at hf
    simp at hf
  obtain ⟨u, hu, huf⟩ := mod_add_surj hilt hfn
  have hu1 : u + 1 < s.size := by
    by_contra hge
    have hu' : u = s.size - 1 := by omega
    apply hfp
    rw [← huf, mod_succ_add, hu', show p + (s.size - 1 + 1) = p + s.size by omega,
      Nat.add_mod_right]
    exact Nat.mod_eq_of_lt hpn
  have hex : ∃ m, bucket (s.table.set p none) (((p + 1) % s.size + m) % s.size) = none := by
    refine ⟨u, ?_⟩
    rw [huf, h1ne f hfp, bucket_of_getElem? hf]
  have hm0 : Nat.find hex ≤ u := Nat.find_min' hex (by
    rw [huf, h1ne f hfp, bucket_of_getElem? hf])
  have hep : ((p + 1) % s.size + Nat.find hex) % s.size ≠ p := by
    rw [mod_succ_add]
    have := mod_add_inj (h := p) (k := 0) (d := Nat.find hex + 1) (n := s.size) (by omega)
      (by omega)
    rw [hpmod] at this
    exact fun h => this h.symm
  have hstop0 : bucket s.table (((p + 1) % s.size + Nat.find hex) % s.size) = none := by
    rw [← h1ne _ hep]; exact Nat.find_spec hex
  refine ⟨Nat.find hex, hlen1, by omega, hilt, ?_, Nat.find_spec hex, ?_, ?_, ?_⟩
  · intro k hk
    exact Nat.find_min hex hk
  · -- outside
    intro j a hj hout
    obtain ⟨hjp, hjT⟩ := hget1 j a hj
    obtain ⟨da, hda, hda1, _, hda3⟩ := found_path hw.len hn (hw.found j a hjT)
    refine probe_of_path hlen1 hn da hda hda1 ((stops_iff_of_get hj).2 (same_refl eq a)) ?_
    intro k hk
    have hpath : ∀ k', k' < da → bucket s.table ((hash a % s.size + k') % s.size) ≠ none :=
      fun k' hk' => bucket_ne_none_of_not_stops (hda3 k' hk')
    have hjne : bucket s.table j ≠ none := by rw [bucket_of_getElem? hjT]; simp
    have hcp : (hash a % s.size + k) % s.size ≠ p := by
      intro hcp
      have hnext : (hash a % s.size + (k + 1)) % s.size = (p + 1) % s.size := by
        rw [← mod_add_add, hcp]
      by_cases hk1 : k + 1 < da
      · exact path_through_run hk1 hnext hda1 hpath hjne hstop0 hout
      · have hkd : k + 1 = da := by omega
        rw [hkd, hda1] at hnext
        by_cases hm : 0 < Nat.find hex
        · apply hout 0 hm
          rw [himod]; exact hnext
        · have hz : Nat.find hex = 0 := by omega
          have := hstop0
          rw [hz, himod, ← hnext] at this
          exact hjne this
    rw [stops_congr eq a (h1ne _ hcp)]
    exact hda3 k hk
  · -- inside
    intro k hk a ha
    obtain ⟨hcp, haT⟩ := hget1 _ a ha
    obtain ⟨d, hd, hd1, _, hd3⟩ := found_path hw.len hn (hw.found _ a haT)
    refine ⟨d, hd, hd1, ?_⟩
    intro k' hk' he
    by_cases hlt : k' < d
    · have := bucket_ne_none_of_not_stops (hd3 k' hlt)
      rw [he] at this
      exact this hstop0
    · have hkd : k' = d := by omega
      rw [hkd, hd1] at he
      rw [← he, bucket_of_getElem? haT] at hstop0
      cases hstop0
  · -- nodup
    intro j1 j2 a b h1 h2 hs
    exact found_unique hq hw.found (hget1 j1 a h1).2 (hget1 j2 b h2).2 hs

/-- A call of `LWSetRemove` on a well-formed set returns, with the contract of
`RemovePost`. -/
theorem remove_spec {hash : α → Nat} {eq : α → α → Bool} (hq : HashEq hash eq) {s : LWSet α}
    (hw : WF hash eq s) (x : α) :
    ∃ r s1, LWSetRemove hash eq s x = some (r, s1) ∧ RemovePost hash eq s x r s1 := by
  have hn := hw.pos
  have hb := tableSizes_bounds s.size hw.size_mem
  obtain ⟨p, hp⟩ := hw.probe_total x
  have hget := get_of_probe hash hn hp
  have hpT : p < s.table.length := probe_lt hp
  cases hbp : bucket s.table p with
  | none =>
    refine ⟨none, s, ?_, hw, by rw [hget, hbp], by simp, ?_, rfl⟩
    · unfold LWSetRemove
      simp only [Nat.ne_of_gt hn, if_false, hp, hbp]
    · intro a
      constructor
      · intro hm
        refine ⟨hm, ?_⟩
        intro hs
        obtain ⟨j, hj⟩ := List.mem_iff_getElem?.1 hm
        have := probe_of_stored hq hw.found hj hs
        rw [hp] at this
        cases this
        rw [bucket_of_getElem? hj] at hbp
        cases hbp
      · exact fun h => h.1
  | some r =>
    have hr : s.table[p]? = some (some r) := getElem?_of_bucket hbp
    have hrx : same eq r x := probe_stops hp r hbp
    obtain ⟨m, hc⟩ := clean_init hq hw hr
    have hocc := occupied_set s.table p none hpT
    rw [hbp] at hocc
    simp at hocc
    let set1 : LWSet α :=
      { table := s.table.set p none, size := s.size,
        itemCount := sizeT (s.itemCount + 2 ^ 64 - 1) }
    have hc1 : set1.itemCount + 1 = s.itemCount := by
      show sizeT (s.itemCount + 2 ^ 64 - 1) + 1 = s.itemCount
      have h1 := hw.count
      have h2 := hw.load
      unfold sizeT
      omega
    have hc' : CleanInv hash eq set1.size set1.table ((p + 1) % s.size) m := hc
    have hcnt1 : set1.itemCount = occupied set1.table := by
      show set1.itemCount = occupied (s.table.set p none)
      have := hw.count; omega
    have hload1 : set1.itemCount ≤ loadLimit set1.size := by
      show set1.itemCount ≤ loadLimit s.size
      have := hw.load; omega
    obtain ⟨s1, h1, h2, h3, h4, h5⟩ := removeLoop_spec hq m s.size set1 ((p + 1) % s.size)
      hc.m_lt hc' hw.size_mem hcnt1 hload1
    refine ⟨some r, s1, ?_, h2, by rw [hget, hbp], ?_, ?_, h3⟩
    · unfold LWSetRemove
      simp only [Nat.ne_of_gt hn, if_false, hp, hbp]
      show (match removeLoop (LWSetAdd hash eq) set1.size s.size set1 ((p + 1) % s.size) with
        | none => none
        | some set2 => some (some r, set2)) = _
      rw [h1]
    · rw [h4]; simp; exact hc1
    · intro a
      rw [h5 a]
      show some a ∈ s.table.set p none ↔ _
      constructor
      · intro hm
        obtain ⟨j, hj⟩ := List.mem_iff_getElem?.1 hm
        have hjp : j ≠ p := by
          rintro rfl
          rw [List.getElem?_set_self hpT] at hj
          simp at hj
        rw [List.getElem?_set_ne (Ne.symm hjp)] at hj
        refine ⟨List.mem_iff_getElem?.2 ⟨j, hj⟩, ?_⟩
        intro hs
        have := probe_of_stored hq hw.found hj hs
        rw [hp] at this
        exact hjp (Option.some.inj this).symm
      · rintro ⟨hm, hns⟩
        obtain ⟨j, hj⟩ := List.mem_iff_getElem?.1 hm
        have hjp : j ≠ p := by
          rintro rfl
          rw [hr] at hj
          have : r = a := by simpa using hj
          subst this
          exact hns hrx
        exact List.mem_iff_getElem?.2 ⟨j, by rw [List.getElem?_set_ne (Ne.symm hjp)]; exact hj⟩

theorem new_inv (hash : α → Nat) (eq : α → α → Bool) (capacity : Nat) :
    WF hash eq (LWSetNew capacity : LWSet α) ∨
      (LWSetNew capacity : LWSet α) = { table := [], size := 0, itemCount := 0 } := by
  unfold LWSetNew _LWSetInit
  by_cases h : initIndex capacity + 1 < TABLE_SIZES_LEN
  · left
    simp only [h, if_true]
    have h50 : initIndex capacity < 50 := by
      have : TABLE_SIZES_LEN = 51 := by decide
      omega
    refine ⟨by simp, tableSizes_getD_mem _ h50, by simp [occupied_replicate], by simp, ?_⟩
    intro j a hj
    simp only [List.getElem?_replicate] at hj
    split at hj <;> simp at hj
  · right
    simp only [h, if_false]

theorem add_none_of_size_zero (hash : α → Nat) (eq : α → α → Bool) (d : Nat) {s : LWSet α}
    (h : s.size = 0) (x : α) : LWSetAddDepth hash eq d s x = none := by
  cases d with
  | zero => rfl
  | succ d => rw [LWSetAddDepth]; simp [h]

theorem reached_inv {hash : α → Nat} {eq : α → α → Bool} (hq : HashEq hash eq) {s : LWSet α}
    (hr : Reached hash eq s) :
    WF hash eq s ∨ s = { table := [], size := 0, itemCount := 0 } := by
  induction hr with
  | new capacity => exact new_inv hash eq capacity
  | add s s1 x r _ hadd ih =>
    rcases ih with hw | hb
    · left
      have hadd' : LWSetAddDepth hash eq (50 + 2) s x = some (r, s1) := hadd
      rcases addDepth_cases hq 50 hw x with ⟨r', s1', h1, h2⟩ | ⟨h1, _, _⟩
      · rw [hadd'] at h1
        cases h1
        exact h2.wf
      · rw [hadd'] at h1
        cases h1
    · exfalso
      have : LWSetAdd hash eq s x = none :=
        add_none_of_size_zero hash eq _ (by rw [hb]) x
      rw [this] at hadd
      cases hadd
  | remove s s1 x r _ hrem ih =>
    rcases ih with hw | hb
    · left
      obtain ⟨r', s1', h1, h2⟩ := remove_spec hq hw x
      rw [hrem] at h1
      cases h1
      exact h2.wf
    · exfalso
      have : LWSetRemove hash eq s x = none := by
        unfold LWSetRemove
        simp [hb]
      rw [this] at hrem
      cases hrem

theorem reached_wf {hash : α → Nat} {eq : α → α → Bool} (hq : HashEq hash eq) {s : LWSet α}
    (hr : Reached hash eq s) (h0 : 0 < s.size) : WF hash eq s := by
  rcases reached_inv hq hr with hw | hb
  · exact hw
  · rw [hb] at h0
    exact absurd h0 (Nat.lt_irrefl 0)

theorem get_eq_of_mem {hash : α → Nat} {eq : α → α → Bool} (hq : HashEq hash eq)
    {s s1 : LWSet α} (hw : WF hash eq s) (hw1 : WF hash eq s1) (y : α)
    (h : ∀ a, same eq a y → (some a ∈ s1.table ↔ some a ∈ s.table)) :
    LWSetGet hash eq s1 y = LWSetGet hash eq s y := by
  obtain ⟨r, hr, hrc⟩ := get_char hq hw y
  obtain ⟨r1, hr1, hrc1⟩ := get_char hq hw1 y
  rw [hr, hr1]
  congr 1
  cases r1 with
  | none =>
    cases r with
    | none => rfl
    | some a =>
      exfalso
      obtain ⟨hm, hs⟩ := (hrc a).1 rfl
      have := (hrc1 a).2 ⟨(h a hs).2 hm, hs⟩
      cases this
  | some a1 =>
    obtain ⟨hm, hs⟩ := (hrc1 a1).1 rfl
    exact ((hrc a1).2 ⟨(h a1 hs).1 hm, hs⟩).symm

theorem reduceOption_nodup (eq : α → α → Bool) (l : List (Option α))
    (h : l.Pairwise (fun u v => ∀ a b, u = some a → v = some b → ¬ same eq a b)) :
    l.reduceOption.Nodup := by
  induction l with
  | nil => simp
  | cons v rest ih =>
    obtain ⟨h1, h2⟩ := List.pairwise_cons.1 h
    cases v with
    | none => rw [List.reduceOption_cons_of_none]; exact ih h2
    | some a =>
      rw [List.reduceOption_cons_of_some, List.nodup_cons]
      refine ⟨?_, ih h2⟩
      intro hm
      exact h1 (some a) (List.reduceOption_mem_iff.1 hm) a a rfl rfl (same_refl eq a)

omit [DecidableEq α] in
theorem reduceOption_length (l : List (Option α)) : l.reduceOption.length = occupied l := by
  induction l with
  | nil => rfl
  | cons v rest ih =>
    cases v with
    | none => rw [List.reduceOption_cons_of_none, occupied, ih]
    | some a => rw [List.reduceOption_cons_of_some, occupied, List.length_cons, ih]

omit [DecidableEq α] in
theorem scanLoop_eq {table : List (Option α)} {size : Nat} (hlen : table.length = size) :
    ∀ (n i : Nat), n = size - i → scanLoop table n i = some (scanFrom table size i) := by
  intro n
  induction n with
  | zero =>
    intro i hn
    have : table.drop i = [] := List.drop_of_length_le (by omega)
    unfold scanFrom
    rw [List.take_of_length_le (by omega), this]
    rfl
  | succ n ih =>
    intro i hn
    have hi : i < table.length := by omega
    have hdrop := List.drop_eq_getElem_cons hi
    rw [scanLoop, List.getElem?_eq_getElem hi]
    unfold scanFrom
    rw [List.take_of_length_le (by omega), hdrop, List.findSome?_cons]
    cases hv : table[i] with
    | none =>
      simp only [id]
      rw [ih (i + 1) (by omega)]
      unfold scanFrom
      rw [List.take_of_length_le (by omega)]
    | some r => rfl

theorem iterate_some {hash : α → Nat} {eq : α → α → Bool} {s : LWSet α}
    (hlen : s.table.length = s.size) (hF : Found hash eq s.size s.table) {j : Nat} {a : α}
    (hj : s.table[j]? = some (some a)) :
    LWSetIterate hash eq s (some a) = some (scanFrom s.table s.size (j + 1)) := by
  have hjl : j < s.table.length := (List.getElem?_eq_some.1 hj).1
  unfold LWSetIterate
  simp only
  rw [if_neg (by omega), hF j a hj]
  exact scanLoop_eq hlen _ _ rfl

theorem iterate_drop {hash : α → Nat} {eq : α → α → Bool} {s : LWSet α}
    (hlen : s.table.length = s.size) (hF : Found hash eq s.size s.table) :
    ∀ (d i fuel : Nat), s.table.length - i ≤ d →
      (s.table.drop i).reduceOption.length ≤ fuel →
      (match scanFrom s.table s.size i with
        | none => some []
        | some r => (iterateFrom hash eq s fuel (some r)).map (fun l => r :: l)) =
        some ((s.table.drop i).reduceOption) := by
  intro d
  induction d with
  | zero =>
    intro i fuel hd _
    have : s.table.drop i = [] := List.drop_of_length_le (by omega)
    unfold scanFrom
    rw [List.take_of_length_le (by omega), this]
    rfl
  | succ d ih =>
    intro i fuel hd hfuel
    by_cases hi : s.table.length ≤ i
    · have : s.table.drop i = [] := List.drop_of_length_le hi
      unfold scanFrom
      rw [List.take_of_length_le (by omega), this]
      rfl
    · have hi' : i < s.table.length := by omega
      have hdrop := List.drop_eq_getElem_cons hi'
      have hscan : scanFrom s.table s.size i = (match s.table[i] with
          | some b => some b
          | none => scanFrom s.table s.size (i + 1)) := by
        unfold scanFrom
        rw [List.take_of_length_le (by omega), hdrop, List.findSome?_cons]
        rfl
      cases hv : s.table[i] with
      | none =>
        rw [hscan, hdrop, hv, List.reduceOption_cons_of_none]
        simp only
        apply ih (i + 1) fuel (by omega)
        rw [hdrop, hv, List.reduceOption_cons_of_none] at hfuel
        exact hfuel
      | some a =>
        rw [hscan, hdrop, hv, List.reduceOption_cons_of_some]
        simp only
        rw [hdrop, hv, List.reduceOption_cons_of_some, List.length_cons] at hfuel
        obtain ⟨f, rfl⟩ : ∃ f, fuel = f + 1 := ⟨fuel - 1, by omega⟩
        have hget : s.table[i]? = some (some a) := by
          rw [List.getElem?_eq_getElem hi', hv]
        rw [iterateFrom, iterate_some hlen hF hget]
        have := ih (i + 1) f (by omega) (by omega)
        generalize scanFrom s.table s.size (i + 1) = v at this ⊢
        cases v with
        | none =>
          simp only at this ⊢
          rw [← Option.some.inj this]
          rfl
        | some r =>
          simp only at this ⊢
          rw [this]
          rfl

theorem iterateAll_wf {hash : α → Nat} {eq : α → α → Bool} {s : LWSet α}
    (hlen : s.table.length = s.size) (hF : Found hash eq s.size s.table) :
    iterateAll hash eq s = some s.table.reduceOption := by
  unfold iterateAll
  rw [iterateFrom]
  have h0 : LWSetIterate hash eq s none = some (scanFrom s.table s.size 0) := by
    unfold LWSetIterate
    exact scanLoop_eq hlen _ _ (by omega)
  rw [h0]
  have := iterate_drop hlen hF s.table.length 0 s.size (by omega)
    (by rw [List.drop_zero, reduceOption_length, ← hlen]; exact occupied_le _)
  rw [List.drop_zero] at this
  generalize scanFrom s.table s.size 0 = v at this ⊢
  cases v <;> exact this

end SetLemmas

theorem idHashEq : HashEq idHash idEq := by
  refine ⟨?_, ?_, ?_⟩
  · intro a b h; simp [idEq] at h ⊢; exact h.symm
  · intro a b c h1 h2; simp [idEq] at h1 h2 ⊢; exact h1.trans h2
  · intro a b h; simp [idEq] at h; rw [h]

/-- C1 (as stated, refuted): a set created by `LWSetNew` with capacity 2609407320 has no
table (size 0), and `LWSetAdd` on it has no defined result (`hash(item) % 0`). -/
theorem LWSetAdd_without_table :
    HashEq idHash idEq ∧ Reached idHash idEq (LWSetNew 2609407320 : LWSet Nat) ∧
      (LWSetNew 2609407320 : LWSet Nat).size = 0 ∧
      LWSetAdd idHash idEq (LWSetNew 2609407320 : LWSet Nat) 1 = none :=
  ⟨idHashEq, Reached.new 2609407320, by decide, by decide⟩

/-- C1 (amended): on every set reached from `LWSetNew` by `LWSetAdd`/`LWSetRemove` calls
that has a table (size above 0) and does not have to grow beyond the largest table size
(its size is below 3914111041, or its item count is below the load limit), under the
contract on `hash` and `eq`, `LWSetAdd(set, x)` returns the previously stored item that is
the same as `x` (NULL if there was none); afterwards `LWSetGet(set, x)` returns `x`,
`LWSetCount` is one larger exactly when NULL was returned, and `LWSetGet` of every item
that is not the same as `x` returns what it returned before. -/
theorem LWSetAdd_contract {α : Type} [DecidableEq α] (hash : α → Nat) (eq : α → α → Bool)
    (hq : HashEq hash eq) (s : LWSet α) (hr : Reached hash eq s) (h0 : 0 < s.size)
    (hlt : s.size < 3914111041 ∨ LWSetCount s < ((s.size + 2) / 3) * 2) (x : α) :
    ∃ r s1, LWSetAdd hash eq s x = some (r, s1) ∧
      LWSetGet hash eq s x = some r ∧
      (∀ a, r = some a ↔ (some a ∈ s.table ∧ same eq a x)) ∧
      LWSetGet hash eq s1 x = some (some x) ∧
      LWSetCount s1 = (if r = none then LWSetCount s + 1 else LWSetCount s) ∧
      ∀ y, ¬ same eq y x → LWSetGet hash eq s1 y = LWSetGet hash eq s y := by
  have hw := reached_wf hq hr h0
  rcases addDepth_cases hq 50 hw x with ⟨r, s1, h1, h2⟩ | ⟨_, h2, h3⟩
  · refine ⟨r, s1, h1, h2.ret, ?_, ?_, ?_, ?_⟩
    · obtain ⟨r', hr', hc⟩ := get_char hq hw x
      rw [h2.ret] at hr'
      cases hr'
      exact hc
    · obtain ⟨r', hr', hc⟩ := get_char hq h2.wf x
      rw [hr']
      congr 1
      cases r' with
      | none =>
        exfalso
        have := (hc x).2 ⟨(h2.mem x).2 (Or.inl rfl), same_refl eq x⟩
        cases this
      | some a =>
        obtain ⟨hm, hs⟩ := (hc a).1 rfl
        rcases (h2.mem a).1 hm with rfl | ⟨_, hns⟩
        · rfl
        · exact absurd hs hns
    · unfold LWSetCount
      rw [h2.count]
      cases r <;> simp
    · intro y hy
      apply get_eq_of_mem hq hw h2.wf
      intro a ha
      rw [h2.mem a]
      constructor
      · rintro (rfl | ⟨hm, _⟩)
        · exact absurd (same_symm hq ha) hy
        · exact hm
      · intro hm
        right
        exact ⟨hm, fun hax => hy (same_trans hq (same_symm hq ha) hax)⟩
  · rcases hlt with hlt | hlt
    · exact absurd hlt h2
    · exact absurd hlt (Nat.not_lt.2 h3)

/-- C2 (as stated, refuted): on the set created by `LWSetNew` with capacity 2609407320,
which has no table (size 0), `LWSetRemove` has no defined result (`hash(item) % 0`). -/
theorem LWSetRemove_without_table :
    HashEq idHash idEq ∧ Reached idHash idEq (LWSetNew 2609407320 : LWSet Nat) ∧
      LWSetRemove idHash idEq (LWSetNew 2609407320 : LWSet Nat) 1 = none :=
  ⟨idHashEq, Reached.new 2609407320, by decide⟩

/-- C2 (amended): on every set reached from `LWSetNew` by `LWSetAdd`/`LWSetRemove` calls
that has a table (size above 0), under the contract on `hash` and `eq`,
`LWSetRemove(set, x)` returns the stored item that is the same as `x`, or NULL if none is
stored; afterwards `LWSetContains(set, x)` is false, `LWSetCount` has decreased by exactly
one when an item was returned and is unchanged otherwise, and every other stored item is
still returned by `LWSetGet`. -/
theorem LWSetRemove_contract {α : Type} [DecidableEq α] (hash : α → Nat) (eq : α → α → Bool)
    (hq : HashEq hash eq) (s : LWSet α) (hr : Reached hash eq s) (h0 : 0 < s.size) (x : α) :
    ∃ r s1, LWSetRemove hash eq s x = some (r, s1) ∧
      (∀ a, r = some a ↔ (some a ∈ s.table ∧ same eq a x)) ∧
      LWSetContains hash eq s1 x = some false ∧
      (r ≠ none → LWSetCount s1 + 1 = LWSetCount s) ∧
      (r = none → LWSetCount s1 = LWSetCount s) ∧
      ∀ y, some y ∈ s.table → ¬ same eq y x → LWSetGet hash eq s1 y = some (some y) := by
  have hw := reached_wf hq hr h0
  obtain ⟨r, s1, h1, h2⟩ := remove_spec hq hw x
  refine ⟨r, s1, h1, ?_, ?_, ?_, ?_, ?_⟩
  · obtain ⟨r', hr', hc⟩ := get_char hq hw x
    rw [h2.ret] at hr'
    cases hr'
    exact hc
  · obtain ⟨r', hr', hc⟩ := get_char hq h2.wf x
    unfold LWSetContains
    rw [hr']
    cases r' with
    | none => rfl
    | some a =>
      exfalso
      obtain ⟨hm, hs⟩ := (hc a).1 rfl
      exact ((h2.mem a).1 hm).2 hs
  · intro hne
    have := h2.count
    unfold LWSetCount
    cases r with
    | none => exact absurd rfl hne
    | some a => simpa using this
  · intro he
    have := h2.count
    unfold LWSetCount
    subst he
    simpa using this
  · intro y hy hns
    obtain ⟨r', hr', hc⟩ := get_char hq h2.wf y
    rw [hr']
    congr 1
    cases r' with
    | none =>
      exfalso
      have := (hc y).2 ⟨(h2.mem y).2 ⟨hy, hns⟩, same_refl eq y⟩
      cases this
    | some a =>
      obtain ⟨hm, hs⟩ := (hc a).1 rfl
      have hma := ((h2.mem a).1 hm).1
      obtain ⟨j1, hj1⟩ := List.mem_iff_getElem?.1 hma
      obtain ⟨j2, hj2⟩ := List.mem_iff_getElem?.1 hy
      have := found_unique hq hw.found hj1 hj2 hs
      subst this
      rw [hj1] at hj2
      simpa using hj2

/-- C3 (the code at the failing input): six items added to the set created with capacity 3
all go into its 7 buckets without growth, so the load factor is 6/7, above 2/3. -/
theorem load_factor_six_of_seven :
    ∃ s, addAll idHash idEq (LWSetNew 3) [1, 2, 3, 4, 5, 6] = some s ∧
      s.table = [none, some 1, some 2, some 3, some 4, some 5, some 6] ∧
      s.size = 7 ∧ LWSetCount s = 6 ∧ ¬ (LWSetCount s * 3 < s.size * 2) :=
  ⟨{ table := [none, some 1, some 2, some 3, some 4, some 5, some 6], size := 7,
     itemCount := 6 }, by decide, rfl, rfl, rfl, by decide⟩

/-- C4: a full iteration of a reached set (start with NULL, pass each returned item as the
next `previous`) returns the stored items bucket by bucket, every stored item exactly once,
then NULL; the number of items returned is `LWSetCount`. -/
theorem LWSetIterate_enumerates {α : Type} [DecidableEq α] (hash : α → Nat)
    (eq : α → α → Bool) (hq : HashEq hash eq) (s : LWSet α) (hr : Reached hash eq s) :
    ∃ items, iterateAll hash eq s = some items ∧
      items = s.table.reduceOption ∧
      items.Nodup ∧
      (∀ a, a ∈ items ↔ some a ∈ s.table) ∧
      items.length = LWSetCount s := by
  refine ⟨s.table.reduceOption, ?_, rfl, ?_, fun a => List.reduceOption_mem_iff, ?_⟩
  · rcases reached_inv hq hr with hw | hb
    · exact iterateAll_wf hw.len hw.found
    · rw [hb]; rfl
  · rcases reached_inv hq hr with hw | hb
    · exact reduceOption_nodup eq _ (found_pairwise hq hw.found)
    · rw [hb]; simp
  · rcases reached_inv hq hr with hw | hb
    · rw [reduceOption_length]; exact hw.count.symm
    · rw [hb]; rfl

/-! ### Bloom filter -/

theorem hash_lt {m : List Nat → Nat → Nat} {f : LWBloomFilter} {d : List Nat} {i idx : Nat}
    (h : _LWBloomFilterHash m f d i = some idx) : idx >>> 3 < f.length := by
  unfold _LWBloomFilterHash at h
  split at h
  · cases h
  · next hz =>
    cases h
    rw [Nat.shiftRight_eq_div_pow]
    have h1 : sizeT (f.length * 8) ≤ f.length * 8 := Nat.mod_le _ _
    have h2 := Nat.mod_lt (m d ((i * 0xfba4c795 + f.tweak) % 2 ^ 32) % 2 ^ 32)
      (Nat.pos_of_ne_zero hz)
    have h3 := Nat.mod_le (m d ((i * 0xfba4c795 + f.tweak) % 2 ^ 32) % 2 ^ 32
      % sizeT (f.length * 8)) (2 ^ 32)
    omega

theorem hash_congr (m : List Nat → Nat → Nat) {f g : LWBloomFilter} (d : List Nat) (i : Nat)
    (hl : g.length = f.length) (ht : g.tweak = f.tweak) :
    _LWBloomFilterHash m g d i = _LWBloomFilterHash m f d i := by
  unfold _LWBloomFilterHash
  rw [hl, ht]

theorem and_bit_ne_zero {b k : Nat} : b &&& (1 <<< k) ≠ 0 ↔ b.testBit k = true := by
  rw [Nat.one_shiftLeft, Nat.and_two_pow]
  cases b.testBit k <;> simp

theorem testBit_or_mod {b k j : Nat} (hj : j < 8) :
    ((b ||| (1 <<< k)) % 256).testBit j = (b.testBit j || decide (k = j)) := by
  rw [show (256 : Nat) = 2 ^ 8 from rfl, Nat.testBit_mod_two_pow, Nat.testBit_or,
    Nat.one_shiftLeft, Nat.testBit_two_pow]
  simp [hj]

theorem testBit_ge_eight {b j : Nat} (hb : b < 256) (hj : 8 ≤ j) : b.testBit j = false := by
  apply Nat.testBit_lt_two_pow
  calc b < 2 ^ 8 := hb
    _ ≤ 2 ^ j := Nat.pow_le_pow_right (by norm_num) hj

theorem bitsKept_refl (a : List Nat) : bitsKept a a := by
  refine ⟨rfl, ?_⟩
  intro i x y hx hy k hk
  rw [hx] at hy
  cases hy
  exact hk

theorem bitsKept_trans {a b c : List Nat} (h1 : bitsKept a b) (h2 : bitsKept b c) :
    bitsKept a c := by
  refine ⟨h1.1.trans h2.1, ?_⟩
  intro i x z hx hz k hk
  have hi : i < a.length := (List.getElem?_eq_some.1 hx).1
  have hib : i < b.length := by rw [← h1.1]; exact hi
  exact h2.2 i b[i] z (List.getElem?_eq_getElem hib) hz k
    (h1.2 i x b[i] hx (List.getElem?_eq_getElem hib) k hk)

theorem bitsKept_set {a : List Nat} (ha : ∀ b ∈ a, b < 256) {p b : Nat} (k : Nat)
    (hb : a[p]? = some b) : bitsKept a (a.set p ((b ||| (1 <<< k)) % 256)) := by
  refine ⟨by rw [List.length_set], ?_⟩
  intro i x y hx hy j hj
  by_cases hpi : p = i
  · subst hpi
    rw [hb] at hx
    cases hx
    have hp : p < a.length := (List.getElem?_eq_some.1 hb).1
    rw [List.getElem?_set_self hp] at hy
    cases hy
    have hx256 : b < 256 := ha b (List.mem_iff_getElem?.2 ⟨p, hb⟩)
    have hj8 : j < 8 := by
      by_contra hge
      rw [testBit_ge_eight hx256 (by omega)] at hj
      cases hj
    rw [testBit_or_mod hj8, hj]
    rfl
  · rw [List.getElem?_set_ne hpi] at hy
    rw [hx] at hy
    cases hy
    exact hj

theorem and_seven_lt (idx : Nat) : 7 &&& idx < 8 := by
  have : 7 &&& idx ≤ 7 := Nat.and_le_left
  omega

theorem insertLoop_spec (m : List Nat → Nat → Nat) (d : List Nat) :
    ∀ (n i : Nat) (f : LWBloomFilter), BloomOk f →
      ∃ g, insertLoop m d n i f = some g ∧ BloomOk g ∧
        g.length = f.length ∧ g.tweak = f.tweak ∧ g.hashFuncs = f.hashFuncs ∧
        g.elemCount = f.elemCount ∧ g.flags = f.flags ∧
        bitsKept f.filter g.filter ∧
        ∀ j, i ≤ j → j < i + n → bitSet m g d j := by
  intro n
  induction n with
  | zero =>
    intro i f hok
    exact ⟨f, rfl, hok, rfl, rfl, rfl, rfl, rfl, bitsKept_refl _, fun j h1 h2 => by omega⟩
  | succ n ih =>
    intro i f hok
    have hhash : ∃ idx, _LWBloomFilterHash m f d i = some idx := by
      unfold _LWBloomFilterHash
      rw [if_neg hok.bits]
      exact ⟨_, rfl⟩
    obtain ⟨idx, hidx⟩ := hhash
    have hlt : idx >>> 3 < f.filter.length := by rw [hok.buffer]; exact hash_lt hidx
    have hget : f.filter[idx >>> 3]? = some f.filter[idx >>> 3] := List.getElem?_eq_getElem hlt
    let byte1 : Nat := (f.filter[idx >>> 3] ||| (1 <<< (7 &&& idx))) % 256
    let f1 : LWBloomFilter := { f with filter := f.filter.set (idx >>> 3) byte1 }
    have hok1 : BloomOk f1 := by
      refine ⟨?_, hok.bits, ?_⟩
      · show (f.filter.set _ _).length = f.length
        rw [List.length_set]; exact hok.buffer
      · intro b hb
        rcases List.mem_or_eq_of_mem_set hb with h | h
        · exact hok.bytes b h
        · rw [h]; exact Nat.mod_lt _ (by norm_num)
    obtain ⟨g, h1, h2, h3, h4, h5, h6, h7, h8, h9⟩ := ih (i + 1) f1 hok1
    have hk1 : bitsKept f.filter f1.filter := bitsKept_set hok.bytes (7 &&& idx) hget
    refine ⟨g, ?_, h2, h3, h4, h5, h6, h7, bitsKept_trans hk1 h8, ?_⟩
    · rw [insertLoop]
      simp only [hidx, hget]
      exact h1
    · intro j hj1 hj2
      by_cases hji : j = i
      · subst hji
        have hg : _LWBloomFilterHash m g d j = some idx := by
          rw [hash_congr m d j (show g.length = f.length from h3)
            (show g.tweak = f.tweak from h4)]
          exact hidx
        have hltg : idx >>> 3 < g.filter.length := by rw [h2.buffer]; exact hash_lt hg
        refine ⟨idx, g.filter[idx >>> 3], hg, List.getElem?_eq_getElem hltg, ?_⟩
        have hf1 : f1.filter[idx >>> 3]? =
            some ((f.filter[idx >>> 3] ||| (1 <<< (7 &&& idx))) % 256) :=
          List.getElem?_set_self hlt
        apply h8.2 (idx >>> 3) _ _ hf1 (List.getElem?_eq_getElem hltg)
        rw [testBit_or_mod (and_seven_lt idx)]
        simp
      · exact h9 j (by omega) (by omega)

theorem bitSet_mono (m : List Nat → Nat → Nat) {f g : LWBloomFilter} (hg : BloomOk g)
    (hl : g.length = f.length) (ht : g.tweak = f.tweak) (hk : bitsKept f.filter g.filter)
    {d : List Nat} {j : Nat} (h : bitSet m f d j) : bitSet m g d j := by
  obtain ⟨idx, b, h1, h2, h3⟩ := h
  have hgh : _LWBloomFilterHash m g d j = some idx := by rw [hash_congr m d j hl ht]; exact h1
  have hltg : idx >>> 3 < g.filter.length := by rw [hg.buffer]; exact hash_lt hgh
  exact ⟨idx, g.filter[idx >>> 3], hgh, List.getElem?_eq_getElem hltg,
    hk.2 _ b _ h2 (List.getElem?_eq_getElem hltg) _ h3⟩

theorem containsLoop_true (m : List Nat → Nat → Nat) (g : LWBloomFilter) (d : List Nat) :
    ∀ (n i : Nat), (∀ j, i ≤ j → j < i + n → bitSet m g d j) →
      containsLoop m g d n i = some true := by
  intro n
  induction n with
  | zero => intro i _; rfl
  | succ n ih =>
    intro i h
    obtain ⟨idx, b, h1, h2, h3⟩ := h i (Nat.le_refl _) (by omega)
    rw [containsLoop]
    simp only [h1, h2]
    rw [if_neg (and_bit_ne_zero.2 h3)]
    exact ih (i + 1) (fun j hj1 hj2 => h j (by omega) (by omega))

theorem insertData_spec (m : List Nat → Nat → Nat) (f : LWBloomFilter) (hok : BloomOk f)
    (data : Option (List Nat)) :
    ∃ g, LWBloomFilterInsertData m f data = some g ∧ BloomOk g ∧
      g.length = f.length ∧ g.tweak = f.tweak ∧ g.hashFuncs = f.hashFuncs ∧
      bitsKept f.filter g.filter ∧
      ∀ d, data = some d → ∀ j, j < f.hashFuncs → bitSet m g d j := by
  cases data with
  | none =>
    exact ⟨f, rfl, hok, rfl, rfl, rfl, bitsKept_refl _, fun d hd => by cases hd⟩
  | some d =>
    obtain ⟨g, h1, h2, h3, h4, h5, _, _, h8, h9⟩ := insertLoop_spec m d f.hashFuncs 0 f hok
    refine ⟨{ g with elemCount := sizeT (g.elemCount + 1) }, ?_, ⟨h2.buffer, h2.bits, h2.bytes⟩,
      h3, h4, h5, h8, ?_⟩
    · unfold LWBloomFilterInsertData
      simp only [h1]
    · intro d' hd' j hj
      cases hd'
      obtain ⟨idx, b, e1, e2, e3⟩ := h9 j (Nat.zero_le _) (by omega)
      exact ⟨idx, b, e1, e2, e3⟩

theorem insertAll_spec (m : List Nat → Nat → Nat) :
    ∀ (ds : List (Option (List Nat))) (f : LWBloomFilter), BloomOk f →
      ∃ g, insertAll m f ds = some g ∧ BloomOk g ∧
        g.length = f.length ∧ g.tweak = f.tweak ∧ g.hashFuncs = f.hashFuncs ∧
        bitsKept f.filter g.filter ∧
        ∀ d, some d ∈ ds → ∀ j, j < f.hashFuncs → bitSet m g d j := by
  intro ds
  induction ds with
  | nil =>
    intro f hok
    exact ⟨f, rfl, hok, rfl, rfl, rfl, bitsKept_refl _, fun d hd => by simp at hd⟩
  | cons data rest ih =>
    intro f hok
    obtain ⟨f1, a1, a2, a3, a4, a5, a6, a7⟩ := insertData_spec m f hok data
    obtain ⟨g, b1, b2, b3, b4, b5, b6, b7⟩ := ih f1 a2
    refine ⟨g, ?_, b2, b3.trans a3, b4.trans a4, b5.trans a5, bitsKept_trans a6 b6, ?_⟩
    · rw [insertAll]
      simp only [a1]
      exact b1
    · intro d hd j hj
      rcases List.mem_cons.1 hd with h | h
      · exact bitSet_mono m b2 b3 b4 b6 (a7 d h.symm j hj)
      · exact b7 d h j (by rw [a5]; exact hj)

theorem BloomOk_of_valid {f : LWBloomFilter} (hv : f.Valid) (h1 : 1 ≤ f.length) : BloomOk f := by
  refine ⟨hv.buffer, ?_, hv.bytes⟩
  unfold sizeT
  rw [Nat.mod_eq_of_lt hv.bits]
  omega

/-- C5: the Bloom filter has no false negatives.  For every filter of length at least 1
(with fields in range of their C types), every sequence of `LWBloomFilterInsertData` calls
and every non-NULL data `d` in that sequence, all calls return, `LWBloomFilterContainsData`
of the final filter and `d` is true, and every bit set before is still set. -/
theorem bloom_no_false_negatives (LWMurmur3_32 : List Nat → Nat → Nat) (f : LWBloomFilter)
    (hv : f.Valid) (h1 : 1 ≤ f.length) (ds : List (Option (List Nat))) (d : List Nat)
    (hd : some d ∈ ds) :
    ∃ g, insertAll LWMurmur3_32 f ds = some g ∧
      LWBloomFilterContainsData LWMurmur3_32 g (some d) = some true ∧
      bitsKept f.filter g.filter := by
  obtain ⟨g, b1, _, _, _, b5, b6, b7⟩ := insertAll_spec LWMurmur3_32 ds f
    (BloomOk_of_valid hv h1)
  refine ⟨g, b1, ?_, b6⟩
  unfold LWBloomFilterContainsData
  simp only
  apply containsLoop_true
  intro j _ hj
  exact b7 d hd j (by rw [b5] at hj; omega)

theorem UInt32GetLE_SetLE (x : Nat) (hx : x < 2 ^ 32) (rest : List Nat) :
    UInt32GetLE (UInt32SetLE x ++ rest) = x := by
  simp only [UInt32GetLE, UInt32SetLE, List.cons_append, List.nil_append, List.getD_cons_zero,
    List.getD_cons_succ]
  omega

theorem UInt32SetLE_length (x : Nat) : (UInt32SetLE x).length = 4 := rfl

theorem LWVarInt_Set (n : Nat) (hn : n ≤ 36000) (rest : List Nat) :
    LWVarInt (LWVarIntSet n ++ rest) = (n, LWVarIntSize n) ∧
      (LWVarIntSet n).length = LWVarIntSize n := by
  unfold LWVarIntSet LWVarIntSize
  by_cases h : n < 0xfd
  · rw [if_pos h, if_pos h]
    refine ⟨?_, rfl⟩
    have h1 : n ≠ 253 := by omega
    have h2 : n ≠ 254 := by omega
    have h3 : n ≠ 255 := by omega
    simp [LWVarInt, h1, h2, h3]
  · rw [if_neg h, if_neg h, if_pos (by omega), if_pos (by omega)]
    refine ⟨?_, rfl⟩
    simp only [LWVarInt, UInt16SetLE, UInt16GetLE, List.cons_append, List.nil_append,
      List.length_cons, List.getD_cons_zero, List.drop_succ_cons, List.drop_zero,
      List.getD_cons_succ]
    have e1 : 1 ≤ rest.length + 1 + 1 + 1 := by omega
    have e3 : 3 ≤ rest.length + 1 + 1 + 1 := by omega
    simp only [e1, e3, if_true]
    congr 1
    omega

theorem LWVarIntSize_le (n : Nat) : 1 ≤ LWVarIntSize n ∧ LWVarIntSize n ≤ 9 := by
  unfold LWVarIntSize
  split
  · omega
  · split
    · omega
    · split <;> omega

theorem parse_serialized (f : LWBloomFilter) (hv : f.Valid) (hl : f.length ≤ 36000) :
    LWBloomFilterParse (some (serialized f)) = some { f with elemCount := 0 } := by
  obtain ⟨hvs1, hvs9⟩ := LWVarIntSize_le f.length
  have hF : f.filter.take f.length = f.filter := List.take_of_length_le (by rw [hv.buffer])
  have hser : serialized f = LWVarIntSet f.length ++ (f.filter ++ (UInt32SetLE f.hashFuncs ++
      (UInt32SetLE f.tweak ++ [f.flags]))) := by
    unfold serialized
    rw [hF]
    simp only [List.append_assoc]
  obtain ⟨hvar, hvlen⟩ := LWVarInt_Set f.length hl (f.filter ++ (UInt32SetLE f.hashFuncs ++
      (UInt32SetLE f.tweak ++ [f.flags])))
  have hlen : (serialized f).length = LWVarIntSize f.length + f.length + 9 := by
    rw [hser]
    simp only [List.length_append, hvlen, hv.buffer, UInt32SetLE_length, List.length_singleton]
    omega
  have hs : ∀ k, k ≤ 36100 → sizeT k = k := by
    intro k hk
    unfold sizeT
    exact Nat.mod_eq_of_lt (by omega)
  have hvar1 : LWVarInt (serialized f) = (f.length, LWVarIntSize f.length) := by
    rw [hser]; exact hvar
  have o1 : sizeT (LWVarIntSize f.length) = LWVarIntSize f.length := hs _ (by omega)
  have o2 : sizeT (LWVarIntSize f.length + f.length) = LWVarIntSize f.length + f.length :=
    hs _ (by omega)
  have o3 : sizeT (LWVarIntSize f.length + f.length + 4) = LWVarIntSize f.length + f.length + 4 :=
    hs _ (by omega)
  have o4 : sizeT (LWVarIntSize f.length + f.length + 4 + 4) =
      LWVarIntSize f.length + f.length + 4 + 4 := hs _ (by omega)
  have o5 : sizeT (LWVarIntSize f.length + f.length + 4 + 4 + 1) =
      LWVarIntSize f.length + f.length + 4 + 4 + 1 := hs _ (by omega)
  have d1 : (serialized f).drop (LWVarIntSize f.length) = f.filter ++
      (UInt32SetLE f.hashFuncs ++ (UInt32SetLE f.tweak ++ [f.flags])) := by
    rw [hser]; exact List.drop_left' hvlen
  have d2 : (serialized f).drop (LWVarIntSize f.length + f.length) =
      UInt32SetLE f.hashFuncs ++ (UInt32SetLE f.tweak ++ [f.flags]) := by
    rw [hser, ← List.append_assoc]
    exact List.drop_left' (by rw [List.length_append, hvlen, hv.buffer])
  have d3 : (serialized f).drop (LWVarIntSize f.length + f.length + 4) =
      UInt32SetLE f.tweak ++ [f.flags] := by
    rw [hser, ← List.append_assoc, ← List.append_assoc]
    exact List.drop_left' (by
      rw [List.length_append, List.length_append, hvlen, hv.buffer, UInt32SetLE_length])
  have d4 : (serialized f).getD (LWVarIntSize f.length + f.length + 4 + 4) 0 = f.flags := by
    rw [hser, ← List.append_assoc, ← List.append_assoc, ← List.append_assoc]
    have hl4 : (LWVarIntSet f.length ++ f.filter ++ UInt32SetLE f.hashFuncs ++
        UInt32SetLE f.tweak).length = LWVarIntSize f.length + f.length + 4 + 4 := by
      simp only [List.length_append, hvlen, hv.buffer, UInt32SetLE_length]
    rw [List.getD_append_right _ _ _ _ (by rw [hl4]), hl4, Nat.sub_self]
    rfl
  unfold LWBloomFilterParse
  simp only [List.drop_zero, Nat.zero_add, BLOOM_MAX_FILTER_LENGTH, hvar1]
  rw [o1, o2, o3, o4, o5, hlen]
  rw [d1, d2, d3, d4, List.take_left' hv.buffer,
    UInt32GetLE_SetLE _ hv.hashFuncs, UInt32GetLE_SetLE _ hv.tweak]
  rw [if_pos ⟨hl, by omega⟩, if_pos (by omega), if_pos (by omega), if_pos (by omega)]

/-- C6: for a filter of length at most 36000 (fields in range of their C types),
`LWBloomFilterSerialize` with a NULL buffer reports a size `n`; with a buffer of that size
it returns `n` and writes varint(length), the filter bytes, `hashFuncs` and `tweak` as
little-endian u32 and `flags`; `LWBloomFilterParse` of those bytes yields a filter with the
same length, filter bytes, `hashFuncs`, `tweak` and `flags`. -/
theorem bloom_serialize_parse_roundtrip (f : LWBloomFilter) (hv : f.Valid)
    (hl : f.length ≤ 36000) :
    ∃ n, LWBloomFilterSerialize f none = some (n, none) ∧
      ∀ buf : List Nat, buf.length = n →
        LWBloomFilterSerialize f (some buf) =
          some (n, some (LWVarIntSet f.length ++ f.filter ++ UInt32SetLE f.hashFuncs ++
            UInt32SetLE f.tweak ++ [f.flags])) ∧
        ∃ g, LWBloomFilterParse (some (LWVarIntSet f.length ++ f.filter ++
            UInt32SetLE f.hashFuncs ++ UInt32SetLE f.tweak ++ [f.flags])) = some g ∧
          g.length = f.length ∧ g.filter = f.filter ∧ g.hashFuncs = f.hashFuncs ∧
          g.tweak = f.tweak ∧ g.flags = f.flags := by
  obtain ⟨hvs1, hvs9⟩ := LWVarIntSize_le f.length
  have hF : f.filter.take f.length = f.filter := List.take_of_length_le (by rw [hv.buffer])
  have hser : serialized f = LWVarIntSet f.length ++ f.filter ++ UInt32SetLE f.hashFuncs ++
      UInt32SetLE f.tweak ++ [f.flags] := by
    unfold serialized
    rw [hF]
  have hn : sizeT (LWVarIntSize f.length + f.length + 4 + 4 + 1) =
      LWVarIntSize f.length + f.length + 4 + 4 + 1 := by
    unfold sizeT
    exact Nat.mod_eq_of_lt (by omega)
  refine ⟨LWVarIntSize f.length + f.length + 4 + 4 + 1, ?_, ?_⟩
  · unfold LWBloomFilterSerialize
    simp only [hn]
  · intro buf hbuf
    refine ⟨?_, { f with elemCount := 0 }, ?_, rfl, rfl, rfl, rfl, rfl⟩
    · unfold LWBloomFilterSerialize
      simp only [hn]
      rw [if_pos (by omega), if_neg (by rw [hv.buffer]; omega), ← hser,
        List.drop_of_length_le (by omega), List.append_nil]
    · rw [← hser]
      exact parse_serialized f hv hl

/-- C7 (as stated, refuted): for a false-positive rate of 0.5 and 8 elements the length
expression is 1.44.., converted to 1, and the hash count expression is 0.69.., converted
to 0; the filter gets `hashFuncs = 0`, not `clamp(1, 50, 0) = 1`. -/
theorem bloom_new_hash_funcs_zero :
    (LWBloomFilterNew false 1 (fun _ => 0) 0 0).length = 1 ∧
      (LWBloomFilterNew false 1 (fun _ => 0) 0 0).hashFuncs = 0 ∧
      (LWBloomFilterNew false 1 (fun _ => 0) 0 0).hashFuncs ≠ clamp 1 50 0 := by
  decide

/-- C7 (amended): the filter returned by `LWBloomFilterNew` has length 36000 when the rate
is below `DBL_EPSILON` and otherwise the length expression clamped to 1..36000; its hash
function count is the smaller of 50 and the hash count expression, with no lower clamp;
so `1 <= length <= 36000` and `hashFuncs <= 50`. -/
theorem bloom_new_bounds (fprBelowEpsilon : Bool) (lengthExpr : Nat)
    (hashFuncsExpr : Nat → Nat) (tweak flags : Nat) :
    (LWBloomFilterNew fprBelowEpsilon lengthExpr hashFuncsExpr tweak flags).length =
        (if fprBelowEpsilon then 36000 else clamp 1 36000 lengthExpr) ∧
      (LWBloomFilterNew fprBelowEpsilon lengthExpr hashFuncsExpr tweak flags).hashFuncs =
        min 50 (hashFuncsExpr
          (LWBloomFilterNew fprBelowEpsilon lengthExpr hashFuncsExpr tweak flags).length) ∧
      1 ≤ (LWBloomFilterNew fprBelowEpsilon lengthExpr hashFuncsExpr tweak flags).length ∧
      (LWBloomFilterNew fprBelowEpsilon lengthExpr hashFuncsExpr tweak flags).length ≤ 36000 ∧
      (LWBloomFilterNew fprBelowEpsilon lengthExpr hashFuncsExpr tweak flags).hashFuncs ≤ 50 := by
  simp only [LWBloomFilterNew, BLOOM_MAX_FILTER_LENGTH, BLOOM_MAX_HASH_FUNCS, clamp]
  cases fprBelowEpsilon
  · simp only [Bool.false_eq_true, if_false]
    generalize hL : (if (if lengthExpr > 36000 then 36000 else lengthExpr) < 1 then 1
      else if lengthExpr > 36000 then 36000 else lengthExpr) = L
    have hL1 : L = max 1 (min 36000 lengthExpr) := by
      rw [← hL, Nat.max_def, Nat.min_def]
      split_ifs <;> omega
    generalize hashFuncsExpr L = h
    refine ⟨hL1, ?_, by omega, by omega, ?_⟩
    · rw [Nat.min_def]; split_ifs <;> omega
    · split_ifs <;> omega
  · simp only [if_true]
    generalize hashFuncsExpr (if (if 36000 > 36000 then 36000 else 36000) < 1 then 1
      else if 36000 > 36000 then 36000 else 36000) = h
    refine ⟨by decide, ?_, by decide, by decide, ?_⟩
    · rw [Nat.min_def]; split_ifs <;> omega
    · split_ifs <;> omega

/-! ### Fee of a transaction size -/

/-- C10 (as stated, refuted): for size 250 and feePerKb 100001 the code computes
`250*100001/1000 = 25000` (rounded down) and returns 25000, while the exact quotient
250.0025 rounded up and multiplied by 100 is 25100. -/
theorem txFee_rounds_down_first :
    _txFee 1000 100001 250 = 25000 ∧ feeFormula 1000 100001 250 = 25100 ∧
      LWWalletFeeForTxSize 1000 100001 250 ≠ feeFormula 1000 100001 250 := by
  decide

/-- C10 (amended): when no intermediate 64-bit value overflows, the fee is
`max(ceil(n/1000)*TX_FEE_PER_KB, ceil(floor(n*feePerKb/1000)/100)*100)`: the product is
divided by 1000 rounding down before the result is rounded up to a multiple of 100. -/
theorem txFee_eq (TX_FEE_PER_KB feePerKb n : Nat) (h1 : n + 999 < 2 ^ 64)
    (h2 : (n + 999) / 1000 * TX_FEE_PER_KB < 2 ^ 64) (h3 : n * feePerKb < 2 ^ 64) :
    LWWalletFeeForTxSize TX_FEE_PER_KB feePerKb n =
      max ((n + 999) / 1000 * TX_FEE_PER_KB) ((n * feePerKb / 1000 + 99) / 100 * 100) := by
  unfold LWWalletFeeForTxSize _txFee
  rw [Nat.mod_eq_of_lt h1, Nat.mod_eq_of_lt h2, Nat.mod_eq_of_lt h3]
  have h4 : n * feePerKb / 1000 + 99 < 2 ^ 64 := by omega
  rw [Nat.mod_eq_of_lt h4]
  have h5 : (n * feePerKb / 1000 + 99) / 100 * 100 < 2 ^ 64 := by omega
  rw [Nat.mod_eq_of_lt h5]
  simp only
  split <;> omega

/-! ### BIP39 -/

theorem pow2_div_div (A a b : Nat) : A / 2 ^ a / 2 ^ b = A / 2 ^ (a + b) := by
  rw [Nat.div_div_eq_div_mul, ← Nat.pow_add]

theorem pow2_mod_div (A a b : Nat) : A % 2 ^ (a + b) / 2 ^ a = A / 2 ^ a % 2 ^ b := by
  rw [Nat.pow_add, Nat.mod_mul_right_div_self]

theorem pow2_mod_mod (A : Nat) {a b : Nat} (h : b ≤ a) : A % 2 ^ a % 2 ^ b = A % 2 ^ b :=
  Nat.mod_mod_of_dvd A (Nat.pow_dvd_pow 2 h)

theorem pow2_mul_div_le (A : Nat) {a b : Nat} (h : b ≤ a) :
    A * 2 ^ a / 2 ^ b = A * 2 ^ (a - b) := by
  have : 2 ^ a = 2 ^ (a - b) * 2 ^ b := by rw [← Nat.pow_add]; congr 1; omega
  rw [this, ← Nat.mul_assoc, Nat.mul_div_cancel _ (by positivity)]

theorem pow2_mul_div_ge (A : Nat) {a b : Nat} (h : a ≤ b) :
    A * 2 ^ a / 2 ^ b = A / 2 ^ (b - a) := by
  have : 2 ^ b = 2 ^ a * 2 ^ (b - a) := by rw [← Nat.pow_add]; congr 1; omega
  rw [this, ← Nat.div_div_eq_div_mul, Nat.mul_div_cancel _ (by positivity)]

/-- A window of `c` low bits taken after dropping `a` bits of a value reduced to `m` bits
does not see the reduction when it lies inside. -/
theorem pow2_mod_div_mod (A : Nat) {m a c : Nat} (h : a + c ≤ m) :
    A % 2 ^ m / 2 ^ a % 2 ^ c = A / 2 ^ a % 2 ^ c := by
  have hm : m = a + (m - a) := by omega
  rw [hm, pow2_mod_div, pow2_mod_mod _ (by omega)]

theorem beNat_lt (base : Nat) (l : List Nat) (h : ∀ d ∈ l, d < base) :
    beNat base l < base ^ l.length := by
  induction l with
  | nil => simp [beNat]
  | cons d rest ih =>
    have hd : d < base := h d (List.mem_cons_self _ _)
    have hr := ih (fun x hx => h x (List.mem_cons_of_mem _ hx))
    simp only [beNat, List.length_cons, Nat.pow_succ]
    calc d * base ^ rest.length + beNat base rest
        < d * base ^ rest.length + base ^ rest.length := by omega
      _ = (d + 1) * base ^ rest.length := by ring
      _ ≤ base * base ^ rest.length := Nat.mul_le_mul_right _ hd
      _ = base ^ rest.length * base := Nat.mul_comm _ _

theorem beNat_append (base : Nat) (l1 l2 : List Nat) :
    beNat base (l1 ++ l2) = beNat base l1 * base ^ l2.length + beNat base l2 := by
  induction l1 with
  | nil => simp [beNat]
  | cons d rest ih =>
    show d * base ^ (rest ++ l2).length + beNat base (rest ++ l2) = _
    rw [ih, List.length_append, Nat.pow_add]
    simp only [beNat]
    ring

/-- A window of `c` digits starting at digit `o` of a big-endian number. -/
theorem beNat_window (base : Nat) (l : List Nat) (h : ∀ d ∈ l, d < base) (o c : Nat)
    (hoc : o + c ≤ l.length) :
    beNat base ((l.drop o).take c) =
      beNat base l / base ^ (l.length - o - c) % base ^ c := by
  have hsplit : l = l.take o ++ ((l.drop o).take c ++ (l.drop o).drop c) := by
    rw [List.take_append_drop, List.take_append_drop]
  have hlen3 : ((l.drop o).drop c).length = l.length - o - c := by
    rw [List.length_drop, List.length_drop]
  have hlen2 : ((l.drop o).take c).length = c := by
    rw [List.length_take, List.length_drop]; omega
  have hbpos : 0 < base ∨ l = [] := by
    cases l with
    | nil => right; rfl
    | cons d rest => left; have := h d (List.mem_cons_self _ _); omega
  rcases hbpos with hb | hnil
  · have h3 : beNat base ((l.drop o).drop c) < base ^ (l.length - o - c) := by
      rw [← hlen3]
      apply beNat_lt
      intro d hd
      exact h d (List.mem_of_mem_drop (List.mem_of_mem_drop hd))
    have h2 : beNat base ((l.drop o).take c) < base ^ c := by
      have := beNat_lt base ((l.drop o).take c) (fun d hd =>
        h d (List.mem_of_mem_drop (List.mem_of_mem_take hd)))
      rwa [hlen2] at this
    have key : beNat base l =
        beNat base ((l.drop o).drop c) +
          (beNat base (l.take o) * base ^ c + beNat base ((l.drop o).take c)) *
            base ^ (l.length - o - c) := by
      have := congrArg (beNat base) hsplit
      rw [beNat_append, beNat_append, hlen3, List.length_append, hlen2, hlen3,
        Nat.pow_add] at this
      rw [this]; ring
    have hp : 0 < base ^ (l.length - o - c) := by positivity
    rw [key, Nat.add_mul_div_right _ _ hp, Nat.div_eq_of_lt h3, Nat.zero_add,
      Nat.add_comm, Nat.add_mul_mod_self_right, Nat.mod_eq_of_lt h2]
  · subst hnil
    have hc : c = 0 := by
      simp at hoc; exact hoc.2
    subst hc
    simp [beNat]

theorem pow256 (k : Nat) : (256 : Nat) ^ k = 2 ^ (8 * k) := by
  rw [show (256 : Nat) = 2 ^ 8 from rfl, ← Nat.pow_mul]

theorem UInt32GetBE_eq (buf : List Nat) (h : ∀ d ∈ buf, d < 256) (o : Nat)
    (ho : o + 4 ≤ buf.length) :
    UInt32GetBE (buf.drop o) = beNat 256 buf / 2 ^ (8 * (buf.length - o - 4)) % 2 ^ 32 := by
  have hw := beNat_window 256 buf h o 4 ho
  rw [pow256, pow256] at hw
  rw [show 2 ^ 32 = 2 ^ (8 * 4) from rfl, ← hw]
  have hl : (buf.drop o).length = buf.length - o := List.length_drop _ _
  match hd : buf.drop o with
  | [] => rw [hd] at hl; simp at hl; omega
  | [_] => rw [hd] at hl; simp at hl; omega
  | [_, _] => rw [hd] at hl; simp at hl; omega
  | [_, _, _] => rw [hd] at hl; simp at hl; omega
  | a :: b :: c :: d :: rest =>
    simp only [UInt32GetBE, List.getD_cons_zero, List.getD_cons_succ, List.take_succ_cons,
      List.take_zero, beNat, List.length_cons, List.length_nil]
    norm_num
    ring

theorem encodeIndex_eq (buf : List Nat) (h : ∀ d ∈ buf, d < 256) (j : Nat)
    (hj : j * 11 / 8 + 4 ≤ buf.length) :
    encodeIndex buf j = beNat 256 buf / 2 ^ (8 * buf.length - 11 * j - 11) % 2 ^ 11 := by
  unfold encodeIndex BIP39_WORDLIST_COUNT
  rw [UInt32GetBE_eq buf h _ hj, Nat.shiftRight_eq_div_pow, show (2048 : Nat) = 2 ^ 11 from rfl,
    pow2_mod_div_mod _ (by omega), pow2_div_div]
  congr 3
  omega

theorem two_digits (A : Nat) : A / 2 ^ 11 % 2 ^ 11 * 2 ^ 11 + A % 2 ^ 11 = A % 2 ^ 22 := by
  rw [show 2 ^ 22 = 2 ^ 11 * 2 ^ 11 from rfl, Nat.mod_mul]
  ring

theorem and_ff (x : Nat) : x &&& 0xff = x % 2 ^ 8 :=
  Nat.and_pow_two_sub_one_eq_mod x 8

/-- The bytes that the second loop of `LWBIP39Decode` computes, when the indices are the
11-bit digits of a number `Q`. -/
theorem decodeByte_eq (idx : List Nat) (W Q i : Nat)
    (hd : ∀ j, j < W → idx.getD j 0 = Q / 2 ^ (11 * (W - 1 - j)) % 2 ^ 11)
    (hw : i * 8 / 11 < W) :
    decodeByte idx W i = Q * 2 ^ 11 / 2 ^ (11 * W + 3 - 8 * i) % 2 ^ 8 := by
  unfold decodeByte BIP39_WORDLIST_COUNT
  simp only []
  rw [and_ff, Nat.shiftRight_eq_div_pow]
  have hx : idx.getD (i * 8 / 11) 0 =
      Q * 2 ^ 11 / 2 ^ (11 * (W - 1 - i * 8 / 11)) / 2 ^ 11 % 2 ^ 11 := by
    rw [hd _ hw, pow2_div_div, pow2_mul_div_ge _ (by omega), Nat.add_sub_cancel]
  have hy : (if i * 8 / 11 + 1 < W then idx.getD (i * 8 / 11 + 1) 0 else 0) =
      Q * 2 ^ 11 / 2 ^ (11 * (W - 1 - i * 8 / 11)) % 2 ^ 11 := by
    split
    · next h =>
      rw [hd _ h, pow2_mul_div_ge _ (by omega)]
      congr 3
      omega
    · next h =>
      have : W - 1 - i * 8 / 11 = 0 := by omega
      rw [this]
      simp
  rw [hx, hy, show (2048 : Nat) = 2 ^ 11 from rfl, two_digits,
    pow2_mod_div_mod _ (by omega), pow2_div_div]
  congr 3
  omega

theorem getD_eq_window (buf : List Nat) (h : ∀ d ∈ buf, d < 256) (i : Nat)
    (hi : i < buf.length) :
    buf.getD i 0 = beNat 256 buf / 2 ^ (8 * (buf.length - 1 - i)) % 2 ^ 8 := by
  have hw := beNat_window 256 buf h i 1 (by omega)
  rw [pow256, pow256] at hw
  rw [show buf.length - 1 - i = buf.length - i - 1 by omega, show 2 ^ 8 = 2 ^ (8 * 1) from rfl,
    ← hw, List.drop_eq_getElem_cons hi]
  simp [beNat, List.getD_eq_getElem?_getD, List.getElem?_eq_getElem hi]

theorem low_bits_of_shifted (Q a k : Nat) : Q * 2 ^ a % 2 ^ (a + k) / 2 ^ a = Q % 2 ^ k := by
  rw [Nat.pow_add, Nat.mul_comm (2 ^ a) (2 ^ k), Nat.mul_mod_mul_right,
    Nat.mul_div_cancel _ (by positivity)]

theorem encodeIndices_length (sha : List Nat → List Nat) (data : List Nat) :
    (encodeIndices sha data).length = data.length * 3 / 4 := by
  simp [encodeIndices]

theorem buf_bytes (sha : List Nat → List Nat)
    (hsha : ∀ d, (sha d).length = 32 ∧ ∀ b ∈ sha d, b < 256) (data : List Nat)
    (hdata : ∀ b ∈ data, b < 256) :
    (∀ d ∈ data ++ sha data, d < 256) ∧ (data ++ sha data).length = data.length + 32 := by
  refine ⟨?_, by rw [List.length_append, (hsha data).1]⟩
  intro d hd
  rcases List.mem_append.1 hd with h | h
  · exact hdata d h
  · exact (hsha data).2 d h

theorem encodeIndices_getD (sha : List Nat → List Nat)
    (hsha : ∀ d, (sha d).length = 32 ∧ ∀ b ∈ sha d, b < 256) (data : List Nat)
    (hdata : ∀ b ∈ data, b < 256) (k : Nat) (hk : data.length = 4 * k) (hk8 : k ≤ 8) (j : Nat)
    (hj : j < 3 * k) :
    (encodeIndices sha data).getD j 0 =
      beNat 256 (data ++ sha data) / 2 ^ (256 - k) / 2 ^ (11 * (3 * k - 1 - j)) % 2 ^ 11 := by
  obtain ⟨hbuf, hlen⟩ := buf_bytes sha hsha data hdata
  have hW : data.length * 3 / 4 = 3 * k := by omega
  unfold encodeIndices
  rw [List.getD_eq_getElem?_getD, List.getElem?_map, List.getElem?_range (by omega)]
  simp only [Option.map_some', Option.getD_some]
  rw [encodeIndex_eq _ hbuf j (by rw [hlen]; omega), hlen, pow2_div_div]
  congr 3
  omega

theorem decoded_data (sha : List Nat → List Nat)
    (hsha : ∀ d, (sha d).length = 32 ∧ ∀ b ∈ sha d, b < 256) (data : List Nat)
    (hdata : ∀ b ∈ data, b < 256) (k : Nat) (hk : data.length = 4 * k) (hk8 : k ≤ 8) (i : Nat)
    (hi : i < data.length) :
    decodeByte (encodeIndices sha data) (3 * k) i = data.getD i 0 := by
  obtain ⟨hbuf, hlen⟩ := buf_bytes sha hsha data hdata
  rw [decodeByte_eq _ _ _ i (encodeIndices_getD sha hsha data hdata k hk hk8) (by omega),
    pow2_mul_div_ge _ (by omega), pow2_div_div]
  have hget : data.getD i 0 = (data ++ sha data).getD i 0 := by
    rw [List.getD_eq_getElem?_getD, List.getD_eq_getElem?_getD, List.getElem?_append_left hi]
  rw [hget, getD_eq_window _ hbuf i (by rw [hlen]; omega), hlen]
  congr 3
  omega

theorem decoded_checksum (sha : List Nat → List Nat)
    (hsha : ∀ d, (sha d).length = 32 ∧ ∀ b ∈ sha d, b < 256) (data : List Nat)
    (hdata : ∀ b ∈ data, b < 256) (k : Nat) (hk : data.length = 4 * k) (hk1 : 1 ≤ k)
    (hk8 : k ≤ 8) :
    decodeByte (encodeIndices sha data) (3 * k) (4 * k) >>> (8 - k) =
      (sha data).getD 0 0 >>> (8 - k) := by
  obtain ⟨hbuf, hlen⟩ := buf_bytes sha hsha data hdata
  have hp8 : (2 : Nat) ^ 8 = 2 ^ ((8 - k) + k) := by congr 1; omega
  rw [decodeByte_eq _ _ _ (4 * k) (encodeIndices_getD sha hsha data hdata k hk hk8)
    (by omega), Nat.shiftRight_eq_div_pow, Nat.shiftRight_eq_div_pow,
    pow2_mul_div_le _ (by omega)]
  have e1 : 11 - (11 * (3 * k) + 3 - 8 * (4 * k)) = 8 - k := by omega
  rw [e1, hp8, low_bits_of_shifted]
  have hget : (sha data).getD 0 0 = (data ++ sha data).getD (4 * k) 0 := by
    rw [List.getD_eq_getElem?_getD, List.getD_eq_getElem?_getD,
      List.getElem?_append_right (by omega), hk, Nat.sub_self]
  rw [hget, getD_eq_window _ hbuf (4 * k) (by rw [hlen]; omega), hlen, hp8, pow2_mod_div,
    pow2_div_div]
  congr 3
  omega

theorem matchesWord_nil (text : List Char) :
    matchesWord text [] = (match text with
      | [] => true
      | c :: _ => c == ' ') := by
  simp [matchesWord]

theorem matchesWord_cons_cons (c a : Char) (text u : List Char) :
    matchesWord (c :: text) (a :: u) = (a == c && matchesWord text u) := by
  simp only [matchesWord, List.isPrefixOf_cons₂, List.length_cons, List.drop_succ_cons,
    Bool.and_assoc]

theorem matchesWord_nil_cons (a : Char) (u : List Char) : matchesWord [] (a :: u) = false := by
  simp [matchesWord, List.isPrefixOf]

theorem matchesWord_iff (u : List Char) (hu : ' ' ∉ u) :
    ∀ (w t : List Char), ' ' ∉ w → (t = [] ∨ ∃ t', t = ' ' :: t') →
      (matchesWord (w ++ t) u = true ↔ u = w) := by
  induction u with
  | nil =>
    intro w t hw ht
    rw [matchesWord_nil]
    cases w with
    | nil =>
      rcases ht with rfl | ⟨t', rfl⟩ <;> simp
    | cons c w' =>
      have hc : c ≠ ' ' := fun h => hw (by rw [h]; exact List.mem_cons_self _ _)
      simp [hc]
  | cons a u' ih =>
    intro w t hw ht
    have ha : a ≠ ' ' := fun h => hu (by rw [h]; exact List.mem_cons_self _ _)
    have hu' : ' ' ∉ u' := fun h => hu (List.mem_cons_of_mem _ h)
    cases w with
    | nil =>
      rcases ht with rfl | ⟨t', rfl⟩
      · simp [matchesWord_nil_cons]
      · rw [List.nil_append, matchesWord_cons_cons]
        simp [ha]
    | cons c w' =>
      have hw' : ' ' ∉ w' := fun h => hw (List.mem_cons_of_mem _ h)
      rw [List.cons_append, matchesWord_cons_cons, Bool.and_eq_true, ih hu' w' t hw' ht]
      simp

theorem matchesWord_split (u : List Char) :
    ∀ (text : List Char), matchesWord text u = true →
      ∃ t, text = u ++ t ∧ (t = [] ∨ ∃ t', t = ' ' :: t') := by
  induction u with
  | nil =>
    intro text h
    rw [matchesWord_nil] at h
    cases text with
    | nil => exact ⟨[], rfl, Or.inl rfl⟩
    | cons c cs =>
      simp at h
      exact ⟨c :: cs, rfl, Or.inr ⟨cs, by rw [h]⟩⟩
  | cons a u' ih =>
    intro text h
    cases text with
    | nil => rw [matchesWord_nil_cons] at h; cases h
    | cons c cs =>
      rw [matchesWord_cons_cons, Bool.and_eq_true] at h
      obtain ⟨t, ht1, ht2⟩ := ih cs h.2
      have hac : a = c := by simpa using h.1
      exact ⟨t, by rw [hac, ht1]; rfl, ht2⟩

theorem afterSpace_append (w : List Char) (hw : ' ' ∉ w) (t : List Char) :
    afterSpace (w ++ ' ' :: t) = some t := by
  unfold afterSpace
  induction w with
  | nil => simp [List.dropWhile]
  | cons c w' ih =>
    have hc : c ≠ ' ' := fun h => hw (by rw [h]; exact List.mem_cons_self _ _)
    have hw' : ' ' ∉ w' := fun h => hw (List.mem_cons_of_mem _ h)
    rw [List.cons_append, List.dropWhile_cons, if_pos (by simpa using hc)]
    exact ih hw'

theorem afterSpace_none (w : List Char) (hw : ' ' ∉ w) : afterSpace w = none := by
  unfold afterSpace
  induction w with
  | nil => rfl
  | cons c w' ih =>
    have hc : c ≠ ' ' := fun h => hw (by rw [h]; exact List.mem_cons_self _ _)
    have hw' : ' ' ∉ w' := fun h => hw (List.mem_cons_of_mem _ h)
    rw [List.dropWhile_cons, if_pos (by simpa using hc)]
    exact ih hw'

theorem wordIndex_lt {w : List Char} {l : List (List Char)} (h : w ∈ l) :
    wordIndex w l < l.length := by
  induction l with
  | nil => cases h
  | cons u rest ih =>
    rw [wordIndex]
    by_cases huw : u = w
    · rw [if_pos huw]; simp
    · rw [if_neg huw]
      rcases List.mem_cons.1 h with e | e
      · exact absurd e.symm huw
      · have := ih e
        simp only [List.length_cons]
        omega

theorem wordIndex_get {w : List Char} {l : List (List Char)} (h : w ∈ l) :
    l[wordIndex w l]? = some w := by
  induction l with
  | nil => cases h
  | cons u rest ih =>
    rw [wordIndex]
    by_cases huw : u = w
    · rw [if_pos huw, huw]; simp
    · rw [if_neg huw]
      rcases List.mem_cons.1 h with e | e
      · exact absurd e.symm huw
      · rw [List.getElem?_cons_succ]
        exact ih e

theorem wordIndex_of_get {l : List (List Char)} (hnd : l.Nodup) {i : Nat} {w : List Char}
    (h : l[i]? = some w) : wordIndex w l = i := by
  induction l generalizing i with
  | nil => simp at h
  | cons u rest ih =>
    obtain ⟨hu, hrest⟩ := List.nodup_cons.1 hnd
    rw [wordIndex]
    cases i with
    | zero =>
      have : u = w := by simpa using h
      rw [if_pos this]
    | succ i =>
      rw [List.getElem?_cons_succ] at h
      have hmem : w ∈ rest := List.mem_iff_getElem?.2 ⟨i, h⟩
      have huw : u ≠ w := fun e => hu (by rw [e]; exact hmem)
      rw [if_neg huw, ih hrest h]

/-- The inner loop finds the first position of the word that the text starts with. -/
theorem findWord_eq (text w : List Char) :
    ∀ (l : List (List Char)) (i0 : Nat),
      (∀ u ∈ l, (matchesWord text u = true ↔ u = w)) →
      findWord text l i0 = if w ∈ l then some (i0 + wordIndex w l) else none := by
  intro l
  induction l with
  | nil => intro i0 _; simp [findWord]
  | cons u rest ih =>
    intro i0 h
    rw [findWord, wordIndex]
    by_cases hm : matchesWord text u = true
    · have huw : u = w := (h u (List.mem_cons_self _ _)).1 hm
      rw [if_pos hm, if_pos (by rw [huw]; exact List.mem_cons_self _ _), if_pos huw]
      rfl
    · have huw : u ≠ w := fun e => hm ((h u (List.mem_cons_self _ _)).2 e)
      rw [if_neg hm, ih (i0 + 1) (fun v hv => h v (List.mem_cons_of_mem _ hv)), if_neg huw]
      have hmem : w ∈ u :: rest ↔ w ∈ rest := by
        rw [List.mem_cons]
        constructor
        · rintro (e | e)
          · exact absurd e.symm huw
          · exact e
        · exact Or.inr
      by_cases hw : w ∈ rest
      · rw [if_pos hw, if_pos (hmem.2 hw)]
        congr 1
        omega
      · rw [if_neg hw, if_neg (fun e => hw (hmem.1 e))]

theorem decodeLoop_none (wl : List (List Char)) (fuel : Nat) (idx : List Nat) :
    decodeLoop wl fuel none idx = (idx, none) := by
  cases fuel <;> rfl

theorem decodeLoop_some_cons (wl : List (List Char)) (fuel : Nat) (text : List Char)
    (acc : List Nat) (h : text ≠ []) :
    decodeLoop wl (fuel + 1) (some text) acc =
      (match findWord text (wl.take BIP39_WORDLIST_COUNT) 0 with
        | none => (acc, some text)
        | some i => decodeLoop wl fuel (afterSpace text) (acc ++ [i])) := by
  cases text with
  | nil => exact absurd rfl h
  | cons c cs => rfl

theorem intercalate_single (w : List Char) : [' '].intercalate [w] = w := by
  simp [List.intercalate, List.intersperse]

theorem intercalate_cons_cons (w w2 : List Char) (rest : List (List Char)) :
    [' '].intercalate (w :: w2 :: rest) = w ++ ' ' :: [' '].intercalate (w2 :: rest) := by
  simp [List.intercalate, List.intersperse]

theorem wordsAt_cons {wl : List (List Char)} {k : Nat} {rest : List Nat}
    {ws : List (List Char)} (h : wordsAt wl (k :: rest) = some ws) :
    ∃ w ws', ws = w :: ws' ∧ wl[k]? = some w ∧ wordsAt wl rest = some ws' := by
  rw [wordsAt] at h
  cases h1 : wl[k]? with
  | none => simp [h1] at h
  | some w =>
    cases h2 : wordsAt wl rest with
    | none => simp [h1, h2] at h
    | some ws' =>
      simp [h1, h2] at h
      exact ⟨w, ws', h.symm, rfl, rfl⟩

theorem wordsAt_some (wl : List (List Char)) (ks : List Nat) (h : ∀ k ∈ ks, k < wl.length) :
    ∃ ws, wordsAt wl ks = some ws := by
  induction ks with
  | nil => exact ⟨[], rfl⟩
  | cons k rest ih =>
    obtain ⟨ws, hws⟩ := ih (fun x hx => h x (List.mem_cons_of_mem _ hx))
    have hk : k < wl.length := h k (List.mem_cons_self _ _)
    refine ⟨wl[k] :: ws, ?_⟩
    rw [wordsAt, List.getElem?_eq_getElem hk, hws]

/-- The outer loop of `LWBIP39Decode` on a phrase made of list words joined by single
spaces finds the indices of the words and ends with a NULL `word`. -/
theorem decodeLoop_joined (wl : List (List Char)) (hlen : wl.length = 2048)
    (hw : ∀ w ∈ wl, w ≠ [] ∧ ' ' ∉ w) (hnd : wl.Nodup) :
    ∀ (ks : List Nat) (ws : List (List Char)), wordsAt wl ks = some ws → ks ≠ [] →
      ∀ (fuel : Nat) (acc : List Nat), ks.length ≤ fuel →
        decodeLoop wl fuel (some ([' '].intercalate ws)) acc = (acc ++ ks, none) := by
  have htake : wl.take BIP39_WORDLIST_COUNT = wl :=
    List.take_of_length_le (by rw [hlen]; exact Nat.le_refl _)
  intro ks
  induction ks with
  | nil => intro ws _ h; exact absurd rfl h
  | cons k rest ih =>
    intro ws hws _ fuel acc hfuel
    obtain ⟨w, ws', rfl, hk, hrest⟩ := wordsAt_cons hws
    have hwmem : w ∈ wl := List.mem_iff_getElem?.2 ⟨k, hk⟩
    obtain ⟨hwne, hwsp⟩ := hw w hwmem
    obtain ⟨f, rfl⟩ : ∃ f, fuel = f + 1 := ⟨fuel - 1, by simp at hfuel; omega⟩
    have hfind : ∀ t, (t = [] ∨ ∃ t', t = ' ' :: t') →
        findWord (w ++ t) (wl.take BIP39_WORDLIST_COUNT) 0 = some k := by
      intro t ht
      rw [htake, findWord_eq (w ++ t) w wl 0
        (fun u hu => matchesWord_iff u (hw u hu).2 w t hwsp ht), if_pos hwmem,
        wordIndex_of_get hnd hk, Nat.zero_add]
    cases rest with
    | nil =>
      have : ws' = [] := by simpa [wordsAt] using hrest.symm
      subst this
      rw [intercalate_single, decodeLoop_some_cons wl f w acc hwne]
      have := hfind [] (Or.inl rfl)
      rw [List.append_nil] at this
      rw [this]
      simp only
      rw [afterSpace_none w hwsp, decodeLoop_none]
    | cons k2 rest2 =>
      obtain ⟨w2, ws2, rfl, _, _⟩ := wordsAt_cons hrest
      rw [intercalate_cons_cons, decodeLoop_some_cons wl f _ acc (by simp [hwne]),
        hfind _ (Or.inr ⟨_, rfl⟩)]
      simp only
      rw [afterSpace_append w hwsp, ih (w2 :: ws2) hrest (by simp) f (acc ++ [k])
        (by simp at hfuel ⊢; omega)]
      simp

theorem encodeIndices_lt (sha : List Nat → List Nat) (data : List Nat) :
    ∀ k ∈ encodeIndices sha data, k < 2048 := by
  intro k hk
  unfold encodeIndices at hk
  obtain ⟨j, _, rfl⟩ := List.mem_map.1 hk
  unfold encodeIndex BIP39_WORDLIST_COUNT
  exact Nat.mod_lt _ (by norm_num)

theorem decoded_buffer (sha : List Nat → List Nat)
    (hsha : ∀ d, (sha d).length = 32 ∧ ∀ b ∈ sha d, b < 256) (data : List Nat)
    (hdata : ∀ b ∈ data, b < 256) (k : Nat) (hk : data.length = 4 * k) (hk8 : k ≤ 8) :
    (List.range (4 * k)).map (decodeByte (encodeIndices sha data) (3 * k)) = data := by
  apply List.ext_getElem
  · simp [hk]
  · intro i h1 h2
    rw [List.getElem_map, List.getElem_range, decoded_data sha hsha data hdata k hk hk8 i h2,
      List.getD_eq_getElem?_getD, List.getElem?_eq_getElem h2]
    rfl

/-- C8: BIP39 round trip.  For a word list of 2048 pairwise distinct non-empty words
without a space, a SHA-256 that returns 32 bytes, and data of 4, 8, ..., 32 bytes:
`LWBIP39Encode` with a NULL phrase reports a size `n`, with a buffer of that size it
writes a phrase, and `LWBIP39Decode` of that phrase returns the data length and writes
back exactly the data. -/
theorem bip39_roundtrip (LWSHA256 : List Nat → List Nat)
    (hsha : ∀ d, (LWSHA256 d).length = 32 ∧ ∀ b ∈ LWSHA256 d, b < 256)
    (wordList : List (List Char)) (hlen : wordList.length = 2048)
    (hw : ∀ w ∈ wordList, w ≠ [] ∧ ' ' ∉ w) (hnd : wordList.Nodup)
    (data : List Nat) (hdata : ∀ b ∈ data, b < 256) (h4 : data.length % 4 = 0)
    (h1 : 4 ≤ data.length) (h32 : data.length ≤ 32) :
    ∃ n phrase, LWBIP39Encode LWSHA256 none wordList (some data) = some (n, []) ∧
      LWBIP39Encode LWSHA256 (some n) wordList (some data) = some (n, phrase) ∧
      LWBIP39Decode LWSHA256 (some data.length) wordList phrase =
        some (data.length, some data) := by
  obtain ⟨k, hk⟩ : ∃ k, data.length = 4 * k := ⟨data.length / 4, by omega⟩
  have hk1 : 1 ≤ k := by omega
  have hk8 : k ≤ 8 := by omega
  have hil : (encodeIndices LWSHA256 data).length = 3 * k := by
    rw [encodeIndices_length]; omega
  obtain ⟨ws, hws⟩ := wordsAt_some wordList (encodeIndices LWSHA256 data)
    (fun x hx => by rw [hlen]; exact encodeIndices_lt LWSHA256 data x hx)
  have hne : encodeIndices LWSHA256 data ≠ [] := by
    intro h
    rw [h] at hil
    simp at hil
    omega
  have hpre : ¬ ¬ (data.length > 0 ∧ data.length % 4 = 0) := by
    intro h; exact h ⟨by omega, h4⟩
  have hbuf32 : ¬ data.length + 32 < (data.length * 3 / 4 - 1) * 11 / 8 + 4 := by omega
  refine ⟨([' '].intercalate ws).length + 1, [' '].intercalate ws, ?_, ?_, ?_⟩
  · unfold LWBIP39Encode
    simp only [hws]
    rw [if_neg hpre, if_neg hbuf32]
  · unfold LWBIP39Encode
    simp only [hws]
    rw [if_neg hpre, if_neg hbuf32, if_pos (Nat.le_refl _),
      List.take_of_length_le (Nat.le_succ _)]
  · have hloop := decodeLoop_joined wordList hlen hw hnd _ ws hws hne 24 [] (by omega)
    rw [List.nil_append] at hloop
    have hrange : (3 * k * 11 + 7) / 8 = 4 * k + 1 := by omega
    have hbuf := decoded_buffer LWSHA256 hsha data hdata k hk hk8
    have hlast : ((List.range (4 * k + 1)).map
        (decodeByte (encodeIndices LWSHA256 data) (3 * k))).getLastD 0 =
        decodeByte (encodeIndices LWSHA256 data) (3 * k) (4 * k) := by
      rw [List.range_succ, List.map_append]
      simp
    have htake : ((List.range (4 * k + 1)).map
        (decodeByte (encodeIndices LWSHA256 data) (3 * k))).take (4 * k) = data := by
      rw [← List.map_take, List.take_range, Nat.min_eq_left (by omega)]
      exact hbuf
    have hchk := decoded_checksum LWSHA256 hsha data hdata k hk hk1 hk8
    unfold LWBIP39Decode
    rw [if_neg (by rw [hlen]; decide)]
    simp only [hloop, hil, hrange, hlast]
    have h43 : 3 * k * 4 / 3 = 4 * k := by omega
    have h33 : 3 * k / 3 = k := by omega
    have hm3 : 3 * k % 3 = 0 := by omega
    simp only [h43, h33, hm3, htake, hchk, hk]
    simp
    exact htake

theorem pow2048 (k : Nat) : (2048 : Nat) ^ k = 2 ^ (11 * k) := by
  rw [show (2048 : Nat) = 2 ^ 11 from rfl, ← Nat.pow_mul]

theorem getD_eq_window11 (idx : List Nat) (h : ∀ d ∈ idx, d < 2048) (j : Nat)
    (hj : j < idx.length) :
    idx.getD j 0 = beNat 2048 idx / 2 ^ (11 * (idx.length - 1 - j)) % 2 ^ 11 := by
  have hw := beNat_window 2048 idx h j 1 (by omega)
  rw [pow2048, pow2048] at hw
  rw [show idx.length - 1 - j = idx.length - j - 1 by omega, show 2 ^ 11 = 2 ^ (11 * 1) from rfl,
    ← hw, List.drop_eq_getElem_cons hj]
  simp [beNat, List.getD_eq_getElem?_getD, List.getElem?_eq_getElem hj]

/-- What the second loop of `LWBIP39Decode` computes from `3k` indices below 2048: the
first `4k` bytes are the leading `32k` bits of the 11-bit digits, and the top `k` bits of
the last byte are the trailing `k` bits. -/
theorem decoded_of_indices (idx : List Nat) (h : ∀ d ∈ idx, d < 2048) (k : Nat)
    (hW : idx.length = 3 * k) (hk8 : k ≤ 8) :
    ((List.range ((3 * k * 11 + 7) / 8)).map (decodeByte idx (3 * k))).take (4 * k) =
        (List.range (4 * k)).map (fun i => beNat 2048 idx / 2 ^ (k + 8 * (4 * k - 1 - i)) % 256) ∧
      ((List.range ((3 * k * 11 + 7) / 8)).map (decodeByte idx (3 * k))).getLastD 0
        >>> (8 - k) = beNat 2048 idx % 2 ^ k := by
  have hd : ∀ j, j < 3 * k → idx.getD j 0 =
      beNat 2048 idx / 2 ^ (11 * (3 * k - 1 - j)) % 2 ^ 11 := by
    intro j hj
    rw [getD_eq_window11 idx h j (by omega), hW]
  rcases Nat.eq_zero_or_pos k with hk0 | hk1
  · subst hk0
    simp [Nat.mod_one]
  · have hrange : (3 * k * 11 + 7) / 8 = 4 * k + 1 := by omega
    rw [hrange]
    constructor
    · rw [← List.map_take, List.take_range, Nat.min_eq_left (by omega)]
      apply List.map_congr_left
      intro i hi
      have hi' : i < 4 * k := List.mem_range.1 hi
      rw [decodeByte_eq idx (3 * k) _ i hd (by omega), pow2_mul_div_ge _ (by omega)]
      congr 3
      omega
    · rw [List.range_succ, List.map_append]
      simp only [List.map_cons, List.map_nil, List.getLastD_concat]
      rw [decodeByte_eq idx (3 * k) _ (4 * k) hd (by omega), Nat.shiftRight_eq_div_pow,
        pow2_mul_div_le _ (by omega)]
      have e1 : 11 - (11 * (3 * k) + 3 - 8 * (4 * k)) = 8 - k := by omega
      have hp8 : (2 : Nat) ^ 8 = 2 ^ ((8 - k) + k) := by congr 1; omega
      rw [e1, hp8, low_bits_of_shifted]

theorem findWord_some_mem (text : List Char) :
    ∀ (l : List (List Char)) (i0 i : Nat), findWord text l i0 = some i →
      ∃ u ∈ l, matchesWord text u = true := by
  intro l
  induction l with
  | nil => intro i0 i h; simp [findWord] at h
  | cons u rest ih =>
    intro i0 i h
    rw [findWord] at h
    by_cases hm : matchesWord text u = true
    · exact ⟨u, List.mem_cons_self _ _, hm⟩
    · rw [if_neg hm] at h
      obtain ⟨v, hv, hmv⟩ := ih (i0 + 1) i h
      exact ⟨v, List.mem_cons_of_mem _ hv, hmv⟩

theorem decodeLoop_length (wl : List (List Char)) :
    ∀ (fuel : Nat) (word : Option (List Char)) (acc idxs : List Nat)
      (final : Option (List Char)),
      decodeLoop wl fuel word acc = (idxs, final) → idxs.length ≤ acc.length + fuel := by
  intro fuel
  induction fuel with
  | zero =>
    intro word acc idxs final h
    rw [decodeLoop] at h
    cases h
    omega
  | succ f ih =>
    intro word acc idxs final h
    cases word with
    | none => rw [decodeLoop_none] at h; cases h; omega
    | some text =>
      cases text with
      | nil => rw [decodeLoop] at h; cases h; omega
      | cons c cs =>
        rw [decodeLoop] at h
        cases hf : findWord (c :: cs) (wl.take BIP39_WORDLIST_COUNT) 0 with
        | none => rw [hf] at h; cases h; omega
        | some i =>
          rw [hf] at h
          have := ih _ _ _ _ h
          simp at this
          omega

theorem phraseWords_nil : phraseWords [] = [] := by decide

theorem phraseWords_single (u : List Char) (hne : u ≠ []) (hsp : ' ' ∉ u) :
    phraseWords u = [u] := by
  unfold phraseWords List.splitOn
  rw [List.splitOnP_eq_single _ _ (by
    intro x hx h
    have : x = ' ' := by simpa using h
    exact hsp (this ▸ hx))]
  simp [hne]

theorem phraseWords_cons (u t : List Char) (hne : u ≠ []) (hsp : ' ' ∉ u) :
    phraseWords (u ++ ' ' :: t) = u :: phraseWords t := by
  unfold phraseWords List.splitOn
  rw [List.splitOnP_first _ _ (by
    intro x hx h
    have : x = ' ' := by simpa using h
    exact hsp (this ▸ hx)) ' ' (by simp)]
  simp [hne]

/-- When the outer loop of `LWBIP39Decode` ends at the end of the phrase, it has found the
indices of the words of the phrase, and all of them are list words. -/
theorem decodeLoop_words (wl : List (List Char)) (hlen : wl.length = 2048)
    (hw : ∀ w ∈ wl, w ≠ [] ∧ ' ' ∉ w) :
    ∀ (fuel : Nat) (text : List Char) (acc idxs : List Nat) (final : Option (List Char)),
      decodeLoop wl fuel (some text) acc = (idxs, final) →
      (final = none ∨ final = some []) →
      idxs = acc ++ phraseIndices wl text ∧ ∀ w ∈ phraseWords text, w ∈ wl := by
  have htake : wl.take BIP39_WORDLIST_COUNT = wl :=
    List.take_of_length_le (by rw [hlen]; exact Nat.le_refl _)
  have hnil : ∀ acc : List Nat, acc = acc ++ phraseIndices wl [] ∧
      ∀ w ∈ phraseWords [], w ∈ wl := by
    intro acc
    unfold phraseIndices
    rw [phraseWords_nil]
    simp
  intro fuel
  induction fuel with
  | zero =>
    intro text acc idxs final h hfin
    rw [decodeLoop] at h
    cases h
    have : text = [] := by
      rcases hfin with h | h
      · cases h
      · exact Option.some.inj h
    subst this
    exact hnil acc
  | succ f ih =>
    intro text acc idxs final h hfin
    by_cases hte : text = []
    · subst hte
      rw [decodeLoop] at h
      cases h
      exact hnil acc
    · rw [decodeLoop_some_cons wl f text acc hte, htake] at h
      cases hf : findWord text wl 0 with
      | none =>
        rw [hf] at h
        cases h
        rcases hfin with h | h
        · cases h
        · exact absurd (Option.some.inj h) hte
      | some i =>
        rw [hf] at h
        simp only at h
        obtain ⟨u, hu, hmu⟩ := findWord_some_mem text wl 0 i hf
        obtain ⟨hune, husp⟩ := hw u hu
        obtain ⟨t, rfl, ht⟩ := matchesWord_split u text hmu
        have hi : i = wordIndex u wl := by
          have := findWord_eq (u ++ t) u wl 0
            (fun v hv => matchesWord_iff v (hw v hv).2 u t husp ht)
          rw [hf, if_pos hu, Nat.zero_add] at this
          exact Option.some.inj this
        rcases ht with rfl | ⟨t', rfl⟩
        · rw [List.append_nil] at h ⊢
          rw [afterSpace_none u husp, decodeLoop_none] at h
          cases h
          unfold phraseIndices
          rw [phraseWords_single u hune husp]
          simp [hi, hu]
        · rw [afterSpace_append u husp] at h
          obtain ⟨h1, h2⟩ := ih t' (acc ++ [i]) idxs final h hfin
          unfold phraseIndices at h1 ⊢
          rw [phraseWords_cons u t' hune husp]
          refine ⟨?_, ?_⟩
          · rw [h1, hi]; simp
          · intro w hwm
            rcases List.mem_cons.1 hwm with e | e
            · rw [e]; exact hu
            · exact h2 w e

/-- C9: for a word list of 2048 non-empty words without a space, `LWBIP39Decode` returns 0
and copies nothing, and `LWBIP39PhraseIsValid` is false, for every phrase whose number of
words is not a multiple of 3, every phrase with a word that is not in the list, and every
phrase whose trailing checksum bits differ from the leading bits of the SHA-256 of the
data it encodes. -/
theorem bip39_decode_rejects (LWSHA256 : List Nat → List Nat) (wordList : List (List Char))
    (hlen : wordList.length = 2048) (hw : ∀ w ∈ wordList, w ≠ [] ∧ ' ' ∉ w)
    (dataLen : Option Nat) (phrase : List Char)
    (h : (phraseWords phrase).length % 3 ≠ 0 ∨ (∃ w ∈ phraseWords phrase, w ∉ wordList) ∨
      checksumBits wordList phrase ≠ expectedBits LWSHA256 wordList phrase) :
    LWBIP39Decode LWSHA256 dataLen wordList phrase = some (0, none) ∧
      LWBIP39PhraseIsValid LWSHA256 wordList phrase = some false := by
  -- the acceptance test of the code is false
  have hok : ∀ (idxs : List Nat) (final : Option (List Char)),
      decodeLoop wordList 24 (some phrase) [] = (idxs, final) →
      (decide (idxs.length % 3 = 0 ∧ (final = none ∨ final = some [])) &&
        decide (((List.range ((idxs.length * 11 + 7) / 8)).map
            (decodeByte idxs idxs.length)).getLastD 0 >>> (8 - idxs.length / 3) =
          (LWSHA256 (((List.range ((idxs.length * 11 + 7) / 8)).map
            (decodeByte idxs idxs.length)).take (idxs.length * 4 / 3))).getD 0 0
              >>> (8 - idxs.length / 3))) = false := by
    intro idxs final hloop
    by_contra hne
    rw [Bool.not_eq_false, Bool.and_eq_true, decide_eq_true_eq, decide_eq_true_eq] at hne
    obtain ⟨⟨hm3, hfin⟩, hchk⟩ := hne
    obtain ⟨hidx, hmem⟩ := decodeLoop_words wordList hlen hw 24 phrase [] idxs final hloop hfin
    rw [List.nil_append] at hidx
    have hcount : idxs.length = (phraseWords phrase).length := by
      rw [hidx]; simp [phraseIndices]
    rcases h with h | ⟨w, hw1, hw2⟩ | h
    · exact h (by rw [← hcount]; exact hm3)
    · exact hw2 (hmem w hw1)
    · apply h
      have hlt : ∀ d ∈ idxs, d < 2048 := by
        intro d hd
        rw [hidx] at hd
        unfold phraseIndices at hd
        obtain ⟨w, hwm, rfl⟩ := List.mem_map.1 hd
        rw [← hlen]
        exact wordIndex_lt (hmem w hwm)
      have hle := decodeLoop_length wordList 24 (some phrase) [] idxs final hloop
      simp at hle
      obtain ⟨k, hk⟩ : ∃ k, idxs.length = 3 * k := ⟨idxs.length / 3, by omega⟩
      obtain ⟨d1, d2⟩ := decoded_of_indices idxs hlt k hk (by omega)
      rw [hk, show 3 * k * 4 / 3 = 4 * k by omega, show 3 * k / 3 = k by omega, d1, d2,
        Nat.shiftRight_eq_div_pow] at hchk
      unfold checksumBits expectedBits phraseData
      simp only []
      rw [← hidx, hk, show 3 * k / 3 = k by omega]
      exact hchk
  cases hres : decodeLoop wordList 24 (some phrase) [] with
  | mk idxs final =>
    have hok' := hok idxs final hres
    have hdec : ∀ dl, LWBIP39Decode LWSHA256 dl wordList phrase = some (0, none) := by
      intro dl
      unfold LWBIP39Decode
      rw [if_neg (by rw [hlen]; decide)]
      simp only [hres, hok']
      cases dl <;> simp
    refine ⟨hdec dataLen, ?_⟩
    unfold LWBIP39PhraseIsValid
    rw [hdec none]
    rfl

/-! ### Concrete instances -/

theorem reached_addAll {α : Type} [DecidableEq α] (hash : α → Nat) (eq : α → α → Bool) :
    ∀ (l : List α) (s s1 : LWSet α), Reached hash eq s → addAll hash eq s l = some s1 →
      Reached hash eq s1 := by
  intro l
  induction l with
  | nil =>
    intro s s1 hr h
    rw [addAll] at h
    cases h
    exact hr
  | cons x rest ih =>
    intro s s1 hr h
    rw [addAll] at h
    cases hadd : LWSetAdd hash eq s x with
    | none => rw [hadd] at h; cases h
    | some p =>
      obtain ⟨r, s2⟩ := p
      rw [hadd] at h
      exact ih s2 s1 (Reached.add s s2 x r hr hadd) h

theorem sampleSet_reached : Reached idHash idEq sampleSet :=
  reached_addAll idHash idEq [1, 8, 15] (LWSetNew 3) sampleSet (Reached.new 3) (by decide)

theorem sampleFilter_valid : sampleFilter.Valid :=
  ⟨rfl, by decide, by decide, by decide, by decide, by decide⟩

theorem unaryWords_length : unaryWords.length = 2048 := by
  simp [unaryWords]

theorem unaryWords_ok : ∀ w ∈ unaryWords, w ≠ [] ∧ ' ' ∉ w := by
  intro w hw
  unfold unaryWords at hw
  obtain ⟨i, _, rfl⟩ := List.mem_map.1 hw
  constructor
  · simp [List.replicate_succ]
  · intro h
    have := List.eq_of_mem_replicate h
    revert this
    decide

theorem unaryWords_nodup : unaryWords.Nodup := by
  unfold unaryWords
  apply List.Nodup.map _ (List.nodup_range 2048)
  intro i j h
  have := congrArg List.length h
  simpa using this

theorem zeroSha_ok : ∀ d, (zeroSha d).length = 32 ∧ ∀ b ∈ zeroSha d, b < 256 := by
  intro d
  constructor
  · simp [zeroSha]
  · intro b hb
    have := List.eq_of_mem_replicate hb
    omega

/-! ### The theorems at concrete inputs -/

/-- C1 at a concrete input: adding 22, whose hash collides with the three stored items, to
the sample set. -/
theorem LWSetAdd_contract_witness :
    HashEq idHash idEq ∧ Reached idHash idEq sampleSet ∧ 0 < sampleSet.size ∧
      sampleSet.size < 3914111041 ∧
      ∃ r s1, LWSetAdd idHash idEq sampleSet 22 = some (r, s1) ∧
        LWSetGet idHash idEq sampleSet 22 = some r ∧
        (∀ a, r = some a ↔ (some a ∈ sampleSet.table ∧ same idEq a 22)) ∧
        LWSetGet idHash idEq s1 22 = some (some 22) ∧
        LWSetCount s1 = (if r = none then LWSetCount sampleSet + 1 else LWSetCount sampleSet) ∧
        ∀ y, ¬ same idEq y 22 → LWSetGet idHash idEq s1 y = LWSetGet idHash idEq sampleSet y :=
  ⟨idHashEq, sampleSet_reached, by decide, by decide,
    LWSetAdd_contract idHash idEq idHashEq sampleSet sampleSet_reached (by decide)
      (Or.inl (by decide)) 22⟩

/-- C2 at a concrete input: removing 1, the head of a run of three colliding items, from
the sample set. -/
theorem LWSetRemove_contract_witness :
    HashEq idHash idEq ∧ Reached idHash idEq sampleSet ∧ 0 < sampleSet.size ∧
      ∃ r s1, LWSetRemove idHash idEq sampleSet 1 = some (r, s1) ∧
        (∀ a, r = some a ↔ (some a ∈ sampleSet.table ∧ same idEq a 1)) ∧
        LWSetContains idHash idEq s1 1 = some false ∧
        (r ≠ none → LWSetCount s1 + 1 = LWSetCount sampleSet) ∧
        (r = none → LWSetCount s1 = LWSetCount sampleSet) ∧
        ∀ y, some y ∈ sampleSet.table → ¬ same idEq y 1 →
          LWSetGet idHash idEq s1 y = some (some y) :=
  ⟨idHashEq, sampleSet_reached, by decide,
    LWSetRemove_contract idHash idEq idHashEq sampleSet sampleSet_reached (by decide) 1⟩

/-- C4 at a concrete input: the iteration of the sample set. -/
theorem LWSetIterate_enumerates_witness :
    HashEq idHash idEq ∧ Reached idHash idEq sampleSet ∧
      ∃ items, iterateAll idHash idEq sampleSet = some items ∧
        items = sampleSet.table.reduceOption ∧
        items.Nodup ∧
        (∀ a, a ∈ items ↔ some a ∈ sampleSet.table) ∧
        items.length = LWSetCount sampleSet :=
  ⟨idHashEq, sampleSet_reached,
    LWSetIterate_enumerates idHash idEq idHashEq sampleSet sampleSet_reached⟩

/-- C5 at a concrete input: four inserts, one with NULL data, into the sample filter. -/
theorem bloom_no_false_negatives_witness :
    sampleFilter.Valid ∧ 1 ≤ sampleFilter.length ∧
      some [5, 6] ∈ [some [1], none, some [5, 6], some []] ∧
      ∃ g, insertAll sampleMurmur sampleFilter [some [1], none, some [5, 6], some []] = some g ∧
        LWBloomFilterContainsData sampleMurmur g (some [5, 6]) = some true ∧
        bitsKept sampleFilter.filter g.filter :=
  ⟨sampleFilter_valid, by decide, by decide,
    bloom_no_false_negatives sampleMurmur sampleFilter sampleFilter_valid (by decide)
      [some [1], none, some [5, 6], some []] [5, 6] (by decide)⟩

/-- C6 at a concrete input: the sample filter. -/
theorem bloom_serialize_parse_roundtrip_witness :
    sampleFilter.Valid ∧ sampleFilter.length ≤ 36000 ∧
      ∃ n, LWBloomFilterSerialize sampleFilter none = some (n, none) ∧
        ∀ buf : List Nat, buf.length = n →
          LWBloomFilterSerialize sampleFilter (some buf) =
            some (n, some (LWVarIntSet sampleFilter.length ++ sampleFilter.filter ++
              UInt32SetLE sampleFilter.hashFuncs ++ UInt32SetLE sampleFilter.tweak ++
              [sampleFilter.flags])) ∧
          ∃ g, LWBloomFilterParse (some (LWVarIntSet sampleFilter.length ++
              sampleFilter.filter ++ UInt32SetLE sampleFilter.hashFuncs ++
              UInt32SetLE sampleFilter.tweak ++ [sampleFilter.flags])) = some g ∧
            g.length = sampleFilter.length ∧ g.filter = sampleFilter.filter ∧
            g.hashFuncs = sampleFilter.hashFuncs ∧ g.tweak = sampleFilter.tweak ∧
            g.flags = sampleFilter.flags :=
  ⟨sampleFilter_valid, by decide,
    bloom_serialize_parse_roundtrip sampleFilter sampleFilter_valid (by decide)⟩

/-- C8 at a concrete input: four bytes of data and the word list `a`, `aa`, ... -/
theorem bip39_roundtrip_witness :
    unaryWords.length = 2048 ∧ unaryWords.Nodup ∧
      ∃ n phrase, LWBIP39Encode zeroSha none unaryWords (some [1, 2, 3, 4]) = some (n, []) ∧
        LWBIP39Encode zeroSha (some n) unaryWords (some [1, 2, 3, 4]) = some (n, phrase) ∧
        LWBIP39Decode zeroSha (some [1, 2, 3, 4].length) unaryWords phrase =
          some ([1, 2, 3, 4].length, some [1, 2, 3, 4]) :=
  ⟨unaryWords_length, unaryWords_nodup,
    bip39_roundtrip zeroSha zeroSha_ok unaryWords unaryWords_length unaryWords_ok
      unaryWords_nodup [1, 2, 3, 4] (by decide) (by decide) (by decide) (by decide)⟩

/-- C9 at a concrete input: a phrase of two words. -/
theorem bip39_decode_rejects_witness :
    unaryWords.length = 2048 ∧ (phraseWords ['a', ' ', 'a', 'a']).length % 3 ≠ 0 ∧
      LWBIP39Decode zeroSha (some 32) unaryWords ['a', ' ', 'a', 'a'] = some (0, none) ∧
      LWBIP39PhraseIsValid zeroSha unaryWords ['a', ' ', 'a', 'a'] = some false :=
  ⟨unaryWords_length, by decide,
    bip39_decode_rejects zeroSha unaryWords unaryWords_length unaryWords_ok (some 32)
      ['a', ' ', 'a', 'a'] (Or.inl (by decide))⟩

/-- C10 at a concrete input: size 250 and feePerKb 100001. -/
theorem txFee_eq_witness :
    250 + 999 < 2 ^ 64 ∧ 250 * 100001 < 2 ^ 64 ∧
      LWWalletFeeForTxSize 1000 100001 250 =
        max ((250 + 999) / 1000 * 1000) ((250 * 100001 / 1000 + 99) / 100 * 100) :=
  ⟨by norm_num, by norm_num,
    txFee_eq 1000 100001 250 (by norm_num) (by norm_num) (by norm_num)⟩

/-! ## Theorems: LWWallet.c -/

/-! ### Wallet: the recomputation of the derived state -/

theorem mem_keyAdd {κ : Type} [DecidableEq κ] {l : List κ} {k a : κ} :
    a ∈ keyAdd l k ↔ a ∈ l ∨ a = k := by
  unfold keyAdd
  split
  · constructor
    · intro h; exact Or.inl h
    · rintro (h | h)
      · exact h
      · rw [h]; assumption
  · simp

theorem mem_foldl_keyAdd {κ ι : Type} [DecidableEq κ] (f : ι → κ) (xs : List ι) :
    ∀ (l : List κ) (a : κ), a ∈ xs.foldl (fun acc i => keyAdd acc (f i)) l ↔
      a ∈ l ∨ a ∈ xs.map f := by
  induction xs with
  | nil => intro l a; simp
  | cons x rest ih =>
    intro l a
    rw [List.foldl_cons, ih, mem_keyAdd, List.map_cons, List.mem_cons]
    tauto

theorem mem_foldl_keyAdd_id {κ : Type} [DecidableEq κ] (xs : List κ) :
    ∀ (l : List κ) (a : κ), a ∈ xs.foldl keyAdd l ↔ a ∈ l ∨ a ∈ xs := by
  induction xs with
  | nil => intro l a; simp
  | cons x rest ih =>
    intro l a
    rw [List.foldl_cons, ih, mem_keyAdd, List.mem_cons]
    tauto

theorem keyAdd_nodup {κ : Type} [DecidableEq κ] {l : List κ} (k : κ) (h : l.Nodup) :
    (keyAdd l k).Nodup := by
  unfold keyAdd
  split
  · exact h
  · next hk =>
    rw [List.nodup_append]
    refine ⟨h, List.nodup_singleton k, ?_⟩
    intro a ha hb
    rw [List.mem_singleton] at hb
    rw [hb] at ha
    exact hk ha

theorem utxoSum_append (allTx : List LWTransaction) (us vs : List LWUTXO) :
    utxoSum allTx (us ++ vs) = utxoSum allTx us + utxoSum allTx vs := by
  unfold utxoSum
  rw [List.map_append, List.sum_append]

theorem utxoAmount_of_outputAt {allTx : List LWTransaction} {o : LWUTXO} {out : LWTxOutput}
    (h : outputAt allTx o = some out) : utxoAmount allTx o = out.amount := by
  unfold utxoAmount
  rw [h]
  rfl

theorem Good.sound {l : List LWTransaction} {w : LWWallet} {b : Nat} (h : Good l w b) :
    Sound w b := ⟨h.bal, h.valid⟩

theorem Frame.refl (w : LWWallet) : Frame w w := ⟨rfl, rfl, rfl, rfl, rfl, rfl, rfl⟩

theorem Frame.trans {w w1 w2 : LWWallet} (h1 : Frame w w1) (h2 : Frame w1 w2) : Frame w w2 :=
  ⟨h2.transactions.trans h1.transactions, h2.allTx.trans h1.allTx,
    h2.allAddrs.trans h1.allAddrs, h2.internalChain.trans h1.internalChain,
    h2.externalChain.trans h1.externalChain, h2.feePerKb.trans h1.feePerKb,
    h2.blockHeight.trans h1.blockHeight⟩

theorem outputsLoop_spec (tx : LWTransaction) :
    ∀ (rest : List LWTxOutput) (j : Nat) (w : LWWallet) (b : Nat),
      (∀ (k : Nat) out, rest[k]? = some out → tx.outputs[j + k]? = some out) →
      txGet w.allTx tx.txHash = some tx → Sound w b →
      ∃ used utxos,
        (outputsLoop tx rest j (w, b)).1 = { w with usedAddrs := used, utxos := utxos } ∧
        Sound (outputsLoop tx rest j (w, b)).1 (outputsLoop tx rest j (w, b)).2 := by
  intro rest
  induction rest with
  | nil =>
    intro j w b _ _ hs
    exact ⟨w.usedAddrs, w.utxos, rfl, hs⟩
  | cons o rest ih =>
    intro j w b hsuf htx hs
    have hsuf1 : ∀ (k : Nat) out, rest[k]? = some out → tx.outputs[j + 1 + k]? = some out := by
      intro k out hk
      have := hsuf (k + 1) out (by simpa using hk)
      rw [show j + 1 + k = j + (k + 1) by omega]
      exact this
    have ho : tx.outputs[j]? = some o := hsuf 0 o (by simp)
    unfold outputsLoop
    by_cases hne : o.address ≠ ""
    · rw [if_pos hne]
      by_cases hin : o.address ∈ w.allAddrs
      · simp only [hin, if_true]
        have hout : outputAt w.allTx { hash := tx.txHash, n := j } = some o := by
          unfold outputAt
          rw [htx]
          exact ho
        obtain ⟨used, utxos, h1, h2⟩ := ih (j + 1)
          { w with usedAddrs := keyAdd w.usedAddrs o.address,
                   utxos := w.utxos ++ [{ hash := tx.txHash, n := j }] }
          (add64 b o.amount) hsuf1 htx
          (by
            refine ⟨?_, ?_⟩
            · simp only [utxoSum_append]
              have : utxoSum w.allTx [{ hash := tx.txHash, n := j }] = o.amount := by
                unfold utxoSum
                simp [utxoAmount_of_outputAt hout]
              rw [this, hs.bal]
              unfold add64
              omega
            · intro u hu
              rcases List.mem_append.1 hu with hu | hu
              · exact hs.valid u hu
              · rw [List.mem_singleton] at hu
                rw [hu]
                exact ⟨o, hout, hin⟩)
        exact ⟨used, utxos, h1, h2⟩
      · simp only [hin, if_false]
        obtain ⟨used, utxos, h1, h2⟩ := ih (j + 1)
          { w with usedAddrs := keyAdd w.usedAddrs o.address } b hsuf1 htx ⟨hs.bal, hs.valid⟩
        exact ⟨used, utxos, h1, h2⟩
    · rw [if_neg hne]
      exact ih (j + 1) w b hsuf1 htx hs

theorem spentScan_spec (w : LWWallet) :
    ∀ (us : List LWUTXO) (b : Nat),
      (∀ o ∈ us, ∃ out, outputAt w.allTx o = some out) →
      ∃ us1 b1, spentScan w us b = some (us1, b1) ∧
        us1 = us.filter (fun o => decide (o ∉ w.spentOutputs)) ∧
        (b1 + utxoSum w.allTx us) % 2 ^ 64 = (b + utxoSum w.allTx us1) % 2 ^ 64 ∧
        (b < 2 ^ 64 → b1 < 2 ^ 64) := by
  intro us
  induction us with
  | nil =>
    intro b _
    exact ⟨[], b, rfl, rfl, rfl, fun h => h⟩
  | cons o rest ih =>
    intro b hv
    obtain ⟨us1, b1, h1, h2, h3, h4⟩ := ih b (fun u hu => hv u (List.mem_cons_of_mem _ hu))
    obtain ⟨out, hout⟩ := hv o (List.mem_cons_self _ _)
    have hamt := utxoAmount_of_outputAt hout
    have hsum : utxoSum w.allTx (o :: rest) = out.amount + utxoSum w.allTx rest := by
      unfold utxoSum
      rw [List.map_cons, List.sum_cons, hamt]
    unfold spentScan
    rw [h1]
    simp only
    by_cases hsp : o ∈ w.spentOutputs
    · rw [if_pos hsp]
      unfold outputAt at hout
      cases hg : txGet w.allTx o.hash with
      | none => rw [hg] at hout; cases hout
      | some t =>
        rw [hg] at hout
        have hout1 : t.outputs[o.n]? = some out := hout
        simp only [hout1]
        refine ⟨us1, sub64 b1 out.amount, rfl, ?_, ?_, ?_⟩
        · rw [h2, List.filter_cons]
          simp [hsp]
        · rw [hsum]
          unfold sub64
          omega
        · intro _
          unfold sub64
          exact Nat.mod_lt _ (by norm_num)
    · rw [if_neg hsp]
      refine ⟨o :: us1, b1, rfl, ?_, ?_, h4⟩
      · rw [h2, List.filter_cons]
        simp [hsp]
      · rw [hsum]
        have : utxoSum w.allTx (o :: us1) = out.amount + utxoSum w.allTx us1 := by
          unfold utxoSum
          rw [List.map_cons, List.sum_cons, hamt]
        rw [this]
        omega

theorem outputsLoop_hist (tx : LWTransaction) :
    ∀ (rest : List LWTxOutput) (j : Nat) (s : LWWallet × Nat),
      (outputsLoop tx rest j s).1.balanceHist = s.1.balanceHist ∧
        (outputsLoop tx rest j s).1.transactions = s.1.transactions := by
  intro rest
  induction rest with
  | nil => intro j s; exact ⟨rfl, rfl⟩
  | cons o rest ih =>
    intro j s
    obtain ⟨w, b⟩ := s
    unfold outputsLoop
    simp only
    split_ifs
    · exact ih _ _
    · exact ih _ _
    · exact ih _ _

theorem updateStep_spec (env : Env) (now : Nat) (l : List LWTransaction)
    (s : LWWallet × Nat × Nat) (tx : LWTransaction) (hg : Good l s.1 s.2.1) (hl : tx ∈ l)
    (htx : txGet s.1.allTx tx.txHash = some tx) :
    ∃ s1, updateStep env now s tx = some s1 ∧ Good l s1.1 s1.2.1 ∧ Frame s.1 s1.1 ∧
      s1.1.balanceHist.length = s.1.balanceHist.length + 1 := by
  obtain ⟨w, b, p⟩ := s
  simp only at hg htx
  unfold updateStep
  simp only
  by_cases h1 : tx.blockHeight = TX_UNCONFIRMED ∧ inputsInvalid w tx = true
  · rw [if_pos h1]
    refine ⟨_, rfl, ⟨hg.bal, hg.valid, hg.spent⟩, ⟨rfl, rfl, rfl, rfl, rfl, rfl, rfl⟩, ?_⟩
    simp
  · rw [if_neg h1]
    by_cases h2 : tx.blockHeight = TX_UNCONFIRMED ∧
        checkPending env now (spendInputs w tx) tx = true
    · rw [if_pos h2]
      refine ⟨_, rfl, ⟨hg.bal, hg.valid, ?_⟩, ⟨rfl, rfl, rfl, rfl, rfl, rfl, rfl⟩, ?_⟩
      · intro o ho hsp
        simp only [spendInputs] at ho hsp ⊢
        rcases (mem_foldl_keyAdd LWTxInput.outpoint tx.inputs w.spentOutputs o).1 hsp with h | h
        · obtain ⟨t, ht, hp, hi⟩ := hg.spent o ho h
          exact ⟨t, ht, mem_keyAdd.2 (Or.inl hp), hi⟩
        · exact ⟨tx, hl, mem_keyAdd.2 (Or.inr rfl), h⟩
      · simp [spendInputs]
    · rw [if_neg h2]
      obtain ⟨used, utxos, e1, hs1⟩ := outputsLoop_spec tx tx.outputs 0 (spendInputs w tx) b
        (fun k out hk => by rw [Nat.zero_add]; exact hk) htx ⟨hg.bal, hg.valid⟩
      generalize outputsLoop tx tx.outputs 0 (spendInputs w tx, b) = r at e1 hs1
      obtain ⟨w2, b2⟩ := r
      simp only at e1 hs1 ⊢
      obtain ⟨us1, b1, e2, e3, e4, e5⟩ := spentScan_spec w2 w2.utxos b2
        (fun o ho => by obtain ⟨out, h, _⟩ := hs1.valid o ho; exact ⟨out, h⟩)
      rw [e2]
      simp only
      have hb2 : b2 < 2 ^ 64 := by
        rw [hs1.bal]
        exact Nat.mod_lt _ (by norm_num)
      have hb1 := e5 hb2
      refine ⟨_, rfl, ⟨?_, ?_, ?_⟩, ?_, ?_⟩
      · simp only
        have := hs1.bal
        omega
      · intro o ho
        simp only at ho ⊢
        rw [e3] at ho
        exact hs1.valid o (List.mem_filter.1 ho).1
      · intro o ho hsp
        simp only at ho hsp
        rw [e3] at ho
        have := (List.mem_filter.1 ho).2
        simp only [decide_eq_true_eq] at this
        exact absurd hsp this
      · rw [e1]
        exact ⟨rfl, rfl, rfl, rfl, rfl, rfl, rfl⟩
      · rw [e1]
        simp [spendInputs]

theorem updateLoop_spec (env : Env) (now : Nat) (l : List LWTransaction) :
    ∀ (rest : List LWTransaction) (s : LWWallet × Nat × Nat),
      (∀ t ∈ rest, t ∈ l) → (∀ t ∈ rest, txGet s.1.allTx t.txHash = some t) →
      Good l s.1 s.2.1 →
      ∃ s1, updateLoop env now rest s = some s1 ∧ Good l s1.1 s1.2.1 ∧ Frame s.1 s1.1 ∧
        s1.1.balanceHist.length = s.1.balanceHist.length + rest.length := by
  intro rest
  induction rest with
  | nil =>
    intro s _ _ hg
    exact ⟨s, rfl, hg, Frame.refl _, rfl⟩
  | cons tx rest ih =>
    intro s hl hx hg
    obtain ⟨s1, e1, g1, f1, n1⟩ := updateStep_spec env now l s tx hg
      (hl tx (List.mem_cons_self _ _)) (hx tx (List.mem_cons_self _ _))
    obtain ⟨s2, e2, g2, f2, n2⟩ := ih s1 (fun t ht => hl t (List.mem_cons_of_mem _ ht))
      (fun t ht => by rw [f1.allTx]; exact hx t (List.mem_cons_of_mem _ ht)) g1
    refine ⟨s2, ?_, g2, f1.trans f2, ?_⟩
    · rw [updateLoop, e1]
      exact e2
    · rw [n2, n1, List.length_cons]
      omega

theorem updateLoop_hist (env : Env) (now : Nat) :
    ∀ (rest : List LWTransaction) (s s1 : LWWallet × Nat × Nat),
      updateLoop env now rest s = some s1 →
      s1.1.balanceHist.length = s.1.balanceHist.length + rest.length ∧
        s1.1.transactions = s.1.transactions := by
  intro rest
  induction rest with
  | nil =>
    intro s s1 h
    rw [updateLoop] at h
    cases h
    exact ⟨rfl, rfl⟩
  | cons tx rest ih =>
    intro s s1 h
    rw [updateLoop] at h
    cases hs : updateStep env now s tx with
    | none => rw [hs] at h; cases h
    | some s2 =>
      rw [hs] at h
      obtain ⟨a, b⟩ := ih s2 s1 h
      have key : s2.1.balanceHist.length = s.1.balanceHist.length + 1 ∧
          s2.1.transactions = s.1.transactions := by
        obtain ⟨w, bal, p⟩ := s
        unfold updateStep at hs
        simp only at hs
        split at hs
        · cases hs; simp
        · split at hs
          · cases hs; simp [spendInputs]
          · split at hs
            · cases hs
            · next us b3 _ =>
              cases hs
              have := outputsLoop_hist tx tx.outputs 0 (spendInputs w tx, bal)
              simp only at this ⊢
              rw [List.length_append, this.1, this.2]
              simp [spendInputs]
      rw [a, b, key.1, key.2, List.length_cons]
      exact ⟨by omega, rfl⟩

theorem updateBalance_spec (env : Env) (now : Nat) (w : LWWallet) (hl : ListedInAllTx w) :
    ∃ w1, _LWWalletUpdateBalance env now w = some w1 ∧ Frame w w1 ∧
      Good w1.transactions w1 w1.balance ∧
      w1.balanceHist.length = w1.transactions.length := by
  obtain ⟨s1, e1, g1, f1, n1⟩ := updateLoop_spec env now w.transactions w.transactions
    (cleared w, 0, 0) (fun t ht => ht) hl
    ⟨by simp [cleared, utxoSum], by simp [cleared], by simp [cleared]⟩
  obtain ⟨w1, b1, p1⟩ := s1
  have hlen : w1.balanceHist.length = w1.transactions.length := by
    simp only at n1 f1
    rw [n1, f1.transactions]
    simp [cleared]
  refine ⟨{ w1 with balance := b1 }, ?_, ?_, ?_, hlen⟩
  · unfold _LWWalletUpdateBalance
    rw [e1]
    simp only
    rw [if_pos hlen]
  · have := f1
    simp only [cleared] at this
    exact ⟨this.transactions, this.allTx, this.allAddrs, this.internalChain,
      this.externalChain, this.feePerKb, this.blockHeight⟩
  · simp only at g1
    have ht : w1.transactions = w.transactions := f1.transactions
    exact ⟨g1.bal, g1.valid, by rw [ht]; exact g1.spent⟩

/-! ### Wallet: the set `allTx` and the ordered list -/

theorem txGet_some {l : List LWTransaction} {h : Nat} {t : LWTransaction}
    (e : txGet l h = some t) : t.txHash = h ∧ t ∈ l := by
  unfold txGet at e
  have h1 := List.find?_some e
  have h2 := List.mem_of_find?_eq_some e
  simp only [beq_iff_eq] at h1
  exact ⟨h1, h2⟩

theorem txGet_none {l : List LWTransaction} {h : Nat} :
    txGet l h = none ↔ ∀ t ∈ l, t.txHash ≠ h := by
  unfold txGet
  rw [List.find?_eq_none]
  simp

theorem txContains_false {l : List LWTransaction} {h : Nat} :
    txContains l h = false ↔ txGet l h = none := by
  unfold txContains
  cases txGet l h <;> simp

theorem txGet_txAdd_self (l : List LWTransaction) (tx : LWTransaction) :
    txGet (txAdd l tx) tx.txHash = some tx := by
  induction l with
  | nil => simp [txAdd, txGet]
  | cons t rest ih =>
    unfold txAdd
    by_cases h : t.txHash = tx.txHash
    · rw [if_pos h]
      simp [txGet]
    · rw [if_neg h]
      unfold txGet at ih ⊢
      rw [List.find?_cons_of_neg _ (by simpa using h)]
      exact ih

theorem txGet_txAdd_ne (l : List LWTransaction) (tx : LWTransaction) {h : Nat}
    (hne : h ≠ tx.txHash) : txGet (txAdd l tx) h = txGet l h := by
  induction l with
  | nil =>
    simp only [txAdd, txGet]
    rw [List.find?_cons_of_neg _ (by simpa using fun e => hne e.symm)]
  | cons t rest ih =>
    unfold txAdd
    by_cases h1 : t.txHash = tx.txHash
    · rw [if_pos h1]
      unfold txGet
      rw [List.find?_cons_of_neg _ (by simpa using fun e => hne e.symm),
        List.find?_cons_of_neg _ (by simpa using fun e => hne (h1 ▸ e.symm))]
    · rw [if_neg h1]
      unfold txGet at ih ⊢
      by_cases h2 : t.txHash = h
      · rw [List.find?_cons_of_pos _ (by simpa using h2),
          List.find?_cons_of_pos _ (by simpa using h2)]
      · rw [List.find?_cons_of_neg _ (by simpa using h2),
          List.find?_cons_of_neg _ (by simpa using h2)]
        exact ih

theorem txGet_txRemove_ne (l : List LWTransaction) {h k : Nat} (hne : h ≠ k) :
    txGet (txRemove l k) h = txGet l h := by
  unfold txRemove txGet
  induction l with
  | nil => rfl
  | cons t rest ih =>
    by_cases h1 : t.txHash = k
    · rw [List.filter_cons_of_neg (by simpa using h1),
        List.find?_cons_of_neg _ (by simpa using fun e => hne (e.symm.trans h1)), ih]
    · rw [List.filter_cons_of_pos (by simpa using h1)]
      by_cases h2 : t.txHash = h
      · rw [List.find?_cons_of_pos _ (by simpa using h2),
          List.find?_cons_of_pos _ (by simpa using h2)]
      · rw [List.find?_cons_of_neg _ (by simpa using h2),
          List.find?_cons_of_neg _ (by simpa using h2), ih]

theorem txGet_txRemove_self (l : List LWTransaction) (k : Nat) :
    txGet (txRemove l k) k = none := by
  rw [txGet_none]
  intro t ht
  unfold txRemove at ht
  have := (List.mem_filter.1 ht).2
  simpa using this

theorem txRemove_txAdd (l : List LWTransaction) (tx : LWTransaction)
    (h : txGet l tx.txHash = none) : txRemove (txAdd l tx) tx.txHash = l := by
  rw [txGet_none] at h
  induction l with
  | nil => simp [txAdd, txRemove]
  | cons t rest ih =>
    have h1 : t.txHash ≠ tx.txHash := h t (List.mem_cons_self _ _)
    unfold txAdd
    rw [if_neg h1]
    unfold txRemove at ih ⊢
    rw [List.filter_cons_of_pos (by simpa using h1), ih (fun u hu => h u (List.mem_cons_of_mem _ hu))]

theorem txGet_txStore (l : List LWTransaction) (k : Nat) (f : LWTransaction → LWTransaction)
    (hf : ∀ t, (f t).txHash = t.txHash) (h : Nat) :
    txGet (txStore l k f) h = if h = k then (txGet l h).map f else txGet l h := by
  unfold txStore txGet
  induction l with
  | nil => simp
  | cons t rest ih =>
    rw [List.map_cons]
    by_cases h1 : t.txHash = k
    · rw [if_pos h1]
      by_cases h2 : t.txHash = h
      · rw [List.find?_cons_of_pos _ (by simpa [hf] using h2),
          List.find?_cons_of_pos _ (by simpa using h2), if_pos (h2.symm.trans h1)]
        rfl
      · rw [List.find?_cons_of_neg _ (by simpa [hf] using h2),
          List.find?_cons_of_neg _ (by simpa using h2)]
        exact ih
    · rw [if_neg h1]
      by_cases h2 : t.txHash = h
      · rw [List.find?_cons_of_pos _ (by simpa using h2),
          List.find?_cons_of_pos _ (by simpa using h2), if_neg (fun e => h1 (h2.trans e))]
      · rw [List.find?_cons_of_neg _ (by simpa using h2),
          List.find?_cons_of_neg _ (by simpa using h2)]
        exact ih

theorem insertLoopRev_spec (w : LWWallet) (tx : LWTransaction) :
    ∀ (rev res : List LWTransaction), insertLoopRev w tx rev = some res →
      ∃ post pre, rev = post ++ pre ∧ res = post ++ tx :: pre ∧
        (∀ t ∈ post, ∃ c, _LWWalletTxCompare w t tx = some c ∧ c > 0) ∧
        (∀ t rest, pre = t :: rest → ∃ c, _LWWalletTxCompare w t tx = some c ∧ ¬ c > 0) := by
  intro rev
  induction rev with
  | nil =>
    intro res h
    rw [insertLoopRev] at h
    cases h
    exact ⟨[], [], rfl, rfl, by simp, by simp⟩
  | cons t rest ih =>
    intro res h
    rw [insertLoopRev] at h
    cases hc : _LWWalletTxCompare w t tx with
    | none => rw [hc] at h; cases h
    | some c =>
      rw [hc] at h
      simp only at h
      by_cases hpos : c > 0
      · rw [if_pos hpos] at h
        cases hr : insertLoopRev w tx rest with
        | none => rw [hr] at h; cases h
        | some r =>
          rw [hr] at h
          cases h
          obtain ⟨post, pre, e1, e2, e3, e4⟩ := ih r hr
          refine ⟨t :: post, pre, by rw [e1]; rfl, by rw [e2]; rfl, ?_, e4⟩
          intro u hu
          rcases List.mem_cons.1 hu with hu | hu
          · rw [hu]; exact ⟨c, hc, hpos⟩
          · exact e3 u hu
      · rw [if_neg hpos] at h
        cases h
        refine ⟨[], t :: rest, rfl, rfl, by simp, ?_⟩
        intro u rest1 e
        cases e
        exact ⟨c, hc, hpos⟩

theorem insertTx_spec (w : LWWallet) (tx : LWTransaction) (l : List LWTransaction)
    (h : _LWWalletInsertTx w tx = some l) :
    ∃ pre post, w.transactions = pre ++ post ∧ l = pre ++ tx :: post ∧
      (∀ t ∈ post, ∃ c, _LWWalletTxCompare w t tx = some c ∧ c > 0) ∧
      (∀ t, pre.getLast? = some t → ∃ c, _LWWalletTxCompare w t tx = some c ∧ ¬ c > 0) := by
  unfold _LWWalletInsertTx at h
  cases hr : insertLoopRev w tx w.transactions.reverse with
  | none => rw [hr] at h; cases h
  | some res =>
    rw [hr] at h
    cases h
    obtain ⟨post, pre, e1, e2, e3, e4⟩ := insertLoopRev_spec w tx _ res hr
    refine ⟨pre.reverse, post.reverse, ?_, ?_, ?_, ?_⟩
    · have := congrArg List.reverse e1
      rw [List.reverse_reverse, List.reverse_append] at this
      exact this
    · rw [e2, List.reverse_append, List.reverse_cons, List.append_assoc]
      rfl
    · intro t ht
      exact e3 t (List.mem_reverse.1 ht)
    · intro t ht
      rw [List.getLast?_reverse] at ht
      cases pre with
      | nil => cases ht
      | cons u rest =>
        simp only [List.head?_cons, Option.some.injEq] at ht
        rw [← ht]
        exact e4 u rest rfl

theorem insertTx_perm (w : LWWallet) (tx : LWTransaction) (l : List LWTransaction)
    (h : _LWWalletInsertTx w tx = some l) : l.Perm (tx :: w.transactions) := by
  obtain ⟨pre, post, e1, e2, _, _⟩ := insertTx_spec w tx l h
  rw [e1, e2]
  exact List.perm_middle

theorem removeListed_spec (l : List LWTransaction) (h : Nat) :
    (∀ t ∈ l, t.txHash ≠ h) ∧ removeListed l h = l ∨
    ∃ pre t post, t.txHash = h ∧ (∀ u ∈ post, u.txHash ≠ h) ∧ l = pre ++ t :: post ∧
      removeListed l h = pre ++ post := by
  unfold removeListed
  by_cases hex : ∃ t ∈ l.reverse, (fun t : LWTransaction => t.txHash == h) t = true
  · right
    obtain ⟨t, ht, hp⟩ := hex
    obtain ⟨a, l1, l2, h1, h2, h3, h4⟩ :=
      @List.exists_of_eraseP _ (fun t : LWTransaction => t.txHash == h) _ _ ht hp
    refine ⟨l2.reverse, a, l1.reverse, by simpa using h2, ?_, ?_, ?_⟩
    · intro u hu
      have := h1 u (List.mem_reverse.1 hu)
      simpa using this
    · have := congrArg List.reverse h3
      rw [List.reverse_reverse, List.reverse_append, List.reverse_cons, List.append_assoc] at this
      exact this
    · rw [h4, List.reverse_append]
  · left
    have hall : ∀ t ∈ l.reverse, ¬ (fun t : LWTransaction => t.txHash == h) t = true := by
      intro t ht hp
      exact hex ⟨t, ht, hp⟩
    refine ⟨?_, ?_⟩
    · intro t ht
      have := hall t (List.mem_reverse.2 ht)
      simpa using this
    · rw [List.eraseP_of_forall_not hall, List.reverse_reverse]

/-! ### Wallet: the state invariant -/

theorem WalletInv.base {w : LWWallet} (h : WalletInv w) : BaseInv w :=
  ⟨h.listed, h.nodup, h.addrs⟩

theorem BaseInv.of_frame {w w1 : LWWallet} (f : Frame w w1) (h : BaseInv w) : BaseInv w1 := by
  refine ⟨?_, ?_, ?_⟩
  · intro t ht
    rw [f.transactions] at ht
    rw [f.allTx]
    exact h.listed t ht
  · rw [f.transactions]; exact h.nodup
  · intro a ha
    rw [f.allAddrs] at ha
    rw [f.internalChain, f.externalChain]
    exact h.addrs a ha

theorem inv_recompute (env : Env) (now : Nat) (w : LWWallet) (h : BaseInv w) :
    ∃ w1, _LWWalletUpdateBalance env now w = some w1 ∧ Frame w w1 ∧ WalletInv w1 := by
  obtain ⟨w1, e, f, g, n⟩ := updateBalance_spec env now w h.listed
  have b := h.of_frame f
  exact ⟨w1, e, f, b.listed, b.nodup, b.addrs, n, g⟩

theorem AddrGrow.same {w : LWWallet}
    (h : ∀ a ∈ w.allAddrs, a ∈ w.internalChain ∨ a ∈ w.externalChain) : AddrGrow w w :=
  ⟨rfl, List.prefix_refl _, List.prefix_refl _, fun _ ha => ha, h⟩

theorem AddrGrow.comp {w w1 w2 : LWWallet} (h1 : AddrGrow w w1) (h2 : AddrGrow w1 w2) :
    AddrGrow w w2 := by
  refine ⟨?_, h1.internal.trans h2.internal, h1.external.trans h2.external,
    fun a ha => h2.allAddrs a (h1.allAddrs a ha), h2.chains⟩
  have e2 := h2.eq
  have e1 := h1.eq
  rw [e1] at e2
  exact e2

theorem WalletInv.of_grow {w w1 : LWWallet} (g : AddrGrow w w1) (h : WalletInv w) :
    WalletInv w1 := by
  have e := g.eq
  have ht : w1.transactions = w.transactions := by rw [e]
  have ha : w1.allTx = w.allTx := by rw [e]
  have hu : w1.utxos = w.utxos := by rw [e]
  have hs : w1.spentOutputs = w.spentOutputs := by rw [e]
  have hp : w1.pendingTx = w.pendingTx := by rw [e]
  have hb : w1.balance = w.balance := by rw [e]
  have hh : w1.balanceHist = w.balanceHist := by rw [e]
  refine ⟨?_, ?_, g.chains, ?_, ?_, ?_, ?_⟩
  · intro t hm
    rw [ht] at hm
    rw [ha]
    exact h.listed t hm
  · rw [ht]; exact h.nodup
  · rw [hh, ht]; exact h.hist
  · rw [hb, ha, hu]; exact h.good.bal
  · intro o ho
    rw [hu] at ho
    obtain ⟨out, h1, h2⟩ := h.good.valid o ho
    exact ⟨out, by rw [ha]; exact h1, g.allAddrs _ h2⟩
  · intro o ho hsp
    rw [hu] at ho
    rw [hs] at hsp
    rw [ht, hp]
    exact h.good.spent o ho hsp

theorem generateLoop_prefix (env : Env) (internal : Bool) (used : List String) (gapLimit : Nat) :
    ∀ (fuel : Nat) (chain : List String) (i : Nat) (chain1 : List String) (i1 : Nat),
      generateLoop env internal used gapLimit fuel chain i = some (chain1, i1) →
      chain <+: chain1 := by
  intro fuel
  induction fuel with
  | zero =>
    intro chain i chain1 i1 h
    rw [generateLoop] at h
    split at h
    · cases h
    · cases h; exact List.prefix_refl _
  | succ fuel ih =>
    intro chain i chain1 i1 h
    rw [generateLoop] at h
    split at h
    · cases hd : env.deriveAddress internal (chain.length % 2 ^ 32) with
      | none =>
        rw [hd] at h
        cases h
        exact List.prefix_refl _
      | some a =>
        rw [hd] at h
        exact (List.prefix_append chain [a]).trans (ih _ _ _ _ h)
    · cases h; exact List.prefix_refl _

theorem unusedAddrs_grow (env : Env) (w w1 : LWWallet) (addrs : Bool) (gapLimit : Nat)
    (internal : Bool) (written : List String)
    (hw : ∀ a ∈ w.allAddrs, a ∈ w.internalChain ∨ a ∈ w.externalChain)
    (h : LWWalletUnusedAddrs env w addrs gapLimit internal = some (written, w1)) :
    AddrGrow w w1 := by
  unfold LWWalletUnusedAddrs at h
  split at h
  · cases h
  · simp only at h
    split at h
    · cases h
    · next chain1 i hg =>
      have hpre := generateLoop_prefix env internal w.usedAddrs gapLimit _ _ _ _ _ hg
      obtain ⟨ext, hext⟩ := hpre
      have hdrop : chain1.drop (if internal = true then w.internalChain else w.externalChain).length
          = ext := by
        rw [← hext, List.drop_left]
      cases internal with
      | true =>
        simp only [if_true] at h hext hdrop
        split at h
        · cases h
          refine ⟨rfl, ⟨ext, hext⟩, List.prefix_refl _, ?_, ?_⟩
          · intro a ha
            simp only
            rw [mem_foldl_keyAdd_id]
            right
            rw [List.mem_append, List.mem_reverse, List.mem_reverse]
            rcases hw a ha with h1 | h1
            · left; rw [← hext]; exact List.mem_append_left _ h1
            · right; exact h1
          · intro a ha
            simp only at ha ⊢
            rw [mem_foldl_keyAdd_id] at ha
            rcases ha with ha | ha
            · cases ha
            · rw [List.mem_append, List.mem_reverse, List.mem_reverse] at ha
              exact ha
        · cases h
          refine ⟨rfl, ⟨ext, hext⟩, List.prefix_refl _, ?_, ?_⟩
          · intro a ha
            simp only
            rw [mem_foldl_keyAdd_id]
            exact Or.inl ha
          · intro a ha
            simp only at ha ⊢
            rw [mem_foldl_keyAdd_id, hdrop] at ha
            rcases ha with ha | ha
            · rcases hw a ha with h1 | h1
              · left; rw [← hext]; exact List.mem_append_left _ h1
              · right; exact h1
            · left; rw [← hext]; exact List.mem_append_right _ ha
      | false =>
        simp only [Bool.false_eq_true, if_false] at h hext hdrop
        split at h
        · cases h
          refine ⟨rfl, List.prefix_refl _, ⟨ext, hext⟩, ?_, ?_⟩
          · intro a ha
            simp only
            rw [mem_foldl_keyAdd_id]
            right
            rw [List.mem_append, List.mem_reverse, List.mem_reverse]
            rcases hw a ha with h1 | h1
            · left; exact h1
            · right; rw [← hext]; exact List.mem_append_left _ h1
          · intro a ha
            simp only at ha ⊢
            rw [mem_foldl_keyAdd_id] at ha
            rcases ha with ha | ha
            · cases ha
            · rw [List.mem_append, List.mem_reverse, List.mem_reverse] at ha
              exact ha
        · cases h
          refine ⟨rfl, List.prefix_refl _, ⟨ext, hext⟩, ?_, ?_⟩
          · intro a ha
            simp only
            rw [mem_foldl_keyAdd_id]
            exact Or.inl ha
          · intro a ha
            simp only at ha ⊢
            rw [mem_foldl_keyAdd_id, hdrop] at ha
            rcases ha with ha | ha
            · rcases hw a ha with h1 | h1
              · left; exact h1
              · right; rw [← hext]; exact List.mem_append_left _ h1
            · right; rw [← hext]; exact List.mem_append_right _ ha

theorem utxoSum_congr {a b : List LWTransaction} {us : List LWUTXO}
    (h : ∀ o ∈ us, outputAt b o = outputAt a o) : utxoSum b us = utxoSum a us := by
  unfold utxoSum
  congr 1
  apply List.map_congr_left
  intro o ho
  unfold utxoAmount
  rw [h o ho]

theorem inv_of_lookup {w w1 : LWWallet} (h : WalletInv w) (s : SameDerived w w1)
    (hl : ListedInAllTx w1) (hn : (w1.transactions.map (fun t => t.txHash)).Nodup)
    (hlen : w1.transactions.length = w.transactions.length)
    (hout : ∀ o ∈ w.utxos, outputAt w1.allTx o = outputAt w.allTx o)
    (hsp : ∀ t ∈ w.transactions, ∃ t1 ∈ w1.transactions,
      t1.txHash = t.txHash ∧ t1.inputs = t.inputs) : WalletInv w1 := by
  refine ⟨hl, hn, ?_, ?_, ?_, ?_, ?_⟩
  · intro a ha
    rw [s.allAddrs] at ha
    rw [s.internalChain, s.externalChain]
    exact h.addrs a ha
  · rw [s.balanceHist, hlen]; exact h.hist
  · rw [s.balance, s.utxos, utxoSum_congr hout]; exact h.good.bal
  · intro o ho
    rw [s.utxos] at ho
    obtain ⟨out, h1, h2⟩ := h.good.valid o ho
    exact ⟨out, by rw [hout o ho]; exact h1, by rw [s.allAddrs]; exact h2⟩
  · intro o ho hs
    rw [s.utxos] at ho
    rw [s.spentOutputs] at hs
    obtain ⟨t, ht, hp, hi⟩ := h.good.spent o ho hs
    obtain ⟨t1, ht1, e1, e2⟩ := hsp t ht
    exact ⟨t1, ht1, by rw [s.pendingTx, e1]; exact hp, by rw [e2]; exact hi⟩

theorem outputAt_txStore (l : List LWTransaction) (k : Nat) (f : LWTransaction → LWTransaction)
    (hf : ∀ t, (f t).txHash = t.txHash) (hg : ∀ t, (f t).outputs = t.outputs) (o : LWUTXO) :
    outputAt (txStore l k f) o = outputAt l o := by
  unfold outputAt
  rw [txGet_txStore l k f hf]
  split
  · cases txGet l o.hash with
    | none => rfl
    | some t => simp [hg]
  · rfl

theorem listed_txStore {w w1 : LWWallet} (k : Nat) (f : LWTransaction → LWTransaction)
    (hf : ∀ t, (f t).txHash = t.txHash) (hl : ListedInAllTx w)
    (ha : w1.allTx = txStore w.allTx k f) (ht : w1.transactions = txStore w.transactions k f) :
    ListedInAllTx w1 := by
  intro t1 hm
  rw [ht] at hm
  rw [ha, txGet_txStore _ _ _ hf]
  unfold txStore at hm
  obtain ⟨t, hmem, e⟩ := List.mem_map.1 hm
  have hget := hl t hmem
  by_cases hk : t.txHash = k
  · rw [if_pos hk] at e
    rw [← e, hf, if_pos hk, hget]
    rfl
  · rw [if_neg hk] at e
    rw [← e, if_neg hk, hget]

theorem hashes_txStore (l : List LWTransaction) (k : Nat) (f : LWTransaction → LWTransaction)
    (hf : ∀ t, (f t).txHash = t.txHash) :
    (txStore l k f).map (fun t => t.txHash) = l.map (fun t => t.txHash) := by
  unfold txStore
  rw [List.map_map]
  apply List.map_congr_left
  intro t _
  simp only [Function.comp]
  split
  · exact hf t
  · rfl

theorem store_base {w w1 : LWWallet} (k : Nat) (f : LWTransaction → LWTransaction)
    (hf : ∀ t, (f t).txHash = t.txHash) (h : BaseInv w)
    (ha : w1.allTx = txStore w.allTx k f) (ht : w1.transactions = txStore w.transactions k f)
    (e1 : w1.allAddrs = w.allAddrs) (e2 : w1.internalChain = w.internalChain)
    (e3 : w1.externalChain = w.externalChain) : BaseInv w1 := by
  refine ⟨listed_txStore k f hf h.listed ha ht, ?_, ?_⟩
  · rw [ht, hashes_txStore _ _ _ hf]; exact h.nodup
  · intro a hm
    rw [e1] at hm
    rw [e2, e3]
    exact h.addrs a hm

theorem store_inv {w w1 : LWWallet} (k : Nat) (f : LWTransaction → LWTransaction)
    (hf : ∀ t, (f t).txHash = t.txHash) (hg : ∀ t, (f t).outputs = t.outputs)
    (hi : ∀ t, (f t).inputs = t.inputs) (h : WalletInv w) (s : SameDerived w w1)
    (ha : w1.allTx = txStore w.allTx k f) (ht : w1.transactions = txStore w.transactions k f) :
    WalletInv w1 := by
  apply inv_of_lookup h s (listed_txStore k f hf h.listed ha ht)
  · rw [ht, hashes_txStore _ _ _ hf]; exact h.nodup
  · rw [ht]; unfold txStore; rw [List.length_map]
  · intro o _
    rw [ha]
    exact outputAt_txStore _ _ _ hf hg o
  · intro t hm
    rw [ht]
    unfold txStore
    refine ⟨_, List.mem_map_of_mem _ hm, ?_, ?_⟩
    · split
      · exact hf t
      · rfl
    · split
      · exact hi t
      · rfl

theorem perm_base {w w1 : LWWallet} (h : BaseInv w) (ha : w1.allTx = w.allTx)
    (hp : w1.transactions.Perm w.transactions)
    (e1 : w1.allAddrs = w.allAddrs) (e2 : w1.internalChain = w.internalChain)
    (e3 : w1.externalChain = w.externalChain) : BaseInv w1 := by
  refine ⟨?_, ?_, ?_⟩
  · intro t hm
    rw [ha]
    exact h.listed t (hp.subset hm)
  · exact ((hp.map _).nodup_iff).2 h.nodup
  · intro a hm
    rw [e1] at hm
    rw [e2, e3]
    exact h.addrs a hm

theorem perm_inv {w w1 : LWWallet} (h : WalletInv w) (s : SameDerived w w1)
    (ha : w1.allTx = w.allTx) (hp : w1.transactions.Perm w.transactions) : WalletInv w1 := by
  apply inv_of_lookup h s
  · intro t hm
    rw [ha]
    exact h.listed t (hp.subset hm)
  · exact ((hp.map _).nodup_iff).2 h.nodup
  · exact hp.length_eq
  · intro o _
    rw [ha]
  · intro t hm
    exact ⟨t, hp.symm.subset hm, rfl, rfl⟩

theorem outputAt_hash {l : List LWTransaction} {o : LWUTXO} {out : LWTxOutput}
    (h : outputAt l o = some out) :
    ∃ t, txGet l o.hash = some t ∧ t.outputs[o.n]? = some out := by
  unfold outputAt at h
  cases hg : txGet l o.hash with
  | none => rw [hg] at h; cases h
  | some t =>
    rw [hg] at h
    exact ⟨t, rfl, h⟩

theorem containsTx_of_output {w : LWWallet} {tx : LWTransaction} {n : Nat} {out : LWTxOutput}
    (h1 : tx.outputs[n]? = some out) (h2 : out.address ∈ w.allAddrs) :
    _LWWalletContainsTx w tx = true := by
  unfold _LWWalletContainsTx
  rw [Bool.or_eq_true]
  left
  rw [List.any_eq_true]
  exact ⟨out, List.getElem?_mem h1, by simpa using h2⟩

theorem free_inv {w w1 : LWWallet} (k : Nat) (h : WalletInv w) (s : SameDerived w w1)
    (hk : ∀ t ∈ w.transactions, t.txHash ≠ k)
    (hc : ∀ tx, txGet w.allTx k = some tx → _LWWalletContainsTx w tx = false)
    (ha : w1.allTx = txRemove w.allTx k) (ht : w1.transactions = w.transactions) :
    WalletInv w1 := by
  apply inv_of_lookup h s
  · intro t hm
    rw [ht] at hm
    rw [ha, txGet_txRemove_ne _ (hk t hm)]
    exact h.listed t hm
  · rw [ht]; exact h.nodup
  · rw [ht]
  · intro o ho
    obtain ⟨out, h1, h2⟩ := h.good.valid o ho
    obtain ⟨t, h3, h4⟩ := outputAt_hash h1
    have hne : o.hash ≠ k := by
      intro e
      rw [e] at h3
      have := hc t h3
      rw [containsTx_of_output h4 h2] at this
      cases this
    unfold outputAt
    rw [ha, txGet_txRemove_ne _ hne]
  · intro t hm
    exact ⟨t, by rw [ht]; exact hm, rfl, rfl⟩

theorem add_unlisted_inv {w w1 : LWWallet} (tx : LWTransaction) (h : WalletInv w)
    (s : SameDerived w w1) (hn : txGet w.allTx tx.txHash = none)
    (ha : w1.allTx = txAdd w.allTx tx) (ht : w1.transactions = w.transactions) :
    WalletInv w1 := by
  have key : ∀ k t, txGet w.allTx k = some t → txGet (txAdd w.allTx tx) k = some t := by
    intro k t hk
    rw [txGet_txAdd_ne]
    · exact hk
    · intro e
      rw [e, hn] at hk
      cases hk
  apply inv_of_lookup h s
  · intro t hm
    rw [ht] at hm
    rw [ha]
    exact key _ _ (h.listed t hm)
  · rw [ht]; exact h.nodup
  · rw [ht]
  · intro o ho
    obtain ⟨out, h1, _⟩ := h.good.valid o ho
    obtain ⟨t, h3, _⟩ := outputAt_hash h1
    unfold outputAt
    rw [ha, key _ _ h3, h3]
  · intro t hm
    exact ⟨t, by rw [ht]; exact hm, rfl, rfl⟩

theorem add_listed_base {w w1 : LWWallet} (tx : LWTransaction) (h : BaseInv w)
    (hn : txGet w.allTx tx.txHash = none) (ha : w1.allTx = txAdd w.allTx tx)
    (hp : w1.transactions.Perm (tx :: w.transactions))
    (e1 : w1.allAddrs = w.allAddrs) (e2 : w1.internalChain = w.internalChain)
    (e3 : w1.externalChain = w.externalChain) : BaseInv w1 := by
  have hne : ∀ t ∈ w.transactions, t.txHash ≠ tx.txHash := by
    intro t hm e
    have := h.listed t hm
    rw [e, hn] at this
    cases this
  refine ⟨?_, ?_, ?_⟩
  · intro t hm
    rw [ha]
    rcases List.mem_cons.1 (hp.subset hm) with e | hm1
    · rw [e]; exact txGet_txAdd_self _ _
    · rw [txGet_txAdd_ne _ _ (hne t hm1)]
      exact h.listed t hm1
  · apply ((hp.map _).nodup_iff).2
    rw [List.map_cons, List.nodup_cons]
    refine ⟨?_, h.nodup⟩
    intro hm
    obtain ⟨t, ht, e⟩ := List.mem_map.1 hm
    exact hne t ht e
  · intro a hm
    rw [e1] at hm
    rw [e2, e3]
    exact h.addrs a hm

theorem remove_base {w w1 : LWWallet} (k : Nat) (h : BaseInv w)
    (ha : w1.allTx = txRemove w.allTx k) (ht : w1.transactions = removeListed w.transactions k)
    (e1 : w1.allAddrs = w.allAddrs) (e2 : w1.internalChain = w.internalChain)
    (e3 : w1.externalChain = w.externalChain) : BaseInv w1 := by
  have key : (∀ t ∈ w1.transactions, t ∈ w.transactions ∧ t.txHash ≠ k) ∧
      (w1.transactions.map (fun t => t.txHash)).Nodup := by
    rw [ht]
    rcases removeListed_spec w.transactions k with ⟨h1, h2⟩ | ⟨pre, t, post, h1, _, h3, h4⟩
    · rw [h2]
      exact ⟨fun t hm => ⟨hm, h1 t hm⟩, h.nodup⟩
    · rw [h4]
      have hnd := h.nodup
      rw [h3, List.map_append, List.map_cons] at hnd
      have hnd1 := List.nodup_middle.1 hnd
      rw [List.nodup_cons, ← List.map_append] at hnd1
      refine ⟨?_, hnd1.2⟩
      intro u hu
      refine ⟨?_, ?_⟩
      · rw [h3]
        rcases List.mem_append.1 hu with hu | hu
        · exact List.mem_append_left _ hu
        · exact List.mem_append_right _ (List.mem_cons_of_mem _ hu)
      · intro e
        apply hnd1.1
        rw [h1, ← e]
        exact List.mem_map_of_mem _ hu
  refine ⟨?_, key.2, ?_⟩
  · intro t hm
    obtain ⟨h1, h2⟩ := key.1 t hm
    rw [ha, txGet_txRemove_ne _ h2]
    exact h.listed t h1
  · intro a hm
    rw [e1] at hm
    rw [e2, e3]
    exact h.addrs a hm

theorem BaseInv.grow {w w1 : LWWallet} (g : AddrGrow w w1) (h : BaseInv w) : BaseInv w1 := by
  have e := g.eq
  have ht : w1.transactions = w.transactions := by rw [e]
  have ha : w1.allTx = w.allTx := by rw [e]
  refine ⟨?_, ?_, g.chains⟩
  · intro t hm
    rw [ht] at hm
    rw [ha]
    exact h.listed t hm
  · rw [ht]; exact h.nodup

theorem register_inv (env : Env) (now : Nat) (w w1 : LWWallet) (tx : LWTransaction) (r : Bool)
    (events : List Event) (h : WalletInv w)
    (e : LWWalletRegisterTransaction env now w tx = some (r, w1, events)) : WalletInv w1 := by
  unfold LWWalletRegisterTransaction at e
  split at e
  · cases e
  · split at e
    · cases e; exact h
    · next hc =>
      have hn : txGet w.allTx tx.txHash = none := by
        rw [← txContains_false]
        simpa using hc
      split at e
      · simp only at e
        split at e
        · cases e
        · next list hins =>
          have hp := insertTx_perm _ _ _ hins
          have hb : BaseInv { w with allTx := txAdd w.allTx tx, transactions := list } :=
            add_listed_base tx h.base hn rfl hp rfl rfl rfl
          obtain ⟨w2, e2, _, i2⟩ := inv_recompute env now _ hb
          rw [e2] at e
          simp only at e
          split at e
          · cases e
          · next x w3 h3 =>
            split at e
            · cases e
            · next y w4 h4 =>
              cases e
              have g3 := unusedAddrs_grow env _ _ _ _ _ _ i2.addrs h3
              have i3 := i2.of_grow g3
              have g4 := unusedAddrs_grow env _ _ _ _ _ _ i3.addrs h4
              exact i3.of_grow g4
      · split at e
        · cases e
          exact add_unlisted_inv tx h ⟨rfl, rfl, rfl, rfl, rfl, rfl, rfl, rfl⟩ hn rfl rfl
        · cases e; exact h

theorem newLoop_base (env : Env) :
    ∀ (txs : List LWTransaction) (w w1 : LWWallet), BaseInv w → newLoop env txs w = some w1 →
      BaseInv w1 := by
  intro txs
  induction txs with
  | nil =>
    intro w w1 h e
    rw [newLoop] at e
    cases e
    exact h
  | cons tx rest ih =>
    intro w w1 h e
    rw [newLoop] at e
    split at e
    · exact ih w w1 h e
    · next hc =>
      have hn : txGet w.allTx tx.txHash = none := by
        rw [← txContains_false]
        rw [not_or] at hc
        simpa using hc.2
      simp only at e
      split at e
      · cases e
      · next list hins =>
        have hp := insertTx_perm _ _ _ hins
        refine ih _ w1 ?_ e
        exact add_listed_base tx h hn rfl hp rfl rfl rfl

theorem walletNew_inv (env : Env) (now : Nat) (txs : List LWTransaction) (w : LWWallet)
    (e : LWWalletNew env now txs = some (some w)) : WalletInv w := by
  unfold LWWalletNew at e
  split at e
  · cases e
  · next w1 h1 =>
    have b0 : BaseInv (emptyWallet env) := by
      refine ⟨?_, List.nodup_nil, ?_⟩
      · intro t ht; cases ht
      · intro a ha; cases ha
    have b1 : BaseInv w1 := newLoop_base env txs _ w1 b0 h1
    split at e
    · cases e
    · next x w2 h2 =>
      have b2 := b1.grow (unusedAddrs_grow env _ _ _ _ _ _ b1.addrs h2)
      split at e
      · cases e
      · next y w3 h3 =>
        have b3 := b2.grow (unusedAddrs_grow env _ _ _ _ _ _ b2.addrs h3)
        obtain ⟨w4, e4, _, i4⟩ := inv_recompute env now _ b3
        rw [e4] at e
        simp only at e
        split at e
        · cases e; exact i4
        · split at e
          · cases e; exact i4
          · cases e

theorem removeLeaf_inv (env : Env) (now : Nat) (w w1 : LWWallet) (tx : LWTransaction)
    (txHash : Nat) (events : List Event) (h : BaseInv w)
    (e : removeLeaf env now w tx txHash = some (w1, events)) : WalletInv w1 := by
  unfold removeLeaf at e
  simp only at e
  have hb : BaseInv { w with allTx := txRemove w.allTx tx.txHash,
                             transactions := removeListed w.transactions tx.txHash } :=
    remove_base tx.txHash h rfl rfl rfl rfl rfl
  obtain ⟨w2, e2, _, i2⟩ := inv_recompute env now _ hb
  rw [e2] at e
  simp only at e
  split at e
  · cases e
  · cases e
    exact i2

theorem removeAll_inv (rec : LWWallet → Nat → Option (LWWallet × List Event))
    (hrec : ∀ w h w1 ev, WalletInv w → rec w h = some (w1, ev) → WalletInv w1) :
    ∀ (hashes : List Nat) (s s1 : LWWallet × List Event), WalletInv s.1 →
      removeAll rec hashes s = some s1 → WalletInv s1.1 := by
  intro hashes
  induction hashes with
  | nil =>
    intro s s1 h e
    rw [removeAll] at e
    cases e
    exact h
  | cons k rest ih =>
    intro s s1 h e
    obtain ⟨w, ev⟩ := s
    rw [removeAll] at e
    split at e
    · cases e
    · next w2 ev2 h2 =>
      exact ih _ s1 (hrec _ _ _ _ h h2) e

theorem removeDepth_inv (env : Env) (now : Nat) :
    ∀ (depth : Nat) (w : LWWallet) (txHash : Nat) (w1 : LWWallet) (events : List Event),
      WalletInv w → LWWalletRemoveTransactionDepth env now depth w txHash = some (w1, events) →
      WalletInv w1 := by
  intro depth
  induction depth with
  | zero =>
    intro w txHash w1 events _ e
    rw [LWWalletRemoveTransactionDepth] at e
    cases e
  | succ depth ih =>
    intro w txHash w1 events h e
    rw [LWWalletRemoveTransactionDepth] at e
    split at e
    · cases e
    · split at e
      · cases e; exact h
      · next tx _ =>
        simp only at e
        split at e
        · split at e
          · cases e
          · next w2 ev2 h2 =>
            have i2 : WalletInv w2 :=
              removeAll_inv _ (fun a b c d hi he => ih a b c d hi he) _ _ (w2, ev2) h h2
            split at e
            · cases e
            · next w3 ev3 h3 =>
              cases e
              exact ih _ _ _ _ i2 h3
        · exact removeLeaf_inv env now _ _ _ _ _ h.base e

theorem remove_inv (env : Env) (now : Nat) (w w1 : LWWallet) (txHash : Nat)
    (events : List Event) (h : WalletInv w)
    (e : LWWalletRemoveTransaction env now w txHash = some (w1, events)) : WalletInv w1 :=
  removeDepth_inv env now _ w txHash w1 events h e

theorem WalletInv.congr {w w1 : LWWallet} (h : WalletInv w) (s : SameDerived w w1)
    (ha : w1.allTx = w.allTx) (ht : w1.transactions = w.transactions) : WalletInv w1 :=
  perm_inv h s ha (by rw [ht])

theorem updateTxStep_inv (blockHeight timestamp : Nat) (s s1 : LWWallet × List Nat × Bool)
    (txHash : Nat) (h : WalletInv s.1)
    (e : updateTxStep blockHeight timestamp s txHash = some s1) : WalletInv s1.1 := by
  obtain ⟨w, hashes, needs⟩ := s
  simp only at h
  unfold updateTxStep at e
  simp only at e
  split at e
  · cases e; exact h
  · next tx hget =>
    have hk := (txGet_some hget).1
    split at e
    · cases e; exact h
    · have hstore : WalletInv { w with
          allTx := txStore w.allTx tx.txHash (storeHeight blockHeight timestamp),
          transactions := txStore w.transactions tx.txHash (storeHeight blockHeight timestamp) } :=
        store_inv tx.txHash (storeHeight blockHeight timestamp) (fun _ => rfl) (fun _ => rfl)
          (fun _ => rfl) h ⟨rfl, rfl, rfl, rfl, rfl, rfl, rfl, rfl⟩ rfl rfl
      have hget1 : txGet (txStore w.allTx tx.txHash (storeHeight blockHeight timestamp))
          tx.txHash = some (storeHeight blockHeight timestamp tx) := by
        rw [txGet_txStore _ _ (storeHeight blockHeight timestamp) (fun _ => rfl), if_pos rfl, hk,
          hget]
        rfl
      split at e
      · split at e
        · next hany =>
          split at e
          · cases e
          · next list hins =>
            cases e
            have hp := insertTx_perm _ _ _ hins
            have e5 : (storeHeight blockHeight timestamp tx).txHash = tx.txHash := rfl
            simp only [e5] at hp ⊢
            refine perm_inv hstore ⟨rfl, rfl, rfl, rfl, rfl, rfl, rfl, rfl⟩ rfl ?_
            simp only
            refine hp.trans ?_
            rcases removeListed_spec (txStore w.transactions tx.txHash
              (storeHeight blockHeight timestamp))
              tx.txHash with ⟨h1, _⟩ | ⟨pre, t, post, h1, _, h3, h4⟩
            · exfalso
              rw [List.any_eq_true] at hany
              obtain ⟨u, hu, hu2⟩ := hany
              simp only [beq_iff_eq] at hu2
              exact h1 u hu hu2
            · rw [h4, h3]
              have ht : t = storeHeight blockHeight timestamp tx := by
                have hm : t ∈ txStore w.transactions tx.txHash
                    (storeHeight blockHeight timestamp) := by
                  rw [h3]
                  exact List.mem_append_right _ (List.mem_cons_self _ _)
                have := hstore.listed t hm
                simp only at this
                rw [h1, hget1] at this
                exact (Option.some.inj this).symm
              rw [ht]
              exact List.perm_middle.symm
        · cases e
          exact hstore
      · split at e
        · split at e
          · cases e
          · next hc hne hany =>
            cases e
            refine free_inv tx.txHash hstore ⟨rfl, rfl, rfl, rfl, rfl, rfl, rfl, rfl⟩ ?_ ?_ rfl rfl
            · intro t ht e1
              apply hany
              rw [List.any_eq_true]
              exact ⟨t, ht, by simpa using e1⟩
            · intro tx1 h1
              simp only at h1
              rw [hget1] at h1
              cases h1
              simpa using hc
        · cases e
          exact hstore

theorem updateTxLoop_inv (blockHeight timestamp : Nat) :
    ∀ (hashes : List Nat) (s s1 : LWWallet × List Nat × Bool), WalletInv s.1 →
      updateTxLoop blockHeight timestamp hashes s = some s1 → WalletInv s1.1 := by
  intro hashes
  induction hashes with
  | nil =>
    intro s s1 h e
    rw [updateTxLoop] at e
    cases e
    exact h
  | cons k rest ih =>
    intro s s1 h e
    rw [updateTxLoop] at e
    split at e
    · cases e
    · next s2 h2 => exact ih s2 s1 (updateTxStep_inv _ _ _ _ _ h h2) e

theorem update_inv (env : Env) (now : Nat) (w w1 : LWWallet) (txHashes : List Nat)
    (blockHeight timestamp : Nat) (events : List Event) (h : WalletInv w)
    (e : LWWalletUpdateTransactions env now w txHashes blockHeight timestamp =
      some (w1, events)) : WalletInv w1 := by
  unfold LWWalletUpdateTransactions at e
  simp only at e
  have h0 : WalletInv (if blockHeight > w.blockHeight then { w with blockHeight := blockHeight }
      else w) := by
    split
    · exact h.congr ⟨rfl, rfl, rfl, rfl, rfl, rfl, rfl, rfl⟩ rfl rfl
    · exact h
  split at e
  · cases e
  · next w2 hashes needs hl =>
    have i2 : WalletInv w2 := updateTxLoop_inv _ _ _ _ (w2, hashes, needs) h0 hl
    split at e
    · obtain ⟨w3, e3, _, i3⟩ := inv_recompute env now _ i2.base
      rw [e3] at e
      cases e
      exact i3
    · cases e
      exact i2

theorem unconfirm_inv (w : LWWallet) (t : LWTransaction) (h : WalletInv w) :
    WalletInv (unconfirm w t) :=
  store_inv t.txHash storeUnconfirmed (fun _ => rfl) (fun _ => rfl) (fun _ => rfl) h
    ⟨rfl, rfl, rfl, rfl, rfl, rfl, rfl, rfl⟩ rfl rfl

theorem unconfirm_foldl_inv :
    ∀ (l : List LWTransaction) (w : LWWallet), WalletInv w → WalletInv (l.foldl unconfirm w) := by
  intro l
  induction l with
  | nil => intro w h; exact h
  | cons t rest ih =>
    intro w h
    rw [List.foldl_cons]
    exact ih _ (unconfirm_inv w t h)

theorem unconfirmAfter_inv (env : Env) (now : Nat) (w w1 : LWWallet) (blockHeight : Nat)
    (events : List Event) (h : WalletInv w)
    (e : LWWalletSetTxUnconfirmedAfter env now w blockHeight = some (w1, events)) :
    WalletInv w1 := by
  unfold LWWalletSetTxUnconfirmedAfter at e
  simp only at e
  have h0 : WalletInv { w with blockHeight := blockHeight } :=
    h.congr ⟨rfl, rfl, rfl, rfl, rfl, rfl, rfl, rfl⟩ rfl rfl
  have h1 := unconfirm_foldl_inv
    (List.drop (w.transactions.length - (List.takeWhile (fun t => decide (t.blockHeight > blockHeight))
      w.transactions.reverse).length) w.transactions) _ h0
  split at e
  · obtain ⟨w3, e3, _, i3⟩ := inv_recompute env now _ h1.base
    rw [e3] at e
    cases e
    exact i3
  · cases e
    exact h1

theorem selectLoop_grow (env : Env)
    (rec : LWWallet → List LWTxOutput → Option (Option LWTransaction × LWWallet))
    (w : LWWallet) (outputs : List LWTxOutput) (minAmount count : Nat)
    (hw : ∀ a ∈ w.allAddrs, a ∈ w.internalChain ∨ a ∈ w.externalChain)
    (hrec : ∀ o1 r w2, rec w o1 = some (r, w2) → AddrGrow w w2) :
    ∀ (utxos : List LWUTXO) (t : LWTransaction) (fee amount balance : Nat) (s : Selection),
      selectLoop env rec w outputs minAmount count utxos t fee amount balance = some s →
      AddrGrow w s.wallet := by
  intro utxos
  induction utxos with
  | nil =>
    intro t fee amount balance s e
    rw [selectLoop] at e
    cases e
    exact AddrGrow.same hw
  | cons o rest ih =>
    intro t fee amount balance s e
    rw [selectLoop] at e
    split at e
    · exact ih _ _ _ _ _ e
    · split at e
      · exact ih _ _ _ _ _ e
      · simp only at e
        split_ifs at e
        all_goals first
          | exact ih _ _ _ _ _ e
          | (cases e; exact AddrGrow.same hw)
          | (split at e
             · cases e
             · next t2 w2 hn =>
               cases e
               exact hrec _ _ _ hn)

theorem createTx_grow (env : Env) :
    ∀ (depth : Nat) (w w1 : LWWallet) (outputs : List LWTxOutput) (tx : Option LWTransaction),
      (∀ a ∈ w.allAddrs, a ∈ w.internalChain ∨ a ∈ w.externalChain) →
      LWWalletCreateTxForOutputs env depth w outputs = some (tx, w1) → AddrGrow w w1 := by
  intro depth
  induction depth with
  | zero =>
    intro w w1 outputs tx _ e
    rw [LWWalletCreateTxForOutputs] at e
    cases e
  | succ depth ih =>
    intro w w1 outputs tx hw e
    rw [LWWalletCreateTxForOutputs] at e
    split at e
    · cases e
    · simp only at e
      split at e
      · cases e
      · next s hs =>
        have g := selectLoop_grow env _ w outputs _ _ hw
          (fun o1 r w2 h => ih w w2 o1 r hw h) _ _ _ _ _ s hs
        split at e
        · cases e; exact g
        · split at e
          · cases e; exact g
          · split at e
            · split at e
              · cases e
              · next written w2 hu =>
                cases e
                exact g.comp (unusedAddrs_grow env _ _ _ _ _ _ g.chains hu)
            · cases e; exact g

theorem reached_inv_wallet (env : Env) (w : LWWallet) (h : WalletReached env w) :
    WalletInv w := by
  induction h with
  | new now txs w e => exact walletNew_inv env now txs w e
  | register now w w1 tx r events _ e ih => exact register_inv env now w w1 tx r events ih e
  | remove now w w1 txHash events _ e ih => exact remove_inv env now w w1 txHash events ih e
  | update now w w1 txHashes blockHeight timestamp events _ e ih =>
    exact update_inv env now w w1 txHashes blockHeight timestamp events ih e
  | unconfirm now w w1 blockHeight events _ e ih =>
    exact unconfirmAfter_inv env now w w1 blockHeight events ih e
  | unusedAddrs w w1 addrs gapLimit internal written _ e ih =>
    exact ih.of_grow (unusedAddrs_grow env _ _ _ _ _ _ ih.addrs e)
  | setFeePerKb w feePerKb _ ih =>
    exact ih.congr ⟨rfl, rfl, rfl, rfl, rfl, rfl, rfl, rfl⟩ rfl rfl
  | createTx depth w w1 outputs tx _ e ih =>
    exact ih.of_grow (createTx_grow env depth w w1 outputs tx ih.addrs e)

/-! ### Wallet: the three ways of an iteration of the recomputation -/

theorem outputsLoop_fields (tx : LWTransaction) :
    ∀ (rest : List LWTxOutput) (j : Nat) (w : LWWallet) (b : Nat),
      (outputsLoop tx rest j (w, b)).1.invalidTx = w.invalidTx ∧
      (outputsLoop tx rest j (w, b)).1.pendingTx = w.pendingTx ∧
      (outputsLoop tx rest j (w, b)).1.spentOutputs = w.spentOutputs ∧
      (outputsLoop tx rest j (w, b)).1.allTx = w.allTx ∧
      ∀ o ∈ (outputsLoop tx rest j (w, b)).1.utxos, o ∈ w.utxos ∨ o.hash = tx.txHash := by
  intro rest
  induction rest with
  | nil => intro j w b; exact ⟨rfl, rfl, rfl, rfl, fun o ho => Or.inl ho⟩
  | cons o rest ih =>
    intro j w b
    unfold outputsLoop
    simp only
    split_ifs
    · obtain ⟨a1, a2, a3, a4, a5⟩ := ih (j + 1)
        { w with usedAddrs := keyAdd w.usedAddrs o.address,
                 utxos := w.utxos ++ [{ hash := tx.txHash, n := j }] } (add64 b o.amount)
      refine ⟨a1, a2, a3, a4, ?_⟩
      intro u hu
      rcases a5 u hu with h | h
      · rcases List.mem_append.1 h with h | h
        · exact Or.inl h
        · rw [List.mem_singleton] at h
          rw [h]
          exact Or.inr rfl
      · exact Or.inr h
    · exact ih (j + 1) { w with usedAddrs := keyAdd w.usedAddrs o.address } b
    · exact ih (j + 1) w b

theorem spentScan_subset (w : LWWallet) :
    ∀ (us : List LWUTXO) (b : Nat) (us1 : List LWUTXO) (b1 : Nat),
      spentScan w us b = some (us1, b1) → ∀ o ∈ us1, o ∈ us := by
  intro us
  induction us with
  | nil =>
    intro b us1 b1 e
    rw [spentScan] at e
    cases e
    intro o ho
    cases ho
  | cons u rest ih =>
    intro b us1 b1 e
    rw [spentScan] at e
    split at e
    · cases e
    · next r1 b2 hr =>
      have := ih b r1 b2 hr
      split at e
      · split at e
        · cases e
        · split at e
          · cases e
          · cases e
            intro o ho
            exact List.mem_cons_of_mem _ (this o ho)
      · cases e
        intro o ho
        rcases List.mem_cons.1 ho with h | h
        · rw [h]; exact List.mem_cons_self _ _
        · exact List.mem_cons_of_mem _ (this o h)

theorem updateStep_shape (env : Env) (now : Nat) (s r : LWWallet × Nat × Nat)
    (tx : LWTransaction) (e : updateStep env now s tx = some r) :
    (tx.blockHeight = TX_UNCONFIRMED ∧ inputsInvalid s.1 tx = true ∧
      r.1.invalidTx = keyAdd s.1.invalidTx tx.txHash ∧ r.1.pendingTx = s.1.pendingTx ∧
      r.1.spentOutputs = s.1.spentOutputs ∧ r.1.utxos = s.1.utxos ∧ r.2.1 = s.2.1) ∨
    (¬ (tx.blockHeight = TX_UNCONFIRMED ∧ inputsInvalid s.1 tx = true) ∧
      tx.blockHeight = TX_UNCONFIRMED ∧ checkPending env now (spendInputs s.1 tx) tx = true ∧
      r.1.invalidTx = s.1.invalidTx ∧ r.1.pendingTx = keyAdd s.1.pendingTx tx.txHash ∧
      r.1.spentOutputs = (spendInputs s.1 tx).spentOutputs ∧ r.1.utxos = s.1.utxos ∧
      r.2.1 = s.2.1) ∨
    (¬ (tx.blockHeight = TX_UNCONFIRMED ∧ inputsInvalid s.1 tx = true) ∧
      ¬ (tx.blockHeight = TX_UNCONFIRMED ∧
        checkPending env now (spendInputs s.1 tx) tx = true) ∧
      r.1.invalidTx = s.1.invalidTx ∧ r.1.pendingTx = s.1.pendingTx ∧
      r.1.spentOutputs = (spendInputs s.1 tx).spentOutputs ∧
      ∀ o ∈ r.1.utxos, o ∈ s.1.utxos ∨ o.hash = tx.txHash) := by
  obtain ⟨w, b, p⟩ := s
  unfold updateStep at e
  simp only at e ⊢
  by_cases h1 : tx.blockHeight = TX_UNCONFIRMED ∧ inputsInvalid w tx = true
  · rw [if_pos h1] at e
    cases e
    exact Or.inl ⟨h1.1, h1.2, rfl, rfl, rfl, rfl, rfl⟩
  · rw [if_neg h1] at e
    by_cases h2 : tx.blockHeight = TX_UNCONFIRMED ∧
        checkPending env now (spendInputs w tx) tx = true
    · rw [if_pos h2] at e
      cases e
      exact Or.inr (Or.inl ⟨h1, h2.1, h2.2, rfl, rfl, rfl, rfl, rfl⟩)
    · rw [if_neg h2] at e
      obtain ⟨a1, a2, a3, _, a5⟩ := outputsLoop_fields tx tx.outputs 0 (spendInputs w tx) b
      generalize outputsLoop tx tx.outputs 0 (spendInputs w tx, b) = q at e a1 a2 a3 a5
      obtain ⟨w2, b2⟩ := q
      simp only at e a1 a2 a3 a5
      split at e
      · cases e
      · next us b3 hs =>
        cases e
        refine Or.inr (Or.inr ⟨h1, h2, a1, a2, a3, ?_⟩)
        intro o ho
        exact a5 o (spentScan_subset w2 _ _ _ _ hs o ho)

theorem updateLoop_append (env : Env) (now : Nat) :
    ∀ (l1 l2 : List LWTransaction) (s : LWWallet × Nat × Nat),
      updateLoop env now (l1 ++ l2) s = (updateLoop env now l1 s).bind (updateLoop env now l2) := by
  intro l1
  induction l1 with
  | nil => intro l2 s; rfl
  | cons t rest ih =>
    intro l2 s
    rw [List.cons_append, updateLoop]
    cases h : updateStep env now s t with
    | none => rw [updateLoop, h]; rfl
    | some s1 =>
      simp only
      rw [ih]
      conv_rhs => rw [updateLoop, h]

/-! ### Wallet: the classification of invalid transactions -/

theorem inputsInvalid_iff (w : LWWallet) (tx : LWTransaction) :
    inputsInvalid w tx = true ↔
      ∃ inp ∈ tx.inputs, inp.outpoint ∈ w.spentOutputs ∨ inp.txHash ∈ w.invalidTx := by
  unfold inputsInvalid
  rw [List.any_eq_true]
  constructor
  · rintro ⟨i, hi, h⟩
    simp only [Bool.or_eq_true, decide_eq_true_eq] at h
    exact ⟨i, hi, h⟩
  · rintro ⟨i, hi, h⟩
    exact ⟨i, hi, by simpa using h⟩

theorem invalidAt_append_lt {l : List LWTransaction} {inv inv1 : List Nat} {i : Nat}
    {tx x : LWTransaction} (hi : i ≤ l.length)
    (hinv : ∀ t ∈ l, (t.txHash ∈ inv1 ↔ t.txHash ∈ inv)) :
    InvalidAt (l ++ [x]) inv1 i tx ↔ InvalidAt l inv i tx := by
  unfold InvalidAt
  have key : ∀ (j : Nat) (t : LWTransaction), j < i →
      ((l ++ [x])[j]? = some t ↔ l[j]? = some t) := by
    intro j t hj
    rw [List.getElem?_append_left (by omega)]
  constructor
  · rintro ⟨h1, inp, hm, h | h⟩
    · obtain ⟨j, t, hj, ht, hn, ho⟩ := h
      have ht1 := (key j t hj).1 ht
      exact ⟨h1, inp, hm, Or.inl ⟨j, t, hj, ht1,
        fun hc => hn ((hinv t (List.getElem?_mem ht1)).2 hc), ho⟩⟩
    · obtain ⟨j, t, hj, ht, hn, ho⟩ := h
      have ht1 := (key j t hj).1 ht
      exact ⟨h1, inp, hm, Or.inr ⟨j, t, hj, ht1, (hinv t (List.getElem?_mem ht1)).1 hn, ho⟩⟩
  · rintro ⟨h1, inp, hm, h | h⟩
    · obtain ⟨j, t, hj, ht, hn, ho⟩ := h
      exact ⟨h1, inp, hm, Or.inl ⟨j, t, hj, (key j t hj).2 ht,
        fun hc => hn ((hinv t (List.getElem?_mem ht)).1 hc), ho⟩⟩
    · obtain ⟨j, t, hj, ht, hn, ho⟩ := h
      exact ⟨h1, inp, hm, Or.inr ⟨j, t, hj, (key j t hj).2 ht,
        (hinv t (List.getElem?_mem ht)).2 hn, ho⟩⟩

theorem invalidAt_last_iff {l : List LWTransaction} {w : LWWallet} {tx : LWTransaction}
    (c : Classified l w) :
    InvalidAt l w.invalidTx l.length tx ↔
      (tx.blockHeight = TX_UNCONFIRMED ∧ inputsInvalid w tx = true) := by
  unfold InvalidAt
  rw [inputsInvalid_iff]
  constructor
  · rintro ⟨h1, inp, hm, h | h⟩
    · obtain ⟨j, t, _, ht, hn, ho⟩ := h
      exact ⟨h1, inp, hm, Or.inl ((c.spent _).2 ⟨t, List.getElem?_mem ht, hn, ho⟩)⟩
    · obtain ⟨j, t, _, ht, hn, ho⟩ := h
      exact ⟨h1, inp, hm, Or.inr (by rw [ho]; exact hn)⟩
  · rintro ⟨h1, inp, hm, h | h⟩
    · obtain ⟨t, ht, hn, ho⟩ := (c.spent _).1 h
      obtain ⟨j, hj⟩ := List.mem_iff_getElem?.1 ht
      have hlt : j < l.length := (List.getElem?_eq_some.1 hj).1
      exact ⟨h1, inp, hm, Or.inl ⟨j, t, hlt, hj, hn, ho⟩⟩
    · obtain ⟨t, ht, he⟩ := c.sub _ h
      obtain ⟨j, hj⟩ := List.mem_iff_getElem?.1 ht
      have hlt : j < l.length := (List.getElem?_eq_some.1 hj).1
      exact ⟨h1, inp, hm, Or.inr ⟨j, t, hlt, hj, by rw [he]; exact h, he.symm⟩⟩

theorem classified_step (env : Env) (now : Nat) (l : List LWTransaction)
    (s r : LWWallet × Nat × Nat) (tx : LWTransaction) (c : Classified l s.1)
    (hn : ∀ t ∈ l, t.txHash ≠ tx.txHash) (e : updateStep env now s tx = some r) :
    Classified (l ++ [tx]) r.1 := by
  have hnot : tx.txHash ∉ s.1.invalidTx := by
    intro h
    obtain ⟨t, ht, he⟩ := c.sub _ h
    exact hn t ht he
  have hlast : (l ++ [tx])[l.length]? = some tx := by
    rw [List.getElem?_append_right (Nat.le_refl _)]
    simp
  have hidx : ∀ (i : Nat) (x : LWTransaction), (l ++ [tx])[i]? = some x →
      (i < l.length ∧ l[i]? = some x) ∨ (i = l.length ∧ x = tx) := by
    intro i x hx
    have hlt : i < (l ++ [tx]).length := (List.getElem?_eq_some.1 hx).1
    rw [List.length_append, List.length_singleton] at hlt
    by_cases hi : i < l.length
    · left
      rw [List.getElem?_append_left hi] at hx
      exact ⟨hi, hx⟩
    · right
      have : i = l.length := by omega
      rw [this, hlast] at hx
      exact ⟨this, (Option.some.inj hx).symm⟩
  rcases updateStep_shape env now s r tx e with
    ⟨h1, h2, e1, _, e3, _, _⟩ | ⟨h1, _, _, e1, _, e3, _, _⟩ | ⟨h1, _, e1, _, e3, _⟩
  · -- classified invalid
    have hinv : ∀ t ∈ l, (t.txHash ∈ r.1.invalidTx ↔ t.txHash ∈ s.1.invalidTx) := by
      intro t ht
      rw [e1, mem_keyAdd]
      constructor
      · rintro (h | h)
        · exact h
        · exact absurd h (hn t ht)
      · intro h; exact Or.inl h
    refine ⟨?_, ?_, ?_⟩
    · intro h hh
      rw [e1, mem_keyAdd] at hh
      rcases hh with hh | hh
      · obtain ⟨t, ht, he⟩ := c.sub h hh
        exact ⟨t, List.mem_append_left _ ht, he⟩
      · exact ⟨tx, List.mem_append_right _ (List.mem_singleton_self _), hh.symm⟩
    · intro o
      rw [e3, c.spent]
      constructor
      · rintro ⟨t, ht, hni, ho⟩
        exact ⟨t, List.mem_append_left _ ht, fun hc => hni ((hinv t ht).1 hc), ho⟩
      · rintro ⟨t, ht, hni, ho⟩
        rcases List.mem_append.1 ht with ht | ht
        · exact ⟨t, ht, fun hc => hni ((hinv t ht).2 hc), ho⟩
        · rw [List.mem_singleton] at ht
          exfalso
          apply hni
          rw [ht, e1, mem_keyAdd]
          exact Or.inr rfl
    · intro i x hx
      rcases hidx i x hx with ⟨hi, hx1⟩ | ⟨hi, hx1⟩
      · rw [hinv x (List.getElem?_mem hx1), invalidAt_append_lt (Nat.le_of_lt hi) hinv]
        exact c.iff i x hx1
      · rw [hi, hx1, invalidAt_append_lt (Nat.le_refl _) hinv, invalidAt_last_iff c]
        constructor
        · intro _; exact ⟨h1, h2⟩
        · intro _
          rw [e1, mem_keyAdd]
          exact Or.inr rfl
  all_goals
    have hinv : ∀ t ∈ l, (t.txHash ∈ r.1.invalidTx ↔ t.txHash ∈ s.1.invalidTx) := by
      intro t _
      rw [e1]
    refine ⟨?_, ?_, ?_⟩
    · intro h hh
      rw [e1] at hh
      obtain ⟨t, ht, he⟩ := c.sub h hh
      exact ⟨t, List.mem_append_left _ ht, he⟩
    · intro o
      rw [e3, e1]
      unfold spendInputs
      simp only
      rw [mem_foldl_keyAdd LWTxInput.outpoint, c.spent]
      constructor
      · rintro (⟨t, ht, hni, ho⟩ | ho)
        · exact ⟨t, List.mem_append_left _ ht, hni, ho⟩
        · exact ⟨tx, List.mem_append_right _ (List.mem_singleton_self _), hnot, ho⟩
      · rintro ⟨t, ht, hni, ho⟩
        rcases List.mem_append.1 ht with ht | ht
        · exact Or.inl ⟨t, ht, hni, ho⟩
        · rw [List.mem_singleton] at ht
          rw [ht] at ho
          exact Or.inr ho
    · intro i x hx
      rcases hidx i x hx with ⟨hi, hx1⟩ | ⟨hi, hx1⟩
      · rw [hinv x (List.getElem?_mem hx1), invalidAt_append_lt (Nat.le_of_lt hi) hinv]
        exact c.iff i x hx1
      · rw [hi, hx1, invalidAt_append_lt (Nat.le_refl _) hinv, invalidAt_last_iff c, e1]
        constructor
        · intro h; exact absurd h hnot
        · intro h; exact absurd h h1

theorem classified_loop (env : Env) (now : Nat) :
    ∀ (rest l : List LWTransaction) (s r : LWWallet × Nat × Nat), Classified l s.1 →
      ((l ++ rest).map (fun t => t.txHash)).Nodup → updateLoop env now rest s = some r →
      Classified (l ++ rest) r.1 := by
  intro rest
  induction rest with
  | nil =>
    intro l s r c _ e
    rw [updateLoop] at e
    cases e
    rw [List.append_nil]
    exact c
  | cons tx rest ih =>
    intro l s r c hn e
    rw [updateLoop] at e
    split at e
    · cases e
    · next s1 h1 =>
      have hne : ∀ t ∈ l, t.txHash ≠ tx.txHash := by
        intro t ht he
        rw [List.map_append, List.map_cons] at hn
        have := (List.nodup_middle.1 hn)
        rw [List.nodup_cons] at this
        apply this.1
        rw [← he]
        exact List.mem_append_left _ (List.mem_map_of_mem _ ht)
      have c1 := classified_step env now l s s1 tx c hne h1
      have := ih (l ++ [tx]) s1 r c1 (by rw [List.append_assoc]; exact hn) e
      rw [List.append_assoc] at this
      exact this

theorem updateBalance_classified (env : Env) (now : Nat) (w w1 : LWWallet)
    (hn : (w.transactions.map (fun t => t.txHash)).Nodup)
    (e : _LWWalletUpdateBalance env now w = some w1) :
    w1.transactions = w.transactions ∧ Classified w.transactions w1 := by
  unfold _LWWalletUpdateBalance at e
  split at e
  · cases e
  · next s b p hl =>
    split at e
    · cases e
      have c0 : Classified [] (cleared w) := by
        refine ⟨?_, ?_, ?_⟩
        · intro h hh; cases hh
        · intro o
          constructor
          · intro h; cases h
          · rintro ⟨t, ht, _⟩; cases ht
        · intro i x hx; cases hx
      have c := classified_loop env now w.transactions [] (cleared w, 0, 0) (s, b, p) c0
        (by rw [List.nil_append]; exact hn) hl
      rw [List.nil_append] at c
      have ht := (updateLoop_hist env now _ _ _ hl).2
      exact ⟨ht, ⟨c.sub, c.spent, c.iff⟩⟩
    · cases e

/-! ### Wallet: the recomputation does not depend on what it overwrites -/

theorem outputsLoop_rebase (a l : List LWTransaction) (x : Nat) (tx : LWTransaction) :
    ∀ (rest : List LWTxOutput) (j : Nat) (w : LWWallet) (b : Nat),
      outputsLoop tx rest j (rebase a l x w, b) =
        (rebase a l x (outputsLoop tx rest j (w, b)).1, (outputsLoop tx rest j (w, b)).2) := by
  intro rest
  induction rest with
  | nil => intro j w b; rfl
  | cons o rest ih =>
    intro j w b
    unfold outputsLoop
    simp only
    have e : (rebase a l x w).allAddrs = w.allAddrs := rfl
    rw [e]
    split_ifs
    · exact ih (j + 1)
        { w with usedAddrs := keyAdd w.usedAddrs o.address,
                 utxos := w.utxos ++ [{ hash := tx.txHash, n := j }] } _
    · exact ih (j + 1) { w with usedAddrs := keyAdd w.usedAddrs o.address } _
    · exact ih (j + 1) w _

theorem spentScan_rebase (a l : List LWTransaction) (x : Nat) (w : LWWallet) :
    ∀ (us : List LWUTXO) (b : Nat),
      (∀ o ∈ us, ∃ out, outputAt w.allTx o = some out ∧ outputAt a o = some out) →
      spentScan (rebase a l x w) us b = spentScan w us b := by
  intro us
  induction us with
  | nil => intro b _; rfl
  | cons o rest ih =>
    intro b h
    rw [spentScan, spentScan, ih b (fun u hu => h u (List.mem_cons_of_mem _ hu))]
    cases hs : spentScan w rest b with
    | none => rfl
    | some q =>
      obtain ⟨r1, b1⟩ := q
      simp only
      have e : (rebase a l x w).spentOutputs = w.spentOutputs := rfl
      rw [e]
      split
      · obtain ⟨out, h1, h2⟩ := h o (List.mem_cons_self _ _)
        obtain ⟨t, h3, h4⟩ := outputAt_hash h1
        obtain ⟨t1, h5, h6⟩ := outputAt_hash h2
        have e2 : (rebase a l x w).allTx = a := rfl
        rw [e2, h3, h5]
        simp only [h4, h6]
      · rfl

theorem updateStep_rebase (env : Env) (now : Nat) (a l : List LWTransaction) (x : Nat)
    (w : LWWallet) (b p : Nat) (tx : LWTransaction) (hs : Sound w b)
    (htx : txGet w.allTx tx.txHash = some tx)
    (ha : ∀ o out, outputAt w.allTx o = some out → outputAt a o = some out) :
    updateStep env now (rebase a l x w, b, p) tx =
      (updateStep env now (w, b, p) tx).map (fun r => (rebase a l x r.1, r.2)) := by
  unfold updateStep
  simp only
  have e1 : inputsInvalid (rebase a l x w) tx = inputsInvalid w tx := rfl
  have e2 : spendInputs (rebase a l x w) tx = rebase a l x (spendInputs w tx) := rfl
  have e3 : ∀ v, checkPending env now (rebase a l x v) tx = checkPending env now v tx :=
    fun _ => rfl
  rw [e1, e2, e3]
  by_cases h1 : tx.blockHeight = TX_UNCONFIRMED ∧ inputsInvalid w tx = true
  · rw [if_pos h1, if_pos h1]
    rfl
  · rw [if_neg h1, if_neg h1]
    by_cases h2 : tx.blockHeight = TX_UNCONFIRMED ∧
        checkPending env now (spendInputs w tx) tx = true
    · rw [if_pos h2, if_pos h2]
      rfl
    · rw [if_neg h2, if_neg h2, outputsLoop_rebase]
      obtain ⟨used, utxos, _, hs1⟩ := outputsLoop_spec tx tx.outputs 0 (spendInputs w tx) b
        (fun k out hk => by rw [Nat.zero_add]; exact hk) htx ⟨hs.bal, hs.valid⟩
      obtain ⟨_, _, _, hall, _⟩ := outputsLoop_fields tx tx.outputs 0 (spendInputs w tx) b
      generalize outputsLoop tx tx.outputs 0 (spendInputs w tx, b) = q at hs1 hall
      obtain ⟨w2, b2⟩ := q
      simp only at hs1 hall ⊢
      have e4 : (rebase a l x w2).utxos = w2.utxos := rfl
      rw [e4, spentScan_rebase a l x w2 w2.utxos b2 (fun o ho => by
        obtain ⟨out, h3, _⟩ := hs1.valid o ho
        refine ⟨out, h3, ?_⟩
        apply ha
        have hall1 : w2.allTx = w.allTx := hall
        rw [← hall1]
        exact h3)]
      cases spentScan w2 w2.utxos b2 with
      | none => rfl
      | some q => rfl

theorem updateLoop_rebase (env : Env) (now : Nat) (a l full : List LWTransaction) (x : Nat) :
    ∀ (rest : List LWTransaction) (s : LWWallet × Nat × Nat),
      (∀ t ∈ rest, t ∈ full) → (∀ t ∈ rest, txGet s.1.allTx t.txHash = some t) →
      Good full s.1 s.2.1 →
      (∀ o out, outputAt s.1.allTx o = some out → outputAt a o = some out) →
      updateLoop env now rest (rebase a l x s.1, s.2) =
        (updateLoop env now rest s).map (fun r => (rebase a l x r.1, r.2)) := by
  intro rest
  induction rest with
  | nil => intro s _ _ _ _; rfl
  | cons tx rest ih =>
    intro s hf hx hg ha
    obtain ⟨w, b, p⟩ := s
    simp only at hx hg ha ⊢
    rw [updateLoop, updateLoop,
      updateStep_rebase env now a l x w b p tx hg.sound (hx tx (List.mem_cons_self _ _)) ha]
    obtain ⟨s1, e1, g1, f1, _⟩ := updateStep_spec env now full (w, b, p) tx hg
      (hf tx (List.mem_cons_self _ _)) (hx tx (List.mem_cons_self _ _))
    rw [e1]
    simp only [Option.map_some']
    exact ih s1 (fun t ht => hf t (List.mem_cons_of_mem _ ht))
      (fun t ht => by rw [f1.allTx]; exact hx t (List.mem_cons_of_mem _ ht)) g1
      (by rw [f1.allTx]; exact ha)

/-! ### Wallet: registration and removal -/

theorem register_added (env : Env) (now : Nat) (w w1 : LWWallet) (tx : LWTransaction) (r : Bool)
    (events : List Event) (hn : txContains w.allTx tx.txHash = false)
    (hc : _LWWalletContainsTx w tx = true)
    (e : LWWalletRegisterTransaction env now w tx = some (r, w1, events)) :
    r = true ∧ events = [Event.balanceChanged w1.balance, Event.txAdded tx] ∧
      ∃ list wu, _LWWalletInsertTx { w with allTx := txAdd w.allTx tx } tx = some list ∧
        _LWWalletUpdateBalance env now
          { w with allTx := txAdd w.allTx tx, transactions := list } = some wu ∧
        (wu.allAddrs = w.allAddrs → wu.internalChain = w.internalChain →
          wu.externalChain = w.externalChain →
          (∀ a ∈ w.allAddrs, a ∈ w.internalChain ∨ a ∈ w.externalChain) → AddrGrow wu w1) := by
  unfold LWWalletRegisterTransaction at e
  split at e
  · cases e
  · simp only [hn, hc, if_true, Bool.false_eq_true, if_false] at e
    split at e
    · cases e
    · next list hins =>
      split at e
      · cases e
      · next wu hu =>
        split at e
        · cases e
        · next x w3 h3 =>
          split at e
          · cases e
          · next y w4 h4 =>
            cases e
            refine ⟨rfl, rfl, list, wu, hins, hu, ?_⟩
            intro a1 a2 a3 a4
            have hw : ∀ a ∈ wu.allAddrs, a ∈ wu.internalChain ∨ a ∈ wu.externalChain := by
              rw [a1, a2, a3]; exact a4
            have g3 := unusedAddrs_grow env _ _ _ _ _ _ hw h3
            exact g3.comp (unusedAddrs_grow env _ _ _ _ _ _ g3.chains h4)

theorem dependents_nil (tx : LWTransaction) (h : Nat) :
    ∀ (l : List LWTransaction), (∀ t ∈ l, t.txHash = tx.txHash ∨ ¬ spends t h) →
      dependents tx h l = [] := by
  intro l
  induction l with
  | nil => intro _; rfl
  | cons t rest ih =>
    intro hl
    have ihr := ih (fun u hu => hl u (List.mem_cons_of_mem _ hu))
    rw [dependents]
    split
    · rfl
    · split
      · exact ihr
      · next hne =>
        split
        · next hany =>
          exfalso
          rcases hl t (List.mem_cons_self _ _) with h1 | h1
          · exact hne h1.symm
          · apply h1
            rw [List.any_eq_true] at hany
            obtain ⟨i, hi, he⟩ := hany
            exact ⟨i, hi, by simpa using he⟩
        · exact ihr

theorem removeListed_middle (pre post : List LWTransaction) (tx : LWTransaction)
    (h : ∀ u ∈ post, u.txHash ≠ tx.txHash) :
    removeListed (pre ++ tx :: post) tx.txHash = pre ++ post := by
  unfold removeListed
  rw [List.reverse_append, List.reverse_cons, List.append_assoc,
    List.eraseP_append_right _ (by
      intro b hb
      have := h b (List.mem_reverse.1 hb)
      simpa using this)]
  rw [List.singleton_append, List.eraseP_cons_of_pos (by simp)]
  rw [List.reverse_append, List.reverse_reverse, List.reverse_reverse]

theorem updateBalance_rebase (env : Env) (now : Nat) (w v : LWWallet) (hl : ListedInAllTx w)
    (h1 : cleared v = rebase w.allTx w.transactions v.balance (cleared w)) :
    _LWWalletUpdateBalance env now v = _LWWalletUpdateBalance env now w := by
  obtain ⟨s1, e1, g1, f1, n1⟩ := updateLoop_spec env now w.transactions w.transactions
    (cleared w, 0, 0) (fun t ht => ht) hl
    ⟨by simp [cleared, utxoSum], by simp [cleared], by simp [cleared]⟩
  have hvt : v.transactions = w.transactions := by
    have := congrArg LWWallet.transactions h1
    exact this
  have key := updateLoop_rebase env now w.allTx w.transactions w.transactions v.balance
    w.transactions (cleared w, 0, 0) (fun t ht => ht) hl
    ⟨by simp [cleared, utxoSum], by simp [cleared], by simp [cleared]⟩ (fun o out h => h)
  simp only at key
  unfold _LWWalletUpdateBalance
  rw [hvt, h1, key, e1]
  obtain ⟨w1, b1, p1⟩ := s1
  simp only [Option.map_some']
  have ha : w1.allTx = w.allTx := f1.allTx
  have ht : w1.transactions = w.transactions := f1.transactions
  have e2 : (rebase w.allTx w.transactions v.balance w1).balanceHist = w1.balanceHist := rfl
  have e3 : (rebase w.allTx w.transactions v.balance w1).transactions = w1.transactions := by
    rw [ht]; rfl
  rw [e2, e3]
  split
  · congr 1
    unfold rebase
    rw [← ha, ← ht]
  · rfl

/-! ### Wallet: concrete states -/

theorem eq_some_getD {α : Type} (o : Option α) (d : α) (h : o.isSome = true) :
    o = some (o.getD d) := by
  cases o with
  | none => cases h
  | some a => rfl

theorem reached_registerAll (env : Env) (now : Nat) :
    ∀ (l : List LWTransaction) (w w1 : LWWallet), WalletReached env w →
      registerAll env now w l = some w1 → WalletReached env w1 := by
  intro l
  induction l with
  | nil =>
    intro w w1 h e
    cases e
    exact h
  | cons tx rest ih =>
    intro w w1 h e
    rw [registerAll] at e
    split at e
    · cases e
    · next r w2 events hr =>
      exact ih w2 w1 (WalletReached.register now w w2 tx r events h hr) e

theorem walletOf_reached (l : List LWTransaction) (w : LWWallet) (h : walletOf l = some w) :
    WalletReached sampleEnv w := by
  unfold walletOf freshWallet at h
  cases h0 : LWWalletNew sampleEnv 0 [] with
  | none => rw [h0] at h; cases h
  | some o =>
    cases o with
    | none => rw [h0] at h; cases h
    | some w0 =>
      rw [h0] at h
      exact reached_registerAll sampleEnv 0 l w0 w (WalletReached.new 0 [] w0 h0) h

theorem walletOfD_reached (l : List LWTransaction) (h : (walletOf l).isSome = true) :
    WalletReached sampleEnv (walletOfD l) :=
  walletOf_reached l _ (eq_some_getD _ _ h)

theorem txFee_mono (k f1 f2 size : Nat) (h : f1 ≤ f2) (h2 : size * f2 < 2 ^ 64) :
    _txFee k f1 size ≤ _txFee k f2 size := by
  have h1 : size * f1 ≤ size * f2 := Nat.mul_le_mul_left _ h
  have e1 : (size * f1) % 2 ^ 64 = size * f1 := Nat.mod_eq_of_lt (by omega)
  have e2 : (size * f2) % 2 ^ 64 = size * f2 := Nat.mod_eq_of_lt h2
  have d : size * f1 / 1000 ≤ size * f2 / 1000 := Nat.div_le_div_right h1
  have b2 : size * f2 / 1000 + 99 < 2 ^ 64 := by omega
  have e3 : (size * f1 / 1000 + 99) % 2 ^ 64 = size * f1 / 1000 + 99 :=
    Nat.mod_eq_of_lt (by omega)
  have e4 : (size * f2 / 1000 + 99) % 2 ^ 64 = size * f2 / 1000 + 99 := Nat.mod_eq_of_lt b2
  have d2 : (size * f1 / 1000 + 99) / 100 * 100 ≤ (size * f2 / 1000 + 99) / 100 * 100 :=
    Nat.mul_le_mul_right _ (Nat.div_le_div_right (by omega))
  have b3 : (size * f2 / 1000 + 99) / 100 * 100 < 2 ^ 64 := by omega
  have e5 : ((size * f1 / 1000 + 99) / 100 * 100) % 2 ^ 64 =
      (size * f1 / 1000 + 99) / 100 * 100 := Nat.mod_eq_of_lt (by omega)
  have e6 : ((size * f2 / 1000 + 99) / 100 * 100) % 2 ^ 64 =
      (size * f2 / 1000 + 99) / 100 * 100 := Nat.mod_eq_of_lt b3
  unfold _txFee
  simp only [e1, e2, e3, e4, e5, e6]
  split_ifs <;> omega

/-! ### Wallet: the fee for an amount -/

/-- C11 (as stated, refuted): in a reached wallet with two confirmed coins of 11546 and
100054, `LWWalletFeeForTxAmount` for the amount 10000 reports the fee 1546 with
`feePerKb` 1000 and the lower fee 1000 with `feePerKb` 1002. -/
theorem feeForTxAmount_not_monotone :
    WalletReached sampleEnv (LWWalletSetFeePerKb twoCoinWallet 1000) ∧
      WalletReached sampleEnv (LWWalletSetFeePerKb twoCoinWallet 1002) ∧
      (LWWalletFeeForTxAmount sampleEnv 1 (LWWalletSetFeePerKb twoCoinWallet 1000) 10000).map
        Prod.fst = some 1546 ∧
      (LWWalletFeeForTxAmount sampleEnv 1 (LWWalletSetFeePerKb twoCoinWallet 1002) 10000).map
        Prod.fst = some 1000 :=
  ⟨WalletReached.setFeePerKb _ 1000 (walletOfD_reached _ (by decide)),
    WalletReached.setFeePerKb _ 1002 (walletOfD_reached _ (by decide)), by decide, by decide⟩

/-- C11 (amended): the fee that `LWWalletFeeForTxSize` reports for a transaction size is
monotone in the wallet's `feePerKb`, when the product of the size and the larger
`feePerKb` is below 2^64. -/
theorem feeForTxSize_monotone (env : Env) (w : LWWallet) (feePerKb1 feePerKb2 size : Nat)
    (h : feePerKb1 ≤ feePerKb2) (hb : size * feePerKb2 < 2 ^ 64) :
    LWWalletFeeForTxSize env.TX_FEE_PER_KB (LWWalletSetFeePerKb w feePerKb1).feePerKb size ≤
      LWWalletFeeForTxSize env.TX_FEE_PER_KB (LWWalletSetFeePerKb w feePerKb2).feePerKb size :=
  txFee_mono _ _ _ _ h hb

/-- C11 (amended), at the wallet with two coins, the size 226 and the values 1000 and
1002 of `feePerKb`. -/
theorem feeForTxSize_monotone_witness :
    (1000 ≤ 1002 ∧ 226 * 1002 < 2 ^ 64) ∧
      LWWalletFeeForTxSize sampleEnv.TX_FEE_PER_KB
          (LWWalletSetFeePerKb twoCoinWallet 1000).feePerKb 226 ≤
        LWWalletFeeForTxSize sampleEnv.TX_FEE_PER_KB
          (LWWalletSetFeePerKb twoCoinWallet 1002).feePerKb 226 :=
  ⟨⟨by decide, by decide⟩,
    feeForTxSize_monotone sampleEnv twoCoinWallet 1000 1002 226 (by decide) (by decide)⟩

/-! ### Wallet: the invariants of the derived state -/

/-- C12: in every wallet state reached through the public operations that change the
state, `balanceHist` has as many entries as `transactions`. -/
theorem balanceHist_length_eq (env : Env) (w : LWWallet) (h : WalletReached env w) :
    w.balanceHist.length = w.transactions.length :=
  (reached_inv_wallet env w h).hist

/-- C12, at the wallet with two confirmed coins. -/
theorem balanceHist_length_eq_witness :
    WalletReached sampleEnv twoCoinWallet ∧
      twoCoinWallet.balanceHist.length = twoCoinWallet.transactions.length :=
  ⟨walletOfD_reached _ (by decide),
    balanceHist_length_eq sampleEnv twoCoinWallet (walletOfD_reached _ (by decide))⟩

/-- C13 (as stated, refuted): after registering a transaction with two outputs of 2^63
each to wallet addresses, both outputs are in `utxos`, their amounts sum to 2^64, and
`balance` is 0. -/
theorem balance_wraps :
    WalletReached sampleEnv (walletOfD [hugeTx]) ∧
      (walletOfD [hugeTx]).utxos = [{ hash := 1, n := 0 }, { hash := 1, n := 1 }] ∧
      utxoSum (walletOfD [hugeTx]).allTx (walletOfD [hugeTx]).utxos = 2 ^ 64 ∧
      (walletOfD [hugeTx]).balance = 0 :=
  ⟨walletOfD_reached _ (by decide), by decide, by decide, by decide⟩

/-- C13 (amended): the recomputation by `_LWWalletUpdateBalance` of a wallet `w` whose
listed transactions are the transactions of `allTx` returns, and afterwards `balance` is
the sum of the amounts of the outputs that the outpoints of `utxos` refer to, modulo
2^64; the same holds of every wallet state `v` reached through the public operations. -/
theorem balance_eq_utxoSum_mod (env : Env) (now : Nat) (w v : LWWallet)
    (hl : ListedInAllTx w) (hv : WalletReached env v) :
    (∃ w1, _LWWalletUpdateBalance env now w = some w1 ∧
      w1.balance = utxoSum w1.allTx w1.utxos % 2 ^ 64) ∧
      v.balance = utxoSum v.allTx v.utxos % 2 ^ 64 := by
  obtain ⟨w1, e, _, g, _⟩ := updateBalance_spec env now w hl
  exact ⟨⟨w1, e, g.bal⟩, (reached_inv_wallet env v hv).good.bal⟩

/-- C13 (amended), at the wallet with the two outputs of 2^63. -/
theorem balance_eq_utxoSum_mod_witness :
    (ListedInAllTx (walletOfD [hugeTx]) ∧ WalletReached sampleEnv (walletOfD [hugeTx])) ∧
      (∃ w1, _LWWalletUpdateBalance sampleEnv 0 (walletOfD [hugeTx]) = some w1 ∧
        w1.balance = utxoSum w1.allTx w1.utxos % 2 ^ 64) ∧
      (walletOfD [hugeTx]).balance =
        utxoSum (walletOfD [hugeTx]).allTx (walletOfD [hugeTx]).utxos % 2 ^ 64 :=
  ⟨⟨(reached_inv_wallet _ _ (walletOfD_reached _ (by decide))).listed,
      walletOfD_reached _ (by decide)⟩,
    balance_eq_utxoSum_mod sampleEnv 0 (walletOfD [hugeTx]) (walletOfD [hugeTx])
      (reached_inv_wallet _ _ (walletOfD_reached _ (by decide))).listed
      (walletOfD_reached _ (by decide))⟩

/-- C14 (as stated, refuted): after registering a confirmed transaction that pays the
wallet and an unconfirmed transaction that spends that output with the sequence number
0xfffffffd, the outpoint is in `utxos` and in `spentOutputs`. -/
theorem utxo_in_spentOutputs :
    WalletReached sampleEnv replaceableSpendWallet ∧
      ({ hash := 1, n := 0 } : LWUTXO) ∈ replaceableSpendWallet.utxos ∧
      ({ hash := 1, n := 0 } : LWUTXO) ∈ replaceableSpendWallet.spentOutputs :=
  ⟨walletOfD_reached _ (by decide), by decide, by decide⟩

/-- C14 (amended): in every wallet state reached through the public operations, for
every outpoint `o` of `utxos` the transaction with the hash `o.hash` is in `allTx`, `o.n`
is below the number of its outputs, the address of that output is in `allAddrs`, and `o`
is in `spentOutputs` only when a listed transaction that is in `pendingTx` spends it. -/
theorem utxos_refer_to_wallet_outputs (env : Env) (w : LWWallet) (o : LWUTXO)
    (h : WalletReached env w) (ho : o ∈ w.utxos) :
    ∃ t out, txGet w.allTx o.hash = some t ∧ o.n < t.outputs.length ∧
      t.outputs[o.n]? = some out ∧ out.address ∈ w.allAddrs ∧
      (o ∈ w.spentOutputs →
        ∃ p ∈ w.transactions, p.txHash ∈ w.pendingTx ∧
          o ∈ p.inputs.map LWTxInput.outpoint) := by
  have inv := reached_inv_wallet env w h
  obtain ⟨out, e, ha⟩ := inv.good.valid o ho
  unfold outputAt at e
  cases ht : txGet w.allTx o.hash with
  | none => rw [ht] at e; cases e
  | some t =>
    rw [ht] at e
    have e1 : t.outputs[o.n]? = some out := e
    refine ⟨t, out, rfl, ?_, e1, ha, inv.good.spent o ho⟩
    by_contra hn
    rw [List.getElem?_eq_none (by omega)] at e1
    cases e1

/-- C14 (amended), at the wallet whose coin an unconfirmed replaceable transaction
spends. -/
theorem utxos_refer_to_wallet_outputs_witness :
    (WalletReached sampleEnv replaceableSpendWallet ∧
      ({ hash := 1, n := 0 } : LWUTXO) ∈ replaceableSpendWallet.utxos) ∧
    ∃ t out, txGet replaceableSpendWallet.allTx 1 = some t ∧ 0 < t.outputs.length ∧
      t.outputs[0]? = some out ∧ out.address ∈ replaceableSpendWallet.allAddrs ∧
      (({ hash := 1, n := 0 } : LWUTXO) ∈ replaceableSpendWallet.spentOutputs →
        ∃ p ∈ replaceableSpendWallet.transactions,
          p.txHash ∈ replaceableSpendWallet.pendingTx ∧
          ({ hash := 1, n := 0 } : LWUTXO) ∈ p.inputs.map LWTxInput.outpoint) :=
  ⟨⟨walletOfD_reached _ (by decide), by decide⟩,
    utxos_refer_to_wallet_outputs sampleEnv replaceableSpendWallet { hash := 1, n := 0 }
      (walletOfD_reached _ (by decide)) (by decide)⟩

/-- C15 (refuted): `LWWalletRegisterTransaction` of a confirmed transaction that pays the
first and the eleventh external address, in the wallet that `LWWalletNew` creates without
transactions.  The transaction is listed and neither invalid nor pending, the eleventh
address is in `allAddrs` afterwards, output 1 is not in `spentOutputs`, and yet it is not
in `utxos`: the balance is 10000.  `LWWalletNew` with the same transaction has both
outputs in `utxos` and the balance 30000. -/
theorem register_misses_output :
    WalletReached sampleEnv (walletOfD [aheadTx]) ∧
      (walletOfD [aheadTx]).transactions = [aheadTx] ∧
      aheadTx.txHash ∉ (walletOfD [aheadTx]).invalidTx ∧
      aheadTx.txHash ∉ (walletOfD [aheadTx]).pendingTx ∧
      (aheadTx.outputs[1]?).map (fun o => o.address) = some "eeeeeeeeeee" ∧
      "eeeeeeeeeee" ∈ (walletOfD [aheadTx]).allAddrs ∧
      ({ hash := 1, n := 1 } : LWUTXO) ∉ (walletOfD [aheadTx]).spentOutputs ∧
      ({ hash := 1, n := 1 } : LWUTXO) ∉ (walletOfD [aheadTx]).utxos ∧
      (walletOfD [aheadTx]).balance = 10000 ∧
      (LWWalletNew sampleEnv 0 [aheadTx]).join.map (fun w => (w.utxos, w.balance)) =
        some ([{ hash := 1, n := 0 }, { hash := 1, n := 1 }], 30000) :=
  ⟨walletOfD_reached _ (by decide), by decide, by decide, by decide, by decide, by decide,
    by decide, by decide, by decide, by decide⟩

/-- C17: `LWWalletRegisterTransaction` of a signed transaction whose hash is in `allTx`
returns 1, leaves the wallet as it is and invokes no callback. -/
theorem register_again_noop (env : Env) (now : Nat) (w : LWWallet) (tx : LWTransaction)
    (hs : env.LWTransactionIsSigned tx = true) (hc : txContains w.allTx tx.txHash = true) :
    LWWalletRegisterTransaction env now w tx = some (true, w, []) := by
  unfold LWWalletRegisterTransaction
  simp only [hs, hc, if_true, Bool.true_eq_false, if_false]

/-- C17, at the wallet with two confirmed coins and its first transaction. -/
theorem register_again_noop_witness :
    (sampleEnv.LWTransactionIsSigned (confirmedAt (sampleTx 1 8 0 UINT32_MAX "e" 11546) 100)
        = true ∧
      txContains twoCoinWallet.allTx
        (confirmedAt (sampleTx 1 8 0 UINT32_MAX "e" 11546) 100).txHash = true) ∧
      LWWalletRegisterTransaction sampleEnv 7 twoCoinWallet
        (confirmedAt (sampleTx 1 8 0 UINT32_MAX "e" 11546) 100) =
        some (true, twoCoinWallet, []) :=
  ⟨⟨by decide, by decide⟩,
    register_again_noop sampleEnv 7 twoCoinWallet
      (confirmedAt (sampleTx 1 8 0 UINT32_MAX "e" 11546) 100) (by decide) (by decide)⟩

/-- C20 (as stated, refuted): after registering the unconfirmed transactions 2 (which
spends an output of transaction 1), 3 and 1 (which both spend the outpoint (8, 0)), the
list is 2, 3, 1 and `invalidTx` holds transaction 1 only: transaction 2 is unconfirmed and
has an input that refers to a transaction that is in `invalidTx`, and is not in
`invalidTx`. -/
theorem child_of_invalid_not_invalid :
    WalletReached sampleEnv
        (walletOfD [childTx, sampleTx 3 8 0 UINT32_MAX "e" 6000, parentTx]) ∧
      (walletOfD [childTx, sampleTx 3 8 0 UINT32_MAX "e" 6000, parentTx]).transactions =
        [childTx, sampleTx 3 8 0 UINT32_MAX "e" 6000, parentTx] ∧
      (walletOfD [childTx, sampleTx 3 8 0 UINT32_MAX "e" 6000, parentTx]).invalidTx = [1] ∧
      childTx.blockHeight = TX_UNCONFIRMED ∧
      (∃ i ∈ childTx.inputs, i.txHash ∈
        (walletOfD [childTx, sampleTx 3 8 0 UINT32_MAX "e" 6000, parentTx]).invalidTx) ∧
      childTx.txHash ∉
        (walletOfD [childTx, sampleTx 3 8 0 UINT32_MAX "e" 6000, parentTx]).invalidTx :=
  ⟨walletOfD_reached _ (by decide), by decide, by decide, by decide, by decide, by decide⟩

/-- C20 (amended): the recomputation by `_LWWalletUpdateBalance` of a wallet whose listed
transactions are the transactions of `allTx` and have pairwise different hashes returns,
it keeps the list, and afterwards the transaction at position `i` of the list is in
`invalidTx` if and only if it is unconfirmed and one of its inputs is an outpoint spent by
a transaction earlier in the list that is not in `invalidTx`, or refers to a transaction
earlier in the list that is in `invalidTx`; a confirmed listed transaction is not in
`invalidTx`. -/
theorem invalidTx_iff (env : Env) (now : Nat) (w : LWWallet) (hl : ListedInAllTx w)
    (hn : (w.transactions.map (fun t => t.txHash)).Nodup) :
    ∃ w1, _LWWalletUpdateBalance env now w = some w1 ∧ w1.transactions = w.transactions ∧
      ∀ (i : Nat) (tx : LWTransaction), w1.transactions[i]? = some tx →
        (tx.txHash ∈ w1.invalidTx ↔ InvalidAt w1.transactions w1.invalidTx i tx) ∧
        (tx.blockHeight ≠ TX_UNCONFIRMED → tx.txHash ∉ w1.invalidTx) := by
  obtain ⟨w1, e, _, _, _⟩ := updateBalance_spec env now w hl
  obtain ⟨ht, c⟩ := updateBalance_classified env now w w1 hn e
  refine ⟨w1, e, ht, ?_⟩
  intro i tx hi
  rw [ht] at hi ⊢
  have hiff := c.iff i tx hi
  refine ⟨hiff, ?_⟩
  intro hc hm
  exact hc (hiff.1 hm).1

/-- C20 (amended), at the wallet with the transactions 2, 3, 1. -/
theorem invalidTx_iff_witness :
    (ListedInAllTx (walletOfD [childTx, sampleTx 3 8 0 UINT32_MAX "e" 6000, parentTx]) ∧
      ((walletOfD [childTx, sampleTx 3 8 0 UINT32_MAX "e" 6000, parentTx]).transactions.map
        (fun t => t.txHash)).Nodup) ∧
    ∃ w1, _LWWalletUpdateBalance sampleEnv 0
        (walletOfD [childTx, sampleTx 3 8 0 UINT32_MAX "e" 6000, parentTx]) = some w1 ∧
      w1.transactions =
        (walletOfD [childTx, sampleTx 3 8 0 UINT32_MAX "e" 6000, parentTx]).transactions ∧
      ∀ (i : Nat) (tx : LWTransaction), w1.transactions[i]? = some tx →
        (tx.txHash ∈ w1.invalidTx ↔ InvalidAt w1.transactions w1.invalidTx i tx) ∧
        (tx.blockHeight ≠ TX_UNCONFIRMED → tx.txHash ∉ w1.invalidTx) :=
  ⟨⟨(reached_inv_wallet _ _ (walletOfD_reached _ (by decide))).listed,
      (reached_inv_wallet _ _ (walletOfD_reached _ (by decide))).nodup⟩,
    invalidTx_iff sampleEnv 0
      (walletOfD [childTx, sampleTx 3 8 0 UINT32_MAX "e" 6000, parentTx])
      (reached_inv_wallet _ _ (walletOfD_reached _ (by decide))).listed
      (reached_inv_wallet _ _ (walletOfD_reached _ (by decide))).nodup⟩

/-! ### Wallet: the order of the list -/

theorem register_added_spec (env : Env) (now : Nat) (w w1 : LWWallet) (tx : LWTransaction)
    (r : Bool) (events : List Event) (h : BaseInv w)
    (hn : txContains w.allTx tx.txHash = false) (hc : _LWWalletContainsTx w tx = true)
    (e : LWWalletRegisterTransaction env now w tx = some (r, w1, events)) :
    r = true ∧ events = [Event.balanceChanged w1.balance, Event.txAdded tx] ∧
      ∃ list wu, _LWWalletInsertTx { w with allTx := txAdd w.allTx tx } tx = some list ∧
        _LWWalletUpdateBalance env now
          { w with allTx := txAdd w.allTx tx, transactions := list } = some wu ∧
        Frame { w with allTx := txAdd w.allTx tx, transactions := list } wu ∧
        WalletInv wu ∧ AddrGrow wu w1 := by
  obtain ⟨hr, hev, list, wu, hins, hu, hg⟩ := register_added env now w w1 tx r events hn hc e
  refine ⟨hr, hev, list, wu, hins, hu, ?_⟩
  have hno : txGet w.allTx tx.txHash = none := txContains_false.1 hn
  have hp := insertTx_perm _ _ _ hins
  have hb : BaseInv { w with allTx := txAdd w.allTx tx, transactions := list } :=
    add_listed_base tx h hno rfl hp rfl rfl rfl
  obtain ⟨w2, e2, f2, i2⟩ := inv_recompute env now _ hb
  rw [hu] at e2
  cases e2
  exact ⟨f2, i2, hg f2.allAddrs f2.internalChain f2.externalChain h.addrs⟩

theorem register_transactions (env : Env) (now : Nat) (w w1 : LWWallet) (tx : LWTransaction)
    (r : Bool) (events : List Event) (h : BaseInv w)
    (e : LWWalletRegisterTransaction env now w tx = some (r, w1, events)) :
    w1.transactions = w.transactions ∨
      ∃ list, _LWWalletInsertTx { w with allTx := txAdd w.allTx tx } tx = some list ∧
        w1.transactions = list := by
  by_cases hn : txContains w.allTx tx.txHash = true
  · left
    unfold LWWalletRegisterTransaction at e
    split at e
    · cases e
    · cases e
      rfl
  · by_cases hc : _LWWalletContainsTx w tx = true
    · right
      obtain ⟨_, _, list, wu, hins, _, f, _, g⟩ :=
        register_added_spec env now w w1 tx r events h (by simpa using hn) hc e
      refine ⟨list, hins, ?_⟩
      rw [g.eq]
      exact f.transactions
    · left
      unfold LWWalletRegisterTransaction at e
      split at e
      · cases e
      · split at e <;> cases e <;> rfl

theorem spends_iff_any (b : LWTransaction) (h : Nat) :
    b.inputs.any (fun i => i.txHash == h) = true ↔ spends b h := by
  unfold spends
  rw [List.any_eq_true]
  constructor
  · rintro ⟨i, hi, e⟩
    exact ⟨i, hi, by simpa using e⟩
  · rintro ⟨i, hi, e⟩
    exact ⟨i, hi, by simpa using e⟩

theorem compare_parent (w : LWWallet) (p tx : LWTransaction) (h1 : spends tx p.txHash)
    (h2 : ¬ spends p tx.txHash) (h3 : p.blockHeight ≤ tx.blockHeight) :
    _LWWalletTxCompare w p tx = some (-1) := by
  have a1 : _LWWalletTxIsAscending w (some p) (some tx) = some false := by
    unfold _LWWalletTxIsAscending
    rw [_LWWalletTxIsAscendingDepth]
    rw [if_neg (by omega)]
    split
    · rfl
    · rw [if_neg (by rw [spends_iff_any]; exact h2), if_pos ((spends_iff_any _ _).2 h1)]
  have a2 : _LWWalletTxIsAscending w (some tx) (some p) = some true := by
    unfold _LWWalletTxIsAscending
    rw [_LWWalletTxIsAscendingDepth]
    split
    · rfl
    · rw [if_neg (by omega), if_pos ((spends_iff_any _ _).2 h1)]
  unfold _LWWalletTxCompare
  rw [a1]
  simp only
  rw [a2]

theorem topological_iff (l : List LWTransaction) :
    Topological l ↔
      l.Pairwise (fun x y => ¬ spends x y.txHash) ∧ ∀ x ∈ l, ¬ spends x x.txHash := by
  constructor
  · intro h
    constructor
    · rw [List.pairwise_iff_getElem]
      intro i j hi hj hij hs
      have := h j i l[j] l[i] (List.getElem?_eq_getElem hj) (List.getElem?_eq_getElem hi) hs
      omega
    · intro x hx hs
      obtain ⟨i, hi, e⟩ := List.getElem_of_mem hx
      have := h i i x x (by rw [List.getElem?_eq_getElem hi, e])
        (by rw [List.getElem?_eq_getElem hi, e]) hs
      omega
  · rintro ⟨hp, hs⟩ i j a b hi hj hab
    rw [List.pairwise_iff_getElem] at hp
    obtain ⟨hi1, ei⟩ := List.getElem?_eq_some_iff.1 hi
    obtain ⟨hj1, ej⟩ := List.getElem?_eq_some_iff.1 hj
    by_contra hlt
    rcases Nat.lt_or_ge j i with hji | hji
    · apply hp j i hj1 hi1 hji
      rw [ei, ej]
      exact hab
    · have hij : i = j := by omega
      subst hij
      rw [ei] at ej
      subst ej
      exact hs a (List.getElem?_mem hi) hab

theorem topological_insert (pre post : List LWTransaction) (tx : LWTransaction)
    (h : Topological (pre ++ post)) (h1 : ∀ t ∈ pre ++ post, ¬ spends t tx.txHash)
    (h2 : ¬ spends tx tx.txHash) (h3 : ∀ t ∈ post, ¬ spends tx t.txHash) :
    Topological (pre ++ tx :: post) := by
  rw [topological_iff] at h ⊢
  obtain ⟨hp, hs⟩ := h
  rw [List.pairwise_append] at hp
  obtain ⟨p1, p2, p3⟩ := hp
  constructor
  · rw [List.pairwise_append]
    refine ⟨p1, List.pairwise_cons.2 ⟨h3, p2⟩, ?_⟩
    intro x hx y hy
    rcases List.mem_cons.1 hy with e | hy1
    · rw [e]
      exact h1 x (List.mem_append_left _ hx)
    · exact p3 x hx y hy1
  · intro x hx
    rcases List.mem_append.1 hx with hx1 | hx1
    · exact hs x (List.mem_append_left _ hx1)
    · rcases List.mem_cons.1 hx1 with e | hx2
      · rw [e]; exact h2
      · exact hs x (List.mem_append_right _ hx2)

/-- C16 (as stated, refuted): after registering the unconfirmed transactions 2 (which
spends an output of transaction 1 and pays the address `e`), 3 (which pays `e`) and 1
(which pays `ee`), in this order, the list is 2, 3, 1: transaction 2 spends an output of
transaction 1 and comes before it. -/
theorem list_not_topological :
    WalletReached sampleEnv (walletOfD [childTx, otherTx, parentTx]) ∧
      (walletOfD [childTx, otherTx, parentTx]).transactions = [childTx, otherTx, parentTx] ∧
      spends childTx parentTx.txHash ∧
      ¬ Topological (walletOfD [childTx, otherTx, parentTx]).transactions := by
  have hl : (walletOfD [childTx, otherTx, parentTx]).transactions =
      [childTx, otherTx, parentTx] := by decide
  have hs : spends childTx parentTx.txHash := ⟨_, List.mem_cons_self _ _, rfl⟩
  refine ⟨walletOfD_reached _ (by decide), hl, hs, ?_⟩
  intro h
  rw [hl] at h
  have := h 2 0 parentTx childTx rfl rfl hs
  omega

/-- C16 (amended): `LWWalletRegisterTransaction` keeps the list a topological order when
no listed transaction spends an output of the new transaction `tx` (no child of `tx` was
registered before it), `tx` does not spend an output of itself, and no listed transaction
that `tx` spends from has a block height above the one of `tx`. -/
theorem register_keeps_topological (env : Env) (now : Nat) (w w1 : LWWallet)
    (tx : LWTransaction) (r : Bool) (events : List Event) (hw : WalletReached env w)
    (ht : Topological w.transactions)
    (hchild : ∀ t ∈ w.transactions, ¬ spends t tx.txHash) (hself : ¬ spends tx tx.txHash)
    (hpar : ∀ p ∈ w.transactions, spends tx p.txHash → p.blockHeight ≤ tx.blockHeight)
    (e : LWWalletRegisterTransaction env now w tx = some (r, w1, events)) :
    Topological w1.transactions := by
  have inv := (reached_inv_wallet env w hw).base
  rcases register_transactions env now w w1 tx r events inv e with h1 | ⟨list, hins, h1⟩
  · rw [h1]; exact ht
  · rw [h1]
    obtain ⟨pre, post, e1, e2, hpost, _⟩ := insertTx_spec _ tx list hins
    have e3 : w.transactions = pre ++ post := e1
    rw [e2]
    rw [e3] at ht hchild hpar
    refine topological_insert pre post tx ht hchild hself ?_
    intro t hm hs
    obtain ⟨c, hc, hpos⟩ := hpost t hm
    have hmem : t ∈ pre ++ post := List.mem_append_right _ hm
    rw [compare_parent _ t tx hs (hchild t hmem) (hpar t hmem hs)] at hc
    cases hc
    omega

/-- C16 (amended), at the wallet that holds transaction 1 and the registration of
transaction 2, which spends an output of it. -/
theorem register_keeps_topological_witness :
    (WalletReached sampleEnv (walletOfD [parentTx]) ∧
      Topological (walletOfD [parentTx]).transactions ∧
      (∀ t ∈ (walletOfD [parentTx]).transactions, ¬ spends t childTx.txHash) ∧
      ¬ spends childTx childTx.txHash ∧
      (∀ p ∈ (walletOfD [parentTx]).transactions, spends childTx p.txHash →
        p.blockHeight ≤ childTx.blockHeight) ∧
      LWWalletRegisterTransaction sampleEnv 0 (walletOfD [parentTx]) childTx =
        some (registerD (walletOfD [parentTx]) childTx)) ∧
      Topological (registerD (walletOfD [parentTx]) childTx).2.1.transactions := by
  have hl : (walletOfD [parentTx]).transactions = [parentTx] := by decide
  have h1 : Topological (walletOfD [parentTx]).transactions := by
    rw [hl, topological_iff]
    refine ⟨List.pairwise_singleton _ _, ?_⟩
    intro x hx
    rw [List.mem_singleton.1 hx]
    rintro ⟨i, hi, e⟩
    rw [List.mem_singleton.1 hi] at e
    cases e
  have h2 : ∀ t ∈ (walletOfD [parentTx]).transactions, ¬ spends t childTx.txHash := by
    intro t hm
    rw [hl] at hm
    rw [List.mem_singleton.1 hm]
    rintro ⟨i, hi, e⟩
    rw [List.mem_singleton.1 hi] at e
    cases e
  have h3 : ¬ spends childTx childTx.txHash := by
    rintro ⟨i, hi, e⟩
    rw [List.mem_singleton.1 hi] at e
    cases e
  have h4 : ∀ p ∈ (walletOfD [parentTx]).transactions, spends childTx p.txHash →
      p.blockHeight ≤ childTx.blockHeight := by
    intro p hm _
    rw [hl] at hm
    rw [List.mem_singleton.1 hm]
    decide
  have h5 : LWWalletRegisterTransaction sampleEnv 0 (walletOfD [parentTx]) childTx =
      some (registerD (walletOfD [parentTx]) childTx) := eq_some_getD _ _ (by decide)
  exact ⟨⟨walletOfD_reached _ (by decide), h1, h2, h3, h4, h5⟩,
    register_keeps_topological sampleEnv 0 (walletOfD [parentTx])
      (registerD (walletOfD [parentTx]) childTx).2.1 childTx
      (registerD (walletOfD [parentTx]) childTx).1
      (registerD (walletOfD [parentTx]) childTx).2.2
      (walletOfD_reached _ (by decide)) h1 h2 h3 h4 h5⟩

/-! ### Wallet: registration followed by removal -/

theorem cleared_eq_rebase (v x : LWWallet) (h1 : v.transactions = x.transactions)
    (h2 : v.allTx = x.allTx) (h3 : v.allAddrs = x.allAddrs)
    (h4 : v.internalChain = x.internalChain) (h5 : v.externalChain = x.externalChain)
    (h6 : v.feePerKb = x.feePerKb) (h7 : v.blockHeight = x.blockHeight) :
    cleared v = rebase x.allTx x.transactions v.balance (cleared x) := by
  cases v
  cases x
  simp only at h1 h2 h3 h4 h5 h6 h7
  simp only [cleared, rebase, h1, h2, h3, h4, h5, h6, h7]

theorem updateBalance_congr (env : Env) (now : Nat) (v x : LWWallet) (hl : ListedInAllTx x)
    (h1 : v.transactions = x.transactions)
    (h2 : v.allTx = x.allTx) (h3 : v.allAddrs = x.allAddrs)
    (h4 : v.internalChain = x.internalChain) (h5 : v.externalChain = x.externalChain)
    (h6 : v.feePerKb = x.feePerKb) (h7 : v.blockHeight = x.blockHeight) :
    _LWWalletUpdateBalance env now v = _LWWalletUpdateBalance env now x :=
  updateBalance_rebase env now x v hl (cleared_eq_rebase v x h1 h2 h3 h4 h5 h6 h7)

theorem remove_of_no_dependents (env : Env) (now : Nat) (w : LWWallet) (tx : LWTransaction)
    (res : LWWallet × List Event) (hg : txGet w.allTx tx.txHash = some tx)
    (hd : ∀ t ∈ w.transactions, t.txHash = tx.txHash ∨ ¬ spends t tx.txHash)
    (e : LWWalletRemoveTransaction env now w tx.txHash = some res) :
    removeLeaf env now w tx tx.txHash = some res := by
  unfold LWWalletRemoveTransaction at e
  rw [LWWalletRemoveTransactionDepth] at e
  split at e
  · cases e
  · rw [hg] at e
    simp only at e
    rw [dependents_nil tx tx.txHash w.transactions.reverse
      (fun t ht => hd t (List.mem_reverse.1 ht))] at e
    simpa using e

theorem removeLeaf_wallet (env : Env) (now : Nat) (w w2 : LWWallet) (tx : LWTransaction)
    (h : Nat) (events : List Event) (e : removeLeaf env now w tx h = some (w2, events)) :
    _LWWalletUpdateBalance env now
      { w with allTx := txRemove w.allTx tx.txHash,
               transactions := removeListed w.transactions tx.txHash } = some w2 := by
  unfold removeLeaf at e
  simp only at e
  split at e
  · cases e
  · next w3 h3 =>
    split at e
    · cases e
    · cases e
      exact h3

theorem withAddrs_self (w w2 : LWWallet) (h1 : w2.allAddrs = w.allAddrs)
    (h2 : w2.internalChain = w.internalChain) (h3 : w2.externalChain = w.externalChain) :
    withAddrs w w2 = w := by
  cases w
  simp only at h1 h2 h3
  simp only [withAddrs, h1, h2, h3]

/-- C18 (as stated, refuted): in the wallet that holds the unconfirmed transaction 2,
which spends an output of transaction 1 and pays 5000 to the wallet, registering
transaction 1 and removing it again removes transaction 2 as well: the balance was 5000
with one outpoint in `utxos` and one transaction in `allTx`, and afterwards the balance
is 0 and `utxos` and `allTx` are empty. -/
theorem register_remove_loses_child :
    WalletReached sampleEnv (walletOfD [childTx]) ∧
      sampleEnv.LWTransactionIsSigned parentTx = true ∧
      txContains (walletOfD [childTx]).allTx parentTx.txHash = false ∧
      _LWWalletContainsTx (walletOfD [childTx]) parentTx = true ∧
      (walletOfD [childTx]).balance = 5000 ∧
      (walletOfD [childTx]).utxos = [{ hash := 2, n := 0 }] ∧
      (walletOfD [childTx]).allTx = [childTx] ∧
      ((LWWalletRegisterTransaction sampleEnv 0 (walletOfD [childTx]) parentTx).bind
        (fun r => LWWalletRemoveTransaction sampleEnv 0 r.2.1 parentTx.txHash)).map
        (fun r => (r.1.balance, r.1.utxos, r.1.allTx)) = some (0, [], []) :=
  ⟨walletOfD_reached _ (by decide), by decide, by decide, by decide, by decide, by decide,
    by decide, by decide⟩

/-- C18 (amended): in a reached wallet `w`, for a transaction `tx` that is not in `allTx`,
that the wallet contains and that no listed transaction spends from,
`LWWalletRegisterTransaction(tx)` followed by `LWWalletRemoveTransaction(tx.hash)`
restores `allTx` and the ordered list, the two chains are extensions and `allAddrs` a
superset of their earlier values, and the wallet is the one that `_LWWalletUpdateBalance`
computes at the time of the removal from `w` with the new chains and `allAddrs`; it is
`w` itself when the chains and `allAddrs` did not grow and `w` was left by a
recomputation at that time. -/
theorem register_remove_restores (env : Env) (now now2 : Nat) (w w1 w2 : LWWallet)
    (tx : LWTransaction) (r : Bool) (events1 events2 : List Event)
    (hw : WalletReached env w) (hn : txContains w.allTx tx.txHash = false)
    (hc : _LWWalletContainsTx w tx = true)
    (hchild : ∀ t ∈ w.transactions, ¬ spends t tx.txHash)
    (e1 : LWWalletRegisterTransaction env now w tx = some (r, w1, events1))
    (e2 : LWWalletRemoveTransaction env now2 w1 tx.txHash = some (w2, events2)) :
    w2.allTx = w.allTx ∧ w2.transactions = w.transactions ∧
      w.internalChain <+: w2.internalChain ∧ w.externalChain <+: w2.externalChain ∧
      (∀ a ∈ w.allAddrs, a ∈ w2.allAddrs) ∧
      _LWWalletUpdateBalance env now2 (withAddrs w w2) = some w2 ∧
      (∀ w0, ListedInAllTx w0 → _LWWalletUpdateBalance env now2 w0 = some w →
        w2.allAddrs = w.allAddrs → w2.internalChain = w.internalChain →
        w2.externalChain = w.externalChain → w2 = w) := by
  have inv := reached_inv_wallet env w hw
  have hno : txGet w.allTx tx.txHash = none := txContains_false.1 hn
  have hne : ∀ t ∈ w.transactions, t.txHash ≠ tx.txHash := by
    intro t hm e
    have := inv.listed t hm
    rw [e, hno] at this
    cases this
  obtain ⟨_, _, list, wu, hins, hu, f, iu, g⟩ :=
    register_added_spec env now w w1 tx r events1 inv.base hn hc e1
  obtain ⟨pre, post, p1, p2, _, _⟩ := insertTx_spec _ tx list hins
  have p3 : w.transactions = pre ++ post := p1
  have t1 : w1.transactions = pre ++ tx :: post := by
    rw [g.eq, ← p2]; exact f.transactions
  have a1 : w1.allTx = txAdd w.allTx tx := by
    rw [g.eq]; exact f.allTx
  have hg : txGet w1.allTx tx.txHash = some tx := by
    rw [a1]; exact txGet_txAdd_self _ _
  have hd : ∀ t ∈ w1.transactions, t.txHash = tx.txHash ∨ ¬ spends t tx.txHash := by
    intro t hm
    rw [t1] at hm
    rcases List.mem_append.1 hm with h | h
    · exact Or.inr (hchild t (by rw [p3]; exact List.mem_append_left _ h))
    · rcases List.mem_cons.1 h with h | h
      · exact Or.inl (by rw [h])
      · exact Or.inr (hchild t (by rw [p3]; exact List.mem_append_right _ h))
  have e3 := removeLeaf_wallet env now2 w1 w2 tx tx.txHash events2
    (remove_of_no_dependents env now2 w1 tx _ hg hd e2)
  have t2 : removeListed w1.transactions tx.txHash = w.transactions := by
    rw [t1, p3]
    exact removeListed_middle pre post tx
      (fun u hu => hne u (by rw [p3]; exact List.mem_append_right _ hu))
  have a2 : txRemove w1.allTx tx.txHash = w.allTx := by
    rw [a1]; exact txRemove_txAdd _ _ hno
  rw [t2, a2] at e3
  have hlv : ListedInAllTx { w1 with allTx := w.allTx, transactions := w.transactions } :=
    inv.listed
  obtain ⟨w3, e4, f3, _⟩ := updateBalance_spec env now2 _ hlv
  rw [e3] at e4
  cases e4
  have k1 : w1.feePerKb = w.feePerKb := by rw [g.eq]; exact f.feePerKb
  have k2 : w1.blockHeight = w.blockHeight := by rw [g.eq]; exact f.blockHeight
  have hi : w.internalChain <+: w2.internalChain := by
    have h1 : w2.internalChain = w1.internalChain := f3.internalChain
    have h2 : wu.internalChain = w.internalChain := f.internalChain
    rw [h1, ← h2]; exact g.internal
  have he : w.externalChain <+: w2.externalChain := by
    have h1 : w2.externalChain = w1.externalChain := f3.externalChain
    have h2 : wu.externalChain = w.externalChain := f.externalChain
    rw [h1, ← h2]; exact g.external
  have ha : ∀ a ∈ w.allAddrs, a ∈ w2.allAddrs := by
    intro a hm
    have h1 : w2.allAddrs = w1.allAddrs := f3.allAddrs
    have h2 : wu.allAddrs = w.allAddrs := f.allAddrs
    rw [h1]
    exact g.allAddrs a (by rw [h2]; exact hm)
  have hx : ListedInAllTx (withAddrs w w2) := inv.listed
  have main : _LWWalletUpdateBalance env now2 (withAddrs w w2) = some w2 := by
    rw [← e3]
    symm
    exact updateBalance_congr env now2 _ (withAddrs w w2) hx rfl rfl f3.allAddrs.symm
      f3.internalChain.symm f3.externalChain.symm k1 k2
  refine ⟨f3.allTx, f3.transactions, hi, he, ha, main, ?_⟩
  intro w0 hl0 e0 q1 q2 q3
  rw [withAddrs_self w w2 q1 q2 q3] at main
  obtain ⟨w4, e5, f5, _⟩ := updateBalance_spec env now2 w0 hl0
  rw [e0] at e5
  cases e5
  have := updateBalance_congr env now2 w w0 hl0 f5.transactions f5.allTx f5.allAddrs
    f5.internalChain f5.externalChain f5.feePerKb f5.blockHeight
  rw [main, e0] at this
  cases this
  rfl

/-- C18 (amended), at the wallet that holds transaction 1 and the registration and removal
of transaction 2, which spends an output of it. -/
theorem register_remove_restores_witness :
    (WalletReached sampleEnv (walletOfD [parentTx]) ∧
      txContains (walletOfD [parentTx]).allTx childTx.txHash = false ∧
      _LWWalletContainsTx (walletOfD [parentTx]) childTx = true ∧
      (∀ t ∈ (walletOfD [parentTx]).transactions, ¬ spends t childTx.txHash) ∧
      LWWalletRegisterTransaction sampleEnv 0 (walletOfD [parentTx]) childTx =
        some (registerD (walletOfD [parentTx]) childTx) ∧
      LWWalletRemoveTransaction sampleEnv 0 (registerD (walletOfD [parentTx]) childTx).2.1
          childTx.txHash =
        some (removeD (registerD (walletOfD [parentTx]) childTx).2.1 childTx.txHash)) ∧
      (removeD (registerD (walletOfD [parentTx]) childTx).2.1 childTx.txHash).1.allTx =
        (walletOfD [parentTx]).allTx ∧
      (removeD (registerD (walletOfD [parentTx]) childTx).2.1 childTx.txHash).1.transactions =
        (walletOfD [parentTx]).transactions ∧
      _LWWalletUpdateBalance sampleEnv 0 (withAddrs (walletOfD [parentTx])
          (removeD (registerD (walletOfD [parentTx]) childTx).2.1 childTx.txHash).1) =
        some (removeD (registerD (walletOfD [parentTx]) childTx).2.1 childTx.txHash).1 := by
  have hl : (walletOfD [parentTx]).transactions = [parentTx] := by decide
  have h2 : ∀ t ∈ (walletOfD [parentTx]).transactions, ¬ spends t childTx.txHash := by
    intro t hm
    rw [hl] at hm
    rw [List.mem_singleton.1 hm]
    rintro ⟨i, hi, e⟩
    rw [List.mem_singleton.1 hi] at e
    cases e
  have h5 : LWWalletRegisterTransaction sampleEnv 0 (walletOfD [parentTx]) childTx =
      some (registerD (walletOfD [parentTx]) childTx) := eq_some_getD _ _ (by decide)
  have h6 : LWWalletRemoveTransaction sampleEnv 0
      (registerD (walletOfD [parentTx]) childTx).2.1 childTx.txHash =
      some (removeD (registerD (walletOfD [parentTx]) childTx).2.1 childTx.txHash) :=
    eq_some_getD _ _ (by decide)
  have key := register_remove_restores sampleEnv 0 0 (walletOfD [parentTx])
    (registerD (walletOfD [parentTx]) childTx).2.1
    (removeD (registerD (walletOfD [parentTx]) childTx).2.1 childTx.txHash).1 childTx
    (registerD (walletOfD [parentTx]) childTx).1
    (registerD (walletOfD [parentTx]) childTx).2.2
    (removeD (registerD (walletOfD [parentTx]) childTx).2.1 childTx.txHash).2
    (walletOfD_reached _ (by decide)) (by decide) (by decide) h2 h5 h6
  exact ⟨⟨walletOfD_reached _ (by decide), by decide, by decide, h2, h5, h6⟩,
    key.1, key.2.1, key.2.2.2.2.2.1⟩

/-! ### Wallet: replaceable transactions -/

theorem checkPending_of_sequence (env : Env) (now : Nat) (w : LWWallet) (tx : LWTransaction)
    (h : ∃ i ∈ tx.inputs, i.sequence < UINT32_MAX - 1) : checkPending env now w tx = true := by
  obtain ⟨i, hi, hs⟩ := h
  unfold checkPending
  rw [Bool.or_eq_true]
  right
  rw [List.any_eq_true]
  refine ⟨i, hi, ?_⟩
  simp only [Bool.or_eq_true, decide_eq_true_eq]
  exact Or.inl (Or.inl (Or.inl hs))

theorem updateStep_replaceable (env : Env) (now : Nat) (tx t : LWTransaction)
    (s r : LWWallet × Nat × Nat) (hu : tx.blockHeight = TX_UNCONFIRMED)
    (hseq : ∃ i ∈ tx.inputs, i.sequence < UINT32_MAX - 1)
    (ht : t.txHash = tx.txHash → t = tx) (e : updateStep env now s t = some r)
    (hp : ∀ o ∈ s.1.utxos, o.hash ≠ tx.txHash) :
    (∀ o ∈ r.1.utxos, o.hash ≠ tx.txHash) ∧
      ((tx.txHash ∈ s.1.invalidTx ∨ tx.txHash ∈ s.1.pendingTx) ∨ t = tx →
        tx.txHash ∈ r.1.invalidTx ∨ tx.txHash ∈ r.1.pendingTx) := by
  rcases updateStep_shape env now s r t e with
    ⟨_, _, a1, a2, _, a4, _⟩ | ⟨_, _, _, a1, a2, _, a4, _⟩ | ⟨_, hnp, a1, a2, _, a4⟩
  · refine ⟨by rw [a4]; exact hp, ?_⟩
    rw [a1, a2, mem_keyAdd]
    rintro ((h | h) | h)
    · exact Or.inl (Or.inl h)
    · exact Or.inr h
    · exact Or.inl (Or.inr (by rw [h]))
  · refine ⟨by rw [a4]; exact hp, ?_⟩
    rw [a1, a2, mem_keyAdd]
    rintro ((h | h) | h)
    · exact Or.inl h
    · exact Or.inr (Or.inl h)
    · exact Or.inr (Or.inr (by rw [h]))
  · have hne : t ≠ tx := by
      intro e1
      apply hnp
      rw [e1]
      exact ⟨hu, checkPending_of_sequence env now _ tx hseq⟩
    refine ⟨?_, ?_⟩
    · intro o ho
      rcases a4 o ho with h | h
      · exact hp o h
      · rw [h]
        exact fun e1 => hne (ht e1)
    · rw [a1, a2]
      rintro (h | h)
      · exact h
      · exact absurd h hne

theorem updateLoop_replaceable (env : Env) (now : Nat) (tx : LWTransaction)
    (hu : tx.blockHeight = TX_UNCONFIRMED)
    (hseq : ∃ i ∈ tx.inputs, i.sequence < UINT32_MAX - 1) :
    ∀ (rest : List LWTransaction) (s r : LWWallet × Nat × Nat),
      (∀ t ∈ rest, t.txHash = tx.txHash → t = tx) → updateLoop env now rest s = some r →
      (∀ o ∈ s.1.utxos, o.hash ≠ tx.txHash) →
      (∀ o ∈ r.1.utxos, o.hash ≠ tx.txHash) ∧
        ((tx.txHash ∈ s.1.invalidTx ∨ tx.txHash ∈ s.1.pendingTx) ∨ tx ∈ rest →
          tx.txHash ∈ r.1.invalidTx ∨ tx.txHash ∈ r.1.pendingTx) := by
  intro rest
  induction rest with
  | nil =>
    intro s r _ e hp
    rw [updateLoop] at e
    cases e
    refine ⟨hp, ?_⟩
    rintro (h | h)
    · exact h
    · cases h
  | cons t rest ih =>
    intro s r ht e hp
    rw [updateLoop] at e
    cases hs : updateStep env now s t with
    | none => rw [hs] at e; cases e
    | some s1 =>
      rw [hs] at e
      obtain ⟨p1, q1⟩ := updateStep_replaceable env now tx t s s1 hu hseq
        (ht t (List.mem_cons_self _ _)) hs hp
      obtain ⟨p2, q2⟩ := ih s1 r (fun u hm => ht u (List.mem_cons_of_mem _ hm)) e p1
      refine ⟨p2, ?_⟩
      rintro (h | h)
      · exact q2 (Or.inl (q1 (Or.inl h)))
      · rcases List.mem_cons.1 h with h1 | h1
        · exact q2 (Or.inl (q1 (Or.inr h1.symm)))
        · exact q2 (Or.inr h1)

theorem updateBalance_loop (env : Env) (now : Nat) (w w1 : LWWallet)
    (e : _LWWalletUpdateBalance env now w = some w1) :
    ∃ s b p, updateLoop env now w.transactions (cleared w, 0, 0) = some (s, b, p) ∧
      w1 = { s with balance := b } := by
  unfold _LWWalletUpdateBalance at e
  split at e
  · cases e
  · next s b p hl =>
    split at e
    · cases e
      exact ⟨s, b, p, hl, rfl⟩
    · cases e

theorem outputAt_txAdd {l : List LWTransaction} {tx : LWTransaction} {o : LWUTXO}
    {out : LWTxOutput} (hn : txGet l tx.txHash = none) (h : outputAt l o = some out) :
    outputAt (txAdd l tx) o = some out := by
  obtain ⟨t, h1, _⟩ := outputAt_hash h
  have hne : o.hash ≠ tx.txHash := by
    intro e
    rw [e, hn] at h1
    cases h1
  unfold outputAt at h ⊢
  rw [txGet_txAdd_ne _ _ hne]
  exact h

theorem updateBalance_last (env : Env) (now : Nat) (w w0 wu : LWWallet) (tx : LWTransaction)
    (hl : ListedInAllTx w) (hn : txGet w.allTx tx.txHash = none)
    (hu : tx.blockHeight = TX_UNCONFIRMED)
    (hseq : ∃ i ∈ tx.inputs, i.sequence < UINT32_MAX - 1)
    (e0 : _LWWalletUpdateBalance env now w = some w0)
    (e1 : _LWWalletUpdateBalance env now
      { w with allTx := txAdd w.allTx tx, transactions := w.transactions ++ [tx] } = some wu)
    (hi : tx.txHash ∉ wu.invalidTx) :
    wu.utxos = w0.utxos ∧ wu.balance = w0.balance := by
  obtain ⟨s0, b0, p0, l0, q0⟩ := updateBalance_loop env now w w0 e0
  obtain ⟨s1, b1, p1, l1, q1⟩ := updateBalance_loop env now _ wu e1
  have hc : cleared { w with allTx := txAdd w.allTx tx, transactions := w.transactions ++ [tx] } =
      rebase (txAdd w.allTx tx) (w.transactions ++ [tx]) w.balance (cleared w) := rfl
  have l2 : updateLoop env now (w.transactions ++ [tx])
      (rebase (txAdd w.allTx tx) (w.transactions ++ [tx]) w.balance (cleared w), 0, 0) =
      some (s1, b1, p1) := by
    rw [← hc]; exact l1
  have key := updateLoop_rebase env now (txAdd w.allTx tx) (w.transactions ++ [tx])
    w.transactions w.balance w.transactions (cleared w, 0, 0) (fun t ht => ht) hl
    ⟨by simp [cleared, utxoSum], by simp [cleared], by simp [cleared]⟩
    (fun o out h => outputAt_txAdd hn h)
  rw [updateLoop_append] at l2
  simp only at key
  rw [key, l0] at l2
  simp only [Option.map_some', Option.some_bind] at l2
  rw [updateLoop] at l2
  cases hs : updateStep env now
      (rebase (txAdd w.allTx tx) (w.transactions ++ [tx]) w.balance s0, b0, p0) tx with
  | none => rw [hs] at l2; cases l2
  | some r =>
    rw [hs] at l2
    simp only [updateLoop] at l2
    cases l2
    rw [q1, q0]
    rw [q1] at hi
    rcases updateStep_shape env now _ _ tx hs with
      ⟨_, _, a1, _⟩ | ⟨_, _, _, _, _, _, a4, a5⟩ | ⟨_, hnp, _⟩
    · exfalso
      apply hi
      show tx.txHash ∈ s1.invalidTx
      rw [a1, mem_keyAdd]
      exact Or.inr rfl
    · exact ⟨a4, a5⟩
    · exact absurd ⟨hu, checkPending_of_sequence env now _ tx hseq⟩ hnp

/-- C19 (as stated, refuted): in a wallet with a confirmed coin of 10000 and an
unconfirmed payment of 4000 (balance 14000), registering an unconfirmed transaction that
spends the coin with the sequence number 0xfffffffd puts it in `pendingTx` and not in
`invalidTx`, in the list before the unconfirmed payment, and the balance becomes 4000. -/
theorem replaceable_changes_balance :
    WalletReached sampleEnv coinAndPaymentWallet ∧
      coinAndPaymentWallet.balance = 14000 ∧
      replaceableTx.blockHeight = TX_UNCONFIRMED ∧
      _LWWalletContainsTx coinAndPaymentWallet replaceableTx = true ∧
      (∃ i ∈ replaceableTx.inputs, i.sequence < UINT32_MAX - 1) ∧
      (LWWalletRegisterTransaction sampleEnv 0 coinAndPaymentWallet replaceableTx).map
        (fun r => (r.1, r.2.1.transactions.map (fun t => t.txHash), r.2.1.invalidTx,
          r.2.1.pendingTx, r.2.1.balance)) = some (true, [1, 2, 3], [], [2], 4000) :=
  ⟨walletOfD_reached _ (by decide), by decide, by decide, by decide, by decide, by decide⟩

/-- C19 (amended): in a reached wallet `w`, after `LWWalletRegisterTransaction` of an
unconfirmed wallet transaction `tx` that is not in `allTx` and has an input with a
sequence number below `UINT32_MAX - 1`, the transaction is in `pendingTx` unless it is in
`invalidTx`, and no outpoint of `utxos` is an output of it; when it is the last entry of
the list and not in `invalidTx`, `utxos` and `balance` are the ones that
`_LWWalletUpdateBalance` computes from `w`. -/
theorem replaceable_is_pending (env : Env) (now : Nat) (w w1 : LWWallet) (tx : LWTransaction)
    (r : Bool) (events : List Event) (hw : WalletReached env w)
    (hn : txContains w.allTx tx.txHash = false) (hc : _LWWalletContainsTx w tx = true)
    (hu : tx.blockHeight = TX_UNCONFIRMED)
    (hseq : ∃ i ∈ tx.inputs, i.sequence < UINT32_MAX - 1)
    (e : LWWalletRegisterTransaction env now w tx = some (r, w1, events)) :
    (tx.txHash ∉ w1.invalidTx → tx.txHash ∈ w1.pendingTx) ∧
      (∀ o ∈ w1.utxos, o.hash ≠ tx.txHash) ∧
      (∀ w0, _LWWalletUpdateBalance env now w = some w0 →
        w1.transactions = w.transactions ++ [tx] → tx.txHash ∉ w1.invalidTx →
        w1.utxos = w0.utxos ∧ w1.balance = w0.balance) := by
  have inv := reached_inv_wallet env w hw
  have hno : txGet w.allTx tx.txHash = none := txContains_false.1 hn
  have hne : ∀ t ∈ w.transactions, t.txHash ≠ tx.txHash := by
    intro t hm e
    have := inv.listed t hm
    rw [e, hno] at this
    cases this
  obtain ⟨_, _, list, wu, hins, hub, f, _, g⟩ :=
    register_added_spec env now w w1 tx r events inv.base hn hc e
  have hp := insertTx_perm _ _ _ hins
  have e1 : w1.invalidTx = wu.invalidTx := by rw [g.eq]
  have e2 : w1.pendingTx = wu.pendingTx := by rw [g.eq]
  have e3 : w1.utxos = wu.utxos := by rw [g.eq]
  have e4 : w1.balance = wu.balance := by rw [g.eq]
  have e5 : w1.transactions = list := by rw [g.eq]; exact f.transactions
  obtain ⟨s, b, p, hloop, q⟩ := updateBalance_loop env now _ wu hub
  have huniq : ∀ t ∈ list, t.txHash = tx.txHash → t = tx := by
    intro t hm ht
    rcases List.mem_cons.1 (hp.subset hm) with h | h
    · exact h
    · exact absurd ht (hne t h)
  obtain ⟨k1, k2⟩ := updateLoop_replaceable env now tx hu hseq list _ _ huniq hloop
    (by intro o ho; cases ho)
  have k3 := k2 (Or.inr (hp.symm.subset (List.mem_cons_self _ _)))
  refine ⟨?_, ?_, ?_⟩
  · intro hni
    rw [e1, q] at hni
    rw [e2, q]
    rcases k3 with h | h
    · exact absurd h hni
    · exact h
  · rw [e3, q]
    exact k1
  · intro w0 e0 hlast hni
    rw [e5] at hlast
    rw [hlast] at hub
    rw [e1] at hni
    rw [e3, e4]
    exact updateBalance_last env now w w0 wu tx inv.listed hno hu hseq e0 hub hni

/-- C19 (amended), at the wallet with one confirmed coin and the registration of an
unconfirmed transaction that spends it with the sequence number 0xfffffffd. -/
theorem replaceable_is_pending_witness :
    (WalletReached sampleEnv oneCoinWallet ∧
      txContains oneCoinWallet.allTx replaceableTx.txHash = false ∧
      _LWWalletContainsTx oneCoinWallet replaceableTx = true ∧
      replaceableTx.blockHeight = TX_UNCONFIRMED ∧
      (∃ i ∈ replaceableTx.inputs, i.sequence < UINT32_MAX - 1) ∧
      LWWalletRegisterTransaction sampleEnv 0 oneCoinWallet replaceableTx =
        some (registerD oneCoinWallet replaceableTx)) ∧
      (replaceableTx.txHash ∉ (registerD oneCoinWallet replaceableTx).2.1.invalidTx →
        replaceableTx.txHash ∈ (registerD oneCoinWallet replaceableTx).2.1.pendingTx) ∧
      (∀ o ∈ (registerD oneCoinWallet replaceableTx).2.1.utxos,
        o.hash ≠ replaceableTx.txHash) ∧
      (∀ w0, _LWWalletUpdateBalance sampleEnv 0 oneCoinWallet = some w0 →
        (registerD oneCoinWallet replaceableTx).2.1.transactions =
          oneCoinWallet.transactions ++ [replaceableTx] →
        replaceableTx.txHash ∉ (registerD oneCoinWallet replaceableTx).2.1.invalidTx →
        (registerD oneCoinWallet replaceableTx).2.1.utxos = w0.utxos ∧
          (registerD oneCoinWallet replaceableTx).2.1.balance = w0.balance) :=
  ⟨⟨walletOfD_reached _ (by decide), by decide, by decide, by decide, by decide,
      eq_some_getD (LWWalletRegisterTransaction sampleEnv 0 oneCoinWallet replaceableTx)
        (false, oneCoinWallet, []) (by decide)⟩,
    replaceable_is_pending sampleEnv 0 oneCoinWallet
      (registerD oneCoinWallet replaceableTx).2.1 replaceableTx
      (registerD oneCoinWallet replaceableTx).1 (registerD oneCoinWallet replaceableTx).2.2
      (walletOfD_reached _ (by decide)) (by decide) (by decide) (by decide) (by decide)
      (eq_some_getD (LWWalletRegisterTransaction sampleEnv 0 oneCoinWallet replaceableTx)
        (false, oneCoinWallet, []) (by decide))⟩

/-! ### Wallet: unused addresses -/

theorem tailScan_gapAt (used chain : List String) : GapAt used chain (tailScan used chain) := by
  unfold tailScan
  have hsplit := List.takeWhile_append_dropWhile (fun a => decide (a ∉ used)) chain.reverse
  generalize hT : chain.reverse.takeWhile (fun a => decide (a ∉ used)) = T at hsplit
  generalize hD : chain.reverse.dropWhile (fun a => decide (a ∉ used)) = D at hsplit
  have hc : chain = D.reverse ++ T.reverse := by
    have := congrArg List.reverse hsplit
    rw [List.reverse_reverse, List.reverse_append] at this
    exact this.symm
  have hTp : ∀ a ∈ T, a ∉ used := by
    intro a ha
    rw [← hT] at ha
    have := List.mem_takeWhile_imp ha
    simpa using this
  refine ⟨?_, ?_, ?_⟩
  · rw [hc, List.length_append, List.length_reverse]
    omega
  · intro a ha
    rw [hc] at ha
    have e : D.length = D.reverse.length := by rw [List.length_reverse]
    rw [e, List.drop_left] at ha
    exact hTp a (List.mem_reverse.1 ha)
  · cases D with
    | nil => left; rfl
    | cons d D1 =>
      right
      refine ⟨d, ?_, ?_⟩
      · rw [hc, List.reverse_cons, List.append_assoc]
        have e : (d :: D1).length - 1 = D1.reverse.length := by
          rw [List.length_reverse]; rfl
        rw [e, List.getElem?_append_right (Nat.le_refl _), Nat.sub_self]
        simp
      · have hne : chain.reverse.dropWhile (fun a => decide (a ∉ used)) ≠ [] := by
          rw [hD]; exact List.cons_ne_nil _ _
        have := List.head_dropWhile_not (fun a => decide (a ∉ used)) chain.reverse hne
        simp only [hD, List.head_cons] at this
        simpa using this

theorem generateLoop_spec (env : Env) (internal : Bool) (used : List String) (gapLimit : Nat) :
    ∀ (fuel : Nat) (chain : List String) (i : Nat) (chain1 : List String) (i1 : Nat),
      GapAt used chain i →
      generateLoop env internal used gapLimit fuel chain i = some (chain1, i1) →
      GapAt used chain1 i1 ∧
        (i1 + gapLimit ≤ chain1.length ∨
          env.deriveAddress internal (chain1.length % 2 ^ 32) = none) ∧
        (chain.length ≤ i + gapLimit → chain1.length ≤ i1 + gapLimit) ∧
        (chain1 = chain ∨ chain1.length ≤ i1 + gapLimit) := by
  intro fuel
  induction fuel with
  | zero =>
    intro chain i chain1 i1 hg h
    rw [generateLoop] at h
    split at h
    · cases h
    · next hc =>
      cases h
      exact ⟨hg, Or.inl (by omega), fun h => h, Or.inl rfl⟩
  | succ fuel ih =>
    intro chain i chain1 i1 hg h
    rw [generateLoop] at h
    split at h
    · next hc =>
      cases hd : env.deriveAddress internal (chain.length % 2 ^ 32) with
      | none =>
        rw [hd] at h
        cases h
        exact ⟨hg, Or.inr hd, fun h => h, Or.inl rfl⟩
      | some a =>
        rw [hd] at h
        simp only at h
        have hg1 : GapAt used (chain ++ [a]) (if a ∈ used then chain.length + 1 else i) := by
          obtain ⟨g1, g2, g3⟩ := hg
          by_cases hu : a ∈ used
          · rw [if_pos hu]
            refine ⟨by rw [List.length_append]; rfl, ?_, ?_⟩
            · intro b hb
              have e : chain.length + 1 = (chain ++ [a]).length := by
                rw [List.length_append]; rfl
              rw [e, List.drop_length] at hb
              cases hb
            · right
              refine ⟨a, ?_, hu⟩
              rw [Nat.add_sub_cancel, List.getElem?_append_right (Nat.le_refl _), Nat.sub_self]
              rfl
          · rw [if_neg hu]
            refine ⟨by rw [List.length_append]; omega, ?_, ?_⟩
            · intro b hb
              rw [List.drop_append_of_le_length g1] at hb
              rcases List.mem_append.1 hb with hb | hb
              · exact g2 b hb
              · rw [List.mem_singleton.1 hb]; exact hu
            · rcases g3 with g3 | ⟨b, hb, hbu⟩
              · exact Or.inl g3
              · right
                refine ⟨b, ?_, hbu⟩
                have hlt : i - 1 < chain.length := by
                  by_contra hn
                  rw [List.getElem?_eq_none (by omega)] at hb
                  cases hb
                rw [List.getElem?_append_left hlt]
                exact hb
        obtain ⟨r1, r2, r3, _⟩ := ih _ _ _ _ hg1 h
        have hpre : (chain ++ [a]).length ≤ (if a ∈ used then chain.length + 1 else i) + gapLimit := by
          rw [List.length_append, List.length_singleton]
          split <;> omega
        exact ⟨r1, r2, fun _ => r3 hpre, Or.inr (r3 hpre)⟩
    · next hc =>
      cases h
      exact ⟨hg, Or.inl (by omega), fun h => h, Or.inl rfl⟩

theorem generateLoop_total (env : Env) (internal : Bool) (used : List String) (gapLimit : Nat)
    (htot : ∀ m, ∃ a, env.deriveAddress internal m = some a)
    (hinj : ∀ m n a, m < 2 ^ 32 → n < 2 ^ 32 → env.deriveAddress internal m = some a →
      env.deriveAddress internal n = some a → m = n) :
    ∀ (fuel : Nat) (chain : List String) (i : Nat) (R : List String), R.Nodup →
      (∀ m a, chain.length ≤ m → m < 2 ^ 32 → env.deriveAddress internal m = some a →
        a ∈ used → a ∈ R) →
      chain.length + fuel ≤ 2 ^ 32 → i ≤ chain.length →
      (R.length + 1) * gapLimit ≤ fuel + (chain.length - i) →
      ∃ r, generateLoop env internal used gapLimit fuel chain i = some r := by
  intro fuel
  induction fuel with
  | zero =>
    intro chain i R _ _ _ hi hf
    rw [generateLoop]
    rw [Nat.succ_mul] at hf
    rw [if_neg (by omega)]
    exact ⟨_, rfl⟩
  | succ fuel ih =>
    intro chain i R hnd hR hb hi hf
    rw [generateLoop]
    split
    · next hc =>
      have hlen : chain.length < 2 ^ 32 := by omega
      rw [Nat.mod_eq_of_lt hlen]
      obtain ⟨a, ha⟩ := htot chain.length
      rw [ha]
      simp only
      rw [Nat.succ_mul] at hf
      by_cases hu : a ∈ used
      · rw [if_pos hu]
        have haR : a ∈ R := hR chain.length a (Nat.le_refl _) hlen ha hu
        apply ih (chain ++ [a]) (chain.length + 1) (R.erase a) (hnd.erase a)
        · intro m b hm hm2 hb1 hbu
          rw [List.length_append, List.length_singleton] at hm
          have hbR : b ∈ R := hR m b (by omega) hm2 hb1 hbu
          have hne : b ≠ a := by
            intro e
            rw [e] at hb1
            have := hinj m chain.length a hm2 hlen hb1 ha
            omega
          exact (List.mem_erase_of_ne hne).2 hbR
        · rw [List.length_append, List.length_singleton]; omega
        · rw [List.length_append, List.length_singleton]
        · rw [List.length_erase_of_mem haR, List.length_append, List.length_singleton]
          have hpos : 0 < R.length := List.length_pos_of_mem haR
          have e : R.length - 1 + 1 = R.length := by omega
          rw [e]
          omega
      · rw [if_neg hu]
        apply ih (chain ++ [a]) i R hnd
        · intro m b hm hm2 hb1 hbu
          rw [List.length_append, List.length_singleton] at hm
          exact hR m b (by omega) hm2 hb1 hbu
        · rw [List.length_append, List.length_singleton]; omega
        · rw [List.length_append, List.length_singleton]; omega
        · rw [List.length_append, List.length_singleton, Nat.succ_mul]
          omega
    · exact ⟨_, rfl⟩

theorem unusedAddrs_spec (env : Env) (w w1 : LWWallet) (addrs : Bool) (gapLimit : Nat)
    (internal : Bool) (written : List String)
    (h : LWWalletUnusedAddrs env w addrs gapLimit internal = some (written, w1)) :
    0 < gapLimit ∧ w1.usedAddrs = w.usedAddrs ∧
      chainOf w1 (!internal) = chainOf w (!internal) ∧
      chainOf w internal <+: chainOf w1 internal ∧
      ∃ i, GapAt w.usedAddrs (chainOf w1 internal) i ∧
        written = (if addrs = true ∧ i + gapLimit ≤ (chainOf w1 internal).length then
          ((chainOf w1 internal).drop i).take gapLimit else []) ∧
        (i + gapLimit ≤ (chainOf w1 internal).length ∨
          env.deriveAddress internal ((chainOf w1 internal).length % 2 ^ 32) = none) ∧
        (chainOf w1 internal = chainOf w internal ∨
          (chainOf w1 internal).length ≤ i + gapLimit) := by
  unfold LWWalletUnusedAddrs at h
  split at h
  · cases h
  · next hg0 =>
    simp only at h
    split at h
    · cases h
    · next chain1 i hg =>
      have hpre := generateLoop_prefix env internal w.usedAddrs gapLimit _ _ _ _ _ hg
      obtain ⟨s1, s2, _, s4⟩ := generateLoop_spec env internal w.usedAddrs gapLimit _ _ _ _ _
        (tailScan_gapAt _ _) hg
      have fin : ∀ v : LWWallet, v.usedAddrs = w.usedAddrs ∧
          chainOf v (!internal) = chainOf w (!internal) ∧ chainOf v internal = chain1 →
          (written = if addrs = true ∧ i + gapLimit ≤ chain1.length then
            (chain1.drop i).take gapLimit else []) →
          0 < gapLimit ∧ v.usedAddrs = w.usedAddrs ∧
          chainOf v (!internal) = chainOf w (!internal) ∧
          chainOf w internal <+: chainOf v internal ∧
          ∃ i, GapAt w.usedAddrs (chainOf v internal) i ∧
            written = (if addrs = true ∧ i + gapLimit ≤ (chainOf v internal).length then
              ((chainOf v internal).drop i).take gapLimit else []) ∧
            (i + gapLimit ≤ (chainOf v internal).length ∨
              env.deriveAddress internal ((chainOf v internal).length % 2 ^ 32) = none) ∧
            (chainOf v internal = chainOf w internal ∨
              (chainOf v internal).length ≤ i + gapLimit) := by
        rintro v ⟨e1, e2, e3⟩ hwr
        rw [e3]
        exact ⟨Nat.pos_of_ne_zero hg0, e1, e2, hpre, i, s1, hwr, s2, s4⟩
      cases internal with
      | true =>
        simp only [if_true] at h
        split at h
        · cases h
          exact fin _ ⟨rfl, rfl, rfl⟩ rfl
        · cases h
          exact fin _ ⟨rfl, rfl, rfl⟩ rfl
      | false =>
        simp only [Bool.false_eq_true, if_false] at h
        split at h
        · cases h
          exact fin _ ⟨rfl, rfl, rfl⟩ rfl
        · cases h
          exact fin _ ⟨rfl, rfl, rfl⟩ rfl

theorem unusedAddrs_total (env : Env) (w : LWWallet) (addrs : Bool) (gapLimit : Nat)
    (internal : Bool) (hg : 0 < gapLimit)
    (htot : ∀ m, ∃ a, env.deriveAddress internal m = some a)
    (hinj : ∀ m n a, m < 2 ^ 32 → n < 2 ^ 32 → env.deriveAddress internal m = some a →
      env.deriveAddress internal n = some a → m = n)
    (hb : (chainOf w internal).length + (w.usedAddrs.length + 1) * gapLimit ≤ 2 ^ 32) :
    ∃ r, LWWalletUnusedAddrs env w addrs gapLimit internal = some r := by
  have hR : w.usedAddrs.dedup.length ≤ w.usedAddrs.length := (List.dedup_sublist _).length_le
  obtain ⟨r, hr⟩ := generateLoop_total env internal w.usedAddrs gapLimit htot hinj
    ((w.usedAddrs.length + 1) * gapLimit) (chainOf w internal)
    (tailScan w.usedAddrs (chainOf w internal)) w.usedAddrs.dedup (List.nodup_dedup _)
    (fun m a _ _ _ hu => List.mem_dedup.2 hu) hb (tailScan_gapAt _ _).1
    (by
      have : (w.usedAddrs.dedup.length + 1) * gapLimit ≤ (w.usedAddrs.length + 1) * gapLimit :=
        Nat.mul_le_mul_right _ (by omega)
      omega)
  unfold LWWalletUnusedAddrs
  rw [if_neg (by omega)]
  simp only
  have e : (if internal = true then w.internalChain else w.externalChain) = chainOf w internal := rfl
  rw [e, hr]
  simp only
  split <;> exact ⟨_, rfl⟩

/-! ### Wallet: the invariant of the addresses -/

theorem outputsLoop_used (tx : LWTransaction) :
    ∀ (rest : List LWTxOutput) (j : Nat) (w : LWWallet) (b : Nat),
      ∀ a ∈ (outputsLoop tx rest j (w, b)).1.usedAddrs,
        a ∈ w.usedAddrs ∨ ∃ o ∈ rest, o.address = a := by
  intro rest
  induction rest with
  | nil => intro j w b a ha; exact Or.inl ha
  | cons o rest ih =>
    intro j w b a ha
    unfold outputsLoop at ha
    simp only at ha
    split_ifs at ha
    · rcases ih _ _ _ a ha with h | ⟨o1, h1, h2⟩
      · rcases mem_keyAdd.1 h with h | h
        · exact Or.inl h
        · exact Or.inr ⟨o, List.mem_cons_self _ _, h.symm⟩
      · exact Or.inr ⟨o1, List.mem_cons_of_mem _ h1, h2⟩
    · rcases ih _ _ _ a ha with h | ⟨o1, h1, h2⟩
      · rcases mem_keyAdd.1 h with h | h
        · exact Or.inl h
        · exact Or.inr ⟨o, List.mem_cons_self _ _, h.symm⟩
      · exact Or.inr ⟨o1, List.mem_cons_of_mem _ h1, h2⟩
    · rcases ih _ _ _ a ha with h | ⟨o1, h1, h2⟩
      · exact Or.inl h
      · exact Or.inr ⟨o1, List.mem_cons_of_mem _ h1, h2⟩

theorem updateStep_used (env : Env) (now : Nat) (s r : LWWallet × Nat × Nat)
    (tx : LWTransaction) (e : updateStep env now s tx = some r) :
    ∀ a ∈ r.1.usedAddrs, a ∈ s.1.usedAddrs ∨ ∃ o ∈ tx.outputs, o.address = a := by
  obtain ⟨w, b, p⟩ := s
  unfold updateStep at e
  simp only at e
  by_cases h1 : tx.blockHeight = TX_UNCONFIRMED ∧ inputsInvalid w tx = true
  · rw [if_pos h1] at e
    cases e
    intro a ha
    exact Or.inl ha
  · rw [if_neg h1] at e
    by_cases h2 : tx.blockHeight = TX_UNCONFIRMED ∧
        checkPending env now (spendInputs w tx) tx = true
    · rw [if_pos h2] at e
      cases e
      intro a ha
      exact Or.inl ha
    · rw [if_neg h2] at e
      have a5 := outputsLoop_used tx tx.outputs 0 (spendInputs w tx) b
      generalize outputsLoop tx tx.outputs 0 (spendInputs w tx, b) = q at e a5
      obtain ⟨w2, b2⟩ := q
      simp only at e a5
      split at e
      · cases e
      · cases e
        exact a5

theorem updateLoop_used (env : Env) (now : Nat) :
    ∀ (rest : List LWTransaction) (s r : LWWallet × Nat × Nat),
      updateLoop env now rest s = some r →
      ∀ a ∈ r.1.usedAddrs,
        a ∈ s.1.usedAddrs ∨ ∃ t ∈ rest, ∃ o ∈ t.outputs, o.address = a := by
  intro rest
  induction rest with
  | nil =>
    intro s r e a ha
    rw [updateLoop] at e
    cases e
    exact Or.inl ha
  | cons t rest ih =>
    intro s r e a ha
    rw [updateLoop] at e
    cases hs : updateStep env now s t with
    | none => rw [hs] at e; cases e
    | some s1 =>
      rw [hs] at e
      rcases ih s1 r e a ha with h | ⟨u, hu, o, ho, hoa⟩
      · rcases updateStep_used env now s s1 t hs a h with h | ⟨o, ho, hoa⟩
        · exact Or.inl h
        · exact Or.inr ⟨t, List.mem_cons_self _ _, o, ho, hoa⟩
      · exact Or.inr ⟨u, List.mem_cons_of_mem _ hu, o, ho, hoa⟩

theorem updateBalance_used (env : Env) (now : Nat) (w w1 : LWWallet)
    (e : _LWWalletUpdateBalance env now w = some w1) :
    ∀ a ∈ w1.usedAddrs, ∃ t ∈ w.transactions, ∃ o ∈ t.outputs, o.address = a := by
  obtain ⟨s, b, p, hl, q⟩ := updateBalance_loop env now w w1 e
  intro a ha
  rw [q] at ha
  rcases updateLoop_used env now _ _ _ hl a ha with h | h
  · cases h
  · exact h

theorem AddrInv.recompute (env : Env) (now : Nat) (v w1 : LWWallet) (hb : BaseInv v)
    (hc : ∀ a, a ∈ v.internalChain ∨ a ∈ v.externalChain → a ∈ v.allAddrs)
    (e : _LWWalletUpdateBalance env now v = some w1) : AddrInv w1 := by
  obtain ⟨w2, e2, f, _⟩ := inv_recompute env now v hb
  rw [e] at e2
  cases e2
  refine ⟨?_, ?_⟩
  · intro a ha
    rw [f.internalChain, f.externalChain] at ha
    rw [f.allAddrs]
    exact hc a ha
  · intro a ha
    rw [f.transactions]
    exact updateBalance_used env now v w1 e a ha

theorem AddrInv.of_same {w w1 : LWWallet} (h : AddrInv w) (e1 : w1.allAddrs = w.allAddrs)
    (e2 : w1.internalChain = w.internalChain) (e3 : w1.externalChain = w.externalChain)
    (e4 : w1.usedAddrs = w.usedAddrs)
    (ht : ∀ t ∈ w.transactions, ∃ t1 ∈ w1.transactions, t1.outputs = t.outputs) :
    AddrInv w1 := by
  refine ⟨?_, ?_⟩
  · intro a ha
    rw [e2, e3] at ha
    rw [e1]
    exact h.cover a ha
  · intro a ha
    rw [e4] at ha
    obtain ⟨t, hm, o, ho, hoa⟩ := h.used a ha
    obtain ⟨t1, hm1, ho1⟩ := ht t hm
    exact ⟨t1, hm1, o, by rw [ho1]; exact ho, hoa⟩

theorem unusedAddrs_cover (env : Env) (w w1 : LWWallet) (addrs : Bool) (gapLimit : Nat)
    (internal : Bool) (written : List String)
    (hw : ∀ a, a ∈ w.internalChain ∨ a ∈ w.externalChain → a ∈ w.allAddrs)
    (h : LWWalletUnusedAddrs env w addrs gapLimit internal = some (written, w1)) :
    ∀ a, a ∈ w1.internalChain ∨ a ∈ w1.externalChain → a ∈ w1.allAddrs := by
  unfold LWWalletUnusedAddrs at h
  split at h
  · cases h
  · simp only at h
    split at h
    · cases h
    · next chain1 i hg =>
      have hpre := generateLoop_prefix env internal w.usedAddrs gapLimit _ _ _ _ _ hg
      obtain ⟨ext, hext⟩ := hpre
      have hdrop : chain1.drop (if internal = true then w.internalChain else w.externalChain).length
          = ext := by
        rw [← hext, List.drop_left]
      cases internal with
      | true =>
        simp only [if_true] at h hext hdrop
        split at h
        · cases h
          intro a ha
          simp only at ha ⊢
          rw [mem_foldl_keyAdd_id]
          right
          rw [List.mem_append, List.mem_reverse, List.mem_reverse]
          exact ha
        · cases h
          intro a ha
          simp only at ha ⊢
          rw [mem_foldl_keyAdd_id, hdrop]
          rcases ha with ha | ha
          · rw [← hext] at ha
            rcases List.mem_append.1 ha with ha | ha
            · exact Or.inl (hw a (Or.inl ha))
            · exact Or.inr ha
          · exact Or.inl (hw a (Or.inr ha))
      | false =>
        simp only [Bool.false_eq_true, if_false] at h hext hdrop
        split at h
        · cases h
          intro a ha
          simp only at ha ⊢
          rw [mem_foldl_keyAdd_id]
          right
          rw [List.mem_append, List.mem_reverse, List.mem_reverse]
          exact ha
        · cases h
          intro a ha
          simp only at ha ⊢
          rw [mem_foldl_keyAdd_id, hdrop]
          rcases ha with ha | ha
          · exact Or.inl (hw a (Or.inl ha))
          · rw [← hext] at ha
            rcases List.mem_append.1 ha with ha | ha
            · exact Or.inl (hw a (Or.inr ha))
            · exact Or.inr ha

theorem AddrInv.unused (env : Env) (w w1 : LWWallet) (addrs : Bool) (gapLimit : Nat)
    (internal : Bool) (written : List String)
    (hi : ∀ a ∈ w.allAddrs, a ∈ w.internalChain ∨ a ∈ w.externalChain) (h : AddrInv w)
    (e : LWWalletUnusedAddrs env w addrs gapLimit internal = some (written, w1)) :
    AddrInv w1 := by
  have g := unusedAddrs_grow env _ _ _ _ _ _ hi e
  refine ⟨unusedAddrs_cover env _ _ _ _ _ _ h.cover e, ?_⟩
  have e1 : w1.usedAddrs = w.usedAddrs := by rw [g.eq]
  have e2 : w1.transactions = w.transactions := by rw [g.eq]
  rw [e1, e2]
  exact h.used

theorem newLoop_addrs (env : Env) :
    ∀ (txs : List LWTransaction) (w w1 : LWWallet), newLoop env txs w = some w1 →
      w1.allAddrs = w.allAddrs ∧ w1.internalChain = w.internalChain ∧
        w1.externalChain = w.externalChain := by
  intro txs
  induction txs with
  | nil =>
    intro w w1 e
    rw [newLoop] at e
    cases e
    exact ⟨rfl, rfl, rfl⟩
  | cons tx rest ih =>
    intro w w1 e
    rw [newLoop] at e
    split at e
    · exact ih w w1 e
    · simp only at e
      split at e
      · cases e
      · have := ih _ w1 e
        exact this

theorem walletNew_addr (env : Env) (now : Nat) (txs : List LWTransaction) (w : LWWallet)
    (e : LWWalletNew env now txs = some (some w)) : AddrInv w := by
  unfold LWWalletNew at e
  split at e
  · cases e
  · next w1 h1 =>
    have b0 : BaseInv (emptyWallet env) := by
      refine ⟨?_, List.nodup_nil, ?_⟩
      · intro t ht; cases ht
      · intro a ha; cases ha
    have b1 : BaseInv w1 := newLoop_base env txs _ w1 b0 h1
    obtain ⟨n1, n2, n3⟩ := newLoop_addrs env txs _ w1 h1
    have c1 : ∀ a, a ∈ w1.internalChain ∨ a ∈ w1.externalChain → a ∈ w1.allAddrs := by
      intro a ha
      rw [n2, n3] at ha
      rcases ha with ha | ha <;> cases ha
    split at e
    · cases e
    · next x w2 h2 =>
      have b2 := b1.grow (unusedAddrs_grow env _ _ _ _ _ _ b1.addrs h2)
      have c2 := unusedAddrs_cover env _ _ _ _ _ _ c1 h2
      split at e
      · cases e
      · next y w3 h3 =>
        have b3 := b2.grow (unusedAddrs_grow env _ _ _ _ _ _ b2.addrs h3)
        have c3 := unusedAddrs_cover env _ _ _ _ _ _ c2 h3
        split at e
        · cases e
        · next w4 h4 =>
          have i4 := AddrInv.recompute env now _ w4 b3 c3 h4
          split at e
          · cases e; exact i4
          · split at e
            · cases e; exact i4
            · cases e

theorem register_addr (env : Env) (now : Nat) (w w1 : LWWallet) (tx : LWTransaction) (r : Bool)
    (events : List Event) (h : WalletInv w) (ha : AddrInv w)
    (e : LWWalletRegisterTransaction env now w tx = some (r, w1, events)) : AddrInv w1 := by
  unfold LWWalletRegisterTransaction at e
  split at e
  · cases e
  · split at e
    · cases e; exact ha
    · next hc =>
      have hn : txGet w.allTx tx.txHash = none := by
        rw [← txContains_false]
        simpa using hc
      split at e
      · simp only at e
        split at e
        · cases e
        · next list hins =>
          have hp := insertTx_perm _ _ _ hins
          have hb : BaseInv { w with allTx := txAdd w.allTx tx, transactions := list } :=
            add_listed_base tx h.base hn rfl hp rfl rfl rfl
          obtain ⟨w2, e2, _, i2⟩ := inv_recompute env now _ hb
          have a2 := AddrInv.recompute env now _ w2 hb ha.cover e2
          rw [e2] at e
          simp only at e
          split at e
          · cases e
          · next x w3 h3 =>
            split at e
            · cases e
            · next y w4 h4 =>
              cases e
              have g3 := unusedAddrs_grow env _ _ _ _ _ _ i2.addrs h3
              have a3 := AddrInv.unused env _ _ _ _ _ _ i2.addrs a2 h3
              exact AddrInv.unused env _ _ _ _ _ _ g3.chains a3 h4
      · split at e
        · cases e
          exact ha.of_same rfl rfl rfl rfl (fun t ht => ⟨t, ht, rfl⟩)
        · cases e; exact ha

theorem removeLeaf_addr (env : Env) (now : Nat) (w w1 : LWWallet) (tx : LWTransaction)
    (txHash : Nat) (events : List Event) (h : BaseInv w) (ha : AddrInv w)
    (e : removeLeaf env now w tx txHash = some (w1, events)) : AddrInv w1 := by
  unfold removeLeaf at e
  simp only at e
  have hb : BaseInv { w with allTx := txRemove w.allTx tx.txHash,
                             transactions := removeListed w.transactions tx.txHash } :=
    remove_base tx.txHash h rfl rfl rfl rfl rfl
  split at e
  · cases e
  · next w2 h2 =>
    have a2 := AddrInv.recompute env now _ w2 hb ha.cover h2
    split at e
    · cases e
    · cases e
      exact a2

theorem removeAll_addr (rec : LWWallet → Nat → Option (LWWallet × List Event))
    (hrec : ∀ w h w1 ev, WalletInv w → AddrInv w → rec w h = some (w1, ev) →
      WalletInv w1 ∧ AddrInv w1) :
    ∀ (hashes : List Nat) (s s1 : LWWallet × List Event), WalletInv s.1 → AddrInv s.1 →
      removeAll rec hashes s = some s1 → WalletInv s1.1 ∧ AddrInv s1.1 := by
  intro hashes
  induction hashes with
  | nil =>
    intro s s1 h ha e
    rw [removeAll] at e
    cases e
    exact ⟨h, ha⟩
  | cons k rest ih =>
    intro s s1 h ha e
    obtain ⟨w, ev⟩ := s
    rw [removeAll] at e
    split at e
    · cases e
    · next w2 ev2 h2 =>
      obtain ⟨i2, a2⟩ := hrec _ _ _ _ h ha h2
      exact ih _ s1 i2 a2 e

theorem removeDepth_addr (env : Env) (now : Nat) :
    ∀ (depth : Nat) (w : LWWallet) (txHash : Nat) (w1 : LWWallet) (events : List Event),
      WalletInv w → AddrInv w →
      LWWalletRemoveTransactionDepth env now depth w txHash = some (w1, events) →
      WalletInv w1 ∧ AddrInv w1 := by
  intro depth
  induction depth with
  | zero =>
    intro w txHash w1 events _ _ e
    rw [LWWalletRemoveTransactionDepth] at e
    cases e
  | succ depth ih =>
    intro w txHash w1 events h ha e
    have hinv := removeDepth_inv env now _ w txHash w1 events h e
    refine ⟨hinv, ?_⟩
    rw [LWWalletRemoveTransactionDepth] at e
    split at e
    · cases e
    · split at e
      · cases e; exact ha
      · next tx _ =>
        simp only at e
        split at e
        · split at e
          · cases e
          · next w2 ev2 h2 =>
            obtain ⟨i2, a2⟩ :=
              removeAll_addr _ (fun a b c d hi hai he => ih a b c d hi hai he) _ _ (w2, ev2)
                h ha h2
            split at e
            · cases e
            · next w3 ev3 h3 =>
              cases e
              exact (ih _ _ _ _ i2 a2 h3).2
        · exact removeLeaf_addr env now _ _ _ _ _ h.base ha e

theorem updateTxStep_addr (blockHeight timestamp : Nat) (s s1 : LWWallet × List Nat × Bool)
    (txHash : Nat) (h : WalletInv s.1) (ha : AddrInv s.1)
    (e : updateTxStep blockHeight timestamp s txHash = some s1) : AddrInv s1.1 := by
  obtain ⟨w, hashes, needs⟩ := s
  simp only at h ha
  have hstore : ∀ k, ∀ t ∈ w.transactions, ∃ t1 ∈ txStore w.transactions k
      (storeHeight blockHeight timestamp), t1.outputs = t.outputs := by
    intro k t ht
    refine ⟨if t.txHash = k then storeHeight blockHeight timestamp t else t, ?_, ?_⟩
    · unfold txStore
      exact List.mem_map.2 ⟨t, ht, rfl⟩
    · split <;> rfl
  unfold updateTxStep at e
  simp only at e
  split at e
  · cases e; exact ha
  · next tx hget =>
    split at e
    · cases e; exact ha
    · split at e
      · split at e
        · split at e
          · cases e
          · next list hins =>
            cases e
            have hp := insertTx_perm _ _ _ hins
            refine ha.of_same rfl rfl rfl rfl ?_
            intro t ht
            simp only
            by_cases hk : t.txHash = tx.txHash
            · have e1 := h.listed t ht
              rw [hk, (txGet_some hget).1, hget] at e1
              cases e1
              exact ⟨storeHeight blockHeight timestamp tx,
                hp.symm.subset (List.mem_cons_self _ _), rfl⟩
            · refine ⟨t, hp.symm.subset (List.mem_cons_of_mem _ ?_), rfl⟩
              have hm : t ∈ txStore w.transactions tx.txHash
                  (storeHeight blockHeight timestamp) := by
                unfold txStore
                exact List.mem_map.2 ⟨t, ht, by rw [if_neg hk]⟩
              have e5 : (storeHeight blockHeight timestamp tx).txHash = tx.txHash := rfl
              simp only [e5]
              rcases removeListed_spec (txStore w.transactions tx.txHash
                (storeHeight blockHeight timestamp)) tx.txHash with
                ⟨_, h2⟩ | ⟨pre, x, post, h1, _, h3, h4⟩
              · rw [h2]; exact hm
              · rw [h4]
                rw [h3] at hm
                rcases List.mem_append.1 hm with hm | hm
                · exact List.mem_append_left _ hm
                · rcases List.mem_cons.1 hm with hm | hm
                  · exact absurd (by rw [hm]; exact h1) hk
                  · exact List.mem_append_right _ hm
        · cases e
          exact ha.of_same rfl rfl rfl rfl (hstore tx.txHash)
      · split at e
        · split at e
          · cases e
          · cases e
            exact ha.of_same rfl rfl rfl rfl (hstore tx.txHash)
        · cases e
          exact ha.of_same rfl rfl rfl rfl (hstore tx.txHash)

theorem updateTxLoop_addr (blockHeight timestamp : Nat) :
    ∀ (hashes : List Nat) (s s1 : LWWallet × List Nat × Bool), WalletInv s.1 → AddrInv s.1 →
      updateTxLoop blockHeight timestamp hashes s = some s1 → AddrInv s1.1 := by
  intro hashes
  induction hashes with
  | nil =>
    intro s s1 _ ha e
    rw [updateTxLoop] at e
    cases e
    exact ha
  | cons k rest ih =>
    intro s s1 h ha e
    rw [updateTxLoop] at e
    split at e
    · cases e
    · next s2 h2 =>
      exact ih s2 s1 (updateTxStep_inv _ _ _ _ _ h h2) (updateTxStep_addr _ _ _ _ _ h ha h2) e

theorem update_addr (env : Env) (now : Nat) (w w1 : LWWallet) (txHashes : List Nat)
    (blockHeight timestamp : Nat) (events : List Event) (h : WalletInv w) (ha : AddrInv w)
    (e : LWWalletUpdateTransactions env now w txHashes blockHeight timestamp =
      some (w1, events)) : AddrInv w1 := by
  unfold LWWalletUpdateTransactions at e
  simp only at e
  have h0 : WalletInv (if blockHeight > w.blockHeight then { w with blockHeight := blockHeight }
      else w) := by
    split
    · exact h.congr ⟨rfl, rfl, rfl, rfl, rfl, rfl, rfl, rfl⟩ rfl rfl
    · exact h
  have a0 : AddrInv (if blockHeight > w.blockHeight then { w with blockHeight := blockHeight }
      else w) := by
    split
    · exact ha.of_same rfl rfl rfl rfl (fun t ht => ⟨t, ht, rfl⟩)
    · exact ha
  split at e
  · cases e
  · next w2 hashes needs hl =>
    have i2 : WalletInv w2 := updateTxLoop_inv _ _ _ _ (w2, hashes, needs) h0 hl
    have a2 : AddrInv w2 := updateTxLoop_addr _ _ _ _ (w2, hashes, needs) h0 a0 hl
    split at e
    · split at e
      · cases e
      · next w3 h3 =>
        have a3 := AddrInv.recompute env now _ w3 i2.base a2.cover h3
        cases e
        exact a3
    · cases e
      exact a2

theorem unconfirm_addr (w : LWWallet) (t : LWTransaction) (ha : AddrInv w) :
    AddrInv (unconfirm w t) := by
  refine ha.of_same rfl rfl rfl rfl ?_
  intro u hu
  refine ⟨if u.txHash = t.txHash then storeUnconfirmed u else u, ?_, ?_⟩
  · unfold unconfirm txStore
    exact List.mem_map.2 ⟨u, hu, rfl⟩
  · split <;> rfl

theorem unconfirm_foldl_addr :
    ∀ (l : List LWTransaction) (w : LWWallet), AddrInv w → AddrInv (l.foldl unconfirm w) := by
  intro l
  induction l with
  | nil => intro w h; exact h
  | cons t rest ih =>
    intro w h
    rw [List.foldl_cons]
    exact ih _ (unconfirm_addr w t h)

theorem unconfirmAfter_addr (env : Env) (now : Nat) (w w1 : LWWallet) (blockHeight : Nat)
    (events : List Event) (h : WalletInv w) (ha : AddrInv w)
    (e : LWWalletSetTxUnconfirmedAfter env now w blockHeight = some (w1, events)) :
    AddrInv w1 := by
  unfold LWWalletSetTxUnconfirmedAfter at e
  simp only at e
  have h0 : WalletInv { w with blockHeight := blockHeight } :=
    h.congr ⟨rfl, rfl, rfl, rfl, rfl, rfl, rfl, rfl⟩ rfl rfl
  have a0 : AddrInv { w with blockHeight := blockHeight } :=
    ha.of_same rfl rfl rfl rfl (fun t ht => ⟨t, ht, rfl⟩)
  have h1 := unconfirm_foldl_inv
    (List.drop (w.transactions.length - (List.takeWhile (fun t => decide (t.blockHeight > blockHeight))
      w.transactions.reverse).length) w.transactions) _ h0
  have a1 := unconfirm_foldl_addr
    (List.drop (w.transactions.length - (List.takeWhile (fun t => decide (t.blockHeight > blockHeight))
      w.transactions.reverse).length) w.transactions) _ a0
  split at e
  · split at e
    · cases e
    · next w3 h3 =>
      have a3 := AddrInv.recompute env now _ w3 h1.base a1.cover h3
      cases e
      exact a3
  · cases e
    exact a1

theorem selectLoop_cover (env : Env)
    (rec : LWWallet → List LWTxOutput → Option (Option LWTransaction × LWWallet))
    (w : LWWallet) (outputs : List LWTxOutput) (minAmount count : Nat)
    (hw : ∀ a, a ∈ w.internalChain ∨ a ∈ w.externalChain → a ∈ w.allAddrs)
    (hrec : ∀ o1 r w2, rec w o1 = some (r, w2) →
      ∀ a, a ∈ w2.internalChain ∨ a ∈ w2.externalChain → a ∈ w2.allAddrs) :
    ∀ (utxos : List LWUTXO) (t : LWTransaction) (fee amount balance : Nat) (s : Selection),
      selectLoop env rec w outputs minAmount count utxos t fee amount balance = some s →
      ∀ a, a ∈ s.wallet.internalChain ∨ a ∈ s.wallet.externalChain → a ∈ s.wallet.allAddrs := by
  intro utxos
  induction utxos with
  | nil =>
    intro t fee amount balance s e
    rw [selectLoop] at e
    cases e
    exact hw
  | cons o rest ih =>
    intro t fee amount balance s e
    rw [selectLoop] at e
    split at e
    · exact ih _ _ _ _ _ e
    · split at e
      · exact ih _ _ _ _ _ e
      · simp only at e
        split_ifs at e
        all_goals first
          | exact ih _ _ _ _ _ e
          | (cases e; exact hw)
          | (split at e
             · cases e
             · next t2 w2 hn =>
               cases e
               exact hrec _ _ _ hn)

theorem createTx_cover (env : Env) :
    ∀ (depth : Nat) (w w1 : LWWallet) (outputs : List LWTxOutput) (tx : Option LWTransaction),
      (∀ a, a ∈ w.internalChain ∨ a ∈ w.externalChain → a ∈ w.allAddrs) →
      LWWalletCreateTxForOutputs env depth w outputs = some (tx, w1) →
      ∀ a, a ∈ w1.internalChain ∨ a ∈ w1.externalChain → a ∈ w1.allAddrs := by
  intro depth
  induction depth with
  | zero =>
    intro w w1 outputs tx _ e
    rw [LWWalletCreateTxForOutputs] at e
    cases e
  | succ depth ih =>
    intro w w1 outputs tx hw e
    rw [LWWalletCreateTxForOutputs] at e
    split at e
    · cases e
    · simp only at e
      split at e
      · cases e
      · next s hs =>
        have g := selectLoop_cover env _ w outputs _ _ hw
          (fun o1 r w2 h => ih w w2 o1 r hw h) _ _ _ _ _ s hs
        split at e
        · cases e; exact g
        · split at e
          · cases e; exact g
          · split at e
            · split at e
              · cases e
              · next written w2 hu =>
                cases e
                exact unusedAddrs_cover env _ _ _ _ _ _ g hu
            · cases e; exact g

theorem reached_addr (env : Env) (w : LWWallet) (h : WalletReached env w) : AddrInv w := by
  induction h with
  | new now txs w e => exact walletNew_addr env now txs w e
  | register now w w1 tx r events hr e ih =>
    exact register_addr env now w w1 tx r events (reached_inv_wallet env w hr) ih e
  | remove now w w1 txHash events hr e ih =>
    exact (removeDepth_addr env now _ w txHash w1 events (reached_inv_wallet env w hr) ih e).2
  | update now w w1 txHashes blockHeight timestamp events hr e ih =>
    exact update_addr env now w w1 txHashes blockHeight timestamp events
      (reached_inv_wallet env w hr) ih e
  | unconfirm now w w1 blockHeight events hr e ih =>
    exact unconfirmAfter_addr env now w w1 blockHeight events (reached_inv_wallet env w hr) ih e
  | unusedAddrs w w1 addrs gapLimit internal written hr e ih =>
    exact AddrInv.unused env _ _ _ _ _ _ (reached_inv_wallet env w hr).addrs ih e
  | setFeePerKb w feePerKb _ ih =>
    exact ih.of_same rfl rfl rfl rfl (fun t ht => ⟨t, ht, rfl⟩)
  | createTx depth w w1 outputs tx hr e ih =>
    have g := createTx_grow env depth w w1 outputs tx (reached_inv_wallet env w hr).addrs e
    refine ⟨createTx_cover env depth w w1 outputs tx ih.cover e, ?_⟩
    have e1 : w1.usedAddrs = w.usedAddrs := by rw [g.eq]
    have e2 : w1.transactions = w.transactions := by rw [g.eq]
    rw [e1, e2]
    exact ih.used

theorem sampleEnv_total (c : Bool) (m : Nat) : ∃ a, sampleEnv.deriveAddress c m = some a :=
  ⟨_, rfl⟩

theorem sampleEnv_injective (c : Bool) (m n : Nat) (a : String)
    (h1 : sampleEnv.deriveAddress c m = some a) (h2 : sampleEnv.deriveAddress c n = some a) :
    m = n := by
  rw [← h2] at h1
  have e := congrArg String.data (Option.some.inj h1)
  have := congrArg List.length e
  simp only [List.length_replicate] at this
  omega

/-- C25 (as stated, refuted): in the wallet that `LWWalletNew` creates without
transactions, whose external chain has ten addresses, `LWWalletUnusedAddrs` with gap limit
1 writes the first address of the chain; the last entry of the chain is the tenth
address. -/
theorem unusedAddrs_writes_first :
    WalletReached sampleEnv (walletOfD []) ∧
      (∀ m, ∃ a, sampleEnv.deriveAddress false m = some a) ∧
      (LWWalletUnusedAddrs sampleEnv (walletOfD []) true 1 false).map
        (fun r => (r.1, r.2.externalChain.length, r.2.externalChain.drop 9)) =
        some (["e"], 10, ["eeeeeeeeee"]) :=
  ⟨walletOfD_reached _ (by decide), sampleEnv_total false, by decide⟩

/-- C25 (amended): when key derivation succeeds, the addresses that `LWWalletUnusedAddrs`
writes are the `gapLimit` chain addresses from the position after the last chain address
that is in `usedAddrs`; none of them is in `usedAddrs`; they are the last `gapLimit`
entries of the chain when the call made the chain longer. -/
theorem unusedAddrs_written (env : Env) (w w1 : LWWallet) (gapLimit : Nat) (internal : Bool)
    (written : List String) (hd : ∀ m, ∃ a, env.deriveAddress internal m = some a)
    (e : LWWalletUnusedAddrs env w true gapLimit internal = some (written, w1)) :
    (∀ a ∈ written, a ∉ w1.usedAddrs) ∧
      (∃ i, GapAt w1.usedAddrs (chainOf w1 internal) i ∧
        written = ((chainOf w1 internal).drop i).take gapLimit) ∧
      ((chainOf w internal).length < (chainOf w1 internal).length →
        written = (chainOf w1 internal).drop ((chainOf w1 internal).length - gapLimit)) := by
  obtain ⟨_, e1, _, e3, i, g, hw, hfull, hgrow⟩ := unusedAddrs_spec env w w1 true gapLimit
    internal written e
  have hlen : i + gapLimit ≤ (chainOf w1 internal).length := by
    rcases hfull with h | h
    · exact h
    · obtain ⟨a, ha⟩ := hd ((chainOf w1 internal).length % 2 ^ 32)
      rw [ha] at h
      cases h
  rw [if_pos ⟨rfl, hlen⟩] at hw
  rw [e1]
  refine ⟨?_, ⟨i, g, hw⟩, ?_⟩
  · intro a ha
    rw [hw] at ha
    exact g.2.1 a (List.mem_of_mem_take ha)
  · intro hlt
    rcases hgrow with h | h
    · rw [h] at hlt
      omega
    · have e5 : (chainOf w1 internal).length - gapLimit = i := by omega
      rw [e5, hw]
      apply List.take_of_length_le
      rw [List.length_drop]
      omega

/-- C25 (amended), at the wallet without transactions and the gap limit 1. -/
theorem unusedAddrs_written_witness :
    ((∀ m, ∃ a, sampleEnv.deriveAddress false m = some a) ∧
      LWWalletUnusedAddrs sampleEnv (walletOfD []) true 1 false =
        some (unusedD (walletOfD []) 1 false)) ∧
    (∀ a ∈ (unusedD (walletOfD []) 1 false).1,
      a ∉ (unusedD (walletOfD []) 1 false).2.usedAddrs) ∧
    (∃ i, GapAt (unusedD (walletOfD []) 1 false).2.usedAddrs
        (chainOf (unusedD (walletOfD []) 1 false).2 false) i ∧
      (unusedD (walletOfD []) 1 false).1 =
        ((chainOf (unusedD (walletOfD []) 1 false).2 false).drop i).take 1) ∧
    ((chainOf (walletOfD []) false).length <
        (chainOf (unusedD (walletOfD []) 1 false).2 false).length →
      (unusedD (walletOfD []) 1 false).1 =
        (chainOf (unusedD (walletOfD []) 1 false).2 false).drop
          ((chainOf (unusedD (walletOfD []) 1 false).2 false).length - 1)) :=
  ⟨⟨sampleEnv_total false,
      eq_some_getD (LWWalletUnusedAddrs sampleEnv (walletOfD []) true 1 false)
        ([], walletOfD []) (by decide)⟩,
    unusedAddrs_written sampleEnv (walletOfD []) (unusedD (walletOfD []) 1 false).2 1 false
      (unusedD (walletOfD []) 1 false).1 (sampleEnv_total false)
      (eq_some_getD (LWWalletUnusedAddrs sampleEnv (walletOfD []) true 1 false)
        ([], walletOfD []) (by decide))⟩

/-- C26: in a reached wallet, with a key derivation that succeeds for every index and
gives pairwise different addresses, and chains that stay below 2^32 entries,
`LWWalletUnusedAddrs` with a non-NULL `addrs` and a gap limit above 0 returns; it writes
`gapLimit` addresses, which are the consecutive chain addresses from the position after
the last chain address that is in `usedAddrs` (position 0 when there is none); none of
them is in `usedAddrs`, the chain afterwards has at least that position plus `gapLimit`
entries, and the chain before the call is a prefix of it.  On a wallet without
transactions `LWWalletReceiveAddress` returns the address at position 0 of the external
chain. -/
theorem unusedAddrs_contract (env : Env) (w : LWWallet) (gapLimit : Nat) (internal : Bool)
    (hr : WalletReached env w) (hg : 0 < gapLimit)
    (htot : ∀ c m, ∃ a, env.deriveAddress c m = some a)
    (hinj : ∀ c m n a, m < 2 ^ 32 → n < 2 ^ 32 → env.deriveAddress c m = some a →
      env.deriveAddress c n = some a → m = n)
    (hb : ∀ c, (chainOf w c).length + (w.usedAddrs.length + 1) * gapLimit ≤ 2 ^ 32) :
    (∃ written w1, LWWalletUnusedAddrs env w true gapLimit internal = some (written, w1) ∧
      written.length = gapLimit ∧ (∀ a ∈ written, a ∉ w1.usedAddrs) ∧
      chainOf w internal <+: chainOf w1 internal ∧
      ∃ i, GapAt w1.usedAddrs (chainOf w1 internal) i ∧
        written = ((chainOf w1 internal).drop i).take gapLimit ∧
        i + gapLimit ≤ (chainOf w1 internal).length) ∧
    (w.transactions = [] →
      ∃ a w2, LWWalletReceiveAddress env w = some (a, w2) ∧ w2.externalChain[0]? = some a) := by
  have main : ∀ (g : Nat) (c : Bool), 0 < g →
      (chainOf w c).length + (w.usedAddrs.length + 1) * g ≤ 2 ^ 32 →
      ∃ written w1, LWWalletUnusedAddrs env w true g c = some (written, w1) ∧
        written.length = g ∧ (∀ a ∈ written, a ∉ w1.usedAddrs) ∧
        chainOf w c <+: chainOf w1 c ∧
        ∃ i, GapAt w1.usedAddrs (chainOf w1 c) i ∧
          written = ((chainOf w1 c).drop i).take g ∧ i + g ≤ (chainOf w1 c).length := by
    intro g c hg1 hb1
    obtain ⟨⟨written, w1⟩, e⟩ := unusedAddrs_total env w true g c hg1 (htot c) (hinj c) hb1
    obtain ⟨_, e1, _, e3, i, gp, hw, hfull, _⟩ := unusedAddrs_spec env w w1 true g c written e
    have hlen : i + g ≤ (chainOf w1 c).length := by
      rcases hfull with h | h
      · exact h
      · obtain ⟨a, ha⟩ := htot c ((chainOf w1 c).length % 2 ^ 32)
        rw [ha] at h
        cases h
    rw [if_pos ⟨rfl, hlen⟩] at hw
    refine ⟨written, w1, e, ?_, ?_, e3, i, by rw [e1]; exact gp, hw, hlen⟩
    · rw [hw, List.length_take, List.length_drop]
      omega
    · intro a ha
      rw [hw] at ha
      rw [e1]
      exact gp.2.1 a (List.mem_of_mem_take ha)
  refine ⟨main gapLimit internal hg (hb internal), ?_⟩
  intro hnil
  have hu : w.usedAddrs = [] := by
    rw [List.eq_nil_iff_forall_not_mem]
    intro a ha
    obtain ⟨t, ht, _⟩ := (reached_addr env w hr).used a ha
    rw [hnil] at ht
    cases ht
  have hb1 : (chainOf w false).length + (w.usedAddrs.length + 1) * 1 ≤ 2 ^ 32 := by
    have h1 := hb false
    have h2 : (w.usedAddrs.length + 1) * 1 ≤ (w.usedAddrs.length + 1) * gapLimit :=
      Nat.mul_le_mul_left _ hg
    omega
  obtain ⟨written, w1, e, hl, _, _, i, gp, hw, hlen⟩ := main 1 false (by decide) hb1
  have e1 : w1.usedAddrs = [] := by
    rw [(unusedAddrs_spec env w w1 true 1 false written e).2.1, hu]
  have hi : i = 0 := by
    rcases gp.2.2 with h | ⟨a, _, ha⟩
    · exact h
    · rw [e1] at ha
      cases ha
  rw [hi] at hw hlen
  have hc : chainOf w1 false = w1.externalChain := rfl
  rw [hc] at hw hlen
  refine ⟨written.headD "", w1, ?_, ?_⟩
  · unfold LWWalletReceiveAddress
    rw [e]
  · cases hx : w1.externalChain with
    | nil => rw [hx] at hlen; simp at hlen
    | cons x rest =>
      rw [hx] at hw
      rw [hw]
      simp

/-- C26, at the wallet without transactions, the external chain and the gap limit 3. -/
theorem unusedAddrs_contract_witness :
    (WalletReached sampleEnv (walletOfD []) ∧ 0 < 3 ∧
      (∀ c m, ∃ a, sampleEnv.deriveAddress c m = some a) ∧
      (∀ c m n a, m < 2 ^ 32 → n < 2 ^ 32 → sampleEnv.deriveAddress c m = some a →
        sampleEnv.deriveAddress c n = some a → m = n) ∧
      (∀ c, (chainOf (walletOfD []) c).length + ((walletOfD []).usedAddrs.length + 1) * 3 ≤
        2 ^ 32)) ∧
    (∃ written w1, LWWalletUnusedAddrs sampleEnv (walletOfD []) true 3 false =
        some (written, w1) ∧
      written.length = 3 ∧ (∀ a ∈ written, a ∉ w1.usedAddrs) ∧
      chainOf (walletOfD []) false <+: chainOf w1 false ∧
      ∃ i, GapAt w1.usedAddrs (chainOf w1 false) i ∧
        written = ((chainOf w1 false).drop i).take 3 ∧
        i + 3 ≤ (chainOf w1 false).length) ∧
    ((walletOfD []).transactions = [] →
      ∃ a w2, LWWalletReceiveAddress sampleEnv (walletOfD []) = some (a, w2) ∧
        w2.externalChain[0]? = some a) := by
  have hb : ∀ c, (chainOf (walletOfD []) c).length +
      ((walletOfD []).usedAddrs.length + 1) * 3 ≤ 2 ^ 32 := by
    intro c
    cases c <;> decide
  exact ⟨⟨walletOfD_reached _ (by decide), by decide, sampleEnv_total,
      fun c m n a _ _ h1 h2 => sampleEnv_injective c m n a h1 h2, hb⟩,
    unusedAddrs_contract sampleEnv (walletOfD []) 3 false (walletOfD_reached _ (by decide))
      (by decide) sampleEnv_total (fun c m n a _ _ h1 h2 => sampleEnv_injective c m n a h1 h2)
      hb⟩

/-- C27: in every wallet state reached through the public operations, among them
`LWWalletUnusedAddrs`, `LWWalletNew` and `LWWalletRegisterTransaction`, an address is in
`allAddrs` if and only if it is an entry of the internal or of the external chain. -/
theorem allAddrs_iff_chains (env : Env) (w : LWWallet) (a : String)
    (h : WalletReached env w) :
    a ∈ w.allAddrs ↔ a ∈ w.internalChain ∨ a ∈ w.externalChain :=
  ⟨(reached_inv_wallet env w h).addrs a, (reached_addr env w h).cover a⟩

/-- C27, at the wallet with two confirmed coins and the first external address. -/
theorem allAddrs_iff_chains_witness :
    WalletReached sampleEnv twoCoinWallet ∧
      ("e" ∈ twoCoinWallet.allAddrs ↔
        "e" ∈ twoCoinWallet.internalChain ∨ "e" ∈ twoCoinWallet.externalChain) :=
  ⟨walletOfD_reached _ (by decide),
    allAddrs_iff_chains sampleEnv twoCoinWallet "e" (walletOfD_reached _ (by decide))⟩

/-! ### Wallet: what the recomputation leaves alone -/

theorem outputsLoop_frame (tx : LWTransaction) :
    ∀ (rest : List LWTxOutput) (j : Nat) (w : LWWallet) (b : Nat),
      Frame w (outputsLoop tx rest j (w, b)).1 := by
  intro rest
  induction rest with
  | nil => intro j w b; exact Frame.refl _
  | cons o rest ih =>
    intro j w b
    unfold outputsLoop
    simp only
    split_ifs
    · have f := ih (j + 1)
        { w with usedAddrs := keyAdd w.usedAddrs o.address,
                 utxos := w.utxos ++ [{ hash := tx.txHash, n := j }] } (add64 b o.amount)
      exact ⟨f.transactions, f.allTx, f.allAddrs, f.internalChain, f.externalChain,
        f.feePerKb, f.blockHeight⟩
    · have f := ih (j + 1) { w with usedAddrs := keyAdd w.usedAddrs o.address } b
      exact ⟨f.transactions, f.allTx, f.allAddrs, f.internalChain, f.externalChain,
        f.feePerKb, f.blockHeight⟩
    · exact ih _ _ _

theorem updateStep_frame (env : Env) (now : Nat) (s r : LWWallet × Nat × Nat)
    (tx : LWTransaction) (e : updateStep env now s tx = some r) : Frame s.1 r.1 := by
  obtain ⟨w, b, p⟩ := s
  unfold updateStep at e
  simp only at e
  by_cases h1 : tx.blockHeight = TX_UNCONFIRMED ∧ inputsInvalid w tx = true
  · rw [if_pos h1] at e
    cases e
    exact ⟨rfl, rfl, rfl, rfl, rfl, rfl, rfl⟩
  · rw [if_neg h1] at e
    by_cases h2 : tx.blockHeight = TX_UNCONFIRMED ∧
        checkPending env now (spendInputs w tx) tx = true
    · rw [if_pos h2] at e
      cases e
      exact ⟨rfl, rfl, rfl, rfl, rfl, rfl, rfl⟩
    · rw [if_neg h2] at e
      have a5 := outputsLoop_frame tx tx.outputs 0 (spendInputs w tx) b
      generalize outputsLoop tx tx.outputs 0 (spendInputs w tx, b) = q at e a5
      obtain ⟨w2, b2⟩ := q
      simp only at e a5
      split at e
      · cases e
      · cases e
        exact ⟨a5.transactions, a5.allTx, a5.allAddrs, a5.internalChain, a5.externalChain,
          a5.feePerKb, a5.blockHeight⟩

theorem updateLoop_frame (env : Env) (now : Nat) :
    ∀ (rest : List LWTransaction) (s r : LWWallet × Nat × Nat),
      updateLoop env now rest s = some r → Frame s.1 r.1 := by
  intro rest
  induction rest with
  | nil =>
    intro s r e
    rw [updateLoop] at e
    cases e
    exact Frame.refl _
  | cons t rest ih =>
    intro s r e
    rw [updateLoop] at e
    cases hs : updateStep env now s t with
    | none => rw [hs] at e; cases e
    | some s1 =>
      rw [hs] at e
      exact (updateStep_frame env now s s1 t hs).trans (ih s1 r e)

theorem updateBalance_frame (env : Env) (now : Nat) (w w1 : LWWallet)
    (e : _LWWalletUpdateBalance env now w = some w1) : Frame w w1 := by
  obtain ⟨s, b, p, hl, q⟩ := updateBalance_loop env now w w1 e
  have f := updateLoop_frame env now _ _ _ hl
  rw [q]
  exact ⟨f.transactions, f.allTx, f.allAddrs, f.internalChain, f.externalChain, f.feePerKb,
    f.blockHeight⟩

theorem updateTxStep_blockHeight (blockHeight timestamp : Nat)
    (s s1 : LWWallet × List Nat × Bool) (txHash : Nat)
    (e : updateTxStep blockHeight timestamp s txHash = some s1) :
    s1.1.blockHeight = s.1.blockHeight := by
  obtain ⟨w, hashes, needs⟩ := s
  unfold updateTxStep at e
  simp only at e
  split at e
  · cases e; rfl
  · split at e
    · cases e; rfl
    · split at e
      · split at e
        · split at e
          · cases e
          · cases e; rfl
        · cases e; rfl
      · split at e
        · split at e
          · cases e
          · cases e; rfl
        · cases e; rfl

theorem updateTxLoop_blockHeight (blockHeight timestamp : Nat) :
    ∀ (hashes : List Nat) (s s1 : LWWallet × List Nat × Bool),
      updateTxLoop blockHeight timestamp hashes s = some s1 →
      s1.1.blockHeight = s.1.blockHeight := by
  intro hashes
  induction hashes with
  | nil =>
    intro s s1 e
    rw [updateTxLoop] at e
    cases e
    rfl
  | cons k rest ih =>
    intro s s1 e
    rw [updateTxLoop] at e
    split at e
    · cases e
    · next s2 h2 =>
      rw [ih s2 s1 e, updateTxStep_blockHeight _ _ _ _ _ h2]

/-- C22: after `LWWalletUpdateTransactions` the block height of the wallet is the larger
one of its earlier value and the given height. -/
theorem update_blockHeight_max (env : Env) (now : Nat) (w w1 : LWWallet) (txHashes : List Nat)
    (blockHeight timestamp : Nat) (events : List Event)
    (e : LWWalletUpdateTransactions env now w txHashes blockHeight timestamp =
      some (w1, events)) :
    w1.blockHeight = max w.blockHeight blockHeight := by
  unfold LWWalletUpdateTransactions at e
  simp only at e
  have h0 : (if blockHeight > w.blockHeight then { w with blockHeight := blockHeight }
      else w).blockHeight = max w.blockHeight blockHeight := by
    split
    · next h => simp only; omega
    · next h => omega
  split at e
  · cases e
  · next w2 hashes needs hl =>
    have h2 := updateTxLoop_blockHeight _ _ _ _ (w2, hashes, needs) hl
    simp only at h2
    split at e
    · split at e
      · cases e
      · next w3 h3 =>
        have f := updateBalance_frame env now _ w3 h3
        cases e
        rw [f.blockHeight, h2, h0]
    · cases e
      rw [h2, h0]

/-- C22, at the wallet with two confirmed coins, whose block height is 0, and an update
of a transaction to the height 150. -/
theorem update_blockHeight_max_witness :
    LWWalletUpdateTransactions sampleEnv 0 twoCoinWallet [1] 150 7 =
        some (updateD twoCoinWallet [1] 150 7) ∧
      (updateD twoCoinWallet [1] 150 7).1.blockHeight = max twoCoinWallet.blockHeight 150 :=
  ⟨eq_some_getD (LWWalletUpdateTransactions sampleEnv 0 twoCoinWallet [1] 150 7)
      (twoCoinWallet, []) (by decide),
    update_blockHeight_max sampleEnv 0 twoCoinWallet (updateD twoCoinWallet [1] 150 7).1 [1]
      150 7 (updateD twoCoinWallet [1] 150 7).2
      (eq_some_getD (LWWalletUpdateTransactions sampleEnv 0 twoCoinWallet [1] 150 7)
        (twoCoinWallet, []) (by decide))⟩

/-! ### Wallet: transactions unconfirmed after a height -/

theorem unconfirm_foldl_fields :
    ∀ (tail : List LWTransaction) (w : LWWallet),
      (tail.foldl unconfirm w).transactions = w.transactions.map
        (fun t => if t.txHash ∈ tail.map (fun u => u.txHash) then storeUnconfirmed t else t) ∧
      (tail.foldl unconfirm w).blockHeight = w.blockHeight := by
  intro tail
  induction tail with
  | nil =>
    intro w
    refine ⟨?_, rfl⟩
    simp
  | cons u rest ih =>
    intro w
    rw [List.foldl_cons]
    obtain ⟨h1, h2⟩ := ih (unconfirm w u)
    refine ⟨?_, h2⟩
    rw [h1]
    unfold unconfirm txStore
    simp only [List.map_map]
    apply List.map_congr_left
    intro t _
    simp only [Function.comp, List.map_cons, List.mem_cons]
    by_cases hk : t.txHash = u.txHash
    · rw [if_pos hk, if_pos (Or.inl hk)]
      have e : (storeUnconfirmed t).txHash = t.txHash := rfl
      rw [e]
      split
      · rfl
      · rfl
    · rw [if_neg hk]
      by_cases hm : t.txHash ∈ rest.map (fun u => u.txHash)
      · rw [if_pos hm, if_pos (Or.inr hm)]
      · rw [if_neg hm, if_neg (by rintro (h | h); exact hk h; exact hm h)]

theorem suffix_takeWhile (p : LWTransaction → Bool) (l : List LWTransaction) :
    (∀ t ∈ l.drop (l.length - (l.reverse.takeWhile p).length), p t = true) ∧
      (∀ x, (l.take (l.length - (l.reverse.takeWhile p).length)).getLast? = some x →
        p x = false) := by
  have hsplit := List.takeWhile_append_dropWhile p l.reverse
  have hTp : ∀ a ∈ l.reverse.takeWhile p, p a = true := fun a ha => List.mem_takeWhile_imp ha
  have hDn : ∀ x, (l.reverse.dropWhile p).head? = some x → p x = false := by
    intro x hx
    cases hD : l.reverse.dropWhile p with
    | nil => rw [hD] at hx; cases hx
    | cons d D1 =>
      rw [hD] at hx
      cases hx
      have hne : l.reverse.dropWhile p ≠ [] := by rw [hD]; exact List.cons_ne_nil _ _
      have := List.head_dropWhile_not p l.reverse hne
      simp only [hD, List.head_cons] at this
      simpa using this
  generalize l.reverse.takeWhile p = T at hsplit hTp
  generalize l.reverse.dropWhile p = D at hsplit hDn
  have hc : l = D.reverse ++ T.reverse := by
    have := congrArg List.reverse hsplit
    rw [List.reverse_reverse, List.reverse_append] at this
    exact this.symm
  have hi : l.length - T.length = D.reverse.length := by
    rw [hc, List.length_append, List.length_reverse, List.length_reverse]
    omega
  rw [hi]
  constructor
  · intro t ht
    rw [hc, List.drop_left] at ht
    exact hTp t (List.mem_reverse.1 ht)
  · intro x hx
    rw [hc, List.take_left, List.getLast?_reverse] at hx
    exact hDn x hx

theorem unconfirmAfter_fields (env : Env) (now : Nat) (w w1 : LWWallet) (h : Nat)
    (events : List Event)
    (e : LWWalletSetTxUnconfirmedAfter env now w h = some (w1, events)) :
    w1.blockHeight = h ∧ w1.transactions = w.transactions.map
      (fun t => if t.txHash ∈ (w.transactions.drop (w.transactions.length -
          (w.transactions.reverse.takeWhile (fun t => decide (t.blockHeight > h))).length)).map
          (fun u => u.txHash) then storeUnconfirmed t else t) := by
  unfold LWWalletSetTxUnconfirmedAfter at e
  simp only at e
  obtain ⟨f1, f2⟩ := unconfirm_foldl_fields
    (List.drop (w.transactions.length - (List.takeWhile (fun t => decide (t.blockHeight > h))
      w.transactions.reverse).length) w.transactions) { w with blockHeight := h }
  split at e
  · split at e
    · cases e
    · next w3 h3 =>
      have f := updateBalance_frame env now _ w3 h3
      cases e
      exact ⟨by rw [f.blockHeight, f2], by rw [f.transactions, f1]⟩
  · cases e
    exact ⟨f2, f1⟩

/-- C24 (amended): in a reached wallet whose ordered list is sorted by block height,
after `LWWalletSetTxUnconfirmedAfter(h)` the block height of the wallet is `h` and the
list is the earlier list in which every transaction with a block height above `h` has the
block height `TX_UNCONFIRMED`, and every other transaction is as before. -/
theorem unconfirmAfter_sorted (env : Env) (now : Nat) (w w1 : LWWallet) (h : Nat)
    (events : List Event) (hr : WalletReached env w)
    (hs : w.transactions.Pairwise (fun a b => a.blockHeight ≤ b.blockHeight))
    (e : LWWalletSetTxUnconfirmedAfter env now w h = some (w1, events)) :
    w1.blockHeight = h ∧ w1.transactions = w.transactions.map
      (fun t => if t.blockHeight > h then storeUnconfirmed t else t) := by
  obtain ⟨e1, e2⟩ := unconfirmAfter_fields env now w w1 h events e
  refine ⟨e1, ?_⟩
  rw [e2]
  have inv := reached_inv_wallet env w hr
  obtain ⟨s1, s2⟩ := suffix_takeWhile (fun t => decide (t.blockHeight > h)) w.transactions
  generalize w.transactions.length -
    (w.transactions.reverse.takeWhile (fun t => decide (t.blockHeight > h))).length = i at s1 s2
  have hsplit := List.take_append_drop i w.transactions
  have hnd := inv.nodup
  rw [← hsplit] at hs hnd
  rw [List.map_append] at hnd
  have hdis := (List.nodup_append.1 hnd).2.2
  apply List.map_congr_left
  intro t ht
  rw [← hsplit] at ht
  rcases List.mem_append.1 ht with ht | ht
  · have hle : t.blockHeight ≤ h := by
      cases hl : (w.transactions.take i).getLast? with
      | none =>
        rw [List.getLast?_eq_none_iff] at hl
        rw [hl] at ht
        cases ht
      | some x =>
        have hx := s2 x hl
        simp only [decide_eq_false_iff_not, not_lt] at hx
        have hxm : x ∈ w.transactions.take i := List.mem_of_getLast?_eq_some hl
        obtain ⟨pre, hpre⟩ : ∃ pre, w.transactions.take i = pre ++ [x] := by
          rw [List.getLast?_eq_some_iff] at hl
          exact hl
        rw [hpre] at ht
        rcases List.mem_append.1 ht with ht1 | ht1
        · have hp := (List.pairwise_append.1 hs).1
          rw [hpre] at hp
          have := (List.pairwise_append.1 hp).2.2 t ht1 x (List.mem_singleton_self _)
          omega
        · rw [List.mem_singleton.1 ht1]; exact hx
    have hnm : ¬ t.txHash ∈ (w.transactions.drop i).map (fun u => u.txHash) :=
      fun hm => hdis (List.mem_map.2 ⟨t, ht, rfl⟩) hm
    have hng : ¬ t.blockHeight > h := by omega
    rw [if_neg hnm, if_neg hng]
  · have hgt := s1 t ht
    simp only [decide_eq_true_eq] at hgt
    have hm : t.txHash ∈ (w.transactions.drop i).map (fun u => u.txHash) :=
      List.mem_map.2 ⟨t, ht, rfl⟩
    rw [if_pos hm, if_pos hgt]

/-- C24, at the wallet with two coins confirmed at the heights 100 and 101, and the
height 100. -/
theorem unconfirmAfter_sorted_witness :
    (WalletReached sampleEnv twoCoinWallet ∧
      twoCoinWallet.transactions.Pairwise (fun a b => a.blockHeight ≤ b.blockHeight) ∧
      LWWalletSetTxUnconfirmedAfter sampleEnv 0 twoCoinWallet 100 =
        some (unconfirmD twoCoinWallet 100)) ∧
    (unconfirmD twoCoinWallet 100).1.blockHeight = 100 ∧
    (unconfirmD twoCoinWallet 100).1.transactions = twoCoinWallet.transactions.map
      (fun t => if t.blockHeight > 100 then storeUnconfirmed t else t) :=
  ⟨⟨walletOfD_reached _ (by decide), by decide,
      eq_some_getD (LWWalletSetTxUnconfirmedAfter sampleEnv 0 twoCoinWallet 100)
        (twoCoinWallet, []) (by decide)⟩,
    unconfirmAfter_sorted sampleEnv 0 twoCoinWallet (unconfirmD twoCoinWallet 100).1 100
      (unconfirmD twoCoinWallet 100).2 (walletOfD_reached _ (by decide)) (by decide)
      (eq_some_getD (LWWalletSetTxUnconfirmedAfter sampleEnv 0 twoCoinWallet 100)
        (twoCoinWallet, []) (by decide))⟩

/-- C24 (as stated, refuted): with two coins confirmed at the heights 2500000000 and
3000000000, `LWWalletSetTxUnconfirmedAfter(2600000000)` stores `TX_UNCONFIRMED`
(2147483647) in the second one, so that the list is no longer sorted by height; a second
call with the height 2200000000 then stops at the last entry and leaves the first
transaction at 2500000000, above the height. -/
theorem unconfirmAfter_misses_earlier :
    WalletReached sampleEnv (unconfirmD highWallet 2600000000).1 ∧
      (unconfirmD highWallet 2600000000).1.transactions.map (fun t => t.blockHeight) =
        [2500000000, 2147483647] ∧
      (LWWalletSetTxUnconfirmedAfter sampleEnv 0 (unconfirmD highWallet 2600000000).1
        2200000000).map (fun r => r.1.transactions.map (fun t => t.blockHeight)) =
        some [2500000000, 2147483647] :=
  ⟨WalletReached.unconfirm 0 highWallet _ 2600000000 (unconfirmD highWallet 2600000000).2
      (walletOfD_reached _ (by decide))
      (eq_some_getD (LWWalletSetTxUnconfirmedAfter sampleEnv 0 highWallet 2600000000)
        (highWallet, []) (by decide)),
    by decide, by decide⟩

/-! ### Wallet: removal of a transaction and its descendants -/

theorem Descends.trans_desc {l : List LWTransaction} {a b c : Nat} (h1 : Descends l a b)
    (h2 : Descends l b c) : Descends l a c := by
  induction h1 with
  | child t h ht hs => exact Descends.step t h c ht hs h2
  | step t g h ht hs _ ih => exact Descends.step t g c ht hs (ih h2)

theorem Descends.mono {l l1 : List LWTransaction} {a b : Nat} (hsub : ∀ t ∈ l, t ∈ l1)
    (h : Descends l a b) : Descends l1 a b := by
  induction h with
  | child t h ht hs => exact Descends.child t h (hsub t ht) hs
  | step t g h ht hs _ ih => exact Descends.step t g h (hsub t ht) hs ih

theorem dependents_mem (tx : LWTransaction) (h : Nat) :
    ∀ (r : List LWTransaction) (k : Nat), k ∈ dependents tx h r →
      ∃ t ∈ r, t.txHash = k ∧ spends t h ∧ t.txHash ≠ tx.txHash := by
  intro r
  induction r with
  | nil => intro k hk; cases hk
  | cons t rest ih =>
    intro k hk
    rw [dependents] at hk
    split at hk
    · cases hk
    · split at hk
      · obtain ⟨u, hu, h1⟩ := ih k hk
        exact ⟨u, List.mem_cons_of_mem _ hu, h1⟩
      · next hne =>
        split at hk
        · next hany =>
          rcases List.mem_cons.1 hk with hk | hk
          · exact ⟨t, List.mem_cons_self _ _, hk.symm, (spends_iff_any _ _).1 hany,
              fun e => hne e.symm⟩
          · obtain ⟨u, hu, h1⟩ := ih k hk
            exact ⟨u, List.mem_cons_of_mem _ hu, h1⟩
        · obtain ⟨u, hu, h1⟩ := ih k hk
          exact ⟨u, List.mem_cons_of_mem _ hu, h1⟩

theorem dependents_nil_scan (tx : LWTransaction) (h : Nat) :
    ∀ (a b : List LWTransaction), dependents tx h (a ++ b) = [] →
      (∀ t ∈ a, tx.blockHeight ≤ t.blockHeight) →
      ∀ t ∈ a, t.txHash = tx.txHash ∨ ¬ spends t h := by
  intro a
  induction a with
  | nil => intro b _ _ t ht; cases ht
  | cons x a1 ih =>
    intro b hd hb t ht
    rw [List.cons_append, dependents] at hd
    have hx := hb x (List.mem_cons_self _ _)
    rw [if_neg (by omega)] at hd
    have hb1 : ∀ t ∈ a1, tx.blockHeight ≤ t.blockHeight :=
      fun u hu => hb u (List.mem_cons_of_mem _ hu)
    split at hd
    · next he =>
      rcases List.mem_cons.1 ht with ht | ht
      · exact Or.inl (by rw [ht]; exact he.symm)
      · exact ih b hd hb1 t ht
    · split at hd
      · cases hd
      · next hany =>
        rcases List.mem_cons.1 ht with ht | ht
        · right
          rw [ht]
          intro hs
          exact hany ((spends_iff_any _ _).2 hs)
        · exact ih b hd hb1 t ht

theorem removeListed_subset (l : List LWTransaction) (h : Nat) :
    ∀ t ∈ removeListed l h, t ∈ l := by
  intro t ht
  rcases removeListed_spec l h with ⟨_, h2⟩ | ⟨pre, x, post, _, _, h3, h4⟩
  · rw [h2] at ht; exact ht
  · rw [h4] at ht
    rw [h3]
    rcases List.mem_append.1 ht with ht | ht
    · exact List.mem_append_left _ ht
    · exact List.mem_append_right _ (List.mem_cons_of_mem _ ht)

theorem removeLeaf_fields (env : Env) (now : Nat) (w w2 : LWWallet) (tx : LWTransaction)
    (h : Nat) (events : List Event) (e : removeLeaf env now w tx h = some (w2, events)) :
    w2.allTx = txRemove w.allTx tx.txHash ∧
      w2.transactions = removeListed w.transactions tx.txHash := by
  have f := updateBalance_frame env now _ w2 (removeLeaf_wallet env now w w2 tx h events e)
  exact ⟨f.allTx, f.transactions⟩

theorem removeAll_kept (l0 : List LWTransaction)
    (rec : LWWallet → Nat → Option (LWWallet × List Event))
    (hrec : ∀ w k w1 ev, WalletInv w → rec w k = some (w1, ev) →
      WalletInv w1 ∧ (∀ t ∈ w1.transactions, t ∈ w.transactions) ∧
      ∀ g, g ≠ k → ¬ Descends w.transactions g k → txGet w1.allTx g = txGet w.allTx g)
    (g : Nat) :
    ∀ (hashes : List Nat) (s s1 : LWWallet × List Event),
      (∀ k ∈ hashes, g ≠ k ∧ ¬ Descends l0 g k) → (∀ t ∈ s.1.transactions, t ∈ l0) →
      WalletInv s.1 → removeAll rec hashes s = some s1 →
      WalletInv s1.1 ∧ (∀ t ∈ s1.1.transactions, t ∈ l0) ∧
        txGet s1.1.allTx g = txGet s.1.allTx g := by
  intro hashes
  induction hashes with
  | nil =>
    intro s s1 _ hsub hi e
    rw [removeAll] at e
    cases e
    exact ⟨hi, hsub, rfl⟩
  | cons k rest ih =>
    intro s s1 hk hsub hi e
    obtain ⟨w, ev⟩ := s
    rw [removeAll] at e
    split at e
    · cases e
    · next w2 ev2 h2 =>
      obtain ⟨i2, sub2, keep2⟩ := hrec _ _ _ _ hi h2
      obtain ⟨hk1, hk2⟩ := hk k (List.mem_cons_self _ _)
      have hsub2 : ∀ t ∈ w2.transactions, t ∈ l0 := fun t ht => hsub t (sub2 t ht)
      obtain ⟨i3, sub3, keep3⟩ := ih (w2, ev ++ ev2) s1
        (fun k1 hk1 => hk k1 (List.mem_cons_of_mem _ hk1)) hsub2 i2 e
      refine ⟨i3, sub3, ?_⟩
      rw [keep3]
      exact keep2 g hk1 (fun hd => hk2 (hd.mono hsub))

theorem removeAll_sub (rec : LWWallet → Nat → Option (LWWallet × List Event))
    (hrec : ∀ w k w1 ev, WalletInv w → rec w k = some (w1, ev) →
      WalletInv w1 ∧ (∀ t ∈ w1.transactions, t ∈ w.transactions)) :
    ∀ (hashes : List Nat) (s s1 : LWWallet × List Event), WalletInv s.1 →
      removeAll rec hashes s = some s1 →
      WalletInv s1.1 ∧ ∀ t ∈ s1.1.transactions, t ∈ s.1.transactions := by
  intro hashes
  induction hashes with
  | nil =>
    intro s s1 hi e
    rw [removeAll] at e
    cases e
    exact ⟨hi, fun t ht => ht⟩
  | cons k rest ih =>
    intro s s1 hi e
    obtain ⟨w, ev⟩ := s
    rw [removeAll] at e
    split at e
    · cases e
    · next w2 ev2 h2 =>
      obtain ⟨i2, sub2⟩ := hrec _ _ _ _ hi h2
      obtain ⟨i3, sub3⟩ := ih (w2, ev ++ ev2) s1 i2 e
      exact ⟨i3, fun t ht => sub2 t (sub3 t ht)⟩

theorem removeDepth_kept (env : Env) (now : Nat) :
    ∀ (depth : Nat) (w : LWWallet) (h : Nat) (w2 : LWWallet) (events : List Event),
      WalletInv w → LWWalletRemoveTransactionDepth env now depth w h = some (w2, events) →
      WalletInv w2 ∧ (∀ t ∈ w2.transactions, t ∈ w.transactions) ∧
        ∀ g, g ≠ h → ¬ Descends w.transactions g h → txGet w2.allTx g = txGet w.allTx g := by
  intro depth
  induction depth with
  | zero =>
    intro w h w2 events _ e
    rw [LWWalletRemoveTransactionDepth] at e
    cases e
  | succ depth ih =>
    intro w h w2 events hi e
    have hinv := removeDepth_inv env now _ w h w2 events hi e
    refine ⟨hinv, ?_⟩
    rw [LWWalletRemoveTransactionDepth] at e
    split at e
    · cases e
    · split at e
      · cases e
        exact ⟨fun t ht => ht, fun g _ _ => rfl⟩
      · next tx hget =>
        simp only at e
        have hdesc : ∀ k ∈ (dependents tx h w.transactions.reverse).reverse,
            Descends w.transactions k h := by
          intro k hk
          obtain ⟨t, ht, e1, hs, _⟩ := dependents_mem tx h _ k (List.mem_reverse.1 hk)
          rw [← e1]
          exact Descends.child t h (List.mem_reverse.1 ht) hs
        split at e
        · split at e
          · cases e
          · next w1 ev1 h1 =>
            split at e
            · cases e
            · next w3 ev3 h3 =>
              cases e
              obtain ⟨i3, sub3, keep3⟩ := ih _ _ _ _
                (removeAll_inv _ (fun a b c d hi he => removeDepth_inv env now _ a b c d hi he)
                  _ _ (w1, ev1) hi h1) h3
              have key : ∀ g, g ≠ h → ¬ Descends w.transactions g h →
                  WalletInv w1 ∧ (∀ t ∈ w1.transactions, t ∈ w.transactions) ∧
                    txGet w1.allTx g = txGet w.allTx g := by
                intro g hg hnd
                refine removeAll_kept w.transactions _
                  (fun a b c d hi he => ih a b c d hi he) g _ (w, []) (w1, ev1) ?_
                  (fun t ht => ht) hi h1
                intro k hk
                have hkd := hdesc k hk
                refine ⟨?_, fun hd => hnd (hd.trans_desc hkd)⟩
                intro e1
                rw [e1] at hnd
                exact hnd hkd
              refine ⟨?_, ?_⟩
              · intro t ht
                obtain ⟨_, sub1⟩ := removeAll_sub _
                  (fun a b c d hi he => ⟨(ih a b c d hi he).1, (ih a b c d hi he).2.1⟩)
                  _ (w, []) (w1, ev1) hi h1
                exact sub1 t (sub3 t ht)
              · intro g hg hnd
                obtain ⟨_, sub1, keep1⟩ := key g hg hnd
                rw [keep3 g hg (fun hd => hnd (hd.mono sub1)), keep1]
        · obtain ⟨f1, f2⟩ := removeLeaf_fields env now w w2 tx h events e
          have hk := (txGet_some hget).1
          refine ⟨?_, ?_⟩
          · intro t ht
            rw [f2] at ht
            exact removeListed_subset _ _ t ht
          · intro g hg _
            rw [f1, hk, txGet_txRemove_ne _ hg]

theorem removeDepth_spec (env : Env) (now : Nat) :
    ∀ (depth : Nat) (w : LWWallet) (h : Nat) (tx : LWTransaction) (w2 : LWWallet)
      (events : List Event),
      WalletInv w → ¬ Descends w.transactions h h → txGet w.allTx h = some tx →
      LWWalletRemoveTransactionDepth env now depth w h = some (w2, events) →
      txGet w2.allTx h = none ∧
        ∀ pre post, w2.transactions = pre ++ post →
          (∀ t ∈ post, tx.blockHeight ≤ t.blockHeight) → ∀ t ∈ post, ¬ spends t h := by
  intro depth
  induction depth with
  | zero =>
    intro w h tx w2 events _ _ _ e
    rw [LWWalletRemoveTransactionDepth] at e
    cases e
  | succ depth ih =>
    intro w h tx w2 events hi hac hget e
    rw [LWWalletRemoveTransactionDepth] at e
    split at e
    · cases e
    · rw [hget] at e
      simp only at e
      have hk := (txGet_some hget).1
      split at e
      · split at e
        · cases e
        · next w1 ev1 h1 =>
          split at e
          · cases e
          · next w3 ev3 h3 =>
            have hfin : w2 = w3 := by cases e; rfl
            rw [hfin]
            clear e hfin
            have hrec : ∀ a b c d, WalletInv a →
                LWWalletRemoveTransactionDepth env now depth a b = some (c, d) →
                WalletInv c ∧ (∀ t ∈ c.transactions, t ∈ a.transactions) ∧
                ∀ g, g ≠ b → ¬ Descends a.transactions g b → txGet c.allTx g = txGet a.allTx g :=
              fun a b c d hia he => removeDepth_kept env now depth a b c d hia he
            obtain ⟨i1, sub1, keep1⟩ := removeAll_kept w.transactions _ hrec h _ (w, [])
              (w1, ev1) (by
                intro k hkm
                obtain ⟨t, ht, e1, hs, hne⟩ := dependents_mem tx h _ k (List.mem_reverse.1 hkm)
                have hd : Descends w.transactions k h := by
                  rw [← e1]
                  exact Descends.child t h (List.mem_reverse.1 ht) hs
                refine ⟨?_, fun hd2 => hac (hd2.trans_desc hd)⟩
                intro e2
                rw [← e2, ← hk] at e1
                exact hne e1) (fun t ht => ht) hi h1
            exact ih w1 h tx w3 ev3 i1 (fun hd => hac (hd.mono sub1))
              (by rw [keep1]; exact hget) h3
      · next hlen =>
        obtain ⟨f1, f2⟩ := removeLeaf_fields env now w w2 tx h events e
        have hnil : dependents tx h w.transactions.reverse = [] := by
          cases hd : dependents tx h w.transactions.reverse with
          | nil => rfl
          | cons a b =>
            rw [hd] at hlen
            simp at hlen
        refine ⟨?_, ?_⟩
        · rw [f1, hk]
          exact txGet_txRemove_self _ _
        · intro pre post hsplit hb t ht
          rw [f2, hk] at hsplit
          have scan : ∀ (p q : List LWTransaction), w.transactions = p ++ q →
              (∀ u ∈ q, tx.blockHeight ≤ u.blockHeight) →
              ∀ u ∈ q, u.txHash = tx.txHash ∨ ¬ spends u h := by
            intro p q hpq hq u hu
            have hr : w.transactions.reverse = q.reverse ++ p.reverse := by
              rw [hpq, List.reverse_append]
            rw [hr] at hnil
            exact dependents_nil_scan tx h q.reverse p.reverse hnil
              (fun v hv => hq v (List.mem_reverse.1 hv)) u (List.mem_reverse.2 hu)
          rcases removeListed_spec w.transactions h with ⟨n1, n2⟩ | ⟨a, x, c, x1, x2, x3, x4⟩
          · rw [n2] at hsplit
            rcases scan pre post hsplit hb t ht with h5 | h5
            · exfalso
              have hm : t ∈ w.transactions := by
                rw [hsplit]; exact List.mem_append_right _ ht
              exact n1 t hm (by rw [h5, hk])
            · exact h5
          · rw [x4] at hsplit
            have hx : x = tx := by
              have hm : x ∈ w.transactions := by
                rw [x3]; exact List.mem_append_right _ (List.mem_cons_self _ _)
              have := hi.listed x hm
              rw [x1, hget] at this
              exact (Option.some.inj this).symm
            have hnd := hi.nodup
            rw [x3, List.map_append, List.map_cons] at hnd
            have hna : ∀ u ∈ a, u.txHash ≠ h := by
              intro u hu e1
              refine (List.nodup_append.1 hnd).2.2 (List.mem_map.2 ⟨u, hu, rfl⟩) ?_
              rw [e1, x1]
              exact List.mem_cons_self _ _
            rcases List.append_eq_append_iff.1 hsplit with ⟨a1, e1, e2⟩ | ⟨c1, e1, e2⟩
            · -- pre = a ++ a1, c = a1 ++ post
              have hl : w.transactions = (a ++ x :: a1) ++ post := by
                rw [x3, e2, List.append_assoc, List.cons_append]
              rcases scan _ post hl hb t ht with h5 | h5
              · exfalso
                exact x2 t (by rw [e2]; exact List.mem_append_right _ ht) (by rw [h5, hk])
              · exact h5
            · -- a = pre ++ c1, post = c1 ++ c
              have hl : w.transactions = pre ++ (c1 ++ x :: c) := by
                rw [x3, e1, List.append_assoc]
              have hq : ∀ u ∈ c1 ++ x :: c, tx.blockHeight ≤ u.blockHeight := by
                intro u hu
                rcases List.mem_append.1 hu with hu | hu
                · exact hb u (by rw [e2]; exact List.mem_append_left _ hu)
                · rcases List.mem_cons.1 hu with hu | hu
                  · rw [hu, hx]
                  · exact hb u (by rw [e2]; exact List.mem_append_right _ hu)
              have htm : t ∈ c1 ++ x :: c := by
                rw [e2] at ht
                rcases List.mem_append.1 ht with ht | ht
                · exact List.mem_append_left _ ht
                · exact List.mem_append_right _ (List.mem_cons_of_mem _ ht)
              rcases scan pre _ hl hq t htm with h5 | h5
              · exfalso
                rw [e2] at ht
                rcases List.mem_append.1 ht with ht | ht
                · exact hna t (by rw [e1]; exact List.mem_append_right _ ht) (by rw [h5, hk])
                · exact x2 t ht (by rw [h5, hk])
              · exact h5

/-- C30 (as stated, refuted): the wallet holds the unconfirmed transaction 1 and its child,
transaction 2, which an update placed at the block height 100 and so before its parent in
the list.  `LWWalletRemoveTransaction` of transaction 1 stops its search for dependent
transactions at the lower block height: transaction 2 stays in the list and has an input
with the hash 1. -/
theorem remove_leaves_child :
    WalletReached sampleEnv (updateD (walletOfD [parentTx, childTx]) [2] 100 7).1 ∧
      (updateD (walletOfD [parentTx, childTx]) [2] 100 7).1.transactions.map
        (fun t => (t.txHash, t.blockHeight)) = [(2, 100), (1, 2147483647)] ∧
      txContains (updateD (walletOfD [parentTx, childTx]) [2] 100 7).1.allTx 1 = true ∧
      (LWWalletRemoveTransaction sampleEnv 0
        (updateD (walletOfD [parentTx, childTx]) [2] 100 7).1 1).map
        (fun r => r.1.transactions.map (fun t => (t.txHash, t.inputs.map (fun i => i.txHash))))
        = some [(2, [1])] :=
  ⟨WalletReached.update 0 (walletOfD [parentTx, childTx]) _ [2] 100 7
      (updateD (walletOfD [parentTx, childTx]) [2] 100 7).2 (walletOfD_reached _ (by decide))
      (eq_some_getD (LWWalletUpdateTransactions sampleEnv 0 (walletOfD [parentTx, childTx])
        [2] 100 7) (walletOfD [parentTx, childTx], []) (by decide)),
    by decide, by decide, by decide⟩

/-- C30 (amended): in a reached wallet, after `LWWalletRemoveTransaction(h)` for the hash
of a transaction `tx` of `allTx` that is not among its own descendants, the transaction
is in neither `allTx` nor the ordered list, and in every final part of the list whose
transactions all have a block height not below the one of `tx` no transaction has an input
with the hash `h`: a listed transaction spends no output of `tx` when its own block height
and those of all transactions after it in the list are not below the one of `tx`. -/
theorem remove_contract (env : Env) (now : Nat) (w w2 : LWWallet) (h : Nat)
    (tx : LWTransaction) (events : List Event) (hr : WalletReached env w)
    (hac : ¬ Descends w.transactions h h) (hg : txGet w.allTx h = some tx)
    (e : LWWalletRemoveTransaction env now w h = some (w2, events)) :
    txGet w2.allTx h = none ∧ (∀ t ∈ w2.transactions, t.txHash ≠ h) ∧
      ∀ pre post, w2.transactions = pre ++ post →
        (∀ t ∈ post, tx.blockHeight ≤ t.blockHeight) → ∀ t ∈ post, ¬ spends t h := by
  have hi := reached_inv_wallet env w hr
  obtain ⟨h1, h2⟩ := removeDepth_spec env now _ w h tx w2 events hi hac hg e
  have hi2 := remove_inv env now w w2 h events hi e
  refine ⟨h1, ?_, h2⟩
  intro t ht e1
  have := hi2.listed t ht
  rw [e1, h1] at this
  cases this

/-- C30 (amended), at the wallet that holds transaction 1 and its child, transaction 2,
and the removal of transaction 1. -/
theorem remove_contract_witness :
    (WalletReached sampleEnv (walletOfD [parentTx, childTx]) ∧
      ¬ Descends (walletOfD [parentTx, childTx]).transactions 1 1 ∧
      txGet (walletOfD [parentTx, childTx]).allTx 1 = some parentTx ∧
      LWWalletRemoveTransaction sampleEnv 0 (walletOfD [parentTx, childTx]) 1 =
        some (removeD (walletOfD [parentTx, childTx]) 1)) ∧
    txGet (removeD (walletOfD [parentTx, childTx]) 1).1.allTx 1 = none ∧
    (∀ t ∈ (removeD (walletOfD [parentTx, childTx]) 1).1.transactions, t.txHash ≠ 1) ∧
    ∀ pre post, (removeD (walletOfD [parentTx, childTx]) 1).1.transactions = pre ++ post →
      (∀ t ∈ post, parentTx.blockHeight ≤ t.blockHeight) → ∀ t ∈ post, ¬ spends t 1 := by
  have hl : (walletOfD [parentTx, childTx]).transactions = [parentTx, childTx] := by decide
  have hac : ¬ Descends (walletOfD [parentTx, childTx]).transactions 1 1 := by
    rw [hl]
    have key : ∀ a b, Descends [parentTx, childTx] a b → b = 1 → a = 2 := by
      intro a b hd
      induction hd with
      | child t h ht hs =>
        intro e
        rw [e] at hs
        obtain ⟨i, hi, hi2⟩ := hs
        rcases List.mem_cons.1 ht with ht | ht
        · rw [ht] at hi
          rw [List.mem_singleton.1 hi] at hi2
          cases hi2
        · rw [List.mem_singleton.1 ht]
          rfl
      | step t g h ht hs _ ih =>
        intro e
        have hg2 := ih e
        rw [hg2] at hs
        obtain ⟨i, hi, hi2⟩ := hs
        rcases List.mem_cons.1 ht with ht | ht
        · rw [ht] at hi
          rw [List.mem_singleton.1 hi] at hi2
          cases hi2
        · rw [List.mem_singleton.1 ht] at hi
          rw [List.mem_singleton.1 hi] at hi2
          cases hi2
    intro hd
    have := key 1 1 hd rfl
    omega
  have he : LWWalletRemoveTransaction sampleEnv 0 (walletOfD [parentTx, childTx]) 1 =
      some (removeD (walletOfD [parentTx, childTx]) 1) :=
    eq_some_getD (LWWalletRemoveTransaction sampleEnv 0 (walletOfD [parentTx, childTx]) 1)
      (walletOfD [parentTx, childTx], []) (by decide)
  exact ⟨⟨walletOfD_reached _ (by decide), hac, by decide, he⟩,
    remove_contract sampleEnv 0 (walletOfD [parentTx, childTx])
      (removeD (walletOfD [parentTx, childTx]) 1).1 1 parentTx
      (removeD (walletOfD [parentTx, childTx]) 1).2 (walletOfD_reached _ (by decide)) hac
      (by decide) he⟩

/-! ### Wallet: the pending test and the pending set -/

theorem any_or_any {α : Type} (f g : α → Bool) (l : List α) :
    l.any (fun a => f a || g a) = (l.any f || l.any g) := by
  induction l with
  | nil => rfl
  | cons a rest ih =>
    simp only [List.any_cons, ih]
    cases f a <;> cases g a <;> cases rest.any f <;> cases rest.any g <;> rfl

theorem checkPending_eq (env : Env) (now : Nat) (v w : LWWallet) (tx : LWTransaction)
    (hb : v.blockHeight = w.blockHeight) :
    checkPending env now v tx =
      (decide (env.LWTransactionSize tx > env.TX_MAX_SIZE) ||
        tx.outputs.any (fun o => decide (o.amount < env.TX_MIN_OUTPUT_AMOUNT)) ||
        (tx.inputs.any (postdated env now w tx) ||
          tx.inputs.any (fun i => decide (i.txHash ∈ v.pendingTx)))) := by
  unfold checkPending
  rw [← any_or_any]
  congr 1
  apply congrArg (fun f => tx.inputs.any f)
  funext i
  unfold postdated
  rw [hb]

theorem pendingLoop_eval (rec : LWTransaction → Option Bool) (w : LWWallet) (P : List Nat) :
    ∀ (inputs : List LWTxInput), (∀ inp ∈ inputs, inp.txHash ≠ 0) →
      (∀ inp ∈ inputs, ∀ p, txGet w.allTx inp.txHash = some p →
        rec p = some (decide (inp.txHash ∈ P))) →
      (∀ inp ∈ inputs, txGet w.allTx inp.txHash = none → inp.txHash ∉ P) →
      pendingLoop rec w inputs = some (inputs.any (fun inp => decide (inp.txHash ∈ P))) := by
  intro inputs
  induction inputs with
  | nil => intro _ _ _; rfl
  | cons i rest ih =>
    intro hz hrec hnone
    have ihr := ih (fun x hx => hz x (List.mem_cons_of_mem _ hx))
      (fun x hx => hrec x (List.mem_cons_of_mem _ hx))
      (fun x hx => hnone x (List.mem_cons_of_mem _ hx))
    rw [pendingLoop]
    unfold LWWalletTransactionForHash
    rw [if_neg (hz i (List.mem_cons_self _ _))]
    cases hg : txGet w.allTx i.txHash with
    | none =>
      simp only
      rw [ihr, List.any_cons]
      have := hnone i (List.mem_cons_self _ _) hg
      rw [decide_eq_false this, Bool.false_or]
    | some p =>
      simp only
      rw [hrec i (List.mem_cons_self _ _) p hg]
      by_cases hm : i.txHash ∈ P
      · rw [decide_eq_true hm]
        simp only
        rw [List.any_cons, decide_eq_true hm, Bool.true_or]
      · rw [decide_eq_false hm]
        simp only
        rw [ihr, List.any_cons, decide_eq_false hm, Bool.false_or]

theorem isPendingDepth_congr (env : Env) (now : Nat) (w v : LWWallet)
    (ha : v.allTx = w.allTx) (hb : v.blockHeight = w.blockHeight) :
    ∀ (d : Nat) (t : LWTransaction),
      LWWalletTransactionIsPendingDepth env now v d t =
        LWWalletTransactionIsPendingDepth env now w d t := by
  intro d
  induction d with
  | zero => intro t; rfl
  | succ d ih =>
    intro t
    rw [LWWalletTransactionIsPendingDepth, LWWalletTransactionIsPendingDepth]
    have hp : postdated env now v t = postdated env now w t := by
      funext i
      unfold postdated
      rw [hb]
    rw [hp]
    have hloop : ∀ inputs : List LWTxInput,
        pendingLoop (fun t => LWWalletTransactionIsPendingDepth env now v d t) v inputs =
          pendingLoop (fun t => LWWalletTransactionIsPendingDepth env now w d t) w inputs := by
      intro inputs
      induction inputs with
      | nil => rfl
      | cons i rest ihl =>
        rw [pendingLoop, pendingLoop]
        unfold LWWalletTransactionForHash
        rw [ha, ihl]
        split
        · rfl
        · rfl
        · next p _ => rw [ih p]
    rw [hloop]

theorem updateLoop_invalid_mono (env : Env) (now : Nat) :
    ∀ (rest : List LWTransaction) (s r : LWWallet × Nat × Nat),
      updateLoop env now rest s = some r → ∀ k ∈ s.1.invalidTx, k ∈ r.1.invalidTx := by
  intro rest
  induction rest with
  | nil =>
    intro s r e k hk
    rw [updateLoop] at e
    cases e
    exact hk
  | cons t rest ih =>
    intro s r e k hk
    rw [updateLoop] at e
    cases hs : updateStep env now s t with
    | none => rw [hs] at e; cases e
    | some s1 =>
      rw [hs] at e
      apply ih s1 r e k
      rcases updateStep_shape env now s s1 t hs with
        ⟨_, _, a1, _⟩ | ⟨_, _, _, a1, _⟩ | ⟨_, _, a1, _⟩
      · rw [a1, mem_keyAdd]; exact Or.inl hk
      · rw [a1]; exact hk
      · rw [a1]; exact hk

theorem hash_pos_inj (l : List LWTransaction) (hn : (l.map (fun t => t.txHash)).Nodup)
    (i j : Nat) (a b : LWTransaction) (hi : l[i]? = some a) (hj : l[j]? = some b)
    (e : a.txHash = b.txHash) : i = j := by
  obtain ⟨hi1, _⟩ := List.getElem?_eq_some_iff.1 hi
  obtain ⟨hj1, _⟩ := List.getElem?_eq_some_iff.1 hj
  have key := List.nodup_iff_getElem?_ne_getElem?.1 hn
  have hmi : (l.map (fun t => t.txHash))[i]? = some a.txHash := by
    rw [List.getElem?_map, hi]
    rfl
  have hmj : (l.map (fun t => t.txHash))[j]? = some b.txHash := by
    rw [List.getElem?_map, hj]
    rfl
  rcases Nat.lt_trichotomy i j with h | h | h
  · exact absurd (by rw [hmi, hmj, e]) (key i j h (by rw [List.length_map]; exact hj1))
  · exact h
  · exact absurd (by rw [hmi, hmj, e]) (key j i h (by rw [List.length_map]; exact hi1))

theorem isPending_at (env : Env) (now : Nat) (W v : LWWallet) (t : LWTransaction) (d : Nat)
    (hs : env.LWTransactionIsSigned t = true) (hb : v.blockHeight = W.blockHeight)
    (hz : ∀ inp ∈ t.inputs, inp.txHash ≠ 0)
    (hrec : ∀ inp ∈ t.inputs, ∀ p, txGet W.allTx inp.txHash = some p →
      LWWalletTransactionIsPendingDepth env now W d p = some (decide (inp.txHash ∈ v.pendingTx)))
    (hnone : ∀ inp ∈ t.inputs, txGet W.allTx inp.txHash = none → inp.txHash ∉ v.pendingTx) :
    LWWalletTransactionIsPendingDepth env now W (d + 1) t =
      some (decide (t.blockHeight = TX_UNCONFIRMED) && checkPending env now v t) := by
  rw [LWWalletTransactionIsPendingDepth, if_neg (by rw [hs]; exact Bool.noConfusion)]
  by_cases hu : t.blockHeight = TX_UNCONFIRMED
  · rw [if_pos hu, decide_eq_true hu, Bool.true_and, checkPending_eq env now v W t hb,
      pendingLoop_eval _ W v.pendingTx t.inputs hz hrec hnone]
    by_cases h1 : env.LWTransactionSize t > env.TX_MAX_SIZE
    · rw [if_pos h1, decide_eq_true h1]
      rfl
    · rw [if_neg h1, decide_eq_false h1]
      cases h2 : t.inputs.any (postdated env now W t)
      · cases h3 : t.outputs.any (fun o => decide (o.amount < env.TX_MIN_OUTPUT_AMOUNT))
        · simp
        · simp
      · cases h3 : t.outputs.any (fun o => decide (o.amount < env.TX_MIN_OUTPUT_AMOUNT))
        · simp
        · simp
  · rw [if_neg hu, decide_eq_false hu, Bool.false_and]

theorem pending_loop (env : Env) (now : Nat) (l : List LWTransaction) (W : LWWallet)
    (hl : ∀ t ∈ l, txGet W.allTx t.txHash = some t)
    (hn : (l.map (fun t => t.txHash)).Nodup)
    (hclosed : ∀ (i : Nat) (t : LWTransaction), l[i]? = some t → ∀ inp ∈ t.inputs, ∀ p,
      txGet W.allTx inp.txHash = some p → ∃ j, j < i ∧ l[j]? = some p)
    (hsig : ∀ t ∈ l, env.LWTransactionIsSigned t = true)
    (hz : ∀ t ∈ l, ∀ inp ∈ t.inputs, inp.txHash ≠ 0) :
    ∀ (rest : List LWTransaction) (n : Nat) (s r : LWWallet × Nat × Nat),
      l.drop n = rest →
      s.1.allTx = W.allTx → s.1.blockHeight = W.blockHeight →
      (∀ k ∈ s.1.pendingTx, ∃ (j : Nat) (t : LWTransaction),
        j < n ∧ l[j]? = some t ∧ t.txHash = k) →
      (∀ (j : Nat) (t : LWTransaction), j < n → l[j]? = some t → ∀ d, j + 1 ≤ d →
        LWWalletTransactionIsPendingDepth env now W d t =
          some (decide (t.txHash ∈ s.1.pendingTx))) →
      updateLoop env now rest s = some r → r.1.invalidTx = [] →
      ∀ (j : Nat) (t : LWTransaction), l[j]? = some t → ∀ d, j + 1 ≤ d →
        LWWalletTransactionIsPendingDepth env now W d t =
          some (decide (t.txHash ∈ r.1.pendingTx)) := by
  intro rest
  induction rest with
  | nil =>
    intro n s r hd _ _ _ hinv e _ j t hj d hdj
    rw [updateLoop] at e
    cases e
    have hlen : l.length ≤ n := List.drop_eq_nil_iff.1 hd
    have hj1 := (List.getElem?_eq_some_iff.1 hj).1
    exact hinv j t (by omega) hj d hdj
  | cons t rest ih =>
    intro n s r hd ha hb hsub hinv e hfin
    rw [updateLoop] at e
    cases hs : updateStep env now s t with
    | none => rw [hs] at e; cases e
    | some s1 =>
      rw [hs] at e
      have hnt : l[n]? = some t := by
        have := congrArg (fun x => x[0]?) hd
        simp only [List.getElem?_drop, Nat.add_zero, List.getElem?_cons_zero] at this
        exact this
      have hd1 : l.drop (n + 1) = rest := by
        rw [← List.drop_drop, hd]
        rfl
      have f := updateStep_frame env now s s1 t hs
      have htm : t ∈ l := List.getElem?_mem hnt
      have hnotin : t.txHash ∉ s.1.pendingTx := by
        intro hm
        obtain ⟨j, u, hj, hu, he⟩ := hsub _ hm
        have := hash_pos_inj l hn j n u t hu hnt he
        omega
      have hat : ∀ d, n ≤ d → LWWalletTransactionIsPendingDepth env now W (d + 1) t =
          some (decide (t.blockHeight = TX_UNCONFIRMED) &&
            checkPending env now (spendInputs s.1 t) t) := by
        intro d hdn
        apply isPending_at env now W (spendInputs s.1 t) t d (hsig t htm) hb (hz t htm)
        · intro inp hinp p hp
          obtain ⟨j, hj, hjp⟩ := hclosed n t hnt inp hinp p hp
          have := hinv j p hj hjp d (by omega)
          rw [this, (txGet_some hp).1]
          rfl
        · intro inp hinp hnone hm
          obtain ⟨j, u, _, hu, he⟩ := hsub _ hm
          have := hl u (List.getElem?_mem hu)
          rw [he, hnone] at this
          cases this
      have hnoinv : s1.1.invalidTx = [] := by
        rw [List.eq_nil_iff_forall_not_mem]
        intro k hk
        have := updateLoop_invalid_mono env now rest s1 r e k hk
        rw [hfin] at this
        cases this
      have key : (∀ k ∈ s1.1.pendingTx, k ∈ s.1.pendingTx ∨ k = t.txHash) ∧
          (∀ k ∈ s.1.pendingTx, k ∈ s1.1.pendingTx) ∧
          decide (t.txHash ∈ s1.1.pendingTx) = (decide (t.blockHeight = TX_UNCONFIRMED) &&
            checkPending env now (spendInputs s.1 t) t) := by
        rcases updateStep_shape env now s s1 t hs with
          ⟨_, _, a1, _⟩ | ⟨_, b1, b2, _, a2, _⟩ | ⟨_, hnp, _, a2, _⟩
        · exfalso
          have : t.txHash ∈ s1.1.invalidTx := by
            rw [a1, mem_keyAdd]; exact Or.inr rfl
          rw [hnoinv] at this
          cases this
        · refine ⟨?_, ?_, ?_⟩
          · intro k hk
            rw [a2] at hk
            exact mem_keyAdd.1 hk
          · intro k hk
            rw [a2]
            exact mem_keyAdd.2 (Or.inl hk)
          · rw [decide_eq_true b1, b2, Bool.true_and]
            apply decide_eq_true
            rw [a2]
            exact mem_keyAdd.2 (Or.inr rfl)
        · refine ⟨?_, ?_, ?_⟩
          · intro k hk
            rw [a2] at hk
            exact Or.inl hk
          · intro k hk
            rw [a2]; exact hk
          · rw [a2, decide_eq_false hnotin]
            by_cases hu : t.blockHeight = TX_UNCONFIRMED
            · rw [decide_eq_true hu, Bool.true_and]
              cases hc : checkPending env now (spendInputs s.1 t) t
              · rfl
              · exact absurd ⟨hu, hc⟩ hnp
            · rw [decide_eq_false hu, Bool.false_and]
      obtain ⟨k1, k2, k3⟩ := key
      refine ih (n + 1) s1 r hd1 (by rw [f.allTx]; exact ha) (by rw [f.blockHeight]; exact hb)
        ?_ ?_ e hfin
      · intro k hk
        rcases k1 k hk with h1 | h1
        · obtain ⟨j, u, hj, hu, he⟩ := hsub k h1
          exact ⟨j, u, by omega, hu, he⟩
        · exact ⟨n, t, by omega, hnt, h1.symm⟩
      · intro j u hj hu d hdj
        by_cases hjn : j = n
        · rw [hjn] at hu
          rw [hnt] at hu
          cases hu
          obtain ⟨d1, rfl⟩ : ∃ d1, d = d1 + 1 := ⟨d - 1, by omega⟩
          rw [hat d1 (by omega), k3]
        · rw [hinv j u (by omega) hu d hdj]
          congr 1
          apply decide_eq_decide.2
          constructor
          · exact k2 _
          · intro hm
            rcases k1 _ hm with h1 | h1
            · exact h1
            · exact absurd (hash_pos_inj l hn j n u t hu hnt h1) hjn

theorem listed_length_le (l allTx : List LWTransaction)
    (hn : (l.map (fun t => t.txHash)).Nodup)
    (hl : ∀ t ∈ l, txGet allTx t.txHash = some t) : l.length ≤ allTx.length := by
  have hsub : l.map (fun t => t.txHash) ⊆ allTx.map (fun t => t.txHash) := by
    intro k hk
    obtain ⟨t, ht, e⟩ := List.mem_map.1 hk
    rw [← e]
    exact List.mem_map.2 ⟨t, (txGet_some (hl t ht)).2, rfl⟩
  have := (hn.subperm hsub).length_le
  rw [List.length_map, List.length_map] at this
  exact this

/-- C21 (as stated, refuted): the wallet holds in `allTx` the unconfirmed transaction 5,
which pays no wallet address and has the sequence number 0xfffffffd, and in its list the
unconfirmed transaction 6, which spends from it and pays the wallet.  After the
recomputation transaction 6 is not in `pendingTx`, and `LWWalletTransactionIsPending`
returns true for it. -/
theorem isPending_not_in_pendingTx :
    WalletReached sampleEnv (walletOfD [foreignReplaceableTx, foreignChildTx]) ∧
      (_LWWalletUpdateBalance sampleEnv 0
        (walletOfD [foreignReplaceableTx, foreignChildTx])).map
        (fun w1 => (w1.transactions, w1.pendingTx, w1.invalidTx,
          LWWalletTransactionIsPending sampleEnv 0 w1 foreignChildTx)) =
        some ([foreignChildTx], [], [], some true) :=
  ⟨walletOfD_reached _ (by decide), by decide⟩

/-- C21 (amended): let `_LWWalletUpdateBalance` recompute a wallet whose listed
transactions are the signed transactions of `allTx` with pairwise different hashes, have no
input with a zero hash, and come after every transaction of `allTx` that they spend from.
If no listed transaction is classified invalid, then for every listed transaction
`LWWalletTransactionIsPending`, with the same time, returns, and it returns true if and
only if the transaction is in `pendingTx`. -/
theorem isPending_iff_pendingTx (env : Env) (now : Nat) (w w1 : LWWallet)
    (tx : LWTransaction) (hl : ListedInAllTx w)
    (hn : (w.transactions.map (fun t => t.txHash)).Nodup)
    (hclosed : ∀ (i : Nat) (t : LWTransaction), w.transactions[i]? = some t →
      ∀ inp ∈ t.inputs, ∀ p, txGet w.allTx inp.txHash = some p →
        ∃ j, j < i ∧ w.transactions[j]? = some p)
    (hsig : ∀ t ∈ w.transactions, env.LWTransactionIsSigned t = true)
    (hz : ∀ t ∈ w.transactions, ∀ inp ∈ t.inputs, inp.txHash ≠ 0)
    (e : _LWWalletUpdateBalance env now w = some w1) (hinv : w1.invalidTx = [])
    (ht : tx ∈ w1.transactions) :
    LWWalletTransactionIsPending env now w1 tx = some (decide (tx.txHash ∈ w1.pendingTx)) := by
  obtain ⟨s, b, p, hloop, q⟩ := updateBalance_loop env now w w1 e
  have f := updateBalance_frame env now w w1 e
  have e1 : w1.pendingTx = s.pendingTx := by rw [q]
  have e2 : s.invalidTx = [] := by rw [q] at hinv; exact hinv
  rw [f.transactions] at ht
  obtain ⟨j, hj, hjt⟩ := List.getElem_of_mem ht
  have hjt1 : w.transactions[j]? = some tx := by
    rw [List.getElem?_eq_getElem hj, hjt]
  have key := pending_loop env now w.transactions w hl hn hclosed hsig hz w.transactions 0
    (cleared w, 0, 0) (s, b, p) rfl rfl rfl (by intro k hk; cases hk)
    (by intro j t hj; omega) hloop e2 j tx hjt1 (w1.allTx.length + 2)
    (by
      have := listed_length_le w.transactions w.allTx hn hl
      rw [f.allTx]
      omega)
  unfold LWWalletTransactionIsPending
  rw [isPendingDepth_congr env now w w1 f.allTx f.blockHeight, key, e1]

/-- C21 (amended), at the wallet with a confirmed coin and an unconfirmed transaction
that spends it with the sequence number 0xfffffffd. -/
theorem isPending_iff_pendingTx_witness :
    (ListedInAllTx replaceableSpendWallet ∧
      (replaceableSpendWallet.transactions.map (fun t => t.txHash)).Nodup ∧
      (∀ (i : Nat) (t : LWTransaction), replaceableSpendWallet.transactions[i]? = some t →
        ∀ inp ∈ t.inputs, ∀ p, txGet replaceableSpendWallet.allTx inp.txHash = some p →
          ∃ j, j < i ∧ replaceableSpendWallet.transactions[j]? = some p) ∧
      (∀ t ∈ replaceableSpendWallet.transactions, sampleEnv.LWTransactionIsSigned t = true) ∧
      (∀ t ∈ replaceableSpendWallet.transactions, ∀ inp ∈ t.inputs, inp.txHash ≠ 0) ∧
      _LWWalletUpdateBalance sampleEnv 0 replaceableSpendWallet =
        some (recomputeD replaceableSpendWallet) ∧
      (recomputeD replaceableSpendWallet).invalidTx = [] ∧
      sampleTx 2 1 0 4294967293 "ee" 9000 ∈ (recomputeD replaceableSpendWallet).transactions) ∧
    LWWalletTransactionIsPending sampleEnv 0 (recomputeD replaceableSpendWallet)
        (sampleTx 2 1 0 4294967293 "ee" 9000) =
      some (decide ((sampleTx 2 1 0 4294967293 "ee" 9000).txHash ∈
        (recomputeD replaceableSpendWallet).pendingTx)) := by
  have hi := reached_inv_wallet sampleEnv replaceableSpendWallet
    (walletOfD_reached _ (by decide))
  have hl : replaceableSpendWallet.transactions =
      [confirmedAt (sampleTx 1 8 0 UINT32_MAX "e" 10000) 100,
        sampleTx 2 1 0 4294967293 "ee" 9000] := by decide
  have h8 : txGet replaceableSpendWallet.allTx 8 = none := by decide
  have h1 : txGet replaceableSpendWallet.allTx 1 =
      some (confirmedAt (sampleTx 1 8 0 UINT32_MAX "e" 10000) 100) := by decide
  have hclosed : ∀ (i : Nat) (t : LWTransaction),
      replaceableSpendWallet.transactions[i]? = some t →
      ∀ inp ∈ t.inputs, ∀ p, txGet replaceableSpendWallet.allTx inp.txHash = some p →
        ∃ j, j < i ∧ replaceableSpendWallet.transactions[j]? = some p := by
    intro i t hit inp hinp p hp
    rw [hl] at hit ⊢
    match i, hit with
    | 0, hit =>
      simp only [List.getElem?_cons_zero, Option.some.injEq] at hit
      rw [← hit] at hinp
      rw [List.mem_singleton.1 hinp] at hp
      have e8 : (sampleTx 1 8 0 UINT32_MAX "e" 10000).inputs.map (fun x => x.txHash) = [8] := rfl
      have : txGet replaceableSpendWallet.allTx 8 = some p := hp
      rw [h8] at this
      cases this
    | 1, hit =>
      simp only [List.getElem?_cons_succ, List.getElem?_cons_zero, Option.some.injEq] at hit
      rw [← hit] at hinp
      rw [List.mem_singleton.1 hinp] at hp
      have : txGet replaceableSpendWallet.allTx 1 = some p := hp
      rw [h1] at this
      cases this
      exact ⟨0, by decide, rfl⟩
    | n + 2, hit =>
      simp at hit
  have hz : ∀ t ∈ replaceableSpendWallet.transactions, ∀ inp ∈ t.inputs, inp.txHash ≠ 0 := by
    intro t htm inp hinp
    rw [hl] at htm
    rcases List.mem_cons.1 htm with h | h
    · rw [h] at hinp
      rw [List.mem_singleton.1 hinp]
      decide
    · rw [List.mem_singleton.1 h] at hinp
      rw [List.mem_singleton.1 hinp]
      decide
  have he : _LWWalletUpdateBalance sampleEnv 0 replaceableSpendWallet =
      some (recomputeD replaceableSpendWallet) :=
    eq_some_getD (_LWWalletUpdateBalance sampleEnv 0 replaceableSpendWallet)
      replaceableSpendWallet (by decide)
  exact ⟨⟨hi.listed, hi.nodup, hclosed, fun _ _ => rfl, hz, he, by decide, by decide⟩,
    isPending_iff_pendingTx sampleEnv 0 replaceableSpendWallet
      (recomputeD replaceableSpendWallet) (sampleTx 2 1 0 4294967293 "ee" 9000) hi.listed
      hi.nodup hclosed (fun _ _ => rfl) hz he (by decide) (by decide)⟩

/-! ### Wallet: the transaction builder -/

theorem addOutputs_fields (env : Env) :
    ∀ (outputs : List LWTxOutput) (t : LWTransaction),
      (outputs.foldl (fun t o => LWTransactionAddOutput env t o.amount o.script) t).outputs =
          t.outputs ++ requestedOutputs env outputs ∧
        (outputs.foldl (fun t o => LWTransactionAddOutput env t o.amount o.script) t).inputs =
          t.inputs ∧
        outputs.foldl (fun t o => LWTransactionAddOutput env t o.amount o.script) t =
          { t with outputs := t.outputs ++ requestedOutputs env outputs } := by
  intro outputs
  induction outputs with
  | nil =>
    intro t
    simp [requestedOutputs]
  | cons o rest ih =>
    intro t
    rw [List.foldl_cons]
    obtain ⟨h1, h2, h3⟩ := ih (LWTransactionAddOutput env t o.amount o.script)
    refine ⟨?_, ?_, ?_⟩
    · rw [h1]
      simp [LWTransactionAddOutput, requestedOutputs]
    · rw [h2]
      rfl
    · rw [h3]
      simp [LWTransactionAddOutput, requestedOutputs]

theorem selectLoop_plain (env : Env) (w : LWWallet) (outputs : List LWTxOutput)
    (minAmount count : Nat) :
    ∀ (us : List LWUTXO) (T : LWTransaction) (fee amount balance : Nat) (s : Selection),
      selectLoop env (fun _ _ => none) w outputs minAmount count us T fee amount balance =
        some s →
      s.transaction ≠ none →
      s.wallet = w ∧ s.amount = amount ∧
        ∃ sel, s.transaction = some { T with inputs := T.inputs ++ sel } ∧
          s.balance = sel.foldl (fun b i => add64 b i.amount) balance ∧
          (sel.map LWTxInput.outpoint).Sublist us ∧
          (∀ i ∈ sel, i.sequence = env.TXIN_SEQUENCE ∧
            ∃ out, outputAt w.allTx i.outpoint = some out ∧ i.amount = out.amount ∧
              i.script = out.script) ∧
          s.feeAmount = (if sel = [] then fee
            else feeAfterInput env w amount { T with inputs := T.inputs ++ sel }) := by
  intro us
  induction us with
  | nil =>
    intro T fee amount balance s e _
    rw [selectLoop] at e
    cases e
    refine ⟨rfl, rfl, [], ?_, rfl, List.Sublist.slnil, ?_, rfl⟩
    · simp
    · intro i hi; cases hi
  | cons o rest ih =>
    intro T fee amount balance s e ht
    rw [selectLoop] at e
    have skip : selectLoop env (fun _ _ => none) w outputs minAmount count rest T fee amount
          balance = some s →
        s.wallet = w ∧ s.amount = amount ∧
        ∃ sel, s.transaction = some { T with inputs := T.inputs ++ sel } ∧
          s.balance = sel.foldl (fun b i => add64 b i.amount) balance ∧
          (sel.map LWTxInput.outpoint).Sublist (o :: rest) ∧
          (∀ i ∈ sel, i.sequence = env.TXIN_SEQUENCE ∧
            ∃ out, outputAt w.allTx i.outpoint = some out ∧ i.amount = out.amount ∧
              i.script = out.script) ∧
          s.feeAmount = (if sel = [] then fee
            else feeAfterInput env w amount { T with inputs := T.inputs ++ sel }) := by
      intro e1
      obtain ⟨a1, a2, sel, a3, a4, a5, a6, a7⟩ := ih T fee amount balance s e1 ht
      exact ⟨a1, a2, sel, a3, a4, a5.cons _, a6, a7⟩
    split at e
    · exact skip e
    · next tx hget =>
      split at e
      · exact skip e
      · next out hout =>
        simp only at e
        have hk := (txGet_some hget).1
        have ht1i : (LWTransactionAddInput T tx.txHash o.n out.amount out.script
            env.TXIN_SEQUENCE).inputs = T.inputs ++
              [(⟨tx.txHash, o.n, out.amount, out.script, env.TXIN_SEQUENCE⟩ : LWTxInput)] := rfl
        by_cases hlarge : sizeT (env.LWTransactionSize (LWTransactionAddInput T tx.txHash o.n
            out.amount out.script env.TXIN_SEQUENCE) + env.TX_OUTPUT_SIZE) > env.TX_MAX_SIZE
        · exfalso
          rw [if_pos hlarge] at e
          split at e
          · cases e
            exact ht rfl
          · simp at e
        rw [if_neg hlarge] at e
        have hin : (⟨tx.txHash, o.n, out.amount, out.script, env.TXIN_SEQUENCE⟩ :
            LWTxInput).outpoint = o := by
          unfold LWTxInput.outpoint
          simp only
          rw [hk]
        have hfacts : ∀ i ∈ [(⟨tx.txHash, o.n, out.amount, out.script, env.TXIN_SEQUENCE⟩ :
            LWTxInput)],
            i.sequence = env.TXIN_SEQUENCE ∧
            ∃ out, outputAt w.allTx i.outpoint = some out ∧ i.amount = out.amount ∧
              i.script = out.script := by
          intro i hi
          rw [List.mem_singleton.1 hi]
          refine ⟨rfl, out, ?_, rfl, rfl⟩
          rw [hin]
          unfold outputAt
          rw [hget]
          exact hout
        have e1 : (if add64 balance out.amount = add64 amount (feeAfterInput env w amount
              (LWTransactionAddInput T tx.txHash o.n out.amount out.script env.TXIN_SEQUENCE)) ∨
            add64 balance out.amount ≥ add64 (add64 amount (feeAfterInput env w amount
              (LWTransactionAddInput T tx.txHash o.n out.amount out.script env.TXIN_SEQUENCE)))
              minAmount then
            some (Selection.mk (some (LWTransactionAddInput T tx.txHash o.n out.amount
                out.script env.TXIN_SEQUENCE)) (feeAfterInput env w amount
                (LWTransactionAddInput T tx.txHash o.n out.amount out.script env.TXIN_SEQUENCE))
              amount (add64 balance out.amount) w)
          else selectLoop env (fun _ _ => none) w outputs minAmount count rest
            (LWTransactionAddInput T tx.txHash o.n out.amount out.script env.TXIN_SEQUENCE)
            (feeAfterInput env w amount
              (LWTransactionAddInput T tx.txHash o.n out.amount out.script env.TXIN_SEQUENCE))
            amount (add64 balance out.amount)) = some s := e
        clear e
        split at e1
        · cases e1
          refine ⟨rfl, rfl, [(⟨tx.txHash, o.n, out.amount, out.script, env.TXIN_SEQUENCE⟩ : LWTxInput)],
            rfl, rfl, ?_, hfacts, ?_⟩
          · rw [List.map_singleton, hin]
            exact (List.nil_sublist rest).cons₂ o
          · rw [if_neg (List.cons_ne_nil _ _)]
            rfl
        · obtain ⟨a1, a2, sel, a3, a4, a5, a6, a7⟩ := ih _ _ _ _ s e1 ht
          refine ⟨a1, a2, (⟨tx.txHash, o.n, out.amount, out.script, env.TXIN_SEQUENCE⟩ : LWTxInput) :: sel,
            ?_, ?_, ?_, ?_, ?_⟩
          · rw [a3]
            simp [LWTransactionAddInput]
          · rw [a4]
            rfl
          · rw [List.map_cons, hin]
            exact a5.cons₂ o
          · intro i hi
            rcases List.mem_cons.1 hi with hi | hi
            · exact hfacts i (List.mem_singleton.2 hi)
            · exact a6 i hi
          · rw [a7, if_neg (List.cons_ne_nil _ _)]
            by_cases hs : sel = []
            · rw [if_pos hs, hs]
              simp [LWTransactionAddInput, feeAfterInput]
            · rw [if_neg hs]
              simp [LWTransactionAddInput]

theorem selectLoop_rec (env : Env)
    (rec : LWWallet → List LWTxOutput → Option (Option LWTransaction × LWWallet))
    (w : LWWallet) (outputs : List LWTxOutput) (minAmount count : Nat) :
    ∀ (us : List LWUTXO) (T : LWTransaction) (fee amount balance : Nat) (s : Selection),
      selectLoop env (fun _ _ => none) w outputs minAmount count us T fee amount balance =
        some s →
      selectLoop env rec w outputs minAmount count us T fee amount balance = some s := by
  intro us
  induction us with
  | nil =>
    intro T fee amount balance s e
    rw [selectLoop] at e ⊢
    exact e
  | cons o rest ih =>
    intro T fee amount balance s e
    rw [selectLoop] at e ⊢
    cases hget : txGet w.allTx o.hash with
    | none =>
      rw [hget] at e
      exact ih _ _ _ _ _ e
    | some tx =>
      rw [hget] at e
      simp only at e ⊢
      cases hout : tx.outputs[o.n]? with
      | none =>
        rw [hout] at e
        exact ih _ _ _ _ _ e
      | some out =>
        rw [hout] at e
        simp only at e ⊢
        by_cases hlarge : sizeT (env.LWTransactionSize (LWTransactionAddInput T tx.txHash o.n
            out.amount out.script env.TXIN_SEQUENCE) + env.TX_OUTPUT_SIZE) > env.TX_MAX_SIZE
        · rw [if_pos hlarge] at e ⊢
          by_cases hb : w.balance < add64 amount (_txFee env.TX_FEE_PER_KB w.feePerKb
              (sizeT (10 + count * env.TX_INPUT_SIZE +
                (outputs.length + 1) * env.TX_OUTPUT_SIZE + 0)))
          · rw [if_pos hb] at e ⊢
            exact e
          · rw [if_neg hb] at e
            simp at e
        · rw [if_neg hlarge] at e ⊢
          have key : ∀ f2 : Nat,
              (if add64 balance out.amount = add64 amount f2 ∨
                  add64 balance out.amount ≥ add64 (add64 amount f2) minAmount then
                some (Selection.mk (some (LWTransactionAddInput T tx.txHash o.n out.amount
                  out.script env.TXIN_SEQUENCE)) f2 amount (add64 balance out.amount) w)
              else selectLoop env (fun _ _ => none) w outputs minAmount count rest
                (LWTransactionAddInput T tx.txHash o.n out.amount out.script env.TXIN_SEQUENCE)
                f2 amount (add64 balance out.amount)) = some s →
              (if add64 balance out.amount = add64 amount f2 ∨
                  add64 balance out.amount ≥ add64 (add64 amount f2) minAmount then
                some (Selection.mk (some (LWTransactionAddInput T tx.txHash o.n out.amount
                  out.script env.TXIN_SEQUENCE)) f2 amount (add64 balance out.amount) w)
              else selectLoop env rec w outputs minAmount count rest
                (LWTransactionAddInput T tx.txHash o.n out.amount out.script env.TXIN_SEQUENCE)
                f2 amount (add64 balance out.amount)) = some s := by
            intro f2 h
            by_cases hstop : add64 balance out.amount = add64 amount f2 ∨
                add64 balance out.amount ≥ add64 (add64 amount f2) minAmount
            · rw [if_pos hstop] at h ⊢
              exact h
            · rw [if_neg hstop] at h ⊢
              exact ih _ _ _ _ _ h
          exact key (feeAfterInput env w amount
            (LWTransactionAddInput T tx.txHash o.n out.amount out.script env.TXIN_SEQUENCE)) e

theorem createTx_depth (env : Env) (depth : Nat) (w : LWWallet) (outputs : List LWTxOutput)
    (r : Option LWTransaction × LWWallet)
    (e : LWWalletCreateTxForOutputs env 1 w outputs = some r) :
    LWWalletCreateTxForOutputs env (depth + 1) w outputs = some r := by
  rw [LWWalletCreateTxForOutputs] at e ⊢
  split
  · next h =>
    rw [if_pos h] at e
    exact e
  · next h =>
    rw [if_neg h] at e
    simp only at e ⊢
    have hfun : (fun w1 o1 => LWWalletCreateTxForOutputs env 0 w1 o1) = fun _ _ => none := by
      funext w1 o1
      rw [LWWalletCreateTxForOutputs]
    rw [hfun] at e
    split at e
    · cases e
    · next s hs =>
      rw [selectLoop_rec env _ w outputs _ _ _ _ _ _ _ s hs]
      exact e

theorem createTx_plain (env : Env) (w w1 : LWWallet) (outputs : List LWTxOutput)
    (t : LWTransaction)
    (e : LWWalletCreateTxForOutputs env 1 w outputs = some (some t, w1)) :
    ∃ sel : List LWTxInput,
      (sel.map LWTxInput.outpoint).Sublist w.utxos ∧
      (∀ i ∈ sel, i.sequence = env.TXIN_SEQUENCE ∧
        ∃ out, outputAt w.allTx i.outpoint = some out ∧ i.amount = out.amount ∧
          i.script = out.script) ∧
      add64 (requestedAmount outputs) (builderFee env w outputs sel) ≤ inputBalance sel ∧
      (if sub64 (inputBalance sel)
            (add64 (requestedAmount outputs) (builderFee env w outputs sel)) >
          LWWalletMinOutputAmount env w then
        ∃ written, LWWalletUnusedAddrs env w true 1 true = some (written, w1) ∧
          t = { builtTx env outputs sel with
                outputs := env.LWTransactionShuffleOutputs (requestedOutputs env outputs ++
                  [changeOutput env (written.headD "") (sub64 (inputBalance sel)
                    (add64 (requestedAmount outputs) (builderFee env w outputs sel)))]) }
      else t = builtTx env outputs sel ∧ w1 = w) := by
  rw [LWWalletCreateTxForOutputs] at e
  split at e
  · cases e
  · simp only at e
    obtain ⟨ho, hi, hT⟩ := addOutputs_fields env outputs LWTransactionNew
    have hT0 : outputs.foldl (fun t o => LWTransactionAddOutput env t o.amount o.script)
        LWTransactionNew = builtTx env outputs [] := by
      rw [hT]
      simp [builtTx, LWTransactionNew]
    rw [hT0] at e
    have hfun : (fun w1 o1 => LWWalletCreateTxForOutputs env 0 w1 o1) = fun _ _ => none := by
      funext w1 o1
      rw [LWWalletCreateTxForOutputs]
    rw [hfun] at e
    split at e
    · cases e
    · next s hs =>
      have hsome : s.transaction ≠ none := by
        intro hn
        rw [hn] at e
        simp only at e
        cases e
      obtain ⟨a1, a2, sel, a3, a4, a5, a6, a7⟩ := selectLoop_plain env w outputs _ _
        w.utxos (builtTx env outputs []) _ _ 0 s hs hsome
      have htx : ({ builtTx env outputs [] with
          inputs := (builtTx env outputs []).inputs ++ sel } : LWTransaction) =
          builtTx env outputs sel := by
        simp [builtTx, LWTransactionNew]
      rw [htx] at a3 a7
      have hfee : s.feeAmount = builderFee env w outputs sel := by
        rw [a7]
        rfl
      have hbal : s.balance = inputBalance sel := a4
      have ham : s.amount = requestedAmount outputs := a2
      rw [a3] at e
      simp only at e
      rw [hfee, hbal, ham, a1] at e
      refine ⟨sel, a5, a6, ?_⟩
      split at e
      · cases e
      · next hlt =>
        refine ⟨by omega, ?_⟩
        split at e
        · next hgt =>
          rw [if_pos hgt]
          split at e
          · cases e
          · next written w2 hu =>
            cases e
            refine ⟨written, hu, ?_⟩
            simp [builtTx, LWTransactionAddOutput, changeOutput]
        · next hgt =>
          rw [if_neg hgt]
          cases e
          exact ⟨rfl, rfl⟩

theorem foldl_add64_lt {α : Type} (f : α → Nat) :
    ∀ (l : List α) (b : Nat), b < 2 ^ 64 → l.foldl (fun a x => add64 a (f x)) b < 2 ^ 64 := by
  intro l
  induction l with
  | nil => intro b hb; exact hb
  | cons x rest ih =>
    intro b _
    rw [List.foldl_cons]
    exact ih _ (Nat.mod_lt _ (by norm_num))

theorem foldl_add64_sum {α : Type} (f : α → Nat) :
    ∀ (l : List α) (b : Nat), b + (l.map f).sum < 2 ^ 64 →
      l.foldl (fun a x => add64 a (f x)) b = b + (l.map f).sum := by
  intro l
  induction l with
  | nil => intro b _; simp
  | cons x rest ih =>
    intro b hb
    rw [List.map_cons, List.sum_cons] at hb
    rw [List.foldl_cons, List.map_cons, List.sum_cons]
    have h1 : add64 b (f x) = b + f x := by
      unfold add64
      exact Nat.mod_eq_of_lt (by omega)
    rw [h1, ih _ (by omega)]
    omega

theorem sub64_exact (b x : Nat) (h1 : x ≤ b) (h2 : b < 2 ^ 64) : sub64 b x = b - x := by
  unfold sub64
  rw [Nat.mod_eq_of_lt (by omega : x < 2 ^ 64)]
  have : b + (2 ^ 64 - x) = (b - x) + 2 ^ 64 := by omega
  rw [this, Nat.add_mod_right]
  exact Nat.mod_eq_of_lt (by omega)

theorem inputBalance_lt (l : List LWTxInput) : inputBalance l < 2 ^ 64 :=
  foldl_add64_lt (fun i : LWTxInput => i.amount) l 0 (by norm_num)

theorem requestedOutputs_sum (env : Env) (outputs : List LWTxOutput) :
    ((requestedOutputs env outputs).map (fun o => o.amount)).sum =
      (outputs.map (fun o => o.amount)).sum := by
  unfold requestedOutputs
  rw [List.map_map]
  rfl

/-- C29. When `LWWalletCreateTxForOutputs` returns a transaction without the restart for
the size (the run of depth 1, which every deeper run repeats), with `balance` the 64-bit sum
of the amounts of its inputs, `amount` the 64-bit sum of the requested amounts and
`feeAmount` the fee after the last input: `amount + feeAmount` is at most `balance`; when
`balance - (amount + feeAmount)` is above `LWWalletMinOutputAmount` the outputs are the
shuffled requested outputs with one change output of exactly that amount, and otherwise
they are the requested outputs.  The two sums are the exact sums when these are below
2^64. -/
theorem createTx_change_output (env : Env) (w w1 : LWWallet) (outputs : List LWTxOutput)
    (t : LWTransaction)
    (e : LWWalletCreateTxForOutputs env 1 w outputs = some (some t, w1)) :
    (∀ depth, LWWalletCreateTxForOutputs env (depth + 1) w outputs = some (some t, w1)) ∧
    add64 (requestedAmount outputs) (builderFee env w outputs t.inputs) ≤
      inputBalance t.inputs ∧
    (if inputBalance t.inputs -
          add64 (requestedAmount outputs) (builderFee env w outputs t.inputs) >
        LWWalletMinOutputAmount env w then
      ∃ addr, t.outputs = env.LWTransactionShuffleOutputs (requestedOutputs env outputs ++
        [changeOutput env addr (inputBalance t.inputs -
          add64 (requestedAmount outputs) (builderFee env w outputs t.inputs))])
    else t.outputs = requestedOutputs env outputs) ∧
    ((t.inputs.map (fun i => i.amount)).sum < 2 ^ 64 →
      inputBalance t.inputs = (t.inputs.map (fun i => i.amount)).sum) ∧
    ((outputs.map (fun o => o.amount)).sum < 2 ^ 64 →
      requestedAmount outputs = (outputs.map (fun o => o.amount)).sum) := by
  obtain ⟨sel, _, _, a3, a4⟩ := createTx_plain env w w1 outputs t e
  have hsel : t.inputs = sel := by
    split at a4
    · obtain ⟨written, _, ht⟩ := a4
      rw [ht]
      rfl
    · rw [a4.1]
      rfl
  rw [hsel]
  rw [sub64_exact _ _ a3 (inputBalance_lt sel)] at a4
  refine ⟨fun depth => createTx_depth env depth w outputs _ e, a3, ?_, ?_, ?_⟩
  · split at a4
    · next h =>
      rw [if_pos h]
      obtain ⟨written, _, ht⟩ := a4
      refine ⟨written.headD "", ?_⟩
      rw [ht]
    · next h =>
      rw [if_neg h, a4.1]
      rfl
  · intro h
    have := foldl_add64_sum (fun i : LWTxInput => i.amount) sel 0 (by omega)
    rw [Nat.zero_add] at this
    exact this
  · intro h
    have := foldl_add64_sum (fun o : LWTxOutput => o.amount) outputs 0 (by omega)
    rw [Nat.zero_add] at this
    exact this

/-- C29, at the wallet with two confirmed coins and a payment of 10000: the change output
of 97800 is appended. -/
theorem createTx_change_output_witness :
    LWWalletCreateTxForOutputs sampleEnv 1 twoCoinWallet [pay 10000] =
      some (some (builtD twoCoinWallet [pay 10000]), (buildD twoCoinWallet [pay 10000]).2) ∧
    (builtD twoCoinWallet [pay 10000]).outputs.map (fun o => o.amount) = [10000, 97800] ∧
    ((∀ depth, LWWalletCreateTxForOutputs sampleEnv (depth + 1) twoCoinWallet [pay 10000] =
      some (some (builtD twoCoinWallet [pay 10000]), (buildD twoCoinWallet [pay 10000]).2)) ∧
    add64 (requestedAmount [pay 10000])
        (builderFee sampleEnv twoCoinWallet [pay 10000]
          (builtD twoCoinWallet [pay 10000]).inputs) ≤
      inputBalance (builtD twoCoinWallet [pay 10000]).inputs ∧
    (if inputBalance (builtD twoCoinWallet [pay 10000]).inputs -
          add64 (requestedAmount [pay 10000])
            (builderFee sampleEnv twoCoinWallet [pay 10000]
              (builtD twoCoinWallet [pay 10000]).inputs) >
        LWWalletMinOutputAmount sampleEnv twoCoinWallet then
      ∃ addr, (builtD twoCoinWallet [pay 10000]).outputs =
        sampleEnv.LWTransactionShuffleOutputs (requestedOutputs sampleEnv [pay 10000] ++
        [changeOutput sampleEnv addr (inputBalance (builtD twoCoinWallet [pay 10000]).inputs -
          add64 (requestedAmount [pay 10000])
            (builderFee sampleEnv twoCoinWallet [pay 10000]
              (builtD twoCoinWallet [pay 10000]).inputs))])
    else (builtD twoCoinWallet [pay 10000]).outputs = requestedOutputs sampleEnv [pay 10000]) ∧
    (((builtD twoCoinWallet [pay 10000]).inputs.map (fun i => i.amount)).sum < 2 ^ 64 →
      inputBalance (builtD twoCoinWallet [pay 10000]).inputs =
        ((builtD twoCoinWallet [pay 10000]).inputs.map (fun i => i.amount)).sum) ∧
    (([pay 10000].map (fun o => o.amount)).sum < 2 ^ 64 →
      requestedAmount [pay 10000] = ([pay 10000].map (fun o => o.amount)).sum)) :=
  ⟨by decide, by decide,
    createTx_change_output sampleEnv twoCoinWallet _ [pay 10000] _ (by decide)⟩

/-- C28 (counterexample): asked for one output of 2^64 - 1000 from the wallet without
transactions, `LWWalletCreateTxForOutputs` returns at every depth a transaction without
inputs that pays this amount: the sum `amount + feeAmount` wraps to 0. -/
theorem createTx_overspends :
    (walletOfD []).utxos = [] ∧
    (builtD (walletOfD []) [pay 18446744073709550616]).inputs = [] ∧
    (builtD (walletOfD []) [pay 18446744073709550616]).outputs.map (fun o => o.amount) =
      [18446744073709550616] ∧
    ∀ depth, ∃ w1,
      LWWalletCreateTxForOutputs sampleEnv (depth + 1) (walletOfD [])
          [pay 18446744073709550616] =
        some (some (builtD (walletOfD []) [pay 18446744073709550616]), w1) :=
  ⟨by decide, by decide, by decide, fun depth =>
    ⟨(buildD (walletOfD []) [pay 18446744073709550616]).2,
      createTx_depth sampleEnv depth _ _ _ (by decide)⟩⟩

/-! ### Wallet: the unspent outputs when every transaction is accepted -/

theorem outputsLoop_utxos (tx : LWTransaction) :
    ∀ (rest : List LWTxOutput) (j : Nat) (w : LWWallet) (b : Nat),
      (outputsLoop tx rest j (w, b)).1.utxos =
        w.utxos ++ paidOutpoints w.allAddrs tx.txHash rest j := by
  intro rest
  induction rest with
  | nil =>
    intro j w b
    simp [outputsLoop, paidOutpoints]
  | cons o rest ih =>
    intro j w b
    rw [outputsLoop, paidOutpoints]
    by_cases h1 : o.address ≠ ""
    · rw [if_pos h1]
      simp only
      by_cases h2 : o.address ∈ w.allAddrs
      · rw [if_pos h2, if_pos ⟨h1, h2⟩, ih]
        simp
      · rw [if_neg h2, if_neg (fun h => h2 h.2), ih]
    · rw [if_neg h1, if_neg (fun h => h1 h.1), ih]

theorem spentScan_filter (w : LWWallet) :
    ∀ (us : List LWUTXO) (b : Nat) (us1 : List LWUTXO) (b1 : Nat),
      spentScan w us b = some (us1, b1) →
      us1 = us.filter (fun o => decide (o ∉ w.spentOutputs)) := by
  intro us
  induction us with
  | nil =>
    intro b us1 b1 e
    rw [spentScan] at e
    cases e
    rfl
  | cons u rest ih =>
    intro b us1 b1 e
    rw [spentScan] at e
    cases hr : spentScan w rest b with
    | none => rw [hr] at e; cases e
    | some r =>
      obtain ⟨r1, b2⟩ := r
      rw [hr] at e
      simp only at e
      have h1 := ih b r1 b2 hr
      by_cases hm : u ∈ w.spentOutputs
      · rw [if_pos hm] at e
        rw [List.filter_cons_of_neg (by simpa using hm)]
        cases hg : txGet w.allTx u.hash with
        | none => rw [hg] at e; cases e
        | some t =>
          rw [hg] at e
          simp only at e
          cases ho : t.outputs[u.n]? with
          | none => rw [ho] at e; cases e
          | some out =>
            rw [ho] at e
            cases e
            exact h1
      · rw [if_neg hm] at e
        cases e
        rw [List.filter_cons_of_pos (by simpa using hm), h1]

theorem updateStep_accept (env : Env) (now : Nat) (s r : LWWallet × Nat × Nat)
    (tx : LWTransaction) (e : updateStep env now s tx = some r)
    (h1 : ¬ (tx.blockHeight = TX_UNCONFIRMED ∧ inputsInvalid s.1 tx = true))
    (h2 : ¬ (tx.blockHeight = TX_UNCONFIRMED ∧
      checkPending env now (spendInputs s.1 tx) tx = true)) :
    r.1.utxos = (s.1.utxos ++ paidOutpoints s.1.allAddrs tx.txHash tx.outputs 0).filter
        (fun o => decide (o ∉ r.1.spentOutputs)) ∧
      (∀ o, o ∈ r.1.spentOutputs ↔
        o ∈ s.1.spentOutputs ∨ o ∈ tx.inputs.map LWTxInput.outpoint) := by
  obtain ⟨w, b, p⟩ := s
  unfold updateStep at e
  simp only at e h1 h2 ⊢
  rw [if_neg h1, if_neg h2] at e
  have hu := outputsLoop_utxos tx tx.outputs 0 (spendInputs w tx) b
  obtain ⟨_, _, a3, _, _⟩ := outputsLoop_fields tx tx.outputs 0 (spendInputs w tx) b
  generalize outputsLoop tx tx.outputs 0 (spendInputs w tx, b) = q at e hu a3
  obtain ⟨w2, b2⟩ := q
  simp only at e hu a3
  cases hs : spentScan w2 w2.utxos b2 with
  | none => rw [hs] at e; cases e
  | some res =>
    obtain ⟨us, b3⟩ := res
    rw [hs] at e
    cases e
    have hf := spentScan_filter w2 _ _ _ _ hs
    simp only
    refine ⟨?_, ?_⟩
    · rw [hf, hu]
      rfl
    · intro o
      rw [a3]
      unfold spendInputs
      simp only
      rw [mem_foldl_keyAdd (fun i : LWTxInput => i.outpoint)]

theorem updateLoop_pending_mono (env : Env) (now : Nat) :
    ∀ (rest : List LWTransaction) (s r : LWWallet × Nat × Nat),
      updateLoop env now rest s = some r → ∀ k ∈ s.1.pendingTx, k ∈ r.1.pendingTx := by
  intro rest
  induction rest with
  | nil =>
    intro s r e k hk
    rw [updateLoop] at e
    cases e
    exact hk
  | cons t rest ih =>
    intro s r e k hk
    rw [updateLoop] at e
    cases hs : updateStep env now s t with
    | none => rw [hs] at e; cases e
    | some s1 =>
      rw [hs] at e
      apply ih s1 r e k
      rcases updateStep_shape env now s s1 t hs with
        ⟨_, _, _, a1, _⟩ | ⟨_, _, _, _, a1, _⟩ | ⟨_, _, _, a1, _⟩
      · rw [a1]; exact hk
      · rw [a1, mem_keyAdd]; exact Or.inl hk
      · rw [a1]; exact hk

theorem updateLoop_accept (env : Env) (now : Nat) :
    ∀ (l : List LWTransaction) (s r : LWWallet × Nat × Nat),
      updateLoop env now l s = some r →
      (∀ t ∈ l, t.blockHeight ≠ TX_UNCONFIRMED ∨
        (t.txHash ∉ r.1.invalidTx ∧ t.txHash ∉ r.1.pendingTx)) →
      (∀ o ∈ s.1.utxos, o ∉ s.1.spentOutputs) →
      r.1.utxos = (s.1.utxos ++
          l.flatMap (fun t => paidOutpoints s.1.allAddrs t.txHash t.outputs 0)).filter
          (fun o => decide (o ∉ r.1.spentOutputs)) ∧
        (∀ o, o ∈ r.1.spentOutputs ↔ o ∈ s.1.spentOutputs ∨
          o ∈ l.flatMap (fun t => t.inputs.map LWTxInput.outpoint)) := by
  intro l
  induction l with
  | nil =>
    intro s r e _ hs
    rw [updateLoop] at e
    cases e
    refine ⟨?_, fun o => by simp⟩
    simp only [List.flatMap_nil, List.append_nil]
    symm
    rw [List.filter_eq_self]
    intro o ho
    simpa using hs o ho
  | cons t rest ih =>
    intro s r e hacc hs
    rw [updateLoop] at e
    cases hst : updateStep env now s t with
    | none => rw [hst] at e; cases e
    | some s1 =>
      rw [hst] at e
      simp only at e
      have hshape := updateStep_shape env now s s1 t hst
      have hmi := updateLoop_invalid_mono env now rest s1 r e
      have hmp := updateLoop_pending_mono env now rest s1 r e
      have hn1 : ¬ (t.blockHeight = TX_UNCONFIRMED ∧ inputsInvalid s.1 t = true) := by
        intro hc
        rcases hshape with ⟨_, _, a1, _⟩ | ⟨b1, _⟩ | ⟨b1, _⟩
        · rcases hacc t (List.mem_cons_self _ _) with h | h
          · exact h hc.1
          · exact h.1 (hmi _ (by rw [a1, mem_keyAdd]; exact Or.inr rfl))
        · exact b1 hc
        · exact b1 hc
      have hn2 : ¬ (t.blockHeight = TX_UNCONFIRMED ∧
          checkPending env now (spendInputs s.1 t) t = true) := by
        intro hc
        rcases hshape with ⟨b1, b2, _⟩ | ⟨_, _, _, _, a1, _⟩ | ⟨_, b2, _⟩
        · exact hn1 ⟨b1, b2⟩
        · rcases hacc t (List.mem_cons_self _ _) with h | h
          · exact h hc.1
          · exact h.2 (hmp _ (by rw [a1, mem_keyAdd]; exact Or.inr rfl))
        · exact b2 hc
      obtain ⟨u1, u2⟩ := updateStep_accept env now s s1 t hst hn1 hn2
      have hfr := updateStep_frame env now s s1 t hst
      have hs1 : ∀ o ∈ s1.1.utxos, o ∉ s1.1.spentOutputs := by
        intro o ho
        rw [u1, List.mem_filter] at ho
        simpa using ho.2
      obtain ⟨v1, v2⟩ := ih s1 r e (fun u hu => hacc u (List.mem_cons_of_mem _ hu)) hs1
      refine ⟨?_, ?_⟩
      · rw [v1, hfr.allAddrs, u1, List.flatMap_cons, List.filter_append, List.filter_filter,
          ← List.append_assoc, List.filter_append (s.1.utxos ++ _)]
        congr 1
        apply List.filter_congr
        intro o _
        by_cases hm : o ∈ r.1.spentOutputs
        · simp [hm]
        · have : o ∉ s1.1.spentOutputs := by
            intro h
            exact hm ((v2 o).2 (Or.inl h))
          simp [hm, this]
      · intro o
        rw [v2, u2, List.flatMap_cons, List.mem_append]
        tauto

theorem updateBalance_settled (env : Env) (now : Nat) (w w1 : LWWallet) (hl : ListedInAllTx w)
    (e : _LWWalletUpdateBalance env now w = some w1)
    (hacc : ∀ t ∈ w.transactions, t.blockHeight ≠ TX_UNCONFIRMED ∨
      (t.txHash ∉ w1.invalidTx ∧ t.txHash ∉ w1.pendingTx)) :
    w1.utxos = settledUtxos w.allAddrs w.transactions ∧
      w1.balance = utxoSum w.allTx (settledUtxos w.allAddrs w.transactions) % 2 ^ 64 := by
  obtain ⟨s, b, p, hloop, hw1⟩ := updateBalance_loop env now w w1 e
  have hi : w1.invalidTx = s.invalidTx := by rw [hw1]
  have hp : w1.pendingTx = s.pendingTx := by rw [hw1]
  have hu : w1.utxos = s.utxos := by rw [hw1]
  rw [hi, hp] at hacc
  obtain ⟨v1, v2⟩ := updateLoop_accept env now w.transactions (cleared w, 0, 0) (s, b, p) hloop
    hacc (by intro o ho; simp [cleared] at ho)
  have hutx : w1.utxos = settledUtxos w.allAddrs w.transactions := by
    rw [hu, v1]
    unfold settledUtxos
    simp only [cleared, List.nil_append]
    apply List.filter_congr
    intro o _
    have := v2 o
    simp only [cleared, List.not_mem_nil, false_or] at this
    simp only [this]
  refine ⟨hutx, ?_⟩
  obtain ⟨w2, e2, f, g, _⟩ := updateBalance_spec env now w hl
  rw [e] at e2
  cases e2
  rw [g.bal, f.allTx, hutx]

theorem paidOutpoints_core (allAddrs : List String) (t : LWTransaction) :
    paidOutpoints allAddrs t.txHash t.outputs 0 =
      paidOutpoints allAddrs (txCore t).1 (txCore t).2.2 0 := rfl

theorem settledUtxos_perm (allAddrs : List String) (l1 l2 : List LWTransaction)
    (h : (l1.map txCore).Perm (l2.map txCore)) :
    (settledUtxos allAddrs l1).Perm (settledUtxos allAddrs l2) := by
  have key : ∀ l : List LWTransaction, settledUtxos allAddrs l =
      ((l.map txCore).flatMap (fun c => paidOutpoints allAddrs c.1 c.2.2 0)).filter
        (fun o => decide (o ∉ (l.map txCore).flatMap
          (fun c => c.2.1.map LWTxInput.outpoint))) := by
    intro l
    unfold settledUtxos
    rw [List.flatMap_map, List.flatMap_map]
    rfl
  rw [key l1, key l2]
  have hin : ∀ o, o ∈ (l1.map txCore).flatMap (fun c => c.2.1.map LWTxInput.outpoint) ↔
      o ∈ (l2.map txCore).flatMap (fun c => c.2.1.map LWTxInput.outpoint) :=
    fun o => (h.flatMap_right _).mem_iff
  have hf : (fun o => decide (o ∉ (l1.map txCore).flatMap
      (fun c => c.2.1.map LWTxInput.outpoint))) =
      (fun o => decide (o ∉ (l2.map txCore).flatMap
        (fun c => c.2.1.map LWTxInput.outpoint))) := by
    funext o
    simp only [hin o]
  rw [hf]
  exact (h.flatMap_right _).filter _

theorem utxoSum_perm (allTx : List LWTransaction) (us vs : List LWUTXO) (h : us.Perm vs) :
    utxoSum allTx us = utxoSum allTx vs := by
  unfold utxoSum
  exact (h.map _).sum_eq

theorem txStore_core (l : List LWTransaction) (k : Nat) (f : LWTransaction → LWTransaction)
    (hf : ∀ t, txCore (f t) = txCore t) : (txStore l k f).map txCore = l.map txCore := by
  unfold txStore
  rw [List.map_map]
  apply List.map_congr_left
  intro t _
  simp only [Function.comp]
  split
  · exact hf t
  · rfl

/-! ### Wallet: the update of listed unconfirmed transactions -/

theorem updateTxStep_listed (H ts : Nat) (s s1 : LWWallet × List Nat × Bool) (k : Nat)
    (t : LWTransaction) (hinv : WalletInv s.1) (ht : t ∈ s.1.transactions) (hk : t.txHash = k)
    (hu : t.blockHeight = TX_UNCONFIRMED) (hH : H ≠ TX_UNCONFIRMED)
    (e : updateTxStep H ts s k = some s1) :
    s1.1.allTx = txStore s.1.allTx k (storeHeight H ts) ∧
      s1.1.transactions.Perm (txStore s.1.transactions k (storeHeight H ts)) ∧
      SameDerived s.1 s1.1 ∧ s1.1.invalidTx = s.1.invalidTx ∧
      s1.2.2 = (s.2.2 || decide (k ∈ s.1.pendingTx) || decide (k ∈ s.1.invalidTx)) := by
  obtain ⟨w, hashes, needs⟩ := s
  subst hk
  simp only at hinv ht ⊢
  have hget : txGet w.allTx t.txHash = some t := hinv.listed t ht
  unfold updateTxStep at e
  simp only at e
  rw [hget] at e
  simp only at e
  rw [if_neg (by rw [hu]; exact fun h => hH h.1.symm)] at e
  have hmem : storeHeight H ts t ∈ txStore w.transactions t.txHash (storeHeight H ts) := by
    unfold txStore
    rw [List.mem_map]
    exact ⟨t, ht, by rw [if_pos rfl]⟩
  have hany : (txStore w.transactions t.txHash (storeHeight H ts)).any
      (fun u => u.txHash == (storeHeight H ts t).txHash) = true := by
    rw [List.any_eq_true]
    exact ⟨_, hmem, by simp⟩
  have hstore : WalletInv { w with
      allTx := txStore w.allTx t.txHash (storeHeight H ts),
      transactions := txStore w.transactions t.txHash (storeHeight H ts) } :=
    store_inv t.txHash (storeHeight H ts) (fun _ => rfl) (fun _ => rfl)
      (fun _ => rfl) hinv ⟨rfl, rfl, rfl, rfl, rfl, rfl, rfl, rfl⟩ rfl rfl
  have hget1 : txGet (txStore w.allTx t.txHash (storeHeight H ts)) t.txHash =
      some (storeHeight H ts t) := by
    rw [txGet_txStore _ _ (storeHeight H ts) (fun _ => rfl), if_pos rfl, hget]
    rfl
  split at e
  · split at e
    · cases e
    · next list hins =>
      cases e
      have hp := insertTx_perm _ _ _ hins
      have e5 : (storeHeight H ts t).txHash = t.txHash := rfl
      simp only [e5] at hp
      refine ⟨rfl, ?_, ⟨rfl, rfl, rfl, rfl, rfl, rfl, rfl, rfl⟩, rfl, rfl⟩
      refine hp.trans ?_
      rcases removeListed_spec (txStore w.transactions t.txHash (storeHeight H ts))
        t.txHash with ⟨h1, _⟩ | ⟨pre, u, post, h1, _, h3, h4⟩
      · exact absurd e5 (h1 _ hmem)
      · rw [h4, h3]
        have hu1 : u = storeHeight H ts t := by
          have hm : u ∈ txStore w.transactions t.txHash (storeHeight H ts) := by
            rw [h3]
            exact List.mem_append_right _ (List.mem_cons_self _ _)
          have := hstore.listed u hm
          simp only at this
          rw [h1, hget1] at this
          exact (Option.some.inj this).symm
        rw [hu1]
        exact List.perm_middle.symm
  · cases e

theorem storeHeight_core (H ts : Nat) (t : LWTransaction) :
    txCore (storeHeight H ts t) = txCore t := rfl

theorem updateTxLoop_listed (H ts : Nat) (hH : H ≠ TX_UNCONFIRMED) :
    ∀ (T : List Nat) (s s1 : LWWallet × List Nat × Bool), WalletInv s.1 → T.Nodup →
      (∀ k ∈ T, ∃ t ∈ s.1.transactions, t.txHash = k ∧ t.blockHeight = TX_UNCONFIRMED) →
      updateTxLoop H ts T s = some s1 →
      (s1.1.transactions.map txCore).Perm (s.1.transactions.map txCore) ∧
        (∀ o, outputAt s1.1.allTx o = outputAt s.1.allTx o) ∧
        SameDerived s.1 s1.1 ∧ s1.1.invalidTx = s.1.invalidTx ∧
        (s1.2.2 = true ↔ s.2.2 = true ∨ ∃ k ∈ T, k ∈ s.1.pendingTx ∨ k ∈ s.1.invalidTx) ∧
        (∀ u ∈ s1.1.transactions, (u.txHash ∈ T ∧ u.blockHeight = H) ∨
          (u.txHash ∉ T ∧ u ∈ s.1.transactions)) := by
  intro T
  induction T with
  | nil =>
    intro s s1 _ _ _ e
    rw [updateTxLoop] at e
    cases e
    exact ⟨List.Perm.refl _, fun _ => rfl, ⟨rfl, rfl, rfl, rfl, rfl, rfl, rfl, rfl⟩, rfl,
      by simp, fun u hu => Or.inr ⟨by simp, hu⟩⟩
  | cons k rest ih =>
    intro s s1 hinv hnd hT e
    rw [updateTxLoop] at e
    cases hs : updateTxStep H ts s k with
    | none => rw [hs] at e; cases e
    | some s2 =>
      rw [hs] at e
      simp only at e
      obtain ⟨t, ht, hk, hu⟩ := hT k (List.mem_cons_self _ _)
      obtain ⟨a1, a2, a3, a4, a5⟩ := updateTxStep_listed H ts s s2 k t hinv ht hk hu hH hs
      have hinv2 := updateTxStep_inv H ts s s2 k hinv hs
      have hnd2 : rest.Nodup := (List.nodup_cons.1 hnd).2
      have hkr : k ∉ rest := (List.nodup_cons.1 hnd).1
      have hT2 : ∀ k1 ∈ rest, ∃ u ∈ s2.1.transactions, u.txHash = k1 ∧
          u.blockHeight = TX_UNCONFIRMED := by
        intro k1 hk1
        obtain ⟨u, hu1, hu2, hu3⟩ := hT k1 (List.mem_cons_of_mem _ hk1)
        refine ⟨u, a2.symm.subset ?_, hu2, hu3⟩
        unfold txStore
        rw [List.mem_map]
        refine ⟨u, hu1, ?_⟩
        rw [if_neg]
        intro h
        rw [hu2] at h
        rw [h] at hk1
        exact hkr hk1
      obtain ⟨b1, b2, b3, b4, b5, b6⟩ := ih s2 s1 hinv2 hnd2 hT2 e
      refine ⟨?_, ?_, ?_, ?_, ?_, ?_⟩
      · refine b1.trans ?_
        have := a2.map txCore
        rw [txStore_core _ _ _ (storeHeight_core H ts)] at this
        exact this
      · intro o
        rw [b2 o, a1]
        exact outputAt_txStore _ _ (storeHeight H ts) (fun _ => rfl) (fun _ => rfl) o
      · exact ⟨b3.allAddrs.trans a3.allAddrs, b3.internalChain.trans a3.internalChain,
          b3.externalChain.trans a3.externalChain, b3.utxos.trans a3.utxos,
          b3.spentOutputs.trans a3.spentOutputs, b3.pendingTx.trans a3.pendingTx,
          b3.balance.trans a3.balance, b3.balanceHist.trans a3.balanceHist⟩
      · rw [b4, a4]
      · constructor
        · intro h
          rcases b5.1 h with h2 | ⟨k1, hk1, hk2⟩
          · rw [a5] at h2
            simp only [Bool.or_eq_true, decide_eq_true_eq] at h2
            rcases h2 with (h2 | h2) | h2
            · exact Or.inl h2
            · exact Or.inr ⟨k, List.mem_cons_self _ _, Or.inl h2⟩
            · exact Or.inr ⟨k, List.mem_cons_self _ _, Or.inr h2⟩
          · rw [a3.pendingTx, a4] at hk2
            exact Or.inr ⟨k1, List.mem_cons_of_mem _ hk1, hk2⟩
        · intro h
          apply b5.2
          rcases h with h | ⟨k1, hk1, hk2⟩
          · left
            rw [a5, h]
            rfl
          · rcases List.mem_cons.1 hk1 with h1 | h1
            · left
              rw [a5, ← h1]
              simp only [Bool.or_eq_true, decide_eq_true_eq]
              rcases hk2 with h | h
              · exact Or.inl (Or.inr h)
              · exact Or.inr h
            · right
              refine ⟨k1, h1, ?_⟩
              rw [a3.pendingTx, a4]
              exact hk2
      · intro u hu1
        rcases b6 u hu1 with ⟨c1, c2⟩ | ⟨c1, c2⟩
        · exact Or.inl ⟨List.mem_cons_of_mem _ c1, c2⟩
        · have hm := a2.subset c2
          unfold txStore at hm
          rw [List.mem_map] at hm
          obtain ⟨u0, hu0, hu2⟩ := hm
          by_cases hc : u0.txHash = k
          · rw [if_pos hc] at hu2
            left
            rw [← hu2]
            exact ⟨by rw [← hc]; exact List.mem_cons_self _ _, rfl⟩
          · rw [if_neg hc] at hu2
            right
            rw [← hu2]
            refine ⟨?_, hu0⟩
            intro hmem
            rcases List.mem_cons.1 hmem with h | h
            · exact hc h
            · rw [← hu2] at c1
              exact c1 h

/-! ### Wallet: the round trip of a reorganisation -/

theorem unconfirm_foldl_keep :
    ∀ (tail : List LWTransaction) (w : LWWallet),
      (tail.foldl unconfirm w).allAddrs = w.allAddrs ∧
        (tail.foldl unconfirm w).balance = w.balance ∧
        ∀ o, outputAt (tail.foldl unconfirm w).allTx o = outputAt w.allTx o := by
  intro tail
  induction tail with
  | nil => intro w; exact ⟨rfl, rfl, fun _ => rfl⟩
  | cons u rest ih =>
    intro w
    rw [List.foldl_cons]
    obtain ⟨h1, h3, h2⟩ := ih (unconfirm w u)
    refine ⟨h1, h3, ?_⟩
    intro o
    rw [h2 o]
    exact outputAt_txStore _ _ storeUnconfirmed (fun _ => rfl) (fun _ => rfl) o

theorem settled_sum_congr (allAddrs : List String) (a b l1 l2 : List LWTransaction)
    (hp : (l2.map txCore).Perm (l1.map txCore))
    (ho : ∀ o, outputAt b o = outputAt a o) :
    utxoSum b (settledUtxos allAddrs l2) = utxoSum a (settledUtxos allAddrs l1) := by
  rw [utxoSum_perm b _ _ (settledUtxos_perm allAddrs l2 l1 hp)]
  exact utxoSum_congr (fun o _ => ho o)

theorem unconfirmed_map_core (T : List Nat) (l : List LWTransaction) :
    (l.map (fun t => if t.txHash ∈ T then storeUnconfirmed t else t)).map txCore =
      l.map txCore := by
  rw [List.map_map]
  apply List.map_congr_left
  intro t _
  simp only [Function.comp]
  split
  · rfl
  · rfl

/-- C23 (as stated, refuted): the wallet holds a confirmed coin of 10000 and an unconfirmed
transaction that spends it, pays 9000 to the wallet and is locked until the time 600000000;
it was registered at the time 0, so that it is pending and the balance is 10000, which a
recomputation at the time 0 confirms.  At the time 700000000
`LWWalletSetTxUnconfirmedAfter(50)` recomputes the balance, with the transaction no longer
pending, and reports the hashes 1 and 2; after `LWWalletUpdateTransactions` at the height 60
of these hashes, or of the hash 1 alone, the balance is 9000. -/
theorem reorg_changes_balance :
    WalletReached sampleEnv timeLockedWallet ∧
      timeLockedWallet.balance = 10000 ∧
      (_LWWalletUpdateBalance sampleEnv 0 timeLockedWallet).map (fun v => v.balance) =
        some 10000 ∧
      unconfirmedHashes timeLockedWallet 50 = [1, 2] ∧
      ((LWWalletSetTxUnconfirmedAfter sampleEnv 700000000 timeLockedWallet 50).bind
        (fun r => LWWalletUpdateTransactions sampleEnv 700000000 r.1 [1, 2] 60 7)).map
        (fun r => r.1.balance) = some 9000 ∧
      ((LWWalletSetTxUnconfirmedAfter sampleEnv 700000000 timeLockedWallet 50).bind
        (fun r => LWWalletUpdateTransactions sampleEnv 700000000 r.1 [1] 60 7)).map
        (fun r => r.1.balance) = some 9000 :=
  ⟨walletOfD_reached _ (by decide), by decide, by decide, by decide, by decide, by decide⟩

/-- C23 (amended): in a reached wallet whose listed transactions are all confirmed and
whose balance is the one that a recomputation gives, `LWWalletSetTxUnconfirmedAfter(h)`
followed by `LWWalletUpdateTransactions` of the hashes that the first call marked
unconfirmed, with a block height other than `TX_UNCONFIRMED`, leaves the balance that the
wallet had before the two calls. -/
theorem reorg_round_trip (env : Env) (now0 now1 now2 : Nat) (w w1 w2 : LWWallet)
    (h H ts : Nat) (ev1 ev2 : List Event) (hr : WalletReached env w)
    (hconf : ∀ t ∈ w.transactions, t.blockHeight ≠ TX_UNCONFIRMED)
    (hfresh : (_LWWalletUpdateBalance env now0 w).map (fun v => v.balance) = some w.balance)
    (hH : H ≠ TX_UNCONFIRMED)
    (e1 : LWWalletSetTxUnconfirmedAfter env now1 w h = some (w1, ev1))
    (e2 : LWWalletUpdateTransactions env now2 w1 (unconfirmedHashes w h) H ts =
      some (w2, ev2)) :
    w2.balance = w.balance := by
  have hinv := reached_inv_wallet env w hr
  -- the balance before the two calls
  have hB0 : w.balance = utxoSum w.allTx (settledUtxos w.allAddrs w.transactions) % 2 ^ 64 := by
    cases hv : _LWWalletUpdateBalance env now0 w with
    | none => rw [hv] at hfresh; cases hfresh
    | some v =>
      rw [hv] at hfresh
      have hb : v.balance = w.balance := Option.some.inj hfresh
      rw [← hb]
      exact (updateBalance_settled env now0 w v hinv.listed hv
        (fun t ht => Or.inl (hconf t ht))).2
  -- the first call
  have hinv1 := unconfirmAfter_inv env now1 w w1 h ev1 hinv e1
  unfold LWWalletSetTxUnconfirmedAfter at e1
  simp only at e1
  have hT : unconfirmedHashes w h = (List.drop (w.transactions.length -
      (List.takeWhile (fun t => decide (t.blockHeight > h)) w.transactions.reverse).length)
      w.transactions).map (fun t => t.txHash) := rfl
  generalize hTl : List.drop (w.transactions.length -
      (List.takeWhile (fun t => decide (t.blockHeight > h)) w.transactions.reverse).length)
      w.transactions = tail at e1 hT
  have htail : tail.Sublist w.transactions := by
    rw [← hTl]
    exact List.drop_sublist _ _
  have hlen : tail.length =
      (List.takeWhile (fun t => decide (t.blockHeight > h)) w.transactions.reverse).length := by
    rw [← hTl, List.length_drop]
    have := (List.takeWhile_sublist (fun t : LWTransaction => decide (t.blockHeight > h)) :
      (List.takeWhile (fun t => decide (t.blockHeight > h)) w.transactions.reverse).Sublist
        w.transactions.reverse).length_le
    rw [List.length_reverse] at this
    omega
  rw [← hlen] at e1
  obtain ⟨f1, _⟩ := unconfirm_foldl_fields tail { w with blockHeight := h }
  obtain ⟨k1, k3, k2⟩ := unconfirm_foldl_keep tail { w with blockHeight := h }
  have hinv0 : WalletInv { w with blockHeight := h } :=
    hinv.congr ⟨rfl, rfl, rfl, rfl, rfl, rfl, rfl, rfl⟩ rfl rfl
  have hinvU := unconfirm_foldl_inv tail _ hinv0
  generalize tail.foldl unconfirm { w with blockHeight := h } = wu at e1 f1 k1 k2 k3 hinvU
  simp only at f1 k1 k2 k3
  rw [← hT] at f1
  generalize unconfirmedHashes w h = T at e2 hT f1
  have hcoreU : wu.transactions.map txCore = w.transactions.map txCore := by
    rw [f1]
    exact unconfirmed_map_core T w.transactions
  by_cases hc : tail.length > 0
  · rw [if_pos hc] at e1
    cases hv : _LWWalletUpdateBalance env now1 wu with
    | none => rw [hv] at e1; cases e1
    | some v =>
      rw [hv] at e1
      have hw1 : w1 = v := by
        cases e1
        rfl
      rw [hw1] at e2 hinv1
      have fr := updateBalance_frame env now1 wu v hv
      -- the second call
      unfold LWWalletUpdateTransactions at e2
      simp only at e2
      generalize hv0 : (if H > v.blockHeight then { v with blockHeight := H } else v) = v0 at e2
      have hv0inv : WalletInv v0 := by
        rw [← hv0]
        split
        · exact hinv1.congr ⟨rfl, rfl, rfl, rfl, rfl, rfl, rfl, rfl⟩ rfl rfl
        · exact hinv1
      have hv0t : v0.transactions = v.transactions := by
        rw [← hv0]; split <;> rfl
      have hv0a : v0.allTx = v.allTx := by
        rw [← hv0]; split <;> rfl
      have hv0p : v0.pendingTx = v.pendingTx := by
        rw [← hv0]; split <;> rfl
      have hv0i : v0.invalidTx = v.invalidTx := by
        rw [← hv0]; split <;> rfl
      have hv0b : v0.balance = v.balance := by
        rw [← hv0]; split <;> rfl
      have hv0d : v0.allAddrs = v.allAddrs := by
        rw [← hv0]; split <;> rfl
      have hTnd : T.Nodup := by
        rw [hT]
        exact (htail.map _).nodup hinv.nodup
      have hTu : ∀ k ∈ T, ∃ t ∈ v0.transactions, t.txHash = k ∧
          t.blockHeight = TX_UNCONFIRMED := by
        intro k hk
        rw [hv0t, fr.transactions, f1]
        have hk0 := hk
        rw [hT, List.mem_map] at hk
        obtain ⟨t0, ht0, ht1⟩ := hk
        refine ⟨storeUnconfirmed t0, ?_, ht1, rfl⟩
        rw [List.mem_map]
        refine ⟨t0, htail.subset ht0, ?_⟩
        rw [if_pos (by rw [ht1]; exact hk0)]
      cases hloop : updateTxLoop H ts T (v0, [], false) with
      | none => rw [hloop] at e2; cases e2
      | some res =>
        obtain ⟨wL, hashes, needs⟩ := res
        rw [hloop] at e2
        simp only at e2
        obtain ⟨c1, c2, c3, c4, c5, c6⟩ := updateTxLoop_listed H ts hH T (v0, [], false)
          (wL, hashes, needs) hv0inv hTnd hTu hloop
        simp only at c1 c2 c3 c4 c5 c6
        have hinvL := updateTxLoop_inv H ts T (v0, [], false) (wL, hashes, needs) hv0inv hloop
        simp only at hinvL
        have hcoreL : (wL.transactions.map txCore).Perm (w.transactions.map txCore) := by
          rw [← hcoreU, ← fr.transactions, ← hv0t]
          exact c1
        have houtL : ∀ o, outputAt wL.allTx o = outputAt w.allTx o := by
          intro o
          rw [c2 o, hv0a, fr.allTx]
          exact k2 o
        have haddrL : wL.allAddrs = w.allAddrs := by
          rw [c3.allAddrs, hv0d, fr.allAddrs]
          exact k1
        cases needs with
        | true =>
          simp only [if_true] at e2
          cases hv2 : _LWWalletUpdateBalance env now2 wL with
          | none => rw [hv2] at e2; cases e2
          | some v2 =>
            rw [hv2] at e2
            have hw2 : w2 = v2 := by
              cases e2
              rfl
            rw [hw2, hB0]
            have hacc : ∀ u ∈ wL.transactions, u.blockHeight ≠ TX_UNCONFIRMED ∨
                (u.txHash ∉ v2.invalidTx ∧ u.txHash ∉ v2.pendingTx) := by
              intro u hu
              left
              rcases c6 u hu with ⟨_, d2⟩ | ⟨d1, d2⟩
              · rw [d2]
                exact hH
              · rw [hv0t, fr.transactions, f1, List.mem_map] at d2
                obtain ⟨t0, ht0, ht1⟩ := d2
                by_cases hm : t0.txHash ∈ T
                · rw [if_pos hm] at ht1
                  rw [← ht1] at d1
                  exact absurd hm d1
                · rw [if_neg hm] at ht1
                  rw [← ht1]
                  exact hconf t0 ht0
            rw [(updateBalance_settled env now2 wL v2 hinvL.listed hv2 hacc).2, haddrL,
              settled_sum_congr w.allAddrs w.allTx wL.allTx w.transactions wL.transactions
                hcoreL houtL]
        | false =>
          simp only [Bool.false_eq_true, if_false] at e2
          have hw2 : w2 = wL := by
            cases e2
            rfl
          rw [hw2, c3.balance, hv0b, hB0]
          have hnone : ∀ k ∈ T, k ∉ v.pendingTx ∧ k ∉ v.invalidTx := by
            intro k hk
            constructor
            · intro hp
              have := c5.2 (Or.inr ⟨k, hk, Or.inl (by rw [hv0p]; exact hp)⟩)
              cases this
            · intro hp
              have := c5.2 (Or.inr ⟨k, hk, Or.inr (by rw [hv0i]; exact hp)⟩)
              cases this
          have hacc : ∀ u ∈ wu.transactions, u.blockHeight ≠ TX_UNCONFIRMED ∨
              (u.txHash ∉ v.invalidTx ∧ u.txHash ∉ v.pendingTx) := by
            intro u hu
            rw [f1, List.mem_map] at hu
            obtain ⟨t0, ht0, ht1⟩ := hu
            by_cases hm : t0.txHash ∈ T
            · rw [if_pos hm] at ht1
              right
              rw [← ht1]
              exact ⟨(hnone _ hm).2, (hnone _ hm).1⟩
            · rw [if_neg hm] at ht1
              left
              rw [← ht1]
              exact hconf t0 ht0
          rw [(updateBalance_settled env now1 wu v hinvU.listed hv hacc).2, k1,
            settled_sum_congr w.allAddrs w.allTx wu.allTx w.transactions wu.transactions
              (by rw [hcoreU]) k2]
  · rw [if_neg hc] at e1
    have hnil : tail = [] := List.eq_nil_of_length_eq_zero (by omega)
    have hTnil : T = [] := by rw [hT, hnil]; rfl
    have hw1 : w1 = wu := by
      cases e1
      rfl
    rw [hTnil] at e2
    unfold LWWalletUpdateTransactions at e2
    simp only [updateTxLoop, List.length_nil, gt_iff_lt, Nat.lt_irrefl, if_false,
      Bool.false_eq_true] at e2
    have hw2 : w2.balance = w1.balance := by
      cases e2
      split <;> rfl
    rw [hw2, hw1]
    exact k3

/-- C23 (amended), at the wallet with two coins confirmed at the heights 100 and 101: the
second one is marked unconfirmed after the height 100 and confirmed again at the height
150. -/
theorem reorg_round_trip_witness :
    (WalletReached sampleEnv twoCoinWallet ∧
      (∀ t ∈ twoCoinWallet.transactions, t.blockHeight ≠ TX_UNCONFIRMED) ∧
      (_LWWalletUpdateBalance sampleEnv 0 twoCoinWallet).map (fun v => v.balance) =
        some twoCoinWallet.balance ∧
      150 ≠ TX_UNCONFIRMED ∧
      unconfirmedHashes twoCoinWallet 100 = [2] ∧
      LWWalletSetTxUnconfirmedAfter sampleEnv 0 twoCoinWallet 100 =
        some (unconfirmD twoCoinWallet 100) ∧
      LWWalletUpdateTransactions sampleEnv 0 (unconfirmD twoCoinWallet 100).1
          (unconfirmedHashes twoCoinWallet 100) 150 7 =
        some (updateD (unconfirmD twoCoinWallet 100).1 (unconfirmedHashes twoCoinWallet 100)
          150 7)) ∧
    (updateD (unconfirmD twoCoinWallet 100).1 (unconfirmedHashes twoCoinWallet 100)
      150 7).1.balance = twoCoinWallet.balance :=
  ⟨⟨walletOfD_reached _ (by decide), by decide, by decide, by decide, by decide,
      eq_some_getD (LWWalletSetTxUnconfirmedAfter sampleEnv 0 twoCoinWallet 100)
        (twoCoinWallet, []) (by decide),
      eq_some_getD (LWWalletUpdateTransactions sampleEnv 0 (unconfirmD twoCoinWallet 100).1
        (unconfirmedHashes twoCoinWallet 100) 150 7)
        ((unconfirmD twoCoinWallet 100).1, []) (by decide)⟩,
    reorg_round_trip sampleEnv 0 0 0 twoCoinWallet (unconfirmD twoCoinWallet 100).1
      (updateD (unconfirmD twoCoinWallet 100).1 (unconfirmedHashes twoCoinWallet 100)
        150 7).1 100 150 7 (unconfirmD twoCoinWallet 100).2
      (updateD (unconfirmD twoCoinWallet 100).1 (unconfirmedHashes twoCoinWallet 100)
        150 7).2 (walletOfD_reached _ (by decide)) (by decide) (by decide) (by decide)
      (eq_some_getD (LWWalletSetTxUnconfirmedAfter sampleEnv 0 twoCoinWallet 100)
        (twoCoinWallet, []) (by decide))
      (eq_some_getD (LWWalletUpdateTransactions sampleEnv 0 (unconfirmD twoCoinWallet 100).1
        (unconfirmedHashes twoCoinWallet 100) 150 7)
        ((unconfirmD twoCoinWallet 100).1, []) (by decide))⟩

/-! ### Wallet: what holds of `utxos` after every recomputation holds in every state -/

theorem walletNew_utxos (env : Env) (P : List LWUTXO → Prop)
    (hrec : ∀ now v w1, BaseInv v → _LWWalletUpdateBalance env now v = some w1 → P w1.utxos)
    (now : Nat) (txs : List LWTransaction) (w : LWWallet)
    (e : LWWalletNew env now txs = some (some w)) : P w.utxos := by
  unfold LWWalletNew at e
  split at e
  · cases e
  · next w1 h1 =>
    have b0 : BaseInv (emptyWallet env) := by
      refine ⟨?_, List.nodup_nil, ?_⟩
      · intro t ht; cases ht
      · intro a ha; cases ha
    have b1 : BaseInv w1 := newLoop_base env txs _ w1 b0 h1
    split at e
    · cases e
    · next x w2 h2 =>
      have b2 := b1.grow (unusedAddrs_grow env _ _ _ _ _ _ b1.addrs h2)
      split at e
      · cases e
      · next y w3 h3 =>
        have b3 := b2.grow (unusedAddrs_grow env _ _ _ _ _ _ b2.addrs h3)
        split at e
        · cases e
        · next w4 h4 =>
          have i4 := hrec now _ w4 b3 h4
          split at e
          · cases e; exact i4
          · split at e
            · cases e; exact i4
            · cases e

theorem register_utxos (env : Env) (P : List LWUTXO → Prop)
    (hrec : ∀ now v w1, BaseInv v → _LWWalletUpdateBalance env now v = some w1 → P w1.utxos)
    (now : Nat) (w w1 : LWWallet) (tx : LWTransaction) (r : Bool)
    (events : List Event) (h : WalletInv w) (ha : P w.utxos)
    (e : LWWalletRegisterTransaction env now w tx = some (r, w1, events)) : P w1.utxos := by
  unfold LWWalletRegisterTransaction at e
  split at e
  · cases e
  · split at e
    · cases e; exact ha
    · next hc =>
      have hn : txGet w.allTx tx.txHash = none := by
        rw [← txContains_false]
        simpa using hc
      split at e
      · simp only at e
        split at e
        · cases e
        · next list hins =>
          have hp := insertTx_perm _ _ _ hins
          have hb : BaseInv { w with allTx := txAdd w.allTx tx, transactions := list } :=
            add_listed_base tx h.base hn rfl hp rfl rfl rfl
          obtain ⟨w2, e2, _, i2⟩ := inv_recompute env now _ hb
          have a2 := hrec now _ w2 hb e2
          rw [e2] at e
          simp only at e
          split at e
          · cases e
          · next x w3 h3 =>
            split at e
            · cases e
            · next y w4 h4 =>
              have g3 := unusedAddrs_grow env _ _ _ _ _ _ i2.addrs h3
              have g4 := unusedAddrs_grow env _ _ _ _ _ _ g3.chains h4
              have e3 : w3.utxos = w2.utxos := by rw [g3.eq]
              have e4 : w4.utxos = w3.utxos := by rw [g4.eq]
              rw [← e3, ← e4] at a2
              cases e
              exact a2
      · split at e
        · cases e
          exact ha
        · cases e; exact ha

theorem removeLeaf_utxos (env : Env) (P : List LWUTXO → Prop)
    (hrec : ∀ now v w1, BaseInv v → _LWWalletUpdateBalance env now v = some w1 → P w1.utxos)
    (now : Nat) (w w1 : LWWallet) (tx : LWTransaction)
    (txHash : Nat) (events : List Event) (h : BaseInv w)
    (e : removeLeaf env now w tx txHash = some (w1, events)) : P w1.utxos := by
  unfold removeLeaf at e
  simp only at e
  have hb : BaseInv { w with allTx := txRemove w.allTx tx.txHash,
                             transactions := removeListed w.transactions tx.txHash } :=
    remove_base tx.txHash h rfl rfl rfl rfl rfl
  split at e
  · cases e
  · next w2 h2 =>
    have a2 := hrec now _ w2 hb h2
    split at e
    · cases e
    · cases e
      exact a2

theorem removeAll_utxos (P : List LWUTXO → Prop)
    (rec : LWWallet → Nat → Option (LWWallet × List Event))
    (hrec : ∀ w h w1 ev, WalletInv w → P w.utxos → rec w h = some (w1, ev) →
      WalletInv w1 ∧ P w1.utxos) :
    ∀ (hashes : List Nat) (s s1 : LWWallet × List Event), WalletInv s.1 → P s.1.utxos →
      removeAll rec hashes s = some s1 → WalletInv s1.1 ∧ P s1.1.utxos := by
  intro hashes
  induction hashes with
  | nil =>
    intro s s1 h ha e
    rw [removeAll] at e
    cases e
    exact ⟨h, ha⟩
  | cons k rest ih =>
    intro s s1 h ha e
    obtain ⟨w, ev⟩ := s
    rw [removeAll] at e
    split at e
    · cases e
    · next w2 ev2 h2 =>
      obtain ⟨i2, a2⟩ := hrec _ _ _ _ h ha h2
      exact ih _ s1 i2 a2 e

theorem removeDepth_utxos (env : Env) (P : List LWUTXO → Prop)
    (hrec : ∀ now v w1, BaseInv v → _LWWalletUpdateBalance env now v = some w1 → P w1.utxos)
    (now : Nat) :
    ∀ (depth : Nat) (w : LWWallet) (txHash : Nat) (w1 : LWWallet) (events : List Event),
      WalletInv w → P w.utxos →
      LWWalletRemoveTransactionDepth env now depth w txHash = some (w1, events) →
      WalletInv w1 ∧ P w1.utxos := by
  intro depth
  induction depth with
  | zero =>
    intro w txHash w1 events _ _ e
    rw [LWWalletRemoveTransactionDepth] at e
    cases e
  | succ depth ih =>
    intro w txHash w1 events h ha e
    have hinv := removeDepth_inv env now _ w txHash w1 events h e
    refine ⟨hinv, ?_⟩
    rw [LWWalletRemoveTransactionDepth] at e
    split at e
    · cases e
    · split at e
      · cases e; exact ha
      · next tx _ =>
        simp only at e
        split at e
        · split at e
          · cases e
          · next w2 ev2 h2 =>
            obtain ⟨i2, a2⟩ :=
              removeAll_utxos P _ (fun a b c d hi hai he => ih a b c d hi hai he) _ _ (w2, ev2)
                h ha h2
            split at e
            · cases e
            · next w3 ev3 h3 =>
              cases e
              exact (ih _ _ _ _ i2 a2 h3).2
        · exact removeLeaf_utxos env P hrec now _ _ _ _ _ h.base e

theorem updateTxStep_utxos (blockHeight timestamp : Nat) (s s1 : LWWallet × List Nat × Bool)
    (txHash : Nat) (e : updateTxStep blockHeight timestamp s txHash = some s1) :
    s1.1.utxos = s.1.utxos := by
  obtain ⟨w, hashes, needs⟩ := s
  unfold updateTxStep at e
  simp only at e
  split at e
  · cases e; rfl
  · split at e
    · cases e; rfl
    · split at e
      · split at e
        · split at e
          · cases e
          · cases e; rfl
        · cases e; rfl
      · split at e
        · split at e
          · cases e
          · cases e; rfl
        · cases e; rfl

theorem updateTxLoop_utxos (blockHeight timestamp : Nat) :
    ∀ (hashes : List Nat) (s s1 : LWWallet × List Nat × Bool),
      updateTxLoop blockHeight timestamp hashes s = some s1 → s1.1.utxos = s.1.utxos := by
  intro hashes
  induction hashes with
  | nil =>
    intro s s1 e
    rw [updateTxLoop] at e
    cases e
    rfl
  | cons k rest ih =>
    intro s s1 e
    rw [updateTxLoop] at e
    split at e
    · cases e
    · next s2 h2 =>
      rw [ih s2 s1 e, updateTxStep_utxos _ _ _ _ _ h2]

theorem update_utxos (env : Env) (P : List LWUTXO → Prop)
    (hrec : ∀ now v w1, BaseInv v → _LWWalletUpdateBalance env now v = some w1 → P w1.utxos)
    (now : Nat) (w w1 : LWWallet) (txHashes : List Nat)
    (blockHeight timestamp : Nat) (events : List Event) (h : WalletInv w) (ha : P w.utxos)
    (e : LWWalletUpdateTransactions env now w txHashes blockHeight timestamp =
      some (w1, events)) : P w1.utxos := by
  unfold LWWalletUpdateTransactions at e
  simp only at e
  have h0 : WalletInv (if blockHeight > w.blockHeight then { w with blockHeight := blockHeight }
      else w) := by
    split
    · exact h.congr ⟨rfl, rfl, rfl, rfl, rfl, rfl, rfl, rfl⟩ rfl rfl
    · exact h
  have u0 : (if blockHeight > w.blockHeight then { w with blockHeight := blockHeight }
      else w).utxos = w.utxos := by
    split <;> rfl
  split at e
  · cases e
  · next w2 hashes needs hl =>
    have i2 : WalletInv w2 := updateTxLoop_inv _ _ _ _ (w2, hashes, needs) h0 hl
    have u2 : w2.utxos = w.utxos := by
      rw [← u0]
      exact updateTxLoop_utxos _ _ _ _ (w2, hashes, needs) hl
    split at e
    · split at e
      · cases e
      · next w3 h3 =>
        have a3 := hrec now _ w3 i2.base h3
        cases e
        exact a3
    · cases e
      rw [u2]
      exact ha

theorem unconfirm_foldl_utxos :
    ∀ (l : List LWTransaction) (w : LWWallet), (l.foldl unconfirm w).utxos = w.utxos := by
  intro l
  induction l with
  | nil => intro w; rfl
  | cons t rest ih =>
    intro w
    rw [List.foldl_cons, ih]
    rfl

theorem unconfirmAfter_utxos (env : Env) (P : List LWUTXO → Prop)
    (hrec : ∀ now v w1, BaseInv v → _LWWalletUpdateBalance env now v = some w1 → P w1.utxos)
    (now : Nat) (w w1 : LWWallet) (blockHeight : Nat)
    (events : List Event) (h : WalletInv w) (ha : P w.utxos)
    (e : LWWalletSetTxUnconfirmedAfter env now w blockHeight = some (w1, events)) :
    P w1.utxos := by
  unfold LWWalletSetTxUnconfirmedAfter at e
  simp only at e
  have h0 : WalletInv { w with blockHeight := blockHeight } :=
    h.congr ⟨rfl, rfl, rfl, rfl, rfl, rfl, rfl, rfl⟩ rfl rfl
  have h1 := unconfirm_foldl_inv
    (List.drop (w.transactions.length - (List.takeWhile (fun t => decide (t.blockHeight > blockHeight))
      w.transactions.reverse).length) w.transactions) _ h0
  have u1 := unconfirm_foldl_utxos
    (List.drop (w.transactions.length - (List.takeWhile (fun t => decide (t.blockHeight > blockHeight))
      w.transactions.reverse).length) w.transactions) { w with blockHeight := blockHeight }
  split at e
  · split at e
    · cases e
    · next w3 h3 =>
      have a3 := hrec now _ w3 h1.base h3
      cases e
      exact a3
  · cases e
    rw [u1]
    exact ha

theorem reached_utxos (env : Env) (P : List LWUTXO → Prop)
    (hrec : ∀ now v w1, BaseInv v → _LWWalletUpdateBalance env now v = some w1 → P w1.utxos)
    (w : LWWallet) (h : WalletReached env w) : P w.utxos := by
  induction h with
  | new now txs w e => exact walletNew_utxos env P hrec now txs w e
  | register now w w1 tx r events hr e ih =>
    exact register_utxos env P hrec now w w1 tx r events (reached_inv_wallet env w hr) ih e
  | remove now w w1 txHash events hr e ih =>
    exact (removeDepth_utxos env P hrec now _ w txHash w1 events
      (reached_inv_wallet env w hr) ih e).2
  | update now w w1 txHashes blockHeight timestamp events hr e ih =>
    exact update_utxos env P hrec now w w1 txHashes blockHeight timestamp events
      (reached_inv_wallet env w hr) ih e
  | unconfirm now w w1 blockHeight events hr e ih =>
    exact unconfirmAfter_utxos env P hrec now w w1 blockHeight events
      (reached_inv_wallet env w hr) ih e
  | unusedAddrs w w1 addrs gapLimit internal written hr e ih =>
    have g := unusedAddrs_grow env _ _ _ _ _ _ (reached_inv_wallet env w hr).addrs e
    have e1 : w1.utxos = w.utxos := by rw [g.eq]
    rw [e1]
    exact ih
  | setFeePerKb w feePerKb _ ih => exact ih
  | createTx depth w w1 outputs tx hr e ih =>
    have g := createTx_grow env depth w w1 outputs tx (reached_inv_wallet env w hr).addrs e
    have e1 : w1.utxos = w.utxos := by rw [g.eq]
    rw [e1]
    exact ih

/-! ### Wallet: the outpoints of `utxos` are pairwise different -/

theorem paidOutpoints_mem (allAddrs : List String) (h : Nat) :
    ∀ (outs : List LWTxOutput) (j : Nat) (o : LWUTXO),
      o ∈ paidOutpoints allAddrs h outs j → o.hash = h ∧ j ≤ o.n := by
  intro outs
  induction outs with
  | nil =>
    intro j o ho
    rw [paidOutpoints] at ho
    cases ho
  | cons x rest ih =>
    intro j o ho
    rw [paidOutpoints] at ho
    split at ho
    · rcases List.mem_cons.1 ho with ho | ho
      · rw [ho]
        exact ⟨rfl, Nat.le_refl _⟩
      · obtain ⟨a, b⟩ := ih (j + 1) o ho
        exact ⟨a, by omega⟩
    · obtain ⟨a, b⟩ := ih (j + 1) o ho
      exact ⟨a, by omega⟩

theorem paidOutpoints_nodup (allAddrs : List String) (h : Nat) :
    ∀ (outs : List LWTxOutput) (j : Nat), (paidOutpoints allAddrs h outs j).Nodup := by
  intro outs
  induction outs with
  | nil =>
    intro j
    rw [paidOutpoints]
    exact List.nodup_nil
  | cons x rest ih =>
    intro j
    rw [paidOutpoints]
    split
    · rw [List.nodup_cons]
      refine ⟨?_, ih (j + 1)⟩
      intro hm
      have := (paidOutpoints_mem allAddrs h rest (j + 1) _ hm).2
      simp only at this
      omega
    · exact ih (j + 1)

theorem paid_flatMap_nodup (allAddrs : List String) (l : List LWTransaction)
    (hn : (l.map (fun t => t.txHash)).Nodup) :
    (l.flatMap (fun t => paidOutpoints allAddrs t.txHash t.outputs 0)).Nodup := by
  rw [List.nodup_flatMap]
  refine ⟨fun t _ => paidOutpoints_nodup allAddrs t.txHash t.outputs 0, ?_⟩
  have hp := List.pairwise_map.1 hn
  refine hp.imp ?_
  intro a b hab o ha hb
  have h1 := (paidOutpoints_mem allAddrs a.txHash a.outputs 0 o ha).1
  have h2 := (paidOutpoints_mem allAddrs b.txHash b.outputs 0 o hb).1
  exact hab (h1.symm.trans h2)

theorem updateStep_sublist (env : Env) (now : Nat) (s r : LWWallet × Nat × Nat)
    (tx : LWTransaction) (e : updateStep env now s tx = some r) :
    r.1.utxos.Sublist (s.1.utxos ++ paidOutpoints s.1.allAddrs tx.txHash tx.outputs 0) := by
  rcases updateStep_shape env now s r tx e with
    ⟨_, _, _, _, _, a1, _⟩ | ⟨_, _, _, _, _, _, a1, _⟩ | ⟨b1, b2, _⟩
  · rw [a1]
    exact List.sublist_append_left _ _
  · rw [a1]
    exact List.sublist_append_left _ _
  · rw [(updateStep_accept env now s r tx e b1 b2).1]
    exact List.filter_sublist _

theorem updateLoop_sublist (env : Env) (now : Nat) :
    ∀ (l : List LWTransaction) (s r : LWWallet × Nat × Nat),
      updateLoop env now l s = some r →
      r.1.utxos.Sublist (s.1.utxos ++
        l.flatMap (fun t => paidOutpoints s.1.allAddrs t.txHash t.outputs 0)) := by
  intro l
  induction l with
  | nil =>
    intro s r e
    rw [updateLoop] at e
    cases e
    simp
  | cons t rest ih =>
    intro s r e
    rw [updateLoop] at e
    cases hst : updateStep env now s t with
    | none => rw [hst] at e; cases e
    | some s1 =>
      rw [hst] at e
      simp only at e
      have h1 := updateStep_sublist env now s s1 t hst
      have h2 := ih s1 r e
      rw [(updateStep_frame env now s s1 t hst).allAddrs] at h2
      rw [List.flatMap_cons, ← List.append_assoc]
      exact h2.trans (h1.append (List.Sublist.refl _))

theorem updateBalance_utxos_nodup (env : Env) (now : Nat) (v w1 : LWWallet) (hb : BaseInv v)
    (e : _LWWalletUpdateBalance env now v = some w1) : w1.utxos.Nodup := by
  obtain ⟨s, b, p, hloop, hw1⟩ := updateBalance_loop env now v w1 e
  have hu : w1.utxos = s.utxos := by rw [hw1]
  rw [hu]
  have h := updateLoop_sublist env now v.transactions (cleared v, 0, 0) (s, b, p) hloop
  simp only [cleared, List.nil_append] at h
  exact h.nodup (paid_flatMap_nodup v.allAddrs v.transactions hb.nodup)

theorem reached_utxos_nodup (env : Env) (w : LWWallet) (h : WalletReached env w) :
    w.utxos.Nodup :=
  reached_utxos env List.Nodup (fun now v w1 hb e => updateBalance_utxos_nodup env now v w1 hb e)
    w h

/-- C28 (amended).  When `LWWalletCreateTxForOutputs` returns, in a reached wallet, a
transaction without the restart for the size, the shuffle permutes the outputs, the amounts
of the unspent outputs sum to less than 2^64 and so do the requested amounts with the fee
`feeAmount` after the last input: the inputs are pairwise different outpoints, a subsequence
of `utxos`, with the sequence number `TXIN_SEQUENCE` and the amounts of the outputs they
spend; the output amounts and `feeAmount` sum to at most the input amounts; `feeAmount` is
at least `_txFee` for the size of the transaction without change output plus
`TX_OUTPUT_SIZE` (when that fee is below 2^64 - 99); and the requested amounts and
`feeAmount` sum to at most the amounts of the unspent outputs. -/
theorem createTx_fee (env : Env) (w w1 : LWWallet) (outputs : List LWTxOutput)
    (t : LWTransaction) (hr : WalletReached env w)
    (e : LWWalletCreateTxForOutputs env 1 w outputs = some (some t, w1))
    (hperm : ∀ l, (env.LWTransactionShuffleOutputs l).Perm l)
    (hin : utxoSum w.allTx w.utxos < 2 ^ 64)
    (hout : (outputs.map (fun o => o.amount)).sum + builderFee env w outputs t.inputs <
      2 ^ 64) :
    (t.inputs.map LWTxInput.outpoint).Sublist w.utxos ∧
    (t.inputs.map LWTxInput.outpoint).Nodup ∧
    (∀ i ∈ t.inputs, i.sequence = env.TXIN_SEQUENCE ∧
      i.amount = utxoAmount w.allTx i.outpoint) ∧
    (t.outputs.map (fun o => o.amount)).sum + builderFee env w outputs t.inputs ≤
      (t.inputs.map (fun i => i.amount)).sum ∧
    (_txFee env.TX_FEE_PER_KB w.feePerKb (sizeT (env.LWTransactionSize
        (builtTx env outputs t.inputs) + env.TX_OUTPUT_SIZE)) + 99 < 2 ^ 64 →
      _txFee env.TX_FEE_PER_KB w.feePerKb (sizeT (env.LWTransactionSize
        (builtTx env outputs t.inputs) + env.TX_OUTPUT_SIZE)) ≤
        builderFee env w outputs t.inputs) ∧
    (outputs.map (fun o => o.amount)).sum + builderFee env w outputs t.inputs ≤
      utxoSum w.allTx w.utxos := by
  obtain ⟨sel, a1, a2, a3, a4⟩ := createTx_plain env w w1 outputs t e
  have hsel : t.inputs = sel := by
    split at a4
    · obtain ⟨written, _, ht⟩ := a4
      rw [ht]
      rfl
    · rw [a4.1]
      rfl
  rw [hsel] at hout ⊢
  have hamt : ∀ i ∈ sel, i.amount = utxoAmount w.allTx i.outpoint := by
    intro i hi
    obtain ⟨_, out, h1, h2, _⟩ := a2 i hi
    unfold utxoAmount
    rw [h1, h2]
    rfl
  have hmap : sel.map (fun i => i.amount) =
      (sel.map LWTxInput.outpoint).map (utxoAmount w.allTx) := by
    rw [List.map_map]
    exact List.map_congr_left hamt
  have hle : (sel.map (fun i => i.amount)).sum ≤ utxoSum w.allTx w.utxos := by
    rw [hmap]
    unfold utxoSum
    exact (a1.map (utxoAmount w.allTx)).sum_le_sum (fun _ _ => Nat.zero_le _)
  have hB : inputBalance sel = (sel.map (fun i => i.amount)).sum := by
    have := foldl_add64_sum (fun i : LWTxInput => i.amount) sel 0 (by omega)
    rw [Nat.zero_add] at this
    exact this
  have hA : requestedAmount outputs = (outputs.map (fun o => o.amount)).sum := by
    have := foldl_add64_sum (fun o : LWTxOutput => o.amount) outputs 0 (by omega)
    rw [Nat.zero_add] at this
    exact this
  have hAF : add64 (requestedAmount outputs) (builderFee env w outputs sel) =
      (outputs.map (fun o => o.amount)).sum + builderFee env w outputs sel := by
    rw [hA]
    unfold add64
    exact Nat.mod_eq_of_lt hout
  rw [hAF] at a3 a4
  rw [sub64_exact _ _ a3 (inputBalance_lt sel), hB] at a4
  rw [hB] at a3
  refine ⟨a1, a1.nodup (reached_utxos_nodup env w hr), fun i hi => ⟨(a2 i hi).1, hamt i hi⟩, ?_, ?_, ?_⟩
  · split at a4
    · obtain ⟨written, _, ht⟩ := a4
      rw [ht]
      simp only
      rw [((hperm _).map (fun o => o.amount)).sum_eq, List.map_append, List.sum_append,
        requestedOutputs_sum]
      simp only [changeOutput, List.map_cons, List.map_nil, List.sum_cons, List.sum_nil]
      omega
    · rw [a4.1]
      simp only [builtTx]
      rw [requestedOutputs_sum]
      exact a3
  · intro hfee
    unfold builderFee
    split
    · next hs =>
      rw [hs]
    · unfold feeAfterInput
      simp only [Nat.add_zero]
      split
      · unfold add64
        rw [Nat.mod_eq_of_lt]
        · exact Nat.le_add_right _ _
        · have := Nat.mod_lt (sub64 w.balance (add64 (requestedAmount outputs)
            (_txFee env.TX_FEE_PER_KB w.feePerKb (sizeT (env.LWTransactionSize
              (builtTx env outputs sel) + env.TX_OUTPUT_SIZE))))) (by norm_num : 100 > 0)
          omega
      · exact Nat.le_refl _
  · omega

/-- C28 (amended), at the wallet with one confirmed coin of 10000 and a payment of 5000. -/
theorem createTx_fee_witness :
    (WalletReached sampleEnv oneCoinWallet ∧
      LWWalletCreateTxForOutputs sampleEnv 1 oneCoinWallet [pay 5000] =
        some (some (builtD oneCoinWallet [pay 5000]), (buildD oneCoinWallet [pay 5000]).2) ∧
      (∀ l, (sampleEnv.LWTransactionShuffleOutputs l).Perm l) ∧
      utxoSum oneCoinWallet.allTx oneCoinWallet.utxos < 2 ^ 64 ∧
      ([pay 5000].map (fun o => o.amount)).sum +
        builderFee sampleEnv oneCoinWallet [pay 5000] (builtD oneCoinWallet [pay 5000]).inputs <
          2 ^ 64) ∧
    ((builtD oneCoinWallet [pay 5000]).outputs.map (fun o => o.amount)).sum +
        builderFee sampleEnv oneCoinWallet [pay 5000] (builtD oneCoinWallet [pay 5000]).inputs ≤
      ((builtD oneCoinWallet [pay 5000]).inputs.map (fun i => i.amount)).sum ∧
    ([pay 5000].map (fun o => o.amount)).sum +
        builderFee sampleEnv oneCoinWallet [pay 5000] (builtD oneCoinWallet [pay 5000]).inputs ≤
      utxoSum oneCoinWallet.allTx oneCoinWallet.utxos :=
  ⟨⟨walletOfD_reached _ (by decide), by decide, fun l => List.Perm.refl l, by decide,
      by decide⟩,
    (createTx_fee sampleEnv oneCoinWallet (buildD oneCoinWallet [pay 5000]).2 [pay 5000] _
      (walletOfD_reached _ (by decide)) (by decide)
      (fun l => List.Perm.refl l) (by decide) (by decide)).2.2.2.1,
    (createTx_fee sampleEnv oneCoinWallet (buildD oneCoinWallet [pay 5000]).2 [pay 5000] _
      (walletOfD_reached _ (by decide)) (by decide)
      (fun l => List.Perm.refl l) (by decide) (by decide)).2.2.2.2.2⟩

/-! ### LWSet.c: the probe loops in sets reached by all operations -/

section SetLemmas2

variable {α : Type} [DecidableEq α]

theorem initLoop_eq (c : Nat) : ∀ (l : List Nat) (i : Nat),
    initLoop c l i = i + (l.takeWhile (fun t => decide (t < c))).length := by
  intro l
  induction l with
  | nil => intro i; simp [initLoop]
  | cons t rest ih =>
    intro i
    by_cases h : t < c
    · simp only [initLoop, h, if_true, List.takeWhile_cons, decide_True, List.length_cons, ih]
      omega
    · simp [initLoop, h, List.takeWhile_cons]

theorem takeWhile_length_le (c : Nat) : ∀ (a : List Nat) (t : Nat) (b : List Nat), ¬ t < c →
    ((a ++ t :: b).takeWhile (fun t => decide (t < c))).length ≤ a.length := by
  intro a
  induction a with
  | nil => intro t b h; simp [List.takeWhile_cons, h]
  | cons x a ih =>
    intro t b h
    simp only [List.cons_append, List.takeWhile_cons]
    split
    · simp only [List.length_cons]
      have := ih t b h
      omega
    · simp

theorem initIndex_le {capacity : Nat} (h : capacity ≤ 2609407319) : initIndex capacity ≤ 49 := by
  unfold initIndex
  rw [initLoop_eq]
  have e : tableSizes = tableSizes.take 49 ++ 2609407319 :: [3914111041] := by decide
  rw [e]
  have := takeWhile_length_le capacity (tableSizes.take 49) 2609407319 [3914111041] (by omega)
  have hl : (tableSizes.take 49).length = 49 := by decide
  omega

theorem new_wf (hash : α → Nat) (eq : α → α → Bool) {capacity : Nat}
    (h : capacity ≤ 2609407319) : WF hash eq (LWSetNew capacity : LWSet α) := by
  rcases new_inv hash eq capacity with hw | hb
  · exact hw
  · exfalso
    have h1 := initIndex_le h
    have h2 : TABLE_SIZES_LEN = 51 := by decide
    have : (LWSetNew capacity : LWSet α).size = tableSizes.getD (initIndex capacity + 1) 0 := by
      unfold LWSetNew _LWSetInit
      simp only [h2]
      rw [if_pos (by omega)]
    have h3 := tableSizes_bounds _ (tableSizes_getD_mem (initIndex capacity) (by omega))
    rw [hb] at this
    simp only at this
    omega

theorem add_wf {hash : α → Nat} {eq : α → α → Bool} (hq : HashEq hash eq) {s s1 : LWSet α}
    {x : α} {r : Option α} (hw : WF hash eq s) (h : LWSetAdd hash eq s x = some (r, s1)) :
    WF hash eq s1 := by
  have h' : LWSetAddDepth hash eq (50 + 2) s x = some (r, s1) := h
  rcases addDepth_cases hq 50 hw x with ⟨r', s1', h1, h2⟩ | ⟨h1, _, _⟩
  · rw [h'] at h1
    cases h1
    exact h2.wf
  · rw [h'] at h1
    cases h1

theorem remove_wf {hash : α → Nat} {eq : α → α → Bool} (hq : HashEq hash eq) {s s1 : LWSet α}
    {x : α} {r : Option α} (hw : WF hash eq s) (h : LWSetRemove hash eq s x = some (r, s1)) :
    WF hash eq s1 := by
  obtain ⟨r', s1', h1, h2⟩ := remove_spec hq hw x
  rw [h] at h1
  cases h1
  exact h2.wf

theorem unionLoop_wf {hash : α → Nat} {eq : α → α → Bool} (hq : HashEq hash eq) :
    ∀ (l : List (Option α)) (s s1 : LWSet α), WF hash eq s →
      unionLoop (LWSetAdd hash eq) l s = some s1 → WF hash eq s1 := by
  intro l
  induction l with
  | nil =>
    intro s s1 hw h
    simp only [unionLoop] at h
    cases h
    exact hw
  | cons v rest ih =>
    intro s s1 hw h
    cases v with
    | none => exact ih s s1 hw h
    | some t =>
      simp only [unionLoop] at h
      cases ha : LWSetAdd hash eq s t with
      | none => rw [ha] at h; cases h
      | some p =>
        obtain ⟨r, s2⟩ := p
        rw [ha] at h
        exact ih s2 s1 (add_wf hq hw ha) h

theorem minusLoop_wf {hash : α → Nat} {eq : α → α → Bool} (hq : HashEq hash eq) :
    ∀ (l : List (Option α)) (s s1 : LWSet α), WF hash eq s →
      minusLoop (LWSetRemove hash eq) l s = some s1 → WF hash eq s1 := by
  intro l
  induction l with
  | nil =>
    intro s s1 hw h
    simp only [minusLoop] at h
    cases h
    exact hw
  | cons v rest ih =>
    intro s s1 hw h
    cases v with
    | none => exact ih s s1 hw h
    | some t =>
      simp only [minusLoop] at h
      cases ha : LWSetRemove hash eq s t with
      | none => rw [ha] at h; cases h
      | some p =>
        obtain ⟨r, s2⟩ := p
        rw [ha] at h
        exact ih s2 s1 (remove_wf hq hw ha) h

theorem intersectLoop_wf {hash : α → Nat} {eq : α → α → Bool} (hq : HashEq hash eq)
    (other : LWSet α) (size : Nat) :
    ∀ (fuel : Nat) (s : LWSet α) (i : Nat) (s1 : LWSet α), WF hash eq s →
      intersectLoop hash eq other size fuel s i = some s1 → WF hash eq s1 := by
  intro fuel
  induction fuel with
  | zero =>
    intro s i s1 _ h
    simp [intersectLoop] at h
  | succ fuel ih =>
    intro s i s1 hw h
    rw [intersectLoop] at h
    by_cases hi : i < size
    · rw [if_pos hi] at h
      cases ht : s.table[i]? with
      | none => rw [ht] at h; cases h
      | some v =>
        rw [ht] at h
        cases v with
        | none => exact ih s (i + 1) s1 hw h
        | some t =>
          simp only at h
          cases hc : LWSetContains hash eq other t with
          | none => rw [hc] at h; cases h
          | some b =>
            rw [hc] at h
            cases b with
            | true => exact ih s (i + 1) s1 hw h
            | false =>
              simp only at h
              cases hr : LWSetRemove hash eq s t with
              | none => rw [hr] at h; cases h
              | some p =>
                obtain ⟨r, s2⟩ := p
                rw [hr] at h
                exact ih s2 i s1 (remove_wf hq hw hr) h
    · rw [if_neg hi] at h
      cases h
      exact hw

theorem clear_wf {hash : α → Nat} {eq : α → α → Bool} {s s1 : LWSet α} (hw : WF hash eq s)
    (h : LWSetClear s = some s1) : WF hash eq s1 := by
  unfold LWSetClear at h
  rw [if_neg (by rw [hw.len]; omega)] at h
  cases h
  have hd : s.table.drop s.size = [] := List.drop_of_length_le (by rw [hw.len])
  refine ⟨by simp [hd], hw.size_mem, by simp [hd, occupied_replicate], by simp, ?_⟩
  intro j a hj
  simp only [hd, List.append_nil, List.getElem?_replicate] at hj
  split at hj <;> simp at hj

theorem reachedFrom_wf {hash : α → Nat} {eq : α → α → Bool} (hq : HashEq hash eq)
    {s0 s : LWSet α} (h0 : WF hash eq s0) (hr : ReachedFrom hash eq s0 s) : WF hash eq s := by
  induction hr with
  | start => exact h0
  | add s s1 x r _ h ih => exact add_wf hq ih h
  | remove s s1 x r _ h ih => exact remove_wf hq ih h
  | union s other s1 _ h ih =>
    unfold LWSetUnion unionWith at h
    split at h
    · cases h
    · exact unionLoop_wf hq _ s s1 ih h
  | minus s other s1 _ h ih =>
    unfold LWSetMinus at h
    split at h
    · cases h
    · exact minusLoop_wf hq _ s s1 ih h
  | intersect s other s1 _ h ih => exact intersectLoop_wf hq other _ _ s 0 s1 ih h
  | clear s s1 _ h ih => exact clear_wf ih h

theorem iterate_some_wf {hash : α → Nat} {eq : α → α → Bool} {s : LWSet α}
    (hw : WF hash eq s) (x : α) : (LWSetIterate hash eq s (some x)).isSome = true := by
  obtain ⟨i, hp⟩ := hw.probe_total x
  unfold LWSetIterate
  simp only [Nat.ne_of_gt hw.pos, if_false, hp]
  have hi : i < s.size := by
    have := probe_lt hp
    rw [hw.len] at this
    exact this
  rw [scanLoop_eq hw.len (s.size - (i + 1)) (i + 1) rfl]
  rfl

end SetLemmas2

/-- C38 (as stated, refuted): the capacity 2609407320 is below the largest table size
3914111041, yet `LWSetNew` allocates no table for it: the size is 0, `itemCount < size`
fails, and `LWSetGet` has no defined result (`hash(item) % 0`, a read of a NULL table). -/
theorem probe_without_table :
    2609407320 < 3914111041 ∧
      ReachedFrom idHash idEq (LWSetNew 2609407320) (LWSetNew 2609407320 : LWSet Nat) ∧
      (LWSetNew 2609407320 : LWSet Nat).table = [] ∧
      ¬ ((LWSetNew 2609407320 : LWSet Nat).itemCount < (LWSetNew 2609407320 : LWSet Nat).size) ∧
      LWSetGet idHash idEq (LWSetNew 2609407320 : LWSet Nat) 1 = none ∧
      LWSetRemove idHash idEq (LWSetNew 2609407320 : LWSet Nat) 1 = none :=
  ⟨by decide, ReachedFrom.start, by decide, by decide, by decide, by decide⟩

/-- C38 (amended): in every set reached from `LWSetNew` with a capacity of at most
2609407319 (the last but one table size) by `LWSetAdd`, `LWSetRemove`, `LWSetUnion`,
`LWSetMinus`, `LWSetIntersect` and `LWSetClear` calls that return, under the contract on
`hash` and `eq`, `itemCount < size` holds and the table has an empty bucket; for every item
`x`, in the set or not, the linear probe shared by `LWSetGet`, `LWSetAdd`, `LWSetRemove` and
`LWSetIterate` stops, and `LWSetGet`, `LWSetRemove` (with its cleanup loop) and
`LWSetIterate` return. -/
theorem probe_loops_terminate {α : Type} [DecidableEq α] (hash : α → Nat) (eq : α → α → Bool)
    (hq : HashEq hash eq) (capacity : Nat) (hc : capacity ≤ 2609407319) (s : LWSet α)
    (hr : ReachedFrom hash eq (LWSetNew capacity) s) (x : α) :
    s.itemCount < s.size ∧ (∃ e : Nat, s.table[e]? = some none) ∧
      (∃ i, probe eq s.table s.size x s.size (hash x % s.size) = some i) ∧
      (LWSetGet hash eq s x).isSome = true ∧
      (LWSetRemove hash eq s x).isSome = true ∧
      (LWSetIterate hash eq s (some x)).isSome = true := by
  have hw := reachedFrom_wf hq (new_wf hash eq hc) hr
  have hb := tableSizes_bounds s.size hw.size_mem
  have hl := hw.load
  obtain ⟨i, hp⟩ := hw.probe_total x
  obtain ⟨r, s1, h1, _⟩ := remove_spec hq hw x
  refine ⟨by omega, hw.exists_empty, ⟨i, hp⟩, ?_, ?_, iterate_some_wf hw x⟩
  · rw [get_of_probe hash hw.pos hp]
    rfl
  · rw [h1]
    rfl

theorem clearedSet_reached : ReachedFrom idHash idEq (LWSetNew 3) clearedSet :=
  ReachedFrom.clear (LWSetNew 3) clearedSet
    (ReachedFrom.minus (LWSetNew 3) (LWSetNew 3) (LWSetNew 3) ReachedFrom.start (by decide))
    (by decide)

/-- C38 at a concrete input: the probe for 22 in the set created with capacity 3, after
`LWSetMinus` and `LWSetClear`. -/
theorem probe_loops_terminate_witness :
    HashEq idHash idEq ∧ 3 ≤ 2609407319 ∧ ReachedFrom idHash idEq (LWSetNew 3) clearedSet ∧
      clearedSet.itemCount < clearedSet.size ∧ (∃ e : Nat, clearedSet.table[e]? = some none) ∧
      (∃ i, probe idEq clearedSet.table clearedSet.size 22 clearedSet.size
        (idHash 22 % clearedSet.size) = some i) ∧
      (LWSetGet idHash idEq clearedSet 22).isSome = true ∧
      (LWSetRemove idHash idEq clearedSet 22).isSome = true ∧
      (LWSetIterate idHash idEq clearedSet (some 22)).isSome = true :=
  ⟨idHashEq, by decide, clearedSet_reached,
    probe_loops_terminate idHash idEq idHashEq 3 (by decide) clearedSet clearedSet_reached 22⟩

/-! ### Wallet: the order of the list by block height -/

theorem isAscending_height (w : LWWallet) (a b : LWTransaction) (r : Bool)
    (h : _LWWalletTxIsAscending w (some a) (some b) = some r) :
    (r = true → b.blockHeight ≤ a.blockHeight) ∧ (r = false → a.blockHeight ≤ b.blockHeight) := by
  unfold _LWWalletTxIsAscending at h
  rw [_LWWalletTxIsAscendingDepth] at h
  split at h
  · cases h
    exact ⟨fun _ => by omega, fun h => by cases h⟩
  · split at h
    · cases h
      exact ⟨fun h => (by cases h), fun _ => by omega⟩
    · exact ⟨fun _ => by omega, fun _ => by omega⟩

theorem compare_height (w : LWWallet) (t tx : LWTransaction) (c : Int)
    (h : _LWWalletTxCompare w t tx = some c) :
    (c > 0 → tx.blockHeight ≤ t.blockHeight) ∧ (¬ c > 0 → t.blockHeight ≤ tx.blockHeight) := by
  unfold _LWWalletTxCompare at h
  cases h1 : _LWWalletTxIsAscending w (some t) (some tx) with
  | none => rw [h1] at h; cases h
  | some r1 =>
    have a1 := isAscending_height w t tx r1 h1
    rw [h1] at h
    cases r1 with
    | true =>
      exact ⟨fun _ => a1.1 rfl, fun hc => by
        simp only at h
        cases h
        exact absurd (by decide) hc⟩
    | false =>
      simp only at h
      cases h2 : _LWWalletTxIsAscending w (some tx) (some t) with
      | none => rw [h2] at h; cases h
      | some r2 =>
        have a2 := isAscending_height w tx t r2 h2
        rw [h2] at h
        cases r2 with
        | true =>
          simp only at h
          cases h
          exact ⟨fun hc => by exact absurd hc (by decide), fun _ => a1.2 rfl⟩
        | false =>
          have e1 := a1.2 rfl
          have e2 := a2.2 rfl
          exact ⟨fun _ => e2, fun _ => e1⟩

theorem insertTx_sorted (w : LWWallet) (tx : LWTransaction) (l : List LWTransaction)
    (hs : SortedByHeight w.transactions) (hb : tx.blockHeight ≤ TX_UNCONFIRMED)
    (h : _LWWalletInsertTx w tx = some l) : SortedByHeight l := by
  obtain ⟨pre, post, e1, e2, h3, h4⟩ := insertTx_spec w tx l h
  obtain ⟨p, b⟩ := hs
  rw [e1] at p b
  rw [e2]
  obtain ⟨p1, p2, p3⟩ := List.pairwise_append.1 p
  have hpost : ∀ t ∈ post, tx.blockHeight ≤ t.blockHeight := by
    intro t ht
    obtain ⟨c, hc, hpos⟩ := h3 t ht
    exact (compare_height w t tx c hc).1 hpos
  have hpre : ∀ t ∈ pre, t.blockHeight ≤ tx.blockHeight := by
    intro t ht
    cases hl : pre.getLast? with
    | none =>
      rw [List.getLast?_eq_none_iff] at hl
      rw [hl] at ht
      cases ht
    | some x =>
      obtain ⟨c, hc, hneg⟩ := h4 x hl
      have hx := (compare_height w x tx c hc).2 hneg
      obtain ⟨q, hq⟩ : ∃ q, pre = q ++ [x] := by
        rw [List.getLast?_eq_some_iff] at hl
        exact hl
      rw [hq] at ht p1
      rcases List.mem_append.1 ht with ht1 | ht1
      · have := (List.pairwise_append.1 p1).2.2 t ht1 x (List.mem_singleton_self _)
        omega
      · rw [List.mem_singleton.1 ht1]; exact hx
  refine ⟨?_, ?_⟩
  · rw [List.pairwise_append]
    refine ⟨p1, ?_, ?_⟩
    · rw [List.pairwise_cons]
      exact ⟨hpost, p2⟩
    · intro a ha c hc
      rcases List.mem_cons.1 hc with hc | hc
      · rw [hc]; exact hpre a ha
      · exact p3 a ha c hc
  · intro t ht
    rcases List.mem_append.1 ht with ht | ht
    · exact b t (List.mem_append_left _ ht)
    · rcases List.mem_cons.1 ht with ht | ht
      · rw [ht]; exact hb
      · exact b t (List.mem_append_right _ ht)

theorem SortedByHeight.sublist {l l1 : List LWTransaction} (h : SortedByHeight l)
    (s : l1.Sublist l) : SortedByHeight l1 :=
  ⟨h.1.sublist s, fun t ht => h.2 t (s.subset ht)⟩

theorem removeListed_sublist (l : List LWTransaction) (k : Nat) :
    (removeListed l k).Sublist l := by
  unfold removeListed
  have := (List.eraseP_sublist (p := fun t : LWTransaction => t.txHash == k) l.reverse).reverse
  rw [List.reverse_reverse] at this
  exact this

theorem removeListed_filter (l : List LWTransaction) (k : Nat)
    (hn : (l.map (fun t => t.txHash)).Nodup) :
    removeListed l k = l.filter (fun t => t.txHash != k) := by
  rcases removeListed_spec l k with ⟨h1, h2⟩ | ⟨pre, t, post, h1, h2, h3, h4⟩
  · rw [h2]
    symm
    rw [List.filter_eq_self]
    intro a ha
    simpa using h1 a ha
  · rw [h4, h3, List.filter_append, List.filter_cons]
    rw [h3, List.map_append, List.map_cons] at hn
    have hd := (List.nodup_append.1 hn).2.2
    have hpre : ∀ a ∈ pre, a.txHash ≠ k := by
      intro a ha e
      exact hd (List.mem_map.2 ⟨a, ha, rfl⟩) (by rw [e, ← h1]; exact List.mem_cons_self _ _)
    have e1 : pre.filter (fun t => t.txHash != k) = pre := by
      rw [List.filter_eq_self]
      intro a ha
      simpa using hpre a ha
    have e2 : post.filter (fun t => t.txHash != k) = post := by
      rw [List.filter_eq_self]
      intro a ha
      simpa using h2 a ha
    rw [e1, e2]
    simp [h1]

theorem filter_txStore (l : List LWTransaction) (k : Nat) (f : LWTransaction → LWTransaction)
    (hf : ∀ t, (f t).txHash = t.txHash) :
    (txStore l k f).filter (fun t => t.txHash != k) = l.filter (fun t => t.txHash != k) := by
  induction l with
  | nil => rfl
  | cons a rest ih =>
    unfold txStore at ih ⊢
    rw [List.map_cons]
    by_cases ha : a.txHash = k
    · rw [if_pos ha, List.filter_cons, List.filter_cons, hf a]
      simp only [ha, bne_self_eq_false, Bool.false_eq_true, if_false]
      exact ih
    · rw [if_neg ha, List.filter_cons, List.filter_cons]
      simp only [ih]

theorem txStore_self (l : List LWTransaction) (k : Nat) (f : LWTransaction → LWTransaction)
    (h : ∀ t ∈ l, t.txHash ≠ k) : txStore l k f = l := by
  unfold txStore
  conv_rhs => rw [← List.map_id l]
  apply List.map_congr_left
  intro t ht
  rw [if_neg (h t ht)]
  rfl

theorem mem_txStore {l : List LWTransaction} {k : Nat} {f : LWTransaction → LWTransaction}
    {u : LWTransaction} (h : u ∈ txStore l k f) :
    u ∈ l ∨ ∃ t ∈ l, t.txHash = k ∧ u = f t := by
  unfold txStore at h
  obtain ⟨t, ht, e⟩ := List.mem_map.1 h
  by_cases hk : t.txHash = k
  · rw [if_pos hk] at e
    exact Or.inr ⟨t, ht, hk, e.symm⟩
  · rw [if_neg hk] at e
    rw [← e]
    exact Or.inl ht

theorem updateTxStep_sorted (H ts : Nat) (s s1 : LWWallet × List Nat × Bool) (k : Nat)
    (hinv : WalletInv s.1) (hs : SortedByHeight s.1.transactions) (hH : H ≤ TX_UNCONFIRMED)
    (hk : H = TX_UNCONFIRMED →
      ∀ t ∈ s.1.transactions, t.txHash = k → t.blockHeight = TX_UNCONFIRMED)
    (e : updateTxStep H ts s k = some s1) :
    SortedByHeight s1.1.transactions ∧
      ∀ u ∈ s1.1.transactions, u ∈ s.1.transactions ∨ u.blockHeight = H := by
  obtain ⟨w, hashes, needs⟩ := s
  simp only at hinv hs hk ⊢
  unfold updateTxStep at e
  simp only at e
  split at e
  · cases e
    exact ⟨hs, fun u hu => Or.inl hu⟩
  · next tx hget =>
    have hkk := (txGet_some hget).1
    split at e
    · cases e
      exact ⟨hs, fun u hu => Or.inl hu⟩
    · have hmem : ∀ u ∈ txStore w.transactions tx.txHash (storeHeight H ts),
          u ∈ w.transactions ∨ u.blockHeight = H := by
        intro u hu
        rcases mem_txStore hu with h1 | ⟨t, _, _, h2⟩
        · exact Or.inl h1
        · right; rw [h2]; rfl
      have hunl : (txStore w.transactions tx.txHash (storeHeight H ts)).any
          (fun t => t.txHash == (storeHeight H ts tx).txHash) ≠ true →
          txStore w.transactions tx.txHash (storeHeight H ts) = w.transactions := by
        intro hany
        apply txStore_self
        intro t ht e1
        apply hany
        rw [List.any_eq_true]
        refine ⟨storeHeight H ts t, ?_, ?_⟩
        · unfold txStore
          rw [List.mem_map]
          exact ⟨t, ht, by rw [if_pos e1]⟩
        · simp only [beq_iff_eq]
          exact e1
      split at e
      · split at e
        · split at e
          · cases e
          · next list hins =>
            cases e
            simp only
            have hnd : ((txStore w.transactions tx.txHash (storeHeight H ts)).map
                (fun t => t.txHash)).Nodup := by
              rw [hashes_txStore _ _ (storeHeight H ts) (fun _ => rfl)]
              exact hinv.nodup
            have hrm : removeListed (txStore w.transactions tx.txHash (storeHeight H ts))
                (storeHeight H ts tx).txHash =
                w.transactions.filter (fun t => t.txHash != tx.txHash) := by
              have : (storeHeight H ts tx).txHash = tx.txHash := rfl
              rw [this, removeListed_filter _ _ hnd, filter_txStore _ _ (storeHeight H ts) (fun _ => rfl)]
            have hsub : SortedByHeight (w.transactions.filter (fun t => t.txHash != tx.txHash)) :=
              hs.sublist (List.filter_sublist _)
            have hp := insertTx_perm _ _ _ hins
            refine ⟨insertTx_sorted _ _ _ (by simp only; rw [hrm]; exact hsub) hH hins, ?_⟩
            intro u hu
            have hu1 := hp.subset hu
            simp only at hu1
            rcases List.mem_cons.1 hu1 with hu2 | hu2
            · right; rw [hu2]; rfl
            · rw [hrm] at hu2
              exact Or.inl (List.mem_filter.1 hu2).1
        · next hany =>
          cases e
          simp only
          rw [hunl hany]
          exact ⟨hs, fun u hu => Or.inl hu⟩
      · split at e
        · split at e
          · cases e
          · next hany =>
            cases e
            simp only
            rw [hunl hany]
            exact ⟨hs, fun u hu => Or.inl hu⟩
        · next hmax =>
          cases e
          simp only
          have hmax1 : H = TX_UNCONFIRMED := by
            by_contra hne
            exact hmax hne
          refine ⟨?_, hmem⟩
          have hg : ∀ a ∈ w.transactions,
              ((fun t => if t.txHash = tx.txHash then storeHeight H ts t else t) a).blockHeight =
                a.blockHeight := by
            intro a ha
            simp only
            split
            · next e1 =>
              have := hk hmax1 a ha (by rw [e1, hkk])
              rw [this, hmax1]
              rfl
            · rfl
          unfold txStore
          refine ⟨?_, ?_⟩
          · rw [List.pairwise_map]
            refine List.Pairwise.imp_of_mem ?_ hs.1
            intro a b ha hb hab
            rw [hg a ha, hg b hb]
            exact hab
          · intro t ht
            obtain ⟨a, ha, e1⟩ := List.mem_map.1 ht
            rw [← e1, hg a ha]
            exact hs.2 a ha

theorem updateTxLoop_sorted (H ts : Nat) (hH : H ≤ TX_UNCONFIRMED) (T : List Nat) :
    ∀ (hashes : List Nat) (s s1 : LWWallet × List Nat × Bool), WalletInv s.1 →
      SortedByHeight s.1.transactions → (∀ k ∈ hashes, k ∈ T) →
      (H = TX_UNCONFIRMED →
        ∀ t ∈ s.1.transactions, t.txHash ∈ T → t.blockHeight = TX_UNCONFIRMED) →
      updateTxLoop H ts hashes s = some s1 → SortedByHeight s1.1.transactions := by
  intro hashes
  induction hashes with
  | nil =>
    intro s s1 _ hs _ _ e
    rw [updateTxLoop] at e
    cases e
    exact hs
  | cons k rest ih =>
    intro s s1 hinv hs hT hk e
    rw [updateTxLoop] at e
    split at e
    · cases e
    · next s2 h2 =>
      obtain ⟨a1, a2⟩ := updateTxStep_sorted H ts s s2 k hinv hs hH
        (fun hm t ht e1 => hk hm t ht (by rw [e1]; exact hT k (List.mem_cons_self _ _))) h2
      refine ih s2 s1 (updateTxStep_inv _ _ _ _ _ hinv h2) a1
        (fun j hj => hT j (List.mem_cons_of_mem _ hj)) ?_ e
      intro hm t ht hmem
      rcases a2 t ht with h3 | h3
      · exact hk hm t h3 hmem
      · rw [h3, hm]

theorem update_sorted (env : Env) (now : Nat) (w w1 : LWWallet) (txHashes : List Nat)
    (H ts : Nat) (events : List Event) (hinv : WalletInv w)
    (hs : SortedByHeight w.transactions)
    (hH : H < TX_UNCONFIRMED ∨ (H = TX_UNCONFIRMED ∧
      ∀ t ∈ w.transactions, t.txHash ∈ txHashes → t.blockHeight = TX_UNCONFIRMED))
    (e : LWWalletUpdateTransactions env now w txHashes H ts = some (w1, events)) :
    SortedByHeight w1.transactions := by
  unfold LWWalletUpdateTransactions at e
  simp only at e
  have hle : H ≤ TX_UNCONFIRMED := by
    rcases hH with h | h
    · omega
    · omega
  have hk : H = TX_UNCONFIRMED →
      ∀ t ∈ w.transactions, t.txHash ∈ txHashes → t.blockHeight = TX_UNCONFIRMED := by
    intro hm
    rcases hH with h | h
    · omega
    · exact h.2
  have key : ∀ w0 : LWWallet, WalletInv w0 → w0.transactions = w.transactions →
      ∀ s1, updateTxLoop H ts txHashes (w0, [], false) = some s1 →
        SortedByHeight s1.1.transactions := by
    intro w0 i0 e0 s1 h1
    exact updateTxLoop_sorted H ts hle txHashes txHashes (w0, [], false) s1 i0
      (by simp only; rw [e0]; exact hs) (fun _ h => h) (by simp only; rw [e0]; exact hk) h1
  have i0 : WalletInv (if H > w.blockHeight then { w with blockHeight := H } else w) := by
    split
    · exact hinv.congr ⟨rfl, rfl, rfl, rfl, rfl, rfl, rfl, rfl⟩ rfl rfl
    · exact hinv
  have e0 : (if H > w.blockHeight then { w with blockHeight := H } else w).transactions =
      w.transactions := by
    split <;> rfl
  split at e
  · cases e
  · next w2 hashes needs h2 =>
    have s2 := key _ i0 e0 _ h2
    simp only at s2
    split at e
    · split at e
      · cases e
      · next w3 h3 =>
        have f3 := (updateBalance_frame env now _ w3 h3).transactions
        cases e
        rw [f3]
        exact s2
    · cases e
      exact s2

theorem register_sorted (env : Env) (now : Nat) (w w1 : LWWallet) (tx : LWTransaction)
    (r : Bool) (events : List Event) (hinv : WalletInv w) (hs : SortedByHeight w.transactions)
    (hb : tx.blockHeight ≤ TX_UNCONFIRMED)
    (e : LWWalletRegisterTransaction env now w tx = some (r, w1, events)) :
    SortedByHeight w1.transactions := by
  unfold LWWalletRegisterTransaction at e
  split at e
  · cases e
  · split at e
    · cases e; exact hs
    · split at e
      · simp only at e
        split at e
        · cases e
        · next list hins =>
          have hl : SortedByHeight list := insertTx_sorted _ _ _ (by exact hs) hb hins
          split at e
          · cases e
          · next w2 h2 =>
            have f := updateBalance_frame env now _ w2 h2
            have ha2 : ∀ a ∈ w2.allAddrs, a ∈ w2.internalChain ∨ a ∈ w2.externalChain := by
              intro a ha
              rw [f.allAddrs] at ha
              rw [f.internalChain, f.externalChain]
              exact hinv.addrs a ha
            split at e
            · cases e
            · next x w3 h3 =>
              have g3 := unusedAddrs_grow env _ _ _ _ _ _ ha2 h3
              split at e
              · cases e
              · next y w4 h4 =>
                have g4 := unusedAddrs_grow env _ _ _ _ _ _ g3.chains h4
                have e4 : w4.transactions = w3.transactions := by rw [g4.eq]
                have e3 : w3.transactions = w2.transactions := by rw [g3.eq]
                cases e
                rw [e4, e3, f.transactions]
                exact hl
      · split at e
        · cases e; exact hs
        · cases e; exact hs

theorem removeLeaf_sorted (env : Env) (now : Nat) (w w1 : LWWallet) (tx : LWTransaction)
    (txHash : Nat) (events : List Event) (hs : SortedByHeight w.transactions)
    (e : removeLeaf env now w tx txHash = some (w1, events)) :
    SortedByHeight w1.transactions := by
  unfold removeLeaf at e
  simp only at e
  split at e
  · cases e
  · next w2 h2 =>
    have f := updateBalance_frame env now _ w2 h2
    split at e
    · cases e
    · cases e
      rw [f.transactions]
      exact hs.sublist (removeListed_sublist _ _)

theorem removeAll_sorted (rec : LWWallet → Nat → Option (LWWallet × List Event))
    (hrec : ∀ w h w1 ev, WalletInv w → SortedByHeight w.transactions →
      rec w h = some (w1, ev) → WalletInv w1 ∧ SortedByHeight w1.transactions) :
    ∀ (hashes : List Nat) (s s1 : LWWallet × List Event), WalletInv s.1 →
      SortedByHeight s.1.transactions → removeAll rec hashes s = some s1 →
      WalletInv s1.1 ∧ SortedByHeight s1.1.transactions := by
  intro hashes
  induction hashes with
  | nil =>
    intro s s1 h hs e
    rw [removeAll] at e
    cases e
    exact ⟨h, hs⟩
  | cons k rest ih =>
    intro s s1 h hs e
    obtain ⟨w, ev⟩ := s
    rw [removeAll] at e
    split at e
    · cases e
    · next w2 ev2 h2 =>
      obtain ⟨i2, s2⟩ := hrec _ _ _ _ h hs h2
      exact ih _ s1 i2 s2 e

theorem removeDepth_sorted (env : Env) (now : Nat) :
    ∀ (depth : Nat) (w : LWWallet) (txHash : Nat) (w1 : LWWallet) (events : List Event),
      WalletInv w → SortedByHeight w.transactions →
      LWWalletRemoveTransactionDepth env now depth w txHash = some (w1, events) →
      WalletInv w1 ∧ SortedByHeight w1.transactions := by
  intro depth
  induction depth with
  | zero =>
    intro w txHash w1 events _ _ e
    rw [LWWalletRemoveTransactionDepth] at e
    cases e
  | succ depth ih =>
    intro w txHash w1 events h hs e
    rw [LWWalletRemoveTransactionDepth] at e
    split at e
    · cases e
    · split at e
      · cases e; exact ⟨h, hs⟩
      · next tx _ =>
        simp only at e
        split at e
        · split at e
          · cases e
          · next w2 ev2 h2 =>
            obtain ⟨i2, s2⟩ :=
              removeAll_sorted _ (fun a b c d hi hs he => ih a b c d hi hs he) _ _ (w2, ev2) h hs h2
            split at e
            · cases e
            · next w3 ev3 h3 =>
              cases e
              exact ih _ _ _ _ i2 s2 h3
        · exact ⟨removeLeaf_inv env now _ _ _ _ _ h.base e,
            removeLeaf_sorted env now _ _ _ _ _ hs e⟩

theorem unconfirmAfter_keeps_sorted (env : Env) (now : Nat) (w w1 : LWWallet) (h : Nat)
    (events : List Event) (hinv : WalletInv w) (hs : SortedByHeight w.transactions)
    (e : LWWalletSetTxUnconfirmedAfter env now w h = some (w1, events)) :
    SortedByHeight w1.transactions := by
  obtain ⟨_, e2⟩ := unconfirmAfter_fields env now w w1 h events e
  rw [e2]
  generalize w.transactions.length -
    (w.transactions.reverse.takeWhile (fun t => decide (t.blockHeight > h))).length = i
  have hsplit := List.take_append_drop i w.transactions
  have hnd := hinv.nodup
  obtain ⟨p, b⟩ := hs
  rw [← hsplit] at hnd p
  rw [List.map_append] at hnd
  have hdis := (List.nodup_append.1 hnd).2.2
  obtain ⟨p1, p2, p3⟩ := List.pairwise_append.1 p
  have hmap : ∀ S : List Nat, S = (w.transactions.drop i).map (fun u => u.txHash) →
      w.transactions.map (fun t => if t.txHash ∈ S then storeUnconfirmed t else t) =
      w.transactions.take i ++ (w.transactions.drop i).map storeUnconfirmed := by
    intro S hS
    conv_lhs => rw [← hsplit]
    rw [List.map_append]
    congr 1
    · conv_rhs => rw [← List.map_id (w.transactions.take i)]
      apply List.map_congr_left
      intro t ht
      rw [if_neg (fun hm => hdis (List.mem_map.2 ⟨t, ht, rfl⟩) (by rw [← hS]; exact hm))]
      rfl
    · apply List.map_congr_left
      intro t ht
      rw [if_pos (by rw [hS]; exact List.mem_map.2 ⟨t, ht, rfl⟩)]
  rw [hmap _ rfl]
  refine ⟨?_, ?_⟩
  · rw [List.pairwise_append]
    refine ⟨p1, ?_, ?_⟩
    · rw [List.pairwise_map]
      exact List.Pairwise.imp (fun _ => Nat.le_refl _) p2
    · intro a ha c hc
      obtain ⟨t, _, e1⟩ := List.mem_map.1 hc
      rw [← e1]
      exact b a (List.mem_of_mem_take ha)
  · intro t ht
    rcases List.mem_append.1 ht with ht | ht
    · exact b t (List.mem_of_mem_take ht)
    · obtain ⟨a, _, e1⟩ := List.mem_map.1 ht
      rw [← e1]
      exact Nat.le_refl _

theorem walletNew_empty (env : Env) (now : Nat) (w : LWWallet)
    (e : LWWalletNew env now [] = some (some w)) : w.transactions = [] := by
  unfold LWWalletNew at e
  rw [newLoop] at e
  simp only at e
  have a0 : ∀ a ∈ (emptyWallet env).allAddrs,
      a ∈ (emptyWallet env).internalChain ∨ a ∈ (emptyWallet env).externalChain := by
    intro a ha
    cases ha
  split at e
  · cases e
  · next x w2 h2 =>
    have g2 := unusedAddrs_grow env _ _ _ _ _ _ a0 h2
    split at e
    · cases e
    · next y w3 h3 =>
      have g3 := unusedAddrs_grow env _ _ _ _ _ _ g2.chains h3
      split at e
      · cases e
      · next w4 h4 =>
        have f := updateBalance_frame env now _ w4 h4
        have e3 : w3.transactions = w2.transactions := by rw [g3.eq]
        have e2 : w2.transactions = (emptyWallet env).transactions := by rw [g2.eq]
        cases e
        rw [f.transactions, e3, e2]
        rfl

theorem heightReached_reached (env : Env) (w : LWWallet) (h : HeightReached env w) :
    WalletReached env w := by
  induction h with
  | new now w e => exact WalletReached.new now [] w e
  | register now w w1 tx r events _ _ e ih => exact WalletReached.register now w w1 tx r events ih e
  | update now w w1 txHashes blockHeight timestamp events _ _ e ih =>
    exact WalletReached.update now w w1 txHashes blockHeight timestamp events ih e
  | remove now w w1 txHash events _ e ih => exact WalletReached.remove now w w1 txHash events ih e
  | unconfirm now w w1 blockHeight events _ e ih =>
    exact WalletReached.unconfirm now w w1 blockHeight events ih e

/-- C39 (as stated, refuted): two runs of the four operations from a wallet created without
transactions that leave the ordered list unsorted.  In the first, two coins are registered
with the block heights 2500000000 and 3000000000, above `TX_UNCONFIRMED` (2147483647), and
`LWWalletSetTxUnconfirmedAfter(2600000000)` stores `TX_UNCONFIRMED` in the second one.  In
the second, no block height is above `TX_UNCONFIRMED`: transaction 2 spends transaction 1
and pays no wallet address; after updates to the heights 100 (transaction 2) and 200
(transaction 3) the removal of the unconfirmed transaction 1 leaves transaction 2 listed,
and `LWWalletUpdateTransactions` with `TX_UNCONFIRMED` stores the height in it without
moving it. -/
theorem transactions_unsorted :
    (WalletReached sampleEnv (unconfirmD highWallet 2600000000).1 ∧
      (unconfirmD highWallet 2600000000).1.transactions.map (fun t => t.blockHeight) =
        [2500000000, 2147483647]) ∧
    (WalletReached sampleEnv (updateD strandedWallet [2] TX_UNCONFIRMED 0).1 ∧
      strandedWallet.transactions.map (fun t => (t.txHash, t.blockHeight)) =
        [(2, 100), (3, 200)] ∧
      LWWalletUpdateTransactions sampleEnv 0 strandedWallet [2] TX_UNCONFIRMED 0 =
        some (updateD strandedWallet [2] TX_UNCONFIRMED 0) ∧
      (updateD strandedWallet [2] TX_UNCONFIRMED 0).1.transactions.map
        (fun t => (t.txHash, t.blockHeight)) = [(2, 2147483647), (3, 200)] ∧
      ¬ (updateD strandedWallet [2] TX_UNCONFIRMED 0).1.transactions.Pairwise
        (fun a b => a.blockHeight ≤ b.blockHeight)) :=
  ⟨⟨WalletReached.unconfirm 0 highWallet _ 2600000000 (unconfirmD highWallet 2600000000).2
      (walletOfD_reached _ (by decide))
      (eq_some_getD (LWWalletSetTxUnconfirmedAfter sampleEnv 0 highWallet 2600000000)
        (highWallet, []) (by decide)), by decide⟩,
    WalletReached.update 0 strandedWallet _ [2] TX_UNCONFIRMED 0
      (updateD strandedWallet [2] TX_UNCONFIRMED 0).2
      (WalletReached.remove 0 _ _ 1
        (removeD (updateD (updateD (walletOfD [parentTx, foreignSpendTx, otherTx]) [2] 100 7).1
          [3] 200 7).1 1).2
        (WalletReached.update 0 _ _ [3] 200 7
          (updateD (updateD (walletOfD [parentTx, foreignSpendTx, otherTx]) [2] 100 7).1
            [3] 200 7).2
          (WalletReached.update 0 _ _ [2] 100 7
            (updateD (walletOfD [parentTx, foreignSpendTx, otherTx]) [2] 100 7).2
            (walletOfD_reached _ (by decide))
            (eq_some_getD (LWWalletUpdateTransactions sampleEnv 0
              (walletOfD [parentTx, foreignSpendTx, otherTx]) [2] 100 7)
              (walletOfD [parentTx, foreignSpendTx, otherTx], []) (by decide)))
          (eq_some_getD (LWWalletUpdateTransactions sampleEnv 0
            (updateD (walletOfD [parentTx, foreignSpendTx, otherTx]) [2] 100 7).1 [3] 200 7)
            ((updateD (walletOfD [parentTx, foreignSpendTx, otherTx]) [2] 100 7).1, [])
            (by decide)))
        (eq_some_getD (LWWalletRemoveTransaction sampleEnv 0
          (updateD (updateD (walletOfD [parentTx, foreignSpendTx, otherTx]) [2] 100 7).1
            [3] 200 7).1 1)
          ((updateD (updateD (walletOfD [parentTx, foreignSpendTx, otherTx]) [2] 100 7).1
            [3] 200 7).1, []) (by decide)))
      (eq_some_getD (LWWalletUpdateTransactions sampleEnv 0 strandedWallet [2] TX_UNCONFIRMED 0)
        (strandedWallet, []) (by decide)),
    by decide,
    eq_some_getD (LWWalletUpdateTransactions sampleEnv 0 strandedWallet [2] TX_UNCONFIRMED 0)
      (strandedWallet, []) (by decide),
    by decide, by decide⟩

/-- C39 (amended): for every wallet created with no initial transactions and every sequence
of `LWWalletRegisterTransaction`, `LWWalletUpdateTransactions`, `LWWalletRemoveTransaction`
and `LWWalletSetTxUnconfirmedAfter` calls that return, in which every registered
transaction has a block height of at most `TX_UNCONFIRMED` and `LWWalletUpdateTransactions`
is called with a block height below `TX_UNCONFIRMED`, or with `TX_UNCONFIRMED` for hashes
whose listed transactions are unconfirmed already, the ordered list is sorted by
non-decreasing block height (unconfirmed transactions last) and no listed block height is
above `TX_UNCONFIRMED`. -/
theorem transactions_sorted (env : Env) (w : LWWallet) (h : HeightReached env w) :
    w.transactions.Pairwise (fun a b => a.blockHeight ≤ b.blockHeight) ∧
      ∀ t ∈ w.transactions, t.blockHeight ≤ TX_UNCONFIRMED := by
  have key : SortedByHeight w.transactions := by
    induction h with
    | new now w e =>
      rw [walletNew_empty env now w e]
      exact ⟨List.Pairwise.nil, fun t ht => by cases ht⟩
    | register now w w1 tx r events hr hb e ih =>
      exact register_sorted env now w w1 tx r events
        (reached_inv_wallet env w (heightReached_reached env w hr)) ih hb e
    | update now w w1 txHashes blockHeight timestamp events hr hb e ih =>
      exact update_sorted env now w w1 txHashes blockHeight timestamp events
        (reached_inv_wallet env w (heightReached_reached env w hr)) ih hb e
    | remove now w w1 txHash events hr e ih =>
      exact (removeDepth_sorted env now _ w txHash w1 events
        (reached_inv_wallet env w (heightReached_reached env w hr)) ih e).2
    | unconfirm now w w1 blockHeight events hr e ih =>
      exact unconfirmAfter_keeps_sorted env now w w1 blockHeight events
        (reached_inv_wallet env w (heightReached_reached env w hr)) ih e
  exact key

theorem heightReached_registerAll (env : Env) (now : Nat) :
    ∀ (l : List LWTransaction) (w w1 : LWWallet), HeightReached env w →
      (∀ t ∈ l, t.blockHeight ≤ TX_UNCONFIRMED) →
      registerAll env now w l = some w1 → HeightReached env w1 := by
  intro l
  induction l with
  | nil =>
    intro w w1 h _ e
    cases e
    exact h
  | cons tx rest ih =>
    intro w w1 h hl e
    rw [registerAll] at e
    split at e
    · cases e
    · next r w2 events hr =>
      exact ih w2 w1
        (HeightReached.register now w w2 tx r events h (hl tx (List.mem_cons_self _ _)) hr)
        (fun t ht => hl t (List.mem_cons_of_mem _ ht)) e

theorem heightReached_walletOf (l : List LWTransaction) (w : LWWallet)
    (hl : ∀ t ∈ l, t.blockHeight ≤ TX_UNCONFIRMED) (h : walletOf l = some w) :
    HeightReached sampleEnv w := by
  unfold walletOf freshWallet at h
  cases h0 : LWWalletNew sampleEnv 0 [] with
  | none => rw [h0] at h; cases h
  | some o =>
    cases o with
    | none => rw [h0] at h; cases h
    | some w0 =>
      rw [h0] at h
      exact heightReached_registerAll sampleEnv 0 l w0 w (HeightReached.new 0 w0 h0) hl h

theorem heightReached_walletOfD (l : List LWTransaction)
    (hl : ∀ t ∈ l, t.blockHeight ≤ TX_UNCONFIRMED) (h : (walletOf l).isSome = true) :
    HeightReached sampleEnv (walletOfD l) :=
  heightReached_walletOf l _ hl (eq_some_getD _ _ h)

theorem reorganisedWallet_reached : HeightReached sampleEnv reorganisedWallet :=
  HeightReached.unconfirm 0 (updateD (walletOfD [parentTx, childTx]) [1] 100 7).1 _ 50
    (unconfirmD (updateD (walletOfD [parentTx, childTx]) [1] 100 7).1 50).2
    (HeightReached.update 0 (walletOfD [parentTx, childTx]) _ [1] 100 7
      (updateD (walletOfD [parentTx, childTx]) [1] 100 7).2
      (heightReached_walletOfD _ (by decide) (by decide)) (Or.inl (by decide))
      (eq_some_getD (LWWalletUpdateTransactions sampleEnv 0 (walletOfD [parentTx, childTx])
        [1] 100 7) (walletOfD [parentTx, childTx], []) (by decide)))
    (eq_some_getD (LWWalletSetTxUnconfirmedAfter sampleEnv 0
      (updateD (walletOfD [parentTx, childTx]) [1] 100 7).1 50)
      ((updateD (walletOfD [parentTx, childTx]) [1] 100 7).1, []) (by decide))

/-- C39 at a concrete input: the wallet after two registrations, an update to the block
height 100 and `LWWalletSetTxUnconfirmedAfter(50)`. -/
theorem transactions_sorted_witness :
    HeightReached sampleEnv reorganisedWallet ∧
      reorganisedWallet.transactions.Pairwise (fun a b => a.blockHeight ≤ b.blockHeight) ∧
      ∀ t ∈ reorganisedWallet.transactions, t.blockHeight ≤ TX_UNCONFIRMED :=
  ⟨reorganisedWallet_reached,
    transactions_sorted sampleEnv reorganisedWallet reorganisedWallet_reached⟩

/-! ### Wallet: the restart of the transaction builder with a single output -/

theorem createTx_nil (env : Env) (depth : Nat) (w : LWWallet) :
    LWWalletCreateTxForOutputs env depth w [] = none := by
  cases depth with
  | zero => rfl
  | succ d =>
    rw [LWWalletCreateTxForOutputs]
    simp

/-- C40 (the code at the failing inputs): a call of `LWWalletCreateTxForOutputs` with a
single output (`outCount` 1), in a wallet whose first outpoint refers to an output of
`allTx`, where the transaction with that first input and room for a change output exceeds
`TX_MAX_SIZE`, the wallet balance covers the amount and the estimated fee, and the amount of
the output is not above `amount + feeAmount + minAmount - balance` (with `balance` 0, no
input added yet).  The size-restart path makes the nested call with the outputs of the call
without the last one, that is with no output (`outCount - 1 = 0`), whose entry assertion
`outCount > 0` fails; so the call has no result. -/
theorem createTx_restart_without_outputs (env : Env) (w : LWWallet) (o : LWTxOutput)
    (u : LWUTXO) (rest : List LWUTXO) (tx : LWTransaction) (out : LWTxOutput)
    (hu : w.utxos = u :: rest) (hg : txGet w.allTx u.hash = some tx)
    (ho : tx.outputs[u.n]? = some out) (hs : o.script.length ≠ 0)
    (hsize : sizeT (env.LWTransactionSize
      (LWTransactionAddInput (LWTransactionAddOutput env LWTransactionNew o.amount o.script)
        tx.txHash u.n out.amount out.script env.TXIN_SEQUENCE) + env.TX_OUTPUT_SIZE) >
      env.TX_MAX_SIZE)
    (hbal : ¬ w.balance < add64 (add64 0 o.amount) (_txFee env.TX_FEE_PER_KB w.feePerKb
      (sizeT (10 + w.utxos.length * env.TX_INPUT_SIZE + (1 + 1) * env.TX_OUTPUT_SIZE + 0))))
    (hlast : ¬ o.amount > sub64 (add64 (add64 (add64 0 o.amount)
      (_txFee env.TX_FEE_PER_KB w.feePerKb (sizeT (env.LWTransactionSize
        (LWTransactionAddOutput env LWTransactionNew o.amount o.script) + env.TX_OUTPUT_SIZE))))
      (LWWalletMinOutputAmount env w)) 0) :
    (∀ rec : LWWallet → List LWTxOutput → Option (Option LWTransaction × LWWallet),
      selectLoop env rec w [o] (LWWalletMinOutputAmount env w) w.utxos.length w.utxos
        (LWTransactionAddOutput env LWTransactionNew o.amount o.script)
        (_txFee env.TX_FEE_PER_KB w.feePerKb (sizeT (env.LWTransactionSize
          (LWTransactionAddOutput env LWTransactionNew o.amount o.script) + env.TX_OUTPUT_SIZE)))
        (add64 0 o.amount) 0 =
      (rec w []).map (fun r => (⟨r.1, 0, 0, 0, r.2⟩ : Selection))) ∧
    (∀ depth, LWWalletCreateTxForOutputs env depth w [] = none) ∧
    ∀ depth, LWWalletCreateTxForOutputs env depth w [o] = none := by
  have key : ∀ rec : LWWallet → List LWTxOutput → Option (Option LWTransaction × LWWallet),
      selectLoop env rec w [o] (LWWalletMinOutputAmount env w) w.utxos.length w.utxos
        (LWTransactionAddOutput env LWTransactionNew o.amount o.script)
        (_txFee env.TX_FEE_PER_KB w.feePerKb (sizeT (env.LWTransactionSize
          (LWTransactionAddOutput env LWTransactionNew o.amount o.script) + env.TX_OUTPUT_SIZE)))
        (add64 0 o.amount) 0 =
      (rec w []).map (fun r => (⟨r.1, 0, 0, 0, r.2⟩ : Selection)) := by
    intro rec
    conv_lhs => arg 7; rw [hu]
    rw [selectLoop]
    simp only [hg, ho]
    rw [if_pos hsize]
    simp only [List.length_singleton, List.getLast?_singleton, Option.getD_some,
      List.dropLast_single]
    rw [if_neg hbal, if_neg hlast]
    cases rec w [] with
    | none => rfl
    | some r => rfl
  refine ⟨key, fun depth => createTx_nil env depth w, ?_⟩
  intro depth
  cases depth with
  | zero => rfl
  | succ d =>
    rw [LWWalletCreateTxForOutputs]
    have hany : ([o].any (fun o => o.script.length == 0)) = false := by
      simp [hs]
    rw [if_neg (by simp [hany])]
    simp only [List.foldl_cons, List.foldl_nil]
    rw [key, createTx_nil]
    rfl

theorem reached_of_new_registerAll (env : Env) (l : List LWTransaction) (w : LWWallet)
    (e : (LWWalletNew env 0 []).join.bind (fun w0 => registerAll env 0 w0 l) = some w) :
    WalletReached env w := by
  cases h0 : LWWalletNew env 0 [] with
  | none => rw [h0] at e; cases e
  | some o =>
    cases o with
    | none => rw [h0] at e; cases e
    | some w0 =>
      rw [h0] at e
      exact reached_registerAll env 0 l w0 w (WalletReached.new 0 [] w0 h0) e

theorem largeCoinWallet_reached : WalletReached scriptEnv largeCoinWallet :=
  reached_of_new_registerAll scriptEnv _ _ (eq_some_getD _ _ (by decide))

theorem largeScript_length : largeScriptOutput.script.length = 100000 :=
  List.length_replicate _ _

theorem scriptSize_first_input (s : List Nat) (h : s.length = 100000) (a h1 n1 a1 : Nat)
    (s1 : List Nat) :
    sizeT (scriptEnv.LWTransactionSize
      (LWTransactionAddInput (LWTransactionAddOutput scriptEnv LWTransactionNew a s)
        h1 n1 a1 s1 scriptEnv.TXIN_SEQUENCE) + scriptEnv.TX_OUTPUT_SIZE) >
      scriptEnv.TX_MAX_SIZE := by
  simp [scriptEnv, scriptSize, sampleEnv, LWTransactionAddInput, LWTransactionAddOutput,
    LWTransactionNew, LWVarIntSize, sizeT, h]

theorem scriptSize_fee (s : List Nat) (h : s.length = 100000) (a : Nat) :
    _txFee scriptEnv.TX_FEE_PER_KB 10000 (sizeT (scriptEnv.LWTransactionSize
      (LWTransactionAddOutput scriptEnv LWTransactionNew a s) + scriptEnv.TX_OUTPUT_SIZE)) =
      1000600 := by
  simp [scriptEnv, scriptSize, sampleEnv, LWTransactionAddOutput, LWTransactionNew,
    LWVarIntSize, sizeT, h, _txFee]

theorem largeScript_fee :
    _txFee scriptEnv.TX_FEE_PER_KB largeCoinWallet.feePerKb (sizeT (scriptEnv.LWTransactionSize
      (LWTransactionAddOutput scriptEnv LWTransactionNew largeScriptOutput.amount
        largeScriptOutput.script) + scriptEnv.TX_OUTPUT_SIZE)) = 1000600 := by
  have hf : largeCoinWallet.feePerKb = 10000 := by decide
  rw [hf]
  exact scriptSize_fee largeScriptOutput.script largeScript_length largeScriptOutput.amount

/-- C40 at a concrete input: the wallet with one coin of 100000000 and a request of 50000
to a script of 100000 bytes, with `LWTransactionSize` counting the script bytes. -/
theorem createTx_restart_without_outputs_witness :
    WalletReached scriptEnv largeCoinWallet ∧
    (∀ rec : LWWallet → List LWTxOutput → Option (Option LWTransaction × LWWallet),
      selectLoop scriptEnv rec largeCoinWallet [largeScriptOutput]
        (LWWalletMinOutputAmount scriptEnv largeCoinWallet) largeCoinWallet.utxos.length
        largeCoinWallet.utxos
        (LWTransactionAddOutput scriptEnv LWTransactionNew largeScriptOutput.amount
          largeScriptOutput.script)
        (_txFee scriptEnv.TX_FEE_PER_KB largeCoinWallet.feePerKb
          (sizeT (scriptEnv.LWTransactionSize
            (LWTransactionAddOutput scriptEnv LWTransactionNew largeScriptOutput.amount
              largeScriptOutput.script) + scriptEnv.TX_OUTPUT_SIZE)))
        (add64 0 largeScriptOutput.amount) 0 =
      (rec largeCoinWallet []).map (fun r => (⟨r.1, 0, 0, 0, r.2⟩ : Selection))) ∧
    (∀ depth, LWWalletCreateTxForOutputs scriptEnv depth largeCoinWallet [] = none) ∧
    ∀ depth, LWWalletCreateTxForOutputs scriptEnv depth largeCoinWallet [largeScriptOutput] =
      none :=
  ⟨largeCoinWallet_reached,
    createTx_restart_without_outputs scriptEnv largeCoinWallet largeScriptOutput ⟨1, 0⟩ []
      (confirmedAt (sampleTx 1 8 0 UINT32_MAX "e" 100000000) 100)
      ⟨"e", 100000000, [1]⟩ (by decide) (by decide) (by decide)
      (by rw [largeScript_length]; decide)
      (scriptSize_first_input _ largeScript_length _ _ _ _ _)
      (by decide)
      (by rw [largeScript_fee]; decide)⟩

/-! ### Payment protocol: varints -/

theorem and_7f (a : Nat) : a &&& 0x7f = a % 128 :=
  Nat.and_pow_two_sub_one_eq_mod a 7

theorem and_07 (a : Nat) : a &&& 0x07 = a % 8 :=
  Nat.and_pow_two_sub_one_eq_mod a 3

theorem shiftRight_7 (a : Nat) : a >>> 7 = a / 128 := Nat.shiftRight_eq_div_pow a 7

theorem shiftRight_3 (a : Nat) : a >>> 3 = a / 8 := Nat.shiftRight_eq_div_pow a 3

theorem byte_bits : ∀ a, a < 128 → (a ||| 0x80 = a + 128 ∧ (a + 128) &&& 0x80 ≠ 0 ∧
    a &&& 0x80 = 0 ∧ (a + 128) % 128 = a ∧ a % 128 = a) := by
  decide

theorem varIntGroups_pos : ∀ n i, 0 < (varIntGroups (n + 1) i).length := by
  intro n i
  rw [varIntGroups]
  split <;> simp

theorem varIntGroups_le : ∀ n i, (varIntGroups n i).length ≤ n := by
  intro n
  induction n with
  | zero => intro i; simp [varIntGroups]
  | succ n ih =>
    intro i
    rw [varIntGroups]
    split
    · simp
    · simp only [List.length_cons]
      have := ih (i / 128)
      omega

theorem varIntBytes_le (i : Nat) : (varIntBytes i).length ≤ 10 := varIntGroups_le 10 _

theorem varIntBytes_pos (i : Nat) : 0 < (varIntBytes i).length := varIntGroups_pos 9 _

theorem varIntBytes_mod (i : Nat) : varIntBytes (i % 2 ^ 64) = varIntBytes i := by
  unfold varIntBytes
  rw [Nat.mod_mod]

theorem varIntGroups_lt : ∀ n i, ∀ x ∈ varIntGroups n i, x < 256 := by
  intro n
  induction n with
  | zero => intro i x hx; simp [varIntGroups] at hx
  | succ n ih =>
    intro i x hx
    rw [varIntGroups] at hx
    split at hx
    · simp only [List.mem_singleton] at hx
      omega
    · rcases List.mem_cons.1 hx with h | h
      · omega
      · exact ih _ x h

theorem storeByte_some (l : List Nat) (off b : Nat) (h : off + 1 < 2 ^ 64) :
    storeByte (some l) off b =
      some (some (if off + 1 ≤ l.length then l.set off b else l)) := by
  have hs : sizeT (off + 1) = off + 1 := Nat.mod_eq_of_lt h
  simp only [storeByte, hs]
  by_cases hl : off + 1 ≤ l.length
  · rw [if_pos hl, if_pos (by omega), if_pos hl]
  · rw [if_neg hl, if_neg hl]

theorem set_eq_take_append (l : List Nat) (off b : Nat) (h : off + 1 ≤ l.length) :
    l.set off b = l.take off ++ [b] ++ l.drop (off + 1) := by
  apply List.ext_getElem
  · simp
    omega
  · intro n h1 h2
    rw [List.getElem_set]
    by_cases hn : off = n
    · subst hn
      rw [if_pos rfl, List.getElem_append_left (by simp; omega),
        List.getElem_append_right (by simp)]
      simp
    · rw [if_neg hn]
      by_cases hlt : n < off
      · rw [List.getElem_append_left (by simp; omega), List.getElem_append_left (by simp; omega)]
        simp
      · rw [List.getElem_append_right (by simp; omega)]
        simp only [List.length_append, List.length_take, List.length_singleton,
          List.getElem_drop]
        congr 1
        omega

theorem patch_step (l : List Nat) (off x : Nat) (bs : List Nat)
    (hfit : off + (1 + bs.length) ≤ l.length) :
    (l.take off ++ [x] ++ l.drop (off + 1)).take (off + 1) ++ bs ++
      (l.take off ++ [x] ++ l.drop (off + 1)).drop (off + 1 + bs.length) =
    l.take off ++ x :: bs ++ l.drop (off + (1 + bs.length)) := by
  have hl : (l.take off ++ [x]).length = off + 1 := by simp; omega
  have ht : (l.take off ++ [x] ++ l.drop (off + 1)).take (off + 1) = l.take off ++ [x] := by
    rw [List.take_append_of_le_length (by rw [hl])]
    rw [List.take_of_length_le (by rw [hl])]
  have hd : (l.take off ++ [x] ++ l.drop (off + 1)).drop (off + 1 + bs.length) =
      l.drop (off + (1 + bs.length)) := by
    rw [List.drop_append_eq_append_drop, hl, List.drop_of_length_le (by rw [hl]; omega),
      List.nil_append, List.drop_drop]
    congr 1
    omega
  rw [ht, hd]
  simp [List.append_assoc]

theorem setVarIntLoop_spec : ∀ (n i : Nat), i < 128 ^ n → 0 < n →
    ∀ (buf : Option (List Nat)) (off : Nat), off + (varIntGroups n i).length < 2 ^ 64 →
      Wrote buf off (varIntGroups n i) (setVarIntLoop n buf i off) := by
  intro n
  induction n with
  | zero => intro i _ h; omega
  | succ n ih =>
    intro i hi _ buf off hoff
    rw [setVarIntLoop]
    simp only [and_7f, shiftRight_7]
    have hm : i % 128 < 128 := Nat.mod_lt _ (by omega)
    obtain ⟨b1, b2, b3, b4, b5⟩ := byte_bits (i % 128) hm
    rw [varIntGroups] at hoff ⊢
    by_cases hz : i / 128 = 0
    · rw [if_pos hz] at hoff ⊢
      simp only [hz, Nat.lt_irrefl, if_false, List.length_singleton] at hoff ⊢
      have hs : sizeT (off + 1) = off + 1 := Nat.mod_eq_of_lt hoff
      cases buf with
      | none =>
        refine ⟨none, ?_, fun _ => rfl, (fun l h => nomatch h)⟩
        simp [storeByte, hs]
      | some l =>
        rw [storeByte_some l off _ hoff]
        refine ⟨_, by rw [hs]; rfl, (fun h => nomatch h), ?_⟩
        intro l1 h1
        cases h1
        refine ⟨_, rfl, ?_, ?_⟩
        · split <;> simp
        · intro hfit
          have hfit1 : off + 1 ≤ l.length := hfit
          rw [if_pos hfit1]
          exact set_eq_take_append l off _ hfit1
    · rw [if_neg hz] at hoff ⊢
      have hpos : i / 128 > 0 := Nat.pos_of_ne_zero hz
      simp only [hpos, if_true, List.length_cons] at hoff ⊢
      have hn : 0 < n := by
        rcases Nat.eq_zero_or_pos n with h0 | h0
        · subst h0
          simp only [Nat.zero_add, pow_one] at hi
          have : i / 128 = 0 := Nat.div_eq_of_lt hi
          omega
        · exact h0
      have hi1 : i / 128 < 128 ^ n := by
        rw [Nat.div_lt_iff_lt_mul (by omega)]
        rw [pow_succ] at hi
        exact hi
      have hs : sizeT (off + 1) = off + 1 := Nat.mod_eq_of_lt (by omega)
      rw [b1, hs]
      have hadd : off + 1 + (varIntGroups n (i / 128)).length =
          off + ((varIntGroups n (i / 128)).length + 1) := by omega
      cases buf with
      | none =>
        obtain ⟨buf1, e1, e2, _⟩ := ih (i / 128) hi1 hn none (off + 1) (by omega)
        refine ⟨buf1, ?_, e2, (fun l h => nomatch h)⟩
        simp only [storeByte]
        rw [e1, hadd]
        rfl
      | some l =>
        rw [storeByte_some l off _ (by omega)]
        obtain ⟨buf1, e1, _, e3⟩ := ih (i / 128) hi1 hn
          (some (if off + 1 ≤ l.length then l.set off (i % 128 + 128) else l)) (off + 1) (by omega)
        refine ⟨buf1, ?_, (fun h => nomatch h), ?_⟩
        · simp only
          rw [e1, hadd]
          rfl
        · intro l0 h0
          cases h0
          obtain ⟨l1, f1, f2, f3⟩ := e3 _ rfl
          refine ⟨l1, f1, ?_, ?_⟩
          · rw [f2]
            split <;> simp
          · intro hfit
            simp only [List.length_cons] at hfit
            have hfit1 : off + 1 ≤ l.length := by omega
            rw [f3 (by rw [if_pos hfit1, List.length_set]; omega), if_pos hfit1,
              set_eq_take_append l off _ hfit1]
            have hp := patch_step l off (i % 128 + 128) (varIntGroups n (i / 128)) (by omega)
            rw [hp, List.length_cons, Nat.add_comm 1]

theorem setVarInt_writes (i : Nat) :
    Writes (fun buf off => _ProtoBufSetVarInt buf i off) (varIntBytes i) := by
  intro buf off h
  unfold _ProtoBufSetVarInt
  exact setVarIntLoop_spec 10 (i % 2 ^ 64)
    (lt_of_lt_of_le (Nat.mod_lt _ (by norm_num)) (by norm_num)) (by norm_num) buf off h

/-! ### Payment protocol: what the writers put into a buffer -/

theorem Wrote.append {buf : Option (List Nat)} {off : Nat} {a b : List Nat}
    {buf1 : Option (List Nat)} {r : Option (Option (List Nat) × Nat)}
    (h1 : Wrote buf off a (some (buf1, off + a.length)))
    (h2 : Wrote buf1 (off + a.length) b r) : Wrote buf off (a ++ b) r := by
  obtain ⟨c1, e1, n1, l1⟩ := h1
  obtain ⟨c2, e2, n2, l2⟩ := h2
  cases e1
  refine ⟨c2, ?_, fun h => n2 (n1 h), ?_⟩
  · rw [e2, List.length_append, Nat.add_assoc]
  · intro l hl
    obtain ⟨m1, f1, f2, f3⟩ := l1 l hl
    obtain ⟨m2, g1, g2, g3⟩ := l2 m1 f1
    refine ⟨m2, g1, by rw [g2, f2], ?_⟩
    intro hfit
    rw [List.length_append] at hfit
    have hm1 := f3 (by omega)
    rw [g3 (by rw [f2]; omega), hm1]
    have hl1 : (l.take off ++ a).length = off + a.length := by simp; omega
    have ht : (l.take off ++ a ++ l.drop (off + a.length)).take (off + a.length) =
        l.take off ++ a := by
      rw [List.take_append_of_le_length (by rw [hl1])]
      rw [List.take_of_length_le (by rw [hl1])]
    have hd : (l.take off ++ a ++ l.drop (off + a.length)).drop (off + a.length + b.length) =
        l.drop (off + (a.length + b.length)) := by
      rw [List.drop_append_eq_append_drop, hl1, List.drop_of_length_le (by rw [hl1]; omega),
        List.nil_append, List.drop_drop]
      congr 1
      omega
    rw [ht, hd, List.length_append]
    simp [List.append_assoc]

theorem Wrote.nil (buf : Option (List Nat)) (off : Nat) : Wrote buf off [] (some (buf, off)) := by
  refine ⟨buf, rfl, fun h => h, ?_⟩
  intro l hl
  refine ⟨l, hl, rfl, ?_⟩
  intro _
  simp

theorem Wrote.some_eq {buf : Option (List Nat)} {off : Nat} {a : List Nat}
    {r : Option (Option (List Nat) × Nat)} (h : Wrote buf off a r) :
    ∃ buf1, r = some (buf1, off + a.length) ∧ Wrote buf off a (some (buf1, off + a.length)) := by
  obtain ⟨c, e, n, l⟩ := h
  exact ⟨c, e, c, rfl, n, l⟩

theorem key_or (key w : Nat) (hk : key < 2 ^ 61) (hw : w < 8) :
    ((key <<< 3) % 2 ^ 64) ||| w = key * 8 + w := by
  rw [Nat.shiftLeft_eq, Nat.mod_eq_of_lt (by omega)]
  have := Nat.mul_add_lt_is_or (i := 3) (b := w) (by omega) key
  rw [Nat.mul_comm] at this
  exact this.symm

theorem setLenDelim_writes (d : List Nat) (dataLen : Nat) (h : dataLen ≤ d.length)
    (h64 : dataLen < 2 ^ 64) :
    Writes (fun buf off => _ProtoBufSetLenDelim buf (some d) dataLen off)
      (varIntBytes dataLen ++ d.take dataLen) := by
  intro buf off hoff
  dsimp only
  rw [List.length_append, List.length_take, Nat.min_eq_left h] at hoff
  unfold _ProtoBufSetLenDelim
  rw [if_pos (show (some d).isSome = true ∨ dataLen = 0 from Or.inl rfl)]
  have w1 := setVarInt_writes dataLen buf off (by omega)
  obtain ⟨buf1, e1, w1'⟩ := w1.some_eq
  dsimp only at e1
  rw [e1]
  refine Wrote.append w1' ?_
  have hs : sizeT (off + (varIntBytes dataLen).length + dataLen) =
      off + (varIntBytes dataLen).length + dataLen := Nat.mod_eq_of_lt (by omega)
  have hlen : (d.take dataLen).length = dataLen := by rw [List.length_take, Nat.min_eq_left h]
  cases buf1 with
  | none =>
    simp only [hs]
    refine ⟨none, by rw [hlen], fun _ => rfl, (fun l h => nomatch h)⟩
  | some l =>
    simp only [hs, Option.getD_some]
    by_cases hfit : off + (varIntBytes dataLen).length + dataLen ≤ l.length
    · rw [if_pos hfit, if_neg (by omega)]
      refine ⟨_, by rw [hlen], (fun h => nomatch h), ?_⟩
      intro l0 h0
      cases h0
      refine ⟨_, rfl, ?_, ?_⟩
      · simp only [List.length_append, List.length_take, List.length_drop]
        omega
      · intro _
        rw [hlen]
    · rw [if_neg hfit]
      refine ⟨_, by rw [hlen], (fun h => nomatch h), ?_⟩
      intro l0 h0
      cases h0
      refine ⟨_, rfl, rfl, ?_⟩
      intro hf
      rw [hlen] at hf
      omega

theorem setLenDelim_null_writes :
    Writes (fun buf off => _ProtoBufSetLenDelim buf none 0 off) (varIntBytes 0) := by
  intro buf off hoff
  dsimp only
  unfold _ProtoBufSetLenDelim
  rw [if_pos (Or.inr rfl)]
  have w1 := setVarInt_writes 0 buf off hoff
  obtain ⟨buf1, e1, w1'⟩ := w1.some_eq
  dsimp only at e1
  rw [e1]
  have hs : sizeT (off + (varIntBytes 0).length) = off + (varIntBytes 0).length :=
    Nat.mod_eq_of_lt (by omega)
  cases buf1 with
  | none =>
    simp only [Nat.add_zero, hs]
    exact w1'
  | some l =>
    simp only [Option.getD_none, List.length_nil, Nat.add_zero, List.take_nil,
      List.append_nil, hs]
    by_cases hfit : off + (varIntBytes 0).length ≤ l.length
    · rw [if_pos hfit, if_neg (by omega)]
      have : l.take (off + (varIntBytes 0).length) ++ l.drop (off + (varIntBytes 0).length) = l :=
        List.take_append_drop _ _
      rw [this]
      exact w1'
    · rw [if_neg hfit]
      exact w1'

theorem fieldBytes_varint (key i : Nat) (d : List Nat) (h : key % 8 = 0) :
    fieldBytes key i d = varIntBytes key ++ varIntBytes i := by
  unfold fieldBytes
  rw [if_pos h]

theorem fieldBytes_lendelim (key i : Nat) (d : List Nat) (h : key % 8 = 2) :
    fieldBytes key i d = varIntBytes key ++ (varIntBytes d.length ++ d) := by
  unfold fieldBytes
  rw [if_neg (by omega), if_neg (by omega), if_pos h]

theorem setInt_writes (i key : Nat) (hk : key < 2 ^ 61) :
    Writes (fun buf off => _ProtoBufSetInt buf i key off) (fieldBytes (key * 8) i []) := by
  intro buf off hoff
  dsimp only
  rw [fieldBytes_varint _ _ _ (by omega)] at hoff ⊢
  rw [List.length_append] at hoff
  unfold _ProtoBufSetInt
  have hkk : key * 8 + PROTOBUF_VARINT = key * 8 := rfl
  rw [key_or key PROTOBUF_VARINT hk (by decide), hkk]
  have w1 := setVarInt_writes (key * 8) buf off (by omega)
  obtain ⟨buf1, e1, w1'⟩ := w1.some_eq
  dsimp only at e1
  rw [e1]
  exact Wrote.append w1' (setVarInt_writes i buf1 _ (by omega))

theorem setBytes_writes (d : List Nat) (bytesLen key : Nat) (hk : key < 2 ^ 61)
    (h : bytesLen ≤ d.length) :
    Writes (fun buf off => _ProtoBufSetBytes buf (some d) bytesLen key off)
      (fieldBytes (key * 8 + 2) 0 (d.take bytesLen)) := by
  intro buf off hoff
  dsimp only
  have hl : (d.take bytesLen).length = bytesLen := by rw [List.length_take, Nat.min_eq_left h]
  rw [fieldBytes_lendelim _ _ _ (by omega), hl] at hoff ⊢
  rw [List.length_append, List.length_append, hl] at hoff
  unfold _ProtoBufSetBytes
  have hkk : key * 8 + PROTOBUF_LENDELIM = key * 8 + 2 := rfl
  rw [key_or key PROTOBUF_LENDELIM hk (by decide), hkk]
  have w1 := setVarInt_writes (key * 8 + 2) buf off (by omega)
  obtain ⟨buf1, e1, w1'⟩ := w1.some_eq
  dsimp only at e1
  rw [e1]
  exact Wrote.append w1' (setLenDelim_writes d bytesLen h (by omega) buf1 _ (by
    rw [List.length_append, hl]; omega))

theorem take_strlen (s : List Nat) : s.take (strlen s) = cstr s := by
  unfold strlen cstr
  induction s with
  | nil => rfl
  | cons a rest ih =>
    rw [List.takeWhile_cons]
    split
    · simp only [List.length_cons, List.take_succ_cons, ih]
    · simp

theorem strlen_le (s : List Nat) : strlen s ≤ s.length := by
  unfold strlen
  exact (List.takeWhile_sublist _).length_le

theorem setString_writes (str : Option (List Nat)) (key : Nat) (hk : key < 2 ^ 61) :
    Writes (fun buf off => _ProtoBufSetString buf str key off)
      (fieldBytes (key * 8 + 2) 0 (cstr (str.getD []))) := by
  intro buf off hoff
  dsimp only
  rw [fieldBytes_lendelim _ _ _ (by omega)] at hoff ⊢
  rw [List.length_append, List.length_append] at hoff
  unfold _ProtoBufSetString
  have hkk : key * 8 + PROTOBUF_LENDELIM = key * 8 + 2 := rfl
  rw [key_or key PROTOBUF_LENDELIM hk (by decide), hkk]
  have w1 := setVarInt_writes (key * 8 + 2) buf off (by omega)
  obtain ⟨buf1, e1, w1'⟩ := w1.some_eq
  dsimp only at e1
  rw [e1]
  refine Wrote.append w1' ?_
  cases str with
  | none =>
    have hc : cstr ((none : Option (List Nat)).getD []) = [] := rfl
    rw [hc] at hoff ⊢
    simp only [List.length_nil, List.append_nil, Nat.add_zero] at hoff ⊢
    exact setLenDelim_null_writes buf1 _ (by omega)
  | some s =>
    simp only [Option.getD_some] at hoff ⊢
    have hl : (cstr s).length = strlen s := rfl
    have hle := strlen_le s
    rw [hl] at hoff ⊢
    rw [← take_strlen]
    refine setLenDelim_writes s (strlen s) hle (by omega) buf1 _ ?_
    rw [List.length_append, take_strlen, hl]
    omega

theorem part_writes {f : Option (List Nat) → Nat → Option (Option (List Nat) × Nat)}
    {bs : List Nat} (c : Bool) (h : Writes f bs) :
    Writes (fun buf off => if c then f buf off else some (buf, off)) (part c bs) := by
  intro buf off hoff
  dsimp only
  cases c with
  | true => exact h buf off hoff
  | false => exact Wrote.nil buf off

theorem sizeQuery_of_writes {f : Option (List Nat) → Nat → Option (Option (List Nat) × Nat)}
    {a : List Nat} (h : Writes f a) (u : Option (List Nat))
    (h64 : (a ++ u.getD []).length < 2 ^ 64) :
    SizeQuery (fun buf => match f buf 0 with
      | none => none
      | some (buf1, off1) => serializeUnknown u buf1 off1) (a ++ u.getD []) := by
  rw [List.length_append] at h64
  have hs : sizeT (0 + a.length + (u.getD []).length) = a.length + (u.getD []).length := by
    rw [Nat.zero_add]
    exact Nat.mod_eq_of_lt h64
  refine ⟨?_, ?_⟩
  · obtain ⟨buf1, e1, n1, _⟩ := h none 0 (by omega)
    simp only [e1, n1 rfl, serializeUnknown, hs, List.length_append]
  · intro l
    obtain ⟨buf1, e1, _, l1⟩ := h (some l) 0 (by omega)
    obtain ⟨m, f1, f2, f3⟩ := l1 l rfl
    subst f1
    simp only [e1, serializeUnknown, hs, List.length_append, f2]
    refine ⟨?_, ?_⟩
    · intro hfit
      have hm := f3 (by omega)
      simp only [Nat.zero_add, List.take_zero, List.nil_append] at hm
      rw [if_pos hfit, if_neg (by omega)]
      simp only [Nat.zero_add]
      rw [hm, List.take_left, List.drop_append, List.drop_drop]
    · intro hshort
      rw [if_neg (by omega)]
      exact ⟨m, rfl, f2⟩

/-! ### Payment protocol: the serializers -/

theorem Writes.seq {f g : Option (List Nat) → Nat → Option (Option (List Nat) × Nat)}
    {a b : List Nat} (hf : Writes f a) (hg : Writes g b) : Writes (seqW f g) (a ++ b) := by
  intro buf off hoff
  rw [List.length_append] at hoff
  obtain ⟨buf1, e1, w1⟩ := (hf buf off (by omega)).some_eq
  unfold seqW
  simp only [e1]
  exact Wrote.append w1 (hg buf1 _ (by omega))

theorem Writes.when {f : Option (List Nat) → Nat → Option (Option (List Nat) × Nat)}
    {bs : List Nat} (c : Bool) (h : c = true → Writes f bs) : Writes (whenW c f) (part c bs) := by
  intro buf off hoff
  cases c with
  | true => exact h rfl buf off hoff
  | false => exact Wrote.nil buf off

theorem fieldBytes_length_le (key i : Nat) (d : List Nat) (h : key % 8 = 2) :
    d.length ≤ (fieldBytes key i d).length := by
  rw [fieldBytes_lendelim _ _ _ h]
  simp only [List.length_append]
  omega

theorem part_length_le (c : Bool) (bs : List Nat) : (part c bs).length ≤ bs.length := by
  cases c <;> simp [part]

theorem outputSerialize_eq (o : ProtoBufOutput) (buf : Option (List Nat)) :
    _LWPaymentProtocolOutputSerialize o buf =
      match seqW (whenW (!o.defaultAmount) (fun b off => _ProtoBufSetInt b o.amount output_amount off))
          (whenW (!o.defaultScript) (fun b off =>
            _ProtoBufSetBytes b (some o.script) o.script.length output_script off)) buf 0 with
      | none => none
      | some (buf1, off1) => serializeUnknown o.unknown buf1 off1 := by
  unfold _LWPaymentProtocolOutputSerialize seqW whenW
  cases o.defaultAmount <;> cases o.defaultScript <;> simp only [Bool.not_true, Bool.not_false,
    if_true, if_false, Bool.false_eq_true] <;>
  first
    | rfl
    | (cases _ProtoBufSetInt buf o.amount output_amount 0 with
       | none => rfl
       | some p => rfl)

theorem outputSerialize_sizeQuery (o : ProtoBufOutput) (h : (outputBytes o).length < 2 ^ 64) :
    SizeQuery (_LWPaymentProtocolOutputSerialize o) (outputBytes o) := by
  have hw : Writes (seqW (whenW (!o.defaultAmount)
        (fun b off => _ProtoBufSetInt b o.amount output_amount off))
      (whenW (!o.defaultScript) (fun b off =>
        _ProtoBufSetBytes b (some o.script) o.script.length output_script off)))
      (part (!o.defaultAmount) (fieldBytes 8 o.amount []) ++
        part (!o.defaultScript) (fieldBytes 18 0 o.script)) := by
    refine Writes.seq (Writes.when _ (fun _ => setInt_writes o.amount 1 (by norm_num)))
      (Writes.when _ (fun _ => ?_))
    have := setBytes_writes o.script o.script.length 2 (by norm_num) (Nat.le_refl _)
    rw [List.take_of_length_le (Nat.le_refl _)] at this
    exact this
  have := sizeQuery_of_writes hw o.unknown h
  have e : _LWPaymentProtocolOutputSerialize o = fun buf =>
      match seqW (whenW (!o.defaultAmount) (fun b off => _ProtoBufSetInt b o.amount output_amount off))
          (whenW (!o.defaultScript) (fun b off =>
            _ProtoBufSetBytes b (some o.script) o.script.length output_script off)) buf 0 with
      | none => none
      | some (buf1, off1) => serializeUnknown o.unknown buf1 off1 :=
    funext (outputSerialize_eq o)
  rw [e]
  exact this

theorem flatten_length_le {l : List (List Nat)} {x : List Nat} (h : x ∈ l) :
    x.length ≤ l.flatten.length := by
  induction l with
  | nil => cases h
  | cons a rest ih =>
    simp only [List.flatten_cons, List.length_append]
    rcases List.mem_cons.1 h with e | e
    · rw [e]; omega
    · have := ih e
      omega

theorem detailsOutputs_writes : ∀ (outputs : List ProtoBufOutput) (outBuf : List Nat),
    Writes (fun buf off => detailsOutputs outputs outBuf buf off)
      (outputs.map (fun o => fieldBytes 18 0 (outputBytes o))).flatten := by
  intro outputs
  induction outputs with
  | nil =>
    intro outBuf buf off _
    exact Wrote.nil buf off
  | cons o rest ih =>
    intro outBuf buf off hoff
    dsimp only
    simp only [List.map_cons, List.flatten_cons, List.length_append] at hoff ⊢
    have hfl := fieldBytes_length_le 18 0 (outputBytes o) (by norm_num)
    have ho : (outputBytes o).length < 2 ^ 64 := by omega
    obtain ⟨q1, q2⟩ := outputSerialize_sizeQuery o ho
    rw [detailsOutputs]
    simp only [q1]
    have hfit : (outputBytes o).length ≤
        (if (outputBytes o).length > outBuf.length then
          outBuf ++ List.replicate ((outputBytes o).length - outBuf.length) 0
        else outBuf).length := by
      split
      · simp only [List.length_append, List.length_replicate]
        omega
      · omega
    rw [(q2 _).1 hfit]
    simp only [Option.getD_some]
    have w := setBytes_writes (outputBytes o ++
        (if (outputBytes o).length > outBuf.length then
          outBuf ++ List.replicate ((outputBytes o).length - outBuf.length) 0
        else outBuf).drop (outputBytes o).length) (outputBytes o).length 2 (by norm_num)
      (by simp)
    rw [List.take_left] at w
    have hfe : (fieldBytes (2 * 8 + 2) 0 (outputBytes o)).length =
        (fieldBytes 18 0 (outputBytes o)).length := rfl
    obtain ⟨buf1, e1, w1⟩ := (w buf off (by omega)).some_eq
    dsimp only at e1
    have e1' : _ProtoBufSetBytes buf (some (outputBytes o ++
        (if (outputBytes o).length > outBuf.length then
          outBuf ++ List.replicate ((outputBytes o).length - outBuf.length) 0
        else outBuf).drop (outputBytes o).length)) (outputBytes o).length details_outputs off =
        some (buf1, off + (fieldBytes (2 * 8 + 2) 0 (outputBytes o)).length) := e1
    rw [e1']
    exact Wrote.append w1 (ih _ buf1 _ (by omega))

theorem detailsSerialize_eq (d : LWPaymentProtocolDetails) (buf : Option (List Nat)) :
    LWPaymentProtocolDetailsSerialize d buf =
      match seqW (whenW (!d.defaultNetwork)
          (fun b off => _ProtoBufSetString b d.network details_network off))
        (seqW (fun b off => detailsOutputs d.outputs (List.replicate 0x100 0) b off)
        (seqW (whenW (!d.defaultTime) (fun b off => _ProtoBufSetInt b d.time details_time off))
        (seqW (whenW (!d.defaultExpires)
          (fun b off => _ProtoBufSetInt b d.expires details_expires off))
        (seqW (whenW d.memo.isSome (fun b off => _ProtoBufSetString b d.memo details_memo off))
        (seqW (whenW d.paymentURL.isSome
          (fun b off => _ProtoBufSetString b d.paymentURL details_payment_url off))
          (whenW d.merchantData.isSome (fun b off => _ProtoBufSetBytes b d.merchantData
            (d.merchantData.getD []).length details_merch_data off))))))) buf 0 with
      | none => none
      | some (buf1, off1) => serializeUnknown d.unknown buf1 off1 := by
  unfold LWPaymentProtocolDetailsSerialize seqW whenW
  cases d.defaultNetwork <;> cases d.defaultTime <;> cases d.defaultExpires <;>
  simp only [Bool.not_true, Bool.not_false, Bool.false_eq_true, if_true, if_false] <;>
  repeat' first
    | rfl
    | split

theorem some_getD_of_isSome {α : Type} (o : Option α) (d : α) (h : o.isSome = true) :
    o = some (o.getD d) := by
  cases o with
  | none => cases h
  | some x => rfl

theorem setBytes_all_writes (b : Option (List Nat)) (key : Nat) (hk : key < 2 ^ 61) :
    Writes (whenW b.isSome (fun buf off => _ProtoBufSetBytes buf b (b.getD []).length key off))
      (part b.isSome (fieldBytes (key * 8 + 2) 0 (b.getD []))) := by
  refine Writes.when _ (fun hc => ?_)
  have := setBytes_writes (b.getD []) (b.getD []).length key hk (Nat.le_refl _)
  rw [List.take_of_length_le (Nat.le_refl _), ← some_getD_of_isSome b [] hc] at this
  exact this

theorem detailsSerialize_writes (d : LWPaymentProtocolDetails) :
    Writes (seqW (whenW (!d.defaultNetwork)
          (fun b off => _ProtoBufSetString b d.network details_network off))
        (seqW (fun b off => detailsOutputs d.outputs (List.replicate 0x100 0) b off)
        (seqW (whenW (!d.defaultTime) (fun b off => _ProtoBufSetInt b d.time details_time off))
        (seqW (whenW (!d.defaultExpires)
          (fun b off => _ProtoBufSetInt b d.expires details_expires off))
        (seqW (whenW d.memo.isSome (fun b off => _ProtoBufSetString b d.memo details_memo off))
        (seqW (whenW d.paymentURL.isSome
          (fun b off => _ProtoBufSetString b d.paymentURL details_payment_url off))
          (whenW d.merchantData.isSome (fun b off => _ProtoBufSetBytes b d.merchantData
            (d.merchantData.getD []).length details_merch_data off))))))))
      (part (!d.defaultNetwork) (fieldBytes 10 0 (cstr (d.network.getD []))) ++
        ((d.outputs.map (fun o => fieldBytes 18 0 (outputBytes o))).flatten ++
        (part (!d.defaultTime) (fieldBytes 24 d.time []) ++
        (part (!d.defaultExpires) (fieldBytes 32 d.expires []) ++
        (part d.memo.isSome (fieldBytes 42 0 (cstr (d.memo.getD []))) ++
        (part d.paymentURL.isSome (fieldBytes 50 0 (cstr (d.paymentURL.getD []))) ++
        part d.merchantData.isSome (fieldBytes 58 0 (d.merchantData.getD [])))))))) :=
  Writes.seq (Writes.when _ (fun _ => setString_writes d.network 1 (by norm_num)))
    (Writes.seq (detailsOutputs_writes d.outputs _)
    (Writes.seq (Writes.when _ (fun _ => setInt_writes d.time 3 (by norm_num)))
    (Writes.seq (Writes.when _ (fun _ => setInt_writes d.expires 4 (by norm_num)))
    (Writes.seq (Writes.when _ (fun _ => setString_writes d.memo 5 (by norm_num)))
    (Writes.seq (Writes.when _ (fun _ => setString_writes d.paymentURL 6 (by norm_num)))
      (setBytes_all_writes d.merchantData 7 (by norm_num)))))))

theorem detailsBytes_eq (d : LWPaymentProtocolDetails) :
    detailsBytes d = (part (!d.defaultNetwork) (fieldBytes 10 0 (cstr (d.network.getD []))) ++
        ((d.outputs.map (fun o => fieldBytes 18 0 (outputBytes o))).flatten ++
        (part (!d.defaultTime) (fieldBytes 24 d.time []) ++
        (part (!d.defaultExpires) (fieldBytes 32 d.expires []) ++
        (part d.memo.isSome (fieldBytes 42 0 (cstr (d.memo.getD []))) ++
        (part d.paymentURL.isSome (fieldBytes 50 0 (cstr (d.paymentURL.getD []))) ++
        part d.merchantData.isSome (fieldBytes 58 0 (d.merchantData.getD []))))))))
      ++ d.unknown.getD [] := by
  unfold detailsBytes
  simp only [List.append_assoc]

theorem detailsSerialize_sizeQuery (d : LWPaymentProtocolDetails)
    (h : (detailsBytes d).length < 2 ^ 64) :
    SizeQuery (LWPaymentProtocolDetailsSerialize d) (detailsBytes d) := by
  rw [detailsBytes_eq] at h ⊢
  have := sizeQuery_of_writes (detailsSerialize_writes d) d.unknown h
  rw [show LWPaymentProtocolDetailsSerialize d = _ from funext (detailsSerialize_eq d)]
  exact this

theorem requestSerialize_eq (r : LWPaymentProtocolRequest) (d : LWPaymentProtocolDetails)
    (hd : r.details = some d) (buf : Option (List Nat)) :
    LWPaymentProtocolRequestSerialize r buf =
      match seqW (whenW (!r.defaultVersion)
          (fun b off => _ProtoBufSetInt b r.version request_version off))
        (seqW (whenW (!r.defaultPkiType)
          (fun b off => _ProtoBufSetString b r.pkiType request_pki_type off))
        (seqW (whenW r.pkiData.isSome (fun b off => _ProtoBufSetBytes b r.pkiData
            (r.pkiData.getD []).length request_pki_data off))
        (seqW (fun b off =>
            match LWPaymentProtocolDetailsSerialize d none with
            | none => none
            | some (detailsLen, _) =>
              match LWPaymentProtocolDetailsSerialize d (some (List.replicate detailsLen 0)) with
              | none => none
              | some (detailsLen1, detailsBuf) =>
                _ProtoBufSetBytes b detailsBuf detailsLen1 request_details off)
          (whenW r.signature.isSome (fun b off =>
            _ProtoBufSetBytes b r.signature r.sigLen request_signature off))))) buf 0 with
      | none => none
      | some (buf1, off1) => serializeUnknown r.unknown buf1 off1 := by
  unfold LWPaymentProtocolRequestSerialize seqW whenW
  rw [hd]
  cases r.defaultVersion <;> cases r.defaultPkiType <;>
  simp only [Bool.not_true, Bool.not_false, Bool.false_eq_true, if_true, if_false] <;>
  repeat' first
    | rfl
    | split

theorem requestDetails_writes (d : LWPaymentProtocolDetails) :
    Writes (fun b off =>
        match LWPaymentProtocolDetailsSerialize d none with
        | none => none
        | some (detailsLen, _) =>
          match LWPaymentProtocolDetailsSerialize d (some (List.replicate detailsLen 0)) with
          | none => none
          | some (detailsLen1, detailsBuf) =>
            _ProtoBufSetBytes b detailsBuf detailsLen1 request_details off)
      (fieldBytes 34 0 (detailsBytes d)) := by
  intro buf off hoff
  dsimp only
  have hfl := fieldBytes_length_le 34 0 (detailsBytes d) (by norm_num)
  obtain ⟨q1, q2⟩ := detailsSerialize_sizeQuery d (by omega)
  simp only [q1]
  rw [(q2 _).1 (by rw [List.length_replicate])]
  simp only
  have w := setBytes_writes (detailsBytes d ++
      (List.replicate (detailsBytes d).length 0).drop (detailsBytes d).length)
    (detailsBytes d).length 4 (by norm_num) (by simp)
  rw [List.take_left] at w
  exact w buf off hoff

theorem requestSerialize_sizeQuery (r : LWPaymentProtocolRequest)
    (hd : r.details.isSome = true) (hsig : r.sigLen ≤ (r.signature.getD []).length)
    (h : (requestBytes r).length < 2 ^ 64) :
    SizeQuery (LWPaymentProtocolRequestSerialize r) (requestBytes r) := by
  obtain ⟨d, hd⟩ := Option.isSome_iff_exists.1 hd
  have hw := Writes.seq (Writes.when (!r.defaultVersion)
      (fun _ => setInt_writes r.version 1 (by norm_num)))
    (Writes.seq (Writes.when (!r.defaultPkiType)
      (fun _ => setString_writes r.pkiType 2 (by norm_num)))
    (Writes.seq (setBytes_all_writes r.pkiData 3 (by norm_num))
    (Writes.seq (requestDetails_writes d)
      (Writes.when r.signature.isSome (fun hc => by
        have := setBytes_writes (r.signature.getD []) r.sigLen 5 (by norm_num) hsig
        rw [← some_getD_of_isSome r.signature [] hc] at this
        exact this)))))
  have hb : requestBytes r = (part (!r.defaultVersion) (fieldBytes 8 r.version []) ++
      (part (!r.defaultPkiType) (fieldBytes 18 0 (cstr (r.pkiType.getD []))) ++
      (part r.pkiData.isSome (fieldBytes 26 0 (r.pkiData.getD [])) ++
      (fieldBytes 34 0 (detailsBytes d) ++
      part r.signature.isSome (fieldBytes 42 0 ((r.signature.getD []).take r.sigLen))))))
      ++ r.unknown.getD [] := by
    unfold requestBytes
    rw [hd]
    simp only [List.append_assoc, Option.map_some', Option.getD_some]
  rw [hb] at h ⊢
  have := sizeQuery_of_writes hw r.unknown h
  rw [show LWPaymentProtocolRequestSerialize r = _ from funext (requestSerialize_eq r d hd)]
  exact this

/-! ### Payment protocol: reading back what the serializers write -/

theorem getElem?_of_drop {b : List Nat} {off x : Nat} {rest : List Nat}
    (h : b.drop off = x :: rest) : b[off]? = some x ∧ b.drop (off + 1) = rest := by
  constructor
  · have := congrArg (fun l => l[0]?) h
    simpa using this
  · have := congrArg (fun l => l.drop 1) h
    simpa [List.drop_drop, Nat.add_comm] using this

theorem varIntLoop_groups (b : List Nat) : ∀ (m v : Nat), v < 128 ^ m → 0 < m →
    ∀ (i acc off n : Nat) (rest : List Nat), b.drop off = varIntGroups m v ++ rest →
      (varIntGroups m v).length ≤ n → i + m ≤ 10 → acc + v * 2 ^ (7 * i) < 2 ^ 64 →
      varIntLoop b n i acc off =
        some (acc + v * 2 ^ (7 * i), off + (varIntGroups m v).length) := by
  intro m
  induction m with
  | zero => intro v _ h; omega
  | succ m ih =>
    intro v hv _ i acc off n rest hb hn hi hacc
    rw [varIntGroups] at hb hn ⊢
    have hi64 : ¬ 64 ≤ 7 * i := by omega
    by_cases hlast : v / 128 = 0
    · rw [if_pos hlast] at hb hn ⊢
      have hv128 : v < 128 := by omega
      obtain ⟨_, _, hz, _, hmod⟩ := byte_bits v hv128
      obtain ⟨hg, _⟩ := getElem?_of_drop hb
      rw [hmod] at hg
      obtain ⟨n1, rfl⟩ : ∃ n1, n = n1 + 1 := ⟨n - 1, by simp at hn; omega⟩
      rw [varIntLoop, hg]
      simp only [if_neg hi64, and_7f, hmod, hz, ne_eq, not_true_eq_false, if_false,
        Nat.shiftLeft_eq, List.length_singleton]
      have h1 : v * 2 ^ (7 * i) < 2 ^ 64 := by omega
      rw [Nat.mod_eq_of_lt h1, Nat.mod_eq_of_lt hacc]
    · rw [if_neg hlast] at hb hn ⊢
      have hlt : v % 128 < 128 := Nat.mod_lt _ (by norm_num)
      obtain ⟨_, hnz, _, hm1, _⟩ := byte_bits (v % 128) hlt
      obtain ⟨hg, hd⟩ := getElem?_of_drop hb
      obtain ⟨n1, rfl⟩ : ∃ n1, n = n1 + 1 := ⟨n - 1, by simp at hn; omega⟩
      have hm0 : 0 < m := by
        rcases Nat.eq_zero_or_pos m with h0 | h0
        · subst h0
          simp at hv
          omega
        · exact h0
      have hv1 : v / 128 < 128 ^ m := by
        rw [Nat.div_lt_iff_lt_mul (by norm_num)]
        rw [pow_succ] at hv
        exact hv
      have hsplit : v * 2 ^ (7 * i) =
          (v % 128) * 2 ^ (7 * i) + (v / 128) * 2 ^ (7 * (i + 1)) := by
        have h128 : 2 ^ (7 * (i + 1)) = 128 * 2 ^ (7 * i) := by
          rw [Nat.mul_add, Nat.pow_add]
          norm_num
          ring
        rw [h128]
        conv_lhs => rw [← Nat.mod_add_div v 128]
        ring
      have h1 : (v % 128) * 2 ^ (7 * i) < 2 ^ 64 := by
        have : (v % 128) * 2 ^ (7 * i) ≤ v * 2 ^ (7 * i) :=
          Nat.mul_le_mul_right _ (Nat.mod_le _ _)
        omega
      have h2 : acc + (v % 128) * 2 ^ (7 * i) < 2 ^ 64 := by
        have : (v % 128) * 2 ^ (7 * i) ≤ v * 2 ^ (7 * i) :=
          Nat.mul_le_mul_right _ (Nat.mod_le _ _)
        omega
      rw [varIntLoop, hg]
      simp only [if_neg hi64, and_7f, hm1, Nat.shiftLeft_eq]
      rw [if_pos hnz, Nat.mod_eq_of_lt h1, Nat.mod_eq_of_lt h2]
      have := ih (v / 128) hv1 hm0 (i + 1) (acc + (v % 128) * 2 ^ (7 * i)) (off + 1) n1 rest hd
        (by simp only [List.length_cons] at hn; omega) (by omega) (by rw [hsplit] at hacc; omega)
      rw [this, hsplit]
      simp only [List.length_cons]
      congr 2
      · omega
      · omega

theorem varInt_read (b : List Nat) (v off bufLen : Nat) (rest : List Nat)
    (hb : b.drop off = varIntBytes v ++ rest) (hfit : off + (varIntBytes v).length ≤ bufLen) :
    _ProtoBufVarInt (some b) bufLen off = some (v % 2 ^ 64, off + (varIntBytes v).length) := by
  unfold _ProtoBufVarInt
  unfold varIntBytes at hb hfit ⊢
  have hlt : v % 2 ^ 64 < 2 ^ 64 := Nat.mod_lt _ (by norm_num)
  have := varIntLoop_groups b 10 (v % 2 ^ 64) (by omega) (by norm_num) 0 0 off (bufLen - off)
    rest hb (by omega) (by norm_num) (by simpa using hlt)
  simpa using this

theorem rawBytes_length : ∀ (n i : Nat), (rawBytes n i).length = n := by
  intro n
  induction n with
  | zero => intro i; rfl
  | succ n ih => intro i; simp [rawBytes, ih]

theorem rawBytes_lt : ∀ (n i : Nat), ∀ x ∈ rawBytes n i, x < 256 := by
  intro n
  induction n with
  | zero => intro i x hx; simp [rawBytes] at hx
  | succ n ih =>
    intro i x hx
    simp only [rawBytes, List.mem_cons] at hx
    rcases hx with h | h
    · rw [h]; exact Nat.mod_lt _ (by norm_num)
    · exact ih _ x h

theorem rawValue_rawBytes : ∀ (n i : Nat), rawValue (rawBytes n i) = i % 256 ^ n := by
  intro n
  induction n with
  | zero => intro i; simp [rawBytes, rawValue, Nat.mod_one]
  | succ n ih =>
    intro i
    simp only [rawBytes, rawValue, ih]
    rw [pow_succ, Nat.mul_comm (256 ^ n) 256, Nat.mod_mul]

theorem rawBytes_mod : ∀ (n i : Nat), rawBytes n (i % 256 ^ n) = rawBytes n i := by
  intro n
  induction n with
  | zero => intro i; rfl
  | succ n ih =>
    intro i
    simp only [rawBytes]
    have h1 : i % 256 ^ (n + 1) % 256 = i % 256 := by
      rw [pow_succ, Nat.mul_comm]
      exact Nat.mod_mul_right_mod _ _ _
    have h2 : i % 256 ^ (n + 1) / 256 = (i / 256) % 256 ^ n := by
      rw [pow_succ, Nat.mul_comm, Nat.mod_mul_right_div_self]
    rw [h1, h2, ih]

theorem fixed_read (b : List Nat) (i off bufLen size : Nat) (rest : List Nat)
    (hb : b.drop off = rawBytes size i ++ rest) (hfit : off + size ≤ bufLen)
    (h64 : bufLen < 2 ^ 64) (hs : size ≤ 8) (hs0 : 0 < size) :
    _ProtoBufFixed (some b) bufLen off size = some (i % 256 ^ size, off + size) := by
  have hlen : off + size ≤ b.length := by
    have := congrArg List.length hb
    simp only [List.length_drop, List.length_append, rawBytes_length] at this
    omega
  have hsz : sizeT (off + size) = off + size := Nat.mod_eq_of_lt (by omega)
  unfold _ProtoBufFixed
  simp only [hsz]
  rw [if_pos ⟨hfit, hs⟩, if_neg (by omega), hb]
  have : (rawBytes size i ++ rest).take size = rawBytes size i := by
    rw [List.take_append_of_le_length (by rw [rawBytes_length])]
    exact List.take_of_length_le (by rw [rawBytes_length])
  rw [this, rawValue_rawBytes]

theorem drop_of_drop_append {b : List Nat} {off : Nat} {a rest : List Nat}
    (h : b.drop off = a ++ rest) : b.drop (off + a.length) = rest := by
  rw [← List.drop_drop, h, List.drop_left]

theorem lenDelim_read (b : List Nat) (data : List Nat) (off bufLen : Nat) (rest : List Nat)
    (hb : b.drop off = varIntBytes data.length ++ data ++ rest)
    (hfit : off + (varIntBytes data.length ++ data).length ≤ bufLen) (h64 : bufLen < 2 ^ 64) :
    _ProtoBufLenDelim (some b) bufLen off =
      some (some (data ++ rest), data.length,
        off + (varIntBytes data.length ++ data).length) := by
  rw [List.length_append] at hfit ⊢
  rw [List.append_assoc] at hb
  have hv := varInt_read b data.length off bufLen (data ++ rest) hb (by omega)
  rw [Nat.mod_eq_of_lt (by omega)] at hv
  have hsz : sizeT (off + (varIntBytes data.length).length + data.length) =
      off + (varIntBytes data.length).length + data.length := Nat.mod_eq_of_lt (by omega)
  unfold _ProtoBufLenDelim
  simp only [hv, hsz]
  rw [if_pos (by omega), drop_of_drop_append hb, Nat.add_assoc]

/-- The coding of a field read back by `_ProtoBufField`. -/
theorem field_read (b : List Nat) (key i : Nat) (data : List Nat) (off bufLen : Nat)
    (rest : List Nat) (hb : b.drop off = fieldBytes key i data ++ rest)
    (hfit : off + (fieldBytes key i data).length ≤ bufLen) (h64 : bufLen < 2 ^ 64)
    (hk : key < 2 ^ 64) :
    _ProtoBufField (some b) bufLen off =
      some (key, fieldValue key i, if key % 8 = 2 then some (data ++ rest) else none,
        if key % 8 = 2 then data.length else bufLen, off + (fieldBytes key i data).length) := by
  unfold fieldBytes at hb hfit ⊢
  rw [List.append_assoc] at hb
  rw [List.length_append] at hfit ⊢
  have hv := varInt_read b key off bufLen _ hb (by omega)
  rw [Nat.mod_eq_of_lt hk] at hv
  have hd := drop_of_drop_append hb
  unfold _ProtoBufField fieldValue
  simp only [hv, and_07, PROTOBUF_VARINT, PROTOBUF_64BIT, PROTOBUF_LENDELIM, PROTOBUF_32BIT]
  by_cases h0 : key % 8 = 0
  · simp only [h0, if_true, true_or, Nat.reduceEqDiff, if_false] at hd hfit ⊢
    have h2 := varInt_read b i _ bufLen rest hd (by omega)
    rw [h2]
    simp [Nat.add_assoc]
  · by_cases h1 : key % 8 = 1
    · simp only [h1, if_true, or_true, Nat.reduceEqDiff, if_false] at hd hfit ⊢
      rw [rawBytes_length] at hfit ⊢
      have h2 := fixed_read b i _ bufLen 8 rest hd (by omega) h64 (by norm_num) (by norm_num)
      rw [h2]
      simp [Nat.add_assoc]
    · by_cases h2 : key % 8 = 2
      · simp only [h2, if_true, if_false, false_or, Nat.reduceEqDiff, or_self] at hd hfit ⊢
        have h3 := lenDelim_read b data _ bufLen rest (by rw [hd, List.append_assoc])
          (by omega) h64
        rw [h3]
        simp [Nat.add_assoc]
      · by_cases h5 : key % 8 = 5
        · simp only [h5, if_true, if_false, false_or, Nat.reduceEqDiff, or_self] at hd hfit ⊢
          rw [rawBytes_length] at hfit ⊢
          have h3 := fixed_read b i _ bufLen 4 rest hd (by omega) h64 (by norm_num) (by norm_num)
          rw [h3]
          simp [Nat.add_assoc]
        · simp only [h0, h1, h2, h5, if_false, false_or, or_self] at hd hfit ⊢
          simp

theorem parseLoop_mono {σ : Type} (step : σ → Nat → Nat → Option (List Nat) → Nat → Option σ)
    (cb : Bool) (buf : Option (List Nat)) (bufLen : Nat) :
    ∀ (fuel off : Nat) (s r : σ), parseLoop step cb buf bufLen fuel off s = some r →
      ∀ k, parseLoop step cb buf bufLen (fuel + k) off s = some r := by
  intro fuel
  induction fuel with
  | zero => intro off s r h; simp [parseLoop] at h
  | succ fuel ih =>
    intro off s r h k
    rw [show fuel + 1 + k = (fuel + k) + 1 by omega]
    rw [parseLoop] at h ⊢
    split
    · rename_i hc
      rw [if_pos hc] at h
      cases hf : _ProtoBufField buf bufLen off with
      | none => rw [hf] at h; cases h
      | some p =>
        obtain ⟨key, i, data, dataLen, off1⟩ := p
        rw [hf] at h
        simp only at h ⊢
        cases hs : step s key i data dataLen with
        | none => rw [hs] at h; cases h
        | some s1 =>
          rw [hs] at h
          exact ih off1 s1 r h k
    · rename_i hc
      rw [if_neg hc] at h
      exact h

theorem Reads.stay {σ : Type} (step : σ → Nat → Nat → Option (List Nat) → Nat → Option σ)
    (cb : Bool) (b : List Nat) (bufLen off : Nat) (s : σ) :
    Reads step cb b bufLen off off s s :=
  ⟨Nat.le_refl _, fun fuel r h => by rw [Nat.sub_self, Nat.add_zero]; exact h⟩

theorem Reads.chain {σ : Type} {step : σ → Nat → Nat → Option (List Nat) → Nat → Option σ}
    {cb : Bool} {b : List Nat} {bufLen off off1 off2 : Nat} {s s1 s2 : σ}
    (h1 : Reads step cb b bufLen off off1 s s1) (h2 : Reads step cb b bufLen off1 off2 s1 s2) :
    Reads step cb b bufLen off off2 s s2 := by
  refine ⟨Nat.le_trans h1.1 h2.1, fun fuel r h => ?_⟩
  have := h1.2 _ r (h2.2 fuel r h)
  rw [show fuel + (off2 - off) = fuel + (off2 - off1) + (off1 - off) by
    have := h1.1
    have := h2.1
    omega]
  exact this

theorem fieldBytes_pos (key i : Nat) (data : List Nat) : 0 < (fieldBytes key i data).length := by
  unfold fieldBytes
  rw [List.length_append]
  have := varIntBytes_pos key
  omega

theorem Reads.field {σ : Type} {step : σ → Nat → Nat → Option (List Nat) → Nat → Option σ}
    (cb : Bool) {b : List Nat} {bufLen off : Nat} {s s1 : σ} {key i : Nat} {data rest : List Nat}
    (hb : b.drop off = fieldBytes key i data ++ rest)
    (hfit : off + (fieldBytes key i data).length ≤ bufLen) (h64 : bufLen < 2 ^ 64)
    (hk : key < 2 ^ 64)
    (hstep : step s key (fieldValue key i) (if key % 8 = 2 then some (data ++ rest) else none)
      (if key % 8 = 2 then data.length else bufLen) = some s1) :
    Reads step cb b bufLen off (off + (fieldBytes key i data).length) s s1 := by
  have hpos := fieldBytes_pos key i data
  refine ⟨by omega, fun fuel r h => ?_⟩
  rw [show fuel + (off + (fieldBytes key i data).length - off) =
    (fuel + ((fieldBytes key i data).length - 1)) + 1 by omega]
  rw [parseLoop, if_pos ⟨Or.inr rfl, by omega⟩, field_read b key i data off bufLen rest hb hfit h64 hk]
  simp only [hstep]
  exact parseLoop_mono step cb (some b) bufLen fuel _ s1 r h _

theorem Reads.finish {σ : Type} {step : σ → Nat → Nat → Option (List Nat) → Nat → Option σ}
    {cb : Bool} {b : List Nat} {bufLen : Nat} {s0 s : σ}
    (h : Reads step cb b bufLen 0 bufLen s0 s) :
    parseLoop step cb (some b) bufLen (bufLen + 1) 0 s0 = some s := by
  have h1 : parseLoop step cb (some b) bufLen 1 bufLen s = some s := by
    rw [parseLoop, if_neg (by omega)]
  have := h.2 1 s h1
  rw [show 1 + (bufLen - 0) = bufLen + 1 by omega] at this
  exact this

theorem itemBytes_cons {ι : Type} (enc : ι → Nat × Nat × List Nat) (e : ι) (es : List ι) :
    itemBytes enc (e :: es) = fieldBytes (enc e).1 (enc e).2.1 (enc e).2.2 ++ itemBytes enc es := by
  simp [itemBytes]

theorem itemBytes_append {ι : Type} (enc : ι → Nat × Nat × List Nat) (es fs : List ι) :
    itemBytes enc (es ++ fs) = itemBytes enc es ++ itemBytes enc fs := by
  simp [itemBytes]

theorem Reads.items {σ ι : Type} (step : σ → Nat → Nat → Option (List Nat) → Nat → Option σ)
    (cb : Bool) (enc : ι → Nat × Nat × List Nat) (T : σ → ι → σ) (b : List Nat) {bufLen : Nat}
    (h64 : bufLen < 2 ^ 64) :
    ∀ (es : List ι) (off : Nat) (rest : List Nat) (s : σ),
      b.drop off = itemBytes enc es ++ rest → off + (itemBytes enc es).length ≤ bufLen →
      (∀ e ∈ es, (enc e).1 < 2 ^ 64 ∧ ∀ (s : σ) (t : List Nat),
        step s (enc e).1 (fieldValue (enc e).1 (enc e).2.1)
          (if (enc e).1 % 8 = 2 then some ((enc e).2.2 ++ t) else none)
          (if (enc e).1 % 8 = 2 then (enc e).2.2.length else bufLen) = some (T s e)) →
      Reads step cb b bufLen off (off + (itemBytes enc es).length) s (es.foldl T s) := by
  intro es
  induction es with
  | nil =>
    intro off rest s _ _ _
    exact Reads.stay step cb b bufLen off s
  | cons e es ih =>
    intro off rest s hb hfit hT
    rw [itemBytes_cons] at hb hfit ⊢
    rw [List.length_append] at hfit ⊢
    rw [List.append_assoc] at hb
    obtain ⟨hk, hs⟩ := hT e (List.mem_cons_self _ _)
    have r1 := Reads.field cb hb (by omega) h64 hk (hs s _)
    have r2 := ih (off + (fieldBytes (enc e).1 (enc e).2.1 (enc e).2.2).length) rest (T s e)
      (drop_of_drop_append hb) (by omega) (fun x hx => hT x (List.mem_cons_of_mem _ hx))
    rw [← Nat.add_assoc]
    exact Reads.chain r1 r2

/-! ### Payment protocol: encrypted messages -/

theorem encryptedSerialize_eq (c : Crypto) (m : LWPaymentProtocolEncryptedMessage)
    (message : List Nat) (hm : m.message = some message) (buf : Option (List Nat)) :
    LWPaymentProtocolEncryptedMessageSerialize c m buf =
      match seqW (fun b off => _ProtoBufSetInt b m.msgType encrypted_msg_msg_type off)
        (seqW (fun b off => _ProtoBufSetBytes b (some message) message.length
          encrypted_msg_message off)
        (seqW (fun b off => _ProtoBufSetBytes b (some (LWKeyPubKey c m.receiverPubKey))
          (LWKeyPubKey c m.receiverPubKey).length encrypted_msg_receiver_pk off)
        (seqW (fun b off => _ProtoBufSetBytes b (some (LWKeyPubKey c m.senderPubKey))
          (LWKeyPubKey c m.senderPubKey).length encrypted_msg_sender_pk off)
        (seqW (fun b off => _ProtoBufSetInt b m.nonce encrypted_msg_nonce off)
        (seqW (whenW m.signature.isSome (fun b off => _ProtoBufSetBytes b m.signature
          (m.signature.getD []).length encrypted_msg_signature off))
        (seqW (whenW m.identifier.isSome (fun b off => _ProtoBufSetBytes b m.identifier
          (m.identifier.getD []).length encrypted_msg_identifier off))
        (seqW (whenW (!m.defaultStatusCode) (fun b off =>
          _ProtoBufSetInt b m.statusCode encrypted_msg_status_code off))
          (whenW m.statusMsg.isSome (fun b off =>
            _ProtoBufSetString b m.statusMsg encrypted_msg_status_msg off))))))))) buf 0 with
      | none => none
      | some (buf1, off1) => serializeUnknown m.unknown buf1 off1 := by
  unfold LWPaymentProtocolEncryptedMessageSerialize seqW whenW
  rw [hm]
  cases m.defaultStatusCode <;>
  simp only [Bool.not_true, Bool.not_false, Bool.false_eq_true, if_true, if_false] <;>
  repeat' first
    | rfl
    | split

theorem setBytes_some_writes (d : List Nat) (key : Nat) (hk : key < 2 ^ 61) :
    Writes (fun buf off => _ProtoBufSetBytes buf (some d) d.length key off)
      (fieldBytes (key * 8 + 2) 0 d) := by
  have := setBytes_writes d d.length key hk (Nat.le_refl _)
  rw [List.take_of_length_le (Nat.le_refl _)] at this
  exact this

theorem encryptedSerialize_sizeQuery (c : Crypto) (m : LWPaymentProtocolEncryptedMessage)
    (hm : m.message.isSome = true) (h : (encryptedBytes c m).length < 2 ^ 64) :
    SizeQuery (LWPaymentProtocolEncryptedMessageSerialize c m) (encryptedBytes c m) := by
  obtain ⟨message, hm⟩ := Option.isSome_iff_exists.1 hm
  have hw := Writes.seq (setInt_writes m.msgType 1 (by norm_num))
    (Writes.seq (setBytes_some_writes message 2 (by norm_num))
    (Writes.seq (setBytes_some_writes (LWKeyPubKey c m.receiverPubKey) 3 (by norm_num))
    (Writes.seq (setBytes_some_writes (LWKeyPubKey c m.senderPubKey) 4 (by norm_num))
    (Writes.seq (setInt_writes m.nonce 5 (by norm_num))
    (Writes.seq (setBytes_all_writes m.signature 6 (by norm_num))
    (Writes.seq (setBytes_all_writes m.identifier 7 (by norm_num))
    (Writes.seq (Writes.when (!m.defaultStatusCode)
      (fun _ => setInt_writes m.statusCode 8 (by norm_num)))
      (Writes.when m.statusMsg.isSome
        (fun _ => setString_writes m.statusMsg 9 (by norm_num))))))))))
  have hb : encryptedBytes c m = (fieldBytes 8 m.msgType [] ++ (fieldBytes 18 0 message ++
      (fieldBytes 26 0 (LWKeyPubKey c m.receiverPubKey) ++
      (fieldBytes 34 0 (LWKeyPubKey c m.senderPubKey) ++
      (fieldBytes 40 m.nonce [] ++
      (part m.signature.isSome (fieldBytes 50 0 (m.signature.getD [])) ++
      (part m.identifier.isSome (fieldBytes 58 0 (m.identifier.getD [])) ++
      (part (!m.defaultStatusCode) (fieldBytes 64 m.statusCode []) ++
      part m.statusMsg.isSome (fieldBytes 74 0 (cstr (m.statusMsg.getD []))))))))))) ++
      m.unknown.getD [] := by
    unfold encryptedBytes
    rw [hm]
    simp only [List.append_assoc, Option.getD_some]
  rw [hb] at h ⊢
  have := sizeQuery_of_writes hw m.unknown h
  rw [show LWPaymentProtocolEncryptedMessageSerialize c m = _ from
    funext (encryptedSerialize_eq c m message hm)]
  exact this

theorem cstr_no_zero (s : List Nat) : 0 ∉ cstr s := by
  unfold cstr
  intro h
  have := List.mem_takeWhile_imp h
  simp at this

theorem cstr_of_no_zero (s : List Nat) (h : 0 ∉ s) : cstr s = s := by
  unfold cstr
  rw [List.takeWhile_eq_self_iff]
  intro x hx
  have : x ≠ 0 := fun e => h (e ▸ hx)
  simpa using this

theorem strncmpEq_iff (s lit : List Nat) (h : 0 ∉ lit) :
    strncmpEq s lit = true ↔ cstr s = lit := by
  have hl : cstr lit = lit := cstr_of_no_zero lit h
  have hn : strlen lit = lit.length := by
    unfold strlen
    exact congrArg List.length hl
  unfold strncmpEq
  rw [hl, hn, beq_iff_eq]
  have hr : (lit ++ [0]).take (lit.length + 1) = lit ++ [0] :=
    List.take_of_length_le (by simp)
  rw [hr]
  constructor
  · intro e
    by_cases hc : (cstr s).length ≤ lit.length
    · rw [List.take_of_length_le (by simp; omega)] at e
      exact List.append_cancel_right e
    · exfalso
      have h1 : (cstr s ++ [0]).take (lit.length + 1) = (cstr s).take (lit.length + 1) :=
        List.take_append_of_le_length (by omega)
      rw [h1] at e
      have hm : (0 : Nat) ∈ (cstr s).take (lit.length + 1) := by rw [e]; simp
      exact cstr_no_zero s (List.mem_of_mem_take hm)
  · intro e
    rw [e, hr]

theorem requestBytes_sigLen_zero (req : LWPaymentProtocolRequest) (sig : List Nat)
    (h : req.signature.isSome = true) :
    requestBytes { req with signature := some sig, sigLen := 0 } =
      requestBytes { req with sigLen := 0 } := by
  unfold requestBytes
  simp only [h, Option.isSome_some, List.take_zero]

theorem requestDigest_run (LWSHA256 LWSHA1 : List Nat → List Nat)
    (req : LWPaymentProtocolRequest) (md : Option (List Nat))
    (hd : req.details.isSome = true)
    (h64 : (requestBytes { req with sigLen := 0 }).length < 2 ^ 64) :
    LWPaymentProtocolRequestDigest LWSHA256 LWSHA1 req md =
      some (if md.isNone ∨ digestLength req ≤ (md.getD []).length then digestLength req else 0,
        md.map (fun m => if digestLength req ≤ m.length then
          requestDigest LWSHA256 LWSHA1 req ++ m.drop (digestLength req) else m),
        { req with sigLen := (req.signature.getD []).length }) := by
  obtain ⟨q1, q2⟩ := requestSerialize_sizeQuery { req with sigLen := 0 } hd (Nat.zero_le _) h64
  unfold LWPaymentProtocolRequestDigest
  simp only [q1]
  rw [(q2 _).1 (by rw [List.length_replicate])]
  simp only [Option.getD_some, List.take_left]
  have e256 : ((req.pkiType.isSome = true ∧
      strncmpEq (req.pkiType.getD []) sha256Text = true) ↔
      cstr (req.pkiType.getD []) = sha256Text) := by
    rw [strncmpEq_iff _ _ (by decide)]
    constructor
    · exact fun h => h.2
    · intro h
      refine ⟨?_, h⟩
      cases hp : req.pkiType with
      | none => rw [hp] at h; exact absurd h (by decide)
      | some s => rfl
  have e1 : ((req.pkiType.isSome = true ∧
      strncmpEq (req.pkiType.getD []) sha1Text = true) ↔
      cstr (req.pkiType.getD []) = sha1Text) := by
    rw [strncmpEq_iff _ _ (by decide)]
    constructor
    · exact fun h => h.2
    · intro h
      refine ⟨?_, h⟩
      cases hp : req.pkiType with
      | none => rw [hp] at h; exact absurd h (by decide)
      | some s => rfl
  simp only [e256, e1]
  unfold digestLength requestDigest
  by_cases h256 : cstr (req.pkiType.getD []) = sha256Text
  · simp only [h256, if_true]
    cases req.signature <;> cases md <;> simp
  · by_cases h1 : cstr (req.pkiType.getD []) = sha1Text
    · simp only [h1, if_true, if_neg (show ¬ sha1Text = sha256Text by decide)]
      cases req.signature <;> cases md <;> simp
    · simp only [h256, h1, if_false]
      cases req.signature <;> cases md <;> simp

/-- C36.  `LWPaymentProtocolRequestDigest` on a request with a details struct whose `sigLen`
is the count of its signature array (0 without one), as `LWPaymentProtocolRequestNew` and
`LWPaymentProtocolRequestParse` make it, and whose serialization has fewer than 2^64 bytes.
The digest length is 32 when the C string `pkiType` is exactly `x509+sha256`, 20 when it
is exactly `x509+sha1` and 0 otherwise.  The call returns the digest length when `md` is
NULL or has room for the digest (and 0 for a shorter `md`, which stays as it is); with room,
`md` then starts with the hash of the serialization of the request with `sigLen` 0.  The
request after the call is the request before it.  The result is the same for a request that
differs only in its signature bytes. -/
theorem requestDigest_contract (LWSHA256 LWSHA1 : List Nat → List Nat)
    (req : LWPaymentProtocolRequest) (md : Option (List Nat))
    (hd : req.details.isSome = true) (hsig : req.sigLen = (req.signature.getD []).length)
    (h64 : (requestBytes { req with sigLen := 0 }).length < 2 ^ 64) :
    (digestLength req = if cstr (req.pkiType.getD []) = sha256Text then 32
      else if cstr (req.pkiType.getD []) = sha1Text then 20 else 0) ∧
    (requestDigest LWSHA256 LWSHA1 req =
      if cstr (req.pkiType.getD []) = sha256Text then
        LWSHA256 (requestBytes { req with sigLen := 0 })
      else if cstr (req.pkiType.getD []) = sha1Text then
        LWSHA1 (requestBytes { req with sigLen := 0 })
      else []) ∧
    LWPaymentProtocolRequestSerialize { req with sigLen := 0 } none =
      some ((requestBytes { req with sigLen := 0 }).length, none) ∧
    (∃ n md1, LWPaymentProtocolRequestDigest LWSHA256 LWSHA1 req md = some (n, md1, req) ∧
      (md = none → n = digestLength req ∧ md1 = none) ∧
      (∀ m, md = some m → digestLength req ≤ m.length →
        n = digestLength req ∧
        md1 = some (requestDigest LWSHA256 LWSHA1 req ++ m.drop (digestLength req))) ∧
      (∀ m, md = some m → m.length < digestLength req → n = 0 ∧ md1 = some m)) ∧
    ∀ sig : List Nat, req.signature.isSome = true →
      LWPaymentProtocolRequestDigest LWSHA256 LWSHA1
          { req with signature := some sig, sigLen := sig.length } md =
        (LWPaymentProtocolRequestDigest LWSHA256 LWSHA1 req md).map
          (fun r => (r.1, r.2.1, { req with signature := some sig, sigLen := sig.length })) := by
  have hrun := requestDigest_run LWSHA256 LWSHA1 req md hd h64
  have hreq : { req with sigLen := (req.signature.getD []).length } = req := by
    rw [← hsig]
  rw [hreq] at hrun
  refine ⟨rfl, rfl, (requestSerialize_sizeQuery { req with sigLen := 0 } hd
    (Nat.zero_le _) h64).1, ⟨_, _, hrun, ?_, ?_, ?_⟩, ?_⟩
  · intro h
    rw [h]
    exact ⟨rfl, rfl⟩
  · intro m h hm
    rw [h]
    simp only [Option.getD_some, Option.map_some', if_pos hm, Option.isNone_some,
      Bool.false_eq_true, false_or]
    exact ⟨trivial, trivial⟩
  · intro m h hm
    rw [h]
    simp only [Option.getD_some, Option.map_some', if_neg (Nat.not_le.2 hm), Option.isNone_some,
      Bool.false_eq_true, false_or]
    exact ⟨trivial, trivial⟩
  · intro sig hs
    have hb := requestBytes_sigLen_zero req sig hs
    have hrun2 := requestDigest_run LWSHA256 LWSHA1
      { req with signature := some sig, sigLen := sig.length } md hd (by
        show (requestBytes { req with signature := some sig, sigLen := 0 }).length < 2 ^ 64
        rw [hb]
        exact h64)
    rw [hrun2, hrun]
    simp only [Option.map_some', Option.getD_some]
    have hl : digestLength { req with signature := some sig, sigLen := sig.length } =
        digestLength req := rfl
    have hg : requestDigest LWSHA256 LWSHA1
        { req with signature := some sig, sigLen := sig.length } =
        requestDigest LWSHA256 LWSHA1 req := by
      show (if cstr (req.pkiType.getD []) = sha256Text then
          LWSHA256 (requestBytes { req with signature := some sig, sigLen := 0 })
        else if cstr (req.pkiType.getD []) = sha1Text then
          LWSHA1 (requestBytes { req with signature := some sig, sigLen := 0 })
        else []) = _
      rw [hb]
      rfl
    rw [hl, hg]

/-- C36 at a concrete input: the sample request, whose `pkiType` is `x509+sha256`, and a
buffer of 40 bytes. -/
theorem requestDigest_contract_witness :
    (sampleRequest.details.isSome = true ∧
      sampleRequest.sigLen = (sampleRequest.signature.getD []).length ∧
      (requestBytes { sampleRequest with sigLen := 0 }).length < 2 ^ 64) ∧
    ((digestLength sampleRequest = if cstr (sampleRequest.pkiType.getD []) = sha256Text then 32
        else if cstr (sampleRequest.pkiType.getD []) = sha1Text then 20 else 0) ∧
      (requestDigest (lengthHash 32) (lengthHash 20) sampleRequest =
        if cstr (sampleRequest.pkiType.getD []) = sha256Text then
          lengthHash 32 (requestBytes { sampleRequest with sigLen := 0 })
        else if cstr (sampleRequest.pkiType.getD []) = sha1Text then
          lengthHash 20 (requestBytes { sampleRequest with sigLen := 0 })
        else []) ∧
      LWPaymentProtocolRequestSerialize { sampleRequest with sigLen := 0 } none =
        some ((requestBytes { sampleRequest with sigLen := 0 }).length, none) ∧
      (∃ n md1, LWPaymentProtocolRequestDigest (lengthHash 32) (lengthHash 20) sampleRequest
            sampleMd = some (n, md1, sampleRequest) ∧
        (sampleMd = none → n = digestLength sampleRequest ∧ md1 = none) ∧
        (∀ m, sampleMd = some m → digestLength sampleRequest ≤ m.length →
          n = digestLength sampleRequest ∧
          md1 = some (requestDigest (lengthHash 32) (lengthHash 20) sampleRequest ++
            m.drop (digestLength sampleRequest))) ∧
        (∀ m, sampleMd = some m → m.length < digestLength sampleRequest →
          n = 0 ∧ md1 = some m)) ∧
      ∀ sig : List Nat, sampleRequest.signature.isSome = true →
        LWPaymentProtocolRequestDigest (lengthHash 32) (lengthHash 20)
            { sampleRequest with signature := some sig, sigLen := sig.length } sampleMd =
          (LWPaymentProtocolRequestDigest (lengthHash 32) (lengthHash 20) sampleRequest
              sampleMd).map
            (fun r => (r.1, r.2.1,
              { sampleRequest with signature := some sig, sigLen := sig.length }))) :=
  ⟨⟨by decide, by decide, by decide⟩,
    requestDigest_contract (lengthHash 32) (lengthHash 20) sampleRequest sampleMd
      (by decide) (by decide) (by decide)⟩

theorem requestNew_sigLen {version pkiDataLen sigLen : Nat} {pkiType pkiData signature : Option (List Nat)}
    {details : Option LWPaymentProtocolDetails} {req : LWPaymentProtocolRequest}
    (h : LWPaymentProtocolRequestNew version pkiType pkiData pkiDataLen details signature sigLen =
      some req) :
    req.details.isSome = true ∧ req.sigLen = (req.signature.getD []).length := by
  unfold LWPaymentProtocolRequestNew at h
  cases details with
  | none => cases h
  | some d =>
    simp only at h
    split at h
    · cases h
      exact ⟨rfl, rfl⟩
    · cases h

theorem keyOfBytes_pubKey (c : Crypto) (p : List Nat) (hl : p.length = 33 ∨ p.length = 65)
    (hz : p ≠ List.replicate p.length 0) : LWKeyPubKey c (keyOfBytes p) = p := by
  unfold LWKeyPubKey keyOfBytes
  have hsize : (if decide (p.length ≤ 33) = true then 33 else 65) = p.length := by
    rcases hl with h | h <;> simp [h]
  simp only [hsize, List.take_left]
  rw [if_neg hz]

theorem setPubKey_bytes (c : Crypto) (p t : List Nat) (hl : p.length = 33 ∨ p.length = 65) :
    LWKeySetPubKey c (some (p ++ t)) p.length =
      some ((c.ec_pubkey_parse p).isSome, keyOfBytes p) := by
  unfold LWKeySetPubKey keyOfBytes
  simp only [List.take_left]
  rw [if_pos ⟨hl, by simp⟩]

theorem protoBufBytes_data (bytes : Option (List Nat)) (d t : List Nat) :
    _ProtoBufBytes bytes (some (d ++ t)) d.length = some (some d) := by
  unfold _ProtoBufBytes
  simp

theorem protoBufString_data (str : Option (List Nat)) (d t : List Nat) :
    _ProtoBufString str (some (d ++ t)) d.length = some (some d) := by
  unfold _ProtoBufString
  simp

theorem itemBytes_part {ι : Type} (enc : ι → Nat × Nat × List Nat) (b : Bool) (e : ι) :
    itemBytes enc (part b [e]) = part b (fieldBytes (enc e).1 (enc e).2.1 (enc e).2.2) := by
  cases b <;> simp [part, itemBytes]

theorem encryptedBytes_items (c : Crypto) (m : LWPaymentProtocolEncryptedMessage) :
    encryptedBytes c m = itemBytes id (encryptedItems c m) ++ m.unknown.getD [] := by
  unfold encryptedBytes encryptedItems
  simp only [itemBytes_append, itemBytes_part, itemBytes_cons, id, List.append_assoc]
  simp [itemBytes]

theorem encryptedItems_fold (c : Crypto) (m : LWPaymentProtocolEncryptedMessage)
    (pr ps : List Nat)
    (hmsg : m.message.isSome = true) (htype : m.msgType < 2 ^ 32) (hnonce : m.nonce < 2 ^ 64)
    (hcode : m.statusCode < 2 ^ 64) (hdef : m.defaultStatusCode = false)
    (hstr : ∀ s, m.statusMsg = some s → 0 ∉ s) (hunk : m.unknown = none)
    (hkr : m.receiverPubKey = keyOfBytes pr) (hks : m.senderPubKey = keyOfBytes ps)
    (hR : LWKeyPubKey c m.receiverPubKey = pr) (hS : LWKeyPubKey c m.senderPubKey = ps)
    (hrp : (c.ec_pubkey_parse pr).isSome = true) (hsp : (c.ec_pubkey_parse ps).isSome = true) :
    (encryptedItems c m).foldl (encryptedField c)
      { msg := { msgType := 0, message := none,
                 receiverPubKey := ⟨List.replicate 32 0, List.replicate 65 0, false⟩,
                 senderPubKey := ⟨List.replicate 32 0, List.replicate 65 0, false⟩,
                 nonce := 0, signature := none, identifier := none, statusCode := 0,
                 statusMsg := none, defaultStatusCode := true, unknown := none },
        gotMsgType := false, gotNonce := false, gotReceiverPK := false,
        gotSenderPK := false } = ⟨m, true, true, true, true⟩ := by
  unfold encryptedItems
  rw [hR, hS]
  obtain ⟨msgType, message, rk, sk, nonce, sig, ident, code, str, dflt, unk⟩ := m
  simp only at hmsg htype hnonce hcode hdef hstr hunk hkr hks
  subst hdef hunk hkr hks
  have h4 : ∀ s, str = some s → cstr s = s := fun s hs => cstr_of_no_zero s (hstr s hs)
  cases message with
  | none => cases hmsg
  | some message =>
    cases sig <;> cases ident <;> cases str <;>
    simp [part, encryptedField, hrp, hsp, h4] <;> omega

/-- The condition under which the parser reads back an encrypted message from its
serialization: the message is there, the numbers are in the range of their types, the
status code is not a default, the keys are made by `LWKeySetPubKey` from 33 or 65 bytes that
are not all zero and that `secp256k1_ec_pubkey_parse` accepts, no unknown fields. -/
theorem encryptedParse_serialize (c : Crypto) (m : LWPaymentProtocolEncryptedMessage)
    (pr ps : List Nat) (t : List Nat)
    (hmsg : m.message.isSome = true) (htype : m.msgType < 2 ^ 32) (hnonce : m.nonce < 2 ^ 64)
    (hcode : m.statusCode < 2 ^ 64) (hdef : m.defaultStatusCode = false)
    (hstr : ∀ s, m.statusMsg = some s → 0 ∉ s) (hunk : m.unknown = none)
    (hkr : m.receiverPubKey = keyOfBytes pr) (hks : m.senderPubKey = keyOfBytes ps)
    (hrl : pr.length = 33 ∨ pr.length = 65) (hsl : ps.length = 33 ∨ ps.length = 65)
    (hrz : pr ≠ List.replicate pr.length 0) (hsz : ps ≠ List.replicate ps.length 0)
    (hrp : (c.ec_pubkey_parse pr).isSome = true) (hsp : (c.ec_pubkey_parse ps).isSome = true)
    (h64 : (encryptedBytes c m).length < 2 ^ 64) :
    LWPaymentProtocolEncryptedMessageParse c (some (encryptedBytes c m ++ t))
      (encryptedBytes c m).length = some (some m) := by
  have hR : LWKeyPubKey c m.receiverPubKey = pr := by rw [hkr]; exact keyOfBytes_pubKey c pr hrl hrz
  have hS : LWKeyPubKey c m.senderPubKey = ps := by rw [hks]; exact keyOfBytes_pubKey c ps hsl hsz
  have hbytes := encryptedBytes_items c m
  rw [hunk] at hbytes
  simp only [Option.getD_none, List.append_nil] at hbytes
  have hreads := Reads.items (encryptedStep c) true id (encryptedField c)
    (encryptedBytes c m ++ t) h64 (encryptedItems c m) 0 t
    { msg := { msgType := 0, message := none,
               receiverPubKey := ⟨List.replicate 32 0, List.replicate 65 0, false⟩,
               senderPubKey := ⟨List.replicate 32 0, List.replicate 65 0, false⟩,
               nonce := 0, signature := none, identifier := none, statusCode := 0,
               statusMsg := none, defaultStatusCode := true, unknown := none },
      gotMsgType := false, gotNonce := false, gotReceiverPK := false, gotSenderPK := false }
    (by rw [List.drop_zero, hbytes]) (by rw [← hbytes]; omega) (by
      intro e he
      unfold encryptedItems at he
      rw [hR, hS] at he
      simp only [List.mem_append, List.mem_cons, List.mem_singleton, List.not_mem_nil,
        or_false, part] at he
      rcases he with (h | h | h | h | h) | h | h | h | h
      · subst h
        refine ⟨by norm_num, fun s t => ?_⟩
        simp [encryptedStep, encryptedField, fieldValue, encrypted_msg_msg_type]
      · subst h
        refine ⟨by norm_num, fun s t => ?_⟩
        simp [encryptedStep, encryptedField, encrypted_msg_msg_type, encrypted_msg_message,
          protoBufBytes_data]
      · subst h
        refine ⟨by norm_num, fun s t => ?_⟩
        simp [encryptedStep, encryptedField, encrypted_msg_msg_type, encrypted_msg_message,
          encrypted_msg_receiver_pk, setPubKey_bytes c pr t hrl]
      · subst h
        refine ⟨by norm_num, fun s t => ?_⟩
        simp [encryptedStep, encryptedField, encrypted_msg_msg_type, encrypted_msg_message,
          encrypted_msg_receiver_pk, encrypted_msg_sender_pk, setPubKey_bytes c ps t hsl]
      · subst h
        refine ⟨by norm_num, fun s t => ?_⟩
        simp [encryptedStep, encryptedField, fieldValue, encrypted_msg_msg_type,
          encrypted_msg_message, encrypted_msg_receiver_pk, encrypted_msg_sender_pk,
          encrypted_msg_nonce]
      · split at h
        · simp only [List.mem_singleton] at h
          subst h
          refine ⟨by norm_num, fun s t => ?_⟩
          simp [encryptedStep, encryptedField, encrypted_msg_msg_type,
            encrypted_msg_message, encrypted_msg_receiver_pk, encrypted_msg_sender_pk,
            encrypted_msg_nonce, encrypted_msg_signature, protoBufBytes_data]
        · cases h
      · split at h
        · simp only [List.mem_singleton] at h
          subst h
          refine ⟨by norm_num, fun s t => ?_⟩
          simp [encryptedStep, encryptedField, encrypted_msg_msg_type,
            encrypted_msg_message, encrypted_msg_receiver_pk, encrypted_msg_sender_pk,
            encrypted_msg_nonce, encrypted_msg_signature, encrypted_msg_identifier,
            protoBufBytes_data]
        · cases h
      · split at h
        · simp only [List.mem_singleton] at h
          subst h
          refine ⟨by norm_num, fun s t => ?_⟩
          simp [encryptedStep, encryptedField, fieldValue, encrypted_msg_msg_type,
            encrypted_msg_message, encrypted_msg_receiver_pk, encrypted_msg_sender_pk,
            encrypted_msg_nonce, encrypted_msg_signature, encrypted_msg_identifier,
            encrypted_msg_status_code]
        · cases h
      · split at h
        · simp only [List.mem_singleton] at h
          subst h
          refine ⟨by norm_num, fun s t => ?_⟩
          simp [encryptedStep, encryptedField, encrypted_msg_msg_type,
            encrypted_msg_message, encrypted_msg_receiver_pk, encrypted_msg_sender_pk,
            encrypted_msg_nonce, encrypted_msg_signature, encrypted_msg_identifier,
            encrypted_msg_status_code, encrypted_msg_status_msg, protoBufString_data]
        · cases h)
  rw [Nat.zero_add, ← hbytes] at hreads
  have hloop := Reads.finish hreads
  unfold LWPaymentProtocolEncryptedMessageParse
  rw [if_neg (by simp), hloop,
    encryptedItems_fold c m pr ps hmsg htype hnonce hcode hdef hstr hunk hkr hks hR hS hrp hsp]
  have hne : ¬ m.message = none := by
    intro h
    rw [h] at hmsg
    cases hmsg
  simp [hne]

theorem cek_eq (c : Crypto) (msg : LWPaymentProtocolEncryptedMessage) (k : LWKey) :
    _LWPaymentProtocolEncryptedMessageCEK c msg k =
      (_LWECDH c k (if LWKeyPubKey c k = LWKeyPubKey c msg.receiverPubKey then msg.senderPubKey
        else msg.receiverPubKey)).map (fun secret =>
          ((c.LWHMACDRBG 32 none (some (c.LWSHA512 secret)) (some (bigEndian8 msg.nonce))).1,
            (c.LWHMACDRBG 12
              (some (c.LWHMACDRBG 32 none (some (c.LWSHA512 secret))
                (some (bigEndian8 msg.nonce))).2) none none).1)) := by
  unfold _LWPaymentProtocolEncryptedMessageCEK
  have hpeer : (if (LWKeyPubKey c k).length ≠ (LWKeyPubKey c msg.receiverPubKey).length ∨
      LWKeyPubKey c k ≠ LWKeyPubKey c msg.receiverPubKey then msg.receiverPubKey
      else msg.senderPubKey) =
      (if LWKeyPubKey c k = LWKeyPubKey c msg.receiverPubKey then msg.senderPubKey
        else msg.receiverPubKey) := by
    by_cases h : LWKeyPubKey c k = LWKeyPubKey c msg.receiverPubKey
    · rw [if_pos h, if_neg (by rw [h]; simp)]
    · rw [if_neg h, if_pos (Or.inr h)]
  simp only [hpeer]
  cases _LWECDH c k (if LWKeyPubKey c k = LWKeyPubKey c msg.receiverPubKey then msg.senderPubKey
      else msg.receiverPubKey) <;> rfl

theorem ecdh_isSome (c : Crypto) (k : LWKey) (p : List Nat)
    (hl : p.length = 33 ∨ p.length = 65) (hz : p ≠ List.replicate p.length 0) :
    (_LWECDH c k (keyOfBytes p)).isSome = true := by
  unfold _LWECDH
  simp only [keyOfBytes_pubKey c p hl hz]
  rw [if_neg (by omega)]
  rfl

theorem cstr_cstr (s : List Nat) : cstr (cstr s) = cstr s :=
  cstr_of_no_zero _ (cstr_no_zero s)

theorem statusText_norm (code : Nat) (str : Option (List Nat)) :
    statusText (code % 2 ^ 64) (str.map cstr) = statusText code str := by
  unfold statusText
  rw [Nat.mod_mod]
  cases str with
  | none => rfl
  | some s => simp [cstr_cstr]

/-! ### Payment protocol: the unknown fields -/

theorem setFixed_writes (i size : Nat) (hs : size ≤ 8) :
    Writes (fun buf off => _ProtoBufSetFixed buf i off size) (rawBytes size i) := by
  intro buf off hoff
  dsimp only
  rw [rawBytes_length] at hoff
  have hsz : sizeT (off + size) = off + size := Nat.mod_eq_of_lt hoff
  unfold _ProtoBufSetFixed
  cases buf with
  | none =>
    simp only [hsz]
    refine ⟨none, (by rw [rawBytes_length]), (fun _ => rfl), (fun l hl => by cases hl)⟩
  | some l =>
    simp only [hsz]
    by_cases hfit : off + size ≤ l.length
    · rw [if_pos ⟨hfit, hs⟩, if_neg (by omega)]
      refine ⟨_, (by rw [rawBytes_length]), (fun h => by cases h), (fun l1 hl1 => ?_)⟩
      cases hl1
      refine ⟨_, rfl, ?_, (fun _ => by rw [rawBytes_length])⟩
      simp only [List.length_append, List.length_take, List.length_drop, rawBytes_length]
      omega
    · rw [if_neg (fun h => hfit h.1)]
      refine ⟨_, (by rw [rawBytes_length]), (fun h => by cases h), (fun l1 hl1 => ?_)⟩
      cases hl1
      refine ⟨_, rfl, rfl, fun h => ?_⟩
      rw [rawBytes_length] at h
      exact absurd h hfit

theorem fieldBytes_lt (key i : Nat) (data : List Nat) (hd : ∀ x ∈ data, x < 256) :
    ∀ x ∈ fieldBytes key i data, x < 256 := by
  intro x hx
  unfold fieldBytes at hx
  rw [List.mem_append] at hx
  rcases hx with h | h
  · exact varIntGroups_lt _ _ x h
  · split at h
    · exact varIntGroups_lt _ _ x h
    · split at h
      · exact rawBytes_lt _ _ x h
      · split at h
        · rw [List.mem_append] at h
          rcases h with h | h
          · exact varIntGroups_lt _ _ x h
          · exact hd x h
        · split at h
          · exact rawBytes_lt _ _ x h
          · cases h

theorem unknown_eq (u : Option (List Nat)) (key i : Nat) (data : Option (List Nat))
    (dataLen : Nat) (hdata : key % 8 = 2 → ∃ d, data = some d ∧ dataLen ≤ d.length)
    (hfit : FitsUnknown key i ((data.getD []).take dataLen))
    (hbytes : ∀ x ∈ (data.getD []).take dataLen, x < 256) :
    _ProtoBufUnknown u key i data dataLen =
      (unknownLoop key (u.getD []) ((u.getD []).length + 1) 0 0).map (fun r =>
        some (r.1.take r.2 ++ fieldBytes key i ((data.getD []).take dataLen) ++ r.1.drop r.2)) := by
  have hlt := fieldBytes_lt key i _ hbytes
  obtain ⟨hfit, h64'⟩ := hfit
  have hdl : key % 8 = 2 → ((data.getD []).take dataLen).length = dataLen := by
    intro h
    obtain ⟨d, hd, hle⟩ := hdata h
    rw [hd, Option.getD_some, List.length_take, Nat.min_eq_left hle]
  have h64 : key % 8 = 2 → dataLen + 10 < 2 ^ 64 := by
    intro h
    have := h64' h
    rw [hdl h] at this
    exact this
  have hbl : sizeT (10 + (if key &&& 0x07 = PROTOBUF_LENDELIM then dataLen else 0)) =
      10 + (if key % 8 = 2 then dataLen else 0) := by
    rw [and_07]
    have : PROTOBUF_LENDELIM = 2 := rfl
    rw [this]
    by_cases h2 : key % 8 = 2
    · rw [if_pos h2]
      have := h64 h2
      exact Nat.mod_eq_of_lt (by omega)
    · rw [if_neg h2]
      exact Nat.mod_eq_of_lt (by norm_num)
  have hfit' : (fieldBytes key i ((data.getD []).take dataLen)).length ≤
      10 + (if key % 8 = 2 then dataLen else 0) := by
    by_cases h2 : key % 8 = 2
    · rw [if_pos h2] at hfit ⊢
      rw [hdl h2] at hfit
      exact hfit
    · rw [if_neg h2] at hfit ⊢
      exact hfit
  -- the two writes into the local buffer
  have hw : ∀ (buf : Option (List Nat)),
      Wrote buf 0 (fieldBytes key i ((data.getD []).take dataLen))
        (match _ProtoBufSetVarInt buf key 0 with
          | none => none
          | some (buf1, off1) =>
            if key &&& 0x07 = PROTOBUF_VARINT then _ProtoBufSetVarInt buf1 i off1
            else if key &&& 0x07 = PROTOBUF_64BIT then _ProtoBufSetFixed buf1 i off1 8
            else if key &&& 0x07 = PROTOBUF_LENDELIM then
              _ProtoBufSetLenDelim buf1 data dataLen off1
            else if key &&& 0x07 = PROTOBUF_32BIT then _ProtoBufSetFixed buf1 i off1 4
            else some (buf1, off1)) := by
    intro buf
    have hlen64 : 0 + (fieldBytes key i ((data.getD []).take dataLen)).length < 2 ^ 64 := by
      by_cases h2 : key % 8 = 2
      · rw [if_pos h2] at hfit'
        have := h64 h2
        omega
      · rw [if_neg h2] at hfit'
        omega
    unfold fieldBytes at hlen64 ⊢
    rw [List.length_append] at hlen64
    obtain ⟨buf1, e1, w1⟩ := (setVarInt_writes key buf 0 (by omega)).some_eq
    dsimp only at e1
    rw [e1]
    refine Wrote.append w1 ?_
    simp only [and_07, PROTOBUF_VARINT, PROTOBUF_64BIT, PROTOBUF_LENDELIM, PROTOBUF_32BIT]
    by_cases h0 : key % 8 = 0
    · rw [if_pos h0] at hlen64 ⊢
      rw [if_pos h0]
      exact setVarInt_writes i buf1 _ (by omega)
    · rw [if_neg h0] at hlen64 ⊢
      rw [if_neg h0]
      by_cases h1 : key % 8 = 1
      · rw [if_pos h1] at hlen64 ⊢
        rw [if_pos h1]
        exact setFixed_writes i 8 (by norm_num) buf1 _ (by omega)
      · rw [if_neg h1] at hlen64 ⊢
        rw [if_neg h1]
        by_cases h2 : key % 8 = 2
        · rw [if_pos h2] at hlen64 ⊢
          rw [if_pos h2]
          obtain ⟨d, hd, hle⟩ := hdata h2
          have hl := hdl h2
          rw [hd] at hl hlen64 ⊢
          simp only [Option.getD_some] at hl hlen64 ⊢
          rw [hl]
          rw [List.length_append, hl] at hlen64
          exact setLenDelim_writes d dataLen hle (by omega) buf1 _ (by
            rw [List.length_append, hl]; omega)
        · rw [if_neg h2] at hlen64 ⊢
          rw [if_neg h2]
          by_cases h5 : key % 8 = 5
          · rw [if_pos h5] at hlen64 ⊢
            rw [if_pos h5]
            exact setFixed_writes i 4 (by norm_num) buf1 _ (by omega)
          · rw [if_neg h5] at hlen64 ⊢
            rw [if_neg h5]
            exact Wrote.nil buf1 _
  unfold _ProtoBufUnknown
  simp only [hbl]
  obtain ⟨buf2, e2, _, w2⟩ := hw (some (List.replicate (10 + (if key % 8 = 2 then dataLen else 0)) 256))
  obtain ⟨l2, hl2, hlen2, hcont⟩ := w2 _ rfl
  rw [List.length_replicate] at hlen2 hcont
  have hc := hcont (by omega)
  rw [List.take_zero, List.nil_append, Nat.zero_add] at hc
  -- the bytes taken from the local buffer
  have hbytes2 : (l2).take (if 0 + (fieldBytes key i ((data.getD []).take dataLen)).length <
      10 + (if key % 8 = 2 then dataLen else 0) then
        0 + (fieldBytes key i ((data.getD []).take dataLen)).length
      else 10 + (if key % 8 = 2 then dataLen else 0)) =
      fieldBytes key i ((data.getD []).take dataLen) := by
    rw [Nat.zero_add]
    have : (if (fieldBytes key i ((data.getD []).take dataLen)).length <
        10 + (if key % 8 = 2 then dataLen else 0) then
          (fieldBytes key i ((data.getD []).take dataLen)).length
        else 10 + (if key % 8 = 2 then dataLen else 0)) =
        (fieldBytes key i ((data.getD []).take dataLen)).length := by
      by_cases hh : (fieldBytes key i ((data.getD []).take dataLen)).length <
          10 + (if key % 8 = 2 then dataLen else 0)
      · rw [if_pos hh]
      · rw [if_neg hh]
        omega
    rw [this, hc, List.take_left]
  have hmatch : (match _ProtoBufSetVarInt
        (some (List.replicate (10 + (if key % 8 = 2 then dataLen else 0)) 256)) key 0 with
      | none => none
      | some (buf1, off1) =>
        if key &&& 0x07 = PROTOBUF_VARINT then _ProtoBufSetVarInt buf1 i off1
        else if key &&& 0x07 = PROTOBUF_64BIT then _ProtoBufSetFixed buf1 i off1 8
        else if key &&& 0x07 = PROTOBUF_LENDELIM then
          _ProtoBufSetLenDelim buf1 data dataLen off1
        else if key &&& 0x07 = PROTOBUF_32BIT then _ProtoBufSetFixed buf1 i off1 4
        else some (buf1, off1)) =
      some (some l2, 0 + (fieldBytes key i ((data.getD []).take dataLen)).length) := by
    rw [e2, hl2]
  cases hv : _ProtoBufSetVarInt
      (some (List.replicate (10 + (if key % 8 = 2 then dataLen else 0)) 256)) key 0 with
  | none =>
    rw [hv] at hmatch
    cases hmatch
  | some p =>
    obtain ⟨buf1, off1⟩ := p
    rw [hv] at hmatch
    simp only at hmatch ⊢
    rw [hmatch]
    simp only [Option.getD_some, hbytes2]
    rw [if_neg (fun h => absurd (hlt 256 h) (by omega))]
    cases unknownLoop key (u.getD []) ((u.getD []).length + 1) 0 0 with
    | none => rfl
    | some r => rfl

theorem fieldBytes_value (key i : Nat) (data : List Nat) :
    fieldBytes key (fieldValue key i) data = fieldBytes key i data := by
  unfold fieldBytes fieldValue
  by_cases h0 : key % 8 = 0
  · simp only [h0, true_or, if_true]
    rw [varIntBytes_mod]
  · by_cases h1 : key % 8 = 1
    · simp only [h1, or_true, if_true, Nat.reduceEqDiff, if_false]
      have := rawBytes_mod 8 i
      norm_num at this ⊢
      rw [this]
    · by_cases h2 : key % 8 = 2
      · simp only [h2, Nat.reduceEqDiff, if_false, if_true, or_self]
      · by_cases h5 : key % 8 = 5
        · simp only [h5, Nat.reduceEqDiff, if_false, if_true, or_self]
          have := rawBytes_mod 4 i
          norm_num at this ⊢
          rw [this]
        · simp only [h0, h1, h2, h5, if_false, or_self]

theorem unknown_single (key i bufLen : Nat) (data t : List Nat)
    (hfit : FitsUnknown key i data) (hbytes : ∀ x ∈ data, x < 256) :
    _ProtoBufUnknown none key (fieldValue key i)
      (if key % 8 = 2 then some (data ++ t) else none)
      (if key % 8 = 2 then data.length else bufLen) = some (some (fieldBytes key i data)) := by
  by_cases h2 : key % 8 = 2
  · simp only [h2, if_true]
    rw [unknown_eq none key _ (some (data ++ t)) data.length
      (fun _ => ⟨_, rfl, by simp⟩)
      (by simp only [Option.getD_some, List.take_left]
          unfold FitsUnknown at hfit ⊢
          rw [fieldBytes_value]
          exact hfit)
      (by simp only [Option.getD_some, List.take_left]; exact hbytes)]
    have hl : unknownLoop key [] (0 + 1) 0 0 = some ([], 0) := by simp [unknownLoop]
    simp only [Option.getD_none, List.length_nil, Option.getD_some, List.take_left,
      fieldBytes_value, hl]
    simp
  · simp only [h2, if_false]
    rw [unknown_eq none key _ none bufLen (fun h => absurd h h2)
      (by simp only [Option.getD_none, List.take_nil]
          unfold FitsUnknown at hfit ⊢
          rw [fieldBytes_value]
          unfold fieldBytes at hfit ⊢
          simp only [h2, if_false] at hfit ⊢
          exact ⟨hfit.1, fun h => h.elim⟩)
      (by simp)]
    simp only [Option.getD_none, List.length_nil, List.take_nil, fieldBytes_value]
    have : fieldBytes key i [] = fieldBytes key i data := by
      unfold fieldBytes
      simp only [h2, if_false]
    have hl : unknownLoop key [] (0 + 1) 0 0 = some ([], 0) := by simp [unknownLoop]
    rw [this, hl]
    simp

/-! ### Payment protocol: parsing a serialization -/

theorem Reads.unknownTail {σ : Type}
    (step : σ → Nat → Nat → Option (List Nat) → Nat → Option σ) (cb : Bool) (keys : List Nat)
    (getU : σ → Option (List Nat)) (setU : σ → Option (List Nat) → σ)
    (b : List Nat) (bufLen off : Nat) (s : σ) (u : Option (List Nat)) (t : List Nat)
    (hstep : ∀ s key i data len, (key >>> 3) ∉ keys →
      step s key i data len = (_ProtoBufUnknown (getU s) key i data len).map (setU s))
    (hs : getU s = none) (hu : SingleUnknown keys u)
    (hb : b.drop off = u.getD [] ++ t) (hfit : off + (u.getD []).length ≤ bufLen)
    (h64 : bufLen < 2 ^ 64) :
    Reads step cb b bufLen off (off + (u.getD []).length) s
      (match u with
        | none => s
        | some _ => setU s u) := by
  rcases hu with h | ⟨key, i, data, h, hk, hkeys, hfits, hbytes⟩
  · subst h
    exact Reads.stay step cb b bufLen off s
  · subst h
    simp only [Option.getD_some] at hb hfit ⊢
    refine Reads.field cb hb hfit h64 hk ?_
    rw [hstep _ _ _ _ _ hkeys, hs, unknown_single key i bufLen data t hfits hbytes]
    rfl

theorem outputBytes_items (o : ProtoBufOutput) :
    outputBytes o = itemBytes id (outputItems o) ++ o.unknown.getD [] := by
  unfold outputBytes outputItems
  simp only [itemBytes_append, itemBytes_part, id]

theorem outputParse_serialize (o : ProtoBufOutput) (t : List Nat)
    (hs : o.defaultScript = false) (hu : SingleUnknown outputKeys o.unknown)
    (h64 : (outputBytes o).length < 2 ^ 64) :
    _LWPaymentProtocolOutputParse (some (outputBytes o ++ t)) (outputBytes o).length =
      some (some (normOutput o)) := by
  have hbytes := outputBytes_items o
  have hlen : (outputBytes o).length =
      (itemBytes id (outputItems o)).length + (o.unknown.getD []).length := by
    rw [hbytes, List.length_append]
  have r1 := Reads.items (outputStep) false id outputField
    (outputBytes o ++ t) h64 (outputItems o) 0 (o.unknown.getD [] ++ t)
    { amount := 0, script := none, defaultAmount := true, unknown := none }
    (by rw [List.drop_zero, hbytes, List.append_assoc]) (by omega) (by
      intro e he
      unfold outputItems at he
      simp only [List.mem_append, part] at he
      rcases he with h | h
      · split at h
        · simp only [List.mem_singleton] at h
          subst h
          refine ⟨by norm_num, fun s t => ?_⟩
          simp [outputStep, outputField, fieldValue, output_amount]
        · cases h
      · split at h
        · simp only [List.mem_singleton] at h
          subst h
          refine ⟨by norm_num, fun s t => ?_⟩
          simp [outputStep, outputField, output_amount, output_script, LWTxOutputSetScript]
        · cases h)
  have r2 := Reads.unknownTail outputStep false outputKeys (fun s => s.unknown)
    (fun s u => { s with unknown := u })
    (outputBytes o ++ t) ((outputBytes o).length)
    (0 + (itemBytes id (outputItems o)).length)
    ((outputItems o).foldl outputField
      { amount := 0, script := none, defaultAmount := true, unknown := none })
    (o.unknown) (t) (by
      intro s key i data len hk
      unfold outputKeys at hk
      simp only [List.mem_cons, List.mem_singleton, List.not_mem_nil, or_false, not_or] at hk
      simp [outputStep, output_amount, output_script, hk.1, hk.2]) (by
      unfold outputItems
      cases o.defaultAmount <;> cases o.defaultScript <;> simp [part, outputField]) hu (by
      rw [Nat.zero_add, hbytes, List.append_assoc, List.drop_left]) (by omega) h64
  have r := Reads.chain r1 r2
  rw [Nat.zero_add, ← hlen] at r
  have hloop := Reads.finish r
  unfold _LWPaymentProtocolOutputParse
  rw [hloop]
  obtain ⟨amount, script, da, ds, unk⟩ := o
  simp only at hs
  subst hs
  cases da <;> cases unk <;> simp [outputItems, part, outputField, normOutput]

theorem detailsBytes_items (d : LWPaymentProtocolDetails) :
    detailsBytes d = itemBytes Prod.fst (detailsItems d) ++ d.unknown.getD [] := by
  unfold detailsBytes detailsItems
  simp only [itemBytes_append, itemBytes_part, List.append_assoc]
  congr 2
  simp only [itemBytes, List.map_map]
  rfl

theorem detailsField_outputs (os : List ProtoBufOutput) (s : LWPaymentProtocolDetails) :
    (os.map (fun o => (((18, 0, outputBytes o), some o) :
      (Nat × Nat × List Nat) × Option ProtoBufOutput))).foldl detailsField s =
      { s with outputs := s.outputs ++ os.map normOutput } := by
  induction os generalizing s with
  | nil => simp
  | cons o rest ih =>
    rw [List.map_cons, List.foldl_cons, ih]
    simp [detailsField]

theorem detailsParse_serialize (d : LWPaymentProtocolDetails) (t : List Nat)
    (ho : ∀ o ∈ d.outputs, o.defaultScript = false ∧ SingleUnknown outputKeys o.unknown)
    (hu : SingleUnknown detailsKeys d.unknown) (h64 : (detailsBytes d).length < 2 ^ 64) :
    LWPaymentProtocolDetailsParse (some (detailsBytes d ++ t)) (detailsBytes d).length =
      some (normDetails d) := by
  have hbytes := detailsBytes_items d
  have hlen : (detailsBytes d).length =
      (itemBytes Prod.fst (detailsItems d)).length + (d.unknown.getD []).length := by
    rw [hbytes, List.length_append]
  have hout : ∀ o ∈ d.outputs, (outputBytes o).length < 2 ^ 64 := by
    intro o hmem
    have h1 : fieldBytes 18 0 (outputBytes o) ∈
        d.outputs.map (fun o => fieldBytes 18 0 (outputBytes o)) :=
      List.mem_map_of_mem _ hmem
    have h2 := flatten_length_le h1
    have h3 := fieldBytes_length_le 18 0 (outputBytes o) (by norm_num)
    have h4 : ((d.outputs.map (fun o => fieldBytes 18 0 (outputBytes o))).flatten).length ≤
        (detailsBytes d).length := by
      unfold detailsBytes
      simp only [List.length_append]
      omega
    omega
  have r1 := Reads.items (detailsStep) true Prod.fst detailsField
    (detailsBytes d ++ t) h64 (detailsItems d) 0 (d.unknown.getD [] ++ t)
    { network := none, outputs := [], time := 0, expires := 0, memo := none,
      paymentURL := none, merchantData := none, defaultNetwork := false,
      defaultTime := true, defaultExpires := true, unknown := none }
    (by rw [List.drop_zero, hbytes, List.append_assoc]) (by omega) (by
      intro e he
      unfold detailsItems at he
      simp only [List.mem_append, part, List.mem_map] at he
      rcases he with h | ⟨o, hmem, h⟩ | h | h | h | h | h
      · split at h
        · simp only [List.mem_singleton] at h
          subst h
          refine ⟨by norm_num, fun s t => ?_⟩
          simp [detailsStep, detailsField, details_network, protoBufString_data]
        · cases h
      · subst h
        refine ⟨by norm_num, fun s t => ?_⟩
        have := outputParse_serialize o t (ho o hmem).1 (ho o hmem).2 (hout o hmem)
        simp [detailsStep, detailsField, details_network, details_outputs, this]
      · split at h
        · simp only [List.mem_singleton] at h
          subst h
          refine ⟨by norm_num, fun s t => ?_⟩
          simp [detailsStep, detailsField, fieldValue, details_network, details_outputs,
            details_time]
        · cases h
      · split at h
        · simp only [List.mem_singleton] at h
          subst h
          refine ⟨by norm_num, fun s t => ?_⟩
          simp [detailsStep, detailsField, fieldValue, details_network, details_outputs,
            details_time, details_expires]
        · cases h
      · split at h
        · simp only [List.mem_singleton] at h
          subst h
          refine ⟨by norm_num, fun s t => ?_⟩
          simp [detailsStep, detailsField, details_network, details_outputs,
            details_time, details_expires, details_memo, protoBufString_data]
        · cases h
      · split at h
        · simp only [List.mem_singleton] at h
          subst h
          refine ⟨by norm_num, fun s t => ?_⟩
          simp [detailsStep, detailsField, details_network, details_outputs,
            details_time, details_expires, details_memo, details_payment_url,
            protoBufString_data]
        · cases h
      · split at h
        · simp only [List.mem_singleton] at h
          subst h
          refine ⟨by norm_num, fun s t => ?_⟩
          simp [detailsStep, detailsField, details_network, details_outputs,
            details_time, details_expires, details_memo, details_payment_url,
            details_merch_data, protoBufBytes_data]
        · cases h)
  have hfold : (detailsItems d).foldl detailsField
      { network := none, outputs := [], time := 0, expires := 0, memo := none,
        paymentURL := none, merchantData := none, defaultNetwork := false,
        defaultTime := true, defaultExpires := true, unknown := none } =
      { network := if d.defaultNetwork then none else some (cstr (d.network.getD [])),
        outputs := d.outputs.map normOutput,
        time := if d.defaultTime then 0 else d.time % 2 ^ 64,
        expires := if d.defaultExpires then 0 else d.expires % 2 ^ 64,
        memo := d.memo.map cstr, paymentURL := d.paymentURL.map cstr,
        merchantData := d.merchantData, defaultNetwork := false,
        defaultTime := d.defaultTime, defaultExpires := d.defaultExpires, unknown := none } := by
    unfold detailsItems
    simp only [List.foldl_append, detailsField_outputs]
    obtain ⟨network, outputs, time, expires, memo, url, merch, dn, dt, de, unk⟩ := d
    cases dn <;> cases dt <;> cases de <;> cases memo <;> cases url <;> cases merch <;>
      simp [part, detailsField]
  have r2 := Reads.unknownTail detailsStep true detailsKeys (fun s => s.unknown)
    (fun s u => { s with unknown := u })
    (detailsBytes d ++ t) ((detailsBytes d).length)
    (0 + (itemBytes Prod.fst (detailsItems d)).length)
    ((detailsItems d).foldl detailsField
      { network := none, outputs := [], time := 0, expires := 0, memo := none,
        paymentURL := none, merchantData := none, defaultNetwork := false,
        defaultTime := true, defaultExpires := true, unknown := none })
    (d.unknown) (t) (by
      intro s key i data len hk
      unfold detailsKeys at hk
      simp only [List.mem_cons, List.mem_singleton, List.not_mem_nil, or_false, not_or] at hk
      simp [detailsStep, details_network, details_outputs, details_time, details_expires,
        details_memo, details_payment_url, details_merch_data, hk]) (by rw [hfold]) hu (by
      rw [Nat.zero_add, hbytes, List.append_assoc, List.drop_left]) (by omega) h64
  have r := Reads.chain r1 r2
  rw [Nat.zero_add, ← hlen, hfold] at r
  have hloop := Reads.finish r
  unfold LWPaymentProtocolDetailsParse
  rw [if_neg (by simp), hloop]
  obtain ⟨network, outputs, time, expires, memo, url, merch, dn, dt, de, unk⟩ := d
  cases dn <;> cases unk <;> simp [normDetails]

theorem requestBytes_items (r : LWPaymentProtocolRequest) :
    requestBytes r = itemBytes Prod.fst (requestItems r) ++ r.unknown.getD [] := by
  unfold requestBytes requestItems
  simp only [itemBytes_append, itemBytes_part, List.append_assoc]
  cases r.details with
  | none => simp [itemBytes]
  | some d => simp [itemBytes]

theorem requestParse_serialize (r : LWPaymentProtocolRequest) (d : LWPaymentProtocolDetails)
    (t : List Nat) (hd : r.details = some d)
    (ho : ∀ o ∈ d.outputs, o.defaultScript = false ∧ SingleUnknown outputKeys o.unknown)
    (hud : SingleUnknown detailsKeys d.unknown) (hu : SingleUnknown requestKeys r.unknown)
    (h64 : (requestBytes r).length < 2 ^ 64) :
    LWPaymentProtocolRequestParse (some (requestBytes r ++ t)) (requestBytes r).length =
      some (some (normRequest r)) := by
  have hbytes := requestBytes_items r
  have hlen : (requestBytes r).length =
      (itemBytes Prod.fst (requestItems r)).length + (r.unknown.getD []).length := by
    rw [hbytes, List.length_append]
  have hdl : (detailsBytes d).length < 2 ^ 64 := by
    have h3 := fieldBytes_length_le 34 0 (detailsBytes d) (by norm_num)
    have h4 : (fieldBytes 34 0 (detailsBytes d)).length ≤ (requestBytes r).length := by
      unfold requestBytes
      rw [hd]
      simp only [List.length_append, Option.map_some', Option.getD_some]
      omega
    omega
  have r1 := Reads.items (requestStep) true Prod.fst requestField
    (requestBytes r ++ t) h64 (requestItems r) 0 (r.unknown.getD [] ++ t)
    { version := 1, pkiType := none, pkiData := none, details := none, signature := none,
      sigLen := 0, defaultVersion := true, defaultPkiType := false, unknown := none }
    (by rw [List.drop_zero, hbytes, List.append_assoc]) (by omega) (by
      intro e he
      unfold requestItems at he
      rw [hd] at he
      simp only [List.mem_append, part, Option.map_some', Option.getD_some,
        List.mem_singleton] at he
      rcases he with h | h | h | h | h
      · split at h
        · simp only [List.mem_singleton] at h
          subst h
          refine ⟨by norm_num, fun s t => ?_⟩
          simp [requestStep, requestField, fieldValue, request_version]
        · cases h
      · split at h
        · simp only [List.mem_singleton] at h
          subst h
          refine ⟨by norm_num, fun s t => ?_⟩
          simp [requestStep, requestField, request_version, request_pki_type,
            protoBufString_data]
        · cases h
      · split at h
        · simp only [List.mem_singleton] at h
          subst h
          refine ⟨by norm_num, fun s t => ?_⟩
          simp [requestStep, requestField, request_version, request_pki_type,
            request_pki_data, protoBufBytes_data]
        · cases h
      · subst h
        refine ⟨by norm_num, fun s t => ?_⟩
        have := detailsParse_serialize d t ho hud hdl
        simp [requestStep, requestField, request_version, request_pki_type,
          request_pki_data, request_details, this]
      · split at h
        · simp only [List.mem_singleton] at h
          obtain ⟨sg, hsg⟩ : ∃ sg, sg = (r.signature.getD []).take r.sigLen := ⟨_, rfl⟩
          rw [← hsg] at h
          subst h
          refine ⟨by norm_num, fun s t => ?_⟩
          simp [requestStep, requestField, request_version, request_pki_type,
            request_pki_data, request_details, request_signature, protoBufBytes_data]
        · cases h)
  have hfold : (requestItems r).foldl requestField
      { version := 1, pkiType := none, pkiData := none, details := none, signature := none,
        sigLen := 0, defaultVersion := true, defaultPkiType := false, unknown := none } =
      { version := if r.defaultVersion then 1 else r.version % 2 ^ 64 % 2 ^ 32,
        pkiType := if r.defaultPkiType then none else some (cstr (r.pkiType.getD [])),
        pkiData := r.pkiData, details := some (normDetails d),
        signature := r.signature.map (fun s => s.take r.sigLen),
        sigLen := ((r.signature.map (fun s => s.take r.sigLen)).getD []).length,
        defaultVersion := r.defaultVersion, defaultPkiType := false, unknown := none } := by
    unfold requestItems
    rw [hd]
    obtain ⟨version, pkiType, pkiData, details, signature, sigLen, dv, dp, unk⟩ := r
    cases dv <;> cases dp <;> cases pkiData <;> cases signature <;>
      simp [part, requestField]
  have r2 := Reads.unknownTail requestStep true requestKeys (fun s => s.unknown)
    (fun s u => { s with unknown := u })
    (requestBytes r ++ t) ((requestBytes r).length)
    (0 + (itemBytes Prod.fst (requestItems r)).length)
    ((requestItems r).foldl requestField
      { version := 1, pkiType := none, pkiData := none, details := none, signature := none,
        sigLen := 0, defaultVersion := true, defaultPkiType := false, unknown := none })
    (r.unknown) (t) (by
      intro s key i data len hk
      unfold requestKeys at hk
      simp only [List.mem_cons, List.mem_singleton, List.not_mem_nil, or_false, not_or] at hk
      simp [requestStep, request_version, request_pki_type, request_pki_data,
        request_details, request_signature, hk]) (by rw [hfold]) hu (by
      rw [Nat.zero_add, hbytes, List.append_assoc, List.drop_left]) (by omega) h64
  have rr := Reads.chain r1 r2
  rw [Nat.zero_add, ← hlen, hfold] at rr
  have hloop := Reads.finish rr
  unfold LWPaymentProtocolRequestParse
  rw [if_neg (by simp), hloop]
  obtain ⟨version, pkiType, pkiData, details, signature, sigLen, dv, dp, unk⟩ := r
  simp only at hd
  subst hd
  cases dp <;> cases unk <;> simp [normRequest]

theorem parseLoop_inv {σ : Type} (step : σ → Nat → Nat → Option (List Nat) → Nat → Option σ)
    (cb : Bool) (buf : Option (List Nat)) (bufLen : Nat) (P : σ → Prop)
    (hstep : ∀ s key i data len s1, P s → step s key i data len = some s1 → P s1) :
    ∀ (fuel off : Nat) (s r : σ), P s → parseLoop step cb buf bufLen fuel off s = some r → P r := by
  intro fuel
  induction fuel with
  | zero => intro off s r _ h; simp [parseLoop] at h
  | succ fuel ih =>
    intro off s r hp h
    rw [parseLoop] at h
    split at h
    · cases hf : _ProtoBufField buf bufLen off with
      | none => rw [hf] at h; cases h
      | some p =>
        obtain ⟨key, i, data, dataLen, off1⟩ := p
        rw [hf] at h
        simp only at h
        cases hs : step s key i data dataLen with
        | none => rw [hs] at h; cases h
        | some s1 =>
          rw [hs] at h
          exact ih off1 s1 r (hstep _ _ _ _ _ _ hp hs) h
    · cases h
      exact hp

theorem outputParse_defaultScript {buf : Option (List Nat)} {bufLen : Nat} {o : ProtoBufOutput}
    (h : _LWPaymentProtocolOutputParse buf bufLen = some (some o)) : o.defaultScript = false := by
  unfold _LWPaymentProtocolOutputParse at h
  split at h
  · cases h
  · split at h
    · cases h
    · cases h
      rfl

theorem detailsParse_outputs {buf : Option (List Nat)} {bufLen : Nat}
    {d : LWPaymentProtocolDetails} (h : LWPaymentProtocolDetailsParse buf bufLen = some d) :
    ∀ o ∈ d.outputs, o.defaultScript = false := by
  unfold LWPaymentProtocolDetailsParse at h
  split at h
  · cases h
  · split at h
    · cases h
    · rename_i d1 hloop
      have hinv := parseLoop_inv detailsStep true buf bufLen
        (fun s => ∀ o ∈ s.outputs, o.defaultScript = false) (by
          intro s key i data len s1 hp hs
          unfold detailsStep at hs
          split at hs
          · cases h1 : _ProtoBufString s.network data len with
            | none => rw [h1] at hs; cases hs
            | some x => rw [h1] at hs; cases hs; exact hp
          · split at hs
            · split at hs
              · cases hs
              · cases hs; exact hp
              · rename_i out hout
                cases hs
                intro o ho
                simp only [List.mem_append, List.mem_singleton] at ho
                rcases ho with ho | ho
                · exact hp o ho
                · rw [ho]; exact outputParse_defaultScript hout
            · split at hs
              · cases hs; exact hp
              · split at hs
                · cases hs; exact hp
                · split at hs
                  · cases h1 : _ProtoBufString s.memo data len with
                    | none => rw [h1] at hs; cases hs
                    | some x => rw [h1] at hs; cases hs; exact hp
                  · split at hs
                    · cases h1 : _ProtoBufString s.paymentURL data len with
                      | none => rw [h1] at hs; cases hs
                      | some x => rw [h1] at hs; cases hs; exact hp
                    · split at hs
                      · cases h1 : _ProtoBufBytes s.merchantData data len with
                        | none => rw [h1] at hs; cases hs
                        | some x => rw [h1] at hs; cases hs; exact hp
                      · cases h1 : _ProtoBufUnknown s.unknown key i data len with
                        | none => rw [h1] at hs; cases hs
                        | some x => rw [h1] at hs; cases hs; exact hp)
        _ _ _ _ (by intro o ho; cases ho) hloop
      split at h
      · cases h
        exact hinv
      · cases h
        exact hinv

theorem requestParse_inv {buf : Option (List Nat)} {bufLen : Nat}
    {r : LWPaymentProtocolRequest} (h : LWPaymentProtocolRequestParse buf bufLen = some (some r)) :
    r.version < 2 ^ 32 ∧ r.sigLen = (r.signature.getD []).length ∧
      ∃ d, r.details = some d ∧ ∀ o ∈ d.outputs, o.defaultScript = false := by
  unfold LWPaymentProtocolRequestParse at h
  split at h
  · cases h
  · split at h
    · cases h
    · rename_i r1 hloop
      have hinv := parseLoop_inv requestStep true buf bufLen
        (fun s => s.version < 2 ^ 32 ∧ s.sigLen = (s.signature.getD []).length ∧
          ∀ d, s.details = some d → ∀ o ∈ d.outputs, o.defaultScript = false) (by
          intro s key i data len s1 hp hs
          unfold requestStep at hs
          split at hs
          · cases hs
            exact ⟨Nat.mod_lt _ (by norm_num), hp.2.1, hp.2.2⟩
          · split at hs
            · cases h1 : _ProtoBufString s.pkiType data len with
              | none => rw [h1] at hs; cases hs
              | some x => rw [h1] at hs; cases hs; exact hp
            · split at hs
              · cases h1 : _ProtoBufBytes s.pkiData data len with
                | none => rw [h1] at hs; cases hs
                | some x => rw [h1] at hs; cases hs; exact hp
              · split at hs
                · cases h1 : LWPaymentProtocolDetailsParse data len with
                  | none => rw [h1] at hs; cases hs
                  | some x =>
                    rw [h1] at hs
                    cases hs
                    refine ⟨hp.1, hp.2.1, fun d hd => ?_⟩
                    cases hd
                    exact detailsParse_outputs h1
                · split at hs
                  · cases h1 : _ProtoBufBytes s.signature data len with
                    | none => rw [h1] at hs; cases hs
                    | some x =>
                      rw [h1] at hs
                      cases hs
                      exact ⟨hp.1, rfl, hp.2.2⟩
                  · cases h1 : _ProtoBufUnknown s.unknown key i data len with
                    | none => rw [h1] at hs; cases hs
                    | some x => rw [h1] at hs; cases hs; exact hp)
        _ _ _ _ ⟨by norm_num, rfl, fun d hd => by cases hd⟩ hloop
      have key : ∀ q : LWPaymentProtocolRequest, q.version = r1.version →
          q.sigLen = r1.sigLen → q.signature = r1.signature → q.details = r1.details →
          (match q.details with
            | none => some none
            | some _ => some (some q)) = some (some r) →
          r.version < 2 ^ 32 ∧ r.sigLen = (r.signature.getD []).length ∧
            ∃ d, r.details = some d ∧ ∀ o ∈ d.outputs, o.defaultScript = false := by
        intro q h1 h2 h3 h4 hq
        cases hd : q.details with
        | none => rw [hd] at hq; cases hq
        | some d =>
          rw [hd] at hq
          cases hq
          rw [h1, h2, h3]
          exact ⟨hinv.1, hinv.2.1, d, hd, hinv.2.2 d (by rw [← h4, hd])⟩
      split at h
      · exact key { r1 with pkiType := some noneText, defaultPkiType := true } rfl rfl rfl rfl h
      · exact key r1 rfl rfl rfl rfl h

theorem fieldBytes_varint_mod (key i : Nat) (d : List Nat) (h : key % 8 = 0) :
    fieldBytes key (i % 2 ^ 64) d = fieldBytes key i d := by
  rw [fieldBytes_varint _ _ _ h, fieldBytes_varint _ _ _ h, varIntBytes_mod]

theorem outputBytes_norm (o : ProtoBufOutput) (h : o.defaultScript = false) :
    outputBytes (normOutput o) = outputBytes o := by
  unfold outputBytes normOutput
  simp only [h]
  cases o.defaultAmount with
  | true => rfl
  | false =>
    simp only [Bool.false_eq_true, if_false, Bool.not_false, part, if_true]
    rw [fieldBytes_varint_mod _ _ _ (by norm_num)]

theorem detailsBytes_norm (d : LWPaymentProtocolDetails)
    (h : ∀ o ∈ d.outputs, o.defaultScript = false) :
    detailsBytes (normDetails d) = detailsBytes d := by
  have hout : (d.outputs.map normOutput).map (fun o => fieldBytes 18 0 (outputBytes o)) =
      d.outputs.map (fun o => fieldBytes 18 0 (outputBytes o)) := by
    rw [List.map_map]
    apply List.map_congr_left
    intro o ho
    simp only [Function.comp]
    rw [outputBytes_norm o (h o ho)]
  unfold detailsBytes normDetails
  simp only [hout, Option.getD_some]
  have h1 : part (!d.defaultNetwork) (fieldBytes 10 0
      (cstr (if d.defaultNetwork = true then mainText else cstr (d.network.getD [])))) =
      part (!d.defaultNetwork) (fieldBytes 10 0 (cstr (d.network.getD []))) := by
    cases d.defaultNetwork with
    | true => rfl
    | false => simp [cstr_cstr]
  have h2 : part (!d.defaultTime) (fieldBytes 24 (if d.defaultTime = true then 0
      else d.time % 2 ^ 64) []) = part (!d.defaultTime) (fieldBytes 24 d.time []) := by
    cases d.defaultTime with
    | true => rfl
    | false =>
      simp only [Bool.false_eq_true, if_false]
      rw [fieldBytes_varint_mod _ _ _ (by norm_num)]
  have h3 : part (!d.defaultExpires) (fieldBytes 32 (if d.defaultExpires = true then 0
      else d.expires % 2 ^ 64) []) = part (!d.defaultExpires) (fieldBytes 32 d.expires []) := by
    cases d.defaultExpires with
    | true => rfl
    | false =>
      simp only [Bool.false_eq_true, if_false]
      rw [fieldBytes_varint_mod _ _ _ (by norm_num)]
  have h4 : ∀ (m : Option (List Nat)) (k : Nat),
      part (m.map cstr).isSome (fieldBytes k 0 (cstr ((m.map cstr).getD []))) =
      part m.isSome (fieldBytes k 0 (cstr (m.getD []))) := by
    intro m k
    cases m with
    | none => rfl
    | some x => simp [cstr_cstr]
  rw [h1, h2, h3, h4, h4]

theorem requestBytes_norm (r : LWPaymentProtocolRequest) (d : LWPaymentProtocolDetails)
    (hd : r.details = some d) (hv : r.version < 2 ^ 32)
    (h : ∀ o ∈ d.outputs, o.defaultScript = false) :
    requestBytes (normRequest r) = requestBytes r := by
  unfold requestBytes normRequest
  simp only [hd, Option.map_some', Option.getD_some, detailsBytes_norm d h]
  have h1 : part (!r.defaultVersion) (fieldBytes 8 (if r.defaultVersion = true then 1
      else r.version % 2 ^ 64 % 2 ^ 32) []) = part (!r.defaultVersion) (fieldBytes 8 r.version []) := by
    cases r.defaultVersion with
    | true => rfl
    | false =>
      simp only [Bool.false_eq_true, if_false]
      rw [Nat.mod_eq_of_lt (by omega : r.version < 2 ^ 64), Nat.mod_eq_of_lt hv]
  have h2 : part (!r.defaultPkiType) (fieldBytes 18 0
      (cstr (if r.defaultPkiType = true then noneText else cstr (r.pkiType.getD [])))) =
      part (!r.defaultPkiType) (fieldBytes 18 0 (cstr (r.pkiType.getD []))) := by
    cases r.defaultPkiType with
    | true => rfl
    | false => simp [cstr_cstr]
  have h3 : part (r.signature.map (fun s => s.take r.sigLen)).isSome (fieldBytes 42 0
      (((r.signature.map (fun s => s.take r.sigLen)).getD []).take
        ((r.signature.map (fun s => s.take r.sigLen)).getD []).length)) =
      part r.signature.isSome (fieldBytes 42 0 ((r.signature.getD []).take r.sigLen)) := by
    cases r.signature with
    | none => rfl
    | some x => simp only [Option.map_some', Option.getD_some, List.take_length, Option.isSome_some]
  rw [h1, h2, h3]

theorem chunkBytes_append (a b : List (Nat × List Nat)) :
    chunkBytes (a ++ b) = chunkBytes a ++ chunkBytes b := by
  simp [chunkBytes]

theorem chunkBytes_cons (c : Nat × List Nat) (cs : List (Nat × List Nat)) :
    chunkBytes (c :: cs) = c.2 ++ chunkBytes cs := by
  simp [chunkBytes]

theorem chunks_length_le : ∀ (cs : List (Nat × List Nat)), ChunksOk cs →
    cs.length ≤ (chunkBytes cs).length := by
  intro cs
  induction cs with
  | nil => intro _; simp
  | cons c rest ih =>
    intro h
    rw [chunkBytes_cons, List.length_append, List.length_cons]
    obtain ⟨_, i, data, hc⟩ := h c (List.mem_cons_self _ _)
    have := fieldBytes_pos c.1 i data
    rw [← hc] at this
    have := ih (fun x hx => h x (List.mem_cons_of_mem _ hx))
    omega

theorem unknownLoop_chunks (key : Nat) : ∀ (rest pre p1 p2 : List (Nat × List Nat)) (fuel : Nat),
    pre = p1 ++ p2 → rest.length + 1 ≤ fuel → (chunkBytes (pre ++ rest)).length < 2 ^ 64 →
    ChunksOk (pre ++ rest) →
    ∃ cs1 cs2, unknownLoop key (chunkBytes (pre ++ rest)) fuel (chunkBytes pre).length
        (chunkBytes p1).length = some (chunkBytes (cs1 ++ cs2), (chunkBytes cs1).length) ∧
      (∀ c ∈ pre ++ rest, c.1 ≠ key → c ∈ cs1 ++ cs2) ∧
      (∀ c ∈ cs1 ++ cs2, c ∈ pre ++ rest) ∧
      (chunkBytes (cs1 ++ cs2)).length ≤ (chunkBytes (pre ++ rest)).length := by
  intro rest
  induction rest with
  | nil =>
    intro pre p1 p2 fuel hpre hfuel h64 hok
    obtain ⟨f, rfl⟩ : ∃ f, fuel = f + 1 := ⟨fuel - 1, by omega⟩
    refine ⟨p1, p2, ?_, ?_, ?_, ?_⟩
    · rw [unknownLoop, List.append_nil, if_neg (Nat.lt_irrefl _), hpre]
    · intro c hc _
      rw [List.append_nil, hpre] at hc
      exact hc
    · intro c hc
      rw [List.append_nil, hpre]
      exact hc
    · rw [List.append_nil, hpre]
  | cons c rest ih =>
    intro pre p1 p2 fuel hpre hfuel h64 hok
    obtain ⟨f, rfl⟩ : ∃ f, fuel = f + 1 := ⟨fuel - 1, by omega⟩
    obtain ⟨hck, i, data, hcb⟩ := hok c (by simp)
    have hpos := fieldBytes_pos c.1 i data
    have hbytes : chunkBytes (pre ++ c :: rest) =
        chunkBytes pre ++ (fieldBytes c.1 i data ++ chunkBytes rest) := by
      rw [chunkBytes_append, chunkBytes_cons, hcb]
    have hlen : (chunkBytes (pre ++ c :: rest)).length =
        (chunkBytes pre).length + ((fieldBytes c.1 i data).length + (chunkBytes rest).length) := by
      rw [hbytes, List.length_append, List.length_append]
    have hdrop : (chunkBytes (pre ++ c :: rest)).drop (chunkBytes pre).length =
        fieldBytes c.1 i data ++ chunkBytes rest := by
      rw [hbytes, List.drop_left]
    have hread := field_read (chunkBytes (pre ++ c :: rest)) c.1 i data (chunkBytes pre).length
      (chunkBytes (pre ++ c :: rest)).length (chunkBytes rest) hdrop (by omega) h64 hck
    rw [unknownLoop, if_pos (by omega), hread]
    simp only
    by_cases hk : c.1 = key
    · rw [if_pos hk, if_neg (by omega)]
      refine ⟨pre, rest, ?_, ?_, ?_, ?_⟩
      · have h1 : (chunkBytes (pre ++ c :: rest)).take (chunkBytes pre).length =
            chunkBytes pre := by rw [hbytes, List.take_left]
        have h2 : (chunkBytes (pre ++ c :: rest)).drop
            ((chunkBytes pre).length + (fieldBytes c.1 i data).length) = chunkBytes rest := by
          rw [hbytes, ← List.append_assoc, ← List.length_append, List.drop_left]
        rw [h1, h2, chunkBytes_append]
      · intro x hx hne
        rw [List.mem_append, List.mem_cons] at hx
        rcases hx with h | h | h
        · exact List.mem_append_left _ h
        · rw [h] at hne; exact absurd hk hne
        · exact List.mem_append_right _ h
      · intro x hx
        rw [List.mem_append] at hx
        rcases hx with h | h
        · exact List.mem_append_left _ h
        · exact List.mem_append_right _ (List.mem_cons_of_mem _ h)
      · rw [chunkBytes_append, hbytes]
        simp only [List.length_append]
        omega
    · rw [if_neg hk]
      by_cases hge : c.1 ≥ key
      · rw [if_pos hge]
        exact ⟨pre, c :: rest, rfl, fun x hx _ => hx, fun x hx => hx, Nat.le_refl _⟩
      · rw [if_neg hge]
        have hpre' : chunkBytes (pre ++ [c]) = chunkBytes pre ++ fieldBytes c.1 i data := by
          rw [chunkBytes_append, chunkBytes_cons, hcb]
          simp [chunkBytes]
        have hassoc : pre ++ c :: rest = (pre ++ [c]) ++ rest := by simp
        have := ih (pre ++ [c]) pre [c] f rfl (by simp only [List.length_cons] at hfuel; omega)
          (by rw [← hassoc]; exact h64) (by rw [← hassoc]; exact hok)
        rw [← hassoc, hpre', List.length_append] at this
        exact this

theorem unknown_chunked (u : Option (List Nat)) (cs : List (Nat × List Nat))
    (f : Nat × Nat × Option (List Nat) × Nat) (hu : u.getD [] = chunkBytes cs)
    (hok : ChunksOk cs) (hkept : KeptInFull f) (hk : f.1 < 2 ^ 64)
    (h64 : (chunkBytes cs).length < 2 ^ 64) :
    ∃ cs1, _ProtoBufUnknown u f.1 f.2.1 f.2.2.1 f.2.2.2 = some (some (chunkBytes cs1)) ∧
      ChunksOk cs1 ∧ (f.1, storedField f) ∈ cs1 ∧ (∀ c ∈ cs, c.1 ≠ f.1 → c ∈ cs1) ∧
      (chunkBytes cs1).length ≤ (chunkBytes cs).length + (storedField f).length := by
  obtain ⟨hdata, hfit, hbytes⟩ := hkept
  rw [unknown_eq u f.1 f.2.1 f.2.2.1 f.2.2.2 hdata hfit hbytes, hu]
  obtain ⟨cs1, cs2, hloop, hmem, hsub, hle⟩ := unknownLoop_chunks f.1 cs [] [] []
    ((chunkBytes cs).length + 1) rfl (by have := chunks_length_le cs hok; omega)
    (by rw [List.nil_append]; exact h64) (by rw [List.nil_append]; exact hok)
  simp only [List.nil_append] at hloop hmem hsub hle
  have h0 : (chunkBytes ([] : List (Nat × List Nat))).length = 0 := rfl
  rw [h0] at hloop
  rw [hloop]
  refine ⟨cs1 ++ (f.1, storedField f) :: cs2, ?_, ?_, by simp, ?_, ?_⟩
  · simp only [Option.map_some']
    rw [chunkBytes_append cs1 cs2, List.take_left, List.drop_left, chunkBytes_append,
      chunkBytes_cons, List.append_assoc]
    rfl
  · intro c hc
    rw [List.mem_append, List.mem_cons] at hc
    rcases hc with h | h | h
    · exact hok c (hsub c (List.mem_append_left _ h))
    · rw [h]
      exact ⟨hk, _, _, rfl⟩
    · exact hok c (hsub c (List.mem_append_right _ h))
  · intro c hc hne
    have := hmem c hc hne
    rw [List.mem_append] at this ⊢
    rcases this with h | h
    · exact Or.inl h
    · exact Or.inr (List.mem_cons_of_mem _ h)
  · rw [chunkBytes_append, chunkBytes_cons] at *
    simp only [List.length_append] at *
    omega

theorem varIntLoop_lt (b : List Nat) : ∀ (n i acc off : Nat) (r : Nat × Nat), acc < 2 ^ 64 →
    varIntLoop b n i acc off = some r → r.1 < 2 ^ 64 := by
  intro n
  induction n with
  | zero =>
    intro i acc off r _ h
    rw [varIntLoop] at h
    cases h
    norm_num
  | succ n ih =>
    intro i acc off r hacc h
    rw [varIntLoop] at h
    split at h
    · cases h
    · split at h
      · cases h
      · simp only at h
        split at h
        · exact ih _ _ _ r (Nat.mod_lt _ (by norm_num)) h
        · cases h
          exact Nat.mod_lt _ (by norm_num)

theorem field_key_lt {buf : Option (List Nat)} {len off : Nat}
    {r : Nat × Nat × Option (List Nat) × Nat × Nat} (h : _ProtoBufField buf len off = some r) :
    r.1 < 2 ^ 64 := by
  unfold _ProtoBufField at h
  cases hv : _ProtoBufVarInt buf len off with
  | none => rw [hv] at h; cases h
  | some p =>
    obtain ⟨key, off1⟩ := p
    rw [hv] at h
    have hkey : key < 2 ^ 64 := by
      unfold _ProtoBufVarInt at hv
      cases buf with
      | none => cases hv; norm_num
      | some b => exact varIntLoop_lt b _ _ _ _ _ (by norm_num) hv
    simp only at h
    split at h
    · cases h1 : _ProtoBufVarInt buf len off1 with
      | none => rw [h1] at h; cases h
      | some x => rw [h1] at h; cases h; exact hkey
    · split at h
      · cases h1 : _ProtoBufFixed buf len off1 8 with
        | none => rw [h1] at h; cases h
        | some x => rw [h1] at h; cases h; exact hkey
      · split at h
        · cases h1 : _ProtoBufLenDelim buf len off1 with
          | none => rw [h1] at h; cases h
          | some x => rw [h1] at h; cases h; exact hkey
        · split at h
          · cases h1 : _ProtoBufFixed buf len off1 4 with
            | none => rw [h1] at h; cases h
            | some x => rw [h1] at h; cases h; exact hkey
          · cases h
            exact hkey

theorem readFields_key_lt (cb : Bool) (buf : Option (List Nat)) (bufLen : Nat) :
    ∀ (fuel off : Nat) (fs : List (Nat × Nat × Option (List Nat) × Nat)),
      readFields cb buf bufLen fuel off = some fs → ∀ f ∈ fs, f.1 < 2 ^ 64 := by
  intro fuel
  induction fuel with
  | zero => intro off fs h; simp [readFields] at h
  | succ fuel ih =>
    intro off fs h
    rw [readFields] at h
    split at h
    · cases hf : _ProtoBufField buf bufLen off with
      | none => rw [hf] at h; cases h
      | some p =>
        obtain ⟨key, i, data, dataLen, off1⟩ := p
        rw [hf] at h
        simp only at h
        cases hr : readFields cb buf bufLen fuel off1 with
        | none => rw [hr] at h; cases h
        | some rest =>
          rw [hr] at h
          cases h
          intro f hmem
          rw [List.mem_cons] at hmem
          rcases hmem with e | e
          · rw [e]
            exact field_key_lt hf
          · exact ih off1 rest hr f e
    · cases h
      intro f hmem
      cases hmem

theorem parseLoop_fields {σ : Type} (step : σ → Nat → Nat → Option (List Nat) → Nat → Option σ)
    (cb : Bool) (buf : Option (List Nat)) (bufLen : Nat) :
    ∀ (fuel off : Nat) (s r : σ), parseLoop step cb buf bufLen fuel off s = some r →
      ∃ fs, readFields cb buf bufLen fuel off = some fs ∧ stepFields step s fs = some r := by
  intro fuel
  induction fuel with
  | zero => intro off s r h; simp [parseLoop] at h
  | succ fuel ih =>
    intro off s r h
    rw [parseLoop] at h
    rw [readFields]
    split at h
    · rename_i hc
      rw [if_pos hc]
      cases hf : _ProtoBufField buf bufLen off with
      | none => rw [hf] at h; cases h
      | some p =>
        obtain ⟨key, i, data, dataLen, off1⟩ := p
        rw [hf] at h
        simp only at h ⊢
        cases hs : step s key i data dataLen with
        | none => rw [hs] at h; cases h
        | some s1 =>
          rw [hs] at h
          obtain ⟨fs, hfs, hst⟩ := ih off1 s1 r h
          refine ⟨(key, i, data, dataLen) :: fs, by rw [hfs]; rfl, ?_⟩
          rw [stepFields]
          simp only [hs]
          exact hst
    · rename_i hc
      rw [if_neg hc]
      cases h
      exact ⟨[], rfl, rfl⟩

theorem unknownFields_cons_of_not_mem (keys : List Nat)
    (f : Nat × Nat × Option (List Nat) × Nat) (fs : List (Nat × Nat × Option (List Nat) × Nat))
    (h : (f.1 >>> 3) ∉ keys) : unknownFields keys (f :: fs) = f :: unknownFields keys fs := by
  unfold unknownFields
  rw [List.filter_cons_of_pos (by simpa using h)]

theorem unknownFields_cons_of_mem (keys : List Nat)
    (f : Nat × Nat × Option (List Nat) × Nat) (fs : List (Nat × Nat × Option (List Nat) × Nat))
    (h : (f.1 >>> 3) ∈ keys) : unknownFields keys (f :: fs) = unknownFields keys fs := by
  unfold unknownFields
  rw [List.filter_cons_of_neg (by simpa using h)]

theorem stepFields_unknown {σ : Type}
    (step : σ → Nat → Nat → Option (List Nat) → Nat → Option σ) (keys : List Nat)
    (getU : σ → Option (List Nat)) (setU : σ → Option (List Nat) → σ)
    (hget : ∀ s u, getU (setU s u) = u)
    (hU : ∀ s key i data len, (key >>> 3) ∉ keys →
      step s key i data len = (_ProtoBufUnknown (getU s) key i data len).map (setU s))
    (hK : ∀ s key i data len s1, (key >>> 3) ∈ keys → step s key i data len = some s1 →
      getU s1 = getU s) :
    ∀ (fs : List (Nat × Nat × Option (List Nat) × Nat)) (s r : σ) (cs : List (Nat × List Nat)),
      stepFields step s fs = some r → (getU s).getD [] = chunkBytes cs → ChunksOk cs →
      (∀ f ∈ fs, f.1 < 2 ^ 64) → (∀ f ∈ unknownFields keys fs, KeptInFull f) →
      (chunkBytes cs).length +
        ((unknownFields keys fs).map (fun f => (storedField f).length)).sum < 2 ^ 64 →
      ∃ cs1, (getU r).getD [] = chunkBytes cs1 ∧ ChunksOk cs1 ∧
        (∀ c ∈ cs, (∀ g ∈ fs, g.1 ≠ c.1) → c ∈ cs1) ∧
        (∀ l1 f l2, fs = l1 ++ f :: l2 → (f.1 >>> 3) ∉ keys → (∀ g ∈ l2, g.1 ≠ f.1) →
          (f.1, storedField f) ∈ cs1) := by
  intro fs
  induction fs with
  | nil =>
    intro s r cs h hu hok _ _ _
    rw [stepFields] at h
    cases h
    refine ⟨cs, hu, hok, fun c hc _ => hc, ?_⟩
    intro l1 f l2 h
    cases l1 <;> cases h
  | cons f fs ih =>
    intro s r cs h hu hok hlt hkept hsize
    rw [stepFields] at h
    cases hs : step s f.1 f.2.1 f.2.2.1 f.2.2.2 with
    | none => rw [hs] at h; cases h
    | some s1 =>
      rw [hs] at h
      simp only at h
      by_cases hk : (f.1 >>> 3) ∈ keys
      · rw [unknownFields_cons_of_mem keys f fs hk] at hkept hsize
        have hu1 : (getU s1).getD [] = chunkBytes cs := by rw [hK _ _ _ _ _ _ hk hs, hu]
        obtain ⟨cs1, h1, h2, h3, h4⟩ := ih s1 r cs h hu1 hok
          (fun g hg => hlt g (List.mem_cons_of_mem _ hg)) hkept hsize
        refine ⟨cs1, h1, h2, fun c hc hne => h3 c hc
          (fun g hg => hne g (List.mem_cons_of_mem _ hg)), ?_⟩
        intro l1 x l2 hsplit hx hlater
        cases l1 with
        | nil =>
          simp only [List.nil_append, List.cons.injEq] at hsplit
          rw [← hsplit.1] at hx
          exact absurd hk hx
        | cons y l1 =>
          simp only [List.cons_append, List.cons.injEq] at hsplit
          exact h4 l1 x l2 hsplit.2 hx hlater
      · rw [unknownFields_cons_of_not_mem keys f fs hk] at hkept hsize
        simp only [List.map_cons, List.sum_cons] at hsize
        obtain ⟨csA, hA, hokA, hfA, hmemA, hlenA⟩ := unknown_chunked (getU s) cs f hu hok
          (hkept f (List.mem_cons_self _ _)) (hlt f (List.mem_cons_self _ _)) (by omega)
        rw [hU _ _ _ _ _ hk, hA] at hs
        simp only [Option.map_some', Option.some.injEq] at hs
        have hu1 : (getU s1).getD [] = chunkBytes csA := by rw [← hs, hget]; rfl
        obtain ⟨cs1, h1, h2, h3, h4⟩ := ih s1 r csA h hu1 hokA
          (fun g hg => hlt g (List.mem_cons_of_mem _ hg))
          (fun g hg => hkept g (List.mem_cons_of_mem _ hg)) (by omega)
        refine ⟨cs1, h1, h2, ?_, ?_⟩
        · intro c hc hne
          exact h3 c (hmemA c hc (fun e => hne f (List.mem_cons_self _ _) e.symm))
            (fun g hg => hne g (List.mem_cons_of_mem _ hg))
        · intro l1 x l2 hsplit hx hlater
          cases l1 with
          | nil =>
            simp only [List.nil_append, List.cons.injEq] at hsplit
            obtain ⟨e1, e2⟩ := hsplit
            subst e1 e2
            exact h3 _ hfA hlater
          | cons y l1 =>
            simp only [List.cons_append, List.cons.injEq] at hsplit
            exact h4 l1 x l2 hsplit.2 hx hlater

theorem chunk_in_bytes {cs : List (Nat × List Nat)} {c : Nat × List Nat} (h : c ∈ cs) :
    c.2 <:+: chunkBytes cs := by
  obtain ⟨l1, l2, rfl⟩ := List.append_of_mem h
  rw [chunkBytes_append, chunkBytes_cons]
  exact ⟨chunkBytes l1, chunkBytes l2, by simp⟩

theorem parse_preserved {σ : Type}
    (step : σ → Nat → Nat → Option (List Nat) → Nat → Option σ) (keys : List Nat)
    (getU : σ → Option (List Nat)) (setU : σ → Option (List Nat) → σ)
    (hget : ∀ s u, getU (setU s u) = u)
    (hU : ∀ s key i data len, (key >>> 3) ∉ keys →
      step s key i data len = (_ProtoBufUnknown (getU s) key i data len).map (setU s))
    (hK : ∀ s key i data len s1, (key >>> 3) ∈ keys → step s key i data len = some s1 →
      getU s1 = getU s)
    {cb : Bool} {buf : Option (List Nat)} {bufLen fuel : Nat}
    {fs : List (Nat × Nat × Option (List Nat) × Nat)} {s0 r : σ}
    (hfs : readFields cb buf bufLen fuel 0 = some fs)
    (hloop : parseLoop step cb buf bufLen fuel 0 s0 = some r) (h0 : getU s0 = none)
    (hkept : AllKept keys fs) (pre : List Nat) :
    Preserved keys fs (pre ++ (getU r).getD []) := by
  obtain ⟨fs1, hfs1, hst⟩ := parseLoop_fields step cb buf bufLen fuel 0 s0 r hloop
  rw [hfs] at hfs1
  cases hfs1
  obtain ⟨cs1, h1, _, _, h4⟩ := stepFields_unknown step keys getU setU hget hU hK fs s0 r []
    hst (by rw [h0]; rfl) (fun c hc => by cases hc)
    (readFields_key_lt cb buf bufLen fuel 0 fs hfs) hkept.1 (by
      have := hkept.2
      simpa [chunkBytes] using this)
  intro l1 f l2 hsplit hf hlater
  have hmem := h4 l1 f l2 hsplit hf hlater
  have hin := chunk_in_bytes hmem
  rw [h1]
  obtain ⟨a, b, hab⟩ := hin
  exact ⟨pre ++ a, b, by rw [← hab]; simp⟩

theorem requestStep_unknown (s : LWPaymentProtocolRequest) (key i : Nat)
    (data : Option (List Nat)) (len : Nat) (hk : (key >>> 3) ∉ requestKeys) :
    requestStep s key i data len =
      (_ProtoBufUnknown s.unknown key i data len).map (fun u => { s with unknown := u }) := by
  unfold requestKeys at hk
  simp only [List.mem_cons, List.mem_singleton, List.not_mem_nil, or_false, not_or] at hk
  simp [requestStep, request_version, request_pki_type, request_pki_data,
    request_details, request_signature, hk]

theorem requestStep_known (s : LWPaymentProtocolRequest) (key i : Nat)
    (data : Option (List Nat)) (len : Nat) (s1 : LWPaymentProtocolRequest)
    (hk : (key >>> 3) ∈ requestKeys) (hs : requestStep s key i data len = some s1) :
    s1.unknown = s.unknown := by
  unfold requestStep at hs
  split at hs
  · cases hs; rfl
  · split at hs
    · cases h1 : _ProtoBufString s.pkiType data len with
      | none => rw [h1] at hs; cases hs
      | some x => rw [h1] at hs; cases hs; rfl
    · split at hs
      · cases h1 : _ProtoBufBytes s.pkiData data len with
        | none => rw [h1] at hs; cases hs
        | some x => rw [h1] at hs; cases hs; rfl
      · split at hs
        · cases h1 : LWPaymentProtocolDetailsParse data len with
          | none => rw [h1] at hs; cases hs
          | some x => rw [h1] at hs; cases hs; rfl
        · split at hs
          · cases h1 : _ProtoBufBytes s.signature data len with
            | none => rw [h1] at hs; cases hs
            | some x => rw [h1] at hs; cases hs; rfl
          · rename_i n1 n2 n3 n4 n5
            unfold requestKeys at hk
            simp only [List.mem_cons, List.mem_singleton, List.not_mem_nil, or_false] at hk
            rcases hk with h | h | h | h | h
            · exact absurd h n1
            · exact absurd h n2
            · exact absurd h n3
            · exact absurd h n4
            · exact absurd h n5

theorem detailsStep_unknown (s : LWPaymentProtocolDetails) (key i : Nat)
    (data : Option (List Nat)) (len : Nat) (hk : (key >>> 3) ∉ detailsKeys) :
    detailsStep s key i data len =
      (_ProtoBufUnknown s.unknown key i data len).map (fun u => { s with unknown := u }) := by
  unfold detailsKeys at hk
  simp only [List.mem_cons, List.mem_singleton, List.not_mem_nil, or_false, not_or] at hk
  simp [detailsStep, details_network, details_outputs, details_time, details_expires,
    details_memo, details_payment_url, details_merch_data, hk]

theorem detailsStep_known (s : LWPaymentProtocolDetails) (key i : Nat)
    (data : Option (List Nat)) (len : Nat) (s1 : LWPaymentProtocolDetails)
    (hk : (key >>> 3) ∈ detailsKeys) (hs : detailsStep s key i data len = some s1) :
    s1.unknown = s.unknown := by
  unfold detailsStep at hs
  split at hs
  · cases h1 : _ProtoBufString s.network data len with
    | none => rw [h1] at hs; cases hs
    | some x => rw [h1] at hs; cases hs; rfl
  · split at hs
    · split at hs
      · cases hs
      · cases hs; rfl
      · cases hs; rfl
    · split at hs
      · cases hs; rfl
      · split at hs
        · cases hs; rfl
        · split at hs
          · cases h1 : _ProtoBufString s.memo data len with
            | none => rw [h1] at hs; cases hs
            | some x => rw [h1] at hs; cases hs; rfl
          · split at hs
            · cases h1 : _ProtoBufString s.paymentURL data len with
              | none => rw [h1] at hs; cases hs
              | some x => rw [h1] at hs; cases hs; rfl
            · split at hs
              · cases h1 : _ProtoBufBytes s.merchantData data len with
                | none => rw [h1] at hs; cases hs
                | some x => rw [h1] at hs; cases hs; rfl
              · rename_i n1 n2 n3 n4 n5 n6 n7
                unfold detailsKeys at hk
                simp only [List.mem_cons, List.mem_singleton, List.not_mem_nil, or_false] at hk
                rcases hk with h | h | h | h | h | h | h
                · exact absurd h n1
                · exact absurd h n2
                · exact absurd h n3
                · exact absurd h n4
                · exact absurd h n5
                · exact absurd h n6
                · exact absurd h n7

theorem encryptedStep_unknown (c : Crypto) (s : EncryptedState) (key i : Nat)
    (data : Option (List Nat)) (len : Nat) (hk : (key >>> 3) ∉ encryptedKeys) :
    encryptedStep c s key i data len =
      (_ProtoBufUnknown s.msg.unknown key i data len).map
        (fun u => { s with msg := { s.msg with unknown := u } }) := by
  unfold encryptedKeys at hk
  simp only [List.mem_cons, List.mem_singleton, List.not_mem_nil, or_false, not_or] at hk
  obtain ⟨h1, h2, h3, h4, h5, h6, h7, h8, h9⟩ := hk
  unfold encryptedStep
  rw [if_neg (show ¬ key >>> 3 = encrypted_msg_msg_type from h1),
    if_neg (show ¬ key >>> 3 = encrypted_msg_message from h2),
    if_neg (show ¬ key >>> 3 = encrypted_msg_receiver_pk from h3),
    if_neg (show ¬ key >>> 3 = encrypted_msg_sender_pk from h4),
    if_neg (show ¬ key >>> 3 = encrypted_msg_nonce from h5),
    if_neg (show ¬ key >>> 3 = encrypted_msg_signature from h6),
    if_neg (show ¬ key >>> 3 = encrypted_msg_identifier from h7),
    if_neg (show ¬ key >>> 3 = encrypted_msg_status_code from h8),
    if_neg (show ¬ key >>> 3 = encrypted_msg_status_msg from h9)]

theorem encryptedStep_known (c : Crypto) (s : EncryptedState) (key i : Nat)
    (data : Option (List Nat)) (len : Nat) (s1 : EncryptedState)
    (hk : (key >>> 3) ∈ encryptedKeys) (hs : encryptedStep c s key i data len = some s1) :
    s1.msg.unknown = s.msg.unknown := by
  unfold encryptedStep at hs
  by_cases n1 : key >>> 3 = encrypted_msg_msg_type
  · rw [if_pos n1] at hs
    cases hs
    rfl
  · rw [if_neg n1] at hs
    by_cases n2 : key >>> 3 = encrypted_msg_message
    · rw [if_pos n2] at hs
      cases h1 : _ProtoBufBytes s.msg.message data len with
      | none => rw [h1] at hs; cases hs
      | some x => rw [h1] at hs; cases hs; rfl
    · rw [if_neg n2] at hs
      by_cases n3 : key >>> 3 = encrypted_msg_receiver_pk
      · rw [if_pos n3] at hs
        cases h1 : LWKeySetPubKey c data len with
        | none => rw [h1] at hs; cases hs
        | some x => rw [h1] at hs; cases hs; rfl
      · rw [if_neg n3] at hs
        by_cases n4 : key >>> 3 = encrypted_msg_sender_pk
        · rw [if_pos n4] at hs
          cases h1 : LWKeySetPubKey c data len with
          | none => rw [h1] at hs; cases hs
          | some x => rw [h1] at hs; cases hs; rfl
        · rw [if_neg n4] at hs
          by_cases n5 : key >>> 3 = encrypted_msg_nonce
          · rw [if_pos n5] at hs
            cases hs
            rfl
          · rw [if_neg n5] at hs
            by_cases n6 : key >>> 3 = encrypted_msg_signature
            · rw [if_pos n6] at hs
              cases h1 : _ProtoBufBytes s.msg.signature data len with
              | none => rw [h1] at hs; cases hs
              | some x => rw [h1] at hs; cases hs; rfl
            · rw [if_neg n6] at hs
              by_cases n7 : key >>> 3 = encrypted_msg_identifier
              · rw [if_pos n7] at hs
                cases h1 : _ProtoBufBytes s.msg.identifier data len with
                | none => rw [h1] at hs; cases hs
                | some x => rw [h1] at hs; cases hs; rfl
              · rw [if_neg n7] at hs
                by_cases n8 : key >>> 3 = encrypted_msg_status_code
                · rw [if_pos n8] at hs
                  cases hs
                  rfl
                · rw [if_neg n8] at hs
                  by_cases n9 : key >>> 3 = encrypted_msg_status_msg
                  · rw [if_pos n9] at hs
                    cases h1 : _ProtoBufString s.msg.statusMsg data len with
                    | none => rw [h1] at hs; cases hs
                    | some x => rw [h1] at hs; cases hs; rfl
                  · rw [if_neg n9] at hs
                    unfold encryptedKeys at hk
                    simp only [List.mem_cons, List.mem_singleton, List.not_mem_nil, or_false] at hk
                    rcases hk with h | h | h | h | h | h | h | h | h
                    · exact absurd h n1
                    · exact absurd h n2
                    · exact absurd h n3
                    · exact absurd h n4
                    · exact absurd h n5
                    · exact absurd h n6
                    · exact absurd h n7
                    · exact absurd h n8
                    · exact absurd h n9

theorem LWVarIntSet_length (i : Nat) : (LWVarIntSet i).length = LWVarIntSize i := by
  unfold LWVarIntSet LWVarIntSize
  split
  · rfl
  · split
    · rfl
    · split <;> rfl

theorem bloomSerialize_sizeQuery (f : LWBloomFilter) (hv : f.Valid) :
    SizeQuery (LWBloomFilterSerialize f) (serialized f) := by
  obtain ⟨hvs1, hvs9⟩ := LWVarIntSize_le f.length
  have hb := hv.bits
  have hlen : (serialized f).length = LWVarIntSize f.length + f.length + 4 + 4 + 1 := by
    unfold serialized
    simp only [List.length_append, LWVarIntSet_length, List.length_take, hv.buffer,
      UInt32SetLE_length, List.length_singleton, Nat.min_self]
  have hs : sizeT (LWVarIntSize f.length + f.length + 4 + 4 + 1) =
      LWVarIntSize f.length + f.length + 4 + 4 + 1 := by
    unfold sizeT
    exact Nat.mod_eq_of_lt (by omega)
  refine ⟨?_, fun l => ⟨fun hl => ?_, fun hl => ⟨l, ?_, rfl⟩⟩⟩
  · unfold LWBloomFilterSerialize
    simp only [hs, hlen]
  · unfold LWBloomFilterSerialize
    simp only [hs]
    rw [hlen] at hl ⊢
    rw [if_pos hl, if_neg (by rw [hv.buffer]; omega)]
  · unfold LWBloomFilterSerialize
    simp only [hs]
    rw [hlen] at hl
    rw [if_neg (by omega)]

/-- C35.  The size-query convention of `LWPaymentProtocolRequestSerialize` and of
`LWBloomFilterSerialize`.  For a request with a details struct whose `sigLen` does not
exceed the signature array and whose serialization `requestBytes req` has fewer than 2^64
bytes, and for a Bloom filter in range of its C types: with a NULL buffer the serializer
returns the number of bytes of the serialization and writes nothing; with a buffer at
least as long it returns that number and the buffer starts with exactly the bytes of the
serialization, the rest unchanged; with a shorter buffer it returns 0. -/
theorem serialize_size_query (req : LWPaymentProtocolRequest) (f : LWBloomFilter)
    (hd : req.details.isSome = true) (hsig : req.sigLen ≤ (req.signature.getD []).length)
    (h64 : (requestBytes req).length < 2 ^ 64) (hv : f.Valid) :
    (LWPaymentProtocolRequestSerialize req none = some ((requestBytes req).length, none) ∧
      ∀ l : List Nat,
        ((requestBytes req).length ≤ l.length →
          LWPaymentProtocolRequestSerialize req (some l) =
            some ((requestBytes req).length,
              some (requestBytes req ++ l.drop (requestBytes req).length))) ∧
        (l.length < (requestBytes req).length →
          ∃ l1, LWPaymentProtocolRequestSerialize req (some l) = some (0, some l1) ∧
            l1.length = l.length)) ∧
    (LWBloomFilterSerialize f none = some ((serialized f).length, none) ∧
      ∀ l : List Nat,
        ((serialized f).length ≤ l.length →
          LWBloomFilterSerialize f (some l) =
            some ((serialized f).length, some (serialized f ++ l.drop (serialized f).length))) ∧
        (l.length < (serialized f).length →
          ∃ l1, LWBloomFilterSerialize f (some l) = some (0, some l1) ∧
            l1.length = l.length)) :=
  ⟨requestSerialize_sizeQuery req hd hsig h64, bloomSerialize_sizeQuery f hv⟩

/-- C35 at a concrete input: the sample request and the sample filter. -/
theorem serialize_size_query_witness :
    (sampleRequest.details.isSome = true ∧
      sampleRequest.sigLen ≤ (sampleRequest.signature.getD []).length ∧
      (requestBytes sampleRequest).length < 2 ^ 64 ∧ sampleFilter.Valid) ∧
    (LWPaymentProtocolRequestSerialize sampleRequest none =
        some ((requestBytes sampleRequest).length, none) ∧
      ∀ l : List Nat,
        ((requestBytes sampleRequest).length ≤ l.length →
          LWPaymentProtocolRequestSerialize sampleRequest (some l) =
            some ((requestBytes sampleRequest).length,
              some (requestBytes sampleRequest ++ l.drop (requestBytes sampleRequest).length))) ∧
        (l.length < (requestBytes sampleRequest).length →
          ∃ l1, LWPaymentProtocolRequestSerialize sampleRequest (some l) = some (0, some l1) ∧
            l1.length = l.length)) ∧
    (LWBloomFilterSerialize sampleFilter none = some ((serialized sampleFilter).length, none) ∧
      ∀ l : List Nat,
        ((serialized sampleFilter).length ≤ l.length →
          LWBloomFilterSerialize sampleFilter (some l) =
            some ((serialized sampleFilter).length,
              some (serialized sampleFilter ++ l.drop (serialized sampleFilter).length))) ∧
        (l.length < (serialized sampleFilter).length →
          ∃ l1, LWBloomFilterSerialize sampleFilter (some l) = some (0, some l1) ∧
            l1.length = l.length)) :=
  ⟨⟨by decide, by decide, by decide, sampleFilter_valid⟩,
    serialize_size_query sampleRequest sampleFilter (by decide) (by decide) (by decide)
      sampleFilter_valid⟩

/-- C31.  The unknown-field array is not kept sorted by field key.  Inserting the field of
key 160 (field 20, varint, value 2) into the array that holds the field of key 80 (field
10, varint, value 1) puts it before that field: the local `o` of `_ProtoBufUnknown` is the
start of the last field read when the loop ends without meeting a key `>= key`.  The
details parser and the request parser perform these insertions on the input
`50 01 a0 01 02`, and the keys of the stored fields are then 160, 80. -/
theorem unknown_not_sorted :
    _ProtoBufUnknown none 80 1 none 0 = some (some [80, 1]) ∧
    _ProtoBufUnknown (some [80, 1]) 160 2 none 0 = some (some [160, 1, 2, 80, 1]) ∧
    unknownKeys [160, 1, 2, 80, 1] 6 0 = some [160, 80] ∧
    ¬ List.Sorted (fun a b => a ≤ b) [160, 80] ∧
    (LWPaymentProtocolDetailsParse (some [0x50, 1, 0xa0, 1, 2]) 5).map (fun d => d.unknown) =
      some (some [160, 1, 2, 80, 1]) ∧
    (LWPaymentProtocolRequestParse (some [0x22, 0, 0x50, 1, 0xa0, 1, 2]) 7).map
      (fun r => r.map (fun q => q.unknown)) = some (some (some [160, 1, 2, 80, 1])) := by
  refine ⟨by decide, by decide, by decide, by decide, by decide, by decide⟩

/-- C34.  A request parser aborts on a length-delimited details field whose declared length
exceeds the remaining buffer.  On the two bytes `22 05` (field 4, length-delimited, length
5, no data) `_ProtoBufField` leaves `data` NULL and `dataLen` 5, and
`LWPaymentProtocolRequestParse` passes them to `LWPaymentProtocolDetailsParse`, whose
assertion `buf != NULL || bufLen == 0` fails; the same happens on `20 01`, a details field
of wire type varint, where `dataLen` is still the length of the input. -/
theorem requestParse_aborts :
    _ProtoBufField (some [0x22, 0x05]) 2 0 = some (34, 0, none, 5, 7) ∧
    requestStep ⟨1, none, none, none, none, 0, true, false, none⟩ 34 0 none 5 = none ∧
    LWPaymentProtocolDetailsParse none 5 = none ∧
    LWPaymentProtocolRequestParse (some [0x22, 0x05]) 2 = none ∧
    _ProtoBufField (some [0x20, 0x01]) 2 0 = some (32, 1, none, 2, 2) ∧
    LWPaymentProtocolDetailsParse none 2 = none ∧
    LWPaymentProtocolRequestParse (some [0x20, 0x01]) 2 = none := by
  refine ⟨by decide, by decide, by decide, by decide, by decide, by decide, by decide⟩

theorem encryptedBytes_length_le (c : Crypto) (m : LWPaymentProtocolEncryptedMessage) :
    (encryptedBytes c m).length ≤ 200 + (m.message.getD []).length +
      (LWKeyPubKey c m.receiverPubKey).length + (LWKeyPubKey c m.senderPubKey).length +
      (m.signature.getD []).length + (m.identifier.getD []).length +
      (m.statusMsg.getD []).length + (m.unknown.getD []).length := by
  have hf : ∀ key i (d : List Nat), (fieldBytes key i d).length ≤ 20 + d.length := by
    intro key i d
    unfold fieldBytes
    have h1 := varIntBytes_le key
    have h2 := varIntBytes_le i
    have h3 := varIntBytes_le d.length
    simp only [List.length_append]
    split
    · omega
    · split
      · rw [rawBytes_length]; omega
      · split
        · simp only [List.length_append]; omega
        · split
          · rw [rawBytes_length]; omega
          · simp only [List.length_nil]; omega
  have hp : ∀ (b : Bool) (l : List Nat), (part b l).length ≤ l.length := part_length_le
  have hc : (cstr (m.statusMsg.getD [])).length ≤ (m.statusMsg.getD []).length :=
    strlen_le _
  unfold encryptedBytes
  simp only [List.length_append]
  have a1 := hf 8 m.msgType []
  have a2 := hf 18 0 (m.message.getD [])
  have a3 := hf 26 0 (LWKeyPubKey c m.receiverPubKey)
  have a4 := hf 34 0 (LWKeyPubKey c m.senderPubKey)
  have a5 := hf 40 m.nonce []
  have a6 := Nat.le_trans (hp m.signature.isSome _) (hf 50 0 (m.signature.getD []))
  have a7 := Nat.le_trans (hp m.identifier.isSome _) (hf 58 0 (m.identifier.getD []))
  have a8 := Nat.le_trans (hp (!m.defaultStatusCode) _) (hf 64 m.statusCode [])
  have a9 := Nat.le_trans (hp m.statusMsg.isSome _) (hf 74 0 (cstr (m.statusMsg.getD [])))
  simp only [List.length_nil] at a1 a5 a8
  omega

theorem encryptedNew_eq (c : Crypto) (msgType : Nat) (message : List Nat)
    (receiverKey senderKey : LWKey) (nonce : Nat) (identifier : Option (List Nat))
    (identLen statusCode : Nat) (statusMsg : Option (List Nat)) (cek iv : List Nat)
    (hpriv : LWKeyHasPrivKey c receiverKey = true ∨ LWKeyHasPrivKey c senderKey = true)
    (hrl : (LWKeyPubKey c receiverKey).length = 33 ∨ (LWKeyPubKey c receiverKey).length = 65)
    (hsl : (LWKeyPubKey c senderKey).length = 33 ∨ (LWKeyPubKey c senderKey).length = 65)
    (hident : identLen ≤ (identifier.getD []).length) (h16 : message.length + 16 < 2 ^ 64)
    (hcek : _LWPaymentProtocolEncryptedMessageCEK c
      (newMessage c msgType receiverKey senderKey nonce identifier identLen statusCode
        statusMsg none none)
      (if LWKeyHasPrivKey c receiverKey then receiverKey else senderKey) = some (cek, iv))
    (h64 : (encryptedBytes c (newMessage c msgType receiverKey senderKey nonce identifier
      identLen statusCode statusMsg
      (some (c.LWChacha20Poly1305AEADEncrypt (message.length + 16) cek iv message
        (statusText statusCode statusMsg))) (some []))).length < 2 ^ 64) :
    LWPaymentProtocolEncryptedMessageNew c msgType (some message) message.length
        receiverKey senderKey nonce identifier identLen statusCode statusMsg =
      some (some (newMessage c msgType receiverKey senderKey nonce identifier identLen
        statusCode statusMsg
        (some (c.LWChacha20Poly1305AEADEncrypt (message.length + 16) cek iv message
          (statusText statusCode statusMsg)))
        (some (LWKeySign c (if LWKeyHasPrivKey c receiverKey then receiverKey else senderKey)
          (c.LWSHA256 (encryptedBytes c (newMessage c msgType receiverKey senderKey nonce
            identifier identLen statusCode statusMsg
            (some (c.LWChacha20Poly1305AEADEncrypt (message.length + 16) cek iv message
              (statusText statusCode statusMsg))) (some [])))))))) := by
  have hsetR := setPubKey_bytes c (LWKeyPubKey c receiverKey) [] hrl
  have hsetS := setPubKey_bytes c (LWKeyPubKey c senderKey) [] hsl
  rw [List.append_nil] at hsetR hsetS
  have hsT : sizeT (message.length + 16) = message.length + 16 := Nat.mod_eq_of_lt h16
  obtain ⟨q1, q2⟩ := encryptedSerialize_sizeQuery c (newMessage c msgType receiverKey senderKey
    nonce identifier identLen statusCode statusMsg
    (some (c.LWChacha20Poly1305AEADEncrypt (message.length + 16) cek iv message
      (statusText statusCode statusMsg))) (some [])) rfl h64
  unfold LWPaymentProtocolEncryptedMessageNew
  rw [if_neg (by
    simp only [Option.isNone_some, Bool.false_eq_true, false_and, Option.getD_some,
      Nat.lt_irrefl, false_or]
    intro h
    exact h (by rcases hpriv with h1 | h1 <;> simp [h1]))]
  have q3 := (q2 (List.replicate (encryptedBytes c (newMessage c msgType receiverKey senderKey
    nonce identifier identLen statusCode statusMsg
    (some (c.LWChacha20Poly1305AEADEncrypt (message.length + 16) cek iv message
      (statusText statusCode statusMsg))) (some []))).length 0)).1
    (by rw [List.length_replicate])
  unfold newMessage publicKey at hcek q1 q3 ⊢
  cases identifier with
  | none =>
    cases statusMsg with
    | none =>
      simp only [Option.map_none'] at hcek q1 q3 ⊢
      simp only [hsetR, hsetS, hcek, hsT, Option.getD_some, List.take_length, q1, q3,
        List.take_left]
    | some s =>
      have e : _ProtoBufString none (some s) (strlen s) = some (some (cstr s)) := by
        simp [_ProtoBufString, Nat.not_lt.2 (strlen_le s), take_strlen]
      simp only [Option.map_none', Option.map_some'] at hcek q1 q3 ⊢
      simp only [hsetR, hsetS, e, hcek, hsT, Option.getD_some, List.take_length, q1, q3,
        List.take_left]
  | some d =>
    simp only [Option.getD_some] at hident
    have e1 : _ProtoBufBytes none (some d) identLen = some (some (d.take identLen)) := by
      simp [_ProtoBufBytes, Nat.not_lt.2 hident]
    cases statusMsg with
    | none =>
      simp only [Option.map_none', Option.map_some'] at hcek q1 q3 ⊢
      simp only [hsetR, hsetS, e1, hcek, hsT, Option.getD_some, List.take_length, q1, q3,
        List.take_left]
    | some s =>
      have e : _ProtoBufString none (some s) (strlen s) = some (some (cstr s)) := by
        simp [_ProtoBufString, Nat.not_lt.2 (strlen_le s), take_strlen]
      simp only [Option.map_some'] at hcek q1 q3 ⊢
      simp only [hsetR, hsetS, e, e1, hcek, hsT, Option.getD_some, List.take_length, q1, q3,
        List.take_left]

/-- C37 (amended).  The round trip of an encrypted message.  `receiverKey` and `senderKey`
are the keys given to `LWPaymentProtocolEncryptedMessageNew`, one of them with a private
key, and `dk` is the private key of the other party.  Assumed of the parameters: the AEAD
decryption inverts the encryption under the same key, nonce and associated data, the
functions write no more than their buffers hold, and ECDH is symmetric for the keys at
hand.  Assumed of the keys: their public key bytes are 33 or 65 bytes, not all zero, that
`secp256k1_ec_pubkey_parse` accepts; when the receiver encrypts, the bytes that `LWKeyPubKey`
gives for `dk` differ from those of the receiver key; when the sender encrypts, they are
the bytes of the receiver key as given to the sender, encoding included, and differ from
those of the sender key.  Then `LWPaymentProtocolEncryptedMessageNew` returns a message, the
key and IV derived with `dk` are those derived when encrypting, the associated data is the
same, `LWPaymentProtocolEncryptedMessageDecrypt` with `dk` returns the plain message, the
serializer follows the size-query convention and the parser gives the same message back
from the serialization, so that decrypting after serializing and parsing returns the plain
message too. -/
theorem encrypted_roundtrip (c : Crypto) (msgType : Nat) (message : List Nat)
    (receiverKey senderKey dk : LWKey) (nonce : Nat) (identifier : Option (List Nat))
    (identLen statusCode : Nat) (statusMsg : Option (List Nat)) (out : List Nat)
    (hpriv : LWKeyHasPrivKey c receiverKey = true ∨ LWKeyHasPrivKey c senderKey = true)
    (hrl : (LWKeyPubKey c receiverKey).length = 33 ∨ (LWKeyPubKey c receiverKey).length = 65)
    (hsl : (LWKeyPubKey c senderKey).length = 33 ∨ (LWKeyPubKey c senderKey).length = 65)
    (hrz : LWKeyPubKey c receiverKey ≠ List.replicate (LWKeyPubKey c receiverKey).length 0)
    (hsz : LWKeyPubKey c senderKey ≠ List.replicate (LWKeyPubKey c senderKey).length 0)
    (hrp : (c.ec_pubkey_parse (LWKeyPubKey c receiverKey)).isSome = true)
    (hsp : (c.ec_pubkey_parse (LWKeyPubKey c senderKey)).isSome = true)
    (htype : msgType < 2 ^ 32) (hident : identLen ≤ (identifier.getD []).length)
    (hlen : message.length + identLen + (statusMsg.getD []).length < 2 ^ 32)
    (hout : message.length ≤ out.length)
    (haead : ∀ key iv ad n, message.length ≤ n → c.LWChacha20Poly1305AEADDecrypt n key iv
      (c.LWChacha20Poly1305AEADEncrypt (message.length + 16) key iv message ad) ad = message)
    (henc : ∀ key iv ad, (c.LWChacha20Poly1305AEADEncrypt (message.length + 16) key iv
      message ad).length ≤ message.length + 16)
    (hsign : ∀ md k, (c.ecdsa_sign md k).length ≤ 73)
    (hroleR : LWKeyHasPrivKey c receiverKey = true →
      LWKeyPubKey c dk ≠ LWKeyPubKey c receiverKey)
    (hroleS : LWKeyHasPrivKey c receiverKey = false →
      LWKeyPubKey c dk = LWKeyPubKey c receiverKey ∧
      LWKeyPubKey c senderKey ≠ LWKeyPubKey c receiverKey)
    (hecdhR : LWKeyHasPrivKey c receiverKey = true →
      _LWECDH c receiverKey (publicKey c senderKey) = _LWECDH c dk (publicKey c receiverKey))
    (hecdhS : LWKeyHasPrivKey c receiverKey = false →
      _LWECDH c senderKey (publicKey c receiverKey) = _LWECDH c dk (publicKey c senderKey)) :
    ∃ msg, LWPaymentProtocolEncryptedMessageNew c msgType (some message) message.length
        receiverKey senderKey nonce identifier identLen statusCode statusMsg = some (some msg) ∧
      (_LWPaymentProtocolEncryptedMessageCEK c msg dk).isSome = true ∧
      _LWPaymentProtocolEncryptedMessageCEK c msg dk =
        _LWPaymentProtocolEncryptedMessageCEK c msg
          (if LWKeyHasPrivKey c receiverKey then receiverKey else senderKey) ∧
      msg.defaultStatusCode = false ∧
      statusText msg.statusCode msg.statusMsg = statusText statusCode statusMsg ∧
      LWPaymentProtocolEncryptedMessageDecrypt c msg (some out) dk =
        some (message.length, some (message ++ out.drop message.length)) ∧
      LWPaymentProtocolEncryptedMessageSerialize c msg none =
        some ((encryptedBytes c msg).length, none) ∧
      (∀ l : List Nat, (encryptedBytes c msg).length ≤ l.length →
        LWPaymentProtocolEncryptedMessageSerialize c msg (some l) =
          some ((encryptedBytes c msg).length,
            some (encryptedBytes c msg ++ l.drop (encryptedBytes c msg).length))) ∧
      ∀ t : List Nat, LWPaymentProtocolEncryptedMessageParse c
        (some (encryptedBytes c msg ++ t)) (encryptedBytes c msg).length = some (some msg) := by
  -- the keys of the message
  have hKR := keyOfBytes_pubKey c _ hrl hrz
  have hKS := keyOfBytes_pubKey c _ hsl hsz
  -- the encrypting key and its peer
  have hpeerE : ∀ m : LWPaymentProtocolEncryptedMessage,
      m.receiverPubKey = publicKey c receiverKey → m.senderPubKey = publicKey c senderKey →
      _LWPaymentProtocolEncryptedMessageCEK c m
          (if LWKeyHasPrivKey c receiverKey then receiverKey else senderKey) =
        _LWPaymentProtocolEncryptedMessageCEK c m dk ∧
      (_LWPaymentProtocolEncryptedMessageCEK c m dk).isSome = true := by
    intro m hmr hms
    rw [cek_eq, cek_eq, hmr, hms]
    unfold publicKey
    rw [hKR]
    cases hp : LWKeyHasPrivKey c receiverKey with
    | true =>
      simp only [if_true, if_neg (hroleR hp)]
      have := hecdhR hp
      unfold publicKey at this
      rw [this]
      refine ⟨rfl, ?_⟩
      have hs := ecdh_isSome c dk _ hrl hrz
      cases h : _LWECDH c dk (keyOfBytes (LWKeyPubKey c receiverKey)) with
      | none => rw [h] at hs; cases hs
      | some s => rfl
    | false =>
      obtain ⟨hd, hne⟩ := hroleS hp
      simp only [Bool.false_eq_true, if_false, if_neg hne, if_pos hd]
      have := hecdhS hp
      unfold publicKey at this
      rw [this]
      refine ⟨rfl, ?_⟩
      have hs := ecdh_isSome c dk _ hsl hsz
      cases h : _LWECDH c dk (keyOfBytes (LWKeyPubKey c senderKey)) with
      | none => rw [h] at hs; cases hs
      | some s => rfl
  -- the key and IV
  obtain ⟨he0, hs0⟩ := hpeerE (newMessage c msgType receiverKey senderKey nonce identifier
    identLen statusCode statusMsg none none) rfl rfl
  obtain ⟨⟨cek, iv⟩, hcek⟩ := Option.isSome_iff_exists.1 hs0
  rw [hcek] at he0
  have hencl := henc cek iv (statusText statusCode statusMsg)
  have hdec := haead cek iv (statusText statusCode statusMsg) out.length hout
  have hidl : ((identifier.map (fun d => d.take identLen)).getD []).length ≤ identLen := by
    cases identifier with
    | none => simp
    | some d => simp
  have hstl : ((statusMsg.map cstr).getD []).length ≤ (statusMsg.getD []).length := by
    cases statusMsg with
    | none => simp
    | some d => exact strlen_le d
  -- sizes
  have hsize : ∀ sig : List Nat, sig.length ≤ 73 →
      (encryptedBytes c (newMessage c msgType receiverKey senderKey nonce identifier identLen
        statusCode statusMsg
        (some (c.LWChacha20Poly1305AEADEncrypt (message.length + 16) cek iv message
          (statusText statusCode statusMsg))) (some sig))).length < 2 ^ 64 := by
    intro sig hsig
    have hb := encryptedBytes_length_le c (newMessage c msgType receiverKey senderKey nonce
      identifier identLen statusCode statusMsg
      (some (c.LWChacha20Poly1305AEADEncrypt (message.length + 16) cek iv message
        (statusText statusCode statusMsg))) (some sig))
    unfold newMessage publicKey at hb ⊢
    simp only [Option.getD_some, Option.getD_none, List.length_nil, hKR, hKS] at hb
    rcases hrl with h | h <;> rcases hsl with h' | h' <;> omega
  have hnew := encryptedNew_eq c msgType message receiverKey senderKey nonce identifier identLen
    statusCode statusMsg cek iv hpriv hrl hsl hident (by omega) he0 (hsize [] (by simp))
  obtain ⟨msg, hm⟩ : ∃ m : LWPaymentProtocolEncryptedMessage, m =
      newMessage c msgType receiverKey senderKey nonce identifier identLen
        statusCode statusMsg
        (some (c.LWChacha20Poly1305AEADEncrypt (message.length + 16) cek iv message
          (statusText statusCode statusMsg)))
        (some (LWKeySign c (if LWKeyHasPrivKey c receiverKey then receiverKey else senderKey)
          (c.LWSHA256 (encryptedBytes c (newMessage c msgType receiverKey senderKey nonce
            identifier identLen statusCode statusMsg
            (some (c.LWChacha20Poly1305AEADEncrypt (message.length + 16) cek iv message
              (statusText statusCode statusMsg))) (some [])))))) := ⟨_, rfl⟩
  rw [← hm] at hnew
  have h64 : (encryptedBytes c msg).length < 2 ^ 64 := by
    rw [hm]
    exact hsize _ (hsign _ _)
  have hsq := encryptedSerialize_sizeQuery c msg (by rw [hm]; rfl) h64
  obtain ⟨he, hs⟩ := hpeerE msg (by rw [hm]; rfl) (by rw [hm]; rfl)
  have hcek2 : _LWPaymentProtocolEncryptedMessageCEK c msg dk = some (cek, iv) := by
    rw [← hcek, cek_eq, cek_eq, hm]
    rfl
  have hst : statusText msg.statusCode msg.statusMsg = statusText statusCode statusMsg := by
    rw [hm]
    exact statusText_norm statusCode statusMsg
  have hdf : msg.defaultStatusCode = false := by rw [hm]; rfl
  refine ⟨msg, hnew, hs, he.symm, hdf, hst, ?_, hsq.1, fun l hl => (hsq.2 l).1 hl, ?_⟩
  · unfold LWPaymentProtocolEncryptedMessageDecrypt
    rw [hcek2]
    have hmm : msg.message = some (c.LWChacha20Poly1305AEADEncrypt (message.length + 16) cek iv
        message (statusText statusCode statusMsg)) := by rw [hm]; rfl
    simp only [hmm, hdf, if_true, hst, hdec]
  · intro t
    refine encryptedParse_serialize c msg _ _ t (by rw [hm]; rfl) (by rw [hm]; exact htype)
      (by rw [hm]; exact Nat.mod_lt _ (by norm_num))
      (by rw [hm]; exact Nat.mod_lt _ (by norm_num)) hdf ?_ (by rw [hm]; rfl)
      (by rw [hm]; rfl) (by rw [hm]; rfl) hrl hsl hrz hsz hrp hsp h64
    intro s hs
    rw [hm] at hs
    cases statusMsg with
    | none => cases hs
    | some x =>
      have hs1 : some (cstr x) = some s := hs
      simp only [Option.some.injEq] at hs1
      rw [← hs1]
      exact cstr_no_zero x

theorem toy_encrypt (key iv m ad : List Nat) :
    toyCrypto.LWChacha20Poly1305AEADEncrypt (m.length + 16) key iv m ad =
      m ++ List.replicate 16 ((key.sum + iv.sum + ad.sum) % 256) := by
  show (if m.length + 16 ≤ m.length + 16 then
      m ++ List.replicate 16 ((key.sum + iv.sum + ad.sum) % 256) else []) = _
  rw [if_pos (Nat.le_refl _)]

theorem toy_aead (key iv m ad : List Nat) (n : Nat) (h : m.length ≤ n) :
    toyCrypto.LWChacha20Poly1305AEADDecrypt n key iv
      (toyCrypto.LWChacha20Poly1305AEADEncrypt (m.length + 16) key iv m ad) ad = m := by
  rw [toy_encrypt]
  have hl : (m ++ List.replicate 16 ((key.sum + iv.sum + ad.sum) % 256)).length - 16 =
      m.length := by simp
  show (if 16 ≤ (m ++ List.replicate 16 ((key.sum + iv.sum + ad.sum) % 256)).length ∧
      (m ++ List.replicate 16 ((key.sum + iv.sum + ad.sum) % 256)).length - 16 ≤ n ∧
      (m ++ List.replicate 16 ((key.sum + iv.sum + ad.sum) % 256)).drop
        ((m ++ List.replicate 16 ((key.sum + iv.sum + ad.sum) % 256)).length - 16) =
        List.replicate 16 ((key.sum + iv.sum + ad.sum) % 256)
    then (m ++ List.replicate 16 ((key.sum + iv.sum + ad.sum) % 256)).take
      ((m ++ List.replicate 16 ((key.sum + iv.sum + ad.sum) % 256)).length - 16) else []) = m
  rw [hl, List.drop_left, List.take_left, if_pos ⟨by simp, h, rfl⟩]

theorem toy_encrypt_length (key iv m ad : List Nat) :
    (toyCrypto.LWChacha20Poly1305AEADEncrypt (m.length + 16) key iv m ad).length ≤
      m.length + 16 := by
  rw [toy_encrypt]
  simp

theorem toy_sign_length (md k : List Nat) : (toyCrypto.ecdsa_sign md k).length ≤ 73 := by
  show ([48, 2, md.getD 0 0, k.getD 31 0] : List Nat).length ≤ 73
  simp

set_option maxRecDepth 100000 in
/-- C37.  The round trip fails when the sender holds the public key of the receiver in
another encoding than the one `LWKeyPubKey` gives for the private key of the receiver.  In
the toy instance of the parameters, where the cipher is invertible and ECDH is symmetric,
the sender encrypts `[1, 2, 3]` for the receiver key given in the uncompressed form, while
the private key of the receiver is flagged compressed:
`_LWPaymentProtocolEncryptedMessageCEK` compares the 33 bytes of the one with the 65 bytes
of the other, takes the receiver for the sender and derives the key from the receiver's own
public key, and `LWPaymentProtocolEncryptedMessageDecrypt` returns 0 bytes; so it does
after serializing and parsing. -/
theorem encrypted_wrong_peer :
    (∀ (key iv m ad : List Nat) (n : Nat), m.length ≤ n →
      toyCrypto.LWChacha20Poly1305AEADDecrypt n key iv
        (toyCrypto.LWChacha20Poly1305AEADEncrypt (m.length + 16) key iv m ad) ad = m) ∧
    (toyCrypto.ec_pubkey_create toyReceiver.secret).bind (fun q =>
      LWKeySetPubKey toyCrypto (some (toyCrypto.ec_pubkey_serialize q false)) 65) =
        some (true, toyReceiverPubLong) ∧
    LWKeyHasPrivKey toyCrypto toyReceiverPubLong = false ∧
    LWKeyHasPrivKey toyCrypto toySender = true ∧
    _LWECDH toyCrypto toySender toyReceiverPubLong =
      _LWECDH toyCrypto toyReceiver (publicKey toyCrypto toySender) ∧
    (LWKeyPubKey toyCrypto toyReceiver).length = 33 ∧
    (LWKeyPubKey toyCrypto toyReceiverPubLong).length = 65 ∧
    (toyMessage toyReceiverPubLong).bind (fun r => r.bind (fun m =>
      LWPaymentProtocolEncryptedMessageDecrypt toyCrypto m (some [0, 0, 0, 0]) toyReceiver)) =
        some (0, some [0, 0, 0, 0]) ∧
    (toyMessage toyReceiverPubLong).bind (fun r => r.bind (fun m =>
      (LWPaymentProtocolEncryptedMessageParse toyCrypto (some (encryptedBytes toyCrypto m))
        (encryptedBytes toyCrypto m).length).bind (fun r1 => r1.bind (fun m1 =>
          LWPaymentProtocolEncryptedMessageDecrypt toyCrypto m1 (some [0, 0, 0, 0])
            toyReceiver)))) = some (0, some [0, 0, 0, 0]) := by
  refine ⟨toy_aead, by decide, by decide, by decide, by decide, by decide, by decide,
    by decide, by decide⟩

set_option maxRecDepth 100000 in
/-- C37 at a concrete input: in the toy instance of the parameters the sender encrypts
`[1, 2, 3]` for the receiver key given in the compressed form, which is the form of the
private key of the receiver. -/
theorem encrypted_roundtrip_witness :
    ((LWKeyHasPrivKey toyCrypto toyReceiverPub = true ∨ LWKeyHasPrivKey toyCrypto toySender = true) ∧
      ((LWKeyPubKey toyCrypto toyReceiverPub).length = 33 ∨ (LWKeyPubKey toyCrypto toyReceiverPub).length = 65) ∧
      ((LWKeyPubKey toyCrypto toySender).length = 33 ∨ (LWKeyPubKey toyCrypto toySender).length = 65) ∧
      (LWKeyPubKey toyCrypto toyReceiverPub ≠ List.replicate (LWKeyPubKey toyCrypto toyReceiverPub).length 0) ∧
      (LWKeyPubKey toyCrypto toySender ≠ List.replicate (LWKeyPubKey toyCrypto toySender).length 0) ∧
      ((toyCrypto.ec_pubkey_parse (LWKeyPubKey toyCrypto toyReceiverPub)).isSome = true) ∧
      ((toyCrypto.ec_pubkey_parse (LWKeyPubKey toyCrypto toySender)).isSome = true) ∧
      (2 < 2 ^ 32) ∧
      (0 ≤ ((none : Option (List Nat)).getD []).length) ∧
      ([1, 2, 3].length + 0 + ((some [111, 107]).getD []).length < 2 ^ 32) ∧
      ([1, 2, 3].length ≤ [0, 0, 0, 0].length) ∧
      (∀ key iv ad n, [1, 2, 3].length ≤ n → toyCrypto.LWChacha20Poly1305AEADDecrypt n key iv
        (toyCrypto.LWChacha20Poly1305AEADEncrypt ([1, 2, 3].length + 16) key iv [1, 2, 3] ad) ad = [1, 2, 3]) ∧
      (∀ key iv ad, (toyCrypto.LWChacha20Poly1305AEADEncrypt ([1, 2, 3].length + 16) key iv
        [1, 2, 3] ad).length ≤ [1, 2, 3].length + 16) ∧
      (∀ md k, (toyCrypto.ecdsa_sign md k).length ≤ 73) ∧
      (LWKeyHasPrivKey toyCrypto toyReceiverPub = true →
        LWKeyPubKey toyCrypto toyReceiver ≠ LWKeyPubKey toyCrypto toyReceiverPub) ∧
      (LWKeyHasPrivKey toyCrypto toyReceiverPub = false →
        LWKeyPubKey toyCrypto toyReceiver = LWKeyPubKey toyCrypto toyReceiverPub ∧
        LWKeyPubKey toyCrypto toySender ≠ LWKeyPubKey toyCrypto toyReceiverPub) ∧
      (LWKeyHasPrivKey toyCrypto toyReceiverPub = true →
        _LWECDH toyCrypto toyReceiverPub (publicKey toyCrypto toySender) = _LWECDH toyCrypto toyReceiver (publicKey toyCrypto toyReceiverPub)) ∧
      (LWKeyHasPrivKey toyCrypto toyReceiverPub = false →
        _LWECDH toyCrypto toySender (publicKey toyCrypto toyReceiverPub) = _LWECDH toyCrypto toyReceiver (publicKey toyCrypto toySender))) ∧
    (∃ msg, LWPaymentProtocolEncryptedMessageNew toyCrypto 2 (some [1, 2, 3]) [1, 2, 3].length
        toyReceiverPub toySender 7 (none : Option (List Nat)) 0 1 (some [111, 107]) = some (some msg) ∧
      (_LWPaymentProtocolEncryptedMessageCEK toyCrypto msg toyReceiver).isSome = true ∧
      _LWPaymentProtocolEncryptedMessageCEK toyCrypto msg toyReceiver =
        _LWPaymentProtocolEncryptedMessageCEK toyCrypto msg
          (if LWKeyHasPrivKey toyCrypto toyReceiverPub then toyReceiverPub else toySender) ∧
      msg.defaultStatusCode = false ∧
      statusText msg.statusCode msg.statusMsg = statusText 1 (some [111, 107]) ∧
      LWPaymentProtocolEncryptedMessageDecrypt toyCrypto msg (some [0, 0, 0, 0]) toyReceiver =
        some ([1, 2, 3].length, some ([1, 2, 3] ++ [0, 0, 0, 0].drop [1, 2, 3].length)) ∧
      LWPaymentProtocolEncryptedMessageSerialize toyCrypto msg none =
        some ((encryptedBytes toyCrypto msg).length, none) ∧
      (∀ l : List Nat, (encryptedBytes toyCrypto msg).length ≤ l.length →
        LWPaymentProtocolEncryptedMessageSerialize toyCrypto msg (some l) =
          some ((encryptedBytes toyCrypto msg).length,
            some (encryptedBytes toyCrypto msg ++ l.drop (encryptedBytes toyCrypto msg).length))) ∧
      ∀ t : List Nat, LWPaymentProtocolEncryptedMessageParse toyCrypto
        (some (encryptedBytes toyCrypto msg ++ t)) (encryptedBytes toyCrypto msg).length = some (some msg)) :=
  ⟨⟨by decide,
    by decide,
    by decide,
    by decide,
    by decide,
    by decide,
    by decide,
    by decide,
    by decide,
    by decide,
    by decide,
    fun key iv ad n h => toy_aead key iv [1, 2, 3] ad n h,
    fun key iv ad => toy_encrypt_length key iv [1, 2, 3] ad,
    toy_sign_length,
    by decide,
    by decide,
    by decide,
    by decide⟩,
    encrypted_roundtrip toyCrypto 2 [1, 2, 3] toyReceiverPub toySender toyReceiver 7 none 0 1
      (some [111, 107]) [0, 0, 0, 0]
      (by decide)
      (by decide)
      (by decide)
      (by decide)
      (by decide)
      (by decide)
      (by decide)
      (by decide)
      (by decide)
      (by decide)
      (by decide)
      (fun key iv ad n h => toy_aead key iv [1, 2, 3] ad n h)
      (fun key iv ad => toy_encrypt_length key iv [1, 2, 3] ad)
      (toy_sign_length)
      (by decide)
      (by decide)
      (by decide)
      (by decide)⟩

/-- The round trip where the insertion offset of `_ProtoBufUnknown` does not matter:
serialize-parse-serialize is stable for the payment requests whose unknown-field arrays
hold at most one field each.  For every input that
`LWPaymentProtocolRequestParse` accepts, with the request `r` as result, if the unknown-field
array of `r`, of its details and of each of its outputs is NULL or holds the coding of
exactly one field (written in full by `_ProtoBufUnknown`), and the serialization has fewer
than 2^64 bytes: the serializer gives the byte string `s1 = requestBytes r` (its length for
a NULL buffer, the bytes in a buffer of that length), the parser accepts `s1`, and the
serializer gives the same byte string `s1` for the request parsed from `s1`. -/
theorem request_reserialize_stable (b : Option (List Nat)) (bufLen : Nat)
    (r : LWPaymentProtocolRequest)
    (hparse : LWPaymentProtocolRequestParse b bufLen = some (some r))
    (hu : SingleUnknown requestKeys r.unknown)
    (hud : ∀ d, r.details = some d → SingleUnknown detailsKeys d.unknown ∧
      ∀ o ∈ d.outputs, SingleUnknown outputKeys o.unknown)
    (h64 : (requestBytes r).length < 2 ^ 64) :
    LWPaymentProtocolRequestSerialize r none = some ((requestBytes r).length, none) ∧
    (∀ l : List Nat, l.length = (requestBytes r).length →
      LWPaymentProtocolRequestSerialize r (some l) =
        some ((requestBytes r).length, some (requestBytes r))) ∧
    ∃ r2, LWPaymentProtocolRequestParse (some (requestBytes r)) (requestBytes r).length =
        some (some r2) ∧
      LWPaymentProtocolRequestSerialize r2 none = some ((requestBytes r).length, none) ∧
      ∀ l : List Nat, l.length = (requestBytes r).length →
        LWPaymentProtocolRequestSerialize r2 (some l) =
          some ((requestBytes r).length, some (requestBytes r)) := by
  obtain ⟨hv, hsig, d, hd, hds⟩ := requestParse_inv hparse
  obtain ⟨hud1, hud2⟩ := hud d hd
  have exact : ∀ (q : LWPaymentProtocolRequest), requestBytes q = requestBytes r →
      SizeQuery (LWPaymentProtocolRequestSerialize q) (requestBytes q) →
      LWPaymentProtocolRequestSerialize q none = some ((requestBytes r).length, none) ∧
      ∀ l : List Nat, l.length = (requestBytes r).length →
        LWPaymentProtocolRequestSerialize q (some l) =
          some ((requestBytes r).length, some (requestBytes r)) := by
    intro q hq hsq
    rw [hq] at hsq
    refine ⟨hsq.1, fun l hl => ?_⟩
    rw [(hsq.2 l).1 (by omega), List.drop_of_length_le (by omega), List.append_nil]
  have q1 := exact r rfl (requestSerialize_sizeQuery r (by rw [hd]; rfl) (by omega) h64)
  have hp := requestParse_serialize r d [] hd (fun o ho => ⟨hds o ho, hud2 o ho⟩) hud1 hu h64
  rw [List.append_nil] at hp
  have hn := requestBytes_norm r d hd hv hds
  have q2 := exact (normRequest r) hn (requestSerialize_sizeQuery (normRequest r)
    (by unfold normRequest; rw [hd]; rfl) (by unfold normRequest; exact Nat.le_refl _)
    (by rw [hn]; exact h64))
  exact ⟨q1.1, q1.2, normRequest r, hp, q2.1, q2.2⟩

/-- C32 (the code at the failing input).  Serialize-parse-serialize is not stable for a
request with two unknown fields.
The input `22 00 50 01 a0 01 02` (an empty details field and the unknown fields 10 and 20)
is accepted; `s1`, the serialization of the parsed request, is `22 00 a0 01 02 50 01`, and
the serialization of the request parsed from `s1` is `22 00 50 01 a0 01 02`: every pass
through `_ProtoBufUnknown` puts the two fields in the other order. -/
theorem reserialize_unstable :
    ((LWPaymentProtocolRequestParse (some [0x22, 0, 0x50, 1, 0xa0, 1, 2]) 7).bind id).bind
      (fun r => LWPaymentProtocolRequestSerialize r (some (List.replicate 7 0))) =
        some (7, some [0x22, 0, 0xa0, 1, 2, 0x50, 1]) ∧
    ((LWPaymentProtocolRequestParse (some [0x22, 0, 0xa0, 1, 2, 0x50, 1]) 7).bind id).bind
      (fun r => LWPaymentProtocolRequestSerialize r (some (List.replicate 7 0))) =
        some (7, some [0x22, 0, 0x50, 1, 0xa0, 1, 2]) ∧
    ([0x22, 0, 0xa0, 1, 2, 0x50, 1] : List Nat) ≠ [0x22, 0, 0x50, 1, 0xa0, 1, 2] := by
  refine ⟨by decide, by decide, by decide⟩

/-- The stable round trip at a concrete input: the serialization of a request with the
unknown field of key (999, VARINT) in the request, in its details and in the output. -/
theorem request_reserialize_stable_witness :
    (LWPaymentProtocolRequestParse (some (requestBytes stableRequest))
        (requestBytes stableRequest).length = some (some stableRequest) ∧
      SingleUnknown requestKeys stableRequest.unknown ∧
      (∀ d, stableRequest.details = some d → SingleUnknown detailsKeys d.unknown ∧
        ∀ o ∈ d.outputs, SingleUnknown outputKeys o.unknown) ∧
      (requestBytes stableRequest).length < 2 ^ 64) ∧
    (LWPaymentProtocolRequestSerialize stableRequest none =
        some ((requestBytes stableRequest).length, none) ∧
      (∀ l : List Nat, l.length = (requestBytes stableRequest).length →
        LWPaymentProtocolRequestSerialize stableRequest (some l) =
          some ((requestBytes stableRequest).length, some (requestBytes stableRequest))) ∧
      ∃ r2, LWPaymentProtocolRequestParse (some (requestBytes stableRequest))
          (requestBytes stableRequest).length = some (some r2) ∧
        LWPaymentProtocolRequestSerialize r2 none =
          some ((requestBytes stableRequest).length, none) ∧
        ∀ l : List Nat, l.length = (requestBytes stableRequest).length →
          LWPaymentProtocolRequestSerialize r2 (some l) =
            some ((requestBytes stableRequest).length, some (requestBytes stableRequest))) :=
  ⟨⟨by decide, Or.inr ⟨7992, 42, [], by decide, by decide, by decide, by decide, by decide⟩,
      fun d hd => by
        cases hd
        exact ⟨Or.inr ⟨7992, 43, [], by decide, by decide, by decide, by decide, by decide⟩,
          fun o ho => by
            simp only [List.mem_singleton] at ho
            subst ho
            exact Or.inr ⟨7992, 44, [], by decide, by decide, by decide, by decide, by decide⟩⟩,
      by decide⟩,
    request_reserialize_stable (some (requestBytes stableRequest))
      (requestBytes stableRequest).length stableRequest (by decide)
      (Or.inr ⟨7992, 42, [], by decide, by decide, by decide, by decide, by decide⟩)
      (fun d hd => by
        cases hd
        exact ⟨Or.inr ⟨7992, 43, [], by decide, by decide, by decide, by decide, by decide⟩,
          fun o ho => by
            simp only [List.mem_singleton] at ho
            subst ho
            exact Or.inr ⟨7992, 44, [], by decide, by decide, by decide, by decide, by decide⟩⟩)
      (by decide)⟩

theorem exact_of_sizeQuery {f : Option (List Nat) → Option (Nat × Option (List Nat))}
    {bs : List Nat} (h : SizeQuery f bs) :
    f none = some (bs.length, none) ∧
      ∀ l : List Nat, l.length = bs.length → f (some l) = some (bs.length, some bs) := by
  refine ⟨h.1, fun l hl => ?_⟩
  rw [(h.2 l).1 (by omega), List.drop_of_length_le (by omega), List.append_nil]

/-! ### Payment protocol: payments, ACKs, invoice requests and messages -/

theorem serializeBytes_sizeQuery (bs : List Nat) : SizeQuery (serializeBytes bs) bs := by
  refine ⟨rfl, fun l => ⟨fun h => ?_, fun h => ⟨l, ?_, rfl⟩⟩⟩
  · unfold serializeBytes
    simp only
    rw [if_pos h]
  · unfold serializeBytes
    simp only
    rw [if_neg (by omega)]

theorem paymentTransactions_writes (t : TxCodec) (txBytes : LWTransaction → List Nat)
    (htx : ∀ tx, SizeQuery (t.LWTransactionSerialize tx) (txBytes tx)) :
    ∀ (txs : List LWTransaction) (sBuf : List Nat) (buf : Option (List Nat)) (off : Nat),
      off + (txs.map (fun tx => fieldBytes 18 0 (txBytes tx))).flatten.length < 2 ^ 64 →
      ∃ sBuf1 buf1 off1, paymentTransactions t txs sBuf buf off = some (sBuf1, buf1, off1) ∧
        Wrote buf off (txs.map (fun tx => fieldBytes 18 0 (txBytes tx))).flatten
          (some (buf1, off1)) := by
  intro txs
  induction txs with
  | nil =>
    intro sBuf buf off _
    exact ⟨sBuf, buf, off, rfl, Wrote.nil buf off⟩
  | cons tx rest ih =>
    intro sBuf buf off hoff
    simp only [List.map_cons, List.flatten_cons, List.length_append] at hoff ⊢
    have hfl := fieldBytes_length_le 18 0 (txBytes tx) (by norm_num)
    obtain ⟨q1, q2⟩ := htx tx
    rw [paymentTransactions]
    simp only [q1]
    have hfit : (txBytes tx).length ≤
        (if (txBytes tx).length > sBuf.length then
          sBuf ++ List.replicate ((txBytes tx).length - sBuf.length) 0
        else sBuf).length := by
      split
      · simp only [List.length_append, List.length_replicate]
        omega
      · omega
    rw [(q2 _).1 hfit]
    simp only [Option.getD_some]
    have w := setBytes_writes (txBytes tx ++
        (if (txBytes tx).length > sBuf.length then
          sBuf ++ List.replicate ((txBytes tx).length - sBuf.length) 0
        else sBuf).drop (txBytes tx).length) (txBytes tx).length 2 (by norm_num)
      (by simp)
    rw [List.take_left] at w
    have hfe : (fieldBytes (2 * 8 + 2) 0 (txBytes tx)).length =
        (fieldBytes 18 0 (txBytes tx)).length := rfl
    obtain ⟨buf1, e1, w1⟩ := (w buf off (by omega)).some_eq
    dsimp only at e1
    have e2 : _ProtoBufSetBytes buf (some (txBytes tx ++
        (if (txBytes tx).length > sBuf.length then
          sBuf ++ List.replicate ((txBytes tx).length - sBuf.length) 0
        else sBuf).drop (txBytes tx).length)) (txBytes tx).length payment_transactions off =
        some (buf1, off + (fieldBytes (2 * 8 + 2) 0 (txBytes tx)).length) := e1
    rw [e2]
    obtain ⟨sBuf3, buf3, off3, e3, w3⟩ := ih (txBytes tx ++
        (if (txBytes tx).length > sBuf.length then
          sBuf ++ List.replicate ((txBytes tx).length - sBuf.length) 0
        else sBuf).drop (txBytes tx).length) buf1
      (off + (fieldBytes (2 * 8 + 2) 0 (txBytes tx)).length) (by omega)
    exact ⟨sBuf3, buf3, off3, e3, Wrote.append w1 w3⟩

theorem paymentRefundTo_writes : ∀ (outputs : List ProtoBufOutput) (sBuf : List Nat),
    Writes (fun buf off => paymentRefundTo outputs sBuf buf off)
      (outputs.map (fun o => fieldBytes 26 0 (outputBytes o))).flatten := by
  intro outputs
  induction outputs with
  | nil =>
    intro sBuf buf off _
    exact Wrote.nil buf off
  | cons o rest ih =>
    intro sBuf buf off hoff
    dsimp only
    simp only [List.map_cons, List.flatten_cons, List.length_append] at hoff ⊢
    have hfl := fieldBytes_length_le 26 0 (outputBytes o) (by norm_num)
    have ho : (outputBytes o).length < 2 ^ 64 := by omega
    obtain ⟨q1, q2⟩ := outputSerialize_sizeQuery o ho
    rw [paymentRefundTo]
    simp only [q1]
    have hfit : (outputBytes o).length ≤
        (if (outputBytes o).length > sBuf.length then
          sBuf ++ List.replicate ((outputBytes o).length - sBuf.length) 0
        else sBuf).length := by
      split
      · simp only [List.length_append, List.length_replicate]
        omega
      · omega
    have hlen : ((if (outputBytes o).length > sBuf.length then
          sBuf ++ List.replicate ((outputBytes o).length - sBuf.length) 0
        else sBuf).take (outputBytes o).length).length = (outputBytes o).length := by
      rw [List.length_take, Nat.min_eq_left hfit]
    rw [(q2 _).1 (by rw [hlen])]
    simp only [Option.getD_some]
    rw [List.drop_of_length_le (by rw [hlen]), List.append_nil]
    have w := setBytes_writes (outputBytes o ++
        (if (outputBytes o).length > sBuf.length then
          sBuf ++ List.replicate ((outputBytes o).length - sBuf.length) 0
        else sBuf).drop (outputBytes o).length) (outputBytes o).length 3 (by norm_num)
      (by simp)
    rw [List.take_left] at w
    have hfe : (fieldBytes (3 * 8 + 2) 0 (outputBytes o)).length =
        (fieldBytes 26 0 (outputBytes o)).length := rfl
    obtain ⟨buf1, e1, w1⟩ := (w buf off (by omega)).some_eq
    dsimp only at e1
    have e2 : _ProtoBufSetBytes buf (some (outputBytes o ++
        (if (outputBytes o).length > sBuf.length then
          sBuf ++ List.replicate ((outputBytes o).length - sBuf.length) 0
        else sBuf).drop (outputBytes o).length)) (outputBytes o).length payment_refund_to off =
        some (buf1, off + (fieldBytes (3 * 8 + 2) 0 (outputBytes o)).length) := e1
    rw [e2]
    exact Wrote.append w1 (ih _ buf1 _ (by omega))

theorem paymentLoops_writes (t : TxCodec) (txBytes : LWTransaction → List Nat)
    (htx : ∀ tx, SizeQuery (t.LWTransactionSerialize tx) (txBytes tx))
    (p : LWPaymentProtocolPayment) :
    Writes (fun buf off => paymentLoops t p buf off)
      ((p.transactions.map (fun tx => fieldBytes 18 0 (txBytes tx))).flatten ++
        (p.refundTo.map (fun o => fieldBytes 26 0 (outputBytes o))).flatten) := by
  intro buf off hoff
  rw [List.length_append] at hoff
  obtain ⟨sBuf1, buf1, off1, e1, w1⟩ := paymentTransactions_writes t txBytes htx
    p.transactions (List.replicate 0x100 0) buf off (by omega)
  unfold paymentLoops
  simp only [e1]
  obtain ⟨b1, eb, wb⟩ := w1.some_eq
  cases eb
  exact Wrote.append wb (paymentRefundTo_writes p.refundTo sBuf1 buf1 _ (by omega))

theorem paymentSerialize_eq (t : TxCodec) (p : LWPaymentProtocolPayment)
    (buf : Option (List Nat)) :
    LWPaymentProtocolPaymentSerialize t p buf =
      match seqW (whenW p.merchantData.isSome (fun b off => _ProtoBufSetBytes b p.merchantData
            (p.merchantData.getD []).length payment_merch_data off))
        (seqW (fun b off => paymentLoops t p b off)
          (whenW p.memo.isSome (fun b off => _ProtoBufSetString b p.memo payment_memo off)))
          buf 0 with
      | none => none
      | some (buf1, off1) => serializeUnknown p.unknown buf1 off1 := by
  unfold LWPaymentProtocolPaymentSerialize seqW whenW
  cases p.merchantData.isSome <;> cases p.memo.isSome <;>
  simp only [Bool.false_eq_true, if_true, if_false]
  all_goals repeat' first
    | rfl
    | split

theorem paymentSerialize_sizeQuery (t : TxCodec) (txBytes : LWTransaction → List Nat)
    (htx : ∀ tx, SizeQuery (t.LWTransactionSerialize tx) (txBytes tx))
    (p : LWPaymentProtocolPayment) (h : (paymentBytes txBytes p).length < 2 ^ 64) :
    SizeQuery (LWPaymentProtocolPaymentSerialize t p) (paymentBytes txBytes p) := by
  have hw := Writes.seq (setBytes_all_writes p.merchantData 1 (by norm_num))
    (Writes.seq (paymentLoops_writes t txBytes htx p)
      (Writes.when p.memo.isSome (fun _ => setString_writes p.memo 4 (by norm_num))))
  have hb : paymentBytes txBytes p =
      (part p.merchantData.isSome (fieldBytes 10 0 (p.merchantData.getD [])) ++
      (((p.transactions.map (fun tx => fieldBytes 18 0 (txBytes tx))).flatten ++
        (p.refundTo.map (fun o => fieldBytes 26 0 (outputBytes o))).flatten) ++
      part p.memo.isSome (fieldBytes 34 0 (cstr (p.memo.getD []))))) ++ p.unknown.getD [] := by
    unfold paymentBytes
    simp only [List.append_assoc]
  rw [hb] at h ⊢
  have := sizeQuery_of_writes hw p.unknown h
  rw [show LWPaymentProtocolPaymentSerialize t p = _ from funext (paymentSerialize_eq t p)]
  exact this

theorem ackSerialize_eq (t : TxCodec) (a : LWPaymentProtocolACK)
    (p : LWPaymentProtocolPayment) (hp : a.payment = some p) (buf : Option (List Nat)) :
    LWPaymentProtocolACKSerialize t a buf =
      match seqW (fun b off =>
            match LWPaymentProtocolPaymentSerialize t p none with
            | none => none
            | some (paymentLen, _) =>
              match LWPaymentProtocolPaymentSerialize t p
                  (some (List.replicate paymentLen 0)) with
              | none => none
              | some (paymentLen1, paymentBuf) =>
                _ProtoBufSetBytes b paymentBuf paymentLen1 ack_payment off)
          (whenW a.memo.isSome (fun b off => _ProtoBufSetString b a.memo ack_memo off))
          buf 0 with
      | none => none
      | some (buf1, off1) => serializeUnknown a.unknown buf1 off1 := by
  unfold LWPaymentProtocolACKSerialize seqW whenW
  rw [hp]
  cases a.memo.isSome <;>
  simp only [Bool.false_eq_true, if_true, if_false]
  all_goals repeat' first
    | rfl
    | split

theorem ackPayment_writes (t : TxCodec) (txBytes : LWTransaction → List Nat)
    (htx : ∀ tx, SizeQuery (t.LWTransactionSerialize tx) (txBytes tx))
    (p : LWPaymentProtocolPayment) :
    Writes (fun b off =>
        match LWPaymentProtocolPaymentSerialize t p none with
        | none => none
        | some (paymentLen, _) =>
          match LWPaymentProtocolPaymentSerialize t p (some (List.replicate paymentLen 0)) with
          | none => none
          | some (paymentLen1, paymentBuf) =>
            _ProtoBufSetBytes b paymentBuf paymentLen1 ack_payment off)
      (fieldBytes 10 0 (paymentBytes txBytes p)) := by
  intro buf off hoff
  dsimp only
  have hfl := fieldBytes_length_le 10 0 (paymentBytes txBytes p) (by norm_num)
  obtain ⟨q1, q2⟩ := paymentSerialize_sizeQuery t txBytes htx p (by omega)
  simp only [q1]
  rw [(q2 _).1 (by rw [List.length_replicate])]
  simp only
  have w := setBytes_writes (paymentBytes txBytes p ++
      (List.replicate (paymentBytes txBytes p).length 0).drop (paymentBytes txBytes p).length)
    (paymentBytes txBytes p).length 1 (by norm_num) (by simp)
  rw [List.take_left] at w
  exact w buf off hoff

theorem ackSerialize_sizeQuery (t : TxCodec) (txBytes : LWTransaction → List Nat)
    (htx : ∀ tx, SizeQuery (t.LWTransactionSerialize tx) (txBytes tx))
    (a : LWPaymentProtocolACK) (hp : a.payment.isSome = true)
    (h : (ackBytes txBytes a).length < 2 ^ 64) :
    SizeQuery (LWPaymentProtocolACKSerialize t a) (ackBytes txBytes a) := by
  obtain ⟨p, hp⟩ := Option.isSome_iff_exists.1 hp
  have hw := Writes.seq (ackPayment_writes t txBytes htx p)
    (Writes.when a.memo.isSome (fun _ => setString_writes a.memo 2 (by norm_num)))
  have hb : ackBytes txBytes a = (fieldBytes 10 0 (paymentBytes txBytes p) ++
      part a.memo.isSome (fieldBytes 18 0 (cstr (a.memo.getD [])))) ++ a.unknown.getD [] := by
    unfold ackBytes
    rw [hp]
    simp only [List.append_assoc, Option.map_some', Option.getD_some]
  rw [hb] at h ⊢
  have := sizeQuery_of_writes hw a.unknown h
  rw [show LWPaymentProtocolACKSerialize t a = _ from funext (ackSerialize_eq t a p hp)]
  exact this

theorem invoiceRequestSerialize_eq (c : Crypto) (r : LWPaymentProtocolInvoiceRequest)
    (buf : Option (List Nat)) :
    LWPaymentProtocolInvoiceRequestSerialize c r buf =
      match seqW (fun b off => _ProtoBufSetBytes b (some (LWKeyPubKey c r.senderPubKey))
          (LWKeyPubKey c r.senderPubKey).length invoice_req_sender_pk off)
        (seqW (whenW (!r.defaultAmount) (fun b off =>
          _ProtoBufSetInt b r.amount invoice_req_amount off))
        (seqW (whenW (!r.defaultPkiType) (fun b off =>
          _ProtoBufSetString b r.pkiType invoice_req_pki_type off))
        (seqW (whenW r.pkiData.isSome (fun b off => _ProtoBufSetBytes b r.pkiData
          (r.pkiData.getD []).length invoice_req_pki_data off))
        (seqW (whenW r.memo.isSome (fun b off =>
          _ProtoBufSetString b r.memo invoice_req_memo off))
        (seqW (whenW r.notifyUrl.isSome (fun b off =>
          _ProtoBufSetString b r.notifyUrl invoice_req_notify_url off))
          (whenW r.signature.isSome (fun b off => _ProtoBufSetBytes b r.signature
            (r.signature.getD []).length invoice_req_signature off))))))) buf 0 with
      | none => none
      | some (buf1, off1) => serializeUnknown r.unknown buf1 off1 := by
  unfold LWPaymentProtocolInvoiceRequestSerialize seqW whenW
  cases r.defaultAmount <;> cases r.defaultPkiType <;>
  simp only [Bool.not_true, Bool.not_false, Bool.false_eq_true, if_true, if_false]
  all_goals repeat' first
    | rfl
    | split

theorem invoiceRequestSerialize_sizeQuery (c : Crypto) (r : LWPaymentProtocolInvoiceRequest)
    (h : (invoiceRequestBytes c r).length < 2 ^ 64) :
    SizeQuery (LWPaymentProtocolInvoiceRequestSerialize c r) (invoiceRequestBytes c r) := by
  have hw := Writes.seq (setBytes_some_writes (LWKeyPubKey c r.senderPubKey) 1 (by norm_num))
    (Writes.seq (Writes.when (!r.defaultAmount)
      (fun _ => setInt_writes r.amount 2 (by norm_num)))
    (Writes.seq (Writes.when (!r.defaultPkiType)
      (fun _ => setString_writes r.pkiType 3 (by norm_num)))
    (Writes.seq (setBytes_all_writes r.pkiData 4 (by norm_num))
    (Writes.seq (Writes.when r.memo.isSome
      (fun _ => setString_writes r.memo 5 (by norm_num)))
    (Writes.seq (Writes.when r.notifyUrl.isSome
      (fun _ => setString_writes r.notifyUrl 6 (by norm_num)))
      (setBytes_all_writes r.signature 7 (by norm_num)))))))
  have hb : invoiceRequestBytes c r = (fieldBytes 10 0 (LWKeyPubKey c r.senderPubKey) ++
      (part (!r.defaultAmount) (fieldBytes 16 r.amount []) ++
      (part (!r.defaultPkiType) (fieldBytes 26 0 (cstr (r.pkiType.getD []))) ++
      (part r.pkiData.isSome (fieldBytes 34 0 (r.pkiData.getD [])) ++
      (part r.memo.isSome (fieldBytes 42 0 (cstr (r.memo.getD []))) ++
      (part r.notifyUrl.isSome (fieldBytes 50 0 (cstr (r.notifyUrl.getD []))) ++
      part r.signature.isSome (fieldBytes 58 0 (r.signature.getD [])))))))) ++
      r.unknown.getD [] := by
    unfold invoiceRequestBytes
    simp only [List.append_assoc]
  rw [hb] at h ⊢
  have := sizeQuery_of_writes hw r.unknown h
  rw [show LWPaymentProtocolInvoiceRequestSerialize c r = _ from
    funext (invoiceRequestSerialize_eq c r)]
  exact this

theorem messageSerialize_eq (m : LWPaymentProtocolMessage) (message : List Nat)
    (hm : m.message = some message) (buf : Option (List Nat)) :
    LWPaymentProtocolMessageSerialize m buf =
      match seqW (fun b off => _ProtoBufSetInt b m.msgType message_msg_type off)
        (seqW (fun b off => _ProtoBufSetBytes b (some message) message.length
          message_message off)
        (seqW (whenW (!m.defaultStatusCode) (fun b off =>
          _ProtoBufSetInt b m.statusCode message_status_code off))
        (seqW (whenW m.statusMsg.isSome (fun b off =>
          _ProtoBufSetString b m.statusMsg message_status_msg off))
          (whenW m.identifier.isSome (fun b off => _ProtoBufSetBytes b m.identifier
            (m.identifier.getD []).length message_identifier off))))) buf 0 with
      | none => none
      | some (buf1, off1) => serializeUnknown m.unknown buf1 off1 := by
  unfold LWPaymentProtocolMessageSerialize seqW whenW
  rw [hm]
  cases m.defaultStatusCode <;>
  simp only [Bool.not_true, Bool.not_false, Bool.false_eq_true, if_true, if_false]
  all_goals repeat' first
    | rfl
    | split

theorem messageSerialize_sizeQuery (m : LWPaymentProtocolMessage)
    (hm : m.message.isSome = true) (h : (messageBytes m).length < 2 ^ 64) :
    SizeQuery (LWPaymentProtocolMessageSerialize m) (messageBytes m) := by
  obtain ⟨message, hm⟩ := Option.isSome_iff_exists.1 hm
  have hw := Writes.seq (setInt_writes m.msgType 1 (by norm_num))
    (Writes.seq (setBytes_some_writes message 2 (by norm_num))
    (Writes.seq (Writes.when (!m.defaultStatusCode)
      (fun _ => setInt_writes m.statusCode 3 (by norm_num)))
    (Writes.seq (Writes.when m.statusMsg.isSome
      (fun _ => setString_writes m.statusMsg 4 (by norm_num)))
      (setBytes_all_writes m.identifier 5 (by norm_num)))))
  have hb : messageBytes m = (fieldBytes 8 m.msgType [] ++ (fieldBytes 18 0 message ++
      (part (!m.defaultStatusCode) (fieldBytes 24 m.statusCode []) ++
      (part m.statusMsg.isSome (fieldBytes 34 0 (cstr (m.statusMsg.getD []))) ++
      part m.identifier.isSome (fieldBytes 42 0 (m.identifier.getD [])))))) ++
      m.unknown.getD [] := by
    unfold messageBytes
    rw [hm]
    simp only [List.append_assoc, Option.getD_some]
  rw [hb] at h ⊢
  have := sizeQuery_of_writes hw m.unknown h
  rw [show LWPaymentProtocolMessageSerialize m = _ from
    funext (messageSerialize_eq m message hm)]
  exact this

theorem paymentStep_unknown (t : TxCodec) (s : LWPaymentProtocolPayment) (key i : Nat)
    (data : Option (List Nat)) (len : Nat) (hk : (key >>> 3) ∉ paymentKeys) :
    paymentStep t s key i data len =
      (_ProtoBufUnknown s.unknown key i data len).map (fun u => { s with unknown := u }) := by
  unfold paymentKeys at hk
  simp only [List.mem_cons, List.mem_singleton, List.not_mem_nil, or_false, not_or] at hk
  obtain ⟨h1, h2, h3, h4⟩ := hk
  unfold paymentStep
  rw [if_neg (show ¬ key >>> 3 = payment_transactions from h2),
    if_neg (show ¬ key >>> 3 = payment_refund_to from h3),
    if_neg (show ¬ key >>> 3 = payment_memo from h4),
    if_neg (show ¬ key >>> 3 = payment_merch_data from h1)]

theorem paymentStep_known (t : TxCodec) (s : LWPaymentProtocolPayment) (key i : Nat)
    (data : Option (List Nat)) (len : Nat) (s1 : LWPaymentProtocolPayment)
    (hk : (key >>> 3) ∈ paymentKeys) (hs : paymentStep t s key i data len = some s1) :
    s1.unknown = s.unknown := by
  unfold paymentStep at hs
  by_cases n2 : key >>> 3 = payment_transactions
  · rw [if_pos n2] at hs
    cases h1 : t.LWTransactionParse data len with
    | none => rw [h1] at hs; cases hs
    | some x =>
      rw [h1] at hs
      cases x with
      | none => cases hs; rfl
      | some tx => cases hs; rfl
  · rw [if_neg n2] at hs
    by_cases n3 : key >>> 3 = payment_refund_to
    · rw [if_pos n3] at hs
      cases h1 : _LWPaymentProtocolOutputParse data len with
      | none => rw [h1] at hs; cases hs
      | some x =>
        rw [h1] at hs
        cases x with
        | none => cases hs; rfl
        | some out => cases hs; rfl
    · rw [if_neg n3] at hs
      by_cases n4 : key >>> 3 = payment_memo
      · rw [if_pos n4] at hs
        cases h1 : _ProtoBufString s.memo data len with
        | none => rw [h1] at hs; cases hs
        | some x => rw [h1] at hs; cases hs; rfl
      · rw [if_neg n4] at hs
        by_cases n1 : key >>> 3 = payment_merch_data
        · rw [if_pos n1] at hs
          cases h1 : _ProtoBufBytes s.merchantData data len with
          | none => rw [h1] at hs; cases hs
          | some x => rw [h1] at hs; cases hs; rfl
        · unfold paymentKeys at hk
          simp only [List.mem_cons, List.mem_singleton, List.not_mem_nil, or_false] at hk
          rcases hk with h | h | h | h
          · exact absurd h n1
          · exact absurd h n2
          · exact absurd h n3
          · exact absurd h n4

theorem ackStep_unknown (t : TxCodec) (s : LWPaymentProtocolACK) (key i : Nat)
    (data : Option (List Nat)) (len : Nat) (hk : (key >>> 3) ∉ ackKeys) :
    ackStep t s key i data len =
      (_ProtoBufUnknown s.unknown key i data len).map (fun u => { s with unknown := u }) := by
  unfold ackKeys at hk
  simp only [List.mem_cons, List.mem_singleton, List.not_mem_nil, or_false, not_or] at hk
  obtain ⟨h1, h2⟩ := hk
  unfold ackStep
  rw [if_neg (show ¬ key >>> 3 = ack_payment from h1),
    if_neg (show ¬ key >>> 3 = ack_memo from h2)]

theorem ackStep_known (t : TxCodec) (s : LWPaymentProtocolACK) (key i : Nat)
    (data : Option (List Nat)) (len : Nat) (s1 : LWPaymentProtocolACK)
    (hk : (key >>> 3) ∈ ackKeys) (hs : ackStep t s key i data len = some s1) :
    s1.unknown = s.unknown := by
  unfold ackStep at hs
  by_cases n1 : key >>> 3 = ack_payment
  · rw [if_pos n1] at hs
    cases h1 : LWPaymentProtocolPaymentParse t data len with
    | none => rw [h1] at hs; cases hs
    | some x => rw [h1] at hs; cases hs; rfl
  · rw [if_neg n1] at hs
    by_cases n2 : key >>> 3 = ack_memo
    · rw [if_pos n2] at hs
      cases h1 : _ProtoBufString s.memo data len with
      | none => rw [h1] at hs; cases hs
      | some x => rw [h1] at hs; cases hs; rfl
    · unfold ackKeys at hk
      simp only [List.mem_cons, List.mem_singleton, List.not_mem_nil, or_false] at hk
      rcases hk with h | h
      · exact absurd h n1
      · exact absurd h n2

theorem invoiceRequestStep_unknown (c : Crypto) (s : InvoiceRequestState) (key i : Nat)
    (data : Option (List Nat)) (len : Nat) (hk : (key >>> 3) ∉ invoiceRequestKeys) :
    invoiceRequestStep c s key i data len =
      (_ProtoBufUnknown s.req.unknown key i data len).map
        (fun u => { s with req := { s.req with unknown := u } }) := by
  unfold invoiceRequestKeys at hk
  simp only [List.mem_cons, List.mem_singleton, List.not_mem_nil, or_false, not_or] at hk
  obtain ⟨h1, h2, h3, h4, h5, h6, h7⟩ := hk
  unfold invoiceRequestStep
  rw [if_neg (show ¬ key >>> 3 = invoice_req_sender_pk from h1),
    if_neg (show ¬ key >>> 3 = invoice_req_amount from h2),
    if_neg (show ¬ key >>> 3 = invoice_req_pki_type from h3),
    if_neg (show ¬ key >>> 3 = invoice_req_pki_data from h4),
    if_neg (show ¬ key >>> 3 = invoice_req_memo from h5),
    if_neg (show ¬ key >>> 3 = invoice_req_notify_url from h6),
    if_neg (show ¬ key >>> 3 = invoice_req_signature from h7)]

theorem invoiceRequestStep_known (c : Crypto) (s : InvoiceRequestState) (key i : Nat)
    (data : Option (List Nat)) (len : Nat) (s1 : InvoiceRequestState)
    (hk : (key >>> 3) ∈ invoiceRequestKeys)
    (hs : invoiceRequestStep c s key i data len = some s1) :
    s1.req.unknown = s.req.unknown := by
  unfold invoiceRequestStep at hs
  by_cases n1 : key >>> 3 = invoice_req_sender_pk
  · rw [if_pos n1] at hs
    cases h1 : LWKeySetPubKey c data len with
    | none => rw [h1] at hs; cases hs
    | some x => rw [h1] at hs; cases hs; rfl
  · rw [if_neg n1] at hs
    by_cases n2 : key >>> 3 = invoice_req_amount
    · rw [if_pos n2] at hs
      cases hs
      rfl
    · rw [if_neg n2] at hs
      by_cases n3 : key >>> 3 = invoice_req_pki_type
      · rw [if_pos n3] at hs
        cases h1 : _ProtoBufString s.req.pkiType data len with
        | none => rw [h1] at hs; cases hs
        | some x => rw [h1] at hs; cases hs; rfl
      · rw [if_neg n3] at hs
        by_cases n4 : key >>> 3 = invoice_req_pki_data
        · rw [if_pos n4] at hs
          cases h1 : _ProtoBufBytes s.req.pkiData data len with
          | none => rw [h1] at hs; cases hs
          | some x => rw [h1] at hs; cases hs; rfl
        · rw [if_neg n4] at hs
          by_cases n5 : key >>> 3 = invoice_req_memo
          · rw [if_pos n5] at hs
            cases h1 : _ProtoBufString s.req.memo data len with
            | none => rw [h1] at hs; cases hs
            | some x => rw [h1] at hs; cases hs; rfl
          · rw [if_neg n5] at hs
            by_cases n6 : key >>> 3 = invoice_req_notify_url
            · rw [if_pos n6] at hs
              cases h1 : _ProtoBufString s.req.notifyUrl data len with
              | none => rw [h1] at hs; cases hs
              | some x => rw [h1] at hs; cases hs; rfl
            · rw [if_neg n6] at hs
              by_cases n7 : key >>> 3 = invoice_req_signature
              · rw [if_pos n7] at hs
                cases h1 : _ProtoBufBytes s.req.signature data len with
                | none => rw [h1] at hs; cases hs
                | some x => rw [h1] at hs; cases hs; rfl
              · unfold invoiceRequestKeys at hk
                simp only [List.mem_cons, List.mem_singleton, List.not_mem_nil, or_false] at hk
                rcases hk with h | h | h | h | h | h | h
                · exact absurd h n1
                · exact absurd h n2
                · exact absurd h n3
                · exact absurd h n4
                · exact absurd h n5
                · exact absurd h n6
                · exact absurd h n7

theorem messageStep_unknown (s : MessageState) (key i : Nat)
    (data : Option (List Nat)) (len : Nat) (hk : (key >>> 3) ∉ messageKeys) :
    messageStep s key i data len =
      (_ProtoBufUnknown s.msg.unknown key i data len).map
        (fun u => { s with msg := { s.msg with unknown := u } }) := by
  unfold messageKeys at hk
  simp only [List.mem_cons, List.mem_singleton, List.not_mem_nil, or_false, not_or] at hk
  obtain ⟨h1, h2, h3, h4, h5⟩ := hk
  unfold messageStep
  rw [if_neg (show ¬ key >>> 3 = message_msg_type from h1),
    if_neg (show ¬ key >>> 3 = message_message from h2),
    if_neg (show ¬ key >>> 3 = message_status_code from h3),
    if_neg (show ¬ key >>> 3 = message_status_msg from h4),
    if_neg (show ¬ key >>> 3 = message_identifier from h5)]

theorem messageStep_known (s : MessageState) (key i : Nat)
    (data : Option (List Nat)) (len : Nat) (s1 : MessageState)
    (hk : (key >>> 3) ∈ messageKeys) (hs : messageStep s key i data len = some s1) :
    s1.msg.unknown = s.msg.unknown := by
  unfold messageStep at hs
  by_cases n1 : key >>> 3 = message_msg_type
  · rw [if_pos n1] at hs
    cases hs
    rfl
  · rw [if_neg n1] at hs
    by_cases n2 : key >>> 3 = message_message
    · rw [if_pos n2] at hs
      cases h1 : _ProtoBufBytes s.msg.message data len with
      | none => rw [h1] at hs; cases hs
      | some x => rw [h1] at hs; cases hs; rfl
    · rw [if_neg n2] at hs
      by_cases n3 : key >>> 3 = message_status_code
      · rw [if_pos n3] at hs
        cases hs
        rfl
      · rw [if_neg n3] at hs
        by_cases n4 : key >>> 3 = message_status_msg
        · rw [if_pos n4] at hs
          cases h1 : _ProtoBufString s.msg.statusMsg data len with
          | none => rw [h1] at hs; cases hs
          | some x => rw [h1] at hs; cases hs; rfl
        · rw [if_neg n4] at hs
          by_cases n5 : key >>> 3 = message_identifier
          · rw [if_pos n5] at hs
            cases h1 : _ProtoBufBytes s.msg.identifier data len with
            | none => rw [h1] at hs; cases hs
            | some x => rw [h1] at hs; cases hs; rfl
          · unfold messageKeys at hk
            simp only [List.mem_cons, List.mem_singleton, List.not_mem_nil, or_false] at hk
            rcases hk with h | h | h | h | h
            · exact absurd h n1
            · exact absurd h n2
            · exact absurd h n3
            · exact absurd h n4
            · exact absurd h n5

/-- C33 (amended).  What the parsers keep of the non-recognized fields.  `fs` are the
fields that the loop of a parser reads from the input, and `txBytes` is the serialization
of a transaction, with which `LWTransactionSerialize` follows the size-query convention.
For each of the request, details, payment, ACK, invoice request, message and encrypted
message parsers: if the parser accepts the input, every field with a field number that the
message does not define is one that `_ProtoBufUnknown` stores in full (the data of a
length-delimited field lie within the input, the coding fits the local buffer of ten bytes
plus the data), and the serialization has fewer than 2^64 bytes, then the serializer gives
the byte string of the parsed message (its length for a NULL buffer, the bytes in a buffer
of that length), and every such field whose key is not the key of a later field of the
input appears in it with its key and its value. -/
theorem unknown_fields_preserved (c : Crypto) (t : TxCodec)
    (txBytes : LWTransaction → List Nat)
    (htx : ∀ tx, SizeQuery (t.LWTransactionSerialize tx) (txBytes tx))
    (b : List Nat) (bufLen : Nat) (fs : List (Nat × Nat × Option (List Nat) × Nat))
    (hfs : readFields true (some b) bufLen (bufLen + 1) 0 = some fs) :
    (∀ r, LWPaymentProtocolRequestParse (some b) bufLen = some (some r) →
      AllKept requestKeys fs → (requestBytes r).length < 2 ^ 64 →
      LWPaymentProtocolRequestSerialize r none = some ((requestBytes r).length, none) ∧
      (∀ l : List Nat, l.length = (requestBytes r).length →
        LWPaymentProtocolRequestSerialize r (some l) =
          some ((requestBytes r).length, some (requestBytes r))) ∧
      Preserved requestKeys fs (requestBytes r)) ∧
    (∀ d, LWPaymentProtocolDetailsParse (some b) bufLen = some d →
      AllKept detailsKeys fs → (detailsBytes d).length < 2 ^ 64 →
      LWPaymentProtocolDetailsSerialize d none = some ((detailsBytes d).length, none) ∧
      (∀ l : List Nat, l.length = (detailsBytes d).length →
        LWPaymentProtocolDetailsSerialize d (some l) =
          some ((detailsBytes d).length, some (detailsBytes d))) ∧
      Preserved detailsKeys fs (detailsBytes d)) ∧
    (∀ p, LWPaymentProtocolPaymentParse t (some b) bufLen = some p →
      AllKept paymentKeys fs → (paymentBytes txBytes p).length < 2 ^ 64 →
      LWPaymentProtocolPaymentSerialize t p none =
        some ((paymentBytes txBytes p).length, none) ∧
      (∀ l : List Nat, l.length = (paymentBytes txBytes p).length →
        LWPaymentProtocolPaymentSerialize t p (some l) =
          some ((paymentBytes txBytes p).length, some (paymentBytes txBytes p))) ∧
      Preserved paymentKeys fs (paymentBytes txBytes p)) ∧
    (∀ a, LWPaymentProtocolACKParse t (some b) bufLen = some (some a) →
      AllKept ackKeys fs → (ackBytes txBytes a).length < 2 ^ 64 →
      LWPaymentProtocolACKSerialize t a none = some ((ackBytes txBytes a).length, none) ∧
      (∀ l : List Nat, l.length = (ackBytes txBytes a).length →
        LWPaymentProtocolACKSerialize t a (some l) =
          some ((ackBytes txBytes a).length, some (ackBytes txBytes a))) ∧
      Preserved ackKeys fs (ackBytes txBytes a)) ∧
    (∀ r, LWPaymentProtocolInvoiceRequestParse c (some b) bufLen = some (some r) →
      AllKept invoiceRequestKeys fs → (invoiceRequestBytes c r).length < 2 ^ 64 →
      LWPaymentProtocolInvoiceRequestSerialize c r none =
        some ((invoiceRequestBytes c r).length, none) ∧
      (∀ l : List Nat, l.length = (invoiceRequestBytes c r).length →
        LWPaymentProtocolInvoiceRequestSerialize c r (some l) =
          some ((invoiceRequestBytes c r).length, some (invoiceRequestBytes c r))) ∧
      Preserved invoiceRequestKeys fs (invoiceRequestBytes c r)) ∧
    (∀ m, LWPaymentProtocolMessageParse (some b) bufLen = some (some m) →
      AllKept messageKeys fs → (messageBytes m).length < 2 ^ 64 →
      LWPaymentProtocolMessageSerialize m none = some ((messageBytes m).length, none) ∧
      (∀ l : List Nat, l.length = (messageBytes m).length →
        LWPaymentProtocolMessageSerialize m (some l) =
          some ((messageBytes m).length, some (messageBytes m))) ∧
      Preserved messageKeys fs (messageBytes m)) ∧
    (∀ m, LWPaymentProtocolEncryptedMessageParse c (some b) bufLen = some (some m) →
      AllKept encryptedKeys fs → (encryptedBytes c m).length < 2 ^ 64 →
      LWPaymentProtocolEncryptedMessageSerialize c m none =
        some ((encryptedBytes c m).length, none) ∧
      (∀ l : List Nat, l.length = (encryptedBytes c m).length →
        LWPaymentProtocolEncryptedMessageSerialize c m (some l) =
          some ((encryptedBytes c m).length, some (encryptedBytes c m))) ∧
      Preserved encryptedKeys fs (encryptedBytes c m)) := by
  refine ⟨?_, ?_, ?_, ?_, ?_, ?_, ?_⟩
  · intro r hparse hkept h64
    obtain ⟨_, hsig, d, hd, _⟩ := requestParse_inv hparse
    obtain ⟨q1, q2⟩ := exact_of_sizeQuery
      (requestSerialize_sizeQuery r (by rw [hd]; rfl) (by omega) h64)
    refine ⟨q1, q2, ?_⟩
    unfold LWPaymentProtocolRequestParse at hparse
    rw [if_neg (by simp)] at hparse
    cases hloop : parseLoop requestStep true (some b) bufLen (bufLen + 1) 0
        { version := 1, pkiType := none, pkiData := none, details := none, signature := none,
          sigLen := 0, defaultVersion := true, defaultPkiType := false, unknown := none } with
    | none => rw [hloop] at hparse; cases hparse
    | some r1 =>
      rw [hloop] at hparse
      have hu : r.unknown = r1.unknown := by
        simp only at hparse
        cases hp : r1.pkiType with
        | none =>
          rw [hp] at hparse
          simp only at hparse
          split at hparse
          · cases hparse
          · cases hparse; rfl
        | some x =>
          rw [hp] at hparse
          simp only at hparse
          split at hparse
          · cases hparse
          · cases hparse; rfl
      unfold requestBytes
      rw [hu]
      exact parse_preserved requestStep requestKeys (fun s => s.unknown)
        (fun s u => { s with unknown := u }) (fun _ _ => rfl) requestStep_unknown
        requestStep_known hfs hloop rfl hkept _
  · intro d hparse hkept h64
    obtain ⟨q1, q2⟩ := exact_of_sizeQuery (detailsSerialize_sizeQuery d h64)
    refine ⟨q1, q2, ?_⟩
    unfold LWPaymentProtocolDetailsParse at hparse
    rw [if_neg (by simp)] at hparse
    cases hloop : parseLoop detailsStep true (some b) bufLen (bufLen + 1) 0
        { network := none, outputs := [], time := 0, expires := 0, memo := none,
          paymentURL := none, merchantData := none, defaultNetwork := false,
          defaultTime := true, defaultExpires := true, unknown := none } with
    | none => rw [hloop] at hparse; cases hparse
    | some d1 =>
      rw [hloop] at hparse
      have hu : d.unknown = d1.unknown := by
        simp only at hparse
        split at hparse
        · cases hparse; rfl
        · cases hparse; rfl
      unfold detailsBytes
      rw [hu]
      exact parse_preserved detailsStep detailsKeys (fun s => s.unknown)
        (fun s u => { s with unknown := u }) (fun _ _ => rfl) detailsStep_unknown
        detailsStep_known hfs hloop rfl hkept _
  · intro p hparse hkept h64
    obtain ⟨q1, q2⟩ := exact_of_sizeQuery (paymentSerialize_sizeQuery t txBytes htx p h64)
    refine ⟨q1, q2, ?_⟩
    unfold LWPaymentProtocolPaymentParse at hparse
    rw [if_neg (by simp)] at hparse
    unfold paymentBytes
    exact parse_preserved (paymentStep t) paymentKeys (fun s => s.unknown)
      (fun s u => { s with unknown := u }) (fun _ _ => rfl) (paymentStep_unknown t)
      (paymentStep_known t) hfs hparse rfl hkept _
  · intro a hparse hkept h64
    unfold LWPaymentProtocolACKParse at hparse
    rw [if_neg (by simp)] at hparse
    cases hloop : parseLoop (ackStep t) true (some b) bufLen (bufLen + 1) 0
        { payment := none, memo := none, unknown := none } with
    | none => rw [hloop] at hparse; cases hparse
    | some a1 =>
      rw [hloop] at hparse
      simp only at hparse
      split at hparse
      · cases hparse
      · rename_i hpay
        cases hparse
        have hp : a.payment.isSome = true := by
          cases hm : a.payment with
          | none => exact absurd (by rw [hm]; rfl) hpay
          | some x => rfl
        obtain ⟨q1, q2⟩ := exact_of_sizeQuery (ackSerialize_sizeQuery t txBytes htx a hp h64)
        refine ⟨q1, q2, ?_⟩
        unfold ackBytes
        exact parse_preserved (ackStep t) ackKeys (fun s => s.unknown)
          (fun s u => { s with unknown := u }) (fun _ _ => rfl) (ackStep_unknown t)
          (ackStep_known t) hfs hloop rfl hkept _
  · intro r hparse hkept h64
    obtain ⟨q1, q2⟩ := exact_of_sizeQuery (invoiceRequestSerialize_sizeQuery c r h64)
    refine ⟨q1, q2, ?_⟩
    unfold LWPaymentProtocolInvoiceRequestParse at hparse
    rw [if_neg (by simp)] at hparse
    cases hloop : parseLoop (invoiceRequestStep c) true (some b) bufLen (bufLen + 1) 0
        { req := { senderPubKey := ⟨List.replicate 32 0, List.replicate 65 0, false⟩,
                   amount := 0, pkiType := none, pkiData := none, memo := none,
                   notifyUrl := none, signature := none, defaultAmount := true,
                   defaultPkiType := false, unknown := none },
          gotSenderPK := false } with
    | none => rw [hloop] at hparse; cases hparse
    | some s1 =>
      rw [hloop] at hparse
      have hu : r.unknown = s1.req.unknown := by
        simp only at hparse
        split at hparse
        · cases hparse
        · cases hparse
          cases s1.req.pkiType <;> rfl
      unfold invoiceRequestBytes
      rw [hu]
      exact parse_preserved (invoiceRequestStep c) invoiceRequestKeys
        (fun s => s.req.unknown) (fun s u => { s with req := { s.req with unknown := u } })
        (fun _ _ => rfl) (invoiceRequestStep_unknown c) (invoiceRequestStep_known c) hfs
        hloop rfl hkept _
  · intro m hparse hkept h64
    unfold LWPaymentProtocolMessageParse at hparse
    rw [if_neg (by simp)] at hparse
    cases hloop : parseLoop messageStep true (some b) bufLen (bufLen + 1) 0
        { msg := { msgType := 0, message := none, statusCode := 0, statusMsg := none,
                   identifier := none, defaultStatusCode := true, unknown := none },
          gotMsgType := false } with
    | none => rw [hloop] at hparse; cases hparse
    | some s1 =>
      rw [hloop] at hparse
      simp only at hparse
      split at hparse
      · cases hparse
      · rename_i hreq
        cases hparse
        have hmsg : s1.msg.message.isSome = true := by
          cases hm : s1.msg.message with
          | none => exact absurd (Or.inr (by rw [hm]; rfl)) hreq
          | some x => rfl
        obtain ⟨q1, q2⟩ := exact_of_sizeQuery (messageSerialize_sizeQuery s1.msg hmsg h64)
        refine ⟨q1, q2, ?_⟩
        unfold messageBytes
        exact parse_preserved messageStep messageKeys (fun s => s.msg.unknown)
          (fun s u => { s with msg := { s.msg with unknown := u } }) (fun _ _ => rfl)
          messageStep_unknown messageStep_known hfs hloop rfl hkept _
  · intro m hparse hkept h64
    unfold LWPaymentProtocolEncryptedMessageParse at hparse
    rw [if_neg (by simp)] at hparse
    cases hloop : parseLoop (encryptedStep c) true (some b) bufLen (bufLen + 1) 0
        { msg := { msgType := 0, message := none,
                   receiverPubKey := ⟨List.replicate 32 0, List.replicate 65 0, false⟩,
                   senderPubKey := ⟨List.replicate 32 0, List.replicate 65 0, false⟩,
                   nonce := 0, signature := none, identifier := none, statusCode := 0,
                   statusMsg := none, defaultStatusCode := true, unknown := none },
          gotMsgType := false, gotNonce := false, gotReceiverPK := false,
          gotSenderPK := false } with
    | none => rw [hloop] at hparse; cases hparse
    | some s1 =>
      rw [hloop] at hparse
      simp only at hparse
      split at hparse
      · cases hparse
      · rename_i hreq
        cases hparse
        have hmsg : s1.msg.message.isSome = true := by
          cases hm : s1.msg.message with
          | none => exact absurd (Or.inr (Or.inl (by rw [hm]; rfl))) hreq
          | some x => rfl
        obtain ⟨q1, q2⟩ := exact_of_sizeQuery (encryptedSerialize_sizeQuery c s1.msg hmsg h64)
        refine ⟨q1, q2, ?_⟩
        unfold encryptedBytes
        exact parse_preserved (encryptedStep c) encryptedKeys (fun s => s.msg.unknown)
          (fun s u => { s with msg := { s.msg with unknown := u } }) (fun _ _ => rfl)
          (encryptedStep_unknown c) (encryptedStep_known c) hfs hloop rfl hkept _

/-- C33 (as stated, refuted): a non-recognized field that is lost.  On the input
`50 01 50 02` (field 10 with the value 1, then field 10 with the value 2)
`_ProtoBufUnknown` removes the stored field when it inserts the second one
(`if (k == key) array_rm_range(...)`): the details parser keeps `50 02` only, the
serialization is `50 02`, and the first field, `50 01`, is not in it.  The same happens in
the request parser on `22 00 50 01 50 02`. -/
theorem unknown_field_replaced :
    readFields true (some [0x50, 1, 0x50, 2]) 4 5 0 =
      some [(80, 1, none, 4), (80, 2, none, 4)] ∧
    storedField (80, 1, none, 4) = [0x50, 1] ∧
    (LWPaymentProtocolDetailsParse (some [0x50, 1, 0x50, 2]) 4).map (fun d => d.unknown) =
      some (some [0x50, 2]) ∧
    (LWPaymentProtocolDetailsParse (some [0x50, 1, 0x50, 2]) 4).bind
      (fun d => LWPaymentProtocolDetailsSerialize d (some [0, 0])) = some (2, some [0x50, 2]) ∧
    ¬ ([0x50, 1] : List Nat) <:+: [0x50, 2] ∧
    ((LWPaymentProtocolRequestParse (some [0x22, 0, 0x50, 1, 0x50, 2]) 6).bind id).bind
      (fun r => LWPaymentProtocolRequestSerialize r (some [0, 0, 0, 0])) =
        some (4, some [0x22, 0, 0x50, 2]) ∧
    ¬ ([0x50, 1] : List Nat) <:+: [0x22, 0, 0x50, 2] := by
  refine ⟨by decide, by decide, by decide, by decide, by decide, by decide, by decide⟩

theorem twoUnknown_kept : AllKept requestKeys twoUnknownFields := by
  refine ⟨?_, by decide⟩
  intro f hf
  have : f = (80, 1, none, 7) ∨ f = (160, 2, none, 7) := by
    simpa [unknownFields, twoUnknownFields, requestKeys] using hf
  rcases this with h | h <;> subst h <;>
    exact ⟨fun h => absurd h (by decide), by decide, by decide⟩

/-- A field with the key of a later field is not always removed: on the input
`50 01 a0 01 02 50 03` the details parser keeps `50 03 a0 01 02 50 01`, because the search
of `_ProtoBufUnknown` for the key 80 ends at the stored key 160. -/
theorem unknown_same_key_kept :
    (LWPaymentProtocolDetailsParse (some [0x50, 1, 0xa0, 1, 2, 0x50, 3]) 7).map
      (fun d => d.unknown) = some (some [0x50, 3, 0xa0, 1, 2, 0x50, 1]) := by
  decide

theorem twoUnknown_kept_payment : AllKept paymentKeys twoUnknownFields := by
  refine ⟨?_, by decide⟩
  intro f hf
  have : f = (80, 1, none, 7) ∨ f = (160, 2, none, 7) := by
    simpa [unknownFields, twoUnknownFields, paymentKeys] using hf
  rcases this with h | h <;> subst h <;>
    exact ⟨fun h => absurd h (by decide), by decide, by decide⟩

/-- C33 at a concrete input: the bytes `22 00 50 01 a0 01 02`, which are a request with an
empty details field and a payment with an empty memo, each with the unknown fields 10 and
20; both fields are in the serialization `22 00 a0 01 02 50 01` of either. -/
theorem unknown_fields_preserved_witness :
    (∀ tx, SizeQuery (toyTxCodec.LWTransactionSerialize tx) [tx.txHash % 256]) ∧
    readFields true (some twoUnknownInput) 7 (7 + 1) 0 = some twoUnknownFields ∧
    ((LWPaymentProtocolRequestParse (some twoUnknownInput) 7).bind id).map requestBytes =
      some [0x22, 0, 0xa0, 1, 2, 0x50, 1] ∧
    AllKept requestKeys twoUnknownFields ∧
    (∀ r, LWPaymentProtocolRequestParse (some twoUnknownInput) 7 = some (some r) →
      Preserved requestKeys twoUnknownFields (requestBytes r)) ∧
    (LWPaymentProtocolPaymentParse toyTxCodec (some twoUnknownInput) 7).map
        (paymentBytes (fun tx => [tx.txHash % 256])) = some [0x22, 0, 0xa0, 1, 2, 0x50, 1] ∧
    AllKept paymentKeys twoUnknownFields ∧
    (∀ p, LWPaymentProtocolPaymentParse toyTxCodec (some twoUnknownInput) 7 = some p →
      Preserved paymentKeys twoUnknownFields (paymentBytes (fun tx => [tx.txHash % 256]) p)) ∧
    storedField (80, 1, none, 7) = [0x50, 1] ∧ storedField (160, 2, none, 7) = [0xa0, 1, 2] :=
  ⟨fun tx => serializeBytes_sizeQuery _, by decide, by decide, twoUnknown_kept,
    fun r hr => ((unknown_fields_preserved toyCrypto toyTxCodec (fun tx => [tx.txHash % 256])
      (fun tx => serializeBytes_sizeQuery _) twoUnknownInput 7 twoUnknownFields
      (by decide)).1 r hr twoUnknown_kept (by
        have h : ((LWPaymentProtocolRequestParse (some twoUnknownInput) 7).bind id).map
            requestBytes = some [0x22, 0, 0xa0, 1, 2, 0x50, 1] := by decide
        rw [hr] at h
        have h2 : requestBytes r = [0x22, 0, 0xa0, 1, 2, 0x50, 1] := by simpa using h
        rw [h2]
        decide)).2.2,
    by decide, twoUnknown_kept_payment,
    fun p hp => ((unknown_fields_preserved toyCrypto toyTxCodec (fun tx => [tx.txHash % 256])
      (fun tx => serializeBytes_sizeQuery _) twoUnknownInput 7 twoUnknownFields
      (by decide)).2.2.1 p hp twoUnknown_kept_payment (by
        have h : (LWPaymentProtocolPaymentParse toyTxCodec (some twoUnknownInput) 7).map
            (paymentBytes (fun tx => [tx.txHash % 256])) =
              some [0x22, 0, 0xa0, 1, 2, 0x50, 1] := by decide
        rw [hp] at h
        have h2 : paymentBytes (fun tx => [tx.txHash % 256]) p =
            [0x22, 0, 0xa0, 1, 2, 0x50, 1] := by simpa using h
        rw [h2]
        decide)).2.2,
    by decide, by decide⟩

end LW
